import Mathlib

/-!
# algokit: red-black tree, linear-probing hash table, union-find, graphs, quicksort

A shallow embedding of `src/rbtree.c`, `src/hash_lp.c`, `src/uf_wqupc.c`,
`src/digraph.c`, `src/graph.c` and `src/sort_quick.c`, together with the
properties of the ordered-map engine, of the open-addressing table, of the
weighted union-find, of the graph algorithms and of the quicksort.

Conventions of the embedding:

* `Item` is the caller-owned key/value pair; keys and values are abstract
  types `K` and `V`, the user comparator is a function `cmp : K → K → Int`
  and the user hash a function `hash : K → Nat`.
* A node pointer is a value of `algokit_rbtree_node`; `NULL` is the
  constructor `null`.  The `int red` field only ever holds `0` or `1` and is
  a `Bool`.
* Recursive C functions whose recursion runs on a node that was rebuilt by a
  rotation (`remove_node`, `delete_min`) take a recursion budget and return
  `none` when it is used up; the entry point supplies the number of nodes plus
  one.  On valid trees the budget is never used up (`rbtree_remove_spec`), and
  a larger budget gives the same result (`remove_node_fuel_mono`).
* The probe loops of the hash table take a bound on the number of slots they
  visit and return `none` when they have not stopped within it; the entry
  points supply `capacity`.  A loop that visits `capacity` slots without
  stopping has seen every slot and does not stop at all
  (`get_none_forever`), so `none` stands for a call that never returns.
* `malloc` and `calloc` are modelled by a flag `alloc_ok` saying whether the
  allocations of the call succeed.
* The root loop of the union-find and the queue loops and the recursion of
  the graph algorithms take a bound on their rounds or depth in the same way;
  the entry points supply `n` or `size + 1`, and the theorems show that the
  bound is never used up on the structures the interface builds.
* A graph is its array of vertices with their adjacency lists (the `to`
  fields from the head of each list on) and its key map; an index read outside
  an array is given a fixed value that no theorem depends on.
* The array of the quicksort is a list and its indices are integers, as the
  `ptrdiff_t` indices of the code are; a read or write at an index outside the
  array makes the result `none`, as does a loop or a recursion that uses up
  its bound.
-/

set_option autoImplicit false

/-! ## Items and comparators -/

/-- The key/value pair of `item.h`. -/
structure Item (K V : Type) where
  key : K
  val : V
deriving DecidableEq, Repr

/-- A comparator in the sense of `algokit_key_cmp_fn` that orders the keys:
negative, zero, positive for less, equal, greater, consistently. -/
structure CmpOrder {K : Type} (cmp : K → K → Int) : Prop where
  antisymm : ∀ a b, cmp a b < 0 ↔ 0 < cmp b a
  le_trans : ∀ a b c, cmp a b ≤ 0 → cmp b c ≤ 0 → cmp a c ≤ 0

/-- The comparator used by the tests: `(va > vb) - (va < vb)` on integers. -/
def int_cmp (a b : Int) : Int :=
  (if a > b then 1 else 0) - (if a < b then 1 else 0)

/-! ## Red-black tree: data model -/

/-- A pointer to `struct algokit_rbtree_node`: `NULL` or a node with its
item, its two children and its colour. -/
inductive algokit_rbtree_node (K V : Type) where
  | null : algokit_rbtree_node K V
  | node (item : Item K V) (left right : algokit_rbtree_node K V) (red : Bool) :
      algokit_rbtree_node K V
deriving DecidableEq, Repr

/-- The tree handle `struct algokit_rbtree`; the comparator field is passed
to the operations as a parameter. -/
structure algokit_rbtree (K V : Type) where
  root : algokit_rbtree_node K V
deriving DecidableEq, Repr

namespace algokit_rbtree_node

variable {K V : Type}

/-- Field access `h->left`, defined as `NULL` on `NULL` so that the
short-circuit tests `is_red(h->left) && is_red(h->left->left)` read the same. -/
def get_left : algokit_rbtree_node K V → algokit_rbtree_node K V
  | null => null
  | node _ l _ _ => l

/-- Field access `h->right`. -/
def get_right : algokit_rbtree_node K V → algokit_rbtree_node K V
  | null => null
  | node _ _ r _ => r

/-- Assignment `h->left = l`. -/
def set_left : algokit_rbtree_node K V → algokit_rbtree_node K V → algokit_rbtree_node K V
  | null, _ => null
  | node i _ r c, l => node i l r c

/-- Assignment `h->right = r`. -/
def set_right : algokit_rbtree_node K V → algokit_rbtree_node K V → algokit_rbtree_node K V
  | null, _ => null
  | node i l _ c, r => node i l r c

/-- Assignment `h->item = it`. -/
def set_item : algokit_rbtree_node K V → Item K V → algokit_rbtree_node K V
  | null, _ => null
  | node _ l r c, it => node it l r c

/-- Assignment `h->red = c` guarded by `if (h)`. -/
def set_red : algokit_rbtree_node K V → Bool → algokit_rbtree_node K V
  | null, _ => null
  | node i l r _, c => node i l r c

/-- The statement `if (n) n->red = !n->red`. -/
def toggle_red : algokit_rbtree_node K V → algokit_rbtree_node K V
  | null => null
  | node i l r c => node i l r (!c)

/-- The pointer test `!h`. -/
def is_null : algokit_rbtree_node K V → Bool
  | null => true
  | node _ _ _ _ => false

/-- Number of nodes of a subtree. -/
def count : algokit_rbtree_node K V → Nat
  | null => 0
  | node _ l r _ => count l + count r + 1

end algokit_rbtree_node

open algokit_rbtree_node

section rbtree_code

variable {K V : Type}

/-- The function `algokit_rbtree_is_red`: `node && node->red`. -/
def algokit_rbtree_is_red : algokit_rbtree_node K V → Bool
  | null => false
  | node _ _ _ red => red

/-- The function `algokit_rbtree_node_create`: a red leaf, or `NULL` when `malloc` fails. -/
def algokit_rbtree_node_create (alloc_ok : Bool) (item : Item K V) : algokit_rbtree_node K V :=
  if alloc_ok then node item null null true else null

/-- The function `algokit_rbtree_rotate_left`.  Every call site has tested
`is_red(h->right)` before, so `h->right` is a node; the last equation is
never reached. -/
def algokit_rbtree_rotate_left : algokit_rbtree_node K V → algokit_rbtree_node K V
  | node hi hl (node xi xl xr _) hred => node xi (node hi hl xl true) xr hred
  | h => h

/-- The function `algokit_rbtree_rotate_right`.  Every call site has tested
`is_red(h->left)` before; the last equation is never reached. -/
def algokit_rbtree_rotate_right : algokit_rbtree_node K V → algokit_rbtree_node K V
  | node hi (node xi xl xr _) hr hred => node xi xl (node hi xr hr true) hred
  | h => h

/-- The function `algokit_rbtree_flip_colors`: negate the colour of `h` and of each child
that exists. -/
def algokit_rbtree_flip_colors : algokit_rbtree_node K V → algokit_rbtree_node K V
  | null => null
  | node i l r c => node i (toggle_red l) (toggle_red r) (!c)

/-- The function `algokit_rbtree_fix_up`: the three local rules, in the order of the code. -/
def algokit_rbtree_fix_up (h : algokit_rbtree_node K V) : algokit_rbtree_node K V :=
  let h1 := if algokit_rbtree_is_red (get_right h) && !algokit_rbtree_is_red (get_left h)
            then algokit_rbtree_rotate_left h else h
  let h2 := if algokit_rbtree_is_red (get_left h1) && algokit_rbtree_is_red (get_left (get_left h1))
            then algokit_rbtree_rotate_right h1 else h1
  if algokit_rbtree_is_red (get_left h2) && algokit_rbtree_is_red (get_right h2)
  then algokit_rbtree_flip_colors h2 else h2

/-- The function `algokit_rbtree_move_red_left`. -/
def algokit_rbtree_move_red_left (h : algokit_rbtree_node K V) : algokit_rbtree_node K V :=
  let h1 := algokit_rbtree_flip_colors h
  if algokit_rbtree_is_red (get_right h1) && algokit_rbtree_is_red (get_left (get_right h1)) then
    let h2 := set_right h1 (algokit_rbtree_rotate_right (get_right h1))
    let h3 := algokit_rbtree_rotate_left h2
    algokit_rbtree_flip_colors h3
  else h1

/-- The function `algokit_rbtree_move_red_right`. -/
def algokit_rbtree_move_red_right (h : algokit_rbtree_node K V) : algokit_rbtree_node K V :=
  let h1 := algokit_rbtree_flip_colors h
  if algokit_rbtree_is_red (get_left h1) && algokit_rbtree_is_red (get_left (get_left h1)) then
    algokit_rbtree_flip_colors (algokit_rbtree_rotate_right h1)
  else h1

/-- The function `algokit_rbtree_min_node`: follow left links while there is one. -/
def algokit_rbtree_min_node : algokit_rbtree_node K V → algokit_rbtree_node K V
  | null => null
  | node i l r c =>
    match l with
    | null => node i l r c
    | node _ _ _ _ => algokit_rbtree_min_node l

/-- The function `algokit_rbtree_delete_min`, with a recursion budget.  The node that is
freed when `h->left` is `NULL` is dropped together with whatever hangs below
it, as in the code. -/
def algokit_rbtree_delete_min : Nat → algokit_rbtree_node K V → Option (algokit_rbtree_node K V)
  | 0, _ => none
  | n + 1, h =>
    match get_left h with
    | null => some null
    | node _ _ _ _ =>
      let h1 := if !algokit_rbtree_is_red (get_left h) &&
                   !algokit_rbtree_is_red (get_left (get_left h))
                then algokit_rbtree_move_red_left h else h
      match algokit_rbtree_delete_min n (get_left h1) with
      | none => none
      | some l => some (algokit_rbtree_fix_up (set_left h1 l))

/-- The function `algokit_rbtree_insert_node`.  The result is the new subtree and the final
value of `*inserted` (the caller initialises it to `0`; the one assignment
on the search path decides it). -/
def algokit_rbtree_insert_node (cmp : K → K → Int) (alloc_ok : Bool) :
    algokit_rbtree_node K V → Item K V → algokit_rbtree_node K V × Bool
  | null, item => (algokit_rbtree_node_create alloc_ok item, true)
  | node hi l r c, item =>
    if cmp item.key hi.key < 0 then
      let res := algokit_rbtree_insert_node cmp alloc_ok l item
      (algokit_rbtree_fix_up (node hi res.1 r c), res.2)
    else if cmp item.key hi.key > 0 then
      let res := algokit_rbtree_insert_node cmp alloc_ok r item
      (algokit_rbtree_fix_up (node hi l res.1 c), res.2)
    else
      (algokit_rbtree_fix_up (node hi l r c), false)

/-- The function `algokit_rbtree_search_node`: `none` is the return value `1`, `some it` is
the return value `0` with `*out = it`. -/
def algokit_rbtree_search_node (cmp : K → K → Int) :
    algokit_rbtree_node K V → K → Option (Item K V)
  | null, _ => none
  | node hi l r _, key =>
    if cmp key hi.key < 0 then algokit_rbtree_search_node cmp l key
    else if cmp key hi.key > 0 then algokit_rbtree_search_node cmp r key
    else some hi

/-- The function `algokit_rbtree_remove_node`, with a recursion budget.  The result is the
new subtree and the write to `*out` / `*removed` (`some it` when the code has
executed `*out = it; *removed = 1`, which happens at most once on a path). -/
def algokit_rbtree_remove_node (cmp : K → K → Int) :
    Nat → algokit_rbtree_node K V → K → Option (algokit_rbtree_node K V × Option (Item K V))
  | 0, _, _ => none
  | _ + 1, null, _ => some (null, none)
  | n + 1, node hi hl hr hc, key =>
    let h := node hi hl hr hc
    if cmp key hi.key < 0 then
      let h1 := if !is_null (get_left h) && !algokit_rbtree_is_red (get_left h) &&
                   !algokit_rbtree_is_red (get_left (get_left h))
                then algokit_rbtree_move_red_left h else h
      match algokit_rbtree_remove_node cmp n (get_left h1) key with
      | none => none
      | some (l, out) => some (algokit_rbtree_fix_up (set_left h1 l), out)
    else
      let h1 := if algokit_rbtree_is_red (get_left h) then algokit_rbtree_rotate_right h else h
      match h1 with
      | null => none
      | node i1 _ r1 _ =>
        if cmp key i1.key = 0 ∧ is_null r1 = true then some (null, some i1)
        else
          let h2 := if !is_null (get_right h1) && !algokit_rbtree_is_red (get_right h1) &&
                       !algokit_rbtree_is_red (get_left (get_right h1))
                    then algokit_rbtree_move_red_right h1 else h1
          match h2 with
          | null => none
          | node i2 l2 r2 c2 =>
            if cmp key i2.key = 0 then
              match algokit_rbtree_min_node r2 with
              | null => none
              | node mi _ _ _ =>
                match algokit_rbtree_delete_min n r2 with
                | none => none
                | some r => some (algokit_rbtree_fix_up (node mi l2 r c2), some i2)
            else
              match algokit_rbtree_remove_node cmp n r2 key with
              | none => none
              | some (r, out) => some (algokit_rbtree_fix_up (node i2 l2 r c2), out)

/-- The function `algokit_rbtree_traverse_node`: the items handed to `visit`, in the order
of the calls, for `order` 0 (pre), 1 (in) and 2 (post). -/
def algokit_rbtree_traverse_node : algokit_rbtree_node K V → Nat → List (Item K V)
  | null, _ => []
  | node i l r _, order =>
    (if order = 0 then [i] else []) ++ algokit_rbtree_traverse_node l order ++
    (if order = 1 then [i] else []) ++ algokit_rbtree_traverse_node r order ++
    (if order = 2 then [i] else [])

/-- The function `algokit_rbtree_create`: the empty tree. -/
def algokit_rbtree_create : algokit_rbtree K V := ⟨null⟩

/-- The function `algokit_rbtree_insert`: result code (`0` inserted, `1` already present,
`-1` error) and the tree after the call. -/
def algokit_rbtree_insert (cmp : K → K → Int) (alloc_ok : Bool) (tree : algokit_rbtree K V)
    (item : Item K V) : Int × algokit_rbtree K V :=
  let res := algokit_rbtree_insert_node cmp alloc_ok tree.root item
  match res.1 with
  | null => (-1, ⟨null⟩)
  | node i l r _ => (if res.2 then 0 else 1, ⟨node i l r false⟩)

/-- The function `algokit_rbtree_search`: result code and `*out`. -/
def algokit_rbtree_search (cmp : K → K → Int) (tree : algokit_rbtree K V) (key : K) :
    Int × Option (Item K V) :=
  match algokit_rbtree_search_node cmp tree.root key with
  | none => (1, none)
  | some it => (0, some it)

/-- The function `algokit_rbtree_remove`: result code, `*out` and the tree after the call;
`none` only if the recursion budget `count root + 1` were too small. -/
def algokit_rbtree_remove (cmp : K → K → Int) (tree : algokit_rbtree K V) (key : K) :
    Option (Int × Option (Item K V) × algokit_rbtree K V) :=
  match tree.root with
  | null => some (1, none, tree)
  | node i l r c =>
    match algokit_rbtree_remove_node cmp (count (node i l r c) + 1) (node i l r c) key with
    | none => none
    | some (root, out) =>
      some (if out.isSome then 0 else 1, out, ⟨set_red root false⟩)

/-- The function `algokit_rbtree_traverse_inorder`: the visited items, in visiting order. -/
def algokit_rbtree_traverse_inorder (tree : algokit_rbtree K V) : List (Item K V) :=
  algokit_rbtree_traverse_node tree.root 1

end rbtree_code

/-! ## Red-black tree: invariants -/

section rbtree_invariants

variable {K V : Type}

/-- The in-order sequence of the pairs of a subtree. -/
def inorder : algokit_rbtree_node K V → List (Item K V)
  | null => []
  | node i l r _ => inorder l ++ i :: inorder r

/-- The keys of a sequence of pairs are strictly ascending for the comparator. -/
def keys_ascending (cmp : K → K → Int) (xs : List (Item K V)) : Prop :=
  xs.Pairwise (fun a b => cmp a.key b.key < 0)

/-- Search-tree order without duplicate keys: everything in a left subtree
compares less than the node and everything in a right subtree greater, which is
to say that the in-order sequence is strictly ascending. -/
def bst_ordered (cmp : K → K → Int) (t : algokit_rbtree_node K V) : Prop :=
  keys_ascending cmp (inorder t)

/-- Number of black nodes on the leftmost path from a node down to `NULL`. -/
def black_height : algokit_rbtree_node K V → Nat
  | null => 0
  | node _ l _ c => black_height l + (if c then 0 else 1)

/-- The colour invariants of a subtree whose root may be red: no red right
link (hence no node with two red children), no red node with a red child, and
at every node the same black height left and right, which makes the number of
black nodes the same on every path down to `NULL`
(`llrb_shape_black_paths`). -/
def llrb_shape : algokit_rbtree_node K V → Prop
  | null => True
  | node _ l r c =>
    algokit_rbtree_is_red r = false ∧ (c = true → algokit_rbtree_is_red l = false) ∧
    black_height l = black_height r ∧ llrb_shape l ∧ llrb_shape r

/-- The left-leaning red-black invariants of a whole tree. -/
def rbtree_valid (cmp : K → K → Int) (tree : algokit_rbtree K V) : Prop :=
  bst_ordered cmp tree.root ∧ llrb_shape tree.root ∧ algokit_rbtree_is_red tree.root = false

end rbtree_invariants

section rbtree_proof_invariants

variable {K V : Type}

/-- Shape of a subtree whose root may in addition be red with a red left child
(the state insertion leaves below a black parent before `fix_up` runs there). -/
def almost_shape : algokit_rbtree_node K V → Prop
  | null => True
  | node _ l r _ =>
    algokit_rbtree_is_red r = false ∧ black_height l = black_height r ∧ llrb_shape l ∧ llrb_shape r

/-- What `remove_node` and `delete_min` expect of the node they are called on:
`NULL`, or a well-shaped subtree that is not a 2-node (it is red or its left
child is red). -/
def pre_shape (h : algokit_rbtree_node K V) : Prop :=
  is_null h = true ∨
  (llrb_shape h ∧ (algokit_rbtree_is_red h = true ∨ algokit_rbtree_is_red (get_left h) = true))

/-- The one right-leaning state `remove_node` is called on: a black node with
a black left child and a red right child, produced by the rotation inside
`move_red_right`. -/
def right_leaning : algokit_rbtree_node K V → Prop
  | node _ l (node _ rl rr true) false =>
    algokit_rbtree_is_red l = false ∧ llrb_shape l ∧
    algokit_rbtree_is_red rl = false ∧ algokit_rbtree_is_red rr = false ∧
    llrb_shape rl ∧ llrb_shape rr ∧ black_height l = black_height rl ∧
    black_height rl = black_height rr
  | _ => False

/-- What `remove_node` and `delete_min` return for the subtree `h`: a
well-shaped subtree of the same black height, black if `h` was black. -/
def post_shape (h t : algokit_rbtree_node K V) : Prop :=
  llrb_shape t ∧ black_height t = black_height h ∧
  (algokit_rbtree_is_red h = false → algokit_rbtree_is_red t = false)

end rbtree_proof_invariants

section rbtree_list_model

variable {K V : Type}

/-- Insertion of a pair into a key-ascending sequence, keeping the stored pair
when one with an equal key is there: what `insert` does to the in-order
sequence. -/
def list_insert (cmp : K → K → Int) (item : Item K V) : List (Item K V) → List (Item K V)
  | [] => [item]
  | x :: xs =>
    if cmp item.key x.key < 0 then item :: x :: xs
    else if cmp item.key x.key > 0 then x :: list_insert cmp item xs
    else x :: xs

/-- The keys of a sequence of items without repetition: an item contributes
its key unless an earlier item had a key comparing equal. -/
def distinct_keys (cmp : K → K → Int) (items : List (Item K V)) : List K :=
  items.foldl (fun seen it => if seen.any (fun k => cmp it.key k == 0) then seen
    else seen ++ [it.key]) []

/-- The tree obtained from the empty tree by inserting the items in order
(every allocation succeeding). -/
def insert_all (cmp : K → K → Int) (items : List (Item K V)) : algokit_rbtree K V :=
  items.foldl (fun t it => (algokit_rbtree_insert cmp true t it).2) algokit_rbtree_create

end rbtree_list_model

section rbtree_reachability

variable {K V : Type}

/-- The trees that calls of `algokit_rbtree_insert` and `algokit_rbtree_remove`
produce from the tree of `algokit_rbtree_create`. -/
inductive rbtree_reachable (cmp : K → K → Int) : algokit_rbtree K V → Prop
  | create : rbtree_reachable cmp algokit_rbtree_create
  | insert (alloc_ok : Bool) (t : algokit_rbtree K V) (item : Item K V) :
      rbtree_reachable cmp t → rbtree_reachable cmp (algokit_rbtree_insert cmp alloc_ok t item).2
  | remove (t : algokit_rbtree K V) (key : K) (rc : Int) (out : Option (Item K V))
      (t' : algokit_rbtree K V) :
      rbtree_reachable cmp t → algokit_rbtree_remove cmp t key = some (rc, out, t') →
      rbtree_reachable cmp t'

instance keys_ascending_decidable (cmp : K → K → Int) (xs : List (Item K V)) :
    Decidable (keys_ascending cmp xs) := by
  unfold keys_ascending; infer_instance

instance llrb_shape_decidable : (t : algokit_rbtree_node K V) → Decidable (llrb_shape t)
  | null => isTrue trivial
  | node _ l r c =>
    have := llrb_shape_decidable l
    have := llrb_shape_decidable r
    by unfold llrb_shape; infer_instance

instance rbtree_valid_decidable (cmp : K → K → Int) (tree : algokit_rbtree K V) :
    Decidable (rbtree_valid cmp tree) := by
  unfold rbtree_valid bst_ordered; infer_instance

end rbtree_reachability

/-! ## Linear-probing hash table: data model and code -/

/-- A slot of `struct algokit_hash_lp_entry`, by its `state` field: `0` is
`empty` (the zeroed memory of `calloc`), `1` is `occupied` with its item, `2`
is `tombstone`.  The code reads the `item` field only of slots in state `1`,
so the stale item of a tombstone is not kept. -/
inductive algokit_hash_lp_entry (K V : Type) where
  | empty : algokit_hash_lp_entry K V
  | occupied (item : Item K V) : algokit_hash_lp_entry K V
  | tombstone : algokit_hash_lp_entry K V
deriving DecidableEq, Repr

/-- The table `struct algokit_hash_lp`: the slot array with its capacity and
the number of stored pairs.  The `hash` and `cmp` fields are passed to the
operations as parameters.  `size_t` values are natural numbers: the products
of the resize tests stay far below `2^64` for every array that fits in
memory. -/
structure algokit_hash_lp (K V : Type) where
  entries : List (algokit_hash_lp_entry K V)
  capacity : Nat
  size : Nat
deriving DecidableEq, Repr

/-- The laws a hash function and a comparator have to satisfy together:
comparing equal is an equivalence, and keys that compare equal have the same
hash. -/
structure HashCmp {K : Type} (hash : K → Nat) (cmp : K → K → Int) : Prop where
  refl : ∀ a, cmp a a = 0
  symm : ∀ a b, cmp a b = 0 → cmp b a = 0
  trans : ∀ a b c, cmp a b = 0 → cmp b c = 0 → cmp a c = 0
  hash_eq : ∀ a b, cmp a b = 0 → hash a = hash b

section hash_lp_code

variable {K V : Type}

/-- The slot `table->entries[idx]`. -/
def algokit_hash_lp_slot (table : algokit_hash_lp K V) (idx : Nat) : algokit_hash_lp_entry K V :=
  table.entries.getD idx algokit_hash_lp_entry.empty

/-- The function `algokit_hash_lp_index`: `hash(key) % capacity`. -/
def algokit_hash_lp_index (hash : K → Nat) (table : algokit_hash_lp K V) (key : K) : Nat :=
  hash key % table.capacity

/-- The probe loop shared by `algokit_hash_lp_get` and `algokit_hash_lp_delete`:
starting at `idx`, step by one with wrap-around until an empty slot (result
`some none`) or an occupied slot whose key compares equal (result `some (some
(i, it))` with its index `i` and its item `it`).  The first argument bounds
the number of slots visited; `none` is the loop not having stopped within that
bound. -/
def algokit_hash_lp_find (cmp : K → K → Int) (table : algokit_hash_lp K V) (key : K) :
    Nat → Nat → Option (Option (Nat × Item K V))
  | 0, _ => none
  | n + 1, idx =>
    match algokit_hash_lp_slot table idx with
    | algokit_hash_lp_entry.empty => some none
    | algokit_hash_lp_entry.occupied it =>
      if cmp it.key key = 0 then some (some (idx, it))
      else algokit_hash_lp_find cmp table key n ((idx + 1) % table.capacity)
    | algokit_hash_lp_entry.tombstone =>
      algokit_hash_lp_find cmp table key n ((idx + 1) % table.capacity)

/-- The probe loop of `algokit_hash_lp_put` followed by the choice of the slot
to write: `some none` when an occupied slot with an equal key is met (the
function returns 1), `some (some i)` with the first tombstone passed or else
the empty slot reached, `none` when the loop has not stopped within the
bound. -/
def algokit_hash_lp_put_probe (cmp : K → K → Int) (table : algokit_hash_lp K V) (key : K) :
    Nat → Nat → Option Nat → Option (Option Nat)
  | 0, _, _ => none
  | n + 1, idx, first_tombstone =>
    match algokit_hash_lp_slot table idx with
    | algokit_hash_lp_entry.empty =>
      match first_tombstone with
      | some t => some (some t)
      | none => some (some idx)
    | algokit_hash_lp_entry.occupied it =>
      if cmp it.key key = 0 then some none
      else algokit_hash_lp_put_probe cmp table key n ((idx + 1) % table.capacity) first_tombstone
    | algokit_hash_lp_entry.tombstone =>
      algokit_hash_lp_put_probe cmp table key n ((idx + 1) % table.capacity)
        (match first_tombstone with
         | some t => some t
         | none => some idx)

/-- The function `algokit_hash_lp_create`: `none` is the `NULL` result (capacity 0 or a
failed allocation). -/
def algokit_hash_lp_create (alloc_ok : Bool) (capacity : Nat) : Option (algokit_hash_lp K V) :=
  if capacity = 0 ∨ alloc_ok = false then none
  else some ⟨List.replicate capacity algokit_hash_lp_entry.empty, capacity, 0⟩

/-- One round of the loop of `algokit_hash_lp_resize`: an occupied slot of the
old array is handed to `put` (whose result code is ignored), any other slot is
skipped.  `none` is a call of `put` that does not return. -/
def algokit_hash_lp_resize_step
    (put : algokit_hash_lp K V → Item K V → Option (Int × algokit_hash_lp K V))
    (acc : Option (algokit_hash_lp K V)) (e : algokit_hash_lp_entry K V) :
    Option (algokit_hash_lp K V) :=
  match acc, e with
  | none, _ => none
  | some t, algokit_hash_lp_entry.occupied it =>
    match put t it with
    | none => none
    | some res => some res.2
  | some t, _ => some t

/-- The function `algokit_hash_lp_resize`, given the function that stands for the calls of
`algokit_hash_lp_put` in its loop: the result code and the table afterwards.
`none` is one of these calls not returning. -/
def algokit_hash_lp_resize_with
    (put : algokit_hash_lp K V → Item K V → Option (Int × algokit_hash_lp K V))
    (alloc_ok : Bool) (table : algokit_hash_lp K V) (new_capacity : Nat) :
    Option (Int × algokit_hash_lp K V) :=
  if alloc_ok = false then some (-1, table)
  else
    match (table.entries.take table.capacity).foldl (algokit_hash_lp_resize_step put)
        (some ⟨List.replicate new_capacity algokit_hash_lp_entry.empty, new_capacity, 0⟩) with
    | none => none
    | some t => some (0, t)

/-- The function `algokit_hash_lp_put`, with a bound on the nesting of `put` inside
`resize` inside `put`: result code (0 stored, 1 key already present, -1
failed resize) and the table afterwards.  `none` is a probe loop that does not
stop, or the nesting bound being used up. -/
def algokit_hash_lp_put_fuel (hash : K → Nat) (cmp : K → K → Int) (alloc_ok : Bool) :
    Nat → algokit_hash_lp K V → Item K V → Option (Int × algokit_hash_lp K V)
  | 0, _, _ => none
  | d + 1, table, item =>
    let resized :=
      if (table.size + 1) * 10 ≥ table.capacity * 7 then
        algokit_hash_lp_resize_with (algokit_hash_lp_put_fuel hash cmp alloc_ok d) alloc_ok table
          (table.capacity * 2)
      else some (0, table)
    match resized with
    | none => none
    | some (rc, t) =>
      if rc ≠ 0 then some (-1, t)
      else
        match algokit_hash_lp_put_probe cmp t item.key t.capacity
            (algokit_hash_lp_index hash t item.key) none with
        | none => none
        | some none => some (1, t)
        | some (some idx) =>
          some (0, ⟨t.entries.set idx (algokit_hash_lp_entry.occupied item), t.capacity,
            t.size + 1⟩)

/-- The function `algokit_hash_lp_put`, with room for `put` inside `resize`
inside `put` three levels deep. -/
def algokit_hash_lp_put (hash : K → Nat) (cmp : K → K → Int) (alloc_ok : Bool)
    (table : algokit_hash_lp K V) (item : Item K V) : Option (Int × algokit_hash_lp K V) :=
  algokit_hash_lp_put_fuel hash cmp alloc_ok 4 table item

/-- The function `algokit_hash_lp_get` with a bound on the slots visited. -/
def algokit_hash_lp_get_fuel (hash : K → Nat) (cmp : K → K → Int) (fuel : Nat)
    (table : algokit_hash_lp K V) (key : K) : Option (Int × Option (Item K V)) :=
  match algokit_hash_lp_find cmp table key fuel (algokit_hash_lp_index hash table key) with
  | none => none
  | some none => some (1, none)
  | some (some (_, it)) => some (0, some it)

/-- The function `algokit_hash_lp_get`: result code and `*out`.  A probe loop that has
visited `capacity` slots without stopping has seen every slot and never
stops; that is the result `none`. -/
def algokit_hash_lp_get (hash : K → Nat) (cmp : K → K → Int) (table : algokit_hash_lp K V)
    (key : K) : Option (Int × Option (Item K V)) :=
  algokit_hash_lp_get_fuel hash cmp table.capacity table key

/-- The function `algokit_hash_lp_delete`: result code, `*out` and the table afterwards;
`none` is a probe loop that does not stop.  The result of the shrinking
`resize` is ignored, as in the code. -/
def algokit_hash_lp_delete (hash : K → Nat) (cmp : K → K → Int) (alloc_ok : Bool)
    (table : algokit_hash_lp K V) (key : K) :
    Option (Int × Option (Item K V) × algokit_hash_lp K V) :=
  match algokit_hash_lp_find cmp table key table.capacity
      (algokit_hash_lp_index hash table key) with
  | none => none
  | some none => some (1, none, table)
  | some (some (idx, it)) =>
    let t1 : algokit_hash_lp K V :=
      ⟨table.entries.set idx algokit_hash_lp_entry.tombstone, table.capacity, table.size - 1⟩
    if t1.capacity > 8 ∧ t1.size * 10 ≤ t1.capacity * 2 then
      match algokit_hash_lp_resize_with (algokit_hash_lp_put_fuel hash cmp alloc_ok 3)
          alloc_ok t1 (t1.capacity / 2) with
      | none => none
      | some res => some (0, some it, res.2)
    else some (0, some it, t1)

/-- A call of the table interface. -/
inductive hash_lp_op (K V : Type) where
  | put (alloc_ok : Bool) (item : Item K V) : hash_lp_op K V
  | delete (alloc_ok : Bool) (key : K) : hash_lp_op K V
deriving DecidableEq, Repr

/-- The call is not a `delete` of a key that compares equal to `key`. -/
def hash_lp_op_keeps (cmp : K → K → Int) (key : K) : hash_lp_op K V → Prop
  | hash_lp_op.put _ _ => True
  | hash_lp_op.delete _ k => cmp key k ≠ 0

instance hash_lp_op_keeps_decidable (cmp : K → K → Int) (key : K) :
    (op : hash_lp_op K V) → Decidable (hash_lp_op_keeps cmp key op)
  | hash_lp_op.put _ _ => isTrue trivial
  | hash_lp_op.delete _ k =>
    if h : cmp key k = 0 then isFalse (fun hn => hn h) else isTrue h

/-- The table after one call; `none` when the call does not return. -/
def hash_lp_step (hash : K → Nat) (cmp : K → K → Int) (table : algokit_hash_lp K V) :
    hash_lp_op K V → Option (algokit_hash_lp K V)
  | hash_lp_op.put alloc_ok item =>
    (algokit_hash_lp_put hash cmp alloc_ok table item).map (fun res => res.2)
  | hash_lp_op.delete alloc_ok key =>
    (algokit_hash_lp_delete hash cmp alloc_ok table key).map (fun res => res.2.2)

/-- The table after a sequence of calls, each of which returns. -/
def hash_lp_run (hash : K → Nat) (cmp : K → K → Int) :
    algokit_hash_lp K V → List (hash_lp_op K V) → Option (algokit_hash_lp K V)
  | table, [] => some table
  | table, op :: ops =>
    match hash_lp_step hash cmp table op with
    | none => none
    | some t => hash_lp_run hash cmp t ops

end hash_lp_code

section hash_lp_invariants

variable {K V : Type}

/-- The pair `it` is stored in the table: some slot is occupied by it. -/
def hash_lp_stored (table : algokit_hash_lp K V) (it : Item K V) : Prop :=
  ∃ j, algokit_hash_lp_slot table j = algokit_hash_lp_entry.occupied it

/-- The invariant of the slot array: it has `capacity` slots, at least one,
and probing for the key of any occupied slot arrives at that slot (no empty
slot and no other occupied slot with an equal key lies before it on its probe
run). -/
def hash_lp_inv (hash : K → Nat) (cmp : K → K → Int) (table : algokit_hash_lp K V) : Prop :=
  table.entries.length = table.capacity ∧ 0 < table.capacity ∧
  ∀ j it, algokit_hash_lp_slot table j = algokit_hash_lp_entry.occupied it →
    algokit_hash_lp_find cmp table it.key table.capacity (algokit_hash_lp_index hash table it.key) =
      some (some (j, it))

/-- A slot that the probe for `key` steps over: a tombstone or a slot
occupied by a key that does not compare equal. -/
def hash_lp_passes (cmp : K → K → Int) (key : K) : algokit_hash_lp_entry K V → Prop
  | algokit_hash_lp_entry.empty => False
  | algokit_hash_lp_entry.occupied it => cmp it.key key ≠ 0
  | algokit_hash_lp_entry.tombstone => True

/-- What a call of `put` that returns guarantees, as used for the calls inside
`resize`. -/
def hash_lp_put_post (hash : K → Nat) (cmp : K → K → Int) (alloc_ok : Bool)
    (t : algokit_hash_lp K V) (x : Item K V) (rc : Int) (t' : algokit_hash_lp K V) : Prop :=
  hash_lp_inv hash cmp t' ∧
  (∀ it, hash_lp_stored t it → hash_lp_stored t' it) ∧
  (∀ it, hash_lp_stored t' it → it = x ∨ hash_lp_stored t it) ∧
  (rc = 0 ∨ rc = 1 ∨ (rc = -1 ∧ alloc_ok = false)) ∧
  (rc = 0 → hash_lp_stored t' x) ∧
  (rc = 1 → ∃ y, hash_lp_stored t y ∧ cmp y.key x.key = 0)

end hash_lp_invariants

section hash_lp_test_callbacks

/-- The hash function of the tests: `(size_t)(key * 2654435761u)`, a product
of 32-bit unsigned integers. -/
def int_hash (k : Int) : Nat :=
  ((k * 2654435761) % 4294967296).toNat

/-- The table of `algokit_hash_lp_create(8, ...)`. -/
def hash_lp_table8 : algokit_hash_lp Int Int :=
  ⟨List.replicate 8 algokit_hash_lp_entry.empty, 8, 0⟩

/-- The calls `put(k); delete(k)` for each key of a list, in order. -/
def hash_lp_put_delete : List Int → List (hash_lp_op Int Int)
  | [] => []
  | k :: ks => hash_lp_op.put true ⟨k, 10 * k⟩ :: hash_lp_op.delete true k ::
      hash_lp_put_delete ks

/-- The calls before the `put` of the witness of get-after-put: they leave a
tombstone on the probe run of key 17. -/
def hash_lp_witness_before : List (hash_lp_op Int Int) :=
  [hash_lp_op.put true ⟨1, 10⟩, hash_lp_op.put true ⟨9, 90⟩, hash_lp_op.delete true 1]

/-- The calls after the `put` of the witness of get-after-put: they grow the
table to 16 slots, try to store key 17 again, and shrink it back to 8. -/
def hash_lp_witness_after : List (hash_lp_op Int Int) :=
  [hash_lp_op.put true ⟨2, 20⟩, hash_lp_op.put true ⟨3, 30⟩, hash_lp_op.put true ⟨4, 40⟩,
    hash_lp_op.put true ⟨5, 50⟩, hash_lp_op.put true ⟨6, 60⟩, hash_lp_op.put true ⟨17, 99⟩,
    hash_lp_op.delete true 2, hash_lp_op.delete true 3, hash_lp_op.delete true 4,
    hash_lp_op.delete true 5, hash_lp_op.delete true 9]

/-- The table of the witness before its `put(17)`. -/
def hash_lp_witness_t1 : algokit_hash_lp Int Int :=
  ⟨[algokit_hash_lp_entry.empty, algokit_hash_lp_entry.tombstone,
    algokit_hash_lp_entry.occupied ⟨9, 90⟩, algokit_hash_lp_entry.empty,
    algokit_hash_lp_entry.empty, algokit_hash_lp_entry.empty,
    algokit_hash_lp_entry.empty, algokit_hash_lp_entry.empty], 8, 1⟩

/-- The table of the witness after its `put(17)`, which wrote the tombstone
slot. -/
def hash_lp_witness_t2 : algokit_hash_lp Int Int :=
  ⟨[algokit_hash_lp_entry.empty, algokit_hash_lp_entry.occupied ⟨17, 170⟩,
    algokit_hash_lp_entry.occupied ⟨9, 90⟩, algokit_hash_lp_entry.empty,
    algokit_hash_lp_entry.empty, algokit_hash_lp_entry.empty,
    algokit_hash_lp_entry.empty, algokit_hash_lp_entry.empty], 8, 2⟩

/-- The table of the witness at the end. -/
def hash_lp_witness_t3 : algokit_hash_lp Int Int :=
  ⟨[algokit_hash_lp_entry.empty, algokit_hash_lp_entry.occupied ⟨17, 170⟩,
    algokit_hash_lp_entry.tombstone, algokit_hash_lp_entry.empty,
    algokit_hash_lp_entry.empty, algokit_hash_lp_entry.empty,
    algokit_hash_lp_entry.occupied ⟨6, 60⟩, algokit_hash_lp_entry.empty], 8, 2⟩

instance hash_lp_passes_decidable {K V : Type} (cmp : K → K → Int) (key : K) :
    (e : algokit_hash_lp_entry K V) → Decidable (hash_lp_passes cmp key e)
  | algokit_hash_lp_entry.empty => isFalse (fun h => h)
  | algokit_hash_lp_entry.occupied it =>
    if h : cmp it.key key = 0 then isFalse (fun hn => hn h) else isTrue h
  | algokit_hash_lp_entry.tombstone => isTrue trivial

end hash_lp_test_callbacks

section rbtree_paths

variable {K V : Type}

/-- The numbers of black nodes on the paths from a node down to each `NULL`
link below it, from left to right. -/
def black_path_counts : algokit_rbtree_node K V → List Nat
  | null => [0]
  | node _ l r c =>
    (black_path_counts l ++ black_path_counts r).map (fun n => n + (if c then 0 else 1))

end rbtree_paths

/-! ## Linear-probing hash table: size and capacity invariants -/

section hash_lp_size_invariants

variable {K V : Type}

/-- The slot is in state `1`. -/
def algokit_hash_lp_entry.is_occupied : algokit_hash_lp_entry K V → Bool
  | algokit_hash_lp_entry.occupied _ => true
  | _ => false

/-- The number of occupied slots of the array. -/
def hash_lp_occupied (table : algokit_hash_lp K V) : Nat :=
  table.entries.countP algokit_hash_lp_entry.is_occupied

/-- The field `size` counts the occupied slots and, outside a call, lies
strictly below the grow threshold of seven tenths of the capacity. -/
def hash_lp_sized (table : algokit_hash_lp K V) : Prop :=
  table.size = hash_lp_occupied table ∧ table.size * 10 < table.capacity * 7

/-- The array holds no tombstone, as right after `calloc` and during the
re-insertion loop of `resize`. -/
def hash_lp_clean (table : algokit_hash_lp K V) : Prop :=
  ∀ e ∈ table.entries, e ≠ algokit_hash_lp_entry.tombstone

/-- The probe and the write of `algokit_hash_lp_put`, the part after its
resize test. -/
def hash_lp_put_tail (hash : K → Nat) (cmp : K → K → Int) (t : algokit_hash_lp K V)
    (item : Item K V) : Option (Int × algokit_hash_lp K V) :=
  match algokit_hash_lp_put_probe cmp t item.key t.capacity
      (algokit_hash_lp_index hash t item.key) none with
  | none => none
  | some none => some (1, t)
  | some (some idx) =>
    some (0, ⟨t.entries.set idx (algokit_hash_lp_entry.occupied item), t.capacity,
      t.size + 1⟩)

/-- The tables that calls of `put` and `delete` which return produce from a
table of `algokit_hash_lp_create`. -/
def hash_lp_reachable (hash : K → Nat) (cmp : K → K → Int) (table : algokit_hash_lp K V) :
    Prop :=
  ∃ (capacity : Nat) (ops : List (hash_lp_op K V)) (t0 : algokit_hash_lp K V),
    algokit_hash_lp_create true capacity = some t0 ∧ hash_lp_run hash cmp t0 ops = some table

/-- The table of `algokit_hash_lp_create(9, ...)`. -/
def hash_lp_table9 : algokit_hash_lp Int Int :=
  ⟨List.replicate 9 algokit_hash_lp_entry.empty, 9, 0⟩

end hash_lp_size_invariants

/-! ## Weighted quick-union with path compression: data model and code -/

/-- The structure `struct algokit_uf_wqupc`: the element count and the arrays
`parent` and `size`.  Values of type `size_t` are natural numbers. -/
structure algokit_uf_wqupc where
  n : Nat
  parent : List Nat
  size : List Nat
deriving DecidableEq, Repr

section uf_wqupc_code

/-- The array read `a[i]`.  Every index the code reads is below `n` in the
states the interface produces; a read outside the array, which has no defined
value in C, is given the value `i`. -/
def uf_entry (a : List Nat) (i : Nat) : Nat :=
  a.getD i i

/-- The function `algokit_uf_wqupc_root`: the loop that climbs from `p` to its
root and halves the path on the way (`parent[p] = parent[parent[p]]`, then
`p = parent[p]`).  The result is the root and the structure with the updated
`parent` array; the first argument bounds the number of rounds, and `none` is
the loop not having stopped within that bound. -/
def algokit_uf_wqupc_root : Nat → algokit_uf_wqupc → Nat → Option (Nat × algokit_uf_wqupc)
  | 0, _, _ => none
  | fuel + 1, uf, p =>
    if p ≠ uf_entry uf.parent p then
      let parent1 := uf.parent.set p (uf_entry uf.parent (uf_entry uf.parent p))
      algokit_uf_wqupc_root fuel ⟨uf.n, parent1, uf.size⟩ (uf_entry parent1 p)
    else some (p, uf)

/-- The function `algokit_uf_wqupc_create`: `none` is the `NULL` result of a failed
allocation. -/
def algokit_uf_wqupc_create (alloc_ok : Bool) (n : Nat) : Option algokit_uf_wqupc :=
  if alloc_ok = false then none
  else some ⟨n, List.range n, List.replicate n 1⟩

/-- The function `algokit_uf_wqupc_find`: result code, `*out_root` and the structure
afterwards.  The root loop is given `n` rounds. -/
def algokit_uf_wqupc_find (uf : algokit_uf_wqupc) (p : Nat) :
    Option (Int × Option Nat × algokit_uf_wqupc) :=
  if p ≥ uf.n then some (-1, none, uf)
  else
    match algokit_uf_wqupc_root uf.n uf p with
    | none => none
    | some (r, uf1) => some (0, some r, uf1)

/-- The function `algokit_uf_wqupc_union`: result code and the structure afterwards. -/
def algokit_uf_wqupc_union (uf : algokit_uf_wqupc) (p q : Nat) :
    Option (Int × algokit_uf_wqupc) :=
  if p ≥ uf.n ∨ q ≥ uf.n then some (-1, uf)
  else
    match algokit_uf_wqupc_root uf.n uf p with
    | none => none
    | some (root_p, uf1) =>
      match algokit_uf_wqupc_root uf1.n uf1 q with
      | none => none
      | some (root_q, uf2) =>
        if root_p = root_q then some (0, uf2)
        else if uf_entry uf2.size root_p < uf_entry uf2.size root_q then
          some (0, ⟨uf2.n, uf2.parent.set root_p root_q,
            uf2.size.set root_q (uf_entry uf2.size root_q + uf_entry uf2.size root_p)⟩)
        else
          some (0, ⟨uf2.n, uf2.parent.set root_q root_p,
            uf2.size.set root_p (uf_entry uf2.size root_p + uf_entry uf2.size root_q)⟩)

/-- The function `algokit_uf_wqupc_connected`: result code, `*out` and the structure
afterwards.  The two calls of the root loop in the comparison are taken left
to right; C leaves their order open, and the roots they return do not depend
on it. -/
def algokit_uf_wqupc_connected (uf : algokit_uf_wqupc) (p q : Nat) :
    Option (Int × Option Int × algokit_uf_wqupc) :=
  if p ≥ uf.n ∨ q ≥ uf.n then some (-1, none, uf)
  else
    match algokit_uf_wqupc_root uf.n uf p with
    | none => none
    | some (root_p, uf1) =>
      match algokit_uf_wqupc_root uf1.n uf1 q with
      | none => none
      | some (root_q, uf2) => some (0, some (if root_p = root_q then 1 else 0), uf2)

/-- A call of the interface. -/
inductive uf_wqupc_op where
  | union (p q : Nat) : uf_wqupc_op
  | find (p : Nat) : uf_wqupc_op
  | connected (p q : Nat) : uf_wqupc_op
deriving DecidableEq, Repr

/-- The structure after one call; `none` when the call does not return. -/
def uf_wqupc_step (uf : algokit_uf_wqupc) : uf_wqupc_op → Option algokit_uf_wqupc
  | uf_wqupc_op.union p q => (algokit_uf_wqupc_union uf p q).map (fun res => res.2)
  | uf_wqupc_op.find p => (algokit_uf_wqupc_find uf p).map (fun res => res.2.2)
  | uf_wqupc_op.connected p q => (algokit_uf_wqupc_connected uf p q).map (fun res => res.2.2)

/-- The structure after a sequence of calls, each of which returns. -/
def uf_wqupc_run : algokit_uf_wqupc → List uf_wqupc_op → Option algokit_uf_wqupc
  | uf, [] => some uf
  | uf, op :: ops =>
    match uf_wqupc_step uf op with
    | none => none
    | some uf1 => uf_wqupc_run uf1 ops

end uf_wqupc_code

section uf_wqupc_invariants

/-- The pairs joined by the `union` calls of a sequence whose indices are both
below `n` (the other `union` calls return -1 and change nothing). -/
def uf_wqupc_unioned (n : Nat) (ops : List uf_wqupc_op) (a b : Nat) : Prop :=
  a < n ∧ b < n ∧ uf_wqupc_op.union a b ∈ ops

/-- The root of `p`: where the parent links lead from `p`, followed `n`
times without changing the array. -/
def uf_wqupc_root_of (uf : algokit_uf_wqupc) (p : Nat) : Nat :=
  (uf_entry uf.parent)^[uf.n] p

/-- The invariant of the `parent` array: it has `n` entries, every entry is
below `n`, and the parent links from any element lead to an element that is
its own parent. -/
def uf_wqupc_inv (uf : algokit_uf_wqupc) : Prop :=
  uf.parent.length = uf.n ∧
  (∀ p, p < uf.n → uf_entry uf.parent p < uf.n) ∧
  ∀ p, ∃ k, uf_entry uf.parent ((uf_entry uf.parent)^[k] p) = (uf_entry uf.parent)^[k] p

/-- The states that calls of `union`, `find` and `connected` produce from a
structure of `algokit_uf_wqupc_create`. -/
def uf_wqupc_reachable (uf : algokit_uf_wqupc) : Prop :=
  ∃ (n : Nat) (ops : List uf_wqupc_op) (uf0 : algokit_uf_wqupc),
    algokit_uf_wqupc_create true n = some uf0 ∧ uf_wqupc_run uf0 ops = some uf

/-- The structure of `algokit_uf_wqupc_create(8)`. -/
def uf_wqupc_eight : algokit_uf_wqupc :=
  ⟨8, [0, 1, 2, 3, 4, 5, 6, 7], [1, 1, 1, 1, 1, 1, 1, 1]⟩

/-- The `union` calls of the test: (0,1), (1,2), (3,4), (4,5). -/
def uf_wqupc_test_unions : List uf_wqupc_op :=
  [uf_wqupc_op.union 0 1, uf_wqupc_op.union 1 2, uf_wqupc_op.union 3 4,
    uf_wqupc_op.union 4 5]

/-- The structure after the `union` calls of the test. -/
def uf_wqupc_after_test : algokit_uf_wqupc :=
  ⟨8, [0, 0, 0, 3, 3, 3, 6, 7], [3, 1, 1, 3, 1, 1, 1, 1]⟩

/-- What `connected` writes to `*out`, when it returns. -/
def uf_wqupc_connected_out (uf : algokit_uf_wqupc) (p q : Nat) : Option (Option Int) :=
  (algokit_uf_wqupc_connected uf p q).map (fun res => res.2.1)

end uf_wqupc_invariants

/-! ## Directed graph: data model and code -/

/-- A vertex `struct algokit_digraph_vertex`: its key and its adjacency list,
given by the `to` fields of the edge nodes from the head of the list on. -/
structure algokit_digraph_vertex (K : Type) where
  key : K
  adj : List Nat
deriving DecidableEq, Repr

/-- A slot of `struct algokit_digraph_map_entry`, by its `state` field: `0` is
`empty` (the zeroed memory of `calloc`), `1` is `occupied` with a key and the
index of its vertex.  No other state is ever written. -/
inductive algokit_digraph_map_entry (K : Type) where
  | empty : algokit_digraph_map_entry K
  | occupied (key : K) (index : Nat) : algokit_digraph_map_entry K
deriving DecidableEq, Repr

/-- The key map `struct algokit_digraph_map`; its `hash` and `cmp` fields are
passed to the operations as parameters. -/
structure algokit_digraph_map (K : Type) where
  entries : List (algokit_digraph_map_entry K)
  capacity : Nat
  size : Nat
deriving DecidableEq, Repr

/-- The graph `struct algokit_digraph`: `vertices` holds the `size` vertices
that have been added (the slots of the array from `size` to `capacity` hold
`NULL` keys and empty lists and are not listed). -/
structure algokit_digraph (K : Type) where
  vertices : List (algokit_digraph_vertex K)
  size : Nat
  capacity : Nat
  map : algokit_digraph_map K
deriving DecidableEq, Repr

section digraph_code

variable {K : Type}

/-- The adjacency list `graph->vertices[v].adj`; empty for a slot that holds
no vertex. -/
def algokit_digraph_adj (graph : algokit_digraph K) (v : Nat) : List Nat :=
  match graph.vertices.get? v with
  | some vx => vx.adj
  | none => []

/-- The function `algokit_digraph_vertex_key`: the key of the vertex, `none` (the
`NULL` pointer) for an index that holds no vertex. -/
def algokit_digraph_vertex_key (graph : algokit_digraph K) (index : Nat) : Option K :=
  if index ≥ graph.size then none
  else (graph.vertices.get? index).map (fun vx => vx.key)

/-- The probe loop of `algokit_digraph_map_get`: from `idx` on with wrap-around
until an empty slot (`some none`) or a slot whose key compares equal (`some
(some index)`).  The first argument bounds the number of slots visited;
`none` is the loop not having stopped within that bound. -/
def algokit_digraph_map_find (cmp : K → K → Int) (map : algokit_digraph_map K) (key : K) :
    Nat → Nat → Option (Option Nat)
  | 0, _ => none
  | n + 1, idx =>
    match map.entries.getD idx algokit_digraph_map_entry.empty with
    | algokit_digraph_map_entry.empty => some none
    | algokit_digraph_map_entry.occupied k index =>
      if cmp k key = 0 then some (some index)
      else algokit_digraph_map_find cmp map key n ((idx + 1) % map.capacity)

/-- The function `algokit_digraph_map_get`: result code and `*out_index`.  A probe
that has visited `capacity` slots without stopping has seen every slot and
never stops; that is the result `none`. -/
def algokit_digraph_map_get (hash : K → Nat) (cmp : K → K → Int) (map : algokit_digraph_map K)
    (key : K) : Option (Int × Option Nat) :=
  match algokit_digraph_map_find cmp map key map.capacity (hash key % map.capacity) with
  | none => none
  | some none => some (1, none)
  | some (some index) => some (0, some index)

/-- The inner loop of the breadth-first search over the adjacency list of the
dequeued vertex: a target that is not yet marked is marked and appended to
the queue. -/
def bfs_edges : List Nat → List Bool → List Nat → List Bool × List Nat
  | [], visited, queue => (visited, queue)
  | target :: edges, visited, queue =>
    if visited.getD target false = false then
      bfs_edges edges (visited.set target true) (queue ++ [target])
    else bfs_edges edges visited queue

/-- The loop `while (head < tail)` of the breadth-first search, the same code
in `algokit_digraph_bfs` and `algokit_graph_bfs`: `queue` lists the entries
written so far (`tail` is its length), `visits` the keys passed to `visit` so
far.  The first argument bounds the number of rounds; `none` is the loop not
having stopped within that bound. -/
def bfs_loop (adj : Nat → List Nat) (key : Nat → Option K) :
    Nat → Nat → List Nat → List Bool → List (Option K) → Option (List (Option K))
  | 0, _, _, _, _ => none
  | fuel + 1, head, queue, visited, visits =>
    if head < queue.length then
      let v := queue.getD head 0
      let next := bfs_edges (adj v) visited queue
      bfs_loop adj key fuel (head + 1) next.2 next.1 (visits ++ [key v])
    else some visits

/-- The function `algokit_digraph_bfs`: the result code and the keys passed to
`visit`, in order.  A lookup of the start key with a result other than 0 ends
the call with 1; otherwise `start` is the index the lookup wrote.  The loop
is given `size + 1` rounds. -/
def algokit_digraph_bfs (hash : K → Nat) (cmp : K → K → Int) (alloc_ok : Bool)
    (graph : algokit_digraph K) (start_key : K) : Option (Int × List (Option K)) :=
  match algokit_digraph_map_get hash cmp graph.map start_key with
  | none => none
  | some (rc, out_index) =>
    if rc ≠ 0 then some (1, [])
    else if alloc_ok = false then some (-1, [])
    else
      let start := out_index.getD 0
      match bfs_loop (algokit_digraph_adj graph) (algokit_digraph_vertex_key graph)
          (graph.size + 1) 0 [start] ((List.replicate graph.size false).set start true) [] with
      | none => none
      | some visits => some (0, visits)

/-- The first loops of `algokit_digraph_topological_sort`: the in-degree of
every vertex, counted over all adjacency lists.  The counts are those of the
edge nodes in memory and stay far below `2^64`. -/
def digraph_in_degree (graph : algokit_digraph K) : List Nat :=
  (List.range graph.size).foldl
    (fun deg i => (algokit_digraph_adj graph i).foldl
      (fun d target => d.set target (d.getD target 0 + 1)) deg)
    (List.replicate graph.size 0)

/-- The decrement `in_degree[to]--` of a `size_t`. -/
def size_t_dec (d : Nat) : Nat :=
  if d = 0 then 2 ^ 64 - 1 else d - 1

/-- The inner loop of the topological sort over the adjacency list of the
dequeued vertex: the in-degree of each target is lowered by one, and a target
whose in-degree has become 0 is appended to the queue. -/
def topo_edges : List Nat → List Nat → List Nat → List Nat × List Nat
  | [], in_degree, queue => (in_degree, queue)
  | target :: edges, in_degree, queue =>
    let in_degree1 := in_degree.set target (size_t_dec (in_degree.getD target 0))
    if in_degree1.getD target 0 = 0 then topo_edges edges in_degree1 (queue ++ [target])
    else topo_edges edges in_degree1 queue

/-- The loop `while (head < tail)` of the topological sort: `order` lists the
entries written to the output so far (`count` is its length).  The first
argument bounds the number of rounds. -/
def topo_loop (graph : algokit_digraph K) :
    Nat → Nat → List Nat → List Nat → List Nat → Option (List Nat)
  | 0, _, _, _, _ => none
  | fuel + 1, head, queue, in_degree, order =>
    if head < queue.length then
      let v := queue.getD head 0
      let next := topo_edges (algokit_digraph_adj graph v) in_degree queue
      topo_loop graph fuel (head + 1) next.2 next.1 (order ++ [v])
    else some order

/-- The function `algokit_digraph_topological_sort`: the result code and the
entries written to `order`.  The queue starts with the vertices of in-degree 0
in ascending index order; the loop is given `size + 1` rounds. -/
def algokit_digraph_topological_sort (alloc_ok : Bool) (graph : algokit_digraph K) :
    Option (Int × List Nat) :=
  if alloc_ok = false then some (-1, [])
  else
    let in_degree := digraph_in_degree graph
    let queue := (List.range graph.size).filter (fun i => in_degree.getD i 0 = 0)
    match topo_loop graph (graph.size + 1) 0 queue in_degree [] with
    | none => none
    | some order => some (if order.length = graph.size then 0 else 1, order)

/-- The loop over the adjacency list in `algokit_digraph_cycle_dfs`, given the
function that stands for the recursive call: the result (1 when a vertex in
state 1 is met or a recursive call returns 1) and the `state` array.  `none`
is a recursive call that does not return. -/
def cycle_edges (dfs : Nat → List Nat → Option (Int × List Nat)) :
    List Nat → List Nat → Option (Int × List Nat)
  | [], state => some (0, state)
  | target :: edges, state =>
    if state.getD target 0 = 1 then some (1, state)
    else if state.getD target 0 = 0 then
      match dfs target state with
      | none => none
      | some (rc, state1) =>
        if rc ≠ 0 then some (1, state1) else cycle_edges dfs edges state1
    else cycle_edges dfs edges state

/-- The function `algokit_digraph_cycle_dfs`: the result and the `state` array
afterwards (0 not visited, 1 on the current path, 2 done).  The first argument
bounds the depth of the recursion; `none` is that bound being used up. -/
def algokit_digraph_cycle_dfs (graph : algokit_digraph K) :
    Nat → Nat → List Nat → Option (Int × List Nat)
  | 0, _, _ => none
  | fuel + 1, v, state =>
    match cycle_edges (algokit_digraph_cycle_dfs graph fuel) (algokit_digraph_adj graph v)
        (state.set v 1) with
    | none => none
    | some (rc, state1) =>
      if rc ≠ 0 then some (1, state1) else some (0, state1.set v 2)

/-- The loop over the vertices in `algokit_digraph_has_cycle`: the value
written to `*out`. -/
def has_cycle_loop (graph : algokit_digraph K) : List Nat → List Nat → Option Int
  | [], _ => some 0
  | i :: rest, state =>
    if state.getD i 0 = 0 then
      match algokit_digraph_cycle_dfs graph (graph.size + 1) i state with
      | none => none
      | some (rc, state1) => if rc ≠ 0 then some 1 else has_cycle_loop graph rest state1
    else has_cycle_loop graph rest state

/-- The function `algokit_digraph_has_cycle`: the result code and `*out`.  The
recursion is given the depth `size + 1`. -/
def algokit_digraph_has_cycle (alloc_ok : Bool) (graph : algokit_digraph K) :
    Option (Int × Option Int) :=
  if alloc_ok = false then some (-1, none)
  else
    match has_cycle_loop graph (List.range graph.size) (List.replicate graph.size 0) with
    | none => none
    | some out => some (0, some out)

end digraph_code

section digraph_invariants

variable {K : Type}

/-- The graph has the edge `u -> v`: `v` is on the adjacency list of `u`. -/
def digraph_edge (graph : algokit_digraph K) (u v : Nat) : Prop :=
  v ∈ algokit_digraph_adj graph u

/-- The graph contains a directed cycle: a non-empty path from some vertex
back to itself. -/
def digraph_cyclic (graph : algokit_digraph K) : Prop :=
  ∃ v, Relation.TransGen (digraph_edge graph) v v

/-- The number of edges into `w` from the vertices of the list `us`, parallel
edges counted each. -/
def digraph_edges_into (graph : algokit_digraph K) (us : List Nat) (w : Nat) : Nat :=
  (us.map (fun u => (algokit_digraph_adj graph u).count w)).sum

/-- During the cycle search every vertex in state 1 (on the current path)
reaches the vertex `v` that the search is at. -/
def dfs_gray_reach (graph : algokit_digraph K) (state : List Nat) (v : Nat) : Prop :=
  ∀ x, x < graph.size → state.getD x 0 = 1 →
    Relation.ReflTransGen (digraph_edge graph) x v

/-- During the cycle search the vertices in state 2 (done) are closed under
the edges, and a numbering of them falls along every edge. -/
def dfs_black_closed (graph : algokit_digraph K) (state : List Nat) : Prop :=
  ∃ rank : Nat → Nat, ∀ u, u < graph.size → state.getD u 0 = 2 →
    ∀ w ∈ algokit_digraph_adj graph u, state.getD w 0 = 2 ∧ rank w < rank u

/-- The `state` array is well formed: one entry per vertex, each 0, 1 or 2,
and the vertices in state 2 closed under the edges. -/
def dfs_ok (graph : algokit_digraph K) (state : List Nat) : Prop :=
  state.length = graph.size ∧ (∀ x, x < graph.size → state.getD x 0 ≤ 2) ∧
  dfs_black_closed graph state

/-- What a part of the cycle search that finds nothing does to the `state`
array: entries other than 0 stay, an entry 0 stays or becomes 2. -/
def dfs_extends (n : Nat) (s s1 : List Nat) : Prop :=
  ∀ x, x < n → (s.getD x 0 ≠ 0 → s1.getD x 0 = s.getD x 0) ∧
    (s.getD x 0 = 0 → s1.getD x 0 = 0 ∨ s1.getD x 0 = 2)

/-- The index stored in a slot of the key map is below `n`. -/
def algokit_digraph_map_entry.index_below (n : Nat) : algokit_digraph_map_entry K → Bool
  | algokit_digraph_map_entry.empty => true
  | algokit_digraph_map_entry.occupied _ index => decide (index < n)

/-- The representation invariant of the graph: `size` vertices, every edge
leads to one of them, and so does every index stored in the key map. -/
def digraph_wf (graph : algokit_digraph K) : Prop :=
  graph.vertices.length = graph.size ∧
  (∀ vx ∈ graph.vertices, ∀ v ∈ vx.adj, v < graph.size) ∧
  ∀ e ∈ graph.map.entries, algokit_digraph_map_entry.index_below graph.size e = true

instance digraph_wf_decidable (graph : algokit_digraph K) : Decidable (digraph_wf graph) := by
  unfold digraph_wf
  infer_instance

/-- The graph of the test: the keys 0 to 3 on the vertices 0 to 3, and the
edges 0 -> 1, 1 -> 2, 0 -> 3 added in this order (each at the head of its
list). -/
def digraph_test_graph : algokit_digraph Int :=
  ⟨[⟨0, [3, 1]⟩, ⟨1, [2]⟩, ⟨2, []⟩, ⟨3, []⟩], 4, 8,
    ⟨[algokit_digraph_map_entry.occupied 0 0, algokit_digraph_map_entry.occupied 1 1,
      algokit_digraph_map_entry.occupied 2 2, algokit_digraph_map_entry.occupied 3 3,
      algokit_digraph_map_entry.empty, algokit_digraph_map_entry.empty,
      algokit_digraph_map_entry.empty, algokit_digraph_map_entry.empty], 8, 4⟩⟩

/-- The graph of the test after the edge 2 -> 0 has been added. -/
def digraph_test_cycle : algokit_digraph Int :=
  ⟨[⟨0, [3, 1]⟩, ⟨1, [2]⟩, ⟨2, [0]⟩, ⟨3, []⟩], 4, 8, digraph_test_graph.map⟩

end digraph_invariants

/-! ## Undirected weighted graph: data model and code -/

/-- An edge node `struct algokit_graph_edge` without its `next` link: the
field `to` (here `target`) and the weight. -/
structure algokit_graph_edge (W : Type) where
  target : Nat
  weight : W
deriving DecidableEq, Repr

/-- A vertex `struct algokit_graph_vertex`: its key and its adjacency list
from the head on. -/
structure algokit_graph_vertex (K W : Type) where
  key : K
  adj : List (algokit_graph_edge W)
deriving DecidableEq, Repr

/-- The key map `struct algokit_graph_map` of `graph.c` has the fields of
`struct algokit_digraph_map`, and its functions are the same code. -/
abbrev algokit_graph_map (K : Type) := algokit_digraph_map K

/-- The graph `struct algokit_graph`: `vertices` holds the `size` vertices
that have been added. -/
structure algokit_graph (K W : Type) where
  vertices : List (algokit_graph_vertex K W)
  size : Nat
  capacity : Nat
  map : algokit_graph_map K
deriving DecidableEq, Repr

section graph_code

variable {K W : Type}

/-- The `to` fields along the adjacency list `graph->vertices[v].adj`; empty
for a slot that holds no vertex. -/
def algokit_graph_adj (graph : algokit_graph K W) (v : Nat) : List Nat :=
  match graph.vertices.get? v with
  | some vx => vx.adj.map (fun e => e.target)
  | none => []

/-- The function `algokit_graph_vertex_key`: the key of the vertex, `none` (the `NULL`
pointer) for an index that holds no vertex. -/
def algokit_graph_vertex_key (graph : algokit_graph K W) (index : Nat) : Option K :=
  if index ≥ graph.size then none
  else (graph.vertices.get? index).map (fun vx => vx.key)

/-- The function `algokit_graph_map_get`, the code of `algokit_digraph_map_get`. -/
def algokit_graph_map_get (hash : K → Nat) (cmp : K → K → Int) (map : algokit_graph_map K)
    (key : K) : Option (Int × Option Nat) :=
  algokit_digraph_map_get hash cmp map key

/-- The function `algokit_graph_bfs`: the result code and the keys passed to `visit`,
in order; the weights are not read. -/
def algokit_graph_bfs (hash : K → Nat) (cmp : K → K → Int) (alloc_ok : Bool)
    (graph : algokit_graph K W) (start_key : K) : Option (Int × List (Option K)) :=
  match algokit_graph_map_get hash cmp graph.map start_key with
  | none => none
  | some (rc, out_index) =>
    if rc ≠ 0 then some (1, [])
    else if alloc_ok = false then some (-1, [])
    else
      let start := out_index.getD 0
      match bfs_loop (algokit_graph_adj graph) (algokit_graph_vertex_key graph)
          (graph.size + 1) 0 [start] ((List.replicate graph.size false).set start true) [] with
      | none => none
      | some visits => some (0, visits)

end graph_code

section graph_invariants

variable {K W : Type}

/-- The adjacency list of `u` has an entry for `v`. -/
def graph_edge (graph : algokit_graph K W) (u v : Nat) : Prop :=
  v ∈ algokit_graph_adj graph u

/-- The representation invariant of the graph: `size` vertices, every
adjacency entry leads to one of them, and so does every index stored in the
key map. -/
def graph_wf (graph : algokit_graph K W) : Prop :=
  graph.vertices.length = graph.size ∧
  (∀ vx ∈ graph.vertices, ∀ e ∈ vx.adj, e.target < graph.size) ∧
  ∀ e ∈ graph.map.entries, algokit_digraph_map_entry.index_below graph.size e = true

instance graph_wf_decidable (graph : algokit_graph K W) : Decidable (graph_wf graph) := by
  unfold graph_wf
  infer_instance

/-- The graph of the test: the keys 0 to 3 on the vertices 0 to 3, and the
edges 0 - 1 of weight 2 and 1 - 2 of weight 1, added in this order. -/
def graph_test_graph : algokit_graph Int Rat :=
  ⟨[⟨0, [⟨1, 2⟩]⟩, ⟨1, [⟨2, 1⟩, ⟨0, 2⟩]⟩, ⟨2, [⟨1, 1⟩]⟩, ⟨3, []⟩], 4, 8,
    ⟨[algokit_digraph_map_entry.occupied 0 0, algokit_digraph_map_entry.occupied 1 1,
      algokit_digraph_map_entry.occupied 2 2, algokit_digraph_map_entry.occupied 3 3,
      algokit_digraph_map_entry.empty, algokit_digraph_map_entry.empty,
      algokit_digraph_map_entry.empty, algokit_digraph_map_entry.empty], 8, 4⟩⟩

end graph_invariants

/-! ## Directed and undirected graph: building the graph -/

section graph_build_code

variable {K W : Type}

/-- The loop `while (map->entries[idx].state == 1)` of
`algokit_digraph_map_resize`: the first slot from `idx` on, with wrap-around,
that is not occupied.  The first argument bounds the number of slots
visited; `none` is the loop not having stopped within that bound. -/
def algokit_digraph_map_free_slot (map : algokit_digraph_map K) : Nat → Nat → Option Nat
  | 0, _ => none
  | n + 1, idx =>
    match map.entries.getD idx algokit_digraph_map_entry.empty with
    | algokit_digraph_map_entry.empty => some idx
    | algokit_digraph_map_entry.occupied _ _ =>
      algokit_digraph_map_free_slot map n ((idx + 1) % map.capacity)

/-- One round of the loop of `algokit_digraph_map_resize` over the old slots: an
occupied slot is copied to the first free slot from its hash index on. -/
def algokit_digraph_map_resize_step (hash : K → Nat) (acc : Option (algokit_digraph_map K))
    (e : algokit_digraph_map_entry K) : Option (algokit_digraph_map K) :=
  match acc, e with
  | none, _ => none
  | some m, algokit_digraph_map_entry.occupied key index =>
    match algokit_digraph_map_free_slot m m.capacity (hash key % m.capacity) with
    | none => none
    | some idx =>
      some ⟨m.entries.set idx (algokit_digraph_map_entry.occupied key index), m.capacity,
        m.size + 1⟩
  | some m, algokit_digraph_map_entry.empty => some m

/-- The function `algokit_digraph_map_resize`: result code and the map afterwards; a
failed allocation leaves the map as it is.  `none` is an inner loop that does
not stop. -/
def algokit_digraph_map_resize (hash : K → Nat) (alloc_ok : Bool) (map : algokit_digraph_map K)
    (new_capacity : Nat) : Option (Int × algokit_digraph_map K) :=
  if alloc_ok = false then some (-1, map)
  else
    match (map.entries.take map.capacity).foldl (algokit_digraph_map_resize_step hash)
        (some ⟨List.replicate new_capacity algokit_digraph_map_entry.empty, new_capacity, 0⟩) with
    | none => none
    | some m => some (0, m)

/-- The probe loop of `algokit_digraph_map_put`: `some none` when a slot with an equal
key is met (the function returns 1), `some (some idx)` with the first slot
that is not occupied, `none` when the loop has not stopped within the
bound. -/
def algokit_digraph_map_put_probe (cmp : K → K → Int) (map : algokit_digraph_map K) (key : K) :
    Nat → Nat → Option (Option Nat)
  | 0, _ => none
  | n + 1, idx =>
    match map.entries.getD idx algokit_digraph_map_entry.empty with
    | algokit_digraph_map_entry.empty => some (some idx)
    | algokit_digraph_map_entry.occupied k _ =>
      if cmp k key = 0 then some none
      else algokit_digraph_map_put_probe cmp map key n ((idx + 1) % map.capacity)

/-- The function `algokit_digraph_map_put`: result code (0 stored, 1 key present, -1
failed resize) and the map afterwards. -/
def algokit_digraph_map_put (hash : K → Nat) (cmp : K → K → Int) (alloc_ok : Bool)
    (map : algokit_digraph_map K) (key : K) (index : Nat) :
    Option (Int × algokit_digraph_map K) :=
  let resized :=
    if (map.size + 1) * 10 ≥ map.capacity * 7 then
      algokit_digraph_map_resize hash alloc_ok map (map.capacity * 2)
    else some (0, map)
  match resized with
  | none => none
  | some (rc, m) =>
    if rc ≠ 0 then some (-1, m)
    else
      match algokit_digraph_map_put_probe cmp m key m.capacity (hash key % m.capacity) with
      | none => none
      | some none => some (1, m)
      | some (some idx) =>
        some (0, ⟨m.entries.set idx (algokit_digraph_map_entry.occupied key index), m.capacity,
          m.size + 1⟩)

/-- The function `algokit_digraph_create`: `none` is the `NULL` result (capacity 0 or a
failed allocation). -/
def algokit_digraph_create (alloc_ok : Bool) (capacity : Nat) : Option (algokit_digraph K) :=
  if capacity = 0 ∨ alloc_ok = false then none
  else some ⟨[], 0, capacity,
    ⟨List.replicate capacity algokit_digraph_map_entry.empty, capacity, 0⟩⟩

/-- The function `algokit_digraph_add_vertex`: result code and the graph afterwards.
The three flags say whether the `realloc` of the vertex array, the allocation
in the `map_resize` that follows it, and the allocation of a resize inside
`map_put` succeed. -/
def algokit_digraph_add_vertex (hash : K → Nat) (cmp : K → K → Int)
    (realloc_ok resize_ok put_ok : Bool) (graph : algokit_digraph K) (key : K) :
    Option (Int × algokit_digraph K) :=
  match algokit_digraph_map_get hash cmp graph.map key with
  | none => none
  | some (rc, _) =>
    if rc = 0 then some (1, graph)
    else
      let grown : Option (Int × algokit_digraph K) :=
        if graph.size = graph.capacity then
          if realloc_ok = false then some (-1, graph)
          else
            match algokit_digraph_map_resize hash resize_ok graph.map (graph.capacity * 2) with
            | none => none
            | some (rc1, m) => some (rc1, ⟨graph.vertices, graph.size, graph.capacity * 2, m⟩)
        else some (0, graph)
      match grown with
      | none => none
      | some (rc1, g1) =>
        if rc1 ≠ 0 then some (-1, g1)
        else
          match algokit_digraph_map_put hash cmp put_ok g1.map key g1.size with
          | none => none
          | some (rc2, m) =>
            if rc2 ≠ 0 then some (-1, ⟨g1.vertices, g1.size, g1.capacity, m⟩)
            else some (0, ⟨g1.vertices ++ [⟨key, []⟩], g1.size + 1, g1.capacity, m⟩)

/-- The function `algokit_digraph_add_edge`: result code and the graph afterwards; the
new edge node is put at the head of the list of `from`. -/
def algokit_digraph_add_edge (hash : K → Nat) (cmp : K → K → Int) (alloc_ok : Bool)
    (graph : algokit_digraph K) (from_key to_key : K) : Option (Int × algokit_digraph K) :=
  match algokit_digraph_map_get hash cmp graph.map from_key with
  | none => none
  | some (rc, out_from) =>
    if rc ≠ 0 then some (1, graph)
    else
      match algokit_digraph_map_get hash cmp graph.map to_key with
      | none => none
      | some (rc1, out_to) =>
        if rc1 ≠ 0 then some (1, graph)
        else if alloc_ok = false then some (-1, graph)
        else
          some (0, ⟨graph.vertices.modify
            (fun vx => ⟨vx.key, out_to.getD 0 :: vx.adj⟩) (out_from.getD 0),
            graph.size, graph.capacity, graph.map⟩)

/-- A call that builds a directed graph. -/
inductive digraph_op (K : Type) where
  | add_vertex (realloc_ok resize_ok put_ok : Bool) (key : K) : digraph_op K
  | add_edge (alloc_ok : Bool) (from_key to_key : K) : digraph_op K
deriving DecidableEq, Repr

/-- The graph after one call; `none` when the call does not return. -/
def digraph_step (hash : K → Nat) (cmp : K → K → Int) (graph : algokit_digraph K) :
    digraph_op K → Option (algokit_digraph K)
  | digraph_op.add_vertex a b c key =>
    (algokit_digraph_add_vertex hash cmp a b c graph key).map (fun res => res.2)
  | digraph_op.add_edge a from_key to_key =>
    (algokit_digraph_add_edge hash cmp a graph from_key to_key).map (fun res => res.2)

/-- The graph after a sequence of calls, each of which returns. -/
def digraph_run (hash : K → Nat) (cmp : K → K → Int) :
    algokit_digraph K → List (digraph_op K) → Option (algokit_digraph K)
  | graph, [] => some graph
  | graph, op :: ops =>
    match digraph_step hash cmp graph op with
    | none => none
    | some g1 => digraph_run hash cmp g1 ops

/-- The directed graphs that calls of `add_vertex` and `add_edge` which return
build from a graph of `algokit_digraph_create`. -/
def digraph_reachable (hash : K → Nat) (cmp : K → K → Int) (graph : algokit_digraph K) : Prop :=
  ∃ (capacity : Nat) (ops : List (digraph_op K)) (g0 : algokit_digraph K),
    algokit_digraph_create true capacity = some g0 ∧ digraph_run hash cmp g0 ops = some graph

/-- The function `algokit_graph_create`, the code of `algokit_digraph_create`. -/
def algokit_graph_create (alloc_ok : Bool) (capacity : Nat) : Option (algokit_graph K W) :=
  if capacity = 0 ∨ alloc_ok = false then none
  else some ⟨[], 0, capacity,
    ⟨List.replicate capacity algokit_digraph_map_entry.empty, capacity, 0⟩⟩

/-- The function `algokit_graph_add_vertex`, the code of `algokit_digraph_add_vertex`. -/
def algokit_graph_add_vertex (hash : K → Nat) (cmp : K → K → Int)
    (realloc_ok resize_ok put_ok : Bool) (graph : algokit_graph K W) (key : K) :
    Option (Int × algokit_graph K W) :=
  match algokit_graph_map_get hash cmp graph.map key with
  | none => none
  | some (rc, _) =>
    if rc = 0 then some (1, graph)
    else
      let grown : Option (Int × algokit_graph K W) :=
        if graph.size = graph.capacity then
          if realloc_ok = false then some (-1, graph)
          else
            match algokit_digraph_map_resize hash resize_ok graph.map (graph.capacity * 2) with
            | none => none
            | some (rc1, m) => some (rc1, ⟨graph.vertices, graph.size, graph.capacity * 2, m⟩)
        else some (0, graph)
      match grown with
      | none => none
      | some (rc1, g1) =>
        if rc1 ≠ 0 then some (-1, g1)
        else
          match algokit_digraph_map_put hash cmp put_ok g1.map key g1.size with
          | none => none
          | some (rc2, m) =>
            if rc2 ≠ 0 then some (-1, ⟨g1.vertices, g1.size, g1.capacity, m⟩)
            else some (0, ⟨g1.vertices ++ [⟨key, []⟩], g1.size + 1, g1.capacity, m⟩)

/-- The function `algokit_graph_add_edge`: result code and the graph afterwards; one
edge node is put at the head of the list of `u`, then one at the head of the
list of `v`. -/
def algokit_graph_add_edge (hash : K → Nat) (cmp : K → K → Int) (alloc_ok : Bool)
    (graph : algokit_graph K W) (u_key v_key : K) (weight : W) :
    Option (Int × algokit_graph K W) :=
  match algokit_graph_map_get hash cmp graph.map u_key with
  | none => none
  | some (rc, out_u) =>
    if rc ≠ 0 then some (1, graph)
    else
      match algokit_graph_map_get hash cmp graph.map v_key with
      | none => none
      | some (rc1, out_v) =>
        if rc1 ≠ 0 then some (1, graph)
        else if alloc_ok = false then some (-1, graph)
        else
          let vertices1 := graph.vertices.modify
            (fun vx => ⟨vx.key, ⟨out_v.getD 0, weight⟩ :: vx.adj⟩) (out_u.getD 0)
          some (0, ⟨vertices1.modify
            (fun vx => ⟨vx.key, ⟨out_u.getD 0, weight⟩ :: vx.adj⟩) (out_v.getD 0),
            graph.size, graph.capacity, graph.map⟩)

/-- A call that builds an undirected graph. -/
inductive graph_op (K W : Type) where
  | add_vertex (realloc_ok resize_ok put_ok : Bool) (key : K) : graph_op K W
  | add_edge (alloc_ok : Bool) (u_key v_key : K) (weight : W) : graph_op K W
deriving DecidableEq, Repr

/-- The graph after one call; `none` when the call does not return. -/
def graph_step (hash : K → Nat) (cmp : K → K → Int) (graph : algokit_graph K W) :
    graph_op K W → Option (algokit_graph K W)
  | graph_op.add_vertex a b c key =>
    (algokit_graph_add_vertex hash cmp a b c graph key).map (fun res => res.2)
  | graph_op.add_edge a u_key v_key weight =>
    (algokit_graph_add_edge hash cmp a graph u_key v_key weight).map (fun res => res.2)

/-- The graph after a sequence of calls, each of which returns. -/
def graph_run (hash : K → Nat) (cmp : K → K → Int) :
    algokit_graph K W → List (graph_op K W) → Option (algokit_graph K W)
  | graph, [] => some graph
  | graph, op :: ops =>
    match graph_step hash cmp graph op with
    | none => none
    | some g1 => graph_run hash cmp g1 ops

/-- The undirected graphs that calls of `add_vertex` and `add_edge` which
return build from a graph of `algokit_graph_create`. -/
def graph_reachable (hash : K → Nat) (cmp : K → K → Int) (graph : algokit_graph K W) : Prop :=
  ∃ (capacity : Nat) (ops : List (graph_op K W)) (g0 : algokit_graph K W),
    algokit_graph_create true capacity = some g0 ∧ graph_run hash cmp g0 ops = some graph

/-- The calls of the directed-graph test: four vertices with the keys 0 to 3,
then the edges 0 -> 1, 1 -> 2, 0 -> 3. -/
def digraph_test_ops : List (digraph_op Int) :=
  [digraph_op.add_vertex true true true 0, digraph_op.add_vertex true true true 1,
    digraph_op.add_vertex true true true 2, digraph_op.add_vertex true true true 3,
    digraph_op.add_edge true 0 1, digraph_op.add_edge true 1 2, digraph_op.add_edge true 0 3]

/-- The calls of the undirected-graph test: four vertices with the keys 0 to
3, then the edges 0 - 1 of weight 2 and 1 - 2 of weight 1. -/
def graph_test_ops : List (graph_op Int Rat) :=
  [graph_op.add_vertex true true true 0, graph_op.add_vertex true true true 1,
    graph_op.add_vertex true true true 2, graph_op.add_vertex true true true 3,
    graph_op.add_edge true 0 1 2, graph_op.add_edge true 1 2 1]

end graph_build_code

/-! ## Key map of the graphs: invariant -/

section graph_map_invariants

variable {K W : Type}

/-- The slot of the key map is in state `1`. -/
def algokit_digraph_map_entry.is_occupied : algokit_digraph_map_entry K → Bool
  | algokit_digraph_map_entry.occupied _ _ => true
  | algokit_digraph_map_entry.empty => false

/-- The invariant of the key map of a graph with `n` vertices: the array has
`capacity` slots, at least one; `size` counts the occupied slots, of which
there is one per vertex; and `size` lies strictly below seven tenths of the
capacity, so that some slot is empty. -/
def digraph_map_ok (map : algokit_digraph_map K) (n : Nat) : Prop :=
  map.entries.length = map.capacity ∧ 0 < map.capacity ∧
  map.size = map.entries.countP algokit_digraph_map_entry.is_occupied ∧
  map.size = n ∧ map.size * 10 < map.capacity * 7

instance digraph_map_ok_decidable (map : algokit_digraph_map K) (n : Nat) :
    Decidable (digraph_map_ok map n) := by
  unfold digraph_map_ok
  infer_instance

/-- The invariant of a directed graph that its lookups rely on: the
representation invariant, the invariant of the key map, and a vertex array
with room for at least one vertex. -/
def digraph_ok (graph : algokit_digraph K) : Prop :=
  digraph_wf graph ∧ digraph_map_ok graph.map graph.size ∧ 0 < graph.capacity

instance digraph_ok_decidable (graph : algokit_digraph K) : Decidable (digraph_ok graph) := by
  unfold digraph_ok
  infer_instance

/-- The invariant of an undirected graph that its lookups rely on. -/
def graph_ok (graph : algokit_graph K W) : Prop :=
  graph_wf graph ∧ digraph_map_ok graph.map graph.size ∧ 0 < graph.capacity

instance graph_ok_decidable (graph : algokit_graph K W) : Decidable (graph_ok graph) := by
  unfold graph_ok
  infer_instance

end graph_map_invariants

section rbtree_traversal_calls

variable {K V C : Type}

/-- The function `algokit_rbtree_traverse_node` with its callback and its
return value.  An `algokit_rbtree_visit_fn` returns `void`: a call of `visit`
acts on the caller's context `ctx` and hands nothing back to the traversal.
The result is the return value and the context after the call. -/
def algokit_rbtree_traverse_node_rc (visit : Item K V → C → C) :
    algokit_rbtree_node K V → Nat → C → Int × C
  | null, _, ctx => (0, ctx)
  | node i l r _, order, ctx =>
    let ctx1 := if order = 0 then visit i ctx else ctx
    let left := algokit_rbtree_traverse_node_rc visit l order ctx1
    if left.1 ≠ 0 then (-1, left.2)
    else
      let ctx2 := if order = 1 then visit i left.2 else left.2
      let right := algokit_rbtree_traverse_node_rc visit r order ctx2
      if right.1 ≠ 0 then (-1, right.2)
      else (0, if order = 2 then visit i right.2 else right.2)

/-- The function `algokit_rbtree_traverse_inorder` with its callback: return
value and context after the call. -/
def algokit_rbtree_traverse_inorder_rc (visit : Item K V → C → C) (tree : algokit_rbtree K V)
    (ctx : C) : Int × C :=
  algokit_rbtree_traverse_node_rc visit tree.root 1 ctx

/-- The function `algokit_rbtree_traverse_preorder` with its callback. -/
def algokit_rbtree_traverse_preorder_rc (visit : Item K V → C → C) (tree : algokit_rbtree K V)
    (ctx : C) : Int × C :=
  algokit_rbtree_traverse_node_rc visit tree.root 0 ctx

/-- The function `algokit_rbtree_traverse_postorder` with its callback. -/
def algokit_rbtree_traverse_postorder_rc (visit : Item K V → C → C) (tree : algokit_rbtree K V)
    (ctx : C) : Int × C :=
  algokit_rbtree_traverse_node_rc visit tree.root 2 ctx

/-- The pre-order sequence of the pairs of a subtree. -/
def preorder : algokit_rbtree_node K V → List (Item K V)
  | null => []
  | node i l r _ => i :: (preorder l ++ preorder r)

/-- The post-order sequence of the pairs of a subtree. -/
def postorder : algokit_rbtree_node K V → List (Item K V)
  | null => []
  | node i l r _ => postorder l ++ postorder r ++ [i]

/-- The tree of the two pairs `(1, 10)` and `(2, 20)`, as two calls of
`algokit_rbtree_insert` on the empty tree build it. -/
def rbtree_two_pairs : algokit_rbtree Int Int :=
  (algokit_rbtree_insert int_cmp true
    (algokit_rbtree_insert int_cmp true algokit_rbtree_create ⟨1, 10⟩).2 ⟨2, 20⟩).2

end rbtree_traversal_calls

/-! ## Key map of the graphs: the stored keys -/

section graph_key_invariants

variable {K W : Type}

/-- The function `algokit_digraph_vertex_count`. -/
def algokit_digraph_vertex_count (graph : algokit_digraph K) : Nat :=
  graph.size

/-- The function `algokit_graph_vertex_count`. -/
def algokit_graph_vertex_count (graph : algokit_graph K W) : Nat :=
  graph.size

/-- Lookups in the key map are sound: probing for the key of an occupied slot
ends at a slot that holds the same index, and no two slots hold keys that
compare equal. -/
def digraph_map_sound (hash : K → Nat) (cmp : K → K → Int) (map : algokit_digraph_map K) :
    Prop :=
  (∀ k idx, algokit_digraph_map_entry.occupied k idx ∈ map.entries →
    algokit_digraph_map_find cmp map k map.capacity (hash k % map.capacity) =
      some (some idx)) ∧
  (∀ (j1 j2 : Nat) (k1 : K) (i1 : Nat) (k2 : K) (i2 : Nat), map.entries[j1]? = some (algokit_digraph_map_entry.occupied k1 i1) →
    map.entries[j2]? = some (algokit_digraph_map_entry.occupied k2 i2) →
    cmp k1 k2 = 0 → j1 = j2)

/-- The key map holds the keys of the vertex array with their indices, and
nothing else. -/
def digraph_map_keys (map : algokit_digraph_map K) (keys : List K) : Prop :=
  (∀ (i : Nat) (k : K), keys[i]? = some k → algokit_digraph_map_entry.occupied k i ∈ map.entries) ∧
  (∀ k idx, algokit_digraph_map_entry.occupied k idx ∈ map.entries → keys[idx]? = some k)

/-- The invariant of a directed graph with its key map. -/
def digraph_inv (hash : K → Nat) (cmp : K → K → Int) (graph : algokit_digraph K) : Prop :=
  digraph_ok graph ∧ digraph_map_sound hash cmp graph.map ∧
  digraph_map_keys graph.map (graph.vertices.map (fun vx => vx.key))

/-- The invariant of an undirected graph with its key map. -/
def graph_inv (hash : K → Nat) (cmp : K → K → Int) (graph : algokit_graph K W) : Prop :=
  graph_ok graph ∧ digraph_map_sound hash cmp graph.map ∧
  digraph_map_keys graph.map (graph.vertices.map (fun vx => vx.key))

end graph_key_invariants

/-! ## Depth-first search: code -/

section dfs_code

variable {K W : Type}

/-- The loop over the adjacency list in `algokit_digraph_dfs_visit` and
`algokit_graph_dfs_visit`, given the function that stands for the recursive call: a
target that is not marked is visited by a recursive call.  The state is the
`visited` array and the keys passed to `visit` so far; `none` is a recursive
call that does not return. -/
def dfs_edges (dfs : Nat → List Bool × List (Option K) → Option (List Bool × List (Option K))) :
    List Nat → List Bool × List (Option K) → Option (List Bool × List (Option K))
  | [], st => some st
  | target :: edges, st =>
    if st.1.getD target false = false then
      match dfs target st with
      | none => none
      | some st1 => dfs_edges dfs edges st1
    else dfs_edges dfs edges st

/-- The function `algokit_digraph_dfs_visit`, the same code as `algokit_graph_dfs_visit`:
`v` is marked, its key is passed to `visit`, then the adjacency list is
followed from its head.  The first argument bounds the depth of the
recursion; `none` is that bound being used up. -/
def dfs_visit (adj : Nat → List Nat) (key : Nat → Option K) :
    Nat → Nat → List Bool × List (Option K) → Option (List Bool × List (Option K))
  | 0, _, _ => none
  | fuel + 1, v, st =>
    dfs_edges (dfs_visit adj key fuel) (adj v) (st.1.set v true, st.2 ++ [key v])

/-- The function `algokit_digraph_dfs`: the result code and the keys passed to `visit`,
in order.  A lookup of the start key with a result other than 0 ends the call
with 1.  The recursion is given the depth `size + 1`. -/
def algokit_digraph_dfs (hash : K → Nat) (cmp : K → K → Int) (alloc_ok : Bool)
    (graph : algokit_digraph K) (start_key : K) : Option (Int × List (Option K)) :=
  match algokit_digraph_map_get hash cmp graph.map start_key with
  | none => none
  | some (rc, out_index) =>
    if rc ≠ 0 then some (1, [])
    else if alloc_ok = false then some (-1, [])
    else
      match dfs_visit (algokit_digraph_adj graph) (algokit_digraph_vertex_key graph)
          (graph.size + 1) (out_index.getD 0) (List.replicate graph.size false, []) with
      | none => none
      | some st => some (0, st.2)

/-- The function `algokit_graph_dfs`: the result code and the keys passed to `visit`, in
order; the weights are not read. -/
def algokit_graph_dfs (hash : K → Nat) (cmp : K → K → Int) (alloc_ok : Bool)
    (graph : algokit_graph K W) (start_key : K) : Option (Int × List (Option K)) :=
  match algokit_graph_map_get hash cmp graph.map start_key with
  | none => none
  | some (rc, out_index) =>
    if rc ≠ 0 then some (1, [])
    else if alloc_ok = false then some (-1, [])
    else
      match dfs_visit (algokit_graph_adj graph) (algokit_graph_vertex_key graph)
          (graph.size + 1) (out_index.getD 0) (List.replicate graph.size false, []) with
      | none => none
      | some st => some (0, st.2)

/-- The `visited` array of a search over `n` vertices marks the vertices of
the list `order`, which are different vertices below `n`. -/
def dfs_marked (n : Nat) (visited : List Bool) (order : List Nat) : Prop :=
  visited.length = n ∧ (∀ x, x < n → (visited.getD x false = true ↔ x ∈ order)) ∧
  (∀ x ∈ order, x < n) ∧ order.Nodup

end dfs_code

/-- The directed graph of the test before its edges are added: the keys 0 to
3 on the vertices 0 to 3. -/
def digraph_test_vertices : algokit_digraph Int :=
  ⟨[⟨0, []⟩, ⟨1, []⟩, ⟨2, []⟩, ⟨3, []⟩], 4, 8, digraph_test_graph.map⟩

/-! ## Undirected graph: connected components, code -/

section components_code

variable {K W : Type}

/-- The adjacency list `graph->vertices[v].adj` with its weights; empty for a
slot that holds no vertex. -/
def algokit_graph_edges (graph : algokit_graph K W) (v : Nat) : List (algokit_graph_edge W) :=
  match graph.vertices.get? v with
  | some vx => vx.adj
  | none => []

/-- The loop `while (top > 0)` of `algokit_graph_connected_components`: `stack`
lists the entries `stack[0 .. top - 1]`, the last of which is popped; the
popped vertex gets the component id `count`, and its targets that are not
marked are marked and pushed (the inner loop has the code of the inner loop of
the breadth-first search).  The first argument bounds the number of rounds;
`none` is the loop not having stopped within that bound. -/
def components_stack_loop (adj : Nat → List Nat) (count : Nat) :
    Nat → List Nat → List Bool → List Nat → Option (List Bool × List Nat)
  | 0, _, _, _ => none
  | fuel + 1, stack, visited, component_ids =>
    if stack.length > 0 then
      let v := stack.getD (stack.length - 1) 0
      let next := bfs_edges (adj v) visited (stack.take (stack.length - 1))
      components_stack_loop adj count fuel next.2 next.1 (component_ids.set v count)
    else some (visited, component_ids)

/-- The loop over the vertices in `algokit_graph_connected_components`: the
return value and the array `component_ids`.  `stack_ok i` says whether the
allocation of the stack for the search from `i` succeeds. -/
def components_loop (graph : algokit_graph K W) (stack_ok : Nat → Bool) :
    List Nat → Nat → List Bool → List Nat → Option (Nat × List Nat)
  | [], count, _, component_ids => some (count, component_ids)
  | i :: rest, count, visited, component_ids =>
    if visited.getD i false = false then
      if stack_ok i = false then some (0, component_ids)
      else
        match components_stack_loop (algokit_graph_adj graph) count (graph.size + 1) [i]
            (visited.set i true) component_ids with
        | none => none
        | some (visited1, ids1) => components_loop graph stack_ok rest (count + 1) visited1 ids1
    else components_loop graph stack_ok rest count visited component_ids

/-- The function `algokit_graph_connected_components`: the return value and the array
`component_ids` afterwards.  `alloc_ok` says whether the allocation of the
`visited` array succeeds; the stack loop is given `size + 1` rounds. -/
def algokit_graph_connected_components (alloc_ok : Bool) (stack_ok : Nat → Bool)
    (graph : algokit_graph K W) (component_ids : List Nat) : Option (Nat × List Nat) :=
  if alloc_ok = false then some (0, component_ids)
  else
    components_loop graph stack_ok (List.range graph.size) 0
      (List.replicate graph.size false) component_ids

/-- The adjacency lists are symmetric: an entry for `v` with a weight on the
list of `u` has an entry for `u` with that weight on the list of `v`. -/
def graph_symm (graph : algokit_graph K W) : Prop :=
  ∀ (u v : Nat) (w : W), (⟨v, w⟩ : algokit_graph_edge W) ∈ algokit_graph_edges graph u →
    (⟨u, w⟩ : algokit_graph_edge W) ∈ algokit_graph_edges graph v

end components_code

/-! ## Undirected graph: minimum spanning trees, code

The weights are `double` values in C; they are modelled by rational numbers
and compared and added exactly. -/

/-- The value `(size_t)-1` of a 64-bit `size_t`, written to `parent[]` for a
vertex without parent. -/
def SIZE_MAX : Nat := 2 ^ 64 - 1

/-- The constant `DBL_MAX` of `<float.h>` for IEEE 754 doubles,
`(2 - 2^-52) * 2^1023`. -/
def DBL_MAX : Rat := 2 ^ 1024 - 2 ^ 971

/-- An entry `struct algokit_graph_mst_edge` of the edge array of
`algokit_graph_mst_kruskal`. -/
structure algokit_graph_mst_edge where
  u : Nat
  v : Nat
  w : Rat
deriving DecidableEq, Repr

section mst_code

variable {K : Type}

/-- The loop `parent[i] = (size_t)-1` over the vertices. -/
def mst_parent_init (size : Nat) (parent : List Nat) : List Nat :=
  (List.range size).foldl (fun p i => p.set i SIZE_MAX) parent

/-- The scan of `algokit_graph_mst_prim` for the vertex outside the tree with the
least key below `min`: the state is `min` and `u`. -/
def prim_scan (in_mst : List Bool) (key : List Rat) : List Nat → Rat × Nat → Rat × Nat
  | [], st => st
  | v :: rest, st =>
    if in_mst.getD v false = false ∧ key.getD v 0 < st.1 then
      prim_scan in_mst key rest (key.getD v 0, v)
    else prim_scan in_mst key rest st

/-- The loop of `algokit_graph_mst_prim` over the adjacency list of `u`: a target outside
the tree whose key is above the weight of the edge gets that weight as key and
`u` as parent.  The state is the arrays `key` and `parent`. -/
def prim_edges (in_mst : List Bool) (u : Nat) :
    List (algokit_graph_edge Rat) → List Rat × List Nat → List Rat × List Nat
  | [], st => st
  | e :: edges, st =>
    if in_mst.getD e.target false = false ∧ e.weight < st.1.getD e.target 0 then
      prim_edges in_mst u edges (st.1.set e.target e.weight, st.2.set e.target u)
    else prim_edges in_mst u edges st

/-- The main loop of `algokit_graph_mst_prim`, for the number of rounds that are left:
the result code and the array `parent`. -/
def prim_loop (graph : algokit_graph K Rat) :
    Nat → List Bool → List Rat → List Nat → Int × List Nat
  | 0, _, _, parent => (0, parent)
  | rounds + 1, in_mst, key, parent =>
    let found := prim_scan in_mst key (List.range graph.size) (DBL_MAX, SIZE_MAX)
    if found.2 = SIZE_MAX then (1, parent)
    else
      let in_mst1 := in_mst.set found.2 true
      let next := prim_edges in_mst1 found.2 (algokit_graph_edges graph found.2) (key, parent)
      prim_loop graph rounds in_mst1 next.1 next.2

/-- The function `algokit_graph_mst_prim`: the result code and the array `parent`
afterwards.  A lookup of the start key with a result other than 0 ends the
call with 1; `alloc_ok` says whether the two allocations succeed. -/
def algokit_graph_mst_prim (hash : K → Nat) (cmp : K → K → Int) (alloc_ok : Bool)
    (graph : algokit_graph K Rat) (start_key : K) (parent : List Nat) :
    Option (Int × List Nat) :=
  match algokit_graph_map_get hash cmp graph.map start_key with
  | none => none
  | some (rc, out_index) =>
    if rc ≠ 0 then some (1, parent)
    else if alloc_ok = false then some (-1, parent)
    else
      some (prim_loop graph graph.size (List.replicate graph.size false)
        ((List.replicate graph.size DBL_MAX).set (out_index.getD 0) 0)
        (mst_parent_init graph.size parent))

/-- The two loops of `algokit_graph_mst_kruskal` over the adjacency lists that fill the
edge array: every entry with `i < edge->to`, in the order of the lists. -/
def kruskal_edges (graph : algokit_graph K Rat) : List algokit_graph_mst_edge :=
  (List.range graph.size).flatMap (fun i =>
    ((algokit_graph_edges graph i).filter (fun e => decide (i < e.target))).map
      (fun e => ⟨i, e.target, e.weight⟩))

/-- The function `algokit_graph_edge_cmp`, the comparison passed to `qsort`. -/
def algokit_graph_edge_cmp (a b : algokit_graph_mst_edge) : Int :=
  (if a.w > b.w then 1 else 0) - (if a.w < b.w then 1 else 0)

/-- What the C standard promises of `qsort` with `algokit_graph_edge_cmp`: the
array afterwards holds the same entries, in an order in which no entry
compares greater than a later one. -/
def qsort_sorts (qsort : List algokit_graph_mst_edge → List algokit_graph_mst_edge) : Prop :=
  ∀ l, (qsort l).Perm l ∧ (qsort l).Pairwise (fun a b => algokit_graph_edge_cmp a b ≤ 0)

/-- The loop `for (i = 0; i < edge_count && mst_edges + 1 < graph->size; i++)`
of `algokit_graph_mst_kruskal` over the sorted edges: an edge whose ends have different
roots is unioned and entered at the head of the lists `mst_adj[u]` and
`mst_adj[v]` (the `to` fields are listed; the weight field is not read
again).  `node_ok` says whether the allocations of the edge nodes succeed.
The result is `none` when a call of the union-find does not return, `some
none` for the return value -1, else the lists and `mst_edges`. -/
def kruskal_union_loop (size : Nat) (node_ok : Bool) :
    List algokit_graph_mst_edge → algokit_uf_wqupc → List (List Nat) → Nat →
      Option (Option (List (List Nat) × Nat))
  | [], _, mst_adj, mst_edges => some (some (mst_adj, mst_edges))
  | e :: rest, uf, mst_adj, mst_edges =>
    if mst_edges + 1 < size then
      match algokit_uf_wqupc_find uf e.u with
      | none => none
      | some (_, ru, uf1) =>
        match algokit_uf_wqupc_find uf1 e.v with
        | none => none
        | some (_, rv, uf2) =>
          if ru.getD 0 ≠ rv.getD 0 then
            match algokit_uf_wqupc_union uf2 e.u e.v with
            | none => none
            | some (_, uf3) =>
              if node_ok = false then some none
              else
                let adj1 := mst_adj.set e.u (e.v :: mst_adj.getD e.u [])
                let adj2 := adj1.set e.v (e.u :: adj1.getD e.v [])
                kruskal_union_loop size node_ok rest uf3 adj2 (mst_edges + 1)
          else kruskal_union_loop size node_ok rest uf2 mst_adj mst_edges
    else some (some (mst_adj, mst_edges))

/-- The inner loop of the last part of `algokit_graph_mst_kruskal` over the list
`mst_adj[v]`: a target that is not marked is marked, gets `v` as parent and is
appended to the queue.  The state is `visited`, `parent` and the queue. -/
def kruskal_bfs_edges (v : Nat) :
    List Nat → List Bool × List Nat × List Nat → List Bool × List Nat × List Nat
  | [], st => st
  | target :: edges, st =>
    if st.1.getD target false = false then
      kruskal_bfs_edges v edges (st.1.set target true, st.2.1.set target v, st.2.2 ++ [target])
    else kruskal_bfs_edges v edges st

/-- The loop `while (head < tail)` of the last part of `algokit_graph_mst_kruskal`.  The
first argument bounds the number of rounds; `none` is the loop not having
stopped within that bound. -/
def kruskal_bfs_loop (mst_adj : List (List Nat)) :
    Nat → Nat → List Bool × List Nat × List Nat → Option (List Bool × List Nat)
  | 0, _, _ => none
  | fuel + 1, head, st =>
    if head < st.2.2.length then
      let v := st.2.2.getD head 0
      kruskal_bfs_loop mst_adj fuel (head + 1) (kruskal_bfs_edges v (mst_adj.getD v []) st)
    else some (st.1, st.2.1)

/-- The loop over the vertices of the last part of `algokit_graph_mst_kruskal`: a search
from every vertex that is not marked.  `queue_ok` says whether the
allocations of the queues succeed; the result is 0 and the array `parent` when
the loop is through, and -1 and the array as it is then when an allocation
fails. -/
def kruskal_forest_loop (size : Nat) (mst_adj : List (List Nat)) (queue_ok : Bool) :
    List Nat → List Bool → List Nat → Option (Int × List Nat)
  | [], _, parent => some (0, parent)
  | i :: rest, visited, parent =>
    if visited.getD i false = false then
      if queue_ok = false then some (-1, parent)
      else
        match kruskal_bfs_loop mst_adj (size + 1) 0 (visited.set i true, parent, [i]) with
        | none => none
        | some (visited1, parent1) =>
          kruskal_forest_loop size mst_adj queue_ok rest visited1 parent1
    else kruskal_forest_loop size mst_adj queue_ok rest visited parent

/-- The function `algokit_graph_mst_kruskal`: the result code and the array `parent`
afterwards.  `qsort` stands for the library function called with
`algokit_graph_edge_cmp`; `alloc_ok` says whether the allocations before the loop over
the edges succeed (the edge array, `mst_adj`, the union-find), `node_ok`
whether those of the edge nodes do, `visited_ok` and `queue_ok` whether those
of the last part do.  The queue loop is given `size + 1` rounds. -/
def algokit_graph_mst_kruskal (qsort : List algokit_graph_mst_edge → List algokit_graph_mst_edge)
    (alloc_ok node_ok visited_ok queue_ok : Bool) (graph : algokit_graph K Rat)
    (parent : List Nat) : Option (Int × List Nat) :=
  if alloc_ok = false then some (-1, parent)
  else
    match algokit_uf_wqupc_create true graph.size with
    | none => some (-1, parent)
    | some uf =>
      match kruskal_union_loop graph.size node_ok (qsort (kruskal_edges graph)) uf
          (List.replicate graph.size []) 0 with
      | none => none
      | some none => some (-1, parent)
      | some (some (mst_adj, mst_edges)) =>
        if visited_ok = false then some (-1, mst_parent_init graph.size parent)
        else
          match kruskal_forest_loop graph.size mst_adj queue_ok (List.range graph.size)
              (List.replicate graph.size false) (mst_parent_init graph.size parent) with
          | none => none
          | some (rc, parent1) =>
            if rc ≠ 0 then some (-1, parent1)
            else some (if graph.size > 0 ∧ mst_edges + 1 < graph.size then 1 else 0, parent1)

/-- The calls of the example `examples/graph_mst`: four vertices with the keys
0 to 3, then the edges 0 - 1 of weight 2, 1 - 2 of weight 1, 0 - 2 of weight
2.5 and 2 - 3 of weight 0.5. -/
def graph_mst_ops : List (graph_op Int Rat) :=
  [graph_op.add_vertex true true true 0, graph_op.add_vertex true true true 1,
    graph_op.add_vertex true true true 2, graph_op.add_vertex true true true 3,
    graph_op.add_edge true 0 1 2, graph_op.add_edge true 1 2 1,
    graph_op.add_edge true 0 2 (5 / 2), graph_op.add_edge true 2 3 (1 / 2)]

/-- The graph of the example `examples/graph_mst`. -/
def graph_mst_example : algokit_graph Int Rat :=
  ⟨[⟨0, [⟨2, 5 / 2⟩, ⟨1, 2⟩]⟩, ⟨1, [⟨2, 1⟩, ⟨0, 2⟩]⟩,
      ⟨2, [⟨3, 1 / 2⟩, ⟨0, 5 / 2⟩, ⟨1, 1⟩]⟩, ⟨3, [⟨2, 1 / 2⟩]⟩], 4, 8, graph_test_graph.map⟩

/-- A sorting function that meets the promise of `qsort`: insertion sort by
weight. -/
def mst_edge_sort (l : List algokit_graph_mst_edge) : List algokit_graph_mst_edge :=
  l.insertionSort (fun a b => a.w ≤ b.w)

/-- The vertices `a` and `b` are joined by the edges of the list, taken in
either direction. -/
def mst_conn (edges : List algokit_graph_mst_edge) : Nat → Nat → Prop :=
  Relation.EqvGen (fun a b => ∃ e ∈ edges, e.u = a ∧ e.v = b)

/-- The edges of the list form a forest: none of them joins two vertices that
the edges after it in the list join already. -/
def edge_forest : List algokit_graph_mst_edge → Prop
  | [] => True
  | e :: older => ¬ mst_conn older e.u e.v ∧ edge_forest older

/-- The relation `R` has `k` classes among the numbers below `n`: `k` of them
are related to no lower number. -/
def class_count (n : Nat) (R : Nat → Nat → Prop) (k : Nat) : Prop :=
  ∃ reps : Finset Nat, (∀ v, v ∈ reps ↔ (v < n ∧ ∀ u, u < v → ¬ R u v)) ∧ reps.card = k

end mst_code

/-! ## Prim: the invariant of the main loop -/

section prim_invariant

variable {K : Type}

/-- Every weight of the graph is below `DBL_MAX`. -/
def graph_weights_below (graph : algokit_graph K Rat) : Prop :=
  ∀ vx ∈ graph.vertices, ∀ e ∈ vx.adj, e.weight < DBL_MAX

instance graph_weights_below_decidable (graph : algokit_graph K Rat) :
    Decidable (graph_weights_below graph) := by
  unfold graph_weights_below
  infer_instance

/-- The invariant of the main loop of `algokit_graph_mst_prim` after the first round.
`S` lists the vertices of the tree in the order in which they were taken, `P`
the tree edges, the last one first, each with the parent as `u`, the vertex
taken as `v` and the key it was taken with as `w`.  The tree edges are
adjacency entries and join the vertices of `S`, also when only weights up to a
bound `t` are admitted on both sides; the parent of a vertex of the tree was
taken before it; the key of a vertex outside the tree is at most the weight of
every entry that leads to it from the tree, and when it is below `DBL_MAX` it is
the weight of such an entry on the list of its parent. -/
def prim_inv (graph : algokit_graph K Rat) (S : List Nat) (P : List algokit_graph_mst_edge)
    (in_mst : List Bool) (key : List Rat) (parent : List Nat) : Prop :=
  dfs_marked graph.size in_mst S ∧ key.length = graph.size ∧ graph.size ≤ parent.length ∧
  0 < S.length ∧
  P.map (fun e => e.v) = S.tail.reverse ∧
  (∀ e ∈ P, e.u ∈ S ∧ (⟨e.v, e.w⟩ : algokit_graph_edge Rat) ∈ algokit_graph_edges graph e.u ∧
    parent.getD e.v 0 = e.u) ∧
  (∀ a ∈ S, ∀ b ∈ S, mst_conn P a b) ∧
  (∀ a ∈ S, ∀ b ∈ S, ∀ t : Rat,
    mst_conn ((kruskal_edges graph).filter (fun e => decide (e.w ≤ t))) a b →
      mst_conn (P.filter (fun e => decide (e.w ≤ t))) a b) ∧
  parent.getD (S.getD 0 0) 0 = SIZE_MAX ∧
  (∀ j, 0 < j → j < S.length → ∃ j', j' < j ∧ parent.getD (S.getD j 0) 0 = S.getD j' 0 ∧
    graph_edge graph (S.getD j' 0) (S.getD j 0)) ∧
  (∀ v, v < graph.size → v ∉ S → ∀ y ∈ S, ∀ w : Rat,
    (⟨v, w⟩ : algokit_graph_edge Rat) ∈ algokit_graph_edges graph y → key.getD v 0 ≤ w) ∧
  (∀ v, v < graph.size → v ∉ S → key.getD v 0 < DBL_MAX →
    parent.getD v 0 ∈ S ∧
      (⟨v, key.getD v 0⟩ : algokit_graph_edge Rat) ∈ algokit_graph_edges graph (parent.getD v 0))

end prim_invariant

/-! ## Minimum spanning trees: the trees that the arrays encode -/

section mst_trees

variable {K : Type}

/-- The weight of the edge between `u` and `v`: that of the first entry for `v`
on the adjacency list of `u`, and 0 when there is none. -/
def graph_weight (graph : algokit_graph K Rat) (u v : Nat) : Rat :=
  match (algokit_graph_edges graph u).find? (fun e => decide (e.target = v)) with
  | some e => e.weight
  | none => 0

/-- The graph has no parallel edges: the adjacency list of a vertex `u` has no
two entries for the same vertex other than `u`.  The entries of `u` for `u`
itself are left out of the test: a self-loop puts two of them on the list. -/
def graph_simple (graph : algokit_graph K Rat) : Prop :=
  ∀ u ∈ List.range graph.vertices.length,
    (((algokit_graph_edges graph u).filter (fun e => decide (e.target ≠ u))).map
      (fun e => e.target)).Nodup

instance graph_simple_decidable (graph : algokit_graph K Rat) :
    Decidable (graph_simple graph) := by
  unfold graph_simple
  infer_instance

/-- The edges that an array `parent` encodes: for every vertex `v` whose entry
is not the sentinel, the edge between `parent[v]` and `v`, with its weight in
the graph. -/
def mst_parent_edges (graph : algokit_graph K Rat) (parent : List Nat) :
    List algokit_graph_mst_edge :=
  ((List.range graph.size).filter (fun v => decide (parent.getD v 0 ≠ SIZE_MAX))).map
    (fun v => ⟨parent.getD v 0, v, graph_weight graph (parent.getD v 0) v⟩)

/-- The total weight of a list of edges. -/
def mst_weight (edges : List algokit_graph_mst_edge) : Rat :=
  (edges.map (fun e => e.w)).sum

/-- The list of edges is a spanning tree of the graph: every edge is an
adjacency entry, there are `size - 1` of them, and they join all vertices. -/
def graph_spanning_tree (graph : algokit_graph K Rat) (edges : List algokit_graph_mst_edge) :
    Prop :=
  (∀ e ∈ edges, (⟨e.v, e.w⟩ : algokit_graph_edge Rat) ∈ algokit_graph_edges graph e.u) ∧
  edges.length + 1 = graph.size ∧
  ∀ x y, x < graph.size → y < graph.size → mst_conn edges x y

/-- The calls that build a graph of two vertices with the keys 0 and 1 and an
edge of the weight `DBL_MAX` between them. -/
def graph_heavy_ops : List (graph_op Int Rat) :=
  [graph_op.add_vertex true true true 0, graph_op.add_vertex true true true 1,
    graph_op.add_edge true 0 1 DBL_MAX]

/-- The graph that the calls `graph_heavy_ops` build. -/
def graph_heavy : algokit_graph Int Rat :=
  ⟨[⟨0, [⟨1, DBL_MAX⟩]⟩, ⟨1, [⟨0, DBL_MAX⟩]⟩], 2, 8,
    ⟨[algokit_digraph_map_entry.occupied 0 0, algokit_digraph_map_entry.occupied 1 1,
      algokit_digraph_map_entry.empty, algokit_digraph_map_entry.empty,
      algokit_digraph_map_entry.empty, algokit_digraph_map_entry.empty,
      algokit_digraph_map_entry.empty, algokit_digraph_map_entry.empty], 8, 2⟩⟩

/-- The calls that build a graph of two vertices with the keys 0 and 1, an
edge of the weight 1 between them and a self-loop of the weight 5 at the
vertex 0. -/
def graph_loop_ops : List (graph_op Int Rat) :=
  [graph_op.add_vertex true true true 0, graph_op.add_vertex true true true 1,
    graph_op.add_edge true 0 1 1, graph_op.add_edge true 0 0 5]

/-- The graph that the calls `graph_loop_ops` build: the self-loop has put two
entries for the vertex 0 on the list of the vertex 0. -/
def graph_loop : algokit_graph Int Rat :=
  ⟨[⟨0, [⟨0, 5⟩, ⟨0, 5⟩, ⟨1, 1⟩]⟩, ⟨1, [⟨0, 1⟩]⟩], 2, 8,
    ⟨[algokit_digraph_map_entry.occupied 0 0, algokit_digraph_map_entry.occupied 1 1,
      algokit_digraph_map_entry.empty, algokit_digraph_map_entry.empty,
      algokit_digraph_map_entry.empty, algokit_digraph_map_entry.empty,
      algokit_digraph_map_entry.empty, algokit_digraph_map_entry.empty], 8, 2⟩⟩

end mst_trees

/-- The edge with its ends in ascending order. -/
def mst_edge_norm (e : algokit_graph_mst_edge) : algokit_graph_mst_edge :=
  if e.u < e.v then e else ⟨e.v, e.u, e.w⟩

/-! ## Linear-probing hash table: a table about to grow -/

section hash_lp_grow_example

/-- The calls on a table of capacity 8 that leave five pairs and a tombstone,
so that the next `put` grows the table. -/
def hash_lp_grow_before : List (hash_lp_op Int Int) :=
  [hash_lp_op.put true ⟨1, 10⟩, hash_lp_op.put true ⟨9, 90⟩, hash_lp_op.delete true 1,
    hash_lp_op.put true ⟨2, 20⟩, hash_lp_op.put true ⟨3, 30⟩, hash_lp_op.put true ⟨4, 40⟩,
    hash_lp_op.put true ⟨5, 50⟩]

/-- The table after the calls `hash_lp_grow_before`. -/
def hash_lp_grow_t1 : algokit_hash_lp Int Int :=
  ⟨[algokit_hash_lp_entry.empty, algokit_hash_lp_entry.tombstone,
    algokit_hash_lp_entry.occupied ⟨9, 90⟩, algokit_hash_lp_entry.occupied ⟨2, 20⟩,
    algokit_hash_lp_entry.occupied ⟨3, 30⟩, algokit_hash_lp_entry.occupied ⟨4, 40⟩,
    algokit_hash_lp_entry.occupied ⟨5, 50⟩, algokit_hash_lp_entry.empty], 8, 5⟩

/-- The table `hash_lp_grow_t1` after a `put` of the key 6: rebuilt with 16
slots, without the tombstone. -/
def hash_lp_grow_t2 : algokit_hash_lp Int Int :=
  ⟨[algokit_hash_lp_entry.empty, algokit_hash_lp_entry.empty,
    algokit_hash_lp_entry.occupied ⟨2, 20⟩, algokit_hash_lp_entry.occupied ⟨3, 30⟩,
    algokit_hash_lp_entry.occupied ⟨4, 40⟩, algokit_hash_lp_entry.occupied ⟨5, 50⟩,
    algokit_hash_lp_entry.occupied ⟨6, 60⟩, algokit_hash_lp_entry.empty,
    algokit_hash_lp_entry.empty, algokit_hash_lp_entry.occupied ⟨9, 90⟩,
    algokit_hash_lp_entry.empty, algokit_hash_lp_entry.empty,
    algokit_hash_lp_entry.empty, algokit_hash_lp_entry.empty,
    algokit_hash_lp_entry.empty, algokit_hash_lp_entry.empty], 16, 6⟩

end hash_lp_grow_example

/-! ## Weighted quick-union: the size array -/

section uf_wqupc_sizes

/-- The number of elements whose root is `r`: the number of elements of the
tree of `r`. -/
def uf_wqupc_tree_count (uf : algokit_uf_wqupc) (r : Nat) : Nat :=
  (List.range uf.n).countP (fun x => decide (uf_wqupc_root_of uf x = r))

/-- The invariant of the `size` array: it has `n` entries, and the entry of
every root is the number of elements of its tree. -/
def uf_wqupc_sized (uf : algokit_uf_wqupc) : Prop :=
  uf.size.length = uf.n ∧
  ∀ r, r < uf.n → uf_entry uf.parent r = r → uf_entry uf.size r = uf_wqupc_tree_count uf r

/-- The `union` calls (0,1), (2,3), (0,2), (4,5), (6,7), (4,6), (0,4). -/
def uf_wqupc_chain_unions : List uf_wqupc_op :=
  [uf_wqupc_op.union 0 1, uf_wqupc_op.union 2 3, uf_wqupc_op.union 0 2, uf_wqupc_op.union 4 5,
    uf_wqupc_op.union 6 7, uf_wqupc_op.union 4 6, uf_wqupc_op.union 0 4]

/-- The structure after the calls `uf_wqupc_chain_unions` on eight elements:
the element 7 is three links away from its root 0. -/
def uf_wqupc_chain : algokit_uf_wqupc :=
  ⟨8, [0, 0, 0, 2, 0, 4, 4, 6], [8, 1, 2, 1, 4, 1, 2, 1]⟩

end uf_wqupc_sizes

/-! ## Red-black tree: height and the length of a search -/

section rbtree_height_defs

variable {K V : Type}

/-- Number of nodes on the longest path from a node down to a `NULL` link. -/
def rbtree_height : algokit_rbtree_node K V → Nat
  | null => 0
  | node _ l r _ => max (rbtree_height l) (rbtree_height r) + 1

/-- The function `algokit_rbtree_search_node` with the number of nodes it
visits, which is the number of calls of the comparator it makes. -/
def algokit_rbtree_search_node_steps (cmp : K → K → Int) :
    algokit_rbtree_node K V → K → Option (Item K V) × Nat
  | null, _ => (none, 0)
  | node hi l r _, key =>
    if cmp key hi.key < 0 then
      ((algokit_rbtree_search_node_steps cmp l key).1,
        (algokit_rbtree_search_node_steps cmp l key).2 + 1)
    else if cmp key hi.key > 0 then
      ((algokit_rbtree_search_node_steps cmp r key).1,
        (algokit_rbtree_search_node_steps cmp r key).2 + 1)
    else (some hi, 1)

/-- The tree after inserting the keys 1 to 7 in ascending order. -/
def rbtree_seven : algokit_rbtree Int Int :=
  (algokit_rbtree_insert int_cmp true (algokit_rbtree_insert int_cmp true
    (algokit_rbtree_insert int_cmp true (algokit_rbtree_insert int_cmp true
      (algokit_rbtree_insert int_cmp true (algokit_rbtree_insert int_cmp true
        (algokit_rbtree_insert int_cmp true algokit_rbtree_create ⟨1, 10⟩).2 ⟨2, 20⟩).2
          ⟨3, 30⟩).2 ⟨4, 40⟩).2 ⟨5, 50⟩).2 ⟨6, 60⟩).2 ⟨7, 70⟩).2

end rbtree_height_defs

/-! ## Topological sort: a graph with several sources -/

section digraph_ties_defs

/-- The keys 0 to 3 on the vertices 0 to 3 with the edges 3 -> 1 and 2 -> 1:
the vertices 0, 2 and 3 have no edge into them. -/
def digraph_ties_graph : algokit_digraph Int :=
  ⟨[⟨0, []⟩, ⟨1, []⟩, ⟨2, [1]⟩, ⟨3, [1]⟩], 4, 8, digraph_test_graph.map⟩

end digraph_ties_defs

/-! ## Quicksort: code -/

section sort_quick_code

variable {K V : Type}

/-- The array access `items[i]` with an index of type `ptrdiff_t`: `none` for
an index outside the array, which the C code must not read or write. -/
def sort_item_at (items : List (Item K V)) (i : Int) : Option (Item K V) :=
  if i < 0 then none else items[i.toNat]?

/-- The function `algokit_sort_cmp`. -/
def algokit_sort_cmp (cmp : K → K → Int) (a b : Item K V) : Int :=
  cmp a.key b.key

/-- The call `algokit_sort_swap(&items[i], &items[j])`: the array afterwards,
`none` when one of the two indices lies outside the array. -/
def algokit_sort_swap (items : List (Item K V)) (i j : Int) : Option (List (Item K V)) :=
  match sort_item_at items i, sort_item_at items j with
  | some a, some b => some ((items.set i.toNat b).set j.toNat a)
  | _, _ => none

/-- The loop `while (algokit_sort_cmp(&items[i], &pivot, cmp) < 0) i++`: the
index at which it stops.  The first argument bounds the number of rounds;
`none` is a read outside the array or the bound being used up. -/
def quick_scan_up (cmp : K → K → Int) (items : List (Item K V)) (pivot : Item K V) :
    Nat → Int → Option Int
  | 0, _ => none
  | fuel + 1, i =>
    match sort_item_at items i with
    | none => none
    | some x =>
      if algokit_sort_cmp cmp x pivot < 0 then quick_scan_up cmp items pivot fuel (i + 1)
      else some i

/-- The loop `while (algokit_sort_cmp(&items[j], &pivot, cmp) > 0) j--`. -/
def quick_scan_down (cmp : K → K → Int) (items : List (Item K V)) (pivot : Item K V) :
    Nat → Int → Option Int
  | 0, _ => none
  | fuel + 1, j =>
    match sort_item_at items j with
    | none => none
    | some x =>
      if algokit_sort_cmp cmp x pivot > 0 then quick_scan_down cmp items pivot fuel (j - 1)
      else some j

/-- The loop `while (1)` of `algokit_quick_partition` from the values `i` and
`j`: the index returned and the array afterwards.  The two inner loops are
given `n + 1` rounds each; the first argument bounds the rounds of the outer
loop. -/
def quick_partition_loop (cmp : K → K → Int) (pivot : Item K V) :
    Nat → List (Item K V) → Int → Int → Option (Int × List (Item K V))
  | 0, _, _, _ => none
  | fuel + 1, items, i, j =>
    match quick_scan_up cmp items pivot (items.length + 1) i with
    | none => none
    | some i1 =>
      match quick_scan_down cmp items pivot (items.length + 1) j with
      | none => none
      | some j1 =>
        if i1 ≥ j1 then some (j1, items)
        else
          match algokit_sort_swap items i1 j1 with
          | none => none
          | some items1 => quick_partition_loop cmp pivot fuel items1 (i1 + 1) (j1 - 1)

/-- The function `algokit_quick_partition`: the pivot is the copy of
`items[low + (high - low) / 2]`; the outer loop is given `n + 1` rounds. -/
def algokit_quick_partition (cmp : K → K → Int) (items : List (Item K V)) (low high : Int) :
    Option (Int × List (Item K V)) :=
  match sort_item_at items (low + (high - low) / 2) with
  | none => none
  | some pivot => quick_partition_loop cmp pivot (items.length + 1) items low high

/-- The function `algokit_quick_sort`: the array afterwards.  The first argument
bounds the depth of the recursion. -/
def algokit_quick_sort (cmp : K → K → Int) :
    Nat → List (Item K V) → Int → Int → Option (List (Item K V))
  | 0, _, _, _ => none
  | fuel + 1, items, low, high =>
    if low ≥ high then some items
    else
      match algokit_quick_partition cmp items low high with
      | none => none
      | some (p, items1) =>
        match algokit_quick_sort cmp fuel items1 low p with
        | none => none
        | some items2 => algokit_quick_sort cmp fuel items2 (p + 1) high

/-- The function `algokit_sort_quick` for an array of `n` items and a comparator,
neither a `NULL` pointer: the result code and the array afterwards.  The
recursion is given the depth `n + 1`; `none` is a read or write outside the
array or a bound being used up.  `n` is the number of items of an array in
memory, so that `(ptrdiff_t)n - 1` is `n - 1`. -/
def algokit_sort_quick (cmp : K → K → Int) (items : List (Item K V)) :
    Option (Int × List (Item K V)) :=
  if items.length < 2 then some (0, items)
  else
    (algokit_quick_sort cmp (items.length + 1) items 0 ((items.length : Int) - 1)).map
      (fun r => (0, r))

/-- The array of the test: the keys 5, 1, 4, 2, 3. -/
def sort_test_items : List (Item Int Unit) :=
  [⟨5, ()⟩, ⟨1, ()⟩, ⟨4, ()⟩, ⟨2, ()⟩, ⟨3, ()⟩]

end sort_quick_code

/-! ## Quicksort: what a call does to the array -/

section sort_quick_spec

variable {K V : Type}

/-- The array `r` arises from the array `items` by moving entries within the
index range `low .. high`: it is a permutation of `items`, it agrees with
`items` outside the range, and each of its entries in the range is an entry
of `items` in the range. -/
def sort_range_moved (items r : List (Item K V)) (low high : Int) : Prop :=
  r.Perm items ∧
  (∀ k, k < low ∨ high < k → sort_item_at r k = sort_item_at items k) ∧
  ∀ k x, low ≤ k → k ≤ high → sort_item_at r k = some x →
    ∃ k1, low ≤ k1 ∧ k1 ≤ high ∧ sort_item_at items k1 = some x

/-- The entries of the array in the index range `low .. high` are in
non-decreasing order for the comparator. -/
def sort_range_sorted (cmp : K → K → Int) (r : List (Item K V)) (low high : Int) : Prop :=
  ∀ a b x y, low ≤ a → a < b → b ≤ high → sort_item_at r a = some x →
    sort_item_at r b = some y → algokit_sort_cmp cmp x y ≤ 0

end sort_quick_spec

set_option linter.unusedTactic false
set_option linter.unreachableTactic false
set_option linter.unnecessarySeqFocus false
set_option linter.unusedVariables false

/-! ## Red-black tree: computation rules of the local operations -/

section rb_lemmas
variable {K V : Type}

attribute [simp] algokit_rbtree_node.count black_height llrb_shape inorder

@[simp] theorem get_left_null : get_left (null : algokit_rbtree_node K V) = null := rfl
@[simp] theorem get_left_node (i : Item K V) (l r : algokit_rbtree_node K V) (c : Bool) :
    get_left (node i l r c) = l := rfl
@[simp] theorem get_right_null : get_right (null : algokit_rbtree_node K V) = null := rfl
@[simp] theorem get_right_node (i : Item K V) (l r : algokit_rbtree_node K V) (c : Bool) :
    get_right (node i l r c) = r := rfl
@[simp] theorem set_left_node (i : Item K V) (l r x : algokit_rbtree_node K V) (c : Bool) :
    set_left (node i l r c) x = node i x r c := rfl
@[simp] theorem set_right_node (i : Item K V) (l r x : algokit_rbtree_node K V) (c : Bool) :
    set_right (node i l r c) x = node i l x c := rfl
@[simp] theorem set_red_null (b : Bool) : set_red (null : algokit_rbtree_node K V) b = null := rfl
@[simp] theorem set_red_node (i : Item K V) (l r : algokit_rbtree_node K V) (c b : Bool) :
    set_red (node i l r c) b = node i l r b := rfl
@[simp] theorem toggle_red_null : toggle_red (null : algokit_rbtree_node K V) = null := rfl
@[simp] theorem toggle_red_node (i : Item K V) (l r : algokit_rbtree_node K V) (c : Bool) :
    toggle_red (node i l r c) = node i l r (!c) := rfl
@[simp] theorem is_null_null : is_null (null : algokit_rbtree_node K V) = true := rfl
@[simp] theorem is_null_node (i : Item K V) (l r : algokit_rbtree_node K V) (c : Bool) :
    is_null (node i l r c) = false := rfl
@[simp] theorem is_red_null : algokit_rbtree_is_red (null : algokit_rbtree_node K V) = false := rfl
@[simp] theorem is_red_node (i : Item K V) (l r : algokit_rbtree_node K V) (c : Bool) :
    algokit_rbtree_is_red (node i l r c) = c := rfl
@[simp] theorem rotate_left_node (hi xi : Item K V) (hl xl xr : algokit_rbtree_node K V)
    (hc xc : Bool) :
    algokit_rbtree_rotate_left (node hi hl (node xi xl xr xc) hc) =
      node xi (node hi hl xl true) xr hc := rfl
@[simp] theorem rotate_right_node (hi xi : Item K V) (hr xl xr : algokit_rbtree_node K V)
    (hc xc : Bool) :
    algokit_rbtree_rotate_right (node hi (node xi xl xr xc) hr hc) =
      node xi xl (node hi xr hr true) hc := rfl
@[simp] theorem flip_colors_node (i : Item K V) (l r : algokit_rbtree_node K V) (c : Bool) :
    algokit_rbtree_flip_colors (node i l r c) = node i (toggle_red l) (toggle_red r) (!c) := rfl

theorem is_null_eq_true {t : algokit_rbtree_node K V} (h : is_null t = true) : t = null := by
  cases t <;> simp_all

theorem is_red_eq_true {t : algokit_rbtree_node K V} (h : algokit_rbtree_is_red t = true) :
    ∃ i l r, t = node i l r true := by
  cases t <;> simp_all

@[simp] theorem inorder_toggle_red (t : algokit_rbtree_node K V) :
    inorder (toggle_red t) = inorder t := by
  cases t <;> simp
@[simp] theorem inorder_set_red (t : algokit_rbtree_node K V) (b : Bool) :
    inorder (set_red t b) = inorder t := by
  cases t <;> simp
@[simp] theorem inorder_rotate_left (t : algokit_rbtree_node K V) :
    inorder (algokit_rbtree_rotate_left t) = inorder t := by
  rcases t with _ | ⟨i, l, _ | ⟨ri, rl, rr, rc⟩, c⟩ <;> simp [algokit_rbtree_rotate_left]
@[simp] theorem inorder_rotate_right (t : algokit_rbtree_node K V) :
    inorder (algokit_rbtree_rotate_right t) = inorder t := by
  rcases t with _ | ⟨i, _ | ⟨li, ll, lr, lc⟩, r, c⟩ <;> simp [algokit_rbtree_rotate_right]
@[simp] theorem inorder_flip_colors (t : algokit_rbtree_node K V) :
    inorder (algokit_rbtree_flip_colors t) = inorder t := by
  cases t <;> simp [algokit_rbtree_flip_colors]
@[simp] theorem inorder_fix_up (t : algokit_rbtree_node K V) :
    inorder (algokit_rbtree_fix_up t) = inorder t := by
  unfold algokit_rbtree_fix_up
  simp only []
  split_ifs <;> simp
@[simp] theorem inorder_move_red_right (t : algokit_rbtree_node K V) :
    inorder (algokit_rbtree_move_red_right t) = inorder t := by
  unfold algokit_rbtree_move_red_right
  simp only []
  split_ifs <;> simp
@[simp] theorem inorder_move_red_left (t : algokit_rbtree_node K V) :
    inorder (algokit_rbtree_move_red_left t) = inorder t := by
  unfold algokit_rbtree_move_red_left
  simp only []
  split_ifs
  · rcases t with _ | ⟨i, l, r, c⟩
    · simp [algokit_rbtree_flip_colors]
    · simp
  · simp

@[simp] theorem count_toggle_red (t : algokit_rbtree_node K V) :
    count (toggle_red t) = count t := by
  cases t <;> simp
@[simp] theorem count_rotate_left (t : algokit_rbtree_node K V) :
    count (algokit_rbtree_rotate_left t) = count t := by
  rcases t with _ | ⟨i, l, _ | ⟨ri, rl, rr, rc⟩, c⟩ <;> simp [algokit_rbtree_rotate_left]; omega
@[simp] theorem count_rotate_right (t : algokit_rbtree_node K V) :
    count (algokit_rbtree_rotate_right t) = count t := by
  rcases t with _ | ⟨i, _ | ⟨li, ll, lr, lc⟩, r, c⟩ <;> simp [algokit_rbtree_rotate_right]; omega
@[simp] theorem count_flip_colors (t : algokit_rbtree_node K V) :
    count (algokit_rbtree_flip_colors t) = count t := by
  cases t <;> simp [algokit_rbtree_flip_colors]
@[simp] theorem count_move_red_right (t : algokit_rbtree_node K V) :
    count (algokit_rbtree_move_red_right t) = count t := by
  unfold algokit_rbtree_move_red_right
  simp only []
  split_ifs <;> simp
@[simp] theorem count_move_red_left (t : algokit_rbtree_node K V) :
    count (algokit_rbtree_move_red_left t) = count t := by
  unfold algokit_rbtree_move_red_left
  simp only []
  split_ifs
  · rcases t with _ | ⟨i, l, r, c⟩
    · simp [algokit_rbtree_flip_colors]
    · simp
  · simp

theorem count_get_left_lt {t : algokit_rbtree_node K V} (h : is_null t = false) :
    count (get_left t) < count t := by
  cases t <;> simp_all; omega
theorem count_get_right_lt {t : algokit_rbtree_node K V} (h : is_null t = false) :
    count (get_right t) < count t := by
  cases t <;> simp_all; omega

end rb_lemmas

section rb_shape_lemmas
variable {K V : Type}

attribute [simp] almost_shape

theorem llrb_shape.almost {t : algokit_rbtree_node K V} (h : llrb_shape t) : almost_shape t := by
  cases t <;> simp_all

theorem fix_up_noop (i : Item K V) (l r : algokit_rbtree_node K V) (c : Bool)
    (hr : algokit_rbtree_is_red r = false)
    (hl : algokit_rbtree_is_red l = true → algokit_rbtree_is_red (get_left l) = false) :
    algokit_rbtree_fix_up (node i l r c) = node i l r c := by
  unfold algokit_rbtree_fix_up
  cases hlr : algokit_rbtree_is_red l <;> simp_all

theorem fix_up_rotate_left (i ri : Item K V) (l rl rr : algokit_rbtree_node K V) (c : Bool)
    (hl : algokit_rbtree_is_red l = false) (hrr : algokit_rbtree_is_red rr = false) :
    algokit_rbtree_fix_up (node i l (node ri rl rr true) c) = node ri (node i l rl true) rr c := by
  unfold algokit_rbtree_fix_up
  simp_all

theorem fix_up_flip (i : Item K V) (l r : algokit_rbtree_node K V) (c : Bool)
    (hl : algokit_rbtree_is_red l = true) (hll : algokit_rbtree_is_red (get_left l) = false)
    (hr : algokit_rbtree_is_red r = true) :
    algokit_rbtree_fix_up (node i l r c) = node i (toggle_red l) (toggle_red r) (!c) := by
  unfold algokit_rbtree_fix_up
  simp_all

theorem fix_up_rotate_right (i li lli : Item K V) (lll llr lr r : algokit_rbtree_node K V)
    (c : Bool) (hr : algokit_rbtree_is_red r = false) :
    algokit_rbtree_fix_up (node i (node li (node lli lll llr true) lr true) r c) =
      node li (node lli lll llr false) (node i lr r false) (!c) := by
  unfold algokit_rbtree_fix_up
  simp_all

theorem black_height_zero_null {t : algokit_rbtree_node K V} (hs : llrb_shape t)
    (hb : black_height t = 0) (hr : algokit_rbtree_is_red t = false) : t = null := by
  cases t with
  | null => rfl
  | node i l r c => simp_all

/-- Insertion keeps the shape of a subtree up to a red root with a red left
child, and keeps its black height. -/
theorem insert_node_shape (cmp : K → K → Int) (item : Item K V) (h : algokit_rbtree_node K V)
    (hs : llrb_shape h) :
    almost_shape (algokit_rbtree_insert_node cmp true h item).1 ∧
    black_height (algokit_rbtree_insert_node cmp true h item).1 = black_height h ∧
    (algokit_rbtree_is_red h = false → llrb_shape (algokit_rbtree_insert_node cmp true h item).1) := by
  induction h with
  | null => simp [algokit_rbtree_insert_node, algokit_rbtree_node_create]
  | node hi l r c ihl ihr =>
    simp only [llrb_shape] at hs
    obtain ⟨hr, hcl, hbh, hsl, hsr⟩ := hs
    have ihl := ihl hsl
    have ihr := ihr hsr
    simp only [algokit_rbtree_insert_node]
    split_ifs with h1 h2
    · generalize (algokit_rbtree_insert_node cmp true l item).1 = l' at *
      obtain ⟨a1, a2, a3⟩ := ihl
      by_cases hrr : algokit_rbtree_is_red l' = true ∧ algokit_rbtree_is_red (get_left l') = true
      · obtain ⟨li, ll, lr, rfl⟩ := is_red_eq_true hrr.1
        obtain ⟨lli, lll, llr, rfl⟩ := is_red_eq_true hrr.2
        have hlr : algokit_rbtree_is_red l = true := by
          by_contra hcon
          have := a3 (by simpa using hcon)
          simp at this
        have hc : c = false := by
          cases c <;> simp_all
        subst hc
        rw [fix_up_rotate_right _ _ _ _ _ _ _ _ hr]
        obtain ⟨li0, ll0, lr0, rfl⟩ := is_red_eq_true hlr
        simp_all
      · rw [fix_up_noop _ _ _ _ hr (by simpa using hrr)]
        have hl' : llrb_shape l' := by
          rcases l' with _ | ⟨li, ll, lr, lc⟩
          · simp
          · simp_all
        cases c <;> simp_all
    · generalize (algokit_rbtree_insert_node cmp true r item).1 = r' at *
      obtain ⟨a1, a2, a3⟩ := ihr
      have a4 := a3 hr
      by_cases hr' : algokit_rbtree_is_red r' = true
      · obtain ⟨ri, rl, rr, rfl⟩ := is_red_eq_true hr'
        by_cases hl : algokit_rbtree_is_red l = true
        · obtain ⟨li, ll, lr, rfl⟩ := is_red_eq_true hl
          rw [fix_up_flip _ _ _ _ (by simp) (by simp_all) (by simp)]
          cases c <;> simp_all
        · simp only [Bool.not_eq_true] at hl
          rw [fix_up_rotate_left _ _ _ _ _ _ hl (by simp_all)]
          cases c <;> simp_all
      · simp only [Bool.not_eq_true] at hr'
        rw [fix_up_noop _ _ _ _ hr' (by
          intro hl; obtain ⟨li, ll, lr, rfl⟩ := is_red_eq_true hl; simp_all)]
        cases c <;> simp_all
    · rw [fix_up_noop _ _ _ _ hr (by
          intro hl; obtain ⟨li, ll, lr, rfl⟩ := is_red_eq_true hl; simp_all)]
      cases c <;> simp_all

end rb_shape_lemmas

section rb_remove_steps
variable {K V : Type}

theorem post_shape_refl {h : algokit_rbtree_node K V} (hs : llrb_shape h) : post_shape h h :=
  ⟨hs, rfl, fun x => x⟩

/-- The step of `remove_node` / `delete_min` that goes left: the state after
the conditional `move_red_left`, the subtree the recursion runs on, and what
`fix_up` makes of any admissible result of that recursion. -/
theorem move_left_step (i : Item K V) (l r : algokit_rbtree_node K V) (c : Bool)
    (hs : llrb_shape (node i l r c))
    (hpre : c = true ∨ algokit_rbtree_is_red l = true) (hl : is_null l = false) :
    ∃ i1 l1 r1 c1,
      (if (!algokit_rbtree_is_red l && !algokit_rbtree_is_red (get_left l)) = true
        then algokit_rbtree_move_red_left (node i l r c) else node i l r c) = node i1 l1 r1 c1 ∧
      is_null l1 = false ∧ pre_shape l1 ∧
      (∀ x, x = i1 ∨ x ∈ inorder r1 → x = i ∨ x ∈ inorder r) ∧
      ∀ l', post_shape l1 l' →
        post_shape (node i l r c) (algokit_rbtree_fix_up (node i1 l' r1 c1)) := by
  rcases l with _ | ⟨li, ll, lr, lc⟩
  · simp at hl
  cases lc
  · -- black left child
    have hc : c = true := by simpa using hpre
    subst hc
    by_cases hll : algokit_rbtree_is_red ll = true
    · refine ⟨i, node li ll lr false, r, true, by simp [hll], rfl, ?_, fun x hx => hx, ?_⟩
      · right; simp_all <;> omega
      · intro l' hp
        obtain ⟨p1, p2, p3⟩ := hp
        have p4 := p3 rfl
        rw [fix_up_noop _ _ _ _ (by simp_all) (by simp [p4])]
        simp_all [post_shape] <;> omega
    · simp only [Bool.not_eq_true] at hll
      rcases r with _ | ⟨ri, rl, rr, rc⟩
      · simp_all
      have hrc : rc = false := by simp_all
      subst hrc
      by_cases hrl : algokit_rbtree_is_red rl = true
      · obtain ⟨rli, rll, rlr, rfl⟩ := is_red_eq_true hrl
        refine ⟨rli, node i (node li ll lr true) rll false, node ri rlr rr false, true,
          by simp [hll, algokit_rbtree_move_red_left], rfl, ?_, ?_, ?_⟩
        · right; simp_all <;> omega
        · intro x hx; simp at hx ⊢; tauto
        · intro l' hp
          obtain ⟨p1, p2, p3⟩ := hp
          have p4 := p3 rfl
          rw [fix_up_noop _ _ _ _ (by simp_all) (by simp [p4])]
          simp_all [post_shape] <;> omega
      · simp only [Bool.not_eq_true] at hrl
        refine ⟨i, node li ll lr true, node ri rl rr true, false,
          by simp [hll, hrl, algokit_rbtree_move_red_left], rfl, ?_, ?_, ?_⟩
        · right; simp_all <;> omega
        · intro x hx; simpa using hx
        · intro l' hp
          obtain ⟨p1, p2, p3⟩ := hp
          by_cases hl' : algokit_rbtree_is_red l' = true
          · obtain ⟨li', ll', lr', rfl⟩ := is_red_eq_true hl'
            rw [fix_up_flip _ _ _ _ (by simp) (by simp_all) (by simp)]
            simp_all [post_shape] <;> omega
          · simp only [Bool.not_eq_true] at hl'
            rw [fix_up_rotate_left _ _ _ _ _ _ hl' (by simp_all)]
            simp_all [post_shape] <;> omega
  · -- red left child
    have hc : c = false := by cases c <;> simp_all
    subst hc
    refine ⟨i, node li ll lr true, r, false, by simp, rfl, ?_, fun x hx => hx, ?_⟩
    · right; simp_all <;> omega
    · intro l' hp
      obtain ⟨p1, p2, p3⟩ := hp
      rw [fix_up_noop _ _ _ _ (by simp_all) (by
        intro h1; obtain ⟨li', ll', lr', rfl⟩ := is_red_eq_true h1; simp_all)]
      simp_all [post_shape] <;> omega

end rb_remove_steps

section rb_remove_steps_right
variable {K V : Type}

theorem post_shape_null {t : algokit_rbtree_node K V} (hp : post_shape null t) : t = null :=
  black_height_zero_null hp.1 (by simpa using hp.2.1) (hp.2.2 rfl)

/-- The step of `remove_node` that goes right or stops: the state after the
conditional `rotate_right` (`h1`), the state after the conditional
`move_red_right` (`h2`), the subtree the recursion runs on, and what `fix_up`
makes of any admissible result of that recursion. -/
theorem move_right_step (i : Item K V) (l r : algokit_rbtree_node K V) (c : Bool)
    (hs : pre_shape (node i l r c) ∨ right_leaning (node i l r c)) :
    ∃ i1 l1 r1 c1,
      (if algokit_rbtree_is_red l = true then algokit_rbtree_rotate_right (node i l r c)
        else node i l r c) = node i1 l1 r1 c1 ∧
      (is_null r1 = true → l1 = null ∧ post_shape (node i l r c) null) ∧
      (∀ x, x ∈ inorder l1 ∨ x = i1 → x ∈ inorder l ∨ x = i) ∧
      ∃ i2 l2 r2 c2,
        (if (!is_null r1 && !algokit_rbtree_is_red r1 &&
              !algokit_rbtree_is_red (get_left r1)) = true
          then algokit_rbtree_move_red_right (node i1 l1 r1 c1) else node i1 l1 r1 c1) =
          node i2 l2 r2 c2 ∧
        (pre_shape r2 ∨ (right_leaning r2 ∧ ∃ rl rr rc, r2 = node i rl rr rc)) ∧
        (∀ x, x ∈ inorder l2 ∨ x = i2 → x ∈ inorder l ∨ x = i) ∧
        (is_null r2 = true → is_null r1 = true) ∧
        ∀ r' x, post_shape r2 r' →
          post_shape (node i l r c) (algokit_rbtree_fix_up (node x l2 r' c2)) := by
  by_cases hl : algokit_rbtree_is_red l = true
  · -- red left child: rotate right, recurse on the old root (now red)
    obtain ⟨li, ll, lr, rfl⟩ := is_red_eq_true hl
    have hc : c = false := by
      rcases hs with hs | hs
      · rcases hs with hs | hs
        · simp at hs
        · cases c <;> simp_all
      · rcases r with _ | ⟨ri, rl, rr, rc⟩ <;> cases c <;> try cases rc
        all_goals simp_all [right_leaning]
    subst hc
    have hsh : llrb_shape (node i (node li ll lr true) r false) := by
      rcases hs with hs | hs
      · rcases hs with hs | hs
        · simp at hs
        · exact hs.1
      · rcases r with _ | ⟨ri, rl, rr, rc⟩ <;> try cases rc
        all_goals simp_all [right_leaning]
    simp only [llrb_shape, is_red_node] at hsh
    obtain ⟨s1, -, s3, ⟨s4, s5, s6, s7, s8⟩, s9⟩ := hsh
    have s5' := s5 trivial
    refine ⟨li, ll, node i lr r true, false, by simp, by simp, ?_, ?_⟩
    · intro x hx; simp at hx ⊢; tauto
    refine ⟨li, ll, node i lr r true, false, by simp, ?_, ?_, by simp, ?_⟩
    · left; right; simp_all
    · intro x hx; simp at hx ⊢; tauto
    · intro r' x hp
      obtain ⟨p1, p2, p3⟩ := hp
      by_cases hr' : algokit_rbtree_is_red r' = true
      · obtain ⟨ri', rl', rr', rfl⟩ := is_red_eq_true hr'
        rw [fix_up_rotate_left _ _ _ _ _ _ s5' (by simp_all)]
        simp_all [post_shape]
      · simp only [Bool.not_eq_true] at hr'
        rw [fix_up_noop _ _ _ _ hr' (by simp [s5'])]
        simp_all [post_shape]
  · simp only [Bool.not_eq_true] at hl
    simp only [hl, Bool.false_eq_true, if_false]
    rcases hs with hs | hs
    · -- red root with black children
      rcases hs with hs | hs
      · simp at hs
      obtain ⟨hsh, hred⟩ := hs
      have hc : c = true := by simpa [hl] using hred
      subst hc
      simp only [llrb_shape, is_red_node] at hsh
      obtain ⟨s1, -, s3, s4, s5⟩ := hsh
      rcases r with _ | ⟨ri, rl, rr, rc⟩
      · have hln : l = null := black_height_zero_null s4 (by simpa using s3) hl
        subst hln
        refine ⟨i, null, null, true, rfl, ?_, by simp, ?_⟩
        · intro _; exact ⟨rfl, by simp [post_shape]⟩
        refine ⟨i, null, null, true, by simp, Or.inl (Or.inl rfl), by simp, by simp, ?_⟩
        intro r' x hp
        rw [post_shape_null hp]
        rw [fix_up_noop x null null true rfl (by simp)]
        simp [post_shape]
      · have hrc : rc = false := by simpa using s1
        subst hrc
        refine ⟨i, l, node ri rl rr false, true, rfl, by simp, fun x hx => hx, ?_⟩
        simp only [llrb_shape, is_red_node] at s5
        obtain ⟨t1, -, t3, t4, t5⟩ := s5
        by_cases hrl : algokit_rbtree_is_red rl = true
        · refine ⟨i, l, node ri rl rr false, true, by simp [hrl], ?_, fun x hx => hx,
            by simp, ?_⟩
          · left; right; simp_all
          · intro r' x hp
            obtain ⟨p1, p2, p3⟩ := hp
            have p4 := p3 rfl
            rw [fix_up_noop _ _ _ _ p4 (by simp [hl])]
            simp_all [post_shape]
        · simp only [Bool.not_eq_true] at hrl
          rcases l with _ | ⟨li, ll, lr, lc⟩
          · simp at s3
          have hlc : lc = false := by simpa using hl
          subst hlc
          simp only [llrb_shape, is_red_node] at s4
          obtain ⟨u1, -, u3, u4, u5⟩ := s4
          by_cases hll : algokit_rbtree_is_red ll = true
          · obtain ⟨lli, lll, llr, rfl⟩ := is_red_eq_true hll
            refine ⟨li, node lli lll llr false, node i lr (node ri rl rr true) false, true,
              by simp [hrl, algokit_rbtree_move_red_right], ?_, ?_, by simp, ?_⟩
            · right
              refine ⟨?_, _, _, _, rfl⟩
              simp_all [right_leaning]
            · intro x hx; simp at hx ⊢; tauto
            · intro r' x hp
              obtain ⟨p1, p2, p3⟩ := hp
              have p4 := p3 rfl
              rw [fix_up_noop _ _ _ _ p4 (by simp)]
              simp_all [post_shape]
          · simp only [Bool.not_eq_true] at hll
            refine ⟨i, node li ll lr true, node ri rl rr true, false,
              by simp [hrl, hll, algokit_rbtree_move_red_right], ?_, ?_, by simp, ?_⟩
            · left; right; simp_all
            · intro x hx; simpa using hx
            · intro r' x hp
              obtain ⟨p1, p2, p3⟩ := hp
              by_cases hr' : algokit_rbtree_is_red r' = true
              · obtain ⟨ri', rl', rr', rfl⟩ := is_red_eq_true hr'
                rw [fix_up_flip _ _ _ _ (by simp) (by simpa using hll) (by simp)]
                simp_all [post_shape]
              · simp only [Bool.not_eq_true] at hr'
                rw [fix_up_noop _ _ _ _ hr' (by simp [hll])]
                simp_all [post_shape]
    · -- the right-leaning state
      rcases r with _ | ⟨ri, rl, rr, rc⟩
      · cases c <;> simp [right_leaning] at hs
      cases c
      swap
      · cases rc <;> simp [right_leaning] at hs
      cases rc
      · simp [right_leaning] at hs
      simp only [right_leaning] at hs
      obtain ⟨q1, q2, q3, q4, q5, q6, q7, q8⟩ := hs
      refine ⟨i, l, node ri rl rr true, false, rfl, by simp, fun x hx => hx, ?_⟩
      refine ⟨i, l, node ri rl rr true, false, by simp, ?_, fun x hx => hx, by simp, ?_⟩
      · left; right; simp_all
      · intro r' x hp
        obtain ⟨p1, p2, p3⟩ := hp
        by_cases hr' : algokit_rbtree_is_red r' = true
        · obtain ⟨ri', rl', rr', rfl⟩ := is_red_eq_true hr'
          rw [fix_up_rotate_left _ _ _ _ _ _ hl (by simp_all)]
          simp_all [post_shape]
        · simp only [Bool.not_eq_true] at hr'
          rw [fix_up_noop _ _ _ _ hr' (by simp [hl])]
          simp_all [post_shape]

end rb_remove_steps_right

section rb_delete_min
variable {K V : Type}

theorem inorder_ne_nil {t : algokit_rbtree_node K V} (h : is_null t = false) : inorder t ≠ [] := by
  cases t <;> simp_all

theorem inorder_if_move_red_left (b : Bool) (t : algokit_rbtree_node K V) :
    inorder (if b = true then algokit_rbtree_move_red_left t else t) = inorder t := by
  split_ifs <;> simp

theorem count_if_move_red_left (b : Bool) (t : algokit_rbtree_node K V) :
    count (if b = true then algokit_rbtree_move_red_left t else t) = count t := by
  split_ifs <;> simp

/-- The function `delete_min` on a subtree that is not a 2-node: the budget suffices, the
result is well shaped with the same black height, and its in-order sequence is
the old one without its first pair. -/
theorem delete_min_spec : ∀ (n : Nat) (h : algokit_rbtree_node K V),
    count h < n → is_null h = false → pre_shape h →
    ∃ t, algokit_rbtree_delete_min n h = some t ∧ post_shape h t ∧
      inorder t = (inorder h).tail := by
  intro n
  induction n with
  | zero => intro h hn; omega
  | succ n ih =>
    intro h hn hnull hpre
    rcases h with _ | ⟨i, l, r, c⟩
    · simp at hnull
    rcases hpre with hpre | ⟨hsh, hred⟩
    · simp at hpre
    rcases l with _ | ⟨li, ll, lr, lc⟩
    · refine ⟨null, by simp [algokit_rbtree_delete_min], ?_, ?_⟩
      · simp_all [post_shape]
      · have hr : r = null := by
          simp only [llrb_shape] at hsh
          exact black_height_zero_null hsh.2.2.2.2 (by simpa using hsh.2.2.1.symm) hsh.1
        simp [hr]
    · obtain ⟨i1, l1, r1, c1, e1, hl1, hp1, -, hk⟩ :=
        move_left_step i (node li ll lr lc) r c hsh (by simpa using hred) rfl
      have hio := inorder_if_move_red_left
        (!algokit_rbtree_is_red (node li ll lr lc) &&
          !algokit_rbtree_is_red (get_left (node li ll lr lc))) (node i (node li ll lr lc) r c)
      have hct := count_if_move_red_left
        (!algokit_rbtree_is_red (node li ll lr lc) &&
          !algokit_rbtree_is_red (get_left (node li ll lr lc))) (node i (node li ll lr lc) r c)
      rw [e1] at hio hct
      have hcl : count l1 < n := by
        simp only [count] at hct hn
        omega
      obtain ⟨l', e2, hp2, hi2⟩ := ih l1 hcl hl1 hp1
      refine ⟨algokit_rbtree_fix_up (node i1 l' r1 c1), ?_, hk l' hp2, ?_⟩
      · simp only [get_left_node] at e1
        simp only [algokit_rbtree_delete_min, get_left_node]
        rw [e1]
        simp [e2]
      · rw [inorder_fix_up, ← hio]
        simp only [inorder]
        rw [hi2, List.tail_append_of_ne_nil (inorder_ne_nil hl1)]

end rb_delete_min

section cmp_lemmas
variable {K V : Type} {cmp : K → K → Int}

theorem CmpOrder.self_eq (hc : CmpOrder cmp) (a : K) : cmp a a = 0 := by
  have := hc.antisymm a a
  omega

theorem CmpOrder.le_iff (hc : CmpOrder cmp) (a b : K) : cmp a b ≤ 0 ↔ 0 ≤ cmp b a := by
  have := hc.antisymm b a
  omega

theorem CmpOrder.eq_iff (hc : CmpOrder cmp) (a b : K) : cmp a b = 0 ↔ cmp b a = 0 := by
  have h1 := hc.antisymm b a
  have h2 := hc.antisymm a b
  omega

theorem CmpOrder.lt_of_lt_of_le (hc : CmpOrder cmp) {a b c : K} (h1 : cmp a b < 0)
    (h2 : cmp b c ≤ 0) : cmp a c < 0 := by
  by_contra hcon
  have h3 : cmp c a ≤ 0 := (hc.le_iff c a).2 (by omega)
  have h4 := hc.le_trans b c a h2 h3
  have h5 := (hc.le_iff b a).1 h4
  omega

theorem CmpOrder.lt_of_le_of_lt (hc : CmpOrder cmp) {a b c : K} (h1 : cmp a b ≤ 0)
    (h2 : cmp b c < 0) : cmp a c < 0 := by
  by_contra hcon
  have h3 : cmp c a ≤ 0 := (hc.le_iff c a).2 (by omega)
  have h4 := hc.le_trans c a b h3 h1
  have h5 := (hc.le_iff c b).1 h4
  omega

theorem CmpOrder.lt_trans (hc : CmpOrder cmp) {a b c : K} (h1 : cmp a b < 0)
    (h2 : cmp b c < 0) : cmp a c < 0 :=
  hc.lt_of_lt_of_le h1 (by omega)

theorem CmpOrder.gt_iff (hc : CmpOrder cmp) (a b : K) : 0 < cmp a b ↔ cmp b a < 0 :=
  (hc.antisymm b a).symm

theorem int_cmp_order : CmpOrder int_cmp := by
  constructor
  · intro a b; unfold int_cmp; split_ifs <;> omega
  · intro a b c; unfold int_cmp; split_ifs <;> omega

theorem bst_ordered_node (cmp : K → K → Int) (i : Item K V) (l r : algokit_rbtree_node K V)
    (c : Bool) :
    bst_ordered cmp (node i l r c) ↔
      bst_ordered cmp l ∧ bst_ordered cmp r ∧ (∀ x ∈ inorder l, cmp x.key i.key < 0) ∧
      (∀ x ∈ inorder r, cmp i.key x.key < 0) ∧
      (∀ x ∈ inorder l, ∀ y ∈ inorder r, cmp x.key y.key < 0) := by
  simp only [bst_ordered, keys_ascending, inorder, List.pairwise_append, List.pairwise_cons,
    List.mem_cons]
  constructor
  · rintro ⟨h1, ⟨h2, h3⟩, h4⟩
    exact ⟨h1, h3, fun x hx => h4 x hx i (Or.inl rfl), h2, fun x hx y hy => h4 x hx y (Or.inr hy)⟩
  · rintro ⟨h1, h2, h3, h4, h5⟩
    refine ⟨h1, ⟨h4, h2⟩, ?_⟩
    rintro x hx y (rfl | hy)
    · exact h3 x hx
    · exact h5 x hx y hy

theorem bst_ordered_of_inorder_eq {cmp : K → K → Int} {s t : algokit_rbtree_node K V}
    (h : inorder s = inorder t) (hs : bst_ordered cmp t) : bst_ordered cmp s := by
  unfold bst_ordered at *
  rw [h]; exact hs

theorem filter_ne_self (cmp : K → K → Int) (key : K) (xs : List (Item K V))
    (h : ∀ x ∈ xs, cmp key x.key ≠ 0) :
    xs.filter (fun it => decide (cmp key it.key ≠ 0)) = xs := by
  rw [List.filter_eq_self]
  intro x hx
  simpa using h x hx

theorem find_eq_none (cmp : K → K → Int) (key : K) (xs : List (Item K V))
    (h : ∀ x ∈ xs, cmp key x.key ≠ 0) :
    xs.find? (fun it => decide (cmp key it.key = 0)) = none := by
  rw [List.find?_eq_none]
  intro x hx
  simpa using h x hx

theorem min_node_spec (h : algokit_rbtree_node K V) (hn : is_null h = false) :
    ∃ mi ml mr mc, algokit_rbtree_min_node h = node mi ml mr mc ∧
      inorder h = mi :: (inorder h).tail := by
  induction h with
  | null => simp at hn
  | node i l r c ihl _ =>
    rcases l with _ | ⟨li, ll, lr, lc⟩
    · exact ⟨i, null, r, c, by simp [algokit_rbtree_min_node], by simp⟩
    · obtain ⟨mi, ml, mr, mc, e1, e2⟩ := ihl rfl
      refine ⟨mi, ml, mr, mc, by simpa [algokit_rbtree_min_node] using e1, ?_⟩
      simp only [inorder] at e2 ⊢
      rw [e2]
      simp

end cmp_lemmas

section rb_remove_main
variable {K V : Type} {cmp : K → K → Int}

theorem inorder_if_rotate_right (b : Bool) (t : algokit_rbtree_node K V) :
    inorder (if b = true then algokit_rbtree_rotate_right t else t) = inorder t := by
  split_ifs <;> simp

theorem count_if_rotate_right (b : Bool) (t : algokit_rbtree_node K V) :
    count (if b = true then algokit_rbtree_rotate_right t else t) = count t := by
  split_ifs <;> simp

theorem inorder_if_move_red_right (b : Bool) (t : algokit_rbtree_node K V) :
    inorder (if b = true then algokit_rbtree_move_red_right t else t) = inorder t := by
  split_ifs <;> simp

theorem count_if_move_red_right (b : Bool) (t : algokit_rbtree_node K V) :
    count (if b = true then algokit_rbtree_move_red_right t else t) = count t := by
  split_ifs <;> simp

/-- The function `remove_node` on a subtree that is not a 2-node (or on the right-leaning
state, with the key not below its root): the budget suffices, the result is
well shaped with the same black height, its in-order sequence is the old one
without the pairs whose key compares equal to `key`, and the pair written to
`*out` is the stored pair with that key, if there is one. -/
theorem remove_node_spec (hc : CmpOrder cmp) (key : K) :
    ∀ (n : Nat) (h : algokit_rbtree_node K V), count h < n → bst_ordered cmp h →
      (pre_shape h ∨
        (right_leaning h ∧ ∀ i l r c, h = node i l r c → 0 ≤ cmp key i.key)) →
      ∃ t out, algokit_rbtree_remove_node cmp n h key = some (t, out) ∧ post_shape h t ∧
        inorder t = (inorder h).filter (fun it => decide (cmp key it.key ≠ 0)) ∧
        out = (inorder h).find? (fun it => decide (cmp key it.key = 0)) := by
  intro n
  induction n with
  | zero => intro h hn; omega
  | succ n ih =>
    intro h hn hord hpre
    rcases h with _ | ⟨i, l, r, c⟩
    · exact ⟨null, none, by simp [algokit_rbtree_remove_node], by simp [post_shape], by simp,
        by simp⟩
    have hn0 : 0 < n := by simp only [count] at hn; omega
    have hord' := (bst_ordered_node cmp i l r c).1 hord
    obtain ⟨ol, or_, oli, oir, olr⟩ := hord'
    by_cases hlt : cmp key i.key < 0
    · -- the key is below the root
      have hps : pre_shape (node i l r c) := by
        rcases hpre with hp | ⟨_, hp⟩
        · exact hp
        · have := hp i l r c rfl
          omega
      rcases hps with hps | ⟨hsh, hred⟩
      · simp at hps
      have hkeep : ∀ x, x = i ∨ x ∈ inorder r → cmp key x.key ≠ 0 := by
        rintro x (rfl | hx)
        · omega
        · have := hc.lt_trans hlt (oir x hx)
          omega
      rcases l with _ | ⟨li, ll, lr, lc⟩
      · -- no left child: nothing to remove
        have hr : r = null := by
          simp only [llrb_shape] at hsh
          exact black_height_zero_null hsh.2.2.2.2 (by simpa using hsh.2.2.1.symm) hsh.1
        subst hr
        obtain ⟨m, rfl⟩ : ∃ m, n = m + 1 := ⟨n - 1, by omega⟩
        refine ⟨node i null null c, none, ?_, post_shape_refl hsh, ?_, ?_⟩
        · simp [algokit_rbtree_remove_node, hlt, fix_up_noop]
        · have := hkeep i (Or.inl rfl)
          simp [this]
        · have := hkeep i (Or.inl rfl)
          simp [this]
      · obtain ⟨i1, l1, r1, c1, e1, hl1, hp1, hmem, hk⟩ :=
          move_left_step i (node li ll lr lc) r c hsh (by simpa using hred) rfl
        have hio := inorder_if_move_red_left
          (!algokit_rbtree_is_red (node li ll lr lc) &&
            !algokit_rbtree_is_red (get_left (node li ll lr lc))) (node i (node li ll lr lc) r c)
        have hct := count_if_move_red_left
          (!algokit_rbtree_is_red (node li ll lr lc) &&
            !algokit_rbtree_is_red (get_left (node li ll lr lc))) (node i (node li ll lr lc) r c)
        rw [e1] at hio hct
        have hcl : count l1 < n := by
          simp only [count] at hct hn
          omega
        have hord1 : bst_ordered cmp (node i1 l1 r1 c1) := bst_ordered_of_inorder_eq hio hord
        have ol1 := ((bst_ordered_node cmp i1 l1 r1 c1).1 hord1).1
        obtain ⟨l', out, e2, hp2, hi2, ho2⟩ := ih l1 hcl ol1 (Or.inl hp1)
        have hkeep1 : ∀ x ∈ i1 :: inorder r1, cmp key x.key ≠ 0 := by
          intro x hx
          exact hkeep x (hmem x (by simpa using hx))
        refine ⟨algokit_rbtree_fix_up (node i1 l' r1 c1), out, ?_, hk l' hp2, ?_, ?_⟩
        · simp only [get_left_node] at e1
          simp only [algokit_rbtree_remove_node, hlt, if_true, get_left_node, is_null_node,
            Bool.not_false, Bool.true_and]
          rw [e1]
          simp [e2]
        · rw [inorder_fix_up, ← hio]
          simp only [inorder]
          rw [List.filter_append, filter_ne_self cmp key _ hkeep1, hi2]
        · rw [← hio]
          simp only [inorder]
          rw [List.find?_append, find_eq_none cmp key _ hkeep1, ho2]
          simp
    · -- the key is not below the root
      have hge : 0 ≤ cmp key i.key := by omega
      have hpre' : pre_shape (node i l r c) ∨ right_leaning (node i l r c) := by
        rcases hpre with hp | ⟨hp, _⟩
        · exact Or.inl hp
        · exact Or.inr hp
      obtain ⟨i1, l1, r1, c1, e1, hearly, hmem1, i2, l2, r2, c2, e2, hpre2, hmem2, hnull2, hk⟩ :=
        move_right_step i l r c hpre'
      have hio1 := inorder_if_rotate_right (algokit_rbtree_is_red l) (node i l r c)
      have hct1 := count_if_rotate_right (algokit_rbtree_is_red l) (node i l r c)
      rw [e1] at hio1 hct1
      have hio2 := inorder_if_move_red_right
        (!is_null r1 && !algokit_rbtree_is_red r1 && !algokit_rbtree_is_red (get_left r1))
        (node i1 l1 r1 c1)
      have hct2 := count_if_move_red_right
        (!is_null r1 && !algokit_rbtree_is_red r1 && !algokit_rbtree_is_red (get_left r1))
        (node i1 l1 r1 c1)
      rw [e2] at hio2 hct2
      simp only [algokit_rbtree_remove_node, hlt, if_false, get_left_node]
      rw [e1]
      simp only [get_right_node]
      have hord2 : bst_ordered cmp (node i2 l2 r2 c2) :=
        bst_ordered_of_inorder_eq (hio2.trans hio1) hord
      obtain ⟨ol2, or2, oli2, oir2, -⟩ := (bst_ordered_node cmp i2 l2 r2 c2).1 hord2
      have hcr2 : count r2 < n := by
        simp only [count] at hct1 hct2 hn
        omega
      have hi2le : cmp i2.key i.key ≤ 0 := by
        rcases hmem2 i2 (Or.inr rfl) with hx | hx
        · exact le_of_lt (oli i2 hx)
        · rw [hx, hc.self_eq]
      have hkey2 : 0 ≤ cmp key i2.key := by
        by_contra hcon
        have := hc.lt_of_lt_of_le (show cmp key i2.key < 0 by omega) hi2le
        omega
      by_cases hearly' : cmp key i1.key = 0 ∧ is_null r1 = true
      · rw [if_pos hearly']
        obtain ⟨hl1, hpost⟩ := hearly hearly'.2
        have hr1 := is_null_eq_true hearly'.2
        subst hl1 hr1
        refine ⟨null, some i1, rfl, hpost, ?_, ?_⟩
        · rw [← hio1]; simp [hearly'.1]
        · rw [← hio1]; simp [hearly'.1]
      · rw [if_neg hearly', e2]
        simp only []
        by_cases heq : cmp key i2.key = 0
        · -- found at the root: replace it by its successor
          rw [if_pos heq]
          have heq' : cmp i2.key key = 0 := (hc.eq_iff _ _).1 heq
          have hr2 : is_null r2 = false := by
            by_contra hcon
            simp only [Bool.not_eq_false] at hcon
            have hr1 := hnull2 hcon
            simp only [hr1, Bool.not_true, Bool.false_and, Bool.false_eq_true, if_false,
              node.injEq] at e2
            exact hearly' ⟨by rw [e2.1]; exact heq, hr1⟩
          have hps2 : pre_shape r2 := by
            rcases hpre2 with hp | ⟨_, rl, rr, rc, rfl⟩
            · exact hp
            · exfalso
              have h1 := oir2 i (by simp)
              have h2 := hc.lt_of_le_of_lt (le_of_eq heq) h1
              omega
          obtain ⟨mi, ml, mr, mc, em, ehd⟩ := min_node_spec r2 hr2
          obtain ⟨r', ed, hpd, hid⟩ := delete_min_spec n r2 hcr2 hr2 hps2
          have hkl : ∀ x ∈ inorder l2, cmp key x.key ≠ 0 := by
            intro x hx
            have h1 := hc.lt_of_lt_of_le (oli2 x hx) (le_of_eq heq')
            have h2 := (hc.gt_iff key x.key).2 h1
            omega
          have hkr : ∀ x ∈ inorder r2, cmp key x.key ≠ 0 := by
            intro x hx
            have h1 := hc.lt_of_le_of_lt (le_of_eq heq) (oir2 x hx)
            omega
          refine ⟨algokit_rbtree_fix_up (node mi l2 r' c2), some i2, by simp [em, ed],
            hk r' mi hpd, ?_, ?_⟩
          · rw [inorder_fix_up, ← hio1, ← hio2]
            simp only [inorder]
            rw [List.filter_append, filter_ne_self cmp key _ hkl, List.filter_cons,
              filter_ne_self cmp key _ hkr, hid, ← ehd]
            simp [heq]
          · rw [← hio1, ← hio2]
            simp only [inorder]
            rw [List.find?_append, find_eq_none cmp key _ hkl]
            simp [heq]
        · -- continue in the right subtree
          rw [if_neg heq]
          have hps2 : pre_shape r2 ∨
              (right_leaning r2 ∧ ∀ i' l' r' c', r2 = node i' l' r' c' → 0 ≤ cmp key i'.key) := by
            rcases hpre2 with hp | ⟨hp, rl, rr, rc, rfl⟩
            · exact Or.inl hp
            · refine Or.inr ⟨hp, ?_⟩
              intro i' l' r' c' e
              simp only [node.injEq] at e
              rw [← e.1]; exact hge
          obtain ⟨r', out, er, hpr, hir, hor⟩ := ih r2 hcr2 or2 hps2
          have hkl : ∀ x ∈ inorder l2, cmp key x.key ≠ 0 := by
            intro x hx
            have h0 : cmp i2.key key < 0 := (hc.gt_iff key i2.key).1 (by omega)
            have h1 := hc.lt_trans (oli2 x hx) h0
            have h2 := (hc.gt_iff key x.key).2 h1
            omega
          refine ⟨algokit_rbtree_fix_up (node i2 l2 r' c2), out, by simp [er],
            hk r' i2 hpr, ?_, ?_⟩
          · rw [inorder_fix_up, ← hio1, ← hio2]
            simp only [inorder]
            rw [List.filter_append, filter_ne_self cmp key _ hkl, List.filter_cons, hir]
            simp [heq]
          · rw [← hio1, ← hio2]
            simp only [inorder]
            rw [List.find?_append, find_eq_none cmp key _ hkl, hor]
            simp [heq]

end rb_remove_main

section rb_root_colour
variable {K V : Type}

@[simp] theorem get_left_toggle_red (t : algokit_rbtree_node K V) :
    get_left (toggle_red t) = get_left t := by cases t <;> rfl
@[simp] theorem get_right_toggle_red (t : algokit_rbtree_node K V) :
    get_right (toggle_red t) = get_right t := by cases t <;> rfl
@[simp] theorem is_null_toggle_red (t : algokit_rbtree_node K V) :
    is_null (toggle_red t) = is_null t := by cases t <;> rfl
theorem set_left_toggle_red (t x : algokit_rbtree_node K V) :
    set_left (toggle_red t) x = toggle_red (set_left t x) := by cases t <;> rfl
theorem set_right_toggle_red (t x : algokit_rbtree_node K V) :
    set_right (toggle_red t) x = toggle_red (set_right t x) := by cases t <;> rfl
theorem rotate_left_toggle_red (t : algokit_rbtree_node K V) :
    algokit_rbtree_rotate_left (toggle_red t) = toggle_red (algokit_rbtree_rotate_left t) := by
  rcases t with _ | ⟨i, l, _ | ⟨ri, rl, rr, rc⟩, c⟩ <;> rfl
theorem rotate_right_toggle_red (t : algokit_rbtree_node K V) :
    algokit_rbtree_rotate_right (toggle_red t) = toggle_red (algokit_rbtree_rotate_right t) := by
  rcases t with _ | ⟨i, _ | ⟨li, ll, lr, lc⟩, r, c⟩ <;> rfl
theorem flip_colors_toggle_red (t : algokit_rbtree_node K V) :
    algokit_rbtree_flip_colors (toggle_red t) = toggle_red (algokit_rbtree_flip_colors t) := by
  cases t <;> rfl

theorem fix_up_toggle_red (t : algokit_rbtree_node K V) :
    algokit_rbtree_fix_up (toggle_red t) = toggle_red (algokit_rbtree_fix_up t) := by
  unfold algokit_rbtree_fix_up
  simp only [get_left_toggle_red, get_right_toggle_red]
  split_ifs <;>
    simp_all [rotate_left_toggle_red, rotate_right_toggle_red, flip_colors_toggle_red]

theorem move_red_left_toggle_red (t : algokit_rbtree_node K V) :
    algokit_rbtree_move_red_left (toggle_red t) =
      toggle_red (algokit_rbtree_move_red_left t) := by
  unfold algokit_rbtree_move_red_left
  simp only [flip_colors_toggle_red, get_left_toggle_red, get_right_toggle_red,
    set_right_toggle_red, rotate_left_toggle_red]
  split_ifs <;> rfl

theorem move_red_right_toggle_red (t : algokit_rbtree_node K V) :
    algokit_rbtree_move_red_right (toggle_red t) =
      toggle_red (algokit_rbtree_move_red_right t) := by
  unfold algokit_rbtree_move_red_right
  simp only [flip_colors_toggle_red, get_left_toggle_red, get_right_toggle_red,
    rotate_right_toggle_red]
  split_ifs <;> rfl

/-- The colour of the node `remove_node` is called on only decides the colour
of the node it returns: negating the one negates the other. -/
theorem remove_node_toggle_red (cmp : K → K → Int) (key : K) (n : Nat) (h : algokit_rbtree_node K V) :
    algokit_rbtree_remove_node cmp n (toggle_red h) key =
      (algokit_rbtree_remove_node cmp n h key).map (fun p => (toggle_red p.1, p.2)) := by
  rcases n with _ | n
  · simp [algokit_rbtree_remove_node]
  rcases h with _ | ⟨i, l, r, c⟩
  · simp [algokit_rbtree_remove_node]
  simp only [toggle_red_node, algokit_rbtree_remove_node, get_left_node]
  by_cases hlt : cmp key i.key < 0
  · simp only [hlt, if_true]
    have e : (if (!is_null l && !algokit_rbtree_is_red l && !algokit_rbtree_is_red (get_left l)) = true
        then algokit_rbtree_move_red_left (node i l r (!c)) else node i l r (!c)) =
        toggle_red (if (!is_null l && !algokit_rbtree_is_red l &&
          !algokit_rbtree_is_red (get_left l)) = true
        then algokit_rbtree_move_red_left (node i l r c) else node i l r c) := by
      split_ifs
      · exact move_red_left_toggle_red (node i l r c)
      · rfl
    rw [e]
    generalize (if (!is_null l && !algokit_rbtree_is_red l &&
          !algokit_rbtree_is_red (get_left l)) = true
        then algokit_rbtree_move_red_left (node i l r c) else node i l r c) = h1
    simp only [get_left_toggle_red]
    cases algokit_rbtree_remove_node cmp n (get_left h1) key with
    | none => rfl
    | some p => simp [set_left_toggle_red, fix_up_toggle_red]
  · simp only [hlt, if_false]
    have e : (if algokit_rbtree_is_red l = true then algokit_rbtree_rotate_right (node i l r (!c))
        else node i l r (!c)) =
        toggle_red (if algokit_rbtree_is_red l = true
          then algokit_rbtree_rotate_right (node i l r c) else node i l r c) := by
      split_ifs
      · exact rotate_right_toggle_red (node i l r c)
      · rfl
    rw [e]
    generalize (if algokit_rbtree_is_red l = true
          then algokit_rbtree_rotate_right (node i l r c) else node i l r c) = h1
    rcases h1 with _ | ⟨i1, l1, r1, c1⟩
    · rfl
    simp only [toggle_red_node, get_right_node]
    by_cases hearly : cmp key i1.key = 0 ∧ is_null r1 = true
    · simp [hearly]
    · simp only [hearly, if_false]
      have e2 : (if (!is_null r1 && !algokit_rbtree_is_red r1 &&
            !algokit_rbtree_is_red (get_left r1)) = true
          then algokit_rbtree_move_red_right (node i1 l1 r1 (!c1)) else node i1 l1 r1 (!c1)) =
          toggle_red (if (!is_null r1 && !algokit_rbtree_is_red r1 &&
            !algokit_rbtree_is_red (get_left r1)) = true
          then algokit_rbtree_move_red_right (node i1 l1 r1 c1) else node i1 l1 r1 c1) := by
        split_ifs
        · exact move_red_right_toggle_red (node i1 l1 r1 c1)
        · rfl
      rw [e2]
      generalize (if (!is_null r1 && !algokit_rbtree_is_red r1 &&
            !algokit_rbtree_is_red (get_left r1)) = true
          then algokit_rbtree_move_red_right (node i1 l1 r1 c1) else node i1 l1 r1 c1) = h2
      rcases h2 with _ | ⟨i2, l2, r2, c2⟩
      · rfl
      simp only [toggle_red_node]
      have ef : ∀ x (y : algokit_rbtree_node K V), algokit_rbtree_fix_up (node x l2 y (!c2)) =
          toggle_red (algokit_rbtree_fix_up (node x l2 y c2)) :=
        fun x y => fix_up_toggle_red (node x l2 y c2)
      by_cases heq : cmp key i2.key = 0
      · simp only [heq, if_true]
        cases algokit_rbtree_min_node r2 with
        | null => rfl
        | node mi ml mr mc =>
          cases algokit_rbtree_delete_min n r2 with
          | none => rfl
          | some r' => simp [ef]
      · simp only [heq, if_false]
        cases algokit_rbtree_remove_node cmp n r2 key with
        | none => rfl
        | some p => simp [ef]

end rb_root_colour

section rb_insert_content
variable {K V : Type} {cmp : K → K → Int}

theorem list_insert_append_lt (item x : Item K V) (l r : List (Item K V))
    (h : cmp item.key x.key < 0) :
    list_insert cmp item (l ++ x :: r) = list_insert cmp item l ++ x :: r := by
  induction l with
  | nil => simp [list_insert, h]
  | cons z zs ih =>
    simp only [List.cons_append, list_insert]
    split_ifs <;> simp [ih]

theorem list_insert_append_gt (item x : Item K V) (l r : List (Item K V))
    (h : 0 < cmp item.key x.key) (hl : ∀ z ∈ l, 0 < cmp item.key z.key) :
    list_insert cmp item (l ++ x :: r) = l ++ x :: list_insert cmp item r := by
  induction l with
  | nil =>
    have : ¬ cmp item.key x.key < 0 := by omega
    simp [list_insert, h, this]
  | cons z zs ih =>
    have hz := hl z (by simp)
    have : ¬ cmp item.key z.key < 0 := by omega
    have ih' := ih (fun y hy => hl y (by simp [hy]))
    simp [list_insert, this, hz, ih']

theorem list_insert_append_eq (item x : Item K V) (l r : List (Item K V))
    (h : cmp item.key x.key = 0) (hl : ∀ z ∈ l, 0 < cmp item.key z.key) :
    list_insert cmp item (l ++ x :: r) = l ++ x :: r := by
  induction l with
  | nil => simp [list_insert, h]
  | cons z zs ih =>
    have hz := hl z (by simp)
    have : ¬ cmp item.key z.key < 0 := by omega
    have ih' := ih (fun y hy => hl y (by simp [hy]))
    simp [list_insert, this, hz, ih']

theorem left_lt_of_gt (hc : CmpOrder cmp) {k : K} {hi : Item K V} {l : algokit_rbtree_node K V}
    (h : 0 ≤ cmp k hi.key) (hl : ∀ x ∈ inorder l, cmp x.key hi.key < 0) :
    ∀ z ∈ inorder l, 0 < cmp k z.key := by
  intro z hz
  have h1 := hc.lt_of_lt_of_le (hl z hz) ((hc.le_iff _ _).2 h)
  exact (hc.gt_iff _ _).2 h1

/-- The in-order sequence after `insert_node` and the value of `*inserted`. -/
theorem insert_node_inorder (hc : CmpOrder cmp) (item : Item K V) (h : algokit_rbtree_node K V)
    (ho : bst_ordered cmp h) :
    inorder (algokit_rbtree_insert_node cmp true h item).1 = list_insert cmp item (inorder h) ∧
    ((algokit_rbtree_insert_node cmp true h item).2 = true ↔
      ∀ x ∈ inorder h, cmp item.key x.key ≠ 0) := by
  induction h with
  | null => simp [algokit_rbtree_insert_node, algokit_rbtree_node_create, list_insert]
  | node hi l r c ihl ihr =>
    obtain ⟨ol, or_, oli, oir, -⟩ := (bst_ordered_node cmp hi l r c).1 ho
    have ihl := ihl ol
    have ihr := ihr or_
    simp only [algokit_rbtree_insert_node]
    split_ifs with h1 h2
    · have hr : ∀ x ∈ inorder r, cmp item.key x.key ≠ 0 := fun x hx => by
        have := hc.lt_trans h1 (oir x hx); omega
      simp only [inorder_fix_up, inorder, ihl.1, list_insert_append_lt _ _ _ _ h1, ihl.2,
        List.mem_append, List.mem_cons, true_and]
      constructor
      · rintro h3 x (hx | rfl | hx)
        · exact h3 x hx
        · omega
        · exact hr x hx
      · intro h3 x hx; exact h3 x (Or.inl hx)
    · have hl := left_lt_of_gt hc (le_of_lt h2) oli
      simp only [inorder_fix_up, inorder, ihr.1, list_insert_append_gt _ _ _ _ h2 hl, ihr.2,
        List.mem_append, List.mem_cons, true_and]
      constructor
      · rintro h3 x (hx | rfl | hx)
        · have := hl x hx; omega
        · omega
        · exact h3 x hx
      · intro h3 x hx; exact h3 x (Or.inr (Or.inr hx))
    · have heq : cmp item.key hi.key = 0 := by omega
      have hl := left_lt_of_gt hc (le_of_eq heq.symm) oli
      simp only [inorder_fix_up, inorder, list_insert_append_eq _ _ _ _ heq hl,
        List.mem_append, List.mem_cons, true_and]
      simp only [Bool.false_eq_true, false_iff, not_forall]
      exact ⟨hi, Or.inr (Or.inl rfl), by simp [heq]⟩

theorem mem_list_insert (item : Item K V) (xs : List (Item K V)) (y : Item K V)
    (hy : y ∈ list_insert cmp item xs) : y = item ∨ y ∈ xs := by
  induction xs with
  | nil => simpa [list_insert] using hy
  | cons x xs ih =>
    simp only [list_insert] at hy
    split_ifs at hy with h1 h2
    · simpa using hy
    · rcases List.mem_cons.1 hy with rfl | hy'
      · simp
      · rcases ih hy' with h | h
        · exact Or.inl h
        · exact Or.inr (List.mem_cons_of_mem _ h)
    · exact Or.inr hy

theorem keys_ascending_list_insert (hc : CmpOrder cmp) (item : Item K V) (xs : List (Item K V))
    (h : keys_ascending cmp xs) : keys_ascending cmp (list_insert cmp item xs) := by
  induction xs with
  | nil => simp [list_insert, keys_ascending]
  | cons x xs ih =>
    simp only [keys_ascending, List.pairwise_cons] at h
    simp only [list_insert]
    split_ifs with h1 h2
    · simp only [keys_ascending, List.pairwise_cons, List.mem_cons]
      refine ⟨?_, h.1, h.2⟩
      rintro y (rfl | hy)
      · exact h1
      · exact hc.lt_trans h1 (h.1 y hy)
    · simp only [keys_ascending, List.pairwise_cons]
      refine ⟨?_, ih h.2⟩
      intro y hy
      rcases mem_list_insert item xs y hy with rfl | hy'
      · exact (hc.gt_iff _ _).1 h2
      · exact h.1 y hy'
    · simpa [keys_ascending] using h

end rb_insert_content

section rb_top_level
variable {K V : Type} {cmp : K → K → Int}

theorem traverse_node_inorder (t : algokit_rbtree_node K V) :
    algokit_rbtree_traverse_node t 1 = inorder t := by
  induction t with
  | null => rfl
  | node i l r c ihl ihr => simp [algokit_rbtree_traverse_node, ihl, ihr]

theorem llrb_shape_set_red_false {t : algokit_rbtree_node K V} (h : llrb_shape t) :
    llrb_shape (set_red t false) := by
  cases t <;> simp_all

theorem almost_shape_set_red_false {t : algokit_rbtree_node K V} (h : almost_shape t) :
    llrb_shape (set_red t false) := by
  cases t <;> simp_all

theorem is_red_set_red_false (t : algokit_rbtree_node K V) :
    algokit_rbtree_is_red (set_red t false) = false := by
  cases t <;> simp

theorem set_red_toggle_red (t : algokit_rbtree_node K V) (b : Bool) :
    set_red (toggle_red t) b = set_red t b := by
  cases t <;> simp

theorem CmpOrder.eq_trans (hc : CmpOrder cmp) {a b c : K} (h1 : cmp a b = 0)
    (h2 : cmp b c = 0) : cmp a c = 0 := by
  have h3 := hc.le_trans a b c (le_of_eq h1) (le_of_eq h2)
  have h4 := hc.le_trans c b a (le_of_eq ((hc.eq_iff _ _).1 h2)) (le_of_eq ((hc.eq_iff _ _).1 h1))
  have h5 := (hc.le_iff c a).1 h4
  omega

/-- The function `search_node` on an ordered subtree finds the stored pair whose key
compares equal, i.e. the first such pair of the in-order sequence. -/
theorem search_node_eq_find (hc : CmpOrder cmp) (key : K) (h : algokit_rbtree_node K V)
    (ho : bst_ordered cmp h) :
    algokit_rbtree_search_node cmp h key =
      (inorder h).find? (fun it => decide (cmp key it.key = 0)) := by
  induction h with
  | null => rfl
  | node hi l r c ihl ihr =>
    obtain ⟨ol, or_, oli, oir, -⟩ := (bst_ordered_node cmp hi l r c).1 ho
    simp only [algokit_rbtree_search_node, inorder, List.find?_append]
    split_ifs with h1 h2
    · have hr : ∀ x ∈ hi :: inorder r, cmp key x.key ≠ 0 := by
        intro x hx
        rcases List.mem_cons.1 hx with rfl | hx
        · omega
        · have := hc.lt_trans h1 (oir x hx); omega
      rw [ihl ol, find_eq_none cmp key _ hr]
      simp
    · have hl : ∀ x ∈ inorder l, cmp key x.key ≠ 0 := by
        intro x hx
        have := left_lt_of_gt hc (le_of_lt h2) oli x hx
        omega
      have h3 : ¬ cmp key hi.key = 0 := by omega
      rw [ihr or_, find_eq_none cmp key _ hl]
      simp [h3]
    · have heq : cmp key hi.key = 0 := by omega
      have hl : ∀ x ∈ inorder l, cmp key x.key ≠ 0 := by
        intro x hx
        have := left_lt_of_gt hc (le_of_eq heq.symm) oli x hx
        omega
      rw [find_eq_none cmp key _ hl]
      simp [heq]

/-- The function `algokit_rbtree_remove` on a valid tree: it returns, the tree afterwards is
valid, its in-order sequence is the old one without the pairs whose key
compares equal to `key`, and `*out` is the stored pair with that key. -/
theorem rbtree_remove_spec (hc : CmpOrder cmp) (tree : algokit_rbtree K V)
    (hv : rbtree_valid cmp tree) (key : K) :
    ∃ out tree', algokit_rbtree_remove cmp tree key =
        some (if out.isSome = true then 0 else 1, out, tree') ∧
      rbtree_valid cmp tree' ∧
      inorder tree'.root = (inorder tree.root).filter (fun it => decide (cmp key it.key ≠ 0)) ∧
      out = (inorder tree.root).find? (fun it => decide (cmp key it.key = 0)) := by
  obtain ⟨root⟩ := tree
  obtain ⟨ho, hs, hb⟩ := hv
  simp only at ho hs hb
  rcases root with _ | ⟨i, l, r, c⟩
  · exact ⟨none, ⟨null⟩, rfl, ⟨ho, hs, hb⟩, rfl, rfl⟩
  have hc0 : c = false := by simpa using hb
  subst hc0
  have key_fact : ∃ t out, algokit_rbtree_remove_node cmp (count (node i l r false) + 1)
      (node i l r false) key = some (t, out) ∧ llrb_shape (set_red t false) ∧
      inorder t = (inorder (node i l r false)).filter (fun it => decide (cmp key it.key ≠ 0)) ∧
      out = (inorder (node i l r false)).find? (fun it => decide (cmp key it.key = 0)) := by
    by_cases hl : algokit_rbtree_is_red l = true
    · obtain ⟨t, out, e, hp, hi, hout⟩ := remove_node_spec hc key _ (node i l r false)
        (Nat.lt_succ_self _) ho (Or.inl (Or.inr ⟨hs, Or.inr hl⟩))
      exact ⟨t, out, e, llrb_shape_set_red_false hp.1, hi, hout⟩
    · simp only [Bool.not_eq_true] at hl
      have hs' : llrb_shape (node i l r true) := by
        simp only [llrb_shape] at hs ⊢
        exact ⟨hs.1, fun _ => hl, hs.2.2⟩
      obtain ⟨t, out, e, hp, hi, hout⟩ := remove_node_spec hc key (count (node i l r false) + 1)
        (node i l r true) (by simp) (bst_ordered_of_inorder_eq (by simp) ho)
        (Or.inl (Or.inr ⟨hs', Or.inl rfl⟩))
      have e2 := remove_node_toggle_red cmp key (count (node i l r false) + 1)
        (node i l r true)
      rw [e] at e2
      simp only [toggle_red_node, Bool.not_true, Option.map_some'] at e2
      refine ⟨toggle_red t, out, e2, ?_, ?_, ?_⟩
      · rw [set_red_toggle_red]; exact llrb_shape_set_red_false hp.1
      · simpa using hi
      · simpa using hout
  obtain ⟨t, out, e, hp, hi, hout⟩ := key_fact
  refine ⟨out, ⟨set_red t false⟩, ?_, ⟨?_, hp, is_red_set_red_false t⟩, ?_, hout⟩
  · simp only [algokit_rbtree_remove]
    rw [e]
  · simp only [bst_ordered, inorder_set_red, hi]
    exact List.Pairwise.sublist (List.filter_sublist _) ho
  · simp only [inorder_set_red, hi]

end rb_top_level

section rb_insert_top
variable {K V : Type} {cmp : K → K → Int}

theorem fix_up_of_shape (i : Item K V) (l r : algokit_rbtree_node K V) (c : Bool)
    (hs : llrb_shape (node i l r c)) :
    algokit_rbtree_fix_up (node i l r c) = node i l r c := by
  simp only [llrb_shape] at hs
  exact fix_up_noop _ _ _ _ hs.1 (by
    intro hl; obtain ⟨li, ll, lr, rfl⟩ := is_red_eq_true hl; simp_all)

/-- When the allocation fails, `insert_node` hands back the subtree it was
given. -/
theorem insert_node_alloc_fail (item : Item K V) (h : algokit_rbtree_node K V)
    (hs : llrb_shape h) : (algokit_rbtree_insert_node cmp false h item).1 = h := by
  induction h with
  | null => rfl
  | node hi l r c ihl ihr =>
    have hs' := hs
    simp only [llrb_shape] at hs'
    simp only [algokit_rbtree_insert_node]
    split_ifs
    · simp only [ihl hs'.2.2.2.1]; exact fix_up_of_shape _ _ _ _ hs
    · simp only [ihr hs'.2.2.2.2]; exact fix_up_of_shape _ _ _ _ hs
    · exact fix_up_of_shape _ _ _ _ hs

/-- On a key that is stored, `insert_node` hands back the subtree it was
given and clears `*inserted`. -/
theorem insert_node_present (hc : CmpOrder cmp) (alloc_ok : Bool) (item : Item K V)
    (h : algokit_rbtree_node K V) (hs : llrb_shape h) (ho : bst_ordered cmp h)
    (hp : ∃ x ∈ inorder h, cmp item.key x.key = 0) :
    algokit_rbtree_insert_node cmp alloc_ok h item = (h, false) := by
  induction h with
  | null => simp at hp
  | node hi l r c ihl ihr =>
    obtain ⟨ol, or_, oli, oir, -⟩ := (bst_ordered_node cmp hi l r c).1 ho
    have hs' := hs
    simp only [llrb_shape] at hs'
    obtain ⟨x, hx, hxe⟩ := hp
    simp only [inorder, List.mem_append, List.mem_cons] at hx
    simp only [algokit_rbtree_insert_node]
    split_ifs with h1 h2
    · have hxl : x ∈ inorder l := by
        rcases hx with hx | rfl | hx
        · exact hx
        · omega
        · have := hc.lt_trans h1 (oir x hx); omega
      rw [ihl hs'.2.2.2.1 ol ⟨x, hxl, hxe⟩]
      simp only [fix_up_of_shape _ _ _ _ hs]
    · have hxr : x ∈ inorder r := by
        rcases hx with hx | rfl | hx
        · have := left_lt_of_gt hc (le_of_lt h2) oli x hx; omega
        · omega
        · exact hx
      rw [ihr hs'.2.2.2.2 or_ ⟨x, hxr, hxe⟩]
      simp only [fix_up_of_shape _ _ _ _ hs]
    · simp only [fix_up_of_shape _ _ _ _ hs]

theorem insert_node_ne_null (hc : CmpOrder cmp) (item : Item K V) (h : algokit_rbtree_node K V)
    (ho : bst_ordered cmp h) : is_null (algokit_rbtree_insert_node cmp true h item).1 = false := by
  have h1 := (insert_node_inorder hc item h ho).1
  cases hres : (algokit_rbtree_insert_node cmp true h item).1 with
  | null =>
    rw [hres] at h1
    cases hh : inorder h <;> rw [hh] at h1 <;> simp [list_insert] at h1
    split_ifs at h1
  | node i l r c => rfl

theorem insert_eq_set_red (alloc_ok : Bool) (tree : algokit_rbtree K V) (item : Item K V) :
    (algokit_rbtree_insert cmp alloc_ok tree item).2 =
      ⟨set_red (algokit_rbtree_insert_node cmp alloc_ok tree.root item).1 false⟩ := by
  simp only [algokit_rbtree_insert]
  cases (algokit_rbtree_insert_node cmp alloc_ok tree.root item).1 <;> rfl

/-- The function `algokit_rbtree_insert` with a successful allocation on a valid tree: the
tree afterwards is valid, its in-order sequence is the old one with the item
inserted at its place, and the result code tells whether the key was new. -/
theorem rbtree_insert_spec (hc : CmpOrder cmp) (tree : algokit_rbtree K V)
    (hv : rbtree_valid cmp tree) (item : Item K V) :
    rbtree_valid cmp (algokit_rbtree_insert cmp true tree item).2 ∧
    inorder (algokit_rbtree_insert cmp true tree item).2.root =
      list_insert cmp item (inorder tree.root) ∧
    (algokit_rbtree_insert cmp true tree item).1 =
      if (algokit_rbtree_insert_node cmp true tree.root item).2 = true then 0 else 1 := by
  obtain ⟨ho, hs, hb⟩ := hv
  obtain ⟨a1, a2, a3⟩ := insert_node_shape cmp item tree.root hs
  obtain ⟨b1, b2⟩ := insert_node_inorder hc item tree.root ho
  have hnn := insert_node_ne_null hc item tree.root ho
  refine ⟨⟨?_, ?_, ?_⟩, ?_, ?_⟩
  · rw [insert_eq_set_red]
    simp only [bst_ordered, inorder_set_red, b1]
    exact keys_ascending_list_insert hc item _ ho
  · rw [insert_eq_set_red]
    exact llrb_shape_set_red_false (a3 hb)
  · rw [insert_eq_set_red]
    exact is_red_set_red_false _
  · rw [insert_eq_set_red]
    simp only [inorder_set_red, b1]
  · simp only [algokit_rbtree_insert]
    cases hres : (algokit_rbtree_insert_node cmp true tree.root item).1 with
    | null => rw [hres] at hnn; simp at hnn
    | node i l r c => rfl

end rb_insert_top

section rb_insert_sequence
variable {K V : Type} {cmp : K → K → Int}

theorem list_insert_present (hc : CmpOrder cmp) (item : Item K V) (xs : List (Item K V))
    (ha : keys_ascending cmp xs) (hp : ∃ x ∈ xs, cmp item.key x.key = 0) :
    list_insert cmp item xs = xs := by
  induction xs with
  | nil => simp at hp
  | cons x xs ih =>
    simp only [keys_ascending, List.pairwise_cons] at ha
    obtain ⟨y, hy, hye⟩ := hp
    simp only [list_insert]
    split_ifs with h1 h2
    · exfalso
      rcases List.mem_cons.1 hy with rfl | hy'
      · omega
      · have := hc.lt_trans h1 (ha.1 y hy'); omega
    · have hy' : y ∈ xs := by
        rcases List.mem_cons.1 hy with rfl | hy'
        · omega
        · exact hy'
      rw [ih ha.2 ⟨y, hy', hye⟩]
    · rfl

theorem list_insert_absent (cmp : K → K → Int) (item : Item K V) (xs : List (Item K V))
    (hp : ∀ x ∈ xs, cmp item.key x.key ≠ 0) :
    (list_insert cmp item xs).length = xs.length + 1 ∧
    ∀ y, y ∈ list_insert cmp item xs ↔ y = item ∨ y ∈ xs := by
  induction xs with
  | nil => simp [list_insert]
  | cons x xs ih =>
    have hx := hp x (by simp)
    obtain ⟨ih1, ih2⟩ := ih (fun y hy => hp y (by simp [hy]))
    simp only [list_insert]
    split_ifs with h1 h2
    · simp
    · simp only [List.length_cons, ih1, List.mem_cons, ih2, true_and]
      intro y; tauto
    · omega

/-- Inserting a sequence of items keeps the tree valid and stores one pair per
distinct key. -/
theorem insert_fold_invariant (hc : CmpOrder cmp) (items : List (Item K V)) :
    ∀ (t : algokit_rbtree K V) (seen : List K), rbtree_valid cmp t →
      (inorder t.root).length = seen.length →
      (∀ k, (∃ x ∈ inorder t.root, cmp k x.key = 0) ↔ (∃ s ∈ seen, cmp k s = 0)) →
      rbtree_valid cmp (items.foldl (fun t it => (algokit_rbtree_insert cmp true t it).2) t) ∧
      (inorder (items.foldl (fun t it => (algokit_rbtree_insert cmp true t it).2) t).root).length =
        (items.foldl (fun seen it => if seen.any (fun k => cmp it.key k == 0) then seen
          else seen ++ [it.key]) seen).length := by
  induction items with
  | nil => intro t seen hv hl _; exact ⟨hv, hl⟩
  | cons it items ih =>
    intro t seen hv hl hm
    simp only [List.foldl_cons]
    obtain ⟨v1, v2, -⟩ := rbtree_insert_spec hc t hv it
    by_cases hp : ∃ x ∈ inorder t.root, cmp it.key x.key = 0
    · have hany : seen.any (fun k => cmp it.key k == 0) = true := by
        obtain ⟨s, hs, hse⟩ := (hm it.key).1 hp
        simp only [List.any_eq_true, beq_iff_eq]
        exact ⟨s, hs, hse⟩
      rw [if_pos hany]
      apply ih _ _ v1
      · rw [v2, list_insert_present hc it _ hv.1 hp]; exact hl
      · rw [v2, list_insert_present hc it _ hv.1 hp]; exact hm
    · have hany : ¬ seen.any (fun k => cmp it.key k == 0) = true := by
        intro hcon
        simp only [List.any_eq_true, beq_iff_eq] at hcon
        exact hp ((hm it.key).2 hcon)
      rw [if_neg hany]
      have hab : ∀ x ∈ inorder t.root, cmp it.key x.key ≠ 0 := by
        intro x hx hcon; exact hp ⟨x, hx, hcon⟩
      obtain ⟨b1, b2⟩ := list_insert_absent cmp it _ hab
      apply ih _ _ v1
      · rw [v2, b1, hl]; simp
      · intro k
        rw [v2]
        constructor
        · rintro ⟨x, hx, hxe⟩
          rcases (b2 x).1 hx with rfl | hx'
          · exact ⟨x.key, by simp, hxe⟩
          · obtain ⟨s, hs, hse⟩ := (hm k).1 ⟨x, hx', hxe⟩
            exact ⟨s, by simp [hs], hse⟩
        · rintro ⟨s, hs, hse⟩
          rcases List.mem_append.1 hs with hs' | hs'
          · obtain ⟨x, hx, hxe⟩ := (hm k).2 ⟨s, hs', hse⟩
            exact ⟨x, (b2 x).2 (Or.inr hx), hxe⟩
          · simp only [List.mem_singleton] at hs'
            subst hs'
            exact ⟨it, (b2 it).2 (Or.inl rfl), hse⟩

theorem rbtree_valid_create : rbtree_valid cmp (algokit_rbtree_create : algokit_rbtree K V) := by
  simp [rbtree_valid, algokit_rbtree_create, bst_ordered, keys_ascending]

end rb_insert_sequence

section rb_claim_support
variable {K V : Type} {cmp : K → K → Int}

theorem split_at_stored (hc : CmpOrder cmp) (key : K) (x : Item K V) (xs : List (Item K V))
    (ha : keys_ascending cmp xs) (hx : x ∈ xs) (hk : cmp key x.key = 0) :
    ∃ pre post, xs = pre ++ x :: post ∧
      xs.filter (fun it => decide (cmp key it.key ≠ 0)) = pre ++ post ∧
      xs.find? (fun it => decide (cmp key it.key = 0)) = some x := by
  obtain ⟨pre, post, rfl⟩ := List.append_of_mem hx
  simp only [keys_ascending, List.pairwise_append, List.pairwise_cons, List.mem_cons] at ha
  obtain ⟨-, ⟨h2, -⟩, h4⟩ := ha
  have hk' : cmp x.key key = 0 := (hc.eq_iff _ _).1 hk
  have hpre : ∀ a ∈ pre, cmp key a.key ≠ 0 := by
    intro a ha
    have h1 := hc.lt_of_lt_of_le (h4 a ha x (Or.inl rfl)) (le_of_eq hk')
    have := (hc.gt_iff key a.key).2 h1
    omega
  have hpost : ∀ b ∈ post, cmp key b.key ≠ 0 := by
    intro b hb
    have := hc.lt_of_le_of_lt (le_of_eq hk) (h2 b hb)
    omega
  refine ⟨pre, post, rfl, ?_, ?_⟩
  · rw [List.filter_append, filter_ne_self cmp key _ hpre, List.filter_cons,
      filter_ne_self cmp key _ hpost]
    simp [hk]
  · rw [List.find?_append, find_eq_none cmp key _ hpre]
    simp [hk]

theorem find_list_insert_absent (hc : CmpOrder cmp) (item : Item K V) (xs : List (Item K V))
    (hp : ∀ x ∈ xs, cmp item.key x.key ≠ 0) :
    (list_insert cmp item xs).find? (fun it => decide (cmp item.key it.key = 0)) = some item := by
  induction xs with
  | nil => simp [list_insert, hc.self_eq]
  | cons x xs ih =>
    have hx := hp x (by simp)
    have ih' := ih (fun y hy => hp y (by simp [hy]))
    simp only [list_insert]
    split_ifs with h1 h2
    · simp [hc.self_eq]
    · simp [hx, ih']
    · omega

theorem find_filter_ne (key : K) (xs : List (Item K V)) :
    (xs.filter (fun it => decide (cmp key it.key ≠ 0))).find?
      (fun it => decide (cmp key it.key = 0)) = none := by
  rw [List.find?_eq_none]
  intro x hx
  simp only [List.mem_filter, decide_eq_true_eq] at hx
  simpa using hx.2

theorem rbtree_search_eq (hc : CmpOrder cmp) (tree : algokit_rbtree K V)
    (hv : rbtree_valid cmp tree) (key : K) :
    algokit_rbtree_search cmp tree key =
      match (inorder tree.root).find? (fun it => decide (cmp key it.key = 0)) with
      | none => (1, none)
      | some it => (0, some it) := by
  simp only [algokit_rbtree_search, search_node_eq_find hc key tree.root hv.1]

/-- The function `algokit_rbtree_insert` keeps a valid tree valid, whether or not the
allocation succeeds. -/
theorem rbtree_insert_valid (hc : CmpOrder cmp) (alloc_ok : Bool) (tree : algokit_rbtree K V)
    (hv : rbtree_valid cmp tree) (item : Item K V) :
    rbtree_valid cmp (algokit_rbtree_insert cmp alloc_ok tree item).2 := by
  cases alloc_ok
  · rw [insert_eq_set_red, insert_node_alloc_fail item tree.root hv.2.1]
    obtain ⟨root⟩ := tree
    obtain ⟨ho, hs, hb⟩ := hv
    exact ⟨by simpa [bst_ordered] using ho, llrb_shape_set_red_false hs, is_red_set_red_false _⟩
  · exact (rbtree_insert_spec hc tree hv item).1

theorem rbtree_reachable_valid (hc : CmpOrder cmp) (tree : algokit_rbtree K V)
    (hr : rbtree_reachable cmp tree) : rbtree_valid cmp tree := by
  induction hr with
  | create => exact rbtree_valid_create
  | insert alloc_ok t item _ ih => exact rbtree_insert_valid hc alloc_ok t ih item
  | remove t key rc out t' _ he ih =>
    obtain ⟨out', t'', e, hv, -, -⟩ := rbtree_remove_spec hc t ih key
    rw [e] at he
    simp only [Option.some.injEq, Prod.mk.injEq] at he
    rw [← he.2.2]; exact hv

end rb_claim_support

section rb_model_adequacy
variable {K V : Type} {cmp : K → K → Int}

/-- In a well-shaped subtree every path down to a `NULL` link passes the same
number of black nodes, the black height. -/
theorem llrb_shape_black_paths (t : algokit_rbtree_node K V) (hs : llrb_shape t) :
    ∀ n ∈ black_path_counts t, n = black_height t := by
  induction t with
  | null => simp [black_path_counts]
  | node i l r c ihl ihr =>
    simp only [llrb_shape] at hs
    obtain ⟨-, -, hb, hl, hr⟩ := hs
    intro n hn
    simp only [black_path_counts, List.mem_map, List.mem_append] at hn
    obtain ⟨m, hm, rfl⟩ := hn
    rcases hm with hm | hm
    · simp [ihl hl m hm]
    · simp [ihr hr m hm, hb]

/-- A larger recursion budget does not change what `delete_min` returns. -/
theorem delete_min_fuel_mono : ∀ (n : Nat) (h r : algokit_rbtree_node K V),
    algokit_rbtree_delete_min n h = some r → algokit_rbtree_delete_min (n + 1) h = some r := by
  intro n
  induction n with
  | zero => intro h r hr; simp [algokit_rbtree_delete_min] at hr
  | succ n ih =>
    intro h r hr
    rw [algokit_rbtree_delete_min] at hr ⊢
    cases hl : get_left h with
    | null => rw [hl] at hr; exact hr
    | node li ll lr lc =>
      rw [hl] at hr
      simp only at hr ⊢
      cases hd : algokit_rbtree_delete_min n (get_left
          (if (!algokit_rbtree_is_red (node li ll lr lc) &&
              !algokit_rbtree_is_red (get_left (node li ll lr lc))) = true
            then algokit_rbtree_move_red_left h else h)) with
      | none => rw [hd] at hr; simp at hr
      | some l' =>
        rw [hd] at hr
        rw [ih _ _ hd]
        exact hr

/-- A larger recursion budget does not change what `remove_node` returns. -/
theorem remove_node_fuel_mono (key : K) : ∀ (n : Nat) (h : algokit_rbtree_node K V)
    (r : algokit_rbtree_node K V × Option (Item K V)),
    algokit_rbtree_remove_node cmp n h key = some r →
    algokit_rbtree_remove_node cmp (n + 1) h key = some r := by
  intro n
  induction n with
  | zero => intro h r hr; simp [algokit_rbtree_remove_node] at hr
  | succ n ih =>
    intro h r hr
    rcases h with _ | ⟨hi, hl, hr_, hc⟩
    · simpa [algokit_rbtree_remove_node] using hr
    rw [algokit_rbtree_remove_node] at hr ⊢
    simp only at hr ⊢
    by_cases h1 : cmp key hi.key < 0
    · rw [if_pos h1] at hr ⊢
      generalize (if (!is_null (get_left (node hi hl hr_ hc)) &&
                !algokit_rbtree_is_red (get_left (node hi hl hr_ hc)) &&
              !algokit_rbtree_is_red (get_left (get_left (node hi hl hr_ hc)))) = true
            then algokit_rbtree_move_red_left (node hi hl hr_ hc) else node hi hl hr_ hc) = h1'
        at hr ⊢
      cases hd : algokit_rbtree_remove_node cmp n (get_left h1') key with
      | none => rw [hd] at hr; simp at hr
      | some p =>
        rw [hd] at hr
        rw [ih _ _ hd]
        exact hr
    · rw [if_neg h1] at hr ⊢
      generalize (if algokit_rbtree_is_red (get_left (node hi hl hr_ hc)) = true
          then algokit_rbtree_rotate_right (node hi hl hr_ hc) else node hi hl hr_ hc) = h1' at hr ⊢
      rcases h1' with _ | ⟨i1, l1, r1, c1⟩
      · simp at hr
      simp only at hr ⊢
      by_cases h2 : cmp key i1.key = 0 ∧ is_null r1 = true
      · rw [if_pos h2] at hr ⊢
        exact hr
      · rw [if_neg h2] at hr ⊢
        generalize (if (!is_null (get_right (node i1 l1 r1 c1)) &&
              !algokit_rbtree_is_red (get_right (node i1 l1 r1 c1)) &&
              !algokit_rbtree_is_red (get_left (get_right (node i1 l1 r1 c1)))) = true
            then algokit_rbtree_move_red_right (node i1 l1 r1 c1) else node i1 l1 r1 c1) = h2'
          at hr ⊢
        rcases h2' with _ | ⟨i2, l2, r2, c2⟩
        · simp at hr
        simp only at hr ⊢
        by_cases h3 : cmp key i2.key = 0
        · rw [if_pos h3] at hr ⊢
          cases hm : algokit_rbtree_min_node r2 with
          | null => rw [hm] at hr; simp at hr
          | node mi ml mr mc =>
            rw [hm] at hr
            simp only at hr ⊢
            cases hd : algokit_rbtree_delete_min n r2 with
            | none => rw [hd] at hr; simp at hr
            | some r' =>
              rw [hd] at hr
              rw [delete_min_fuel_mono _ _ _ hd]
              exact hr
        · rw [if_neg h3] at hr ⊢
          cases hd : algokit_rbtree_remove_node cmp n r2 key with
          | none => rw [hd] at hr; simp at hr
          | some p =>
            rw [hd] at hr
            rw [ih _ _ hd]
            exact hr

end rb_model_adequacy

/-! ## Linear-probing hash table: probing lemmas -/

section hash_lp_lemmas
variable {K V : Type} {hash : K → Nat} {cmp : K → K → Int}

theorem slot_set (l : List (algokit_hash_lp_entry K V)) (c s p idx : Nat)
    (e : algokit_hash_lp_entry K V) (hp : p < l.length) :
    algokit_hash_lp_slot ⟨l.set p e, c, s⟩ idx =
      if idx = p then e else algokit_hash_lp_slot ⟨l, c, s⟩ idx := by
  simp only [algokit_hash_lp_slot, List.getD_eq_getElem?_getD]
  by_cases h : idx = p
  · subst h
    simp [hp]
  · simp [h, List.getElem?_set_ne (Ne.symm h)]

theorem slot_occupied_lt {t : algokit_hash_lp K V} {j : Nat} {it : Item K V}
    (h : algokit_hash_lp_slot t j = algokit_hash_lp_entry.occupied it) : j < t.entries.length := by
  by_contra hcon
  simp only [algokit_hash_lp_slot, List.getD_eq_getElem?_getD] at h
  rw [List.getElem?_eq_none (by omega)] at h
  simp at h

/-- What `find` reports as found is an occupied slot with an equal key. -/
theorem find_some_spec (t : algokit_hash_lp K V) (key : K) :
    ∀ (n h j : Nat) (it : Item K V),
      algokit_hash_lp_find cmp t key n h = some (some (j, it)) →
      algokit_hash_lp_slot t j = algokit_hash_lp_entry.occupied it ∧ cmp it.key key = 0 := by
  intro n
  induction n with
  | zero => intro h j it hf; simp [algokit_hash_lp_find] at hf
  | succ n ih =>
    intro h j it hf
    simp only [algokit_hash_lp_find] at hf
    cases hs : algokit_hash_lp_slot t h with
    | empty => rw [hs] at hf; simp at hf
    | occupied x =>
      rw [hs] at hf
      simp only at hf
      split_ifs at hf with hm
      · simp only [Option.some.injEq, Prod.mk.injEq] at hf
        obtain ⟨rfl, rfl⟩ := hf
        exact ⟨hs, hm⟩
      · exact ih _ j it hf
    | tombstone =>
      rw [hs] at hf
      exact ih _ j it hf

/-- Probing does not tell keys apart that compare equal. -/
theorem find_congr_key (hh : HashCmp hash cmp) (t : algokit_hash_lp K V) (a b : K)
    (hab : cmp a b = 0) :
    ∀ (n h : Nat), algokit_hash_lp_find cmp t a n h = algokit_hash_lp_find cmp t b n h := by
  intro n
  induction n with
  | zero => intro h; rfl
  | succ n ih =>
    intro h
    simp only [algokit_hash_lp_find]
    cases algokit_hash_lp_slot t h with
    | empty => rfl
    | occupied x =>
      simp only
      have : cmp x.key a = 0 ↔ cmp x.key b = 0 :=
        ⟨fun h1 => hh.trans _ _ _ h1 hab, fun h1 => hh.trans _ _ _ h1 (hh.symm _ _ hab)⟩
      by_cases h1 : cmp x.key a = 0
      · simp [h1, this.1 h1]
      · have h2 : ¬ cmp x.key b = 0 := fun h2 => h1 (this.2 h2)
        simp [h1, h2, ih]
    | tombstone => exact ih _

/-- Replacing a slot the probe steps over by another one it steps over does
not change the probe. -/
theorem find_set_pass (l : List (algokit_hash_lp_entry K V)) (c s s' p : Nat)
    (e : algokit_hash_lp_entry K V) (key : K) (hp : p < l.length)
    (h1 : hash_lp_passes cmp key (algokit_hash_lp_slot ⟨l, c, s⟩ p))
    (h2 : hash_lp_passes cmp key e) :
    ∀ (n h : Nat), algokit_hash_lp_find cmp ⟨l.set p e, c, s'⟩ key n h =
      algokit_hash_lp_find cmp ⟨l, c, s⟩ key n h := by
  intro n
  induction n with
  | zero => intro h; rfl
  | succ n ih =>
    intro h
    simp only [algokit_hash_lp_find]
    rw [slot_set l c s' p h e hp]
    by_cases hhp : h = p
    · subst hhp
      simp only [if_true]
      have hsl : algokit_hash_lp_slot ⟨l, c, s'⟩ h = algokit_hash_lp_slot ⟨l, c, s⟩ h := rfl
      cases hs : algokit_hash_lp_slot ⟨l, c, s⟩ h with
      | empty => rw [hs] at h1; exact absurd h1 (by simp [hash_lp_passes])
      | occupied x =>
        rw [hs] at h1
        simp only [hash_lp_passes] at h1
        cases e with
        | empty => exact absurd h2 (by simp [hash_lp_passes])
        | occupied y =>
          simp only [hash_lp_passes] at h2
          simp [h1, h2, ih]
        | tombstone => simp [h1, ih]
      | tombstone =>
        cases e with
        | empty => exact absurd h2 (by simp [hash_lp_passes])
        | occupied y =>
          simp only [hash_lp_passes] at h2
          simp [h2, ih]
        | tombstone => simp [ih]
    · simp only [hhp, if_false]
      have hsl : algokit_hash_lp_slot ⟨l, c, s'⟩ h = algokit_hash_lp_slot ⟨l, c, s⟩ h := rfl
      rw [hsl]
      cases algokit_hash_lp_slot ⟨l, c, s⟩ h with
      | empty => rfl
      | occupied x => simp only [ih]
      | tombstone => simp only [ih]

/-- Writing into an empty slot does not change a probe that found its key:
the probe stopped before it could reach an empty slot. -/
theorem find_set_empty (l : List (algokit_hash_lp_entry K V)) (c s s' p : Nat)
    (e : algokit_hash_lp_entry K V) (key : K) (hp : p < l.length)
    (h1 : algokit_hash_lp_slot ⟨l, c, s⟩ p = algokit_hash_lp_entry.empty) :
    ∀ (n h j : Nat) (it : Item K V),
      algokit_hash_lp_find cmp ⟨l, c, s⟩ key n h = some (some (j, it)) →
      algokit_hash_lp_find cmp ⟨l.set p e, c, s'⟩ key n h = some (some (j, it)) := by
  intro n
  induction n with
  | zero => intro h j it hf; simp [algokit_hash_lp_find] at hf
  | succ n ih =>
    intro h j it hf
    simp only [algokit_hash_lp_find] at hf ⊢
    rw [slot_set l c s' p h e hp]
    have hsl : algokit_hash_lp_slot ⟨l, c, s'⟩ h = algokit_hash_lp_slot ⟨l, c, s⟩ h := rfl
    by_cases hhp : h = p
    · subst hhp
      rw [h1] at hf
      simp at hf
    · simp only [hhp, if_false]
      rw [hsl]
      cases hs : algokit_hash_lp_slot ⟨l, c, s⟩ h with
      | empty => rw [hs] at hf; simp at hf
      | occupied x =>
        rw [hs] at hf
        simp only at hf ⊢
        split_ifs at hf ⊢ with hm
        · exact hf
        · exact ih _ j it hf
      | tombstone =>
        rw [hs] at hf
        exact ih _ j it hf

end hash_lp_lemmas

section hash_lp_put_lemmas
variable {K V : Type} {hash : K → Nat} {cmp : K → K → Int}

/-- Once a tombstone has been noted, `put_probe` can only choose it. -/
theorem put_probe_noted (t : algokit_hash_lp K V) (key : K) (f : Nat) :
    ∀ (n h p : Nat), algokit_hash_lp_put_probe cmp t key n h (some f) = some (some p) → p = f := by
  intro n
  induction n with
  | zero => intro h p hp; simp [algokit_hash_lp_put_probe] at hp
  | succ n ih =>
    intro h p hp
    simp only [algokit_hash_lp_put_probe] at hp
    cases hs : algokit_hash_lp_slot t h with
    | empty => rw [hs] at hp; simp at hp; exact hp.symm
    | occupied x =>
      rw [hs] at hp
      simp only at hp
      split_ifs at hp with hm
      · simp at hp
      · exact ih _ p hp
    | tombstone =>
      rw [hs] at hp
      exact ih _ p hp

/-- The slot `put_probe` chooses is inside the array and is empty or a
tombstone. -/
theorem put_probe_target (t : algokit_hash_lp K V) (key : K) (hc : 0 < t.capacity) :
    ∀ (n h p : Nat), h < t.capacity →
      algokit_hash_lp_put_probe cmp t key n h none = some (some p) →
      p < t.capacity ∧ (algokit_hash_lp_slot t p = algokit_hash_lp_entry.empty ∨
        algokit_hash_lp_slot t p = algokit_hash_lp_entry.tombstone) := by
  intro n
  induction n with
  | zero => intro h p _ hp; simp [algokit_hash_lp_put_probe] at hp
  | succ n ih =>
    intro h p hh hp
    simp only [algokit_hash_lp_put_probe] at hp
    cases hs : algokit_hash_lp_slot t h with
    | empty =>
      rw [hs] at hp
      simp only [Option.some.injEq] at hp
      subst hp
      exact ⟨hh, Or.inl hs⟩
    | occupied x =>
      rw [hs] at hp
      simp only at hp
      split_ifs at hp with hm
      · simp at hp
      · exact ih _ p (Nat.mod_lt _ hc) hp
    | tombstone =>
      rw [hs] at hp
      have := put_probe_noted t key h _ _ p hp
      subst this
      exact ⟨hh, Or.inr hs⟩

/-- When `put_probe` chooses a slot, the probe of `get` for the same key ends at
an empty slot: the key is not stored. -/
theorem put_probe_some_find (t : algokit_hash_lp K V) (key : K) :
    ∀ (n h p : Nat) (ft : Option Nat),
      algokit_hash_lp_put_probe cmp t key n h ft = some (some p) →
      algokit_hash_lp_find cmp t key n h = some none := by
  intro n
  induction n with
  | zero => intro h p ft hp; simp [algokit_hash_lp_put_probe] at hp
  | succ n ih =>
    intro h p ft hp
    simp only [algokit_hash_lp_put_probe] at hp
    simp only [algokit_hash_lp_find]
    cases hs : algokit_hash_lp_slot t h with
    | empty => rfl
    | occupied x =>
      rw [hs] at hp
      simp only at hp ⊢
      split_ifs at hp ⊢ with hm
      · simp at hp
      · exact ih _ p ft hp
    | tombstone =>
      rw [hs] at hp
      exact ih _ p _ hp

/-- When `put_probe` reports the key as present, an occupied slot with an
equal key exists. -/
theorem put_probe_none_stored (t : algokit_hash_lp K V) (key : K) :
    ∀ (n h : Nat) (ft : Option Nat),
      algokit_hash_lp_put_probe cmp t key n h ft = some none →
      ∃ y, hash_lp_stored t y ∧ cmp y.key key = 0 := by
  intro n
  induction n with
  | zero => intro h ft hp; simp [algokit_hash_lp_put_probe] at hp
  | succ n ih =>
    intro h ft hp
    simp only [algokit_hash_lp_put_probe] at hp
    cases hs : algokit_hash_lp_slot t h with
    | empty =>
      rw [hs] at hp
      cases ft <;> simp at hp
    | occupied x =>
      rw [hs] at hp
      simp only at hp
      split_ifs at hp with hm
      · exact ⟨x, ⟨h, hs⟩, hm⟩
      · exact ih _ ft hp
    | tombstone =>
      rw [hs] at hp
      exact ih _ _ hp

/-- After the item has been written to the slot `put_probe` chose, the probe
of `get` for its key arrives at that slot. -/
theorem find_after_put (hh : HashCmp hash cmp) (l : List (algokit_hash_lp_entry K V))
    (c s s' : Nat) (x : Item K V) (hl : l.length = c) (hc : 0 < c) :
    ∀ (n h p : Nat), h < c →
      algokit_hash_lp_put_probe cmp ⟨l, c, s⟩ x.key n h none = some (some p) →
      algokit_hash_lp_find cmp ⟨l.set p (algokit_hash_lp_entry.occupied x), c, s'⟩ x.key n h =
        some (some (p, x)) := by
  intro n
  induction n with
  | zero => intro h p _ hp; simp [algokit_hash_lp_put_probe] at hp
  | succ n ih =>
    intro h p hh' hp
    have htar := @put_probe_target K V cmp ⟨l, c, s⟩ x.key hc (n + 1) h p hh' hp
    have hpl : p < l.length := by rw [hl]; exact htar.1
    simp only [algokit_hash_lp_put_probe] at hp
    simp only [algokit_hash_lp_find]
    rw [slot_set l c s' p h _ hpl]
    have hsl : algokit_hash_lp_slot ⟨l, c, s'⟩ h = algokit_hash_lp_slot ⟨l, c, s⟩ h := rfl
    cases hs : algokit_hash_lp_slot ⟨l, c, s⟩ h with
    | empty =>
      rw [hs] at hp
      simp only [Option.some.injEq] at hp
      subst hp
      simp [hh.refl]
    | occupied y =>
      rw [hs] at hp
      simp only at hp
      split_ifs at hp with hm
      · simp at hp
      · have hne : h ≠ p := by
          intro he
          subst he
          rcases htar.2 with h1 | h1 <;> rw [hs] at h1 <;> simp at h1
        simp only [hne, if_false]
        rw [hsl, hs]
        simp only [hm, if_false]
        exact ih _ p (Nat.mod_lt _ hc) hp
    | tombstone =>
      rw [hs] at hp
      have := @put_probe_noted K V cmp ⟨l, c, s⟩ x.key h _ _ p hp
      subst this
      simp [hh.refl]

end hash_lp_put_lemmas

section hash_lp_put_spec
variable {K V : Type} {hash : K → Nat} {cmp : K → K → Int}

theorem slot_eq_occupied_iff (t : algokit_hash_lp K V) (j : Nat) (it : Item K V) :
    algokit_hash_lp_slot t j = algokit_hash_lp_entry.occupied it ↔
      t.entries[j]? = some (algokit_hash_lp_entry.occupied it) := by
  simp only [algokit_hash_lp_slot, List.getD_eq_getElem?_getD]
  cases t.entries[j]? <;> simp

theorem stored_iff_mem (t : algokit_hash_lp K V) (it : Item K V) :
    hash_lp_stored t it ↔ algokit_hash_lp_entry.occupied it ∈ t.entries := by
  simp only [hash_lp_stored, slot_eq_occupied_iff, List.mem_iff_getElem?]

theorem index_lt (t : algokit_hash_lp K V) (key : K) (hc : 0 < t.capacity) :
    algokit_hash_lp_index hash t key < t.capacity :=
  Nat.mod_lt _ hc

/-- In a table that satisfies the invariant no two slots hold keys that compare
equal. -/
theorem inv_slots_distinct (hh : HashCmp hash cmp) (t : algokit_hash_lp K V)
    (hinv : hash_lp_inv hash cmp t) (i j : Nat) (x y : Item K V)
    (hx : algokit_hash_lp_slot t i = algokit_hash_lp_entry.occupied x)
    (hy : algokit_hash_lp_slot t j = algokit_hash_lp_entry.occupied y)
    (hxy : cmp x.key y.key = 0) : i = j ∧ x = y := by
  have h1 := hinv.2.2 i x hx
  have h2 := hinv.2.2 j y hy
  have h3 : algokit_hash_lp_index hash t x.key = algokit_hash_lp_index hash t y.key := by
    simp only [algokit_hash_lp_index, hh.hash_eq _ _ hxy]
  rw [find_congr_key hh t _ _ hxy, h3, h2] at h1
  simp only [Option.some.injEq, Prod.mk.injEq] at h1
  exact ⟨h1.1.symm, h1.2.symm⟩

theorem inv_pairwise (hh : HashCmp hash cmp) (t : algokit_hash_lp K V)
    (hinv : hash_lp_inv hash cmp t) :
    t.entries.Pairwise (fun e1 e2 => ∀ x y, e1 = algokit_hash_lp_entry.occupied x →
      e2 = algokit_hash_lp_entry.occupied y → cmp x.key y.key ≠ 0) := by
  rw [List.pairwise_iff_getElem]
  intro i j hi hj hij x y hx hy hxy
  have h1 : algokit_hash_lp_slot t i = algokit_hash_lp_entry.occupied x := by
    rw [slot_eq_occupied_iff, List.getElem?_eq_getElem hi, hx]
  have h2 : algokit_hash_lp_slot t j = algokit_hash_lp_entry.occupied y := by
    rw [slot_eq_occupied_iff, List.getElem?_eq_getElem hj, hy]
  have := (inv_slots_distinct hh t hinv i j x y h1 h2 hxy).1
  omega

/-- The write of `put` into the slot chosen by its probe. -/
theorem put_write_post (hh : HashCmp hash cmp) (alloc_ok : Bool) (t : algokit_hash_lp K V)
    (hinv : hash_lp_inv hash cmp t) (x : Item K V) (p : Nat)
    (hp : algokit_hash_lp_put_probe cmp t x.key t.capacity
      (algokit_hash_lp_index hash t x.key) none = some (some p)) :
    hash_lp_put_post hash cmp alloc_ok t x 0
      ⟨t.entries.set p (algokit_hash_lp_entry.occupied x), t.capacity, t.size + 1⟩ := by
  obtain ⟨l, c, s⟩ := t
  obtain ⟨hl, hc, hfind⟩ := hinv
  simp only at hl hc hfind hp
  have hidx : ∀ k, algokit_hash_lp_index hash (⟨l, c, s⟩ : algokit_hash_lp K V) k < c :=
    fun k => Nat.mod_lt _ hc
  have htar := @put_probe_target K V cmp ⟨l, c, s⟩ x.key hc c _ p (hidx x.key) hp
  have hpl : p < l.length := by rw [hl]; exact htar.1
  have hnot := @put_probe_some_find K V cmp ⟨l, c, s⟩ x.key c _ p none hp
  refine ⟨⟨by simpa using hl, hc, ?_⟩, ?_, ?_, Or.inl rfl, ?_, ?_⟩
  · intro j it hj
    rw [slot_set l c (s + 1) p j _ hpl] at hj
    by_cases hjp : j = p
    · subst hjp
      simp only [if_true, algokit_hash_lp_entry.occupied.injEq] at hj
      subst hj
      exact find_after_put hh l c s (s + 1) x hl hc c _ j (hidx x.key) hp
    · simp only [hjp, if_false] at hj
      have hold := hfind j it hj
      have hne : cmp x.key it.key ≠ 0 := by
        intro he
        have e1 : algokit_hash_lp_index hash (⟨l, c, s⟩ : algokit_hash_lp K V) x.key =
            algokit_hash_lp_index hash (⟨l, c, s⟩ : algokit_hash_lp K V) it.key := by
          simp only [algokit_hash_lp_index, hh.hash_eq _ _ he]
        rw [find_congr_key hh _ _ _ he, e1, hold] at hnot
        simp at hnot
      have hidx_eq : algokit_hash_lp_index hash
          (⟨l.set p (algokit_hash_lp_entry.occupied x), c, s + 1⟩ : algokit_hash_lp K V) it.key =
          algokit_hash_lp_index hash (⟨l, c, s⟩ : algokit_hash_lp K V) it.key := rfl
      simp only [hidx_eq]
      rcases htar.2 with he | ht
      · exact find_set_empty l c s (s + 1) p _ it.key hpl he c _ j it hold
      · have hpass : hash_lp_passes cmp it.key (algokit_hash_lp_entry.occupied x) := hne
        rw [find_set_pass l c s (s + 1) p _ it.key hpl (by rw [ht]; trivial) hpass]
        exact hold
  · rintro it ⟨j, hj⟩
    refine ⟨j, ?_⟩
    rw [slot_set l c (s + 1) p j _ hpl]
    have hjp : j ≠ p := by
      intro he
      subst he
      rcases htar.2 with h1 | h1 <;> rw [hj] at h1 <;> simp at h1
    simp only [hjp, if_false]
    exact hj
  · rintro it ⟨j, hj⟩
    rw [slot_set l c (s + 1) p j _ hpl] at hj
    by_cases hjp : j = p
    · simp only [hjp, if_true, algokit_hash_lp_entry.occupied.injEq] at hj
      exact Or.inl hj.symm
    · simp only [hjp, if_false] at hj
      exact Or.inr ⟨j, hj⟩
  · intro _
    refine ⟨p, ?_⟩
    rw [slot_set l c (s + 1) p p _ hpl]
    simp
  · intro h; simp at h

end hash_lp_put_spec

section hash_lp_resize_spec
variable {K V : Type} {hash : K → Nat} {cmp : K → K → Int}

theorem resize_fold_none
    (putf : algokit_hash_lp K V → Item K V → Option (Int × algokit_hash_lp K V))
    (es : List (algokit_hash_lp_entry K V)) :
    es.foldl (algokit_hash_lp_resize_step putf) none = none := by
  induction es with
  | nil => rfl
  | cons e es ih => simpa [algokit_hash_lp_resize_step] using ih

/-- The loop of `resize`: re-inserting slots with pairwise different keys,
none of them stored yet, stores exactly them on top of what was there. -/
theorem resize_fold_spec (alloc_ok : Bool)
    (putf : algokit_hash_lp K V → Item K V → Option (Int × algokit_hash_lp K V))
    (hput : ∀ t x rc t', hash_lp_inv hash cmp t → putf t x = some (rc, t') →
      hash_lp_put_post hash cmp alloc_ok t x rc t')
    (halloc : alloc_ok = true) :
    ∀ (es : List (algokit_hash_lp_entry K V)) (acc t' : algokit_hash_lp K V),
      hash_lp_inv hash cmp acc →
      es.Pairwise (fun e1 e2 => ∀ x y, e1 = algokit_hash_lp_entry.occupied x →
        e2 = algokit_hash_lp_entry.occupied y → cmp x.key y.key ≠ 0) →
      (∀ x, hash_lp_stored acc x → ∀ y, algokit_hash_lp_entry.occupied y ∈ es →
        cmp x.key y.key ≠ 0) →
      es.foldl (algokit_hash_lp_resize_step putf) (some acc) = some t' →
      hash_lp_inv hash cmp t' ∧
      ∀ it, hash_lp_stored t' it ↔
        (hash_lp_stored acc it ∨ algokit_hash_lp_entry.occupied it ∈ es) := by
  intro es
  induction es with
  | nil =>
    intro acc t' hinv _ _ hf
    simp only [List.foldl_nil, Option.some.injEq] at hf
    subst hf
    exact ⟨hinv, fun it => by simp⟩
  | cons e es ih =>
    intro acc t' hinv hpw hnew hf
    rw [List.pairwise_cons] at hpw
    simp only [List.foldl_cons] at hf
    cases e with
    | empty =>
      simp only [algokit_hash_lp_resize_step] at hf
      obtain ⟨h1, h2⟩ := ih acc t' hinv hpw.2
        (fun x hx y hy => hnew x hx y (List.mem_cons_of_mem _ hy)) hf
      exact ⟨h1, fun it => by rw [h2 it]; simp⟩
    | tombstone =>
      simp only [algokit_hash_lp_resize_step] at hf
      obtain ⟨h1, h2⟩ := ih acc t' hinv hpw.2
        (fun x hx y hy => hnew x hx y (List.mem_cons_of_mem _ hy)) hf
      exact ⟨h1, fun it => by rw [h2 it]; simp⟩
    | occupied x =>
      simp only [algokit_hash_lp_resize_step] at hf
      cases hres : putf acc x with
      | none =>
        rw [hres] at hf
        simp only at hf
        rw [resize_fold_none] at hf
        simp at hf
      | some res =>
        obtain ⟨rc, acc'⟩ := res
        rw [hres] at hf
        simp only at hf
        obtain ⟨p1, p2, p3, p4, p5, p6⟩ := hput acc x rc acc' hinv hres
        have hrc : rc = 0 := by
          rcases p4 with h | h | h
          · exact h
          · exfalso
            obtain ⟨y, hy, hye⟩ := p6 h
            exact hnew y hy x (List.mem_cons_self _ _) hye
          · rw [halloc] at h; simp at h
        have hx := p5 hrc
        obtain ⟨h1, h2⟩ := ih acc' t' p1 hpw.2 (by
          intro z hz y hy
          rcases p3 z hz with rfl | hz'
          · exact hpw.1 _ hy z y rfl rfl
          · exact hnew z hz' y (List.mem_cons_of_mem _ hy)) hf
        refine ⟨h1, fun it => ?_⟩
        rw [h2 it]
        simp only [List.mem_cons, algokit_hash_lp_entry.occupied.injEq]
        constructor
        · rintro (h | h)
          · rcases p3 it h with rfl | h'
            · exact Or.inr (Or.inl rfl)
            · exact Or.inl h'
          · exact Or.inr (Or.inr h)
        · rintro (h | rfl | h)
          · exact Or.inl (p2 it h)
          · exact Or.inl hx
          · exact Or.inr h

theorem inv_fresh (c : Nat) (hc : 0 < c) :
    hash_lp_inv hash cmp
      (⟨List.replicate c algokit_hash_lp_entry.empty, c, 0⟩ : algokit_hash_lp K V) ∧
    ∀ it, ¬ hash_lp_stored
      (⟨List.replicate c algokit_hash_lp_entry.empty, c, 0⟩ : algokit_hash_lp K V) it := by
  have hno : ∀ j it, algokit_hash_lp_slot
      (⟨List.replicate c algokit_hash_lp_entry.empty, c, 0⟩ : algokit_hash_lp K V) j ≠
      algokit_hash_lp_entry.occupied it := by
    intro j it h
    rw [slot_eq_occupied_iff] at h
    simp only [List.getElem?_replicate] at h
    split_ifs at h
    simp at h
  refine ⟨⟨by simp, hc, fun j it h => absurd h (hno j it)⟩, ?_⟩
  rintro it ⟨j, hj⟩
  exact hno j it hj

/-- The function `resize` keeps the invariant and the stored pairs. -/
theorem resize_spec (hh : HashCmp hash cmp) (alloc_ok : Bool)
    (putf : algokit_hash_lp K V → Item K V → Option (Int × algokit_hash_lp K V))
    (hput : ∀ t x rc t', hash_lp_inv hash cmp t → putf t x = some (rc, t') →
      hash_lp_put_post hash cmp alloc_ok t x rc t')
    (t : algokit_hash_lp K V) (hinv : hash_lp_inv hash cmp t) (new_capacity : Nat)
    (hnc : 0 < new_capacity) (rc : Int) (t' : algokit_hash_lp K V)
    (hr : algokit_hash_lp_resize_with putf alloc_ok t new_capacity = some (rc, t')) :
    hash_lp_inv hash cmp t' ∧ (∀ it, hash_lp_stored t' it ↔ hash_lp_stored t it) ∧
    ((rc = 0 ∧ alloc_ok = true) ∨ (rc = -1 ∧ alloc_ok = false ∧ t' = t)) := by
  unfold algokit_hash_lp_resize_with at hr
  cases alloc_ok with
  | false =>
    simp only [if_true, Option.some.injEq, Prod.mk.injEq] at hr
    obtain ⟨rfl, rfl⟩ := hr
    exact ⟨hinv, fun it => Iff.rfl, Or.inr ⟨rfl, rfl, rfl⟩⟩
  | true =>
    simp only [Bool.true_eq_false, if_false] at hr
    rw [← hinv.1, List.take_length] at hr
    cases hfold : t.entries.foldl (algokit_hash_lp_resize_step putf)
        (some ⟨List.replicate new_capacity algokit_hash_lp_entry.empty, new_capacity, 0⟩) with
    | none => rw [hfold] at hr; simp at hr
    | some tn =>
      rw [hfold] at hr
      simp only [Option.some.injEq, Prod.mk.injEq] at hr
      obtain ⟨rfl, rfl⟩ := hr
      obtain ⟨f1, f2⟩ := @inv_fresh K V hash cmp new_capacity hnc
      obtain ⟨h1, h2⟩ := resize_fold_spec true putf hput rfl t.entries _ tn f1
        (inv_pairwise hh t hinv) (fun x hx => absurd hx (f2 x)) hfold
      refine ⟨h1, fun it => ?_, Or.inl ⟨rfl, rfl⟩⟩
      rw [h2 it]
      constructor
      · rintro (h | h)
        · exact absurd h (f2 it)
        · exact (stored_iff_mem t it).2 h
      · exact fun h => Or.inr ((stored_iff_mem t it).1 h)

end hash_lp_resize_spec

section hash_lp_op_spec
variable {K V : Type} {hash : K → Nat} {cmp : K → K → Int}

theorem put_post_of_same_stored (alloc_ok : Bool) (t t0 t' : algokit_hash_lp K V)
    (x : Item K V) (rc : Int) (hs : ∀ it, hash_lp_stored t0 it ↔ hash_lp_stored t it)
    (hp : hash_lp_put_post hash cmp alloc_ok t0 x rc t') :
    hash_lp_put_post hash cmp alloc_ok t x rc t' := by
  obtain ⟨p1, p2, p3, p4, p5, p6⟩ := hp
  refine ⟨p1, fun it h => p2 it ((hs it).2 h), ?_, p4, p5, ?_⟩
  · intro it h
    rcases p3 it h with h1 | h1
    · exact Or.inl h1
    · exact Or.inr ((hs it).1 h1)
  · intro h
    obtain ⟨y, hy, hye⟩ := p6 h
    exact ⟨y, (hs y).1 hy, hye⟩

/-- The probe and write of `put`, after its resize test. -/
theorem put_tail_post (hh : HashCmp hash cmp) (alloc_ok : Bool) (t : algokit_hash_lp K V)
    (hinv : hash_lp_inv hash cmp t) (x : Item K V) (rc : Int) (t' : algokit_hash_lp K V)
    (hr : (match algokit_hash_lp_put_probe cmp t x.key t.capacity
            (algokit_hash_lp_index hash t x.key) none with
          | none => none
          | some none => some (1, t)
          | some (some idx) =>
            some (0, (⟨t.entries.set idx (algokit_hash_lp_entry.occupied x), t.capacity,
              t.size + 1⟩ : algokit_hash_lp K V))) = some (rc, t')) :
    hash_lp_put_post hash cmp alloc_ok t x rc t' := by
  cases hp : algokit_hash_lp_put_probe cmp t x.key t.capacity
      (algokit_hash_lp_index hash t x.key) none with
  | none => rw [hp] at hr; simp at hr
  | some r =>
    rw [hp] at hr
    cases r with
    | none =>
      simp only [Option.some.injEq, Prod.mk.injEq] at hr
      obtain ⟨rfl, rfl⟩ := hr
      exact ⟨hinv, fun it h => h, fun it h => Or.inr h, Or.inr (Or.inl rfl),
        fun h => by simp at h, fun _ => put_probe_none_stored t x.key _ _ _ hp⟩
    | some p =>
      simp only [Option.some.injEq, Prod.mk.injEq] at hr
      obtain ⟨rfl, rfl⟩ := hr
      exact put_write_post hh alloc_ok t hinv x p hp

/-- A call of `put` that returns keeps the invariant, keeps every stored pair,
adds at most the new pair, and reports by its result code whether it stored
the pair. -/
theorem put_fuel_spec (hh : HashCmp hash cmp) (alloc_ok : Bool) :
    ∀ (d : Nat) (t : algokit_hash_lp K V) (x : Item K V) (rc : Int) (t' : algokit_hash_lp K V),
      hash_lp_inv hash cmp t →
      algokit_hash_lp_put_fuel hash cmp alloc_ok d t x = some (rc, t') →
      hash_lp_put_post hash cmp alloc_ok t x rc t' := by
  intro d
  induction d with
  | zero => intro t x rc t' _ hr; simp [algokit_hash_lp_put_fuel] at hr
  | succ d ih =>
    intro t x rc t' hinv hr
    simp only [algokit_hash_lp_put_fuel] at hr
    by_cases hchk : (t.size + 1) * 10 ≥ t.capacity * 7
    · simp only [hchk, if_true] at hr
      cases hres : algokit_hash_lp_resize_with (algokit_hash_lp_put_fuel hash cmp alloc_ok d)
          alloc_ok t (t.capacity * 2) with
      | none => rw [hres] at hr; simp at hr
      | some res =>
        obtain ⟨rc0, t0⟩ := res
        rw [hres] at hr
        simp only at hr
        have hpos : 0 < t.capacity * 2 := by have := hinv.2.1; omega
        obtain ⟨r1, r2, r3⟩ := resize_spec hh alloc_ok _ ih t hinv _ hpos rc0 t0 hres
        rcases r3 with ⟨rfl, -⟩ | ⟨rfl, ha, rfl⟩
        · simp only [ne_eq, not_true_eq_false, if_false] at hr
          exact put_post_of_same_stored alloc_ok t t0 t' x rc r2
            (put_tail_post hh alloc_ok t0 r1 x rc t' hr)
        · simp only [ne_eq, Int.reduceNeg, Int.neg_eq_zero, one_ne_zero, not_false_eq_true,
            if_true, Option.some.injEq, Prod.mk.injEq] at hr
          obtain ⟨rfl, rfl⟩ := hr
          exact ⟨hinv, fun it h => h, fun it h => Or.inr h, Or.inr (Or.inr ⟨rfl, ha⟩),
            fun h => by simp at h, fun h => by simp at h⟩
    · simp only [hchk, if_false, ne_eq, not_true_eq_false] at hr
      exact put_tail_post hh alloc_ok t hinv x rc t' hr

/-- A call of `delete` that returns keeps the invariant and every stored pair
whose key does not compare equal to the deleted key, and stores nothing new. -/
theorem delete_spec (hh : HashCmp hash cmp) (alloc_ok : Bool) (t : algokit_hash_lp K V)
    (key : K) (rc : Int) (out : Option (Item K V)) (t' : algokit_hash_lp K V)
    (hinv : hash_lp_inv hash cmp t)
    (hr : algokit_hash_lp_delete hash cmp alloc_ok t key = some (rc, out, t')) :
    hash_lp_inv hash cmp t' ∧
    (∀ it, hash_lp_stored t it → cmp it.key key ≠ 0 → hash_lp_stored t' it) ∧
    (∀ it, hash_lp_stored t' it → hash_lp_stored t it) := by
  unfold algokit_hash_lp_delete at hr
  cases hf : algokit_hash_lp_find cmp t key t.capacity (algokit_hash_lp_index hash t key) with
  | none => rw [hf] at hr; simp at hr
  | some r =>
    rw [hf] at hr
    cases r with
    | none =>
      simp only [Option.some.injEq, Prod.mk.injEq] at hr
      obtain ⟨-, -, rfl⟩ := hr
      exact ⟨hinv, fun it h _ => h, fun it h => h⟩
    | some found =>
      obtain ⟨idx, it0⟩ := found
      simp only at hr
      obtain ⟨hslot, hkey⟩ := find_some_spec t key _ _ idx it0 hf
      have hil : idx < t.entries.length := slot_occupied_lt hslot
      obtain ⟨l, c, s⟩ := t
      simp only at hil hslot hr
      obtain ⟨hl, hc, hfind⟩ := hinv
      simp only at hl hc hfind
      -- the table with the tombstone written
      have hinv1 : hash_lp_inv hash cmp
          (⟨l.set idx algokit_hash_lp_entry.tombstone, c, s - 1⟩ : algokit_hash_lp K V) := by
        refine ⟨by simpa using hl, hc, ?_⟩
        intro j it hj
        rw [slot_set l c (s - 1) idx j _ hil] at hj
        by_cases hji : j = idx
        · simp [hji] at hj
        · simp only [hji, if_false] at hj
          have hne : cmp it0.key it.key ≠ 0 := by
            intro he
            have := (inv_slots_distinct hh ⟨l, c, s⟩ ⟨hl, hc, hfind⟩ idx j it0 it hslot hj he).1
            exact hji this.symm
          have hpass : hash_lp_passes cmp it.key (algokit_hash_lp_slot ⟨l, c, s⟩ idx) := by
            rw [hslot]; exact hne
          have hidx_eq : algokit_hash_lp_index hash
              (⟨l.set idx algokit_hash_lp_entry.tombstone, c, s - 1⟩ : algokit_hash_lp K V)
              it.key = algokit_hash_lp_index hash (⟨l, c, s⟩ : algokit_hash_lp K V) it.key := rfl
          simp only [hidx_eq]
          have hpass2 : hash_lp_passes cmp it.key
              (algokit_hash_lp_entry.tombstone : algokit_hash_lp_entry K V) := trivial
          rw [find_set_pass l c s (s - 1) idx _ it.key hil hpass hpass2]
          exact hfind j it hj
      have hkeep1 : ∀ it, hash_lp_stored (⟨l, c, s⟩ : algokit_hash_lp K V) it →
          cmp it.key key ≠ 0 → hash_lp_stored
            (⟨l.set idx algokit_hash_lp_entry.tombstone, c, s - 1⟩ : algokit_hash_lp K V) it := by
        rintro it ⟨j, hj⟩ hne
        refine ⟨j, ?_⟩
        rw [slot_set l c (s - 1) idx j _ hil]
        have hji : j ≠ idx := by
          intro he
          subst he
          rw [hslot] at hj
          simp only [algokit_hash_lp_entry.occupied.injEq] at hj
          subst hj
          exact hne hkey
        simp only [hji, if_false]
        exact hj
      have hsub1 : ∀ it, hash_lp_stored
          (⟨l.set idx algokit_hash_lp_entry.tombstone, c, s - 1⟩ : algokit_hash_lp K V) it →
          hash_lp_stored (⟨l, c, s⟩ : algokit_hash_lp K V) it := by
        rintro it ⟨j, hj⟩
        rw [slot_set l c (s - 1) idx j _ hil] at hj
        by_cases hji : j = idx
        · simp [hji] at hj
        · simp only [hji, if_false] at hj
          exact ⟨j, hj⟩
      by_cases hshrink : c > 8 ∧ (s - 1) * 10 ≤ c * 2
      · simp only [hshrink, and_self, if_true] at hr
        cases hres : algokit_hash_lp_resize_with (algokit_hash_lp_put_fuel hash cmp alloc_ok 3)
            alloc_ok (⟨l.set idx algokit_hash_lp_entry.tombstone, c, s - 1⟩ : algokit_hash_lp K V)
            (c / 2) with
        | none => rw [hres] at hr; simp at hr
        | some res =>
          obtain ⟨rc0, t0⟩ := res
          rw [hres] at hr
          simp only [Option.some.injEq, Prod.mk.injEq] at hr
          obtain ⟨-, -, rfl⟩ := hr
          have hpos : 0 < c / 2 := by omega
          obtain ⟨r1, r2, -⟩ := resize_spec hh alloc_ok _ (put_fuel_spec hh alloc_ok 3) _ hinv1 _
            hpos rc0 t0 hres
          exact ⟨r1, fun it h hne => (r2 it).2 (hkeep1 it h hne),
            fun it h => hsub1 it ((r2 it).1 h)⟩
      · simp only [hshrink, if_false, Option.some.injEq, Prod.mk.injEq] at hr
        obtain ⟨-, -, rfl⟩ := hr
        exact ⟨hinv1, hkeep1, hsub1⟩

/-- A stored pair is what `get` returns for its key. -/
theorem get_of_stored (t : algokit_hash_lp K V) (hinv : hash_lp_inv hash cmp t)
    (it : Item K V) (hs : hash_lp_stored t it) :
    algokit_hash_lp_get hash cmp t it.key = some (0, some it) := by
  obtain ⟨j, hj⟩ := hs
  simp only [algokit_hash_lp_get, algokit_hash_lp_get_fuel, hinv.2.2 j it hj]

theorem create_inv (alloc_ok : Bool) (capacity : Nat) (t : algokit_hash_lp K V)
    (hc : algokit_hash_lp_create alloc_ok capacity = some t) : hash_lp_inv hash cmp t := by
  unfold algokit_hash_lp_create at hc
  split_ifs at hc with h
  simp only [Option.some.injEq] at hc
  subst hc
  exact (inv_fresh capacity (by omega)).1

/-- A sequence of calls that all return keeps the invariant, and keeps a
stored pair as long as no call deletes a key comparing equal to its key. -/
theorem run_spec (hh : HashCmp hash cmp) (ops : List (hash_lp_op K V)) :
    ∀ (t t' : algokit_hash_lp K V), hash_lp_inv hash cmp t →
      hash_lp_run hash cmp t ops = some t' →
      hash_lp_inv hash cmp t' ∧
      ∀ it, hash_lp_stored t it →
        (∀ op ∈ ops, hash_lp_op_keeps cmp it.key op) → hash_lp_stored t' it := by
  induction ops with
  | nil =>
    intro t t' hinv hr
    simp only [hash_lp_run, Option.some.injEq] at hr
    subst hr
    exact ⟨hinv, fun it h _ => h⟩
  | cons op ops ih =>
    intro t t' hinv hr
    simp only [hash_lp_run] at hr
    cases hstep : hash_lp_step hash cmp t op with
    | none => rw [hstep] at hr; simp at hr
    | some t1 =>
      rw [hstep] at hr
      simp only at hr
      cases op with
      | put a x =>
        simp only [hash_lp_step, Option.map_eq_some', Prod.exists, exists_eq_right] at hstep
        obtain ⟨rc, hput⟩ := hstep
        obtain ⟨p1, p2, -⟩ := put_fuel_spec hh a 4 t x rc t1 hinv hput
        obtain ⟨i1, i2⟩ := ih t1 t' p1 hr
        exact ⟨i1, fun it h hnd => i2 it (p2 it h)
          (fun op hk => hnd op (List.mem_cons_of_mem _ hk))⟩
      | delete a k =>
        simp only [hash_lp_step, Option.map_eq_some', Prod.exists, exists_eq_right] at hstep
        obtain ⟨rc, out, hdel⟩ := hstep
        obtain ⟨d1, d2, -⟩ := delete_spec hh a t k rc out t1 hinv hdel
        obtain ⟨i1, i2⟩ := ih t1 t' d1 hr
        exact ⟨i1, fun it h hnd => i2 it (d2 it h (hnd _ (List.mem_cons_self _ _)))
          (fun op hk => hnd op (List.mem_cons_of_mem _ hk))⟩

end hash_lp_op_spec

section hash_lp_divergence
variable {K V : Type} {hash : K → Nat} {cmp : K → K → Int}

/-- In a table without an empty slot the probe for a key that no occupied slot
holds never stops, whatever bound on the number of visited slots is given. -/
theorem find_diverges (t : algokit_hash_lp K V) (key : K) (hc : 0 < t.capacity)
    (hall : ∀ j, j < t.capacity → hash_lp_passes cmp key (algokit_hash_lp_slot t j)) :
    ∀ (n h : Nat), h < t.capacity → algokit_hash_lp_find cmp t key n h = none := by
  intro n
  induction n with
  | zero => intro h _; rfl
  | succ n ih =>
    intro h hh
    have hp := hall h hh
    simp only [algokit_hash_lp_find]
    cases hs : algokit_hash_lp_slot t h with
    | empty => rw [hs] at hp; exact absurd hp (fun h => h)
    | occupied x =>
      rw [hs] at hp
      simp only [hash_lp_passes] at hp
      simp only [hp, if_false]
      exact ih _ (Nat.mod_lt _ hc)
    | tombstone => exact ih _ (Nat.mod_lt _ hc)

theorem get_fuel_diverges (t : algokit_hash_lp K V) (key : K) (hc : 0 < t.capacity)
    (hall : ∀ j, j < t.capacity → hash_lp_passes cmp key (algokit_hash_lp_slot t j))
    (fuel : Nat) : algokit_hash_lp_get_fuel hash cmp fuel t key = none := by
  rw [algokit_hash_lp_get_fuel, find_diverges t key hc hall fuel _ (index_lt t key hc)]

theorem int_hash_cmp : HashCmp int_hash int_cmp := by
  have hz : ∀ a b : Int, int_cmp a b = 0 ↔ a = b := by
    intro a b; unfold int_cmp; split_ifs <;> omega
  constructor
  · intro a; exact (hz a a).2 rfl
  · intro a b h; exact (hz b a).2 ((hz a b).1 h).symm
  · intro a b c h1 h2; exact (hz a c).2 (((hz a b).1 h1).trans ((hz b c).1 h2))
  · intro a b h; rw [(hz a b).1 h]

end hash_lp_divergence

section hash_lp_fuel
variable {K V : Type} {hash : K → Nat} {cmp : K → K → Int}

theorem find_none_passes (t : algokit_hash_lp K V) (key : K) (hc : 0 < t.capacity) :
    ∀ (n h : Nat), h < t.capacity → algokit_hash_lp_find cmp t key n h = none →
      ∀ i, i < n → hash_lp_passes cmp key (algokit_hash_lp_slot t ((h + i) % t.capacity)) := by
  intro n
  induction n with
  | zero => intro h _ _ i hi; omega
  | succ n ih =>
    intro h hh hf i hi
    simp only [algokit_hash_lp_find] at hf
    have hstep : algokit_hash_lp_find cmp t key n ((h + 1) % t.capacity) = none ∧
        hash_lp_passes cmp key (algokit_hash_lp_slot t h) := by
      cases hs : algokit_hash_lp_slot t h with
      | empty => rw [hs] at hf; simp at hf
      | occupied x =>
        rw [hs] at hf
        simp only at hf
        split_ifs at hf with hm
        exact ⟨hf, hm⟩
      | tombstone =>
        rw [hs] at hf
        exact ⟨hf, trivial⟩
    rcases i with _ | i
    · simpa [Nat.mod_eq_of_lt hh] using hstep.2
    · have := ih _ (Nat.mod_lt _ hc) hstep.1 i (by omega)
      rw [Nat.mod_add_mod] at this
      rwa [show h + (i + 1) = h + 1 + i by omega]

/-- The bound `capacity` on the probe of `get` is exact: a probe that has not
stopped after `capacity` slots has stepped over every slot of the array and
does not stop under any larger bound either. -/
theorem get_none_forever (t : algokit_hash_lp K V) (key : K) (hc : 0 < t.capacity)
    (hg : algokit_hash_lp_get hash cmp t key = none) (fuel : Nat) :
    algokit_hash_lp_get_fuel hash cmp fuel t key = none := by
  have hidx := @index_lt K V hash t key hc
  have hf : algokit_hash_lp_find cmp t key t.capacity (algokit_hash_lp_index hash t key) = none := by
    simp only [algokit_hash_lp_get, algokit_hash_lp_get_fuel] at hg
    cases hfind : algokit_hash_lp_find cmp t key t.capacity (algokit_hash_lp_index hash t key) with
    | none => rfl
    | some r =>
      rw [hfind] at hg
      rcases r with _ | ⟨j, it⟩ <;> simp at hg
  have hp := find_none_passes t key hc _ _ hidx hf
  apply get_fuel_diverges t key hc
  intro j hj
  have key_eq : (algokit_hash_lp_index hash t key +
      (j + t.capacity - algokit_hash_lp_index hash t key) % t.capacity) % t.capacity = j := by
    generalize algokit_hash_lp_index hash t key = h at hidx
    by_cases hjh : h ≤ j
    · have e1 : (j + t.capacity - h) % t.capacity = j - h := by
        rw [show j + t.capacity - h = (j - h) + t.capacity by omega, Nat.add_mod_right,
          Nat.mod_eq_of_lt (by omega)]
      rw [e1, show h + (j - h) = j by omega, Nat.mod_eq_of_lt hj]
    · have e1 : (j + t.capacity - h) % t.capacity = j + t.capacity - h :=
        Nat.mod_eq_of_lt (by omega)
      rw [e1, show h + (j + t.capacity - h) = j + t.capacity by omega, Nat.add_mod_right,
        Nat.mod_eq_of_lt hj]
  have := hp ((j + t.capacity - algokit_hash_lp_index hash t key) % t.capacity)
    (Nat.mod_lt _ hc)
  rwa [key_eq] at this

/-- A larger bound does not change the result of a probe that stopped. -/
theorem find_fuel_mono (t : algokit_hash_lp K V) (key : K) :
    ∀ (n h : Nat) (r : Option (Nat × Item K V)),
      algokit_hash_lp_find cmp t key n h = some r →
      algokit_hash_lp_find cmp t key (n + 1) h = some r := by
  intro n
  induction n with
  | zero => intro h r hf; simp [algokit_hash_lp_find] at hf
  | succ n ih =>
    intro h r hf
    rw [algokit_hash_lp_find] at hf ⊢
    cases hs : algokit_hash_lp_slot t h with
    | empty => rw [hs] at hf; exact hf
    | occupied x =>
      rw [hs] at hf
      simp only at hf ⊢
      split_ifs at hf ⊢ with hm
      · exact hf
      · exact ih _ r hf
    | tombstone =>
      rw [hs] at hf
      exact ih _ r hf

end hash_lp_fuel

/-! ## Red-black tree: the properties of the ordered map -/

section rb_claims
variable {K V : Type} {cmp : K → K → Int}

/-- C1: for every finite sequence of items inserted into an empty tree (the
comparator ordering the keys, every allocation succeeding), the in-order
traversal visits the stored keys in strictly ascending comparator order, and
the number of visited pairs equals the number of distinct keys of the
sequence. -/
theorem rbtree_inorder_ascending_distinct (hc : CmpOrder cmp) (items : List (Item K V)) :
    keys_ascending cmp (algokit_rbtree_traverse_inorder (insert_all cmp items)) ∧
    (algokit_rbtree_traverse_inorder (insert_all cmp items)).length =
      (distinct_keys cmp items).length := by
  obtain ⟨h1, h2⟩ := insert_fold_invariant hc items algokit_rbtree_create []
    rbtree_valid_create rfl (by simp [algokit_rbtree_create])
  simp only [algokit_rbtree_traverse_inorder, traverse_node_inorder, insert_all, distinct_keys]
  exact ⟨h1.1, h2⟩

theorem rbtree_inorder_ascending_distinct_witness :
    keys_ascending int_cmp (algokit_rbtree_traverse_inorder (insert_all int_cmp
      [(⟨5, 50⟩ : Item Int Int), ⟨2, 20⟩, ⟨8, 80⟩, ⟨2, 21⟩, ⟨1, 10⟩, ⟨3, 30⟩, ⟨5, 51⟩])) ∧
    (algokit_rbtree_traverse_inorder (insert_all int_cmp
      [(⟨5, 50⟩ : Item Int Int), ⟨2, 20⟩, ⟨8, 80⟩, ⟨2, 21⟩, ⟨1, 10⟩, ⟨3, 30⟩, ⟨5, 51⟩])).length =
      (distinct_keys int_cmp
        [(⟨5, 50⟩ : Item Int Int), ⟨2, 20⟩, ⟨8, 80⟩, ⟨2, 21⟩, ⟨1, 10⟩, ⟨3, 30⟩, ⟨5, 51⟩]).length :=
  rbtree_inorder_ascending_distinct int_cmp_order _

/-- C2: `algokit_rbtree_insert` preserves the left-leaning red-black
invariants (search-tree order without duplicate keys, no red right link, no
red node with a red child, equal black height on all paths, black root), for
every valid tree and every item, whether the allocation succeeds or not. -/
theorem rbtree_insert_preserves_invariants (hc : CmpOrder cmp) (alloc_ok : Bool)
    (tree : algokit_rbtree K V) (item : Item K V) (hv : rbtree_valid cmp tree) :
    rbtree_valid cmp (algokit_rbtree_insert cmp alloc_ok tree item).2 :=
  rbtree_insert_valid hc alloc_ok tree hv item

theorem rbtree_insert_preserves_invariants_witness :
    rbtree_valid int_cmp (insert_all int_cmp [(⟨5, 50⟩ : Item Int Int), ⟨2, 20⟩, ⟨8, 80⟩]) ∧
    rbtree_valid int_cmp (algokit_rbtree_insert int_cmp true
      (insert_all int_cmp [(⟨5, 50⟩ : Item Int Int), ⟨2, 20⟩, ⟨8, 80⟩]) ⟨1, 10⟩).2 :=
  ⟨by decide, rbtree_insert_preserves_invariants int_cmp_order true _ _ (by decide)⟩

/-- C3: `algokit_rbtree_remove` returns and preserves the left-leaning
red-black invariants, for every valid tree and every key, stored or not: the
tree after the call has search-tree order, no red right link, no red node
with a red child, equal black height on all paths, and a black root (or is
empty). -/
theorem rbtree_remove_preserves_invariants (hc : CmpOrder cmp) (tree : algokit_rbtree K V)
    (key : K) (hv : rbtree_valid cmp tree) :
    ∃ rc out tree', algokit_rbtree_remove cmp tree key = some (rc, out, tree') ∧
      rbtree_valid cmp tree' := by
  obtain ⟨out, tree', e, hv', -, -⟩ := rbtree_remove_spec hc tree hv key
  exact ⟨_, out, tree', e, hv'⟩

theorem rbtree_remove_preserves_invariants_witness :
    rbtree_valid int_cmp (insert_all int_cmp
      [(⟨5, 50⟩ : Item Int Int), ⟨2, 20⟩, ⟨8, 80⟩, ⟨1, 10⟩, ⟨3, 30⟩]) ∧
    ∃ rc out tree', algokit_rbtree_remove int_cmp (insert_all int_cmp
      [(⟨5, 50⟩ : Item Int Int), ⟨2, 20⟩, ⟨8, 80⟩, ⟨1, 10⟩, ⟨3, 30⟩]) 8 = some (rc, out, tree') ∧
      rbtree_valid int_cmp tree' :=
  ⟨by decide, rbtree_remove_preserves_invariants int_cmp_order _ 8 (by decide)⟩

/-- C4: for every valid tree that stores a pair `x` under a key comparing
equal to `key`, `algokit_rbtree_remove` returns 0 and outputs exactly `x`, and
the in-order sequence afterwards is the previous one with that one pair
deleted and every other pair kept. -/
theorem rbtree_remove_stored (hc : CmpOrder cmp) (tree : algokit_rbtree K V) (key : K)
    (x : Item K V) (hv : rbtree_valid cmp tree)
    (hx : x ∈ algokit_rbtree_traverse_inorder tree) (hk : cmp key x.key = 0) :
    ∃ tree', algokit_rbtree_remove cmp tree key = some (0, some x, tree') ∧
      ∃ pre post, algokit_rbtree_traverse_inorder tree = pre ++ x :: post ∧
        algokit_rbtree_traverse_inorder tree' = pre ++ post := by
  simp only [algokit_rbtree_traverse_inorder, traverse_node_inorder] at hx ⊢
  obtain ⟨out, tree', e, -, hi, ho⟩ := rbtree_remove_spec hc tree hv key
  obtain ⟨pre, post, e1, e2, e3⟩ := split_at_stored hc key x _ hv.1 hx hk
  rw [e3] at ho
  subst ho
  exact ⟨tree', e, pre, post, e1, by rw [hi, e2]⟩

theorem rbtree_remove_stored_witness :
    (rbtree_valid int_cmp (insert_all int_cmp
        [(⟨5, 50⟩ : Item Int Int), ⟨2, 20⟩, ⟨8, 80⟩, ⟨1, 10⟩, ⟨3, 30⟩]) ∧
      (⟨2, 20⟩ : Item Int Int) ∈ algokit_rbtree_traverse_inorder (insert_all int_cmp
        [(⟨5, 50⟩ : Item Int Int), ⟨2, 20⟩, ⟨8, 80⟩, ⟨1, 10⟩, ⟨3, 30⟩]) ∧
      int_cmp 2 (⟨2, 20⟩ : Item Int Int).key = 0) ∧
    (∃ tree', algokit_rbtree_remove int_cmp (insert_all int_cmp
        [(⟨5, 50⟩ : Item Int Int), ⟨2, 20⟩, ⟨8, 80⟩, ⟨1, 10⟩, ⟨3, 30⟩]) 2 =
        some (0, some ⟨2, 20⟩, tree') ∧
      ∃ pre post, algokit_rbtree_traverse_inorder (insert_all int_cmp
          [(⟨5, 50⟩ : Item Int Int), ⟨2, 20⟩, ⟨8, 80⟩, ⟨1, 10⟩, ⟨3, 30⟩]) = pre ++ ⟨2, 20⟩ :: post ∧
        algokit_rbtree_traverse_inorder tree' = pre ++ post) ∧
    (algokit_rbtree_remove int_cmp (insert_all int_cmp
        [(⟨5, 50⟩ : Item Int Int), ⟨2, 20⟩, ⟨8, 80⟩, ⟨1, 10⟩, ⟨3, 30⟩]) 2).map
      (fun res => algokit_rbtree_traverse_inorder res.2.2) =
      some [⟨1, 10⟩, ⟨3, 30⟩, ⟨5, 50⟩, ⟨8, 80⟩] :=
  ⟨⟨by decide, by decide, by decide⟩,
    rbtree_remove_stored int_cmp_order _ 2 ⟨2, 20⟩ (by decide) (by decide) (by decide),
    by decide⟩

end rb_claims

section rb_claims_2
variable {K V : Type} {cmp : K → K → Int}

/-- C5: round trip.  For every tree reachable by inserts and removes and every
item whose key is not stored, `algokit_rbtree_insert` (its allocation
succeeding) returns 0 and `algokit_rbtree_search` of the key then returns 0
with exactly that item; a following `algokit_rbtree_remove` of the key returns
0 with that item, after which `algokit_rbtree_search` of the key returns 1. -/
theorem rbtree_insert_search_remove_round_trip (hc : CmpOrder cmp) (tree : algokit_rbtree K V)
    (item : Item K V) (hr : rbtree_reachable cmp tree)
    (habs : ∀ x ∈ algokit_rbtree_traverse_inorder tree, cmp item.key x.key ≠ 0) :
    (algokit_rbtree_insert cmp true tree item).1 = 0 ∧
    algokit_rbtree_search cmp (algokit_rbtree_insert cmp true tree item).2 item.key =
      (0, some item) ∧
    ∃ tree', algokit_rbtree_remove cmp (algokit_rbtree_insert cmp true tree item).2 item.key =
        some (0, some item, tree') ∧
      algokit_rbtree_search cmp tree' item.key = (1, none) := by
  simp only [algokit_rbtree_traverse_inorder, traverse_node_inorder] at habs
  have hv := rbtree_reachable_valid hc tree hr
  obtain ⟨v1, v2, v3⟩ := rbtree_insert_spec hc tree hv item
  have hfind := find_list_insert_absent hc item _ habs
  obtain ⟨out, tree', e, hv', hi, ho⟩ := rbtree_remove_spec hc _ v1 item.key
  rw [v2, hfind] at ho
  subst ho
  refine ⟨?_, ?_, tree', e, ?_⟩
  · rw [v3, if_pos ((insert_node_inorder hc item tree.root hv.1).2.2 habs)]
  · rw [rbtree_search_eq hc _ v1, v2, hfind]
  · rw [rbtree_search_eq hc _ hv', hi, find_filter_ne]

theorem rbtree_insert_search_remove_round_trip_witness :
    (rbtree_reachable int_cmp (algokit_rbtree_insert int_cmp true
        (algokit_rbtree_create : algokit_rbtree Int Int) ⟨5, 50⟩).2 ∧
      ∀ x ∈ algokit_rbtree_traverse_inorder (algokit_rbtree_insert int_cmp true
        (algokit_rbtree_create : algokit_rbtree Int Int) ⟨5, 50⟩).2,
        int_cmp (⟨2, 20⟩ : Item Int Int).key x.key ≠ 0) ∧
    ((algokit_rbtree_insert int_cmp true (algokit_rbtree_insert int_cmp true
        (algokit_rbtree_create : algokit_rbtree Int Int) ⟨5, 50⟩).2 ⟨2, 20⟩).1 = 0 ∧
      algokit_rbtree_search int_cmp (algokit_rbtree_insert int_cmp true
        (algokit_rbtree_insert int_cmp true
          (algokit_rbtree_create : algokit_rbtree Int Int) ⟨5, 50⟩).2 ⟨2, 20⟩).2
        (⟨2, 20⟩ : Item Int Int).key = (0, some ⟨2, 20⟩) ∧
      ∃ tree', algokit_rbtree_remove int_cmp (algokit_rbtree_insert int_cmp true
          (algokit_rbtree_insert int_cmp true
            (algokit_rbtree_create : algokit_rbtree Int Int) ⟨5, 50⟩).2 ⟨2, 20⟩).2
          (⟨2, 20⟩ : Item Int Int).key = some (0, some ⟨2, 20⟩, tree') ∧
        algokit_rbtree_search int_cmp tree' (⟨2, 20⟩ : Item Int Int).key = (1, none)) :=
  ⟨⟨rbtree_reachable.insert true _ _ rbtree_reachable.create, by decide⟩,
    rbtree_insert_search_remove_round_trip int_cmp_order _ ⟨2, 20⟩
      (rbtree_reachable.insert true _ _ rbtree_reachable.create) (by decide)⟩

/-- C6: for every valid tree and every key that is not stored in it,
`algokit_rbtree_remove` returns 1 without writing `*out`, and the stored
content is as before the call: the in-order sequence of pairs and the result
of `algokit_rbtree_search` for every key are unchanged. -/
theorem rbtree_remove_absent (hc : CmpOrder cmp) (tree : algokit_rbtree K V) (key : K)
    (hv : rbtree_valid cmp tree)
    (habs : ∀ x ∈ algokit_rbtree_traverse_inorder tree, cmp key x.key ≠ 0) :
    ∃ tree', algokit_rbtree_remove cmp tree key = some (1, none, tree') ∧
      algokit_rbtree_traverse_inorder tree' = algokit_rbtree_traverse_inorder tree ∧
      ∀ k, algokit_rbtree_search cmp tree' k = algokit_rbtree_search cmp tree k := by
  simp only [algokit_rbtree_traverse_inorder, traverse_node_inorder] at habs ⊢
  obtain ⟨out, tree', e, hv', hi, ho⟩ := rbtree_remove_spec hc tree hv key
  rw [find_eq_none cmp key _ habs] at ho
  subst ho
  rw [filter_ne_self cmp key _ habs] at hi
  refine ⟨tree', e, hi, ?_⟩
  intro k
  rw [rbtree_search_eq hc _ hv', rbtree_search_eq hc _ hv, hi]

theorem rbtree_remove_absent_witness :
    (rbtree_valid int_cmp (insert_all int_cmp
        [(⟨5, 50⟩ : Item Int Int), ⟨2, 20⟩, ⟨8, 80⟩, ⟨1, 10⟩, ⟨3, 30⟩]) ∧
      ∀ x ∈ algokit_rbtree_traverse_inorder (insert_all int_cmp
        [(⟨5, 50⟩ : Item Int Int), ⟨2, 20⟩, ⟨8, 80⟩, ⟨1, 10⟩, ⟨3, 30⟩]), int_cmp 4 x.key ≠ 0) ∧
    ∃ tree', algokit_rbtree_remove int_cmp (insert_all int_cmp
        [(⟨5, 50⟩ : Item Int Int), ⟨2, 20⟩, ⟨8, 80⟩, ⟨1, 10⟩, ⟨3, 30⟩]) 4 = some (1, none, tree') ∧
      algokit_rbtree_traverse_inorder tree' = algokit_rbtree_traverse_inorder (insert_all int_cmp
        [(⟨5, 50⟩ : Item Int Int), ⟨2, 20⟩, ⟨8, 80⟩, ⟨1, 10⟩, ⟨3, 30⟩]) ∧
      ∀ k, algokit_rbtree_search int_cmp tree' k = algokit_rbtree_search int_cmp (insert_all int_cmp
        [(⟨5, 50⟩ : Item Int Int), ⟨2, 20⟩, ⟨8, 80⟩, ⟨1, 10⟩, ⟨3, 30⟩]) k :=
  ⟨⟨by decide, by decide⟩, rbtree_remove_absent int_cmp_order _ 4 (by decide) (by decide)⟩

/-- C7: a duplicate insert is a no-op.  For every valid tree that stores a key
comparing equal to `item.key`, `algokit_rbtree_insert` returns 1 and the tree
after the call is identical to the tree before it (same shape, same colours,
same stored pairs). -/
theorem rbtree_insert_duplicate_noop (hc : CmpOrder cmp) (alloc_ok : Bool)
    (tree : algokit_rbtree K V) (item : Item K V) (hv : rbtree_valid cmp tree)
    (hp : ∃ x ∈ algokit_rbtree_traverse_inorder tree, cmp item.key x.key = 0) :
    algokit_rbtree_insert cmp alloc_ok tree item = (1, tree) := by
  simp only [algokit_rbtree_traverse_inorder, traverse_node_inorder] at hp
  obtain ⟨root⟩ := tree
  obtain ⟨ho, hs, hb⟩ := hv
  simp only at ho hs hb hp
  simp only [algokit_rbtree_insert, insert_node_present hc alloc_ok item root hs ho hp]
  rcases root with _ | ⟨i, l, r, c⟩
  · simp at hp
  · simp only [is_red_node] at hb
    subst hb
    rfl

theorem rbtree_insert_duplicate_noop_witness :
    (rbtree_valid int_cmp (insert_all int_cmp
        [(⟨5, 50⟩ : Item Int Int), ⟨2, 20⟩, ⟨8, 80⟩, ⟨1, 10⟩, ⟨3, 30⟩]) ∧
      ∃ x ∈ algokit_rbtree_traverse_inorder (insert_all int_cmp
        [(⟨5, 50⟩ : Item Int Int), ⟨2, 20⟩, ⟨8, 80⟩, ⟨1, 10⟩, ⟨3, 30⟩]),
        int_cmp (⟨3, 99⟩ : Item Int Int).key x.key = 0) ∧
    algokit_rbtree_insert int_cmp true (insert_all int_cmp
        [(⟨5, 50⟩ : Item Int Int), ⟨2, 20⟩, ⟨8, 80⟩, ⟨1, 10⟩, ⟨3, 30⟩]) ⟨3, 99⟩ =
      (1, insert_all int_cmp [(⟨5, 50⟩ : Item Int Int), ⟨2, 20⟩, ⟨8, 80⟩, ⟨1, 10⟩, ⟨3, 30⟩]) :=
  ⟨⟨by decide, by decide⟩,
    rbtree_insert_duplicate_noop int_cmp_order true _ ⟨3, 99⟩ (by decide) (by decide)⟩

end rb_claims_2

/-! ## Linear-probing hash table: the properties of the table -/

section hash_lp_claims
variable {K V : Type} {hash : K → Nat} {cmp : K → K → Int}

/-- C8: get after put.  For every sequence of `put` and `delete` calls on a
table from `algokit_hash_lp_create`, if a `put` of `item` returned 0 and none
of the later calls deletes a key comparing equal to `item.key`, then
`algokit_hash_lp_get` of `item.key` returns 0 with exactly that item, whichever
slot the `put` wrote (an empty one or a tombstone) and whichever grow or
shrink rebuilds happened since. -/
theorem hash_lp_get_after_put (hh : HashCmp hash cmp) (capacity : Nat) (alloc_ok : Bool)
    (ops1 ops2 : List (hash_lp_op K V)) (item : Item K V) (t0 t1 t2 t3 : algokit_hash_lp K V)
    (hcreate : algokit_hash_lp_create true capacity = some t0)
    (hrun1 : hash_lp_run hash cmp t0 ops1 = some t1)
    (hput : algokit_hash_lp_put hash cmp alloc_ok t1 item = some (0, t2))
    (hrun2 : hash_lp_run hash cmp t2 ops2 = some t3)
    (hkeep : ∀ op ∈ ops2, hash_lp_op_keeps cmp item.key op) :
    algokit_hash_lp_get hash cmp t3 item.key = some (0, some item) := by
  have i0 : hash_lp_inv hash cmp t0 := create_inv true capacity t0 hcreate
  obtain ⟨i1, -⟩ := run_spec hh ops1 t0 t1 i0 hrun1
  obtain ⟨i2, -, -, -, hst, -⟩ := put_fuel_spec hh alloc_ok 4 t1 item 0 t2 i1 hput
  obtain ⟨i3, hkept⟩ := run_spec hh ops2 t2 t3 i2 hrun2
  exact get_of_stored t3 i3 item (hkept item (hst rfl) hkeep)

theorem hash_lp_get_after_put_witness :
    (algokit_hash_lp_create true 8 = some hash_lp_table8 ∧
      hash_lp_run int_hash int_cmp hash_lp_table8 hash_lp_witness_before =
        some hash_lp_witness_t1 ∧
      algokit_hash_lp_put int_hash int_cmp true hash_lp_witness_t1 ⟨17, 170⟩ =
        some (0, hash_lp_witness_t2) ∧
      hash_lp_run int_hash int_cmp hash_lp_witness_t2 hash_lp_witness_after =
        some hash_lp_witness_t3 ∧
      ∀ op ∈ hash_lp_witness_after,
        hash_lp_op_keeps int_cmp (⟨17, 170⟩ : Item Int Int).key op) ∧
    algokit_hash_lp_get int_hash int_cmp hash_lp_witness_t3 (⟨17, 170⟩ : Item Int Int).key =
      some (0, some ⟨17, 170⟩) :=
  ⟨⟨by decide, by decide, by decide, by decide, by decide⟩,
    hash_lp_get_after_put int_hash_cmp 8 true hash_lp_witness_before hash_lp_witness_after
      ⟨17, 170⟩ hash_lp_table8 hash_lp_witness_t1 hash_lp_witness_t2 hash_lp_witness_t3
      (by decide) (by decide) (by decide) (by decide) (by decide)⟩

/-- C9: the code at the failing input.  On the table of capacity 8 reached by
`put(k); delete(k)` for `k = 0..6` followed by `put(7)`, the call `delete(7)`
returns 0 with the stored pair and lowers the size by one, but every slot is
then a tombstone and the probe loop of the following `get(7)` never stops: no
bound on the number of visited slots makes it return. -/
theorem hash_lp_get_after_delete_diverges :
    ∃ t t', algokit_hash_lp_create true 8 = some hash_lp_table8 ∧
      hash_lp_run int_hash int_cmp hash_lp_table8
        (hash_lp_put_delete [0, 1, 2, 3, 4, 5, 6] ++ [hash_lp_op.put true ⟨7, 70⟩]) = some t ∧
      algokit_hash_lp_delete int_hash int_cmp true t 7 = some (0, some ⟨7, 70⟩, t') ∧
      t'.size + 1 = t.size ∧
      ∀ fuel, algokit_hash_lp_get_fuel int_hash int_cmp fuel t' 7 = none := by
  refine ⟨⟨[algokit_hash_lp_entry.tombstone, algokit_hash_lp_entry.tombstone,
      algokit_hash_lp_entry.tombstone, algokit_hash_lp_entry.tombstone,
      algokit_hash_lp_entry.tombstone, algokit_hash_lp_entry.tombstone,
      algokit_hash_lp_entry.tombstone, algokit_hash_lp_entry.occupied ⟨7, 70⟩], 8, 1⟩,
    ⟨List.replicate 8 algokit_hash_lp_entry.tombstone, 8, 0⟩, by decide, by decide, by decide,
    by decide, ?_⟩
  intro fuel
  exact get_fuel_diverges _ 7 (by decide) (by decide) fuel

/-- C10: the code at the failing input.  On a table of capacity 16 without an
empty slot (twelve tombstones and the keys 12 to 15), reached from
`algokit_hash_lp_create(8, ...)`, the lookup of the absent key 16 never
returns; after `delete(12)`, which shrinks and rebuilds the table, the same
lookup returns 1. -/
theorem hash_lp_get_other_key_changes :
    ∃ t t', algokit_hash_lp_create true 8 = some hash_lp_table8 ∧
      hash_lp_run int_hash int_cmp hash_lp_table8
        ([0, 1, 2, 3, 4, 5, 6, 7, 8, 9].map (fun k => hash_lp_op.put true ⟨k, 10 * k⟩) ++
         [0, 1, 2, 3, 4, 5].map (fun k => hash_lp_op.delete true k) ++
         [10, 11, 12, 13, 14, 15].map (fun k => hash_lp_op.put true ⟨k, 10 * k⟩) ++
         [6, 7, 8, 9, 10, 11].map (fun k => hash_lp_op.delete true k)) = some t ∧
      int_cmp 16 12 ≠ 0 ∧
      (∀ fuel, algokit_hash_lp_get_fuel int_hash int_cmp fuel t 16 = none) ∧
      algokit_hash_lp_delete int_hash int_cmp true t 12 = some (0, some ⟨12, 120⟩, t') ∧
      algokit_hash_lp_get int_hash int_cmp t' 16 = some (1, none) := by
  refine ⟨⟨List.replicate 12 algokit_hash_lp_entry.tombstone ++
      [algokit_hash_lp_entry.occupied ⟨12, 120⟩, algokit_hash_lp_entry.occupied ⟨13, 130⟩,
       algokit_hash_lp_entry.occupied ⟨14, 140⟩, algokit_hash_lp_entry.occupied ⟨15, 150⟩],
      16, 4⟩,
    ⟨[algokit_hash_lp_entry.empty, algokit_hash_lp_entry.empty, algokit_hash_lp_entry.empty,
      algokit_hash_lp_entry.empty, algokit_hash_lp_entry.empty,
      algokit_hash_lp_entry.occupied ⟨13, 130⟩, algokit_hash_lp_entry.occupied ⟨14, 140⟩,
      algokit_hash_lp_entry.occupied ⟨15, 150⟩], 8, 3⟩,
    by decide, by decide, by decide, ?_, by decide, by decide⟩
  intro fuel
  exact get_fuel_diverges _ 16 (by decide) (by decide) fuel

end hash_lp_claims

/-! ## Linear-probing hash table: when the probe loops stop -/

section hash_lp_termination
variable {K V : Type} {hash : K → Nat} {cmp : K → K → Int}

/-- Probing from `h` with wrap-around reaches every slot `j` within `c`
steps. -/
theorem probe_cover (c h j : Nat) (hh : h < c) (hj : j < c) :
    (h + (j + c - h) % c) % c = j := by
  by_cases hjh : h ≤ j
  · have e1 : (j + c - h) % c = j - h := by
      rw [show j + c - h = (j - h) + c by omega, Nat.add_mod_right,
        Nat.mod_eq_of_lt (by omega)]
    rw [e1, show h + (j - h) = j by omega, Nat.mod_eq_of_lt hj]
  · have e1 : (j + c - h) % c = j + c - h := Nat.mod_eq_of_lt (by omega)
    rw [e1, show h + (j + c - h) = j + c by omega, Nat.add_mod_right, Nat.mod_eq_of_lt hj]

theorem put_probe_none_passes (t : algokit_hash_lp K V) (key : K) (hc : 0 < t.capacity) :
    ∀ (n h : Nat) (ft : Option Nat), h < t.capacity →
      algokit_hash_lp_put_probe cmp t key n h ft = none →
      ∀ i, i < n → hash_lp_passes cmp key (algokit_hash_lp_slot t ((h + i) % t.capacity)) := by
  intro n
  induction n with
  | zero => intro h _ _ _ i hi; omega
  | succ n ih =>
    intro h ft hh hf i hi
    simp only [algokit_hash_lp_put_probe] at hf
    have hstep : (∃ ft', algokit_hash_lp_put_probe cmp t key n ((h + 1) % t.capacity) ft' = none) ∧
        hash_lp_passes cmp key (algokit_hash_lp_slot t h) := by
      cases hs : algokit_hash_lp_slot t h with
      | empty =>
        rw [hs] at hf
        cases ft <;> simp at hf
      | occupied x =>
        rw [hs] at hf
        simp only at hf
        split_ifs at hf with hm
        exact ⟨⟨_, hf⟩, hm⟩
      | tombstone =>
        rw [hs] at hf
        exact ⟨⟨_, hf⟩, trivial⟩
    rcases i with _ | i
    · simpa [Nat.mod_eq_of_lt hh] using hstep.2
    · obtain ⟨ft', hft⟩ := hstep.1
      have := ih _ ft' (Nat.mod_lt _ hc) hft i (by omega)
      rw [Nat.mod_add_mod] at this
      rwa [show h + (i + 1) = h + 1 + i by omega]

/-- With an empty slot in the array the probe loop of `put` stops within
`capacity` steps. -/
theorem put_probe_total (t : algokit_hash_lp K V) (key : K) (hc : 0 < t.capacity)
    (j : Nat) (hj : j < t.capacity)
    (he : algokit_hash_lp_slot t j = algokit_hash_lp_entry.empty) (h : Nat) (hh : h < t.capacity)
    (ft : Option Nat) :
    ∃ r, algokit_hash_lp_put_probe cmp t key t.capacity h ft = some r := by
  cases hp : algokit_hash_lp_put_probe cmp t key t.capacity h ft with
  | some r => exact ⟨r, rfl⟩
  | none =>
    exfalso
    have := put_probe_none_passes t key hc _ h ft hh hp ((j + t.capacity - h) % t.capacity)
      (Nat.mod_lt _ hc)
    rw [probe_cover _ _ _ hh hj, he] at this
    exact this

/-- With an empty slot in the array the probe loop of `get` and `delete`
stops within `capacity` steps. -/
theorem find_total (t : algokit_hash_lp K V) (key : K) (hc : 0 < t.capacity)
    (j : Nat) (hj : j < t.capacity)
    (he : algokit_hash_lp_slot t j = algokit_hash_lp_entry.empty) (h : Nat) (hh : h < t.capacity) :
    ∃ r, algokit_hash_lp_find cmp t key t.capacity h = some r := by
  cases hp : algokit_hash_lp_find cmp t key t.capacity h with
  | some r => exact ⟨r, rfl⟩
  | none =>
    exfalso
    have := find_none_passes t key hc _ h hh hp ((j + t.capacity - h) % t.capacity)
      (Nat.mod_lt _ hc)
    rw [probe_cover _ _ _ hh hj, he] at this
    exact this

/-- In a table without an empty slot the probe loop of `put` for a key that no
occupied slot holds never stops. -/
theorem put_probe_diverges (t : algokit_hash_lp K V) (key : K) (hc : 0 < t.capacity)
    (hall : ∀ j, j < t.capacity → hash_lp_passes cmp key (algokit_hash_lp_slot t j)) :
    ∀ (n h : Nat) (ft : Option Nat), h < t.capacity →
      algokit_hash_lp_put_probe cmp t key n h ft = none := by
  intro n
  induction n with
  | zero => intro h _ _; rfl
  | succ n ih =>
    intro h ft hh
    have hp := hall h hh
    simp only [algokit_hash_lp_put_probe]
    cases hs : algokit_hash_lp_slot t h with
    | empty => rw [hs] at hp; exact absurd hp (fun h => h)
    | occupied x =>
      rw [hs] at hp
      simp only [hash_lp_passes] at hp
      simp only [hp, if_false]
      exact ih _ _ (Nat.mod_lt _ hc)
    | tombstone => exact ih _ _ (Nat.mod_lt _ hc)

/-- Where the probe of `get` finds the key, the probe of `put` reports it as
present. -/
theorem put_probe_of_find (t : algokit_hash_lp K V) (key : K) :
    ∀ (n h j : Nat) (it : Item K V) (ft : Option Nat),
      algokit_hash_lp_find cmp t key n h = some (some (j, it)) →
      algokit_hash_lp_put_probe cmp t key n h ft = some none := by
  intro n
  induction n with
  | zero => intro h j it ft hf; simp [algokit_hash_lp_find] at hf
  | succ n ih =>
    intro h j it ft hf
    simp only [algokit_hash_lp_find] at hf
    simp only [algokit_hash_lp_put_probe]
    cases hs : algokit_hash_lp_slot t h with
    | empty => rw [hs] at hf; simp at hf
    | occupied x =>
      rw [hs] at hf
      simp only at hf ⊢
      split_ifs at hf ⊢ with hm
      · rfl
      · exact ih _ j it ft hf
    | tombstone =>
      rw [hs] at hf
      exact ih _ j it _ hf

/-- A table without tombstones whose occupied slots are fewer than its slots
has an empty slot. -/
theorem clean_has_empty (t : algokit_hash_lp K V) (hl : t.entries.length = t.capacity)
    (hclean : hash_lp_clean t) (hlt : hash_lp_occupied t < t.capacity) :
    ∃ j, j < t.capacity ∧ algokit_hash_lp_slot t j = algokit_hash_lp_entry.empty := by
  by_contra hcon
  have hall : ∀ e ∈ t.entries, algokit_hash_lp_entry.is_occupied e = true := by
    intro e he
    obtain ⟨j, hj, hje⟩ := List.mem_iff_getElem.1 he
    cases e with
    | empty =>
      exfalso
      apply hcon
      refine ⟨j, by omega, ?_⟩
      simp only [algokit_hash_lp_slot, List.getD_eq_getElem?_getD,
        List.getElem?_eq_getElem hj, hje, Option.getD_some]
    | occupied x => rfl
    | tombstone => exact absurd rfl (hclean _ he)
  have := List.countP_eq_length.2 hall
  unfold hash_lp_occupied at hlt
  omega

end hash_lp_termination

/-! ## Linear-probing hash table: the size field and the rebuild -/

section hash_lp_sizes
variable {K V : Type} {hash : K → Nat} {cmp : K → K → Int}

theorem countP_set_eq (p : algokit_hash_lp_entry K V → Bool) :
    ∀ (l : List (algokit_hash_lp_entry K V)) (i : Nat) (a : algokit_hash_lp_entry K V)
      (hi : i < l.length),
      (l.set i a).countP p + (if p (l.get ⟨i, hi⟩) then 1 else 0) =
        l.countP p + (if p a then 1 else 0) := by
  intro l
  induction l with
  | nil => intro i a hi; simp at hi
  | cons b l ih =>
    intro i a hi
    cases i with
    | zero =>
      simp only [List.set_cons_zero, List.countP_cons, List.get_eq_getElem,
        List.getElem_cons_zero]
      omega
    | succ i =>
      have := ih i a (by simpa using hi)
      simp only [List.set_cons_succ, List.countP_cons, List.get_eq_getElem,
        List.getElem_cons_succ] at this ⊢
      omega

theorem slot_eq_get (t : algokit_hash_lp K V) (i : Nat) (hi : i < t.entries.length) :
    algokit_hash_lp_slot t i = t.entries.get ⟨i, hi⟩ := by
  simp only [algokit_hash_lp_slot, List.getD_eq_getElem?_getD, List.getElem?_eq_getElem hi,
    Option.getD_some, List.get_eq_getElem]

/-- Writing a pair into a slot that is not occupied raises the number of
occupied slots by one. -/
theorem occupied_after_write (t : algokit_hash_lp K V) (p s : Nat) (x : Item K V)
    (hp : p < t.entries.length)
    (hs : algokit_hash_lp_slot t p = algokit_hash_lp_entry.empty ∨
      algokit_hash_lp_slot t p = algokit_hash_lp_entry.tombstone) :
    hash_lp_occupied (⟨t.entries.set p (algokit_hash_lp_entry.occupied x), t.capacity, s⟩ :
      algokit_hash_lp K V) = hash_lp_occupied t + 1 := by
  have := countP_set_eq algokit_hash_lp_entry.is_occupied t.entries p
    (algokit_hash_lp_entry.occupied x) hp
  rw [← slot_eq_get t p hp] at this
  unfold hash_lp_occupied
  rcases hs with hs | hs <;> rw [hs] at this <;>
    simpa [algokit_hash_lp_entry.is_occupied] using this

/-- Turning an occupied slot into a tombstone lowers the number of occupied
slots by one. -/
theorem occupied_after_tombstone (t : algokit_hash_lp K V) (p s : Nat) (x : Item K V)
    (hs : algokit_hash_lp_slot t p = algokit_hash_lp_entry.occupied x) :
    hash_lp_occupied (⟨t.entries.set p algokit_hash_lp_entry.tombstone, t.capacity, s⟩ :
      algokit_hash_lp K V) + 1 = hash_lp_occupied t := by
  have hp := slot_occupied_lt hs
  have := countP_set_eq algokit_hash_lp_entry.is_occupied t.entries p
    algokit_hash_lp_entry.tombstone hp
  rw [← slot_eq_get t p hp, hs] at this
  unfold hash_lp_occupied
  simpa [algokit_hash_lp_entry.is_occupied] using this

theorem put_fuel_succ (alloc_ok : Bool) (d : Nat) (t : algokit_hash_lp K V) (x : Item K V) :
    algokit_hash_lp_put_fuel hash cmp alloc_ok (d + 1) t x =
      match (if (t.size + 1) * 10 ≥ t.capacity * 7 then
          algokit_hash_lp_resize_with (algokit_hash_lp_put_fuel hash cmp alloc_ok d) alloc_ok t
            (t.capacity * 2)
        else some (0, t)) with
      | none => none
      | some (rc, t0) => if rc ≠ 0 then some (-1, t0) else hash_lp_put_tail hash cmp t0 x := rfl

/-- The probe and write of `put` keep the capacity and the meaning of the size
field, and add no tombstone. -/
theorem put_tail_sized (t : algokit_hash_lp K V) (hinv : hash_lp_inv hash cmp t)
    (hsz : t.size = hash_lp_occupied t) (x : Item K V) (rc : Int) (t' : algokit_hash_lp K V)
    (hr : hash_lp_put_tail hash cmp t x = some (rc, t')) :
    t'.capacity = t.capacity ∧ t'.size = hash_lp_occupied t' ∧
    ((rc = 0 ∧ t'.size = t.size + 1) ∨ (rc = 1 ∧ t' = t)) ∧
    (hash_lp_clean t → hash_lp_clean t') := by
  unfold hash_lp_put_tail at hr
  cases hp : algokit_hash_lp_put_probe cmp t x.key t.capacity
      (algokit_hash_lp_index hash t x.key) none with
  | none => rw [hp] at hr; simp at hr
  | some r =>
    rw [hp] at hr
    cases r with
    | none =>
      simp only [Option.some.injEq, Prod.mk.injEq] at hr
      obtain ⟨rfl, rfl⟩ := hr
      exact ⟨rfl, hsz, Or.inr ⟨rfl, rfl⟩, fun h => h⟩
    | some p =>
      simp only [Option.some.injEq, Prod.mk.injEq] at hr
      obtain ⟨rfl, rfl⟩ := hr
      have htar := @put_probe_target K V cmp t x.key hinv.2.1 t.capacity _ p
        (index_lt t x.key hinv.2.1) hp
      have hpl : p < t.entries.length := by rw [hinv.1]; exact htar.1
      refine ⟨rfl, ?_, Or.inl ⟨rfl, rfl⟩, ?_⟩
      · rw [occupied_after_write t p _ x hpl htar.2]
        simp only [hsz]
      · intro hcl e he
        rcases List.mem_or_eq_of_mem_set he with h | h
        · exact hcl e h
        · rw [h]; simp

/-- With an empty slot in the array the probe and write of `put` return. -/
theorem put_tail_total (t : algokit_hash_lp K V) (hinv : hash_lp_inv hash cmp t)
    (j : Nat) (hj : j < t.capacity)
    (he : algokit_hash_lp_slot t j = algokit_hash_lp_entry.empty) (x : Item K V) :
    ∃ res, hash_lp_put_tail hash cmp t x = some res := by
  obtain ⟨r, hr⟩ := @put_probe_total K V cmp t x.key hinv.2.1 j hj he
    (algokit_hash_lp_index hash t x.key) (index_lt t x.key hinv.2.1) none
  unfold hash_lp_put_tail
  rw [hr]
  rcases r with _ | p
  · exact ⟨_, rfl⟩
  · exact ⟨_, rfl⟩

/-- For a key that is stored the probe and write of `put` return 1 and leave
the table as it is, whether or not the array has an empty slot. -/
theorem put_tail_dup (hh : HashCmp hash cmp) (t : algokit_hash_lp K V)
    (hinv : hash_lp_inv hash cmp t) (x y : Item K V) (hy : hash_lp_stored t y)
    (hxy : cmp y.key x.key = 0) :
    hash_lp_put_tail hash cmp t x = some (1, t) := by
  obtain ⟨j, hj⟩ := hy
  have hf := hinv.2.2 j y hj
  have e1 : algokit_hash_lp_index hash t y.key = algokit_hash_lp_index hash t x.key := by
    simp only [algokit_hash_lp_index, hh.hash_eq _ _ hxy]
  rw [find_congr_key hh t _ _ hxy, e1] at hf
  unfold hash_lp_put_tail
  rw [put_probe_of_find t x.key _ _ j y none hf]

theorem put_tail_post2 (hh : HashCmp hash cmp) (alloc_ok : Bool) (t : algokit_hash_lp K V)
    (hinv : hash_lp_inv hash cmp t) (x : Item K V) (rc : Int) (t' : algokit_hash_lp K V)
    (hr : hash_lp_put_tail hash cmp t x = some (rc, t')) :
    hash_lp_put_post hash cmp alloc_ok t x rc t' :=
  put_tail_post hh alloc_ok t hinv x rc t' hr

theorem occupied_fresh (c : Nat) :
    hash_lp_occupied
      (⟨List.replicate c algokit_hash_lp_entry.empty, c, 0⟩ : algokit_hash_lp K V) = 0 ∧
    hash_lp_clean
      (⟨List.replicate c algokit_hash_lp_entry.empty, c, 0⟩ : algokit_hash_lp K V) := by
  constructor
  · unfold hash_lp_occupied
    rw [List.countP_eq_zero]
    intro a ha
    rw [List.eq_of_mem_replicate ha]
    simp [algokit_hash_lp_entry.is_occupied]
  · intro e he
    rw [List.eq_of_mem_replicate he]
    simp

end hash_lp_sizes

/-! ## Linear-probing hash table: the rebuild returns -/

section hash_lp_rebuild
variable {K V : Type} {hash : K → Nat} {cmp : K → K → Int}

/-- A call of `put` below the grow threshold on a table without tombstones
returns, and keeps the capacity, the meaning of the size field and the absence
of tombstones. -/
theorem put_fuel_clean (hh : HashCmp hash cmp) (alloc_ok : Bool) (d : Nat)
    (t : algokit_hash_lp K V) (hinv : hash_lp_inv hash cmp t) (hcl : hash_lp_clean t)
    (hsz : t.size = hash_lp_occupied t) (hlow : (t.size + 1) * 10 < t.capacity * 7)
    (x : Item K V) :
    ∃ rc t', algokit_hash_lp_put_fuel hash cmp alloc_ok (d + 1) t x = some (rc, t') ∧
      hash_lp_put_post hash cmp alloc_ok t x rc t' ∧
      t'.capacity = t.capacity ∧ t'.size = hash_lp_occupied t' ∧
      ((rc = 0 ∧ t'.size = t.size + 1) ∨ (rc = 1 ∧ t' = t)) ∧ hash_lp_clean t' := by
  have hng : ¬ ((t.size + 1) * 10 ≥ t.capacity * 7) := by omega
  obtain ⟨j, hj, he⟩ := clean_has_empty t hinv.1 hcl (by rw [← hsz]; omega)
  obtain ⟨⟨rc, t'⟩, hres⟩ := @put_tail_total K V hash cmp t hinv j hj he x
  have hput : algokit_hash_lp_put_fuel hash cmp alloc_ok (d + 1) t x = some (rc, t') := by
    rw [put_fuel_succ, if_neg hng]
    simpa using hres
  obtain ⟨s1, s2, s3, s4⟩ := put_tail_sized t hinv hsz x rc t' hres
  exact ⟨rc, t', hput, put_tail_post hh alloc_ok t hinv x rc t' hres, s1, s2, s3, s4 hcl⟩

/-- The loop of `resize` returns when the new array is large enough for the
re-inserted pairs to stay below the grow threshold: no nested resize happens,
and the rebuilt table holds what was there and the re-inserted pairs. -/
theorem resize_fold_total (hh : HashCmp hash cmp) (alloc_ok : Bool) (d : Nat) :
    ∀ (es : List (algokit_hash_lp_entry K V)) (acc : algokit_hash_lp K V),
      hash_lp_inv hash cmp acc → hash_lp_clean acc → acc.size = hash_lp_occupied acc →
      es.Pairwise (fun e1 e2 => ∀ x y, e1 = algokit_hash_lp_entry.occupied x →
        e2 = algokit_hash_lp_entry.occupied y → cmp x.key y.key ≠ 0) →
      (∀ x, hash_lp_stored acc x → ∀ y, algokit_hash_lp_entry.occupied y ∈ es →
        cmp x.key y.key ≠ 0) →
      (acc.size + es.countP algokit_hash_lp_entry.is_occupied) * 10 < acc.capacity * 7 →
      ∃ t', es.foldl (algokit_hash_lp_resize_step
          (algokit_hash_lp_put_fuel hash cmp alloc_ok (d + 1))) (some acc) = some t' ∧
        hash_lp_inv hash cmp t' ∧ hash_lp_clean t' ∧ t'.size = hash_lp_occupied t' ∧
        t'.capacity = acc.capacity ∧
        t'.size = acc.size + es.countP algokit_hash_lp_entry.is_occupied ∧
        ∀ it, hash_lp_stored t' it ↔
          (hash_lp_stored acc it ∨ algokit_hash_lp_entry.occupied it ∈ es) := by
  intro es
  induction es with
  | nil =>
    intro acc hinv hcl hsz _ _ _
    exact ⟨acc, rfl, hinv, hcl, hsz, rfl, by simp, fun it => by simp⟩
  | cons e es ih =>
    intro acc hinv hcl hsz hpw hnew hlow
    rw [List.pairwise_cons] at hpw
    simp only [List.foldl_cons]
    cases e with
    | empty =>
      simp only [algokit_hash_lp_resize_step]
      obtain ⟨t', h1, h2, h3, h4, h5, h6, h7⟩ := ih acc hinv hcl hsz hpw.2
        (fun x hx y hy => hnew x hx y (List.mem_cons_of_mem _ hy))
        (by simpa [algokit_hash_lp_entry.is_occupied] using hlow)
      refine ⟨t', h1, h2, h3, h4, h5, ?_, fun it => ?_⟩
      · simpa [algokit_hash_lp_entry.is_occupied] using h6
      · rw [h7 it]; simp
    | tombstone =>
      simp only [algokit_hash_lp_resize_step]
      obtain ⟨t', h1, h2, h3, h4, h5, h6, h7⟩ := ih acc hinv hcl hsz hpw.2
        (fun x hx y hy => hnew x hx y (List.mem_cons_of_mem _ hy))
        (by simpa [algokit_hash_lp_entry.is_occupied] using hlow)
      refine ⟨t', h1, h2, h3, h4, h5, ?_, fun it => ?_⟩
      · simpa [algokit_hash_lp_entry.is_occupied] using h6
      · rw [h7 it]; simp
    | occupied x =>
      have hcnt : (algokit_hash_lp_entry.occupied x :: es).countP
          algokit_hash_lp_entry.is_occupied =
          es.countP algokit_hash_lp_entry.is_occupied + 1 := by
        simp [algokit_hash_lp_entry.is_occupied]
      rw [hcnt] at hlow ⊢
      obtain ⟨rc, acc', hput, ⟨p1, p2, p3, p4, p5, p6⟩, q1, q2, q3, q4⟩ :=
        put_fuel_clean hh alloc_ok d acc hinv hcl hsz (by omega) x
      have hrc : rc = 0 ∧ acc'.size = acc.size + 1 := by
        rcases q3 with h | ⟨h, -⟩
        · exact h
        · exfalso
          obtain ⟨y, hy, hye⟩ := p6 h
          exact hnew y hy x (List.mem_cons_self _ _) hye
      simp only [algokit_hash_lp_resize_step, hput]
      obtain ⟨t', h1, h2, h3, h4, h5, h6, h7⟩ := ih acc' p1 q4 q2 hpw.2 (by
        intro z hz y hy
        rcases p3 z hz with rfl | hz'
        · exact hpw.1 _ hy z y rfl rfl
        · exact hnew z hz' y (List.mem_cons_of_mem _ hy)) (by rw [q1, hrc.2]; omega)
      refine ⟨t', h1, h2, h3, h4, by rw [h5, q1], by rw [h6, hrc.2]; omega, fun it => ?_⟩
      rw [h7 it]
      simp only [List.mem_cons, algokit_hash_lp_entry.occupied.injEq]
      constructor
      · rintro (h | h)
        · rcases p3 it h with rfl | h'
          · exact Or.inr (Or.inl rfl)
          · exact Or.inl h'
        · exact Or.inr (Or.inr h)
      · rintro (h | rfl | h)
        · exact Or.inl (p2 it h)
        · exact Or.inl (p5 hrc.1)
        · exact Or.inr h

/-- The function `resize` with a successful allocation returns 0 when the new
capacity keeps the stored pairs below the grow threshold, and the rebuilt
table has the new capacity, the same size, the same pairs and no
tombstone. -/
theorem resize_total (hh : HashCmp hash cmp) (alloc_ok : Bool) (d : Nat)
    (t : algokit_hash_lp K V) (hinv : hash_lp_inv hash cmp t)
    (hsz : t.size = hash_lp_occupied t) (new_capacity : Nat)
    (hlow : t.size * 10 < new_capacity * 7) :
    ∃ t', algokit_hash_lp_resize_with (algokit_hash_lp_put_fuel hash cmp alloc_ok (d + 1)) true
        t new_capacity = some (0, t') ∧
      hash_lp_inv hash cmp t' ∧ hash_lp_clean t' ∧ t'.size = hash_lp_occupied t' ∧
      t'.capacity = new_capacity ∧ t'.size = t.size ∧
      ∀ it, hash_lp_stored t' it ↔ hash_lp_stored t it := by
  have hnc : 0 < new_capacity := by omega
  obtain ⟨f1, f2⟩ := @inv_fresh K V hash cmp new_capacity hnc
  obtain ⟨g1, g2⟩ := @occupied_fresh K V new_capacity
  obtain ⟨t', h1, h2, h3, h4, h5, h6, h7⟩ := resize_fold_total hh alloc_ok d t.entries
    ⟨List.replicate new_capacity algokit_hash_lp_entry.empty, new_capacity, 0⟩ f1 g2
    (by rw [g1]) (inv_pairwise hh t hinv) (fun x hx => absurd hx (f2 x)) (by
      simp only [Nat.zero_add]
      unfold hash_lp_occupied at hsz
      rw [← hsz]; exact hlow)
  refine ⟨t', ?_, h2, h3, h4, h5, ?_, fun it => ?_⟩
  · unfold algokit_hash_lp_resize_with
    simp only [Bool.true_eq_false, if_false]
    rw [← hinv.1, List.take_length, h1]
  · rw [h6, hsz]; simp [hash_lp_occupied]
  · rw [h7 it, stored_iff_mem t it]
    constructor
    · rintro (h | h)
      · exact absurd h (f2 it)
      · exact h
    · exact fun h => Or.inr h

end hash_lp_rebuild

/-! ## Linear-probing hash table: size and capacity across the calls -/

section hash_lp_size_spec
variable {K V : Type} {hash : K → Nat} {cmp : K → K → Int}

theorem resize_alloc_fail
    (putf : algokit_hash_lp K V → Item K V → Option (Int × algokit_hash_lp K V))
    (t : algokit_hash_lp K V) (c : Nat) :
    algokit_hash_lp_resize_with putf false t c = some (-1, t) := by
  simp [algokit_hash_lp_resize_with]

/-- A call of `put` that returns keeps the meaning of the size field and the
margin to the grow threshold; the capacity stays or doubles, and the size
grows by one exactly when the result code is 0. -/
theorem put_fuel_sized (hh : HashCmp hash cmp) (alloc_ok : Bool) (d : Nat)
    (t : algokit_hash_lp K V) (hinv : hash_lp_inv hash cmp t) (hs : hash_lp_sized t)
    (x : Item K V) (rc : Int) (t' : algokit_hash_lp K V)
    (hr : algokit_hash_lp_put_fuel hash cmp alloc_ok (d + 2) t x = some (rc, t')) :
    hash_lp_sized t' ∧ (t'.capacity = t.capacity ∨ t'.capacity = t.capacity * 2) ∧
    ((rc = 0 ∧ t'.size = t.size + 1) ∨ (rc ≠ 0 ∧ t'.size = t.size)) := by
  obtain ⟨hs1, hs2⟩ := hs
  have hc := hinv.2.1
  rw [put_fuel_succ] at hr
  by_cases hg : (t.size + 1) * 10 ≥ t.capacity * 7
  · rw [if_pos hg] at hr
    cases alloc_ok with
    | false =>
      rw [resize_alloc_fail] at hr
      simp only [ne_eq, Int.reduceNeg, Int.neg_eq_zero, one_ne_zero, not_false_eq_true,
        if_true, Option.some.injEq, Prod.mk.injEq] at hr
      obtain ⟨rfl, rfl⟩ := hr
      exact ⟨⟨hs1, hs2⟩, Or.inl rfl, Or.inr ⟨by decide, rfl⟩⟩
    | true =>
      obtain ⟨t0, h0, i0, -, z0, c0, s0, -⟩ :=
        resize_total hh true d t hinv hs1 (t.capacity * 2) (by omega)
      rw [h0] at hr
      simp only [ne_eq, not_true_eq_false, if_false] at hr
      obtain ⟨q1, q2, q3, -⟩ := put_tail_sized t0 i0 z0 x rc t' hr
      rcases q3 with ⟨rfl, q3⟩ | ⟨rfl, rfl⟩
      · refine ⟨⟨q2, ?_⟩, Or.inr (by rw [q1, c0]), Or.inl ⟨rfl, by rw [q3, s0]⟩⟩
        rw [q3, s0, q1, c0]
        rcases Nat.lt_or_ge t.capacity 2 with h2 | h2
        · have h1 : t.capacity = 1 := by omega
          rw [h1] at hs2 ⊢
          omega
        · omega
      · refine ⟨⟨z0, ?_⟩, Or.inr c0, Or.inr ⟨by decide, s0⟩⟩
        rw [s0, c0]; omega
  · rw [if_neg hg] at hr
    simp only [ne_eq, not_true_eq_false, if_false] at hr
    obtain ⟨q1, q2, q3, -⟩ := put_tail_sized t hinv hs1 x rc t' hr
    rcases q3 with ⟨rfl, q3⟩ | ⟨rfl, rfl⟩
    · refine ⟨⟨q2, ?_⟩, Or.inl q1, Or.inl ⟨rfl, q3⟩⟩
      rw [q3, q1]; omega
    · exact ⟨⟨hs1, hs2⟩, Or.inl rfl, Or.inr ⟨by decide, rfl⟩⟩

/-- The table after `delete` has written its tombstone satisfies the
invariant. -/
theorem delete_tombstone_inv (hh : HashCmp hash cmp) (t : algokit_hash_lp K V)
    (hinv : hash_lp_inv hash cmp t) (key : K) (idx : Nat) (it : Item K V)
    (hf : algokit_hash_lp_find cmp t key t.capacity (algokit_hash_lp_index hash t key) =
      some (some (idx, it))) :
    hash_lp_inv hash cmp
      ⟨t.entries.set idx algokit_hash_lp_entry.tombstone, t.capacity, t.size - 1⟩ := by
  have hd : algokit_hash_lp_delete hash cmp false t key = some (0, some it,
      ⟨t.entries.set idx algokit_hash_lp_entry.tombstone, t.capacity, t.size - 1⟩) := by
    unfold algokit_hash_lp_delete
    rw [hf]
    simp only [resize_alloc_fail]
    split_ifs <;> rfl
  exact (delete_spec hh false t key 0 (some it) _ hinv hd).1

/-- A call of `delete` that returns keeps the meaning of the size field and
the margin to the grow threshold; the capacity stays, or is halved from a
value above 8. -/
theorem delete_sized (hh : HashCmp hash cmp) (alloc_ok : Bool) (t : algokit_hash_lp K V)
    (hinv : hash_lp_inv hash cmp t) (hs : hash_lp_sized t) (key : K) (rc : Int)
    (out : Option (Item K V)) (t' : algokit_hash_lp K V)
    (hr : algokit_hash_lp_delete hash cmp alloc_ok t key = some (rc, out, t')) :
    hash_lp_sized t' ∧
    (t'.capacity = t.capacity ∨ (t.capacity > 8 ∧ t'.capacity = t.capacity / 2)) ∧
    ((rc = 0 ∧ t'.size + 1 = t.size) ∨ (rc = 1 ∧ t' = t)) := by
  obtain ⟨hs1, hs2⟩ := hs
  unfold algokit_hash_lp_delete at hr
  cases hf : algokit_hash_lp_find cmp t key t.capacity (algokit_hash_lp_index hash t key) with
  | none => rw [hf] at hr; simp at hr
  | some r =>
    rw [hf] at hr
    cases r with
    | none =>
      simp only [Option.some.injEq, Prod.mk.injEq] at hr
      obtain ⟨rfl, -, rfl⟩ := hr
      exact ⟨⟨hs1, hs2⟩, Or.inl rfl, Or.inr ⟨rfl, rfl⟩⟩
    | some found =>
      obtain ⟨idx, it0⟩ := found
      simp only at hr
      obtain ⟨hslot, -⟩ := find_some_spec t key _ _ idx it0 hf
      have hinv1 := delete_tombstone_inv hh t hinv key idx it0 hf
      have hocc := occupied_after_tombstone t idx (t.size - 1) it0 hslot
      have hz1 : (⟨t.entries.set idx algokit_hash_lp_entry.tombstone, t.capacity,
          t.size - 1⟩ : algokit_hash_lp K V).size = hash_lp_occupied
          (⟨t.entries.set idx algokit_hash_lp_entry.tombstone, t.capacity, t.size - 1⟩ :
            algokit_hash_lp K V) := by
        simp only; omega
      have hpos : 0 < t.size := by omega
      by_cases hshrink : t.capacity > 8 ∧ (t.size - 1) * 10 ≤ t.capacity * 2
      · simp only [hshrink, and_self, if_true] at hr
        cases alloc_ok with
        | false =>
          rw [resize_alloc_fail] at hr
          simp only [Option.some.injEq, Prod.mk.injEq] at hr
          obtain ⟨rfl, -, rfl⟩ := hr
          exact ⟨⟨hz1, by simp only; omega⟩, Or.inl rfl, Or.inl ⟨rfl, by simp only; omega⟩⟩
        | true =>
          obtain ⟨t0, h0, -, -, z0, c0, s0, -⟩ :=
            resize_total hh true 2 _ hinv1 hz1 (t.capacity / 2) (by simp only; omega)
          rw [h0] at hr
          simp only [Option.some.injEq, Prod.mk.injEq] at hr
          obtain ⟨rfl, -, rfl⟩ := hr
          simp only at c0 s0
          refine ⟨⟨z0, ?_⟩, Or.inr ⟨hshrink.1, c0⟩, Or.inl ⟨rfl, by omega⟩⟩
          rw [s0, c0]; omega
      · simp only [hshrink, if_false, Option.some.injEq, Prod.mk.injEq] at hr
        obtain ⟨rfl, -, rfl⟩ := hr
        exact ⟨⟨hz1, by simp only; omega⟩, Or.inl rfl, Or.inl ⟨rfl, by simp only; omega⟩⟩

theorem create_sized (alloc_ok : Bool) (capacity : Nat) (t : algokit_hash_lp K V)
    (hc : algokit_hash_lp_create alloc_ok capacity = some t) :
    hash_lp_sized t ∧ t.capacity = capacity := by
  unfold algokit_hash_lp_create at hc
  split_ifs at hc with h
  simp only [Option.some.injEq] at hc
  subst hc
  refine ⟨⟨?_, by simp only; omega⟩, rfl⟩
  rw [(occupied_fresh capacity).1]

/-- A sequence of calls that all return keeps a property of the capacity that
doubling keeps and that halving from a value above 8 keeps, and it keeps the
invariants of the slot array and of the size field. -/
theorem run_sized (hh : HashCmp hash cmp) (P : Nat → Prop) (hdouble : ∀ c, P c → P (c * 2))
    (hhalf : ∀ c, P c → c > 8 → P (c / 2)) (ops : List (hash_lp_op K V)) :
    ∀ (t t' : algokit_hash_lp K V), hash_lp_inv hash cmp t → hash_lp_sized t →
      P t.capacity → hash_lp_run hash cmp t ops = some t' →
      hash_lp_inv hash cmp t' ∧ hash_lp_sized t' ∧ P t'.capacity := by
  induction ops with
  | nil =>
    intro t t' hinv hs hp hr
    simp only [hash_lp_run, Option.some.injEq] at hr
    subst hr
    exact ⟨hinv, hs, hp⟩
  | cons op ops ih =>
    intro t t' hinv hs hp hr
    simp only [hash_lp_run] at hr
    cases hstep : hash_lp_step hash cmp t op with
    | none => rw [hstep] at hr; simp at hr
    | some t1 =>
      rw [hstep] at hr
      simp only at hr
      cases op with
      | put a x =>
        simp only [hash_lp_step, Option.map_eq_some', Prod.exists, exists_eq_right] at hstep
        obtain ⟨rc, hput⟩ := hstep
        obtain ⟨p1, -⟩ := put_fuel_spec hh a 4 t x rc t1 hinv hput
        obtain ⟨q1, q2, -⟩ := put_fuel_sized hh a 2 t hinv hs x rc t1 hput
        refine ih t1 t' p1 q1 ?_ hr
        rcases q2 with h | h
        · rw [h]; exact hp
        · rw [h]; exact hdouble _ hp
      | delete a k =>
        simp only [hash_lp_step, Option.map_eq_some', Prod.exists, exists_eq_right] at hstep
        obtain ⟨rc, out, hdel⟩ := hstep
        obtain ⟨d1, -⟩ := delete_spec hh a t k rc out t1 hinv hdel
        obtain ⟨q1, q2, -⟩ := delete_sized hh a t hinv hs k rc out t1 hdel
        refine ih t1 t' d1 q1 ?_ hr
        rcases q2 with h | ⟨h8, h⟩
        · rw [h]; exact hp
        · rw [h]; exact hhalf _ hp h8

/-- Every reachable table satisfies the invariants of the slot array and of
the size field. -/
theorem reachable_inv (hh : HashCmp hash cmp) (t : algokit_hash_lp K V)
    (hr : hash_lp_reachable hash cmp t) : hash_lp_inv hash cmp t ∧ hash_lp_sized t := by
  obtain ⟨capacity, ops, t0, hc, hrun⟩ := hr
  obtain ⟨h1, h2, -⟩ := run_sized hh (fun _ => True) (fun _ _ => trivial)
    (fun _ _ _ => trivial) ops t0 t (create_inv true capacity t0 hc)
    (create_sized true capacity t0 hc).1 trivial hrun
  exact ⟨h1, h2⟩

/-- A call of `put` with a key that is stored returns 1, unless its grow
allocation fails: the rebuild returns, and the probe stops at the stored
key. -/
theorem put_dup_total (hh : HashCmp hash cmp) (alloc_ok : Bool) (d : Nat)
    (t : algokit_hash_lp K V) (hinv : hash_lp_inv hash cmp t) (hs : hash_lp_sized t)
    (x y : Item K V) (hy : hash_lp_stored t y) (hxy : cmp y.key x.key = 0)
    (ha : alloc_ok = true ∨ (t.size + 1) * 10 < t.capacity * 7) :
    ∃ t', algokit_hash_lp_put_fuel hash cmp alloc_ok (d + 2) t x = some (1, t') ∧
      hash_lp_inv hash cmp t' ∧ t'.size = t.size ∧
      ∀ it, hash_lp_stored t' it ↔ hash_lp_stored t it := by
  rw [put_fuel_succ]
  by_cases hg : (t.size + 1) * 10 ≥ t.capacity * 7
  · have ht : alloc_ok = true := by
      rcases ha with h | h
      · exact h
      · omega
    subst ht
    obtain ⟨t0, h0, i0, -, -, -, s0, st0⟩ :=
      resize_total hh true d t hinv hs.1 (t.capacity * 2) (by have := hs.2; omega)
    rw [if_pos hg, h0]
    simp only [ne_eq, not_true_eq_false, if_false]
    exact ⟨t0, put_tail_dup hh t0 i0 x y ((st0 y).2 hy) hxy, i0, s0, st0⟩
  · rw [if_neg hg]
    simp only [ne_eq, not_true_eq_false, if_false]
    exact ⟨t, put_tail_dup hh t hinv x y hy hxy, hinv, rfl, fun it => Iff.rfl⟩

end hash_lp_size_spec

/-! ## Linear-probing hash table: termination, duplicates, load factor, capacity -/

section hash_lp_claims2
variable {K V : Type} {hash : K → Nat} {cmp : K → K → Int}

/-- C11: the code at the failing input.  The table of capacity 8 reached by
`put(k); delete(k)` for `k = 0..7` has no empty slot: all eight slots are
tombstones, which the grow test of `put` does not count.  On it the probe loop
shared by `get` and `delete` and the probe loop of `put` do not stop for key 8
under any bound on the number of visited slots, so none of the three calls
returns. -/
theorem hash_lp_probe_loops_unbounded :
    ∃ t : algokit_hash_lp Int Int,
      algokit_hash_lp_create true 8 = some hash_lp_table8 ∧
      hash_lp_run int_hash int_cmp hash_lp_table8
        (hash_lp_put_delete [0, 1, 2, 3, 4, 5, 6, 7]) = some t ∧
      t.capacity = 8 ∧ t.size = 0 ∧
      (∀ j, j < t.capacity → algokit_hash_lp_slot t j ≠ algokit_hash_lp_entry.empty) ∧
      (∀ fuel, algokit_hash_lp_find int_cmp t 8 fuel (algokit_hash_lp_index int_hash t 8) =
        none) ∧
      (∀ fuel, algokit_hash_lp_put_probe int_cmp t 8 fuel (algokit_hash_lp_index int_hash t 8)
        none = none) ∧
      algokit_hash_lp_get int_hash int_cmp t 8 = none ∧
      algokit_hash_lp_put int_hash int_cmp true t ⟨8, 80⟩ = none ∧
      algokit_hash_lp_delete int_hash int_cmp true t 8 = none := by
  refine ⟨⟨List.replicate 8 algokit_hash_lp_entry.tombstone, 8, 0⟩, by decide, by decide, rfl,
    rfl, by decide, ?_, ?_, by decide, by decide, by decide⟩
  · intro fuel
    exact find_diverges _ 8 (by decide) (by decide) fuel _ (by decide)
  · intro fuel
    exact put_probe_diverges _ 8 (by decide) (by decide) fuel _ none (by decide)

theorem get_congr_key (hh : HashCmp hash cmp) (t : algokit_hash_lp K V) (a b : K)
    (hab : cmp a b = 0) :
    algokit_hash_lp_get hash cmp t a = algokit_hash_lp_get hash cmp t b := by
  have e1 : algokit_hash_lp_index hash t a = algokit_hash_lp_index hash t b := by
    simp only [algokit_hash_lp_index, hh.hash_eq _ _ hab]
  simp only [algokit_hash_lp_get, algokit_hash_lp_get_fuel, find_congr_key hh t a b hab, e1]

/-- C12: no overwrite on a duplicate `put`.  On every reachable table in which
`get` of `item.key` finds the pair `stored`, the call `put(item)` returns, with
result code 1 whenever the allocation of a grow rebuild succeeds or no grow is
due (the only other result is -1 from a failed grow allocation, before the
probe).  In every case the size is unchanged and `get` of that key still
returns the pair `stored`, not `item`; tombstones on the probe run make no
difference. -/
theorem hash_lp_put_duplicate (hh : HashCmp hash cmp) (t : algokit_hash_lp K V)
    (hreach : hash_lp_reachable hash cmp t) (alloc_ok : Bool) (item stored : Item K V)
    (hget : algokit_hash_lp_get hash cmp t item.key = some (0, some stored)) :
    ∃ rc t', algokit_hash_lp_put hash cmp alloc_ok t item = some (rc, t') ∧
      ((alloc_ok = true ∨ (t.size + 1) * 10 < t.capacity * 7) → rc = 1) ∧
      (rc = 1 ∨ (rc = -1 ∧ alloc_ok = false)) ∧
      t'.size = t.size ∧
      algokit_hash_lp_get hash cmp t' item.key = some (0, some stored) := by
  obtain ⟨hinv, hs⟩ := reachable_inv hh t hreach
  have hfound : ∃ j, algokit_hash_lp_find cmp t item.key t.capacity
      (algokit_hash_lp_index hash t item.key) = some (some (j, stored)) := by
    simp only [algokit_hash_lp_get, algokit_hash_lp_get_fuel] at hget
    cases hf : algokit_hash_lp_find cmp t item.key t.capacity
        (algokit_hash_lp_index hash t item.key) with
    | none => rw [hf] at hget; simp at hget
    | some r =>
      rw [hf] at hget
      rcases r with _ | ⟨j, it⟩
      · simp at hget
      · simp only [Option.some.injEq, Prod.mk.injEq, true_and] at hget
        subst hget
        exact ⟨j, rfl⟩
  obtain ⟨j, hf⟩ := hfound
  obtain ⟨hslot, hkey⟩ := find_some_spec t item.key _ _ j stored hf
  have hst : hash_lp_stored t stored := ⟨j, hslot⟩
  by_cases ha : alloc_ok = true ∨ (t.size + 1) * 10 < t.capacity * 7
  · obtain ⟨t', h1, h2, h3, h4⟩ := put_dup_total hh alloc_ok 2 t hinv hs item stored hst hkey ha
    refine ⟨1, t', h1, fun _ => rfl, Or.inl rfl, h3, ?_⟩
    rw [← get_congr_key hh t' _ _ hkey]
    exact get_of_stored t' h2 stored ((h4 stored).2 hst)
  · have hfalse : alloc_ok = false := by
      cases alloc_ok with
      | false => rfl
      | true => exact absurd (Or.inl rfl) ha
    have hg : (t.size + 1) * 10 ≥ t.capacity * 7 := by
      have : ¬ ((t.size + 1) * 10 < t.capacity * 7) := fun h => ha (Or.inr h)
      omega
    subst hfalse
    refine ⟨-1, t, ?_, fun h => absurd h ha, Or.inr ⟨rfl, rfl⟩, rfl, hget⟩
    unfold algokit_hash_lp_put
    rw [put_fuel_succ, if_pos hg, resize_alloc_fail]
    rfl

theorem hash_lp_put_duplicate_witness :
    (hash_lp_reachable int_hash int_cmp hash_lp_witness_t1 ∧
      algokit_hash_lp_slot hash_lp_witness_t1
        (algokit_hash_lp_index int_hash hash_lp_witness_t1 9) = algokit_hash_lp_entry.tombstone ∧
      algokit_hash_lp_get int_hash int_cmp hash_lp_witness_t1 (⟨9, 91⟩ : Item Int Int).key =
        some (0, some ⟨9, 90⟩)) ∧
    ∃ rc t', algokit_hash_lp_put int_hash int_cmp true hash_lp_witness_t1 ⟨9, 91⟩ =
        some (rc, t') ∧
      ((true = true ∨ (hash_lp_witness_t1.size + 1) * 10 < hash_lp_witness_t1.capacity * 7) →
        rc = 1) ∧
      (rc = 1 ∨ (rc = -1 ∧ true = false)) ∧
      t'.size = hash_lp_witness_t1.size ∧
      algokit_hash_lp_get int_hash int_cmp t' (⟨9, 91⟩ : Item Int Int).key =
        some (0, some ⟨9, 90⟩) :=
  ⟨⟨⟨8, hash_lp_witness_before, hash_lp_table8, by decide, by decide⟩, by decide, by decide⟩,
    hash_lp_put_duplicate int_hash_cmp hash_lp_witness_t1
      ⟨8, hash_lp_witness_before, hash_lp_table8, by decide, by decide⟩ true ⟨9, 91⟩ ⟨9, 90⟩
      (by decide)⟩

/-- C13: the load-factor bound.  For every reachable table (any initial
capacity that `create` accepts, any calls of `put` and `delete` before),
right after a call of `put` that returns, whatever its result code, the size
is at most seven tenths of the capacity: `size * 10 <= capacity * 7`. -/
theorem hash_lp_load_factor_after_put (hh : HashCmp hash cmp) (t : algokit_hash_lp K V)
    (hreach : hash_lp_reachable hash cmp t) (alloc_ok : Bool) (item : Item K V) (rc : Int)
    (t' : algokit_hash_lp K V)
    (hput : algokit_hash_lp_put hash cmp alloc_ok t item = some (rc, t')) :
    t'.size * 10 ≤ t'.capacity * 7 := by
  obtain ⟨hinv, hs⟩ := reachable_inv hh t hreach
  obtain ⟨⟨-, h2⟩, -⟩ := put_fuel_sized hh alloc_ok 2 t hinv hs item rc t' hput
  omega

theorem hash_lp_load_factor_after_put_witness :
    (hash_lp_reachable int_hash int_cmp hash_lp_witness_t1 ∧
      algokit_hash_lp_put int_hash int_cmp true hash_lp_witness_t1 ⟨17, 170⟩ =
        some (0, hash_lp_witness_t2)) ∧
    hash_lp_witness_t2.size * 10 ≤ hash_lp_witness_t2.capacity * 7 :=
  ⟨⟨⟨8, hash_lp_witness_before, hash_lp_table8, by decide, by decide⟩, by decide⟩,
    hash_lp_load_factor_after_put int_hash_cmp hash_lp_witness_t1
      ⟨8, hash_lp_witness_before, hash_lp_table8, by decide, by decide⟩ true ⟨17, 170⟩ 0
      hash_lp_witness_t2 (by decide)⟩

/-- C14, counterexample: a table created with capacity 9 has capacity 4 after
`put(1); delete(1)`.  The shrink test of `delete` compares the capacity before
halving with 8, and 9 / 2 = 4. -/
theorem hash_lp_capacity_below_eight :
    ∃ t : algokit_hash_lp Int Int,
      algokit_hash_lp_create true 9 = some hash_lp_table9 ∧
      hash_lp_run int_hash int_cmp hash_lp_table9
        [hash_lp_op.put true ⟨1, 10⟩, hash_lp_op.delete true 1] = some t ∧
      t.capacity = 4 ∧ ¬ (8 ≤ t.capacity) := by
  refine ⟨⟨List.replicate 4 algokit_hash_lp_entry.empty, 4, 0⟩, by decide, by decide, rfl,
    by decide⟩

/-- C14, amended: for every table created with a capacity of at least 8 and
every sequence of `put` and `delete` calls that return, the capacity is at
least 4 afterwards (a shrink halves a capacity above 8), and it is at least 8
when the initial capacity is 8 times a power of two. -/
theorem hash_lp_capacity_floor (hh : HashCmp hash cmp) (capacity : Nat)
    (ops : List (hash_lp_op K V)) (t0 t : algokit_hash_lp K V) (hcap : 8 ≤ capacity)
    (hcreate : algokit_hash_lp_create true capacity = some t0)
    (hrun : hash_lp_run hash cmp t0 ops = some t) :
    4 ≤ t.capacity ∧ ((∃ k, capacity = 8 * 2 ^ k) → 8 ≤ t.capacity) := by
  have i0 : hash_lp_inv hash cmp t0 := create_inv true capacity t0 hcreate
  obtain ⟨s0, c0⟩ := @create_sized K V true capacity t0 hcreate
  constructor
  · exact (run_sized hh (fun c => 4 ≤ c) (fun c h => by omega) (fun c _ h => by omega) ops
      t0 t i0 s0 (by rw [c0]; omega) hrun).2.2
  · rintro ⟨k, hk⟩
    obtain ⟨j, hj⟩ := (run_sized hh (fun c => ∃ j, c = 8 * 2 ^ j)
      (fun c ⟨j, hj⟩ => ⟨j + 1, by rw [hj, pow_succ]; ring⟩)
      (fun c ⟨j, hj⟩ h8 => by
        cases j with
        | zero => omega
        | succ j => exact ⟨j, by rw [hj, pow_succ]; omega⟩) ops
      t0 t i0 s0 (by rw [c0]; exact ⟨k, hk⟩) hrun).2.2
    rw [hj]
    have := @Nat.one_le_two_pow j
    omega

theorem hash_lp_capacity_floor_witness :
    (8 ≤ 16 ∧ algokit_hash_lp_create true 16 =
        some (⟨List.replicate 16 algokit_hash_lp_entry.empty, 16, 0⟩ : algokit_hash_lp Int Int) ∧
      hash_lp_run int_hash int_cmp
        (⟨List.replicate 16 algokit_hash_lp_entry.empty, 16, 0⟩ : algokit_hash_lp Int Int)
        [hash_lp_op.put true ⟨1, 10⟩, hash_lp_op.delete true 1, hash_lp_op.put true ⟨2, 20⟩,
          hash_lp_op.delete true 2] =
        some ⟨[algokit_hash_lp_entry.empty, algokit_hash_lp_entry.empty,
          algokit_hash_lp_entry.tombstone, algokit_hash_lp_entry.empty,
          algokit_hash_lp_entry.empty, algokit_hash_lp_entry.empty,
          algokit_hash_lp_entry.empty, algokit_hash_lp_entry.empty], 8, 0⟩) ∧
    (4 ≤ 8 ∧ ((∃ k, 16 = 8 * 2 ^ k) → 8 ≤ 8)) :=
  ⟨⟨by decide, by decide, by decide⟩,
    hash_lp_capacity_floor int_hash_cmp 16
      [hash_lp_op.put true ⟨1, 10⟩, hash_lp_op.delete true 1, hash_lp_op.put true ⟨2, 20⟩,
        hash_lp_op.delete true 2]
      ⟨List.replicate 16 algokit_hash_lp_entry.empty, 16, 0⟩
      ⟨[algokit_hash_lp_entry.empty, algokit_hash_lp_entry.empty,
        algokit_hash_lp_entry.tombstone, algokit_hash_lp_entry.empty,
        algokit_hash_lp_entry.empty, algokit_hash_lp_entry.empty,
        algokit_hash_lp_entry.empty, algokit_hash_lp_entry.empty], 8, 0⟩
      (by decide) (by decide) (by decide)⟩

end hash_lp_claims2

/-! ## Weighted quick-union: parent links as a function -/

section uf_links

/-- Following the links from a root stays at the root. -/
theorem links_fixed (f : Nat → Nat) (r : Nat) (hr : f r = r) (k : Nat) : f^[k] r = r :=
  Function.iterate_fixed hr k

/-- Once the links from `x` have reached a root, more steps stay there. -/
theorem links_stay (f : Nat → Nat) (x r : Nat) (hr : f r = r) (k : Nat) (hk : f^[k] x = r)
    (m : Nat) (hm : k ≤ m) : f^[m] x = r := by
  obtain ⟨d, rfl⟩ := Nat.exists_eq_add_of_le hm
  rw [Nat.add_comm, Function.iterate_add_apply, hk, links_fixed f r hr]

/-- The root that the links from `x` lead to is unique. -/
theorem links_root_unique (f : Nat → Nat) (x r s : Nat) (hr : f r = r) (hs : f s = s)
    (k j : Nat) (hk : f^[k] x = r) (hj : f^[j] x = s) : r = s := by
  have h1 := links_stay f x r hr k hk (k + j) (by omega)
  have h2 := links_stay f x s hs j hj (k + j) (by omega)
  rw [h1] at h2
  exact h2

/-- Path halving at a non-root `p` keeps the root of every element and does
not lengthen any path. -/
theorem links_halve (f : Nat → Nat) (p : Nat) (hp : f p ≠ p) :
    ∀ (k x r : Nat), f r = r → f^[k] x = r →
      ∃ j, j ≤ k ∧ (Function.update f p (f (f p)))^[j] x = r := by
  intro k
  induction k using Nat.strong_induction_on with
  | _ k ih =>
    intro x r hr hk
    by_cases hx : f x = x
    · rw [links_fixed f x hx] at hk
      exact ⟨0, by omega, hk⟩
    · rcases k with _ | k
      · simp only [Function.iterate_zero, id_eq] at hk
        rw [hk] at hx
        exact absurd hr hx
      · rw [Function.iterate_succ_apply] at hk
        by_cases hxp : x = p
        · subst hxp
          rcases k with _ | k
          · simp only [Function.iterate_zero, id_eq] at hk
            refine ⟨1, by omega, ?_⟩
            simp only [Function.iterate_succ, Function.iterate_zero, Function.comp_apply,
              Function.update_same, id_eq]
            rw [hk, hr]
          · rw [Function.iterate_succ_apply] at hk
            obtain ⟨j, hj, hjr⟩ := ih k (by omega) (f (f x)) r hr hk
            refine ⟨j + 1, by omega, ?_⟩
            rw [Function.iterate_succ_apply, Function.update_same]
            exact hjr
        · obtain ⟨j, hj, hjr⟩ := ih k (by omega) (f x) r hr hk
          refine ⟨j + 1, by omega, ?_⟩
          rw [Function.iterate_succ_apply, Function.update_noteq hxp]
          exact hjr

/-- Linking the root `a` under the root `b` moves the elements of the tree of
`a` to the root `b` and keeps the root of every other element. -/
theorem links_link (f : Nat → Nat) (a b : Nat) (ha : f a = a) (hab : a ≠ b) :
    ∀ (k x r : Nat), f r = r → f^[k] x = r →
      ∃ j, (Function.update f a b)^[j] x = if r = a then b else r := by
  intro k
  induction k with
  | zero =>
    intro x r hr hk
    simp only [Function.iterate_zero, id_eq] at hk
    subst hk
    by_cases hxa : x = a
    · exact ⟨1, by simp [hxa]⟩
    · exact ⟨0, by simp [hxa]⟩
  | succ k ih =>
    intro x r hr hk
    by_cases hx : f x = x
    · rw [links_fixed f x hx] at hk
      subst hk
      by_cases hxa : x = a
      · exact ⟨1, by simp [hxa]⟩
      · exact ⟨0, by simp [hxa]⟩
    · rw [Function.iterate_succ_apply] at hk
      obtain ⟨j, hj⟩ := ih (f x) r hr hk
      have hxa : x ≠ a := fun h => hx (by rw [h]; exact ha)
      refine ⟨j + 1, ?_⟩
      rw [Function.iterate_succ_apply, Function.update_noteq hxa]
      exact hj

/-- In an array with `n` entries below `n` whose links lead from `p` to a
root, they do so in fewer than `n` steps. -/
theorem links_depth_lt (f : Nat → Nat) (n : Nat) (hf : ∀ x, x < n → f x < n) (p : Nat)
    (hp : p < n) (hroot : ∃ k, f (f^[k] p) = f^[k] p) :
    ∃ k, k < n ∧ f (f^[k] p) = f^[k] p := by
  obtain ⟨K, hK⟩ := hroot
  have hrange : ∀ k, f^[k] p < n := by
    intro k
    induction k with
    | zero => simpa using hp
    | succ k ih =>
      rw [Function.iterate_succ_apply']
      exact hf _ ih
  obtain ⟨i, hi, j, hj, hij, he⟩ := Finset.exists_ne_map_eq_of_card_lt_of_maps_to
    (show (Finset.range n).card < (Finset.range (n + 1)).card by simp)
    (fun k _ => Finset.mem_range.2 (hrange k))
  rw [Finset.mem_range] at hi hj
  -- a repeated element on the path lies on a cycle, which the root excludes
  have key : ∀ i j, i < j → j < n + 1 → f^[i] p = f^[j] p → f (f^[i] p) = f^[i] p := by
    intro i j hlt _ he
    obtain ⟨d, rfl⟩ := Nat.exists_eq_add_of_lt hlt
    have hper : f^[d + 1] (f^[i] p) = f^[i] p := by
      rw [← Function.iterate_add_apply, show d + 1 + i = i + d + 1 by omega]
      exact he.symm
    have hmul : ∀ m, f^[m * (d + 1)] (f^[i] p) = f^[i] p := by
      intro m
      induction m with
      | zero => simp
      | succ m ihm =>
        rw [Nat.succ_mul, Function.iterate_add_apply, hper, ihm]
    have h1 : f^[K * (d + 1) + i] p = f^[K] p :=
      links_stay f p _ hK K rfl _ (by nlinarith)
    rw [Function.iterate_add_apply, hmul] at h1
    rw [h1]
    exact hK
  rcases Nat.lt_or_gt_of_ne hij with h | h
  · exact ⟨i, by omega, key i j h hj he⟩
  · exact ⟨j, by omega, key j i h hi he.symm⟩

end uf_links

/-! ## Weighted quick-union: the root loop and the calls -/

section uf_wqupc_lemmas

theorem uf_entry_set (l : List Nat) (p v : Nat) (hp : p < l.length) :
    uf_entry (l.set p v) = Function.update (uf_entry l) p v := by
  funext x
  simp only [uf_entry, List.getD_eq_getElem?_getD, Function.update_apply]
  by_cases hx : x = p
  · subst hx
    simp [hp]
  · simp [hx, List.getElem?_set_ne (Ne.symm hx)]

theorem uf_entry_outside (l : List Nat) (p : Nat) (hp : l.length ≤ p) : uf_entry l p = p := by
  simp only [uf_entry, List.getD_eq_getElem?_getD, List.getElem?_eq_none hp, Option.getD_none]

/-- The root loop, started where the links reach the root `r` in fewer steps
than the bound on its rounds: it returns `r`, keeps `n`, the sizes and the
length of the array, keeps every entry below `n`, keeps every root a root, and
does not lengthen the path from any element to its root. -/
theorem root_loop_spec :
    ∀ (fuel : Nat) (uf : algokit_uf_wqupc) (p k r : Nat), k < fuel →
      uf_entry uf.parent r = r → (uf_entry uf.parent)^[k] p = r →
      uf.parent.length = uf.n → (∀ x, x < uf.n → uf_entry uf.parent x < uf.n) → p < uf.n →
      ∃ uf1, algokit_uf_wqupc_root fuel uf p = some (r, uf1) ∧ uf1.n = uf.n ∧
        uf1.size = uf.size ∧ uf1.parent.length = uf.parent.length ∧
        (∀ x, x < uf.n → uf_entry uf1.parent x < uf.n) ∧
        (∀ s, uf_entry uf.parent s = s → uf_entry uf1.parent s = s) ∧
        ∀ (j x s : Nat), uf_entry uf.parent s = s → (uf_entry uf.parent)^[j] x = s →
          ∃ i, i ≤ j ∧ (uf_entry uf1.parent)^[i] x = s := by
  intro fuel
  induction fuel with
  | zero => intro uf p k r hk; omega
  | succ fuel ih =>
    intro uf p k r hk hr hkr hlen hrange hp
    rw [algokit_uf_wqupc_root]
    by_cases hroot : p ≠ uf_entry uf.parent p
    · rw [if_pos hroot]
      have hpl : p < uf.parent.length := by rw [hlen]; exact hp
      have hne : uf_entry uf.parent p ≠ p := fun h => hroot h.symm
      have hf1 := uf_entry_set uf.parent p (uf_entry uf.parent (uf_entry uf.parent p)) hpl
      have hhalve := links_halve (uf_entry uf.parent) p hne
      simp only []
      rw [hf1, Function.update_same]
      -- the grandparent reaches the root in fewer steps than the bound left
      have hstart : ∃ j, j < fuel ∧ (Function.update (uf_entry uf.parent) p
          (uf_entry uf.parent (uf_entry uf.parent p)))^[j]
          (uf_entry uf.parent (uf_entry uf.parent p)) = r := by
        rcases k with _ | k
        · simp only [Function.iterate_zero, id_eq] at hkr
          rw [hkr] at hne
          exact absurd hr hne
        · rw [Function.iterate_succ_apply] at hkr
          rcases k with _ | k
          · simp only [Function.iterate_zero, id_eq] at hkr
            refine ⟨0, by omega, ?_⟩
            simp only [Function.iterate_zero, id_eq]
            rw [hkr, hr]
          · rw [Function.iterate_succ_apply] at hkr
            obtain ⟨j, hj, hjr⟩ := hhalve k _ r hr hkr
            exact ⟨j, by omega, hjr⟩
      obtain ⟨j, hj, hjr⟩ := hstart
      have hrp : r ≠ p := fun h => hne (by rw [← h]; exact hr)
      have hgp : uf_entry uf.parent (uf_entry uf.parent p) < uf.n :=
        hrange _ (hrange _ hp)
      have hrange1 : ∀ x, x < uf.n → Function.update (uf_entry uf.parent) p
          (uf_entry uf.parent (uf_entry uf.parent p)) x < uf.n := by
        intro x hx
        rw [Function.update_apply]
        split_ifs
        · exact hgp
        · exact hrange x hx
      obtain ⟨uf1, h1, h2, h3, h4, h5, h6, h7⟩ := ih
        ⟨uf.n, uf.parent.set p (uf_entry uf.parent (uf_entry uf.parent p)), uf.size⟩
        (uf_entry uf.parent (uf_entry uf.parent p)) j r hj
        (by simp only [hf1]; rw [Function.update_noteq hrp]; exact hr)
        (by simp only [hf1]; exact hjr)
        (by simpa using hlen)
        (by simp only [hf1]; exact hrange1) hgp
      refine ⟨uf1, h1, h2, h3, by simpa using h4, h5, ?_, ?_⟩
      · intro s hs
        apply h6
        simp only [hf1]
        have hsp : s ≠ p := fun h => hne (by rw [← h]; exact hs)
        rw [Function.update_noteq hsp]
        exact hs
      · intro j' x s hs hjs
        have hsp : s ≠ p := fun h => hne (by rw [← h]; exact hs)
        obtain ⟨i, hi, his⟩ := hhalve j' x s hs hjs
        obtain ⟨i', hi', his'⟩ := h7 i x s
          (by simp only [hf1]; rw [Function.update_noteq hsp]; exact hs)
          (by simp only [hf1]; exact his)
        exact ⟨i', by omega, his'⟩
    · rw [if_neg hroot]
      have hpr : uf_entry uf.parent p = p := by
        by_contra h
        exact hroot (fun h' => h h'.symm)
      rw [links_fixed _ p hpr] at hkr
      subst hkr
      exact ⟨uf, rfl, rfl, rfl, rfl, hrange, fun s hs => hs,
        fun j x s _ hjs => ⟨j, le_refl _, hjs⟩⟩

/-- The root function gives a root, reached from the element by the links. -/
theorem root_of_is_root (uf : algokit_uf_wqupc) (hinv : uf_wqupc_inv uf) (x : Nat) :
    uf_entry uf.parent (uf_wqupc_root_of uf x) = uf_wqupc_root_of uf x := by
  obtain ⟨hlen, hrange, hreach⟩ := hinv
  unfold uf_wqupc_root_of
  by_cases hx : x < uf.n
  · obtain ⟨k, hk, hkr⟩ := links_depth_lt _ uf.n hrange x hx (hreach x)
    rw [links_stay _ x _ hkr k rfl uf.n (by omega)]
    exact hkr
  · have hfx : uf_entry uf.parent x = x := uf_entry_outside _ x (by omega)
    rw [links_fixed _ x hfx]
    exact hfx

/-- The root function gives the root that the links lead to. -/
theorem root_of_eq (uf : algokit_uf_wqupc) (hinv : uf_wqupc_inv uf) (x s j : Nat)
    (hs : uf_entry uf.parent s = s) (hj : (uf_entry uf.parent)^[j] x = s) :
    uf_wqupc_root_of uf x = s :=
  links_root_unique _ x _ s (root_of_is_root uf hinv x) hs uf.n j rfl hj

theorem links_lt (f : Nat → Nat) (n : Nat) (hf : ∀ x, x < n → f x < n) (x : Nat) (hx : x < n) :
    ∀ k, f^[k] x < n := by
  intro k
  induction k with
  | zero => simpa using hx
  | succ k ih =>
    rw [Function.iterate_succ_apply']
    exact hf _ ih

theorem root_of_lt (uf : algokit_uf_wqupc) (hinv : uf_wqupc_inv uf) (x : Nat) (hx : x < uf.n) :
    uf_wqupc_root_of uf x < uf.n :=
  links_lt _ uf.n hinv.2.1 x hx uf.n

/-- A call of the root loop from the interface, with `n` rounds: it returns
the root of `p`, keeps the invariant and changes the root of no element. -/
theorem root_call (uf : algokit_uf_wqupc) (hinv : uf_wqupc_inv uf) (p : Nat) (hp : p < uf.n) :
    ∃ uf1, algokit_uf_wqupc_root uf.n uf p = some (uf_wqupc_root_of uf p, uf1) ∧
      uf_wqupc_inv uf1 ∧ uf1.n = uf.n ∧ uf1.size = uf.size ∧
      ∀ x, uf_wqupc_root_of uf1 x = uf_wqupc_root_of uf x := by
  have hinv0 := hinv
  obtain ⟨hlen, hrange, hreach⟩ := hinv
  obtain ⟨k, hk, hkr⟩ := links_depth_lt _ uf.n hrange p hp (hreach p)
  have hroot : uf_wqupc_root_of uf p = (uf_entry uf.parent)^[k] p :=
    root_of_eq uf hinv0 p _ k hkr rfl
  obtain ⟨uf1, h1, h2, h3, h4, h5, h6, h7⟩ := root_loop_spec uf.n uf p k _ hk hkr rfl hlen
    hrange hp
  have hinv1 : uf_wqupc_inv uf1 := by
    refine ⟨by rw [h4, hlen, h2], by rw [h2]; exact h5, fun x => ?_⟩
    obtain ⟨j, hj⟩ := hreach x
    obtain ⟨i, -, hi⟩ := h7 j x _ hj rfl
    exact ⟨i, by rw [hi]; exact h6 _ hj⟩
  refine ⟨uf1, by rw [hroot]; exact h1, hinv1, h2, h3, fun x => ?_⟩
  obtain ⟨i, -, hi⟩ := h7 uf.n x _ (root_of_is_root uf hinv0 x) rfl
  exact root_of_eq uf1 hinv1 x _ i (h6 _ (root_of_is_root uf hinv0 x)) hi

theorem uf_create_inv (alloc_ok : Bool) (n : Nat) (uf : algokit_uf_wqupc)
    (hc : algokit_uf_wqupc_create alloc_ok n = some uf) :
    uf_wqupc_inv uf ∧ uf.n = n ∧ ∀ x, uf_wqupc_root_of uf x = x := by
  unfold algokit_uf_wqupc_create at hc
  split_ifs at hc with h
  simp only [Option.some.injEq] at hc
  subst hc
  have hid : ∀ x, uf_entry (List.range n) x = x := by
    intro x
    simp only [uf_entry, List.getD_eq_getElem?_getD]
    by_cases hx : x < n
    · simp [List.getElem?_range hx]
    · rw [List.getElem?_eq_none (by simpa using hx)]
      rfl
  refine ⟨⟨by simp, fun p hp => by rw [hid]; exact hp, fun p => ⟨0, by simp [hid]⟩⟩, rfl,
    fun x => ?_⟩
  unfold uf_wqupc_root_of
  exact links_fixed _ x (hid x) n

/-- Linking the root `a` under the root `b`, as `union` does: the invariant
is kept, the elements of the tree of `a` get the root `b`, and every other
element keeps its root. -/
theorem link_spec (uf : algokit_uf_wqupc) (hinv : uf_wqupc_inv uf) (a b : Nat) (sz : List Nat)
    (ha : uf_entry uf.parent a = a) (hb : uf_entry uf.parent b = b) (hab : a ≠ b)
    (han : a < uf.n) (hbn : b < uf.n) :
    uf_wqupc_inv ⟨uf.n, uf.parent.set a b, sz⟩ ∧
    ∀ x, uf_wqupc_root_of ⟨uf.n, uf.parent.set a b, sz⟩ x =
      if uf_wqupc_root_of uf x = a then b else uf_wqupc_root_of uf x := by
  have hinv0 := hinv
  obtain ⟨hlen, hrange, hreach⟩ := hinv
  have hf1 := uf_entry_set uf.parent a b (by rw [hlen]; exact han)
  have hrootnew : ∀ r, uf_entry uf.parent r = r →
      Function.update (uf_entry uf.parent) a b (if r = a then b else r) =
        if r = a then b else r := by
    intro r hr
    by_cases hra : r = a
    · rw [if_pos hra, Function.update_noteq (Ne.symm hab)]
      exact hb
    · rw [if_neg hra, Function.update_noteq hra]
      exact hr
  have hinv1 : uf_wqupc_inv ⟨uf.n, uf.parent.set a b, sz⟩ := by
    refine ⟨by simpa using hlen, ?_, ?_⟩
    · intro p hp
      simp only [hf1, Function.update_apply]
      split_ifs
      · exact hbn
      · exact hrange p hp
    · intro x
      obtain ⟨k, hk⟩ := hreach x
      obtain ⟨j, hj⟩ := links_link _ a b ha hab k x _ hk rfl
      refine ⟨j, ?_⟩
      simp only [hf1]
      rw [hj]
      exact hrootnew _ hk
  refine ⟨hinv1, fun x => ?_⟩
  obtain ⟨j, hj⟩ := links_link _ a b ha hab uf.n x _ (root_of_is_root uf hinv0 x) rfl
  refine root_of_eq _ hinv1 x _ j ?_ ?_
  · simp only [hf1]
    exact hrootnew _ (root_of_is_root uf hinv0 x)
  · simp only [hf1]
    exact hj

end uf_wqupc_lemmas

/-! ## Weighted quick-union: the calls and the closure of the unioned pairs -/

section uf_wqupc_calls

/-- A call of `find` with an index below `n` returns 0 with the root of `p`,
keeps the invariant and changes the root of no element. -/
theorem uf_find_spec (uf : algokit_uf_wqupc) (hinv : uf_wqupc_inv uf) (p : Nat) (hp : p < uf.n) :
    ∃ uf1, algokit_uf_wqupc_find uf p = some (0, some (uf_wqupc_root_of uf p), uf1) ∧
      uf_wqupc_inv uf1 ∧ uf1.n = uf.n ∧
      ∀ x, uf_wqupc_root_of uf1 x = uf_wqupc_root_of uf x := by
  obtain ⟨uf1, h1, h2, h3, -, h5⟩ := root_call uf hinv p hp
  refine ⟨uf1, ?_, h2, h3, h5⟩
  unfold algokit_uf_wqupc_find
  rw [if_neg (by omega), h1]

/-- A call of `connected` with indices below `n` returns 0 and reports whether
the two roots are equal; it keeps the invariant and changes the root of no
element. -/
theorem uf_connected_spec (uf : algokit_uf_wqupc) (hinv : uf_wqupc_inv uf) (p q : Nat)
    (hp : p < uf.n) (hq : q < uf.n) :
    ∃ uf2, algokit_uf_wqupc_connected uf p q =
        some (0, some (if uf_wqupc_root_of uf p = uf_wqupc_root_of uf q then 1 else 0), uf2) ∧
      uf_wqupc_inv uf2 ∧ uf2.n = uf.n ∧
      ∀ x, uf_wqupc_root_of uf2 x = uf_wqupc_root_of uf x := by
  obtain ⟨uf1, h1, h2, h3, -, h5⟩ := root_call uf hinv p hp
  obtain ⟨uf2, g1, g2, g3, -, g5⟩ := root_call uf1 h2 q (by rw [h3]; exact hq)
  refine ⟨uf2, ?_, g2, by rw [g3, h3], fun x => by rw [g5, h5]⟩
  unfold algokit_uf_wqupc_connected
  rw [if_neg (by omega), h1]
  simp only [g1, h5]

/-- A call of `union` with indices below `n` returns 0 and keeps the
invariant; it moves the elements of one of the two trees to the root of the
other and keeps the root of every other element. -/
theorem uf_union_spec (uf : algokit_uf_wqupc) (hinv : uf_wqupc_inv uf) (p q : Nat)
    (hp : p < uf.n) (hq : q < uf.n) :
    ∃ uf3, algokit_uf_wqupc_union uf p q = some (0, uf3) ∧ uf_wqupc_inv uf3 ∧ uf3.n = uf.n ∧
      ∃ a b, ((a = uf_wqupc_root_of uf p ∧ b = uf_wqupc_root_of uf q) ∨
          (a = uf_wqupc_root_of uf q ∧ b = uf_wqupc_root_of uf p)) ∧
        ∀ x, uf_wqupc_root_of uf3 x =
          if uf_wqupc_root_of uf x = a then b else uf_wqupc_root_of uf x := by
  obtain ⟨uf1, h1, h2, h3, -, h5⟩ := root_call uf hinv p hp
  obtain ⟨uf2, g1, g2, g3, -, g5⟩ := root_call uf1 h2 q (by rw [h3]; exact hq)
  have hroots : ∀ x, uf_wqupc_root_of uf2 x = uf_wqupc_root_of uf x :=
    fun x => by rw [g5, h5]
  have hn2 : uf2.n = uf.n := by rw [g3, h3]
  have hrp : uf_entry uf2.parent (uf_wqupc_root_of uf p) = uf_wqupc_root_of uf p := by
    rw [← hroots p]; exact root_of_is_root uf2 g2 p
  have hrq : uf_entry uf2.parent (uf_wqupc_root_of uf q) = uf_wqupc_root_of uf q := by
    rw [← hroots q]; exact root_of_is_root uf2 g2 q
  have hrpn : uf_wqupc_root_of uf p < uf2.n := by
    rw [hn2]; exact root_of_lt uf hinv p hp
  have hrqn : uf_wqupc_root_of uf q < uf2.n := by
    rw [hn2]; exact root_of_lt uf hinv q hq
  unfold algokit_uf_wqupc_union
  rw [if_neg (by omega), h1]
  simp only [g1, h5]
  by_cases heq : uf_wqupc_root_of uf p = uf_wqupc_root_of uf q
  · rw [if_pos heq]
    refine ⟨uf2, rfl, g2, hn2, _, _, Or.inl ⟨rfl, rfl⟩, fun x => ?_⟩
    rw [hroots x]
    split_ifs with h
    · rw [h, heq]
    · rfl
  · rw [if_neg heq]
    by_cases hsz : uf_entry uf2.size (uf_wqupc_root_of uf p) <
        uf_entry uf2.size (uf_wqupc_root_of uf q)
    · rw [if_pos hsz]
      obtain ⟨l1, l2⟩ := link_spec uf2 g2 _ _
        (uf2.size.set (uf_wqupc_root_of uf q) (uf_entry uf2.size (uf_wqupc_root_of uf q) +
          uf_entry uf2.size (uf_wqupc_root_of uf p))) hrp hrq heq hrpn hrqn
      refine ⟨_, rfl, l1, hn2, _, _, Or.inl ⟨rfl, rfl⟩, fun x => ?_⟩
      rw [l2 x, hroots x]
    · rw [if_neg hsz]
      obtain ⟨l1, l2⟩ := link_spec uf2 g2 _ _
        (uf2.size.set (uf_wqupc_root_of uf p) (uf_entry uf2.size (uf_wqupc_root_of uf p) +
          uf_entry uf2.size (uf_wqupc_root_of uf q))) hrq hrp (Ne.symm heq) hrqn hrpn
      refine ⟨_, rfl, l1, hn2, _, _, Or.inr ⟨rfl, rfl⟩, fun x => ?_⟩
      rw [l2 x, hroots x]

/-- Adding one pair to a relation: its equivalence closure joins the classes
of the two elements and nothing else. -/
theorem eqvgen_add_pair (R : Nat → Nat → Prop) (p q x y : Nat) :
    Relation.EqvGen (fun a b => R a b ∨ (a = p ∧ b = q)) x y ↔
      (Relation.EqvGen R x y ∨ (Relation.EqvGen R x p ∧ Relation.EqvGen R q y) ∨ (Relation.EqvGen R x q ∧ Relation.EqvGen R p y)) := by
  constructor
  · intro h
    induction h with
    | rel a b hab =>
      rcases hab with h | ⟨rfl, rfl⟩
      · exact Or.inl (Relation.EqvGen.rel _ _ h)
      · exact Or.inr (Or.inl ⟨Relation.EqvGen.refl _, Relation.EqvGen.refl _⟩)
    | refl a => exact Or.inl (Relation.EqvGen.refl _)
    | symm a b _ ih =>
      rcases ih with h | ⟨h1, h2⟩ | ⟨h1, h2⟩
      · exact Or.inl (Relation.EqvGen.symm _ _ h)
      · exact Or.inr (Or.inr ⟨Relation.EqvGen.symm _ _ h2, Relation.EqvGen.symm _ _ h1⟩)
      · exact Or.inr (Or.inl ⟨Relation.EqvGen.symm _ _ h2, Relation.EqvGen.symm _ _ h1⟩)
    | trans a b c _ _ ih1 ih2 =>
      rcases ih1 with h | ⟨h1, h2⟩ | ⟨h1, h2⟩ <;> rcases ih2 with g | ⟨g1, g2⟩ | ⟨g1, g2⟩
      · exact Or.inl (Relation.EqvGen.trans _ _ _ h g)
      · exact Or.inr (Or.inl ⟨Relation.EqvGen.trans _ _ _ h g1, g2⟩)
      · exact Or.inr (Or.inr ⟨Relation.EqvGen.trans _ _ _ h g1, g2⟩)
      · exact Or.inr (Or.inl ⟨h1, Relation.EqvGen.trans _ _ _ h2 g⟩)
      · exact Or.inr (Or.inl ⟨h1, g2⟩)
      · exact Or.inl (Relation.EqvGen.trans _ _ _ h1 g2)
      · exact Or.inr (Or.inr ⟨h1, Relation.EqvGen.trans _ _ _ h2 g⟩)
      · exact Or.inl (Relation.EqvGen.trans _ _ _ h1 g2)
      · exact Or.inr (Or.inr ⟨h1, g2⟩)
  · have hmono : ∀ a b, Relation.EqvGen R a b → Relation.EqvGen (fun a b => R a b ∨ (a = p ∧ b = q)) a b :=
      fun a b h => Relation.EqvGen.mono (fun a b hab => Or.inl hab) h
    have hpq : Relation.EqvGen (fun a b => R a b ∨ (a = p ∧ b = q)) p q :=
      Relation.EqvGen.rel _ _ (Or.inr ⟨rfl, rfl⟩)
    rintro (h | ⟨h1, h2⟩ | ⟨h1, h2⟩)
    · exact hmono _ _ h
    · exact Relation.EqvGen.trans _ _ _ (hmono _ _ h1) (Relation.EqvGen.trans _ _ _ hpq (hmono _ _ h2))
    · exact Relation.EqvGen.trans _ _ _ (hmono _ _ h1)
        (Relation.EqvGen.trans _ _ _ (Relation.EqvGen.symm _ _ hpq) (hmono _ _ h2))

theorem unioned_append (n : Nat) (done : List uf_wqupc_op) (op : uf_wqupc_op) (a b : Nat) :
    uf_wqupc_unioned n (done ++ [op]) a b ↔
      (uf_wqupc_unioned n done a b ∨ (a < n ∧ b < n ∧ op = uf_wqupc_op.union a b)) := by
  simp only [uf_wqupc_unioned, List.mem_append, List.mem_singleton]
  constructor
  · rintro ⟨h1, h2, h3 | h3⟩
    · exact Or.inl ⟨h1, h2, h3⟩
    · exact Or.inr ⟨h1, h2, h3.symm⟩
  · rintro (⟨h1, h2, h3⟩ | ⟨h1, h2, h3⟩)
    · exact ⟨h1, h2, Or.inl h3⟩
    · exact ⟨h1, h2, Or.inr h3.symm⟩

theorem eqvgen_congr (R S : Nat → Nat → Prop) (h : ∀ a b, R a b ↔ S a b) (x y : Nat) :
    Relation.EqvGen R x y ↔ Relation.EqvGen S x y :=
  ⟨Relation.EqvGen.mono (fun a b => (h a b).1), Relation.EqvGen.mono (fun a b => (h a b).2)⟩

/-- Every sequence of calls returns; it keeps the invariant, and two elements
have the same root afterwards exactly when they are joined by the closure of
the pairs unioned so far. -/
theorem uf_run_spec :
    ∀ (ops done : List uf_wqupc_op) (uf : algokit_uf_wqupc), uf_wqupc_inv uf →
      (∀ x y, x < uf.n → y < uf.n →
        (uf_wqupc_root_of uf x = uf_wqupc_root_of uf y ↔
          Relation.EqvGen (uf_wqupc_unioned uf.n done) x y)) →
      ∃ uf1, uf_wqupc_run uf ops = some uf1 ∧ uf_wqupc_inv uf1 ∧ uf1.n = uf.n ∧
        ∀ x y, x < uf.n → y < uf.n →
          (uf_wqupc_root_of uf1 x = uf_wqupc_root_of uf1 y ↔
            Relation.EqvGen (uf_wqupc_unioned uf.n (done ++ ops)) x y) := by
  intro ops
  induction ops with
  | nil =>
    intro done uf hinv hrel
    exact ⟨uf, rfl, hinv, rfl, by simpa using hrel⟩
  | cons op ops ih =>
    intro done uf hinv hrel
    have hstep : ∃ uf1, uf_wqupc_step uf op = some uf1 ∧ uf_wqupc_inv uf1 ∧ uf1.n = uf.n ∧
        ∀ x y, x < uf.n → y < uf.n →
          (uf_wqupc_root_of uf1 x = uf_wqupc_root_of uf1 y ↔
            Relation.EqvGen (uf_wqupc_unioned uf.n (done ++ [op])) x y) := by
      have hsame : ∀ op1, (∀ a b, op1 ≠ uf_wqupc_op.union a b ∨ ¬ (a < uf.n ∧ b < uf.n)) →
          ∀ x y, Relation.EqvGen (uf_wqupc_unioned uf.n done) x y ↔
            Relation.EqvGen (uf_wqupc_unioned uf.n (done ++ [op1])) x y := by
        intro op1 hop x y
        apply eqvgen_congr
        intro a b
        rw [unioned_append]
        constructor
        · exact fun h => Or.inl h
        · rintro (h | ⟨h1, h2, h3⟩)
          · exact h
          · rcases hop a b with h | h
            · exact absurd h3 h
            · exact absurd ⟨h1, h2⟩ h
      cases op with
      | find p =>
        by_cases hp : p < uf.n
        · obtain ⟨uf1, h1, h2, h3, h4⟩ := uf_find_spec uf hinv p hp
          refine ⟨uf1, by simp [uf_wqupc_step, h1], h2, h3, fun x y hx hy => ?_⟩
          rw [h4, h4, hrel x y hx hy]
          exact hsame _ (fun a b => Or.inl (by simp)) x y
        · refine ⟨uf, ?_, hinv, rfl, fun x y hx hy => ?_⟩
          · simp [uf_wqupc_step, algokit_uf_wqupc_find, Nat.le_of_not_lt hp]
          · rw [hrel x y hx hy]
            exact hsame _ (fun a b => Or.inl (by simp)) x y
      | connected p q =>
        by_cases hpq : p < uf.n ∧ q < uf.n
        · obtain ⟨uf1, h1, h2, h3, h4⟩ := uf_connected_spec uf hinv p q hpq.1 hpq.2
          refine ⟨uf1, by simp [uf_wqupc_step, h1], h2, h3, fun x y hx hy => ?_⟩
          rw [h4, h4, hrel x y hx hy]
          exact hsame _ (fun a b => Or.inl (by simp)) x y
        · refine ⟨uf, ?_, hinv, rfl, fun x y hx hy => ?_⟩
          · have : p ≥ uf.n ∨ q ≥ uf.n := by omega
            simp [uf_wqupc_step, algokit_uf_wqupc_connected, this]
          · rw [hrel x y hx hy]
            exact hsame _ (fun a b => Or.inl (by simp)) x y
      | union p q =>
        by_cases hpq : p < uf.n ∧ q < uf.n
        · obtain ⟨uf1, h1, h2, h3, a, b, hab, h4⟩ := uf_union_spec uf hinv p q hpq.1 hpq.2
          refine ⟨uf1, by simp [uf_wqupc_step, h1], h2, h3, fun x y hx hy => ?_⟩
          have hcl : Relation.EqvGen (uf_wqupc_unioned uf.n (done ++ [uf_wqupc_op.union p q])) x y ↔
              Relation.EqvGen (fun a b => uf_wqupc_unioned uf.n done a b ∨ (a = p ∧ b = q)) x y := by
            apply eqvgen_congr
            intro a b
            rw [unioned_append]
            constructor
            · rintro (h | ⟨-, -, h3⟩)
              · exact Or.inl h
              · simp only [uf_wqupc_op.union.injEq] at h3
                exact Or.inr ⟨h3.1.symm, h3.2.symm⟩
            · rintro (h | ⟨rfl, rfl⟩)
              · exact Or.inl h
              · exact Or.inr ⟨hpq.1, hpq.2, rfl⟩
          rw [hcl, eqvgen_add_pair, ← hrel x y hx hy, ← hrel x p hx hpq.1,
            ← hrel q y hpq.2 hy, ← hrel x q hx hpq.2, ← hrel p y hpq.1 hy, h4 x, h4 y]
          rcases hab with ⟨rfl, rfl⟩ | ⟨rfl, rfl⟩ <;> split_ifs <;> omega
        · refine ⟨uf, ?_, hinv, rfl, fun x y hx hy => ?_⟩
          · have : p ≥ uf.n ∨ q ≥ uf.n := by omega
            simp [uf_wqupc_step, algokit_uf_wqupc_union, this]
          · rw [hrel x y hx hy]
            refine hsame _ (fun a b => ?_) x y
            by_cases hab : a < uf.n ∧ b < uf.n
            · left
              intro he
              simp only [uf_wqupc_op.union.injEq] at he
              apply hpq
              rw [he.1, he.2]
              exact hab
            · exact Or.inr hab
    obtain ⟨uf1, h1, h2, h3, h4⟩ := hstep
    obtain ⟨uf2, g1, g2, g3, g4⟩ := ih (done ++ [op]) uf1 h2 (by
      intro x y hx hy
      rw [h3] at hx hy ⊢
      exact h4 x y hx hy)
    refine ⟨uf2, by simp [uf_wqupc_run, h1, g1], g2, by rw [g3, h3], fun x y hx hy => ?_⟩
    have := g4 x y (by rw [h3]; exact hx) (by rw [h3]; exact hy)
    rw [h3, List.append_assoc] at this
    exact this

theorem eqvgen_no_union (n : Nat) (x y : Nat)
    (h : Relation.EqvGen (uf_wqupc_unioned n []) x y) : x = y := by
  induction h with
  | rel a b hab => exact absurd hab.2.2 (by simp)
  | refl a => rfl
  | symm a b _ ih => exact ih.symm
  | trans a b c _ _ ih1 ih2 => exact ih1.trans ih2

/-- Every reachable state satisfies the invariant. -/
theorem uf_reachable_inv (uf : algokit_uf_wqupc) (hr : uf_wqupc_reachable uf) :
    uf_wqupc_inv uf := by
  obtain ⟨n, ops, uf0, hc, hrun⟩ := hr
  obtain ⟨i0, n0, r0⟩ := uf_create_inv true n uf0 hc
  obtain ⟨uf1, h1, h2, -⟩ := uf_run_spec ops [] uf0 i0 (by
    intro x y _ _
    rw [r0, r0]
    constructor
    · rintro rfl; exact Relation.EqvGen.refl _
    · exact eqvgen_no_union _ x y)
  rw [hrun] at h1
  simp only [Option.some.injEq] at h1
  rw [h1]
  exact h2

end uf_wqupc_calls

/-! ## Weighted quick-union: the properties of the structure -/

section uf_wqupc_claims

/-- C15: connectivity of the weighted union-find.  For every `n` and every
sequence of `union`, `find` and `connected` calls on the structure of
`algokit_uf_wqupc_create(n)`, every call returns, and afterwards
`algokit_uf_wqupc_connected(p, q)` for `p, q < n` returns 0 and writes 1 if
`(p, q)` lies in the reflexive, symmetric, transitive closure of the pairs of
the `union` calls with indices below `n`, and writes 0 if it does not. -/
theorem uf_wqupc_connected_iff_closure (n : Nat) (ops : List uf_wqupc_op)
    (uf0 : algokit_uf_wqupc) (hcreate : algokit_uf_wqupc_create true n = some uf0) :
    ∃ uf, uf_wqupc_run uf0 ops = some uf ∧
      ∀ p q, p < n → q < n →
        ∃ out uf1, algokit_uf_wqupc_connected uf p q = some (0, some out, uf1) ∧
          (out = 1 ∨ out = 0) ∧
          (out = 1 ↔ Relation.EqvGen (uf_wqupc_unioned n ops) p q) := by
  obtain ⟨i0, n0, r0⟩ := uf_create_inv true n uf0 hcreate
  obtain ⟨uf, h1, h2, h3, h4⟩ := uf_run_spec ops [] uf0 i0 (by
    intro x y _ _
    rw [r0, r0]
    constructor
    · rintro rfl; exact Relation.EqvGen.refl _
    · exact eqvgen_no_union _ x y)
  refine ⟨uf, h1, fun p q hp hq => ?_⟩
  rw [n0] at h3 h4
  obtain ⟨uf1, g1, -⟩ := uf_connected_spec uf h2 p q (by rw [h3]; exact hp) (by rw [h3]; exact hq)
  refine ⟨_, uf1, g1, ?_, ?_⟩
  · split_ifs
    · exact Or.inl rfl
    · exact Or.inr rfl
  · have := h4 p q hp hq
    simp only [List.nil_append] at this
    rw [← this]
    split_ifs with h
    · simp [h]
    · simp [h]

theorem uf_wqupc_connected_iff_closure_witness :
    algokit_uf_wqupc_create true 8 = some uf_wqupc_eight ∧
    uf_wqupc_connected_out uf_wqupc_after_test 0 2 = some (some 1) ∧
    uf_wqupc_connected_out uf_wqupc_after_test 0 5 = some (some 0) ∧
    ∃ uf, uf_wqupc_run uf_wqupc_eight uf_wqupc_test_unions = some uf ∧
      ∀ p q, p < 8 → q < 8 →
        ∃ out uf1, algokit_uf_wqupc_connected uf p q = some (0, some out, uf1) ∧
          (out = 1 ∨ out = 0) ∧
          (out = 1 ↔ Relation.EqvGen (uf_wqupc_unioned 8 uf_wqupc_test_unions) p q) :=
  ⟨by decide, by decide, by decide,
    uf_wqupc_connected_iff_closure 8 uf_wqupc_test_unions uf_wqupc_eight (by decide)⟩

/-- C16: `find` is unaffected by unions of other sets.  For every reachable
state and elements `p`, `a`, `b` below `n` such that `connected` reports 0 for
`(p, a)` and for `(p, b)`: `find(p)` returns 0 with a root `r`, the following
`union(a, b)` returns 0, and `find(p)` after it returns 0 with the same root
`r`; the same holds when the `union` is applied to the state before the first
`find`. -/
theorem uf_wqupc_find_after_other_union (uf : algokit_uf_wqupc)
    (hreach : uf_wqupc_reachable uf) (p a b : Nat) (hp : p < uf.n) (ha : a < uf.n)
    (hb : b < uf.n) (hpa : uf_wqupc_connected_out uf p a = some (some 0))
    (hpb : uf_wqupc_connected_out uf p b = some (some 0)) :
    ∃ r uf1 uf2 uf3 uf4 uf5,
      algokit_uf_wqupc_find uf p = some (0, some r, uf1) ∧
      algokit_uf_wqupc_union uf1 a b = some (0, uf2) ∧
      algokit_uf_wqupc_find uf2 p = some (0, some r, uf3) ∧
      algokit_uf_wqupc_union uf a b = some (0, uf4) ∧
      algokit_uf_wqupc_find uf4 p = some (0, some r, uf5) := by
  have hinv := uf_reachable_inv uf hreach
  have hne : ∀ c, c < uf.n → uf_wqupc_connected_out uf p c = some (some 0) →
      uf_wqupc_root_of uf p ≠ uf_wqupc_root_of uf c := by
    intro c hc hout heq
    obtain ⟨uf1, g1, -⟩ := uf_connected_spec uf hinv p c hp hc
    simp only [uf_wqupc_connected_out, g1, Option.map_some', heq, if_true] at hout
    simp at hout
  have hna := hne a ha hpa
  have hnb := hne b hb hpb
  -- a union of two other trees, on a state with the same roots, keeps the root of p
  have hkey : ∀ (s : algokit_uf_wqupc), uf_wqupc_inv s → s.n = uf.n →
      (∀ x, uf_wqupc_root_of s x = uf_wqupc_root_of uf x) →
      ∃ s2 s3, algokit_uf_wqupc_union s a b = some (0, s2) ∧
        algokit_uf_wqupc_find s2 p = some (0, some (uf_wqupc_root_of uf p), s3) := by
    intro s hs hn hroots
    obtain ⟨s2, u1, u2, u3, x, y, hxy, u4⟩ := uf_union_spec s hs a b (by rw [hn]; exact ha)
      (by rw [hn]; exact hb)
    obtain ⟨s3, f1, -⟩ := uf_find_spec s2 u2 p (by rw [u3, hn]; exact hp)
    refine ⟨s2, s3, u1, ?_⟩
    rw [f1, u4 p, hroots p]
    have hx : uf_wqupc_root_of uf p ≠ x := by
      rcases hxy with ⟨rfl, -⟩ | ⟨rfl, -⟩
      · rw [hroots a]; exact hna
      · rw [hroots b]; exact hnb
    rw [if_neg hx]
  obtain ⟨uf1, f1, i1, n1, r1⟩ := uf_find_spec uf hinv p hp
  obtain ⟨uf2, uf3, k1, k2⟩ := hkey uf1 i1 n1 r1
  obtain ⟨uf4, uf5, k3, k4⟩ := hkey uf hinv rfl (fun _ => rfl)
  exact ⟨_, uf1, uf2, uf3, uf4, uf5, f1, k1, k2, k3, k4⟩

theorem uf_wqupc_find_after_other_union_witness :
    (uf_wqupc_reachable uf_wqupc_after_test ∧ 0 < uf_wqupc_after_test.n ∧
      3 < uf_wqupc_after_test.n ∧ 6 < uf_wqupc_after_test.n ∧
      uf_wqupc_connected_out uf_wqupc_after_test 0 3 = some (some 0) ∧
      uf_wqupc_connected_out uf_wqupc_after_test 0 6 = some (some 0)) ∧
    ∃ r uf1 uf2 uf3 uf4 uf5,
      algokit_uf_wqupc_find uf_wqupc_after_test 0 = some (0, some r, uf1) ∧
      algokit_uf_wqupc_union uf1 3 6 = some (0, uf2) ∧
      algokit_uf_wqupc_find uf2 0 = some (0, some r, uf3) ∧
      algokit_uf_wqupc_union uf_wqupc_after_test 3 6 = some (0, uf4) ∧
      algokit_uf_wqupc_find uf4 0 = some (0, some r, uf5) :=
  ⟨⟨⟨8, uf_wqupc_test_unions, uf_wqupc_eight, by decide, by decide⟩, by decide, by decide,
      by decide, by decide, by decide⟩,
    uf_wqupc_find_after_other_union uf_wqupc_after_test
      ⟨8, uf_wqupc_test_unions, uf_wqupc_eight, by decide, by decide⟩ 0 3 6 (by decide)
      (by decide) (by decide) (by decide) (by decide)⟩

end uf_wqupc_claims

/-! ## Breadth-first search: the loop visits the reachable vertices -/

section bfs_lemmas

variable {K : Type}

/-- A list of different numbers below `n` has at most `n` entries. -/
theorem nodup_lt_length_le (l : List Nat) (n : Nat) (hnd : l.Nodup) (hlt : ∀ v ∈ l, v < n) :
    l.length ≤ n := by
  have h1 : l.toFinset ⊆ Finset.range n := by
    intro v hv
    rw [List.mem_toFinset] at hv
    exact Finset.mem_range.2 (hlt v hv)
  have h2 := Finset.card_le_card h1
  rw [List.toFinset_card_of_nodup hnd, Finset.card_range] at h2
  exact h2

theorem getD_set_bool (l : List Bool) (i j : Nat) (b : Bool) (hi : i < l.length) :
    (l.set i b).getD j false = if j = i then b else l.getD j false := by
  simp only [List.getD_eq_getElem?_getD]
  by_cases h : j = i
  · subst h
    simp [hi]
  · simp [h, List.getElem?_set_ne (Ne.symm h)]

/-- The inner loop of the search: it appends to the queue the targets that
were not marked, each once, and marks them; afterwards every target is in the
queue. -/
theorem bfs_edges_spec (n : Nat) :
    ∀ (es : List Nat) (visited : List Bool) (queue : List Nat), visited.length = n →
      (∀ w ∈ es, w < n) → queue.Nodup →
      (∀ v, v < n → (visited.getD v false = true ↔ v ∈ queue)) →
      (bfs_edges es visited queue).1.length = n ∧ (bfs_edges es visited queue).2.Nodup ∧
      (∀ v, v < n → ((bfs_edges es visited queue).1.getD v false = true ↔
        v ∈ (bfs_edges es visited queue).2)) ∧
      (∃ extra, (bfs_edges es visited queue).2 = queue ++ extra ∧ ∀ x ∈ extra, x ∈ es) ∧
      ∀ w ∈ es, w ∈ (bfs_edges es visited queue).2 := by
  intro es
  induction es with
  | nil =>
    intro visited queue hl _ hnd hv
    exact ⟨hl, hnd, hv, ⟨[], by simp [bfs_edges], by simp⟩, by simp⟩
  | cons e es ih =>
    intro visited queue hl hes hnd hv
    have he : e < n := hes e (List.mem_cons_self _ _)
    have hes1 : ∀ w ∈ es, w < n := fun w hw => hes w (List.mem_cons_of_mem _ hw)
    rw [bfs_edges]
    by_cases hvis : visited.getD e false = false
    · rw [if_pos hvis]
      have hnot : e ∉ queue := by
        intro hin
        rw [(hv e he).2 hin] at hvis
        exact absurd hvis (by decide)
      obtain ⟨h1, h2, h3, ⟨extra, h4, h5⟩, h6⟩ := ih (visited.set e true) (queue ++ [e])
        (by simpa using hl) hes1
        (List.nodup_append.2 ⟨hnd, List.nodup_singleton e, by
          intro a ha hb
          rw [List.mem_singleton] at hb
          exact hnot (hb ▸ ha)⟩)
        (by
          intro v hvn
          rw [getD_set_bool visited e v true (by rw [hl]; exact he)]
          by_cases hve : v = e
          · simp [hve]
          · simp only [hve, if_false, List.mem_append, List.mem_singleton, or_false]
            exact hv v hvn)
      refine ⟨h1, h2, h3, ⟨e :: extra, by rw [h4]; simp, ?_⟩, ?_⟩
      · intro x hx
        rcases List.mem_cons.1 hx with rfl | hx
        · exact List.mem_cons_self _ _
        · exact List.mem_cons_of_mem _ (h5 x hx)
      · intro w hw
        rcases List.mem_cons.1 hw with rfl | hw
        · rw [h4]; simp
        · exact h6 w hw
    · rw [if_neg hvis]
      have hin : e ∈ queue := by
        apply (hv e he).1
        cases hb : visited.getD e false with
        | true => rfl
        | false => exact absurd hb hvis
      obtain ⟨h1, h2, h3, ⟨extra, h4, h5⟩, h6⟩ := ih visited queue hl hes1 hnd hv
      refine ⟨h1, h2, h3, ⟨extra, h4, fun x hx => List.mem_cons_of_mem _ (h5 x hx)⟩, ?_⟩
      intro w hw
      rcases List.mem_cons.1 hw with rfl | hw
      · rw [h4]; exact List.mem_append_left _ hin
      · exact h6 w hw

/-- The loop of the search returns: the keys it passes to `visit` are those
of a duplicate-free list of vertices that starts with the queue it was given,
holds only vertices reachable from `start`, and is closed under the edges. -/
theorem bfs_loop_spec (adj : Nat → List Nat) (key : Nat → Option K) (n start : Nat)
    (hadj : ∀ u v, v ∈ adj u → v < n) :
    ∀ (fuel head : Nat) (queue : List Nat) (visited : List Bool) (visits : List (Option K)),
      n + 1 ≤ fuel + head → visited.length = n → queue.Nodup → (∀ v ∈ queue, v < n) →
      (∀ v, v < n → (visited.getD v false = true ↔ v ∈ queue)) → head ≤ queue.length →
      (∀ v ∈ queue.take head, ∀ w ∈ adj v, w ∈ queue) →
      visits = (queue.take head).map key →
      (∀ v ∈ queue, Relation.ReflTransGen (fun a b => b ∈ adj a) start v) →
      ∃ order : List Nat, bfs_loop adj key fuel head queue visited visits = some (order.map key) ∧
        order.Nodup ∧ (∃ rest, order = queue ++ rest) ∧
        (∀ v ∈ order, v < n ∧ Relation.ReflTransGen (fun a b => b ∈ adj a) start v) ∧
        ∀ v ∈ order, ∀ w ∈ adj v, w ∈ order := by
  intro fuel
  induction fuel with
  | zero =>
    intro head queue visited visits hf hl hnd hlt _ hh _ _ _
    have := nodup_lt_length_le queue n hnd hlt
    omega
  | succ fuel ih =>
    intro head queue visited visits hf hl hnd hlt hv hh hcl hvis hreach
    rw [bfs_loop]
    by_cases hlt2 : head < queue.length
    · rw [if_pos hlt2]
      simp only []
      have hvq : queue.getD head 0 = queue.get ⟨head, hlt2⟩ := by
        simp [List.getD_eq_getElem?_getD, List.getElem?_eq_getElem hlt2]
      have hmem : queue.getD head 0 ∈ queue := by
        rw [hvq]; exact List.get_mem _ _ _
      obtain ⟨h1, h2, h3, ⟨extra, h4, h5⟩, h6⟩ := bfs_edges_spec n (adj (queue.getD head 0))
        visited queue hl (fun w hw => hadj _ w hw) hnd hv
      have htake : (queue ++ extra).take (head + 1) = queue.take head ++ [queue.getD head 0] := by
        rw [List.take_append_of_le_length (by omega), List.take_succ,
          List.getElem?_eq_getElem hlt2, hvq]
        simp
      obtain ⟨order, o1, o2, ⟨rest, o3⟩, o4, o5⟩ := ih (head + 1)
        (bfs_edges (adj (queue.getD head 0)) visited queue).2
        (bfs_edges (adj (queue.getD head 0)) visited queue).1
        (visits ++ [key (queue.getD head 0)]) (by omega) h1 h2
        (by
          intro v hvm
          rw [h4] at hvm
          rcases List.mem_append.1 hvm with h | h
          · exact hlt v h
          · exact hadj _ v (h5 v h))
        h3 (by rw [h4, List.length_append]; omega)
        (by
          rw [h4, htake]
          intro v hvm w hw
          rcases List.mem_append.1 hvm with h | h
          · exact List.mem_append_left _ (hcl v h w hw)
          · rw [List.mem_singleton] at h
            subst h
            rw [← h4]
            exact h6 w hw)
        (by rw [h4, htake, hvis]; simp)
        (by
          intro v hvm
          rw [h4] at hvm
          rcases List.mem_append.1 hvm with h | h
          · exact hreach v h
          · exact Relation.ReflTransGen.tail (hreach _ hmem) (h5 v h))
      refine ⟨order, o1, o2, ⟨extra ++ rest, ?_⟩, o4, o5⟩
      rw [o3, h4, List.append_assoc]
    · rw [if_neg hlt2]
      have hhead : head = queue.length := by omega
      rw [hhead, List.take_length] at hcl hvis
      exact ⟨queue, by rw [hvis], hnd, ⟨[], by simp⟩, fun v hvm => ⟨hlt v hvm, hreach v hvm⟩, hcl⟩

/-- The search from `start`: the loop returns the keys of a duplicate-free
list of vertices that begins with `start` and holds exactly the vertices
reachable from `start`. -/
theorem bfs_from_start (adj : Nat → List Nat) (key : Nat → Option K) (n start : Nat)
    (hadj : ∀ u v, v ∈ adj u → v < n) (hs : start < n) :
    ∃ order : List Nat, bfs_loop adj key (n + 1) 0 [start] ((List.replicate n false).set start true) [] =
        some (order.map key) ∧
      order.Nodup ∧ order.head? = some start ∧
      ∀ v, v ∈ order ↔ Relation.ReflTransGen (fun a b => b ∈ adj a) start v := by
  obtain ⟨order, o1, o2, ⟨rest, o3⟩, o4, o5⟩ := bfs_loop_spec adj key n start hadj (n + 1) 0
    [start] ((List.replicate n false).set start true) [] (by omega) (by simp)
    (List.nodup_singleton _) (by simpa using hs)
    (by
      intro v hv
      rw [getD_set_bool _ start v true (by simpa using hs)]
      by_cases hvs : v = start
      · simp [hvs]
      · simp [hvs, List.getD_eq_getElem?_getD, List.getElem?_replicate, hv])
    (by simp) (by simp) (by simp)
    (by
      intro v hv
      rw [List.mem_singleton] at hv
      rw [hv])
  refine ⟨order, o1, o2, by rw [o3]; rfl, fun v => ⟨fun h => (o4 v h).2, fun h => ?_⟩⟩
  induction h with
  | refl => rw [o3]; simp
  | tail _ hbc ih => exact o5 _ ih _ hbc

end bfs_lemmas

/-! ## Breadth-first search on both kinds of graph -/

section bfs_graphs

variable {K W : Type}

theorem digraph_adj_lt (g : algokit_digraph K) (hwf : digraph_wf g) (u v : Nat)
    (h : v ∈ algokit_digraph_adj g u) : v < g.size := by
  unfold algokit_digraph_adj at h
  cases hv : g.vertices.get? u with
  | none => rw [hv] at h; simp at h
  | some vx =>
    rw [hv] at h
    exact hwf.2.1 vx (List.get?_mem hv) v h

theorem graph_adj_lt (g : algokit_graph K W) (hwf : graph_wf g) (u v : Nat)
    (h : v ∈ algokit_graph_adj g u) : v < g.size := by
  unfold algokit_graph_adj at h
  cases hv : g.vertices.get? u with
  | none => rw [hv] at h; simp at h
  | some vx =>
    rw [hv] at h
    simp only [List.mem_map] at h
    obtain ⟨e, he, rfl⟩ := h
    exact hwf.2.1 vx (List.get?_mem hv) e he

/-- An index that the probe of the key map finds is stored in a slot. -/
theorem map_find_mem (cmp : K → K → Int) (map : algokit_digraph_map K) (key : K) :
    ∀ (n idx index : Nat), algokit_digraph_map_find cmp map key n idx = some (some index) →
      ∃ k, algokit_digraph_map_entry.occupied k index ∈ map.entries := by
  intro n
  induction n with
  | zero => intro idx index h; simp [algokit_digraph_map_find] at h
  | succ n ih =>
    intro idx index h
    rw [algokit_digraph_map_find] at h
    cases hs : map.entries.getD idx algokit_digraph_map_entry.empty with
    | empty => rw [hs] at h; simp at h
    | occupied k i =>
      rw [hs] at h
      simp only at h
      split_ifs at h with hc
      · simp only [Option.some.injEq] at h
        subst h
        refine ⟨k, ?_⟩
        rw [List.getD_eq_getElem?_getD] at hs
        cases hg : map.entries[idx]? with
        | none => rw [hg] at hs; simp at hs
        | some e =>
          rw [hg] at hs
          simp only [Option.getD_some] at hs
          subst hs
          exact List.mem_iff_getElem?.2 ⟨idx, hg⟩
      · exact ih _ index h

/-- The index that `map_get` writes is stored in a slot of the map. -/
theorem map_get_mem (hash : K → Nat) (cmp : K → K → Int) (map : algokit_digraph_map K)
    (key : K) (rc : Int) (start : Nat)
    (h : algokit_digraph_map_get hash cmp map key = some (rc, some start)) :
    ∃ k, algokit_digraph_map_entry.occupied k start ∈ map.entries := by
  unfold algokit_digraph_map_get at h
  cases hf : algokit_digraph_map_find cmp map key map.capacity (hash key % map.capacity) with
  | none => rw [hf] at h; simp at h
  | some r =>
    rw [hf] at h
    cases r with
    | none => simp at h
    | some i =>
      simp only [Option.some.injEq, Prod.mk.injEq] at h
      obtain ⟨-, rfl⟩ := h
      exact map_find_mem cmp map key _ _ _ hf

theorem map_get_codes (hash : K → Nat) (cmp : K → K → Int) (map : algokit_digraph_map K)
    (key : K) (rc : Int) (out : Option Nat)
    (h : algokit_digraph_map_get hash cmp map key = some (rc, out)) :
    (rc = 0 ∧ ∃ start, out = some start) ∨ (rc = 1 ∧ out = none) := by
  unfold algokit_digraph_map_get at h
  cases hf : algokit_digraph_map_find cmp map key map.capacity (hash key % map.capacity) with
  | none => rw [hf] at h; simp at h
  | some r =>
    rw [hf] at h
    cases r with
    | none =>
      simp only [Option.some.injEq, Prod.mk.injEq] at h
      exact Or.inr ⟨h.1.symm, h.2.symm⟩
    | some i =>
      simp only [Option.some.injEq, Prod.mk.injEq] at h
      exact Or.inl ⟨h.1.symm, i, h.2.symm⟩

theorem index_below_lt (n : Nat) (k : K) (i : Nat)
    (h : algokit_digraph_map_entry.index_below n (algokit_digraph_map_entry.occupied k i) = true) :
    i < n := by
  simpa [algokit_digraph_map_entry.index_below] using h

theorem digraph_vertex_key_some (g : algokit_digraph K) (hwf : digraph_wf g) (v : Nat)
    (hv : v < g.size) : ∃ k, algokit_digraph_vertex_key g v = some k := by
  unfold algokit_digraph_vertex_key
  rw [if_neg (by omega)]
  have hl : v < g.vertices.length := by rw [hwf.1]; exact hv
  exact ⟨(g.vertices.get ⟨v, hl⟩).key, by simp [List.getElem?_eq_getElem hl]⟩

theorem graph_vertex_key_some (g : algokit_graph K W) (hwf : graph_wf g) (v : Nat)
    (hv : v < g.size) : ∃ k, algokit_graph_vertex_key g v = some k := by
  unfold algokit_graph_vertex_key
  rw [if_neg (by omega)]
  have hl : v < g.vertices.length := by rw [hwf.1]; exact hv
  exact ⟨(g.vertices.get ⟨v, hl⟩).key, by simp [List.getElem?_eq_getElem hl]⟩

end bfs_graphs

/-! ## Building a graph keeps the representation invariant -/

section graph_build_lemmas

variable {K W : Type}

theorem forall_mem_modify {α : Type} (p : α → Prop) (f : α → α) (hf : ∀ a, p a → p (f a)) :
    ∀ (l : List α) (n : Nat), (∀ a ∈ l, p a) → ∀ a ∈ List.modify f n l, p a := by
  intro l
  induction l with
  | nil => intro n _ a ha; simp at ha
  | cons b l ih =>
    intro n h a ha
    cases n with
    | zero =>
      rw [List.modify_zero_cons] at ha
      rcases List.mem_cons.1 ha with rfl | ha
      · exact hf b (h b (List.mem_cons_self _ _))
      · exact h a (List.mem_cons_of_mem _ ha)
    | succ n =>
      rw [List.modify_succ_cons] at ha
      rcases List.mem_cons.1 ha with rfl | ha
      · exact h a (List.mem_cons_self _ _)
      · exact ih n (fun x hx => h x (List.mem_cons_of_mem _ hx)) a ha

theorem index_below_mono (n m : Nat) (hnm : n ≤ m) (e : algokit_digraph_map_entry K)
    (h : algokit_digraph_map_entry.index_below n e = true) :
    algokit_digraph_map_entry.index_below m e = true := by
  cases e with
  | empty => rfl
  | occupied k i =>
    simp only [algokit_digraph_map_entry.index_below, decide_eq_true_eq] at h ⊢
    omega

/-- The function `map_resize` stores no index that was not stored before. -/
theorem map_resize_index_below (hash : K → Nat) (alloc_ok : Bool) (n : Nat)
    (map : algokit_digraph_map K) (new_capacity : Nat) (rc : Int) (m : algokit_digraph_map K)
    (h : ∀ e ∈ map.entries, algokit_digraph_map_entry.index_below n e = true)
    (hr : algokit_digraph_map_resize hash alloc_ok map new_capacity = some (rc, m)) :
    ∀ e ∈ m.entries, algokit_digraph_map_entry.index_below n e = true := by
  have hfold : ∀ (es : List (algokit_digraph_map_entry K)) (acc m1 : algokit_digraph_map K),
      (∀ e ∈ es, algokit_digraph_map_entry.index_below n e = true) →
      (∀ e ∈ acc.entries, algokit_digraph_map_entry.index_below n e = true) →
      es.foldl (algokit_digraph_map_resize_step hash) (some acc) = some m1 →
      ∀ e ∈ m1.entries, algokit_digraph_map_entry.index_below n e = true := by
    intro es
    induction es with
    | nil =>
      intro acc m1 _ hacc hf
      simp only [List.foldl_nil, Option.some.injEq] at hf
      rw [← hf]
      exact hacc
    | cons e es ih =>
      intro acc m1 hes hacc hf
      rw [List.foldl_cons] at hf
      cases e with
      | empty =>
        exact ih acc m1 (fun x hx => hes x (List.mem_cons_of_mem _ hx)) hacc hf
      | occupied k i =>
        simp only [algokit_digraph_map_resize_step] at hf
        cases hfs : algokit_digraph_map_free_slot acc acc.capacity (hash k % acc.capacity) with
        | none =>
          rw [hfs] at hf
          simp only at hf
          have hnone : ∀ (l : List (algokit_digraph_map_entry K)),
              l.foldl (algokit_digraph_map_resize_step hash) none = none := by
            intro l
            induction l with
            | nil => rfl
            | cons a l ihl => simpa [algokit_digraph_map_resize_step] using ihl
          rw [hnone] at hf
          simp at hf
        | some idx =>
          rw [hfs] at hf
          simp only at hf
          refine ih _ m1 (fun x hx => hes x (List.mem_cons_of_mem _ hx)) ?_ hf
          intro x hx
          rcases List.mem_or_eq_of_mem_set hx with h1 | h1
          · exact hacc x h1
          · rw [h1]
            exact hes _ (List.mem_cons_self _ _)
  unfold algokit_digraph_map_resize at hr
  cases alloc_ok with
  | false =>
    simp only [if_true, Option.some.injEq, Prod.mk.injEq] at hr
    rw [← hr.2]
    exact h
  | true =>
    simp only [Bool.true_eq_false, if_false] at hr
    cases hf : (map.entries.take map.capacity).foldl (algokit_digraph_map_resize_step hash)
        (some ⟨List.replicate new_capacity algokit_digraph_map_entry.empty, new_capacity, 0⟩) with
    | none => rw [hf] at hr; simp at hr
    | some m1 =>
      rw [hf] at hr
      simp only [Option.some.injEq, Prod.mk.injEq] at hr
      rw [← hr.2]
      refine hfold _ _ m1 (fun e he => h e (List.mem_of_mem_take he)) ?_ hf
      intro e he
      rw [List.eq_of_mem_replicate he]
      rfl

/-- The function `map_put` stores at most the given index on top of what was
stored before, and only when it returns 0. -/
theorem map_put_index_below (hash : K → Nat) (cmp : K → K → Int) (alloc_ok : Bool) (n : Nat)
    (map : algokit_digraph_map K) (key : K) (index : Nat) (rc : Int)
    (m : algokit_digraph_map K)
    (h : ∀ e ∈ map.entries, algokit_digraph_map_entry.index_below n e = true)
    (hr : algokit_digraph_map_put hash cmp alloc_ok map key index = some (rc, m)) :
    ∀ e ∈ m.entries, algokit_digraph_map_entry.index_below n e = true ∨
      (rc = 0 ∧ e = algokit_digraph_map_entry.occupied key index) := by
  unfold algokit_digraph_map_put at hr
  simp only at hr
  have hres : ∀ (rc0 : Int) (m0 : algokit_digraph_map K),
      (if (map.size + 1) * 10 ≥ map.capacity * 7 then
        algokit_digraph_map_resize hash alloc_ok map (map.capacity * 2)
      else some (0, map)) = some (rc0, m0) →
      ∀ e ∈ m0.entries, algokit_digraph_map_entry.index_below n e = true := by
    intro rc0 m0 h0
    split_ifs at h0
    · exact map_resize_index_below hash alloc_ok n map _ rc0 m0 h h0
    · simp only [Option.some.injEq, Prod.mk.injEq] at h0
      rw [← h0.2]
      exact h
  cases hres0 : (if (map.size + 1) * 10 ≥ map.capacity * 7 then
      algokit_digraph_map_resize hash alloc_ok map (map.capacity * 2)
    else some (0, map)) with
  | none => rw [hres0] at hr; simp at hr
  | some res =>
    obtain ⟨rc0, m0⟩ := res
    have hm0 := hres rc0 m0 hres0
    rw [hres0] at hr
    simp only at hr
    split_ifs at hr with hrc
    · simp only [Option.some.injEq, Prod.mk.injEq] at hr
      rw [← hr.2]
      exact fun e he => Or.inl (hm0 e he)
    · cases hp : algokit_digraph_map_put_probe cmp m0 key m0.capacity
          (hash key % m0.capacity) with
      | none => rw [hp] at hr; simp at hr
      | some r =>
        rw [hp] at hr
        cases r with
        | none =>
          simp only [Option.some.injEq, Prod.mk.injEq] at hr
          rw [← hr.2]
          exact fun e he => Or.inl (hm0 e he)
        | some idx =>
          simp only [Option.some.injEq, Prod.mk.injEq] at hr
          rw [← hr.2, ← hr.1]
          intro e he
          rcases List.mem_or_eq_of_mem_set he with h1 | h1
          · exact Or.inl (hm0 e h1)
          · exact Or.inr ⟨rfl, h1⟩

/-- The part of `add_vertex` on the key map: the resize that goes with a grown
vertex array, then `map_put` of the new key with the index `size`.  The
indices stored afterwards are below `size`, or below `size + 1` when both
steps return 0. -/
theorem add_vertex_map_below (hash : K → Nat) (cmp : K → K → Int) (resize_ok put_ok : Bool)
    (size : Nat) (map m1 m2 : algokit_digraph_map K) (key : K) (rc2 : Int)
    (h : ∀ e ∈ map.entries, algokit_digraph_map_entry.index_below size e = true)
    (h1 : ∀ e ∈ m1.entries, algokit_digraph_map_entry.index_below size e = true)
    (hput : algokit_digraph_map_put hash cmp put_ok m1 key size = some (rc2, m2)) :
    (rc2 ≠ 0 → ∀ e ∈ m2.entries, algokit_digraph_map_entry.index_below size e = true) ∧
    ∀ e ∈ m2.entries, algokit_digraph_map_entry.index_below (size + 1) e = true := by
  have := map_put_index_below hash cmp put_ok size m1 key size rc2 m2 h1 hput
  constructor
  · intro hrc e he
    rcases this e he with h2 | ⟨h2, -⟩
    · exact h2
    · exact absurd h2 hrc
  · intro e he
    rcases this e he with h2 | ⟨-, h2⟩
    · exact index_below_mono size (size + 1) (by omega) e h2
    · rw [h2]
      simp [algokit_digraph_map_entry.index_below]

/-- A call of `algokit_digraph_add_vertex` that returns keeps the representation
invariant. -/
theorem digraph_add_vertex_wf (hash : K → Nat) (cmp : K → K → Int) (a b c : Bool)
    (g : algokit_digraph K) (key : K) (rc : Int) (g1 : algokit_digraph K) (hwf : digraph_wf g)
    (hr : algokit_digraph_add_vertex hash cmp a b c g key = some (rc, g1)) : digraph_wf g1 := by
  obtain ⟨hlen, hadj, hmap⟩ := hwf
  unfold algokit_digraph_add_vertex at hr
  cases hget : algokit_digraph_map_get hash cmp g.map key with
  | none => rw [hget] at hr; simp at hr
  | some r0 =>
    obtain ⟨rc0, out0⟩ := r0
    rw [hget] at hr
    simp only at hr
    by_cases hrc0 : rc0 = 0
    · rw [if_pos hrc0] at hr
      simp only [Option.some.injEq, Prod.mk.injEq] at hr
      rw [← hr.2]
      exact ⟨hlen, hadj, hmap⟩
    · rw [if_neg hrc0] at hr
      -- the graph after the growth step
      have hgrown : ∀ (rc1 : Int) (g2 : algokit_digraph K),
          (if g.size = g.capacity then
            if a = false then some (-1, g)
            else
              match algokit_digraph_map_resize hash b g.map (g.capacity * 2) with
              | none => none
              | some (rc1, m) => some (rc1, ⟨g.vertices, g.size, g.capacity * 2, m⟩)
          else some (0, g)) = some (rc1, g2) →
          g2.vertices = g.vertices ∧ g2.size = g.size ∧
          ∀ e ∈ g2.map.entries, algokit_digraph_map_entry.index_below g.size e = true := by
        intro rc1 g2 h0
        split_ifs at h0 with hc ha
        · simp only [Option.some.injEq, Prod.mk.injEq] at h0
          rw [← h0.2]
          exact ⟨rfl, rfl, hmap⟩
        · cases hrs : algokit_digraph_map_resize hash b g.map (g.capacity * 2) with
          | none => rw [hrs] at h0; simp at h0
          | some r1 =>
            obtain ⟨rc1', m⟩ := r1
            rw [hrs] at h0
            simp only [Option.some.injEq, Prod.mk.injEq] at h0
            rw [← h0.2]
            exact ⟨rfl, rfl, map_resize_index_below hash b g.size g.map _ rc1' m hmap hrs⟩
        · simp only [Option.some.injEq, Prod.mk.injEq] at h0
          rw [← h0.2]
          exact ⟨rfl, rfl, hmap⟩
      cases hg : (if g.size = g.capacity then
            if a = false then some (-1, g)
            else
              match algokit_digraph_map_resize hash b g.map (g.capacity * 2) with
              | none => none
              | some (rc1, m) => some (rc1, ⟨g.vertices, g.size, g.capacity * 2, m⟩)
          else some (0, g)) with
      | none => rw [hg] at hr; simp at hr
      | some r1 =>
        obtain ⟨rc1, g2⟩ := r1
        obtain ⟨e1, e2, e3⟩ := hgrown rc1 g2 hg
        rw [hg] at hr
        simp only at hr
        by_cases hrc1 : rc1 = 0
        · rw [if_neg (by simpa using hrc1)] at hr
          cases hput : algokit_digraph_map_put hash cmp c g2.map key g2.size with
          | none => rw [hput] at hr; simp at hr
          | some r2 =>
            obtain ⟨rc2, m2⟩ := r2
            rw [hput] at hr
            simp only at hr
            rw [e2] at hput
            obtain ⟨p1, p2⟩ := add_vertex_map_below hash cmp b c g.size g.map g2.map m2 key rc2
              hmap e3 hput
            by_cases hrc2 : rc2 = 0
            · rw [if_neg (by simpa using hrc2)] at hr
              simp only [Option.some.injEq, Prod.mk.injEq] at hr
              rw [← hr.2]
              refine ⟨by simp [e1, e2, hlen], ?_, by simpa [e2] using p2⟩
              intro vx hvx v hv
              simp only [e1, e2, List.mem_append, List.mem_singleton] at hvx ⊢
              rcases hvx with h1 | h1
              · have := hadj vx h1 v hv
                omega
              · rw [h1] at hv
                simp at hv
            · rw [if_pos (by simpa using hrc2)] at hr
              simp only [Option.some.injEq, Prod.mk.injEq] at hr
              rw [← hr.2]
              exact ⟨by simp [e1, e2, hlen], by simpa [e1, e2] using hadj,
                by simpa [e2] using p1 hrc2⟩
        · rw [if_pos (by simpa using hrc1)] at hr
          simp only [Option.some.injEq, Prod.mk.injEq] at hr
          rw [← hr.2]
          exact ⟨by rw [e1, e2]; exact hlen, by rw [e1, e2]; exact hadj, by rw [e2]; exact e3⟩

/-- A call of `algokit_digraph_add_edge` that returns keeps the representation
invariant. -/
theorem digraph_add_edge_wf (hash : K → Nat) (cmp : K → K → Int) (a : Bool)
    (g : algokit_digraph K) (from_key to_key : K) (rc : Int) (g1 : algokit_digraph K)
    (hwf : digraph_wf g)
    (hr : algokit_digraph_add_edge hash cmp a g from_key to_key = some (rc, g1)) :
    digraph_wf g1 := by
  obtain ⟨hlen, hadj, hmap⟩ := hwf
  unfold algokit_digraph_add_edge at hr
  cases hget : algokit_digraph_map_get hash cmp g.map from_key with
  | none => rw [hget] at hr; simp at hr
  | some r0 =>
    obtain ⟨rc0, out0⟩ := r0
    rw [hget] at hr
    simp only at hr
    by_cases h0 : rc0 ≠ 0
    · rw [if_pos h0] at hr
      simp only [Option.some.injEq, Prod.mk.injEq] at hr
      rw [← hr.2]
      exact ⟨hlen, hadj, hmap⟩
    · rw [if_neg h0] at hr
      cases hget1 : algokit_digraph_map_get hash cmp g.map to_key with
      | none => rw [hget1] at hr; simp at hr
      | some r1 =>
        obtain ⟨rc1, out1⟩ := r1
        rw [hget1] at hr
        simp only at hr
        by_cases h1 : rc1 ≠ 0
        · rw [if_pos h1] at hr
          simp only [Option.some.injEq, Prod.mk.injEq] at hr
          rw [← hr.2]
          exact ⟨hlen, hadj, hmap⟩
        · rw [if_neg h1] at hr
          by_cases h2 : a = false
          · rw [if_pos h2] at hr
            simp only [Option.some.injEq, Prod.mk.injEq] at hr
            rw [← hr.2]
            exact ⟨hlen, hadj, hmap⟩
          · rw [if_neg h2] at hr
            simp only [Option.some.injEq, Prod.mk.injEq] at hr
            rw [← hr.2]
            have hto : out1.getD 0 < g.size := by
              rcases map_get_codes hash cmp g.map to_key rc1 out1 hget1 with
                ⟨-, t, rfl⟩ | ⟨hc, -⟩
              · obtain ⟨k, hk⟩ := map_get_mem hash cmp g.map to_key rc1 t hget1
                exact index_below_lt _ k t (hmap _ hk)
              · rw [hc] at h1
                exact absurd (by decide) h1
            refine ⟨by simpa using hlen, ?_, hmap⟩
            simp only
            apply forall_mem_modify (fun vx : algokit_digraph_vertex K => ∀ v ∈ vx.adj, v < g.size) _ _ _ _ hadj
            intro vx hvx v hv
            simp only [List.mem_cons] at hv
            rcases hv with rfl | hv
            · exact hto
            · exact hvx v hv

theorem digraph_create_wf (alloc_ok : Bool) (capacity : Nat) (g : algokit_digraph K)
    (hc : algokit_digraph_create alloc_ok capacity = some g) : digraph_wf g := by
  unfold algokit_digraph_create at hc
  split_ifs at hc
  simp only [Option.some.injEq] at hc
  rw [← hc]
  refine ⟨rfl, by simp, ?_⟩
  intro e he
  rw [List.eq_of_mem_replicate he]
  rfl

/-- Every directed graph built by `add_vertex` and `add_edge` satisfies the
representation invariant. -/
theorem digraph_reachable_wf (hash : K → Nat) (cmp : K → K → Int) (g : algokit_digraph K)
    (hr : digraph_reachable hash cmp g) : digraph_wf g := by
  obtain ⟨capacity, ops, g0, hc, hrun⟩ := hr
  have h0 := digraph_create_wf true capacity g0 hc
  clear hc
  induction ops generalizing g0 with
  | nil =>
    simp only [digraph_run, Option.some.injEq] at hrun
    rw [← hrun]
    exact h0
  | cons op ops ih =>
    simp only [digraph_run] at hrun
    cases hstep : digraph_step hash cmp g0 op with
    | none => rw [hstep] at hrun; simp at hrun
    | some g1 =>
      rw [hstep] at hrun
      simp only at hrun
      refine ih g1 hrun ?_
      cases op with
      | add_vertex a b c key =>
        simp only [digraph_step, Option.map_eq_some', Prod.exists, exists_eq_right] at hstep
        obtain ⟨rc, hav⟩ := hstep
        exact digraph_add_vertex_wf hash cmp a b c g0 key rc g1 h0 hav
      | add_edge a fk tk =>
        simp only [digraph_step, Option.map_eq_some', Prod.exists, exists_eq_right] at hstep
        obtain ⟨rc, hae⟩ := hstep
        exact digraph_add_edge_wf hash cmp a g0 fk tk rc g1 h0 hae

/-- A call of `algokit_graph_add_vertex` that returns keeps the representation
invariant. -/
theorem graph_add_vertex_wf (hash : K → Nat) (cmp : K → K → Int) (a b c : Bool)
    (g : algokit_graph K W) (key : K) (rc : Int) (g1 : algokit_graph K W) (hwf : graph_wf g)
    (hr : algokit_graph_add_vertex hash cmp a b c g key = some (rc, g1)) : graph_wf g1 := by
  obtain ⟨hlen, hadj, hmap⟩ := hwf
  unfold algokit_graph_add_vertex at hr
  cases hget : algokit_graph_map_get hash cmp g.map key with
  | none => rw [hget] at hr; simp at hr
  | some r0 =>
    obtain ⟨rc0, out0⟩ := r0
    rw [hget] at hr
    simp only at hr
    by_cases hrc0 : rc0 = 0
    · rw [if_pos hrc0] at hr
      simp only [Option.some.injEq, Prod.mk.injEq] at hr
      rw [← hr.2]
      exact ⟨hlen, hadj, hmap⟩
    · rw [if_neg hrc0] at hr
      -- the graph after the growth step
      have hgrown : ∀ (rc1 : Int) (g2 : algokit_graph K W),
          (if g.size = g.capacity then
            if a = false then some (-1, g)
            else
              match algokit_digraph_map_resize hash b g.map (g.capacity * 2) with
              | none => none
              | some (rc1, m) => some (rc1, ⟨g.vertices, g.size, g.capacity * 2, m⟩)
          else some (0, g)) = some (rc1, g2) →
          g2.vertices = g.vertices ∧ g2.size = g.size ∧
          ∀ e ∈ g2.map.entries, algokit_digraph_map_entry.index_below g.size e = true := by
        intro rc1 g2 h0
        split_ifs at h0 with hc ha
        · simp only [Option.some.injEq, Prod.mk.injEq] at h0
          rw [← h0.2]
          exact ⟨rfl, rfl, hmap⟩
        · cases hrs : algokit_digraph_map_resize hash b g.map (g.capacity * 2) with
          | none => rw [hrs] at h0; simp at h0
          | some r1 =>
            obtain ⟨rc1', m⟩ := r1
            rw [hrs] at h0
            simp only [Option.some.injEq, Prod.mk.injEq] at h0
            rw [← h0.2]
            exact ⟨rfl, rfl, map_resize_index_below hash b g.size g.map _ rc1' m hmap hrs⟩
        · simp only [Option.some.injEq, Prod.mk.injEq] at h0
          rw [← h0.2]
          exact ⟨rfl, rfl, hmap⟩
      cases hg : (if g.size = g.capacity then
            if a = false then some (-1, g)
            else
              match algokit_digraph_map_resize hash b g.map (g.capacity * 2) with
              | none => none
              | some (rc1, m) => some (rc1, ⟨g.vertices, g.size, g.capacity * 2, m⟩)
          else some (0, g)) with
      | none => rw [hg] at hr; simp at hr
      | some r1 =>
        obtain ⟨rc1, g2⟩ := r1
        obtain ⟨e1, e2, e3⟩ := hgrown rc1 g2 hg
        rw [hg] at hr
        simp only at hr
        by_cases hrc1 : rc1 = 0
        · rw [if_neg (by simpa using hrc1)] at hr
          cases hput : algokit_digraph_map_put hash cmp c g2.map key g2.size with
          | none => rw [hput] at hr; simp at hr
          | some r2 =>
            obtain ⟨rc2, m2⟩ := r2
            rw [hput] at hr
            simp only at hr
            rw [e2] at hput
            obtain ⟨p1, p2⟩ := add_vertex_map_below hash cmp b c g.size g.map g2.map m2 key rc2
              hmap e3 hput
            by_cases hrc2 : rc2 = 0
            · rw [if_neg (by simpa using hrc2)] at hr
              simp only [Option.some.injEq, Prod.mk.injEq] at hr
              rw [← hr.2]
              refine ⟨by simp [e1, e2, hlen], ?_, by simpa [e2] using p2⟩
              intro vx hvx v hv
              simp only [e1, e2, List.mem_append, List.mem_singleton] at hvx ⊢
              rcases hvx with h1 | h1
              · have := hadj vx h1 v hv
                omega
              · rw [h1] at hv
                simp at hv
            · rw [if_pos (by simpa using hrc2)] at hr
              simp only [Option.some.injEq, Prod.mk.injEq] at hr
              rw [← hr.2]
              exact ⟨by simp [e1, e2, hlen], by simpa [e1, e2] using hadj,
                by simpa [e2] using p1 hrc2⟩
        · rw [if_pos (by simpa using hrc1)] at hr
          simp only [Option.some.injEq, Prod.mk.injEq] at hr
          rw [← hr.2]
          exact ⟨by rw [e1, e2]; exact hlen, by rw [e1, e2]; exact hadj, by rw [e2]; exact e3⟩

/-- A call of `algokit_graph_add_edge` that returns keeps the representation
invariant. -/
theorem graph_add_edge_wf (hash : K → Nat) (cmp : K → K → Int) (a : Bool)
    (g : algokit_graph K W) (u_key v_key : K) (weight : W) (rc : Int) (g1 : algokit_graph K W)
    (hwf : graph_wf g)
    (hr : algokit_graph_add_edge hash cmp a g u_key v_key weight = some (rc, g1)) :
    graph_wf g1 := by
  obtain ⟨hlen, hadj, hmap⟩ := hwf
  have hlt : ∀ (key : K) (rc0 : Int) (out : Option Nat),
      algokit_graph_map_get hash cmp g.map key = some (rc0, out) → ¬ rc0 ≠ 0 →
      out.getD 0 < g.size := by
    intro key rc0 out hget h0
    rcases map_get_codes hash cmp g.map key rc0 out hget with ⟨-, t, rfl⟩ | ⟨hc, -⟩
    · obtain ⟨k, hk⟩ := map_get_mem hash cmp g.map key rc0 t hget
      exact index_below_lt _ k t (hmap _ hk)
    · rw [hc] at h0
      exact absurd (by decide) h0
  unfold algokit_graph_add_edge at hr
  cases hget : algokit_graph_map_get hash cmp g.map u_key with
  | none => rw [hget] at hr; simp at hr
  | some r0 =>
    obtain ⟨rc0, out0⟩ := r0
    rw [hget] at hr
    simp only at hr
    by_cases h0 : rc0 ≠ 0
    · rw [if_pos h0] at hr
      simp only [Option.some.injEq, Prod.mk.injEq] at hr
      rw [← hr.2]
      exact ⟨hlen, hadj, hmap⟩
    · rw [if_neg h0] at hr
      cases hget1 : algokit_graph_map_get hash cmp g.map v_key with
      | none => rw [hget1] at hr; simp at hr
      | some r1 =>
        obtain ⟨rc1, out1⟩ := r1
        rw [hget1] at hr
        simp only at hr
        by_cases h1 : rc1 ≠ 0
        · rw [if_pos h1] at hr
          simp only [Option.some.injEq, Prod.mk.injEq] at hr
          rw [← hr.2]
          exact ⟨hlen, hadj, hmap⟩
        · rw [if_neg h1] at hr
          by_cases h2 : a = false
          · rw [if_pos h2] at hr
            simp only [Option.some.injEq, Prod.mk.injEq] at hr
            rw [← hr.2]
            exact ⟨hlen, hadj, hmap⟩
          · rw [if_neg h2] at hr
            simp only [Option.some.injEq, Prod.mk.injEq] at hr
            rw [← hr.2]
            have hu := hlt u_key rc0 out0 hget h0
            have hv := hlt v_key rc1 out1 hget1 h1
            refine ⟨by simpa using hlen, ?_, hmap⟩
            simp only
            apply forall_mem_modify
              (fun vx : algokit_graph_vertex K W => ∀ e ∈ vx.adj, e.target < g.size)
            · intro vx hvx e he
              simp only [List.mem_cons] at he
              rcases he with rfl | he
              · exact hu
              · exact hvx e he
            · apply forall_mem_modify
                (fun vx : algokit_graph_vertex K W => ∀ e ∈ vx.adj, e.target < g.size) _ _ _ _
                hadj
              intro vx hvx e he
              simp only [List.mem_cons] at he
              rcases he with rfl | he
              · exact hv
              · exact hvx e he

theorem graph_create_wf (alloc_ok : Bool) (capacity : Nat) (g : algokit_graph K W)
    (hc : algokit_graph_create alloc_ok capacity = some g) : graph_wf g := by
  unfold algokit_graph_create at hc
  split_ifs at hc
  simp only [Option.some.injEq] at hc
  rw [← hc]
  refine ⟨rfl, by simp, ?_⟩
  intro e he
  rw [List.eq_of_mem_replicate he]
  rfl

/-- Every undirected graph built by `add_vertex` and `add_edge` satisfies the
representation invariant. -/
theorem graph_reachable_wf (hash : K → Nat) (cmp : K → K → Int) (g : algokit_graph K W)
    (hr : graph_reachable hash cmp g) : graph_wf g := by
  obtain ⟨capacity, ops, g0, hc, hrun⟩ := hr
  have h0 := graph_create_wf true capacity g0 hc
  clear hc
  induction ops generalizing g0 with
  | nil =>
    simp only [graph_run, Option.some.injEq] at hrun
    rw [← hrun]
    exact h0
  | cons op ops ih =>
    simp only [graph_run] at hrun
    cases hstep : graph_step hash cmp g0 op with
    | none => rw [hstep] at hrun; simp at hrun
    | some g1 =>
      rw [hstep] at hrun
      simp only at hrun
      refine ih g1 hrun ?_
      cases op with
      | add_vertex a b c key =>
        simp only [graph_step, Option.map_eq_some', Prod.exists, exists_eq_right] at hstep
        obtain ⟨rc, hav⟩ := hstep
        exact graph_add_vertex_wf hash cmp a b c g0 key rc g1 h0 hav
      | add_edge a uk vk w =>
        simp only [graph_step, Option.map_eq_some', Prod.exists, exists_eq_right] at hstep
        obtain ⟨rc, hae⟩ := hstep
        exact graph_add_edge_wf hash cmp a g0 uk vk w rc g1 h0 hae

end graph_build_lemmas

/-! ## Key map of the graphs: the lookup returns -/

section graph_map_lemmas

variable {K W : Type}

theorem countP_set_gen {α : Type} (p : α → Bool) :
    ∀ (l : List α) (i : Nat) (a : α) (hi : i < l.length),
      (l.set i a).countP p + (if p (l.get ⟨i, hi⟩) then 1 else 0) =
        l.countP p + (if p a then 1 else 0) := by
  intro l
  induction l with
  | nil => intro i a hi; simp at hi
  | cons b l ih =>
    intro i a hi
    cases i with
    | zero =>
      simp only [List.set_cons_zero, List.countP_cons, List.get_eq_getElem,
        List.getElem_cons_zero]
      omega
    | succ i =>
      have := ih i a (by simpa using hi)
      simp only [List.set_cons_succ, List.countP_cons, List.get_eq_getElem,
        List.getElem_cons_succ] at this ⊢
      omega

theorem map_slot_get (l : List (algokit_digraph_map_entry K)) (i : Nat) (hi : i < l.length) :
    l.getD i algokit_digraph_map_entry.empty = l.get ⟨i, hi⟩ := by
  simp [List.getD_eq_getElem?_getD, List.getElem?_eq_getElem hi]

/-- Writing a key into an empty slot raises the number of occupied slots by
one. -/
theorem map_count_after_write (l : List (algokit_digraph_map_entry K)) (idx : Nat) (k : K)
    (i : Nat) (hi : idx < l.length)
    (he : l.getD idx algokit_digraph_map_entry.empty = algokit_digraph_map_entry.empty) :
    (l.set idx (algokit_digraph_map_entry.occupied k i)).countP
        algokit_digraph_map_entry.is_occupied =
      l.countP algokit_digraph_map_entry.is_occupied + 1 := by
  have := countP_set_gen algokit_digraph_map_entry.is_occupied l idx
    (algokit_digraph_map_entry.occupied k i) hi
  rw [← map_slot_get l idx hi, he] at this
  simpa [algokit_digraph_map_entry.is_occupied] using this

/-- A key map with fewer occupied slots than slots has an empty slot. -/
theorem map_has_empty (map : algokit_digraph_map K) (hl : map.entries.length = map.capacity)
    (hlt : map.entries.countP algokit_digraph_map_entry.is_occupied < map.capacity) :
    ∃ j, j < map.capacity ∧
      map.entries.getD j algokit_digraph_map_entry.empty = algokit_digraph_map_entry.empty := by
  by_contra hcon
  have hall : ∀ e ∈ map.entries, algokit_digraph_map_entry.is_occupied e = true := by
    intro e he
    obtain ⟨j, hj, hje⟩ := List.mem_iff_getElem.1 he
    cases e with
    | empty =>
      exfalso
      apply hcon
      refine ⟨j, by omega, ?_⟩
      rw [map_slot_get _ j hj, List.get_eq_getElem, hje]
    | occupied k i => rfl
  have := List.countP_eq_length.2 hall
  omega

/-- The probe loop of `map_get` stops when an empty slot lies within the
bound on its way. -/
theorem map_find_total (cmp : K → K → Int) (map : algokit_digraph_map K) (key : K) :
    ∀ (n idx : Nat),
      (∃ i, i < n ∧ map.entries.getD ((idx + i) % map.capacity)
        algokit_digraph_map_entry.empty = algokit_digraph_map_entry.empty) →
      idx < map.capacity →
      ∃ r, algokit_digraph_map_find cmp map key n idx = some r := by
  intro n
  induction n with
  | zero => rintro idx ⟨i, hi, -⟩; omega
  | succ n ih =>
    rintro idx ⟨i, hi, he⟩ hidx
    rw [algokit_digraph_map_find]
    cases hs : map.entries.getD idx algokit_digraph_map_entry.empty with
    | empty => exact ⟨_, rfl⟩
    | occupied k j =>
      simp only
      split_ifs
      · exact ⟨_, rfl⟩
      · apply ih
        · rcases i with _ | i
          · rw [Nat.add_zero, Nat.mod_eq_of_lt hidx, hs] at he
            simp at he
          · refine ⟨i, by omega, ?_⟩
            rw [Nat.mod_add_mod, show idx + 1 + i = idx + (i + 1) by omega]
            exact he
        · exact Nat.mod_lt _ (by omega)

/-- On a key map that satisfies the invariant `map_get` returns, for every
key. -/
theorem map_get_total (hash : K → Nat) (cmp : K → K → Int) (map : algokit_digraph_map K)
    (n : Nat) (hok : digraph_map_ok map n) (key : K) :
    ∃ rc out, algokit_digraph_map_get hash cmp map key = some (rc, out) := by
  obtain ⟨hl, hc, hs, -, hlow⟩ := hok
  obtain ⟨j, hj, he⟩ := map_has_empty map hl (by rw [← hs]; omega)
  have hidx : hash key % map.capacity < map.capacity := Nat.mod_lt _ hc
  obtain ⟨r, hr⟩ := map_find_total cmp map key map.capacity (hash key % map.capacity)
    ⟨(j + map.capacity - hash key % map.capacity) % map.capacity, Nat.mod_lt _ hc, by
      rw [probe_cover _ _ _ hidx hj]; exact he⟩ hidx
  unfold algokit_digraph_map_get
  rw [hr]
  rcases r with _ | i
  · exact ⟨_, _, rfl⟩
  · exact ⟨_, _, rfl⟩

end graph_map_lemmas

/-! ## Key map of the graphs: the invariant across `add_vertex` -/

section graph_map_build

variable {K W : Type}

theorem map_free_slot_spec (map : algokit_digraph_map K) (hc : 0 < map.capacity) :
    ∀ (n idx i : Nat), idx < map.capacity →
      algokit_digraph_map_free_slot map n idx = some i →
      i < map.capacity ∧
        map.entries.getD i algokit_digraph_map_entry.empty = algokit_digraph_map_entry.empty := by
  intro n
  induction n with
  | zero => intro idx i _ h; simp [algokit_digraph_map_free_slot] at h
  | succ n ih =>
    intro idx i hidx h
    rw [algokit_digraph_map_free_slot] at h
    cases hs : map.entries.getD idx algokit_digraph_map_entry.empty with
    | empty =>
      rw [hs] at h
      simp only [Option.some.injEq] at h
      rw [← h]
      exact ⟨hidx, hs⟩
    | occupied k j =>
      rw [hs] at h
      exact ih _ i (Nat.mod_lt _ hc) h

theorem map_put_probe_spec (cmp : K → K → Int) (map : algokit_digraph_map K) (key : K)
    (hc : 0 < map.capacity) :
    ∀ (n idx i : Nat), idx < map.capacity →
      algokit_digraph_map_put_probe cmp map key n idx = some (some i) →
      i < map.capacity ∧
        map.entries.getD i algokit_digraph_map_entry.empty = algokit_digraph_map_entry.empty := by
  intro n
  induction n with
  | zero => intro idx i _ h; simp [algokit_digraph_map_put_probe] at h
  | succ n ih =>
    intro idx i hidx h
    rw [algokit_digraph_map_put_probe] at h
    cases hs : map.entries.getD idx algokit_digraph_map_entry.empty with
    | empty =>
      rw [hs] at h
      simp only [Option.some.injEq] at h
      rw [← h]
      exact ⟨hidx, hs⟩
    | occupied k j =>
      rw [hs] at h
      simp only at h
      split_ifs at h with hm
      · simp at h
      · exact ih _ i (Nat.mod_lt _ hc) h

theorem map_resize_fold_none (hash : K → Nat) (l : List (algokit_digraph_map_entry K)) :
    l.foldl (algokit_digraph_map_resize_step hash) none = none := by
  induction l with
  | nil => rfl
  | cons a l ih => simpa [algokit_digraph_map_resize_step] using ih

/-- The loop of `map_resize`, when it returns: every occupied old slot has
been copied to a slot that was empty, and `size` has counted them. -/
theorem map_resize_fold_ok (hash : K → Nat) :
    ∀ (es : List (algokit_digraph_map_entry K)) (acc m : algokit_digraph_map K),
      acc.entries.length = acc.capacity → 0 < acc.capacity →
      acc.size = acc.entries.countP algokit_digraph_map_entry.is_occupied →
      es.foldl (algokit_digraph_map_resize_step hash) (some acc) = some m →
      m.entries.length = m.capacity ∧ m.capacity = acc.capacity ∧
      m.size = m.entries.countP algokit_digraph_map_entry.is_occupied ∧
      m.size = acc.size + es.countP algokit_digraph_map_entry.is_occupied := by
  intro es
  induction es with
  | nil =>
    intro acc m hl _ hs hf
    simp only [List.foldl_nil, Option.some.injEq] at hf
    rw [← hf]
    exact ⟨hl, rfl, hs, by simp⟩
  | cons e es ih =>
    intro acc m hl hc hs hf
    rw [List.foldl_cons] at hf
    cases e with
    | empty =>
      obtain ⟨h1, h2, h3, h4⟩ := ih acc m hl hc hs hf
      exact ⟨h1, h2, h3, by simpa [algokit_digraph_map_entry.is_occupied] using h4⟩
    | occupied k i =>
      simp only [algokit_digraph_map_resize_step] at hf
      cases hfs : algokit_digraph_map_free_slot acc acc.capacity (hash k % acc.capacity) with
      | none =>
        rw [hfs] at hf
        simp only at hf
        rw [map_resize_fold_none] at hf
        simp at hf
      | some idx =>
        rw [hfs] at hf
        simp only at hf
        obtain ⟨f1, f2⟩ := map_free_slot_spec acc hc _ _ idx (Nat.mod_lt _ hc) hfs
        have hcnt := map_count_after_write acc.entries idx k i (by rw [hl]; exact f1) f2
        obtain ⟨h1, h2, h3, h4⟩ := ih
          ⟨acc.entries.set idx (algokit_digraph_map_entry.occupied k i), acc.capacity,
            acc.size + 1⟩ m (by simpa using hl) hc (by rw [hcnt, hs]) hf
        have hcons : (algokit_digraph_map_entry.occupied k i :: es).countP
            algokit_digraph_map_entry.is_occupied =
            es.countP algokit_digraph_map_entry.is_occupied + 1 := by
          simp [algokit_digraph_map_entry.is_occupied]
        refine ⟨h1, h2, h3, ?_⟩
        rw [h4, hcons]
        simp only
        omega

/-- The function `map_resize`, when it returns with a successful allocation:
the new map has the new capacity and the old size. -/
theorem map_resize_ok (hash : K → Nat) (map : algokit_digraph_map K) (n new_capacity : Nat)
    (rc : Int) (m : algokit_digraph_map K) (hok : digraph_map_ok map n)
    (hnew : n * 10 < new_capacity * 7)
    (hr : algokit_digraph_map_resize hash true map new_capacity = some (rc, m)) :
    rc = 0 ∧ digraph_map_ok m n ∧ m.capacity = new_capacity := by
  obtain ⟨hl, hc, hs, hn, hlow⟩ := hok
  unfold algokit_digraph_map_resize at hr
  simp only [Bool.true_eq_false, if_false] at hr
  rw [← hl, List.take_length] at hr
  cases hf : map.entries.foldl (algokit_digraph_map_resize_step hash)
      (some ⟨List.replicate new_capacity algokit_digraph_map_entry.empty, new_capacity, 0⟩) with
  | none => rw [hf] at hr; simp at hr
  | some m1 =>
    rw [hf] at hr
    simp only [Option.some.injEq, Prod.mk.injEq] at hr
    obtain ⟨h1, h2, h3, h4⟩ := map_resize_fold_ok hash map.entries _ m1 (by simp)
      (by simp only; omega) (by
        simp only
        symm
        rw [List.countP_eq_zero]
        intro a ha
        rw [List.eq_of_mem_replicate ha]
        simp [algokit_digraph_map_entry.is_occupied]) hf
    simp only [Nat.zero_add] at h2 h4
    rw [← hr.2]
    refine ⟨hr.1.symm, ⟨h1, by rw [h2]; omega, h3, by rw [h4, ← hs, hn], ?_⟩, h2⟩
    rw [h4, ← hs, hn, h2]
    exact hnew

theorem map_resize_fail (hash : K → Nat) (map : algokit_digraph_map K) (c : Nat) :
    algokit_digraph_map_resize hash false map c = some (-1, map) := by
  simp [algokit_digraph_map_resize]

/-- The function `map_put`, when it returns: after the result 0 the map holds
one key more, after another result it holds the same keys; the invariant is
kept. -/
theorem map_put_ok (hash : K → Nat) (cmp : K → K → Int) (alloc_ok : Bool)
    (map : algokit_digraph_map K) (n : Nat) (key : K) (index : Nat) (rc : Int)
    (m : algokit_digraph_map K) (hok : digraph_map_ok map n)
    (hr : algokit_digraph_map_put hash cmp alloc_ok map key index = some (rc, m)) :
    (rc = 0 → digraph_map_ok m (n + 1)) ∧ (rc ≠ 0 → digraph_map_ok m n) := by
  -- the probe and the write, on a map with room for one more key
  have htail : ∀ (m0 : algokit_digraph_map K), digraph_map_ok m0 n →
      (m0.size + 1) * 10 < m0.capacity * 7 →
      (match algokit_digraph_map_put_probe cmp m0 key m0.capacity (hash key % m0.capacity) with
        | none => none
        | some none => some (1, m0)
        | some (some idx) =>
          some (0, (⟨m0.entries.set idx (algokit_digraph_map_entry.occupied key index),
            m0.capacity, m0.size + 1⟩ : algokit_digraph_map K))) = some (rc, m) →
      (rc = 0 → digraph_map_ok m (n + 1)) ∧ (rc ≠ 0 → digraph_map_ok m n) := by
    intro m0 hok0 hroom h
    obtain ⟨hl, hc, hs, hn, hlow⟩ := hok0
    cases hp : algokit_digraph_map_put_probe cmp m0 key m0.capacity
        (hash key % m0.capacity) with
    | none => rw [hp] at h; simp at h
    | some r =>
      rw [hp] at h
      cases r with
      | none =>
        simp only [Option.some.injEq, Prod.mk.injEq] at h
        rw [← h.1, ← h.2]
        exact ⟨fun h1 => absurd h1 (by decide), fun _ => ⟨hl, hc, hs, hn, hlow⟩⟩
      | some idx =>
        simp only [Option.some.injEq, Prod.mk.injEq] at h
        obtain ⟨p1, p2⟩ := map_put_probe_spec cmp m0 key hc _ _ idx (Nat.mod_lt _ hc) hp
        rw [← h.1, ← h.2]
        refine ⟨fun _ => ⟨by simpa using hl, hc, ?_, by simp only; omega, hroom⟩,
          fun h1 => absurd rfl h1⟩
        simp only
        rw [map_count_after_write m0.entries idx key index (by rw [hl]; exact p1) p2, hs]
  obtain ⟨hl, hc, hs, hn, hlow⟩ := hok
  unfold algokit_digraph_map_put at hr
  simp only at hr
  by_cases hg : (map.size + 1) * 10 ≥ map.capacity * 7
  · rw [if_pos hg] at hr
    cases alloc_ok with
    | false =>
      rw [map_resize_fail] at hr
      simp only [ne_eq, Int.reduceNeg, Int.neg_eq_zero, one_ne_zero, not_false_eq_true,
        if_true, Option.some.injEq, Prod.mk.injEq] at hr
      rw [← hr.1, ← hr.2]
      exact ⟨fun h1 => absurd h1 (by decide), fun _ => ⟨hl, hc, hs, hn, hlow⟩⟩
    | true =>
      cases hres : algokit_digraph_map_resize hash true map (map.capacity * 2) with
      | none => rw [hres] at hr; simp at hr
      | some res =>
        obtain ⟨rc0, m0⟩ := res
        obtain ⟨r1, r2, r3⟩ := map_resize_ok hash map n (map.capacity * 2) rc0 m0
          ⟨hl, hc, hs, hn, hlow⟩ (by omega) hres
        rw [hres] at hr
        simp only at hr
        rw [if_neg (by simpa using r1)] at hr
        apply htail m0 r2 _ hr
        rw [r2.2.2.2.1, r3]
        rcases Nat.lt_or_ge map.capacity 2 with h2 | h2
        · have h1 : map.capacity = 1 := by omega
          rw [h1] at hlow ⊢
          omega
        · omega
  · rw [if_neg hg] at hr
    simp only [ne_eq, not_true_eq_false, if_false] at hr
    exact htail map ⟨hl, hc, hs, hn, hlow⟩ (by omega) hr

/-- The steps of `add_vertex` on the key map, when they return: the resize
that goes with a grown vertex array keeps the invariant. -/
theorem map_grow_ok (hash : K → Nat) (resize_ok : Bool) (map : algokit_digraph_map K)
    (n : Nat) (rc : Int) (m : algokit_digraph_map K) (hok : digraph_map_ok map n) (hn : 0 < n)
    (hr : algokit_digraph_map_resize hash resize_ok map (n * 2) = some (rc, m)) :
    digraph_map_ok m n := by
  cases resize_ok with
  | false =>
    rw [map_resize_fail] at hr
    simp only [Option.some.injEq, Prod.mk.injEq] at hr
    rw [← hr.2]
    exact hok
  | true => exact (map_resize_ok hash map n (n * 2) rc m hok (by omega) hr).2.1

end graph_map_build

/-! ## Building a graph keeps the invariant of the key map -/

section graph_build_ok

variable {K W : Type}

/-- A call of `algokit_digraph_add_vertex` that returns keeps the invariant of the key map and
the room in the vertex array. -/
theorem digraph_add_vertex_ok (hash : K → Nat) (cmp : K → K → Int) (a b c : Bool)
    (g : algokit_digraph K) (key : K) (rc : Int) (g1 : algokit_digraph K) (hok : digraph_ok g)
    (hr : algokit_digraph_add_vertex hash cmp a b c g key = some (rc, g1)) : digraph_ok g1 := by
  obtain ⟨hwf, hmap, hcap⟩ := hok
  refine ⟨digraph_add_vertex_wf hash cmp a b c g key rc g1 hwf hr, ?_⟩
  unfold algokit_digraph_add_vertex at hr
  cases hget : algokit_digraph_map_get hash cmp g.map key with
  | none => rw [hget] at hr; simp at hr
  | some r0 =>
    obtain ⟨rc0, out0⟩ := r0
    rw [hget] at hr
    simp only at hr
    by_cases hrc0 : rc0 = 0
    · rw [if_pos hrc0] at hr
      simp only [Option.some.injEq, Prod.mk.injEq] at hr
      rw [← hr.2]
      exact ⟨hmap, hcap⟩
    · rw [if_neg hrc0] at hr
      have hgrown : ∀ (rc1 : Int) (g2 : algokit_digraph K),
          (if g.size = g.capacity then
            if a = false then some (-1, g)
            else
              match algokit_digraph_map_resize hash b g.map (g.capacity * 2) with
              | none => none
              | some (rc1, m) => some (rc1, ⟨g.vertices, g.size, g.capacity * 2, m⟩)
          else some (0, g)) = some (rc1, g2) →
          g2.size = g.size ∧ digraph_map_ok g2.map g.size ∧ 0 < g2.capacity := by
        intro rc1 g2 h0
        by_cases hc : g.size = g.capacity
        · rw [if_pos hc] at h0
          by_cases ha : a = false
          · rw [if_pos ha] at h0
            simp only [Option.some.injEq, Prod.mk.injEq] at h0
            rw [← h0.2]
            exact ⟨rfl, hmap, hcap⟩
          · rw [if_neg ha] at h0
            cases hrs : algokit_digraph_map_resize hash b g.map (g.capacity * 2) with
            | none => rw [hrs] at h0; simp at h0
            | some r1 =>
              obtain ⟨rc1', m⟩ := r1
              rw [hrs] at h0
              simp only [Option.some.injEq, Prod.mk.injEq] at h0
              rw [← h0.2]
              rw [← hc] at hrs
              exact ⟨rfl, map_grow_ok hash b g.map g.size rc1' m hmap (by omega) hrs,
                by simp only; omega⟩
        · rw [if_neg hc] at h0
          simp only [Option.some.injEq, Prod.mk.injEq] at h0
          rw [← h0.2]
          exact ⟨rfl, hmap, hcap⟩
      cases hg : (if g.size = g.capacity then
            if a = false then some (-1, g)
            else
              match algokit_digraph_map_resize hash b g.map (g.capacity * 2) with
              | none => none
              | some (rc1, m) => some (rc1, ⟨g.vertices, g.size, g.capacity * 2, m⟩)
          else some (0, g)) with
      | none => rw [hg] at hr; simp at hr
      | some r1 =>
        obtain ⟨rc1, g2⟩ := r1
        obtain ⟨e1, e2, e3⟩ := hgrown rc1 g2 hg
        rw [hg] at hr
        simp only at hr
        by_cases hrc1 : rc1 = 0
        · rw [if_neg (by simpa using hrc1)] at hr
          cases hput : algokit_digraph_map_put hash cmp c g2.map key g2.size with
          | none => rw [hput] at hr; simp at hr
          | some r2 =>
            obtain ⟨rc2, m2⟩ := r2
            rw [hput] at hr
            simp only at hr
            obtain ⟨p1, p2⟩ := map_put_ok hash cmp c g2.map g.size key g2.size rc2 m2 e2 hput
            by_cases hrc2 : rc2 = 0
            · rw [if_neg (by simpa using hrc2)] at hr
              simp only [Option.some.injEq, Prod.mk.injEq] at hr
              rw [← hr.2]
              exact ⟨by simpa [e1] using p1 hrc2, e3⟩
            · rw [if_pos (by simpa using hrc2)] at hr
              simp only [Option.some.injEq, Prod.mk.injEq] at hr
              rw [← hr.2]
              exact ⟨by simpa [e1] using p2 hrc2, e3⟩
        · rw [if_pos (by simpa using hrc1)] at hr
          simp only [Option.some.injEq, Prod.mk.injEq] at hr
          rw [← hr.2]
          exact ⟨by rw [e1]; exact e2, e3⟩

/-- A call of `algokit_digraph_add_edge` changes neither the key map nor the number of
vertices nor the capacity. -/
theorem digraph_add_edge_frame (hash : K → Nat) (cmp : K → K → Int) (a : Bool)
    (g : algokit_digraph K) (from_key to_key : K) (rc : Int) (g1 : algokit_digraph K)
    (hr : algokit_digraph_add_edge hash cmp a g from_key to_key = some (rc, g1)) :
    g1.map = g.map ∧ g1.size = g.size ∧ g1.capacity = g.capacity := by
  unfold algokit_digraph_add_edge at hr
  cases hget : algokit_digraph_map_get hash cmp g.map from_key with
  | none => rw [hget] at hr; simp at hr
  | some r0 =>
    obtain ⟨rc0, out0⟩ := r0
    rw [hget] at hr
    simp only at hr
    by_cases h0 : rc0 ≠ 0
    · rw [if_pos h0] at hr
      simp only [Option.some.injEq, Prod.mk.injEq] at hr
      rw [← hr.2]
      exact ⟨rfl, rfl, rfl⟩
    · rw [if_neg h0] at hr
      cases hget1 : algokit_digraph_map_get hash cmp g.map to_key with
      | none => rw [hget1] at hr; simp at hr
      | some r1 =>
        obtain ⟨rc1, out1⟩ := r1
        rw [hget1] at hr
        simp only at hr
        by_cases h1 : rc1 ≠ 0
        · rw [if_pos h1] at hr
          simp only [Option.some.injEq, Prod.mk.injEq] at hr
          rw [← hr.2]
          exact ⟨rfl, rfl, rfl⟩
        · rw [if_neg h1] at hr
          by_cases h2 : a = false
          · rw [if_pos h2] at hr
            simp only [Option.some.injEq, Prod.mk.injEq] at hr
            rw [← hr.2]
            exact ⟨rfl, rfl, rfl⟩
          · rw [if_neg h2] at hr
            simp only [Option.some.injEq, Prod.mk.injEq] at hr
            rw [← hr.2]
            exact ⟨rfl, rfl, rfl⟩

theorem digraph_create_ok (alloc_ok : Bool) (capacity : Nat) (g : algokit_digraph K)
    (hc : algokit_digraph_create alloc_ok capacity = some g) : digraph_ok g := by
  refine ⟨digraph_create_wf alloc_ok capacity g hc, ?_⟩
  unfold algokit_digraph_create at hc
  split_ifs at hc with h
  simp only [Option.some.injEq] at hc
  rw [← hc]
  have hpos : 0 < capacity := by omega
  refine ⟨⟨by simp, hpos, ?_, rfl, by simp only; omega⟩, hpos⟩
  simp only
  symm
  rw [List.countP_eq_zero]
  intro x hx
  rw [List.eq_of_mem_replicate hx]
  simp [algokit_digraph_map_entry.is_occupied]

/-- Every directed graph built by `add_vertex` and `add_edge` satisfies the
representation invariant and the invariant of its key map. -/
theorem digraph_reachable_ok (hash : K → Nat) (cmp : K → K → Int) (g : algokit_digraph K)
    (hr : digraph_reachable hash cmp g) : digraph_ok g := by
  obtain ⟨capacity, ops, g0, hc, hrun⟩ := hr
  have h0 := digraph_create_ok true capacity g0 hc
  clear hc
  induction ops generalizing g0 with
  | nil =>
    simp only [digraph_run, Option.some.injEq] at hrun
    rw [← hrun]
    exact h0
  | cons op ops ih =>
    simp only [digraph_run] at hrun
    cases hstep : digraph_step hash cmp g0 op with
    | none => rw [hstep] at hrun; simp at hrun
    | some g1 =>
      rw [hstep] at hrun
      simp only at hrun
      refine ih g1 hrun ?_
      cases op with
      | add_vertex a b c key =>
        simp only [digraph_step, Option.map_eq_some', Prod.exists, exists_eq_right] at hstep
        obtain ⟨rc, hav⟩ := hstep
        exact digraph_add_vertex_ok hash cmp a b c g0 key rc g1 h0 hav
      | add_edge a fk tk =>
        simp only [digraph_step, Option.map_eq_some', Prod.exists, exists_eq_right] at hstep
        obtain ⟨rc, hae⟩ := hstep
        obtain ⟨f1, f2, f3⟩ := digraph_add_edge_frame hash cmp a g0 fk tk rc g1 hae
        exact ⟨digraph_add_edge_wf hash cmp a g0 fk tk rc g1 h0.1 hae,
          by rw [f1, f2]; exact h0.2.1, by rw [f3]; exact h0.2.2⟩

/-- A call of `algokit_graph_add_vertex` that returns keeps the invariant of the key map and
the room in the vertex array. -/
theorem graph_add_vertex_ok (hash : K → Nat) (cmp : K → K → Int) (a b c : Bool)
    (g : algokit_graph K W) (key : K) (rc : Int) (g1 : algokit_graph K W) (hok : graph_ok g)
    (hr : algokit_graph_add_vertex hash cmp a b c g key = some (rc, g1)) : graph_ok g1 := by
  obtain ⟨hwf, hmap, hcap⟩ := hok
  refine ⟨graph_add_vertex_wf hash cmp a b c g key rc g1 hwf hr, ?_⟩
  unfold algokit_graph_add_vertex at hr
  cases hget : algokit_graph_map_get hash cmp g.map key with
  | none => rw [hget] at hr; simp at hr
  | some r0 =>
    obtain ⟨rc0, out0⟩ := r0
    rw [hget] at hr
    simp only at hr
    by_cases hrc0 : rc0 = 0
    · rw [if_pos hrc0] at hr
      simp only [Option.some.injEq, Prod.mk.injEq] at hr
      rw [← hr.2]
      exact ⟨hmap, hcap⟩
    · rw [if_neg hrc0] at hr
      have hgrown : ∀ (rc1 : Int) (g2 : algokit_graph K W),
          (if g.size = g.capacity then
            if a = false then some (-1, g)
            else
              match algokit_digraph_map_resize hash b g.map (g.capacity * 2) with
              | none => none
              | some (rc1, m) => some (rc1, ⟨g.vertices, g.size, g.capacity * 2, m⟩)
          else some (0, g)) = some (rc1, g2) →
          g2.size = g.size ∧ digraph_map_ok g2.map g.size ∧ 0 < g2.capacity := by
        intro rc1 g2 h0
        by_cases hc : g.size = g.capacity
        · rw [if_pos hc] at h0
          by_cases ha : a = false
          · rw [if_pos ha] at h0
            simp only [Option.some.injEq, Prod.mk.injEq] at h0
            rw [← h0.2]
            exact ⟨rfl, hmap, hcap⟩
          · rw [if_neg ha] at h0
            cases hrs : algokit_digraph_map_resize hash b g.map (g.capacity * 2) with
            | none => rw [hrs] at h0; simp at h0
            | some r1 =>
              obtain ⟨rc1', m⟩ := r1
              rw [hrs] at h0
              simp only [Option.some.injEq, Prod.mk.injEq] at h0
              rw [← h0.2]
              rw [← hc] at hrs
              exact ⟨rfl, map_grow_ok hash b g.map g.size rc1' m hmap (by omega) hrs,
                by simp only; omega⟩
        · rw [if_neg hc] at h0
          simp only [Option.some.injEq, Prod.mk.injEq] at h0
          rw [← h0.2]
          exact ⟨rfl, hmap, hcap⟩
      cases hg : (if g.size = g.capacity then
            if a = false then some (-1, g)
            else
              match algokit_digraph_map_resize hash b g.map (g.capacity * 2) with
              | none => none
              | some (rc1, m) => some (rc1, ⟨g.vertices, g.size, g.capacity * 2, m⟩)
          else some (0, g)) with
      | none => rw [hg] at hr; simp at hr
      | some r1 =>
        obtain ⟨rc1, g2⟩ := r1
        obtain ⟨e1, e2, e3⟩ := hgrown rc1 g2 hg
        rw [hg] at hr
        simp only at hr
        by_cases hrc1 : rc1 = 0
        · rw [if_neg (by simpa using hrc1)] at hr
          cases hput : algokit_digraph_map_put hash cmp c g2.map key g2.size with
          | none => rw [hput] at hr; simp at hr
          | some r2 =>
            obtain ⟨rc2, m2⟩ := r2
            rw [hput] at hr
            simp only at hr
            obtain ⟨p1, p2⟩ := map_put_ok hash cmp c g2.map g.size key g2.size rc2 m2 e2 hput
            by_cases hrc2 : rc2 = 0
            · rw [if_neg (by simpa using hrc2)] at hr
              simp only [Option.some.injEq, Prod.mk.injEq] at hr
              rw [← hr.2]
              exact ⟨by simpa [e1] using p1 hrc2, e3⟩
            · rw [if_pos (by simpa using hrc2)] at hr
              simp only [Option.some.injEq, Prod.mk.injEq] at hr
              rw [← hr.2]
              exact ⟨by simpa [e1] using p2 hrc2, e3⟩
        · rw [if_pos (by simpa using hrc1)] at hr
          simp only [Option.some.injEq, Prod.mk.injEq] at hr
          rw [← hr.2]
          exact ⟨by rw [e1]; exact e2, e3⟩

/-- A call of `algokit_graph_add_edge` changes neither the key map nor the number of
vertices nor the capacity. -/
theorem graph_add_edge_frame (hash : K → Nat) (cmp : K → K → Int) (a : Bool)
    (g : algokit_graph K W) (u_key v_key : K) (weight : W) (rc : Int) (g1 : algokit_graph K W)
    (hr : algokit_graph_add_edge hash cmp a g u_key v_key weight = some (rc, g1)) :
    g1.map = g.map ∧ g1.size = g.size ∧ g1.capacity = g.capacity := by
  unfold algokit_graph_add_edge at hr
  cases hget : algokit_graph_map_get hash cmp g.map u_key with
  | none => rw [hget] at hr; simp at hr
  | some r0 =>
    obtain ⟨rc0, out0⟩ := r0
    rw [hget] at hr
    simp only at hr
    by_cases h0 : rc0 ≠ 0
    · rw [if_pos h0] at hr
      simp only [Option.some.injEq, Prod.mk.injEq] at hr
      rw [← hr.2]
      exact ⟨rfl, rfl, rfl⟩
    · rw [if_neg h0] at hr
      cases hget1 : algokit_graph_map_get hash cmp g.map v_key with
      | none => rw [hget1] at hr; simp at hr
      | some r1 =>
        obtain ⟨rc1, out1⟩ := r1
        rw [hget1] at hr
        simp only at hr
        by_cases h1 : rc1 ≠ 0
        · rw [if_pos h1] at hr
          simp only [Option.some.injEq, Prod.mk.injEq] at hr
          rw [← hr.2]
          exact ⟨rfl, rfl, rfl⟩
        · rw [if_neg h1] at hr
          by_cases h2 : a = false
          · rw [if_pos h2] at hr
            simp only [Option.some.injEq, Prod.mk.injEq] at hr
            rw [← hr.2]
            exact ⟨rfl, rfl, rfl⟩
          · rw [if_neg h2] at hr
            simp only [Option.some.injEq, Prod.mk.injEq] at hr
            rw [← hr.2]
            exact ⟨rfl, rfl, rfl⟩

theorem graph_create_ok (alloc_ok : Bool) (capacity : Nat) (g : algokit_graph K W)
    (hc : algokit_graph_create alloc_ok capacity = some g) : graph_ok g := by
  refine ⟨graph_create_wf alloc_ok capacity g hc, ?_⟩
  unfold algokit_graph_create at hc
  split_ifs at hc with h
  simp only [Option.some.injEq] at hc
  rw [← hc]
  have hpos : 0 < capacity := by omega
  refine ⟨⟨by simp, hpos, ?_, rfl, by simp only; omega⟩, hpos⟩
  simp only
  symm
  rw [List.countP_eq_zero]
  intro x hx
  rw [List.eq_of_mem_replicate hx]
  simp [algokit_digraph_map_entry.is_occupied]

/-- Every undirected graph built by `add_vertex` and `add_edge` satisfies the
representation invariant and the invariant of its key map. -/
theorem graph_reachable_ok (hash : K → Nat) (cmp : K → K → Int) (g : algokit_graph K W)
    (hr : graph_reachable hash cmp g) : graph_ok g := by
  obtain ⟨capacity, ops, g0, hc, hrun⟩ := hr
  have h0 := graph_create_ok true capacity g0 hc
  clear hc
  induction ops generalizing g0 with
  | nil =>
    simp only [graph_run, Option.some.injEq] at hrun
    rw [← hrun]
    exact h0
  | cons op ops ih =>
    simp only [graph_run] at hrun
    cases hstep : graph_step hash cmp g0 op with
    | none => rw [hstep] at hrun; simp at hrun
    | some g1 =>
      rw [hstep] at hrun
      simp only at hrun
      refine ih g1 hrun ?_
      cases op with
      | add_vertex a b c key =>
        simp only [graph_step, Option.map_eq_some', Prod.exists, exists_eq_right] at hstep
        obtain ⟨rc, hav⟩ := hstep
        exact graph_add_vertex_ok hash cmp a b c g0 key rc g1 h0 hav
      | add_edge a uk vk w =>
        simp only [graph_step, Option.map_eq_some', Prod.exists, exists_eq_right] at hstep
        obtain ⟨rc, hae⟩ := hstep
        obtain ⟨f1, f2, f3⟩ := graph_add_edge_frame hash cmp a g0 uk vk w rc g1 hae
        exact ⟨graph_add_edge_wf hash cmp a g0 uk vk w rc g1 h0.1 hae,
          by rw [f1, f2]; exact h0.2.1, by rw [f3]; exact h0.2.2⟩

end graph_build_ok

/-! ## Breadth-first search: the property of the two functions -/

section bfs_claims

variable {K W : Type}

/-- C20: breadth-first search visits exactly the reachable set.  For a
directed graph `g` and an undirected graph `ug` built by `add_vertex` and
`add_edge`, and a start key each: the lookup of the start key in the key map
returns.  If it returns 0 with the index `start` (the key is registered),
then `algokit_digraph_bfs` (`algokit_graph_bfs`) returns 0, and the keys it
passes to `visit` are the keys of a list of vertices without repetition that
begins with `start` and holds exactly the vertices reachable from `start`
along the adjacency lists.  If the lookup returns another code (the key is
not registered), the function returns 1 and `visit` is never called. -/
theorem graph_bfs_visits_reachable (hash : K → Nat) (cmp : K → K → Int)
    (g : algokit_digraph K) (ug : algokit_graph K W) (hg : digraph_reachable hash cmp g)
    (hug : graph_reachable hash cmp ug) (start_key ustart_key : K) :
    (∃ (rc : Int) (out : Option Nat),
      algokit_digraph_map_get hash cmp g.map start_key = some (rc, out) ∧
      (rc = 0 → ∃ (start : Nat) (order : List Nat), out = some start ∧
        algokit_digraph_bfs hash cmp true g start_key =
          some (0, order.map (algokit_digraph_vertex_key g)) ∧
        order.Nodup ∧ order.head? = some start ∧
        (∀ v, v ∈ order ↔ Relation.ReflTransGen (digraph_edge g) start v) ∧
        ∀ v ∈ order, ∃ k, algokit_digraph_vertex_key g v = some k) ∧
      (rc ≠ 0 → algokit_digraph_bfs hash cmp true g start_key = some (1, []))) ∧
    (∃ (urc : Int) (uout : Option Nat),
      algokit_graph_map_get hash cmp ug.map ustart_key = some (urc, uout) ∧
      (urc = 0 → ∃ (start : Nat) (order : List Nat), uout = some start ∧
        algokit_graph_bfs hash cmp true ug ustart_key =
          some (0, order.map (algokit_graph_vertex_key ug)) ∧
        order.Nodup ∧ order.head? = some start ∧
        (∀ v, v ∈ order ↔ Relation.ReflTransGen (graph_edge ug) start v) ∧
        ∀ v ∈ order, ∃ k, algokit_graph_vertex_key ug v = some k) ∧
      (urc ≠ 0 → algokit_graph_bfs hash cmp true ug ustart_key = some (1, []))) := by
  obtain ⟨hwf, hmap, -⟩ := digraph_reachable_ok hash cmp g hg
  obtain ⟨huwf, humap, -⟩ := graph_reachable_ok hash cmp ug hug
  obtain ⟨rc, out, hget⟩ := map_get_total hash cmp g.map g.size hmap start_key
  obtain ⟨urc, uout, huget0⟩ := map_get_total hash cmp ug.map ug.size humap ustart_key
  have huget : algokit_graph_map_get hash cmp ug.map ustart_key = some (urc, uout) := huget0
  refine ⟨⟨rc, out, hget, ?_, ?_⟩, ⟨urc, uout, huget, ?_, ?_⟩⟩
  · intro hrc
    subst hrc
    rcases map_get_codes hash cmp g.map start_key 0 out hget with ⟨-, start, rfl⟩ | ⟨h, -⟩
    · obtain ⟨k, hk⟩ := map_get_mem hash cmp g.map start_key 0 start hget
      have hs : start < g.size := index_below_lt _ k start (hwf.2.2 _ hk)
      obtain ⟨order, o1, o2, o3, o4⟩ := bfs_from_start (algokit_digraph_adj g)
        (algokit_digraph_vertex_key g) g.size start (digraph_adj_lt g hwf) hs
      refine ⟨start, order, rfl, ?_, o2, o3, o4, ?_⟩
      · unfold algokit_digraph_bfs
        rw [hget]
        simp only [ne_eq, not_true_eq_false, if_false, Bool.true_eq_false, Option.getD_some]
        rw [o1]
      · intro v hv
        have hreach := (o4 v).1 hv
        have hlt : v < g.size := by
          rcases Relation.ReflTransGen.cases_tail hreach with h | ⟨u, -, hu⟩
          · rw [h]; exact hs
          · exact digraph_adj_lt g hwf u v hu
        exact digraph_vertex_key_some g hwf v hlt
    · exact absurd h (by decide)
  · intro hrc
    unfold algokit_digraph_bfs
    rw [hget]
    simp only [hrc, ne_eq, not_false_eq_true, if_true]
  · intro hrc
    subst hrc
    rcases map_get_codes hash cmp ug.map ustart_key 0 uout huget0 with ⟨-, start, rfl⟩ | ⟨h, -⟩
    · obtain ⟨k, hk⟩ := map_get_mem hash cmp ug.map ustart_key 0 start huget0
      have hs : start < ug.size := index_below_lt _ k start (huwf.2.2 _ hk)
      obtain ⟨order, o1, o2, o3, o4⟩ := bfs_from_start (algokit_graph_adj ug)
        (algokit_graph_vertex_key ug) ug.size start (graph_adj_lt ug huwf) hs
      refine ⟨start, order, rfl, ?_, o2, o3, o4, ?_⟩
      · unfold algokit_graph_bfs
        rw [huget]
        simp only [ne_eq, not_true_eq_false, if_false, Bool.true_eq_false, Option.getD_some]
        rw [o1]
      · intro v hv
        have hreach := (o4 v).1 hv
        have hlt : v < ug.size := by
          rcases Relation.ReflTransGen.cases_tail hreach with h | ⟨u, -, hu⟩
          · rw [h]; exact hs
          · exact graph_adj_lt ug huwf u v hu
        exact graph_vertex_key_some ug huwf v hlt
    · exact absurd h (by decide)
  · intro hrc
    unfold algokit_graph_bfs
    rw [huget]
    simp only [hrc, ne_eq, not_false_eq_true, if_true]

theorem graph_bfs_visits_reachable_witness :
    (digraph_reachable int_hash int_cmp digraph_test_graph ∧
      graph_reachable int_hash int_cmp graph_test_graph ∧
      algokit_digraph_bfs int_hash int_cmp true digraph_test_graph 0 =
        some (0, [some 0, some 3, some 1, some 2]) ∧
      algokit_graph_bfs int_hash int_cmp true graph_test_graph 0 =
        some (0, [some 0, some 1, some 2]) ∧
      algokit_graph_bfs int_hash int_cmp true graph_test_graph 7 = some (1, [])) ∧
    (∃ (rc : Int) (out : Option Nat),
      algokit_digraph_map_get int_hash int_cmp digraph_test_graph.map 0 = some (rc, out) ∧
      (rc = 0 → ∃ (start : Nat) (order : List Nat), out = some start ∧
        algokit_digraph_bfs int_hash int_cmp true digraph_test_graph 0 =
          some (0, order.map (algokit_digraph_vertex_key digraph_test_graph)) ∧
        order.Nodup ∧ order.head? = some start ∧
        (∀ v, v ∈ order ↔ Relation.ReflTransGen (digraph_edge digraph_test_graph) start v) ∧
        ∀ v ∈ order, ∃ k, algokit_digraph_vertex_key digraph_test_graph v = some k) ∧
      (rc ≠ 0 →
        algokit_digraph_bfs int_hash int_cmp true digraph_test_graph 0 = some (1, []))) ∧
    (∃ (urc : Int) (uout : Option Nat),
      algokit_graph_map_get int_hash int_cmp graph_test_graph.map 7 = some (urc, uout) ∧
      (urc = 0 → ∃ (start : Nat) (order : List Nat), uout = some start ∧
        algokit_graph_bfs int_hash int_cmp true graph_test_graph 7 =
          some (0, order.map (algokit_graph_vertex_key graph_test_graph)) ∧
        order.Nodup ∧ order.head? = some start ∧
        (∀ v, v ∈ order ↔ Relation.ReflTransGen (graph_edge graph_test_graph) start v) ∧
        ∀ v ∈ order, ∃ k, algokit_graph_vertex_key graph_test_graph v = some k) ∧
      (urc ≠ 0 →
        algokit_graph_bfs int_hash int_cmp true graph_test_graph 7 = some (1, []))) :=
  ⟨⟨⟨8, digraph_test_ops, ⟨[], 0, 8, ⟨List.replicate 8 algokit_digraph_map_entry.empty, 8, 0⟩⟩,
        by decide, by decide⟩,
      ⟨8, graph_test_ops, ⟨[], 0, 8, ⟨List.replicate 8 algokit_digraph_map_entry.empty, 8, 0⟩⟩,
        by decide, by decide⟩,
      by decide, by decide, by decide⟩,
    graph_bfs_visits_reachable int_hash int_cmp digraph_test_graph graph_test_graph
      ⟨8, digraph_test_ops, ⟨[], 0, 8, ⟨List.replicate 8 algokit_digraph_map_entry.empty, 8, 0⟩⟩,
        by decide, by decide⟩
      ⟨8, graph_test_ops, ⟨[], 0, 8, ⟨List.replicate 8 algokit_digraph_map_entry.empty, 8, 0⟩⟩,
        by decide, by decide⟩ 0 7⟩

end bfs_claims

/-! ## Topological sort: in-degrees -/

section topo_in_degree

variable {K : Type}

theorem getD_set_nat (l : List Nat) (i j x : Nat) (hi : i < l.length) :
    (l.set i x).getD j 0 = if j = i then x else l.getD j 0 := by
  simp only [List.getD_eq_getElem?_getD]
  by_cases h : j = i
  · subst h
    simp [hi]
  · simp [h, List.getElem?_set_ne (Ne.symm h)]

/-- The loop `in_degree[edge->to]++` over one adjacency list. -/
theorem in_degree_edges (n : Nat) :
    ∀ (es : List Nat) (d : List Nat), d.length = n → (∀ w ∈ es, w < n) →
      (es.foldl (fun d target => d.set target (d.getD target 0 + 1)) d).length = n ∧
      ∀ w, (es.foldl (fun d target => d.set target (d.getD target 0 + 1)) d).getD w 0 =
        d.getD w 0 + es.count w := by
  intro es
  induction es with
  | nil => intro d hl _; exact ⟨hl, fun w => by simp⟩
  | cons e es ih =>
    intro d hl hes
    have he : e < n := hes e (List.mem_cons_self _ _)
    obtain ⟨h1, h2⟩ := ih (d.set e (d.getD e 0 + 1)) (by simpa using hl)
      (fun w hw => hes w (List.mem_cons_of_mem _ hw))
    refine ⟨by simpa using h1, fun w => ?_⟩
    rw [List.foldl_cons, h2 w, getD_set_nat d e w _ (by rw [hl]; exact he), List.count_cons]
    by_cases hwe : w = e
    · subst hwe
      simp
      omega
    · have : ¬ (e == w) = true := by simpa using Ne.symm hwe
      simp [hwe, this]

/-- The in-degree loops over the vertices of a list. -/
theorem in_degree_vertices (g : algokit_digraph K) (n : Nat)
    (hadj : ∀ u v, v ∈ algokit_digraph_adj g u → v < n) :
    ∀ (us : List Nat) (d : List Nat), d.length = n →
      (us.foldl (fun deg i => (algokit_digraph_adj g i).foldl
        (fun d target => d.set target (d.getD target 0 + 1)) deg) d).length = n ∧
      ∀ w, (us.foldl (fun deg i => (algokit_digraph_adj g i).foldl
        (fun d target => d.set target (d.getD target 0 + 1)) deg) d).getD w 0 =
        d.getD w 0 + digraph_edges_into g us w := by
  intro us
  induction us with
  | nil => intro d hl; exact ⟨hl, fun w => by simp [digraph_edges_into]⟩
  | cons u us ih =>
    intro d hl
    obtain ⟨e1, e2⟩ := in_degree_edges n (algokit_digraph_adj g u) d hl (fun w hw => hadj u w hw)
    obtain ⟨h1, h2⟩ := ih _ e1
    refine ⟨by simpa using h1, fun w => ?_⟩
    rw [List.foldl_cons, h2 w, e2 w]
    simp only [digraph_edges_into, List.map_cons, List.sum_cons]
    omega

/-- The array `in_degree` after the first loop holds for every vertex the
number of edges into it. -/
theorem in_degree_spec (g : algokit_digraph K) (hwf : digraph_wf g) :
    (digraph_in_degree g).length = g.size ∧
    ∀ w, (digraph_in_degree g).getD w 0 = digraph_edges_into g (List.range g.size) w := by
  obtain ⟨h1, h2⟩ := in_degree_vertices g g.size (digraph_adj_lt g hwf) (List.range g.size)
    (List.replicate g.size 0) (by simp)
  refine ⟨h1, fun w => ?_⟩
  unfold digraph_in_degree
  rw [h2 w]
  simp only [List.getD_eq_getElem?_getD, List.getElem?_replicate]
  split_ifs <;> simp

/-- No edge into `w` from the vertices of `us` is counted exactly when none of
them has `w` on its list. -/
theorem edges_into_eq_zero (g : algokit_digraph K) (us : List Nat) (w : Nat) :
    digraph_edges_into g us w = 0 ↔ ∀ u ∈ us, w ∉ algokit_digraph_adj g u := by
  unfold digraph_edges_into
  rw [List.sum_eq_zero_iff]
  simp only [List.mem_map, forall_exists_index, and_imp, forall_apply_eq_imp_iff₂,
    List.count_eq_zero]

/-- Taking one vertex out of a duplicate-free list takes its edges out of the
count. -/
theorem edges_into_remove (g : algokit_digraph K) (w v : Nat) :
    ∀ (us : List Nat), us.Nodup → v ∈ us →
      digraph_edges_into g us w =
        (algokit_digraph_adj g v).count w + digraph_edges_into g (us.filter (fun u => u ≠ v)) w := by
  intro us
  induction us with
  | nil => intro _ h; simp at h
  | cons u us ih =>
    intro hnd hv
    rw [List.nodup_cons] at hnd
    by_cases huv : u = v
    · subst huv
      have hfil : (u :: us).filter (fun x => x ≠ u) = us := by
        rw [List.filter_cons_of_neg (by simp)]
        apply List.filter_eq_self.2
        intro a ha
        have : a ≠ u := fun h => hnd.1 (h ▸ ha)
        simpa using this
      rw [hfil]
      simp [digraph_edges_into]
    · have hv' : v ∈ us := by
        rcases List.mem_cons.1 hv with h | h
        · exact absurd h.symm huv
        · exact h
      have hfil : (u :: us).filter (fun x => x ≠ v) = u :: us.filter (fun x => x ≠ v) := by
        rw [List.filter_cons_of_pos (by simpa using huv)]
      rw [hfil]
      have := ih hnd.2 hv'
      simp only [digraph_edges_into, List.map_cons, List.sum_cons] at this ⊢
      omega

end topo_in_degree

/-! ## Topological sort: the queue loop -/

section topo_loop_lemmas

variable {K : Type}

theorem digraph_adj_src_lt (g : algokit_digraph K) (hwf : digraph_wf g) (u v : Nat)
    (h : v ∈ algokit_digraph_adj g u) : u < g.size := by
  unfold algokit_digraph_adj at h
  cases hv : g.vertices.get? u with
  | none => rw [hv] at h; simp at h
  | some vx =>
    rw [← hwf.1]
    by_contra hcon
    rw [List.get?_eq_none.2 (by omega)] at hv
    simp at hv

theorem nodup_get_not_mem_take (l : List Nat) (hnd : l.Nodup) (i : Nat) (hi : i < l.length) :
    l.getD i 0 ∉ l.take i := by
  intro hmem
  obtain ⟨j, hj, hje⟩ := List.mem_iff_getElem.1 hmem
  have hjl : j < i := by
    rw [List.length_take] at hj
    omega
  rw [List.getElem_take] at hje
  have hgi : l.getD i 0 = l[i] := by
    simp [List.getD_eq_getElem?_getD, List.getElem?_eq_getElem hi]
  rw [hgi] at hje
  have := (List.Nodup.getElem_inj_iff hnd).1 hje
  omega

/-- The inner loop of the topological sort: with `B w` edges into `w` from the
vertices not yet written and the remaining edges of the list still counted
in `in_degree`, it leaves `in_degree[w] = B w` and appends the targets whose
in-degree has become 0, each once. -/
theorem topo_edges_spec (n : Nat) (B : Nat → Nat) :
    ∀ (es deg queue : List Nat), deg.length = n → (∀ w ∈ es, w < n) → queue.Nodup →
      (∀ w, w < n → deg.getD w 0 = B w + es.count w) →
      (∀ w, w < n → (w ∈ queue ↔ deg.getD w 0 = 0)) →
      (topo_edges es deg queue).1.length = n ∧ (topo_edges es deg queue).2.Nodup ∧
      (∀ w, w < n → (topo_edges es deg queue).1.getD w 0 = B w) ∧
      (∀ w, w < n → (w ∈ (topo_edges es deg queue).2 ↔
        (topo_edges es deg queue).1.getD w 0 = 0)) ∧
      ∃ extra, (topo_edges es deg queue).2 = queue ++ extra ∧
        ∀ x ∈ extra, x < n ∧ B x = 0 := by
  intro es
  induction es with
  | nil =>
    intro deg queue hl _ hnd hdeg hq
    exact ⟨hl, hnd, fun w hw => by simpa using hdeg w hw, hq, [], by simp [topo_edges],
      by simp⟩
  | cons e es ih =>
    intro deg queue hl hes hnd hdeg hq
    have he : e < n := hes e (List.mem_cons_self _ _)
    have hes1 : ∀ w ∈ es, w < n := fun w hw => hes w (List.mem_cons_of_mem _ hw)
    have hde := hdeg e he
    rw [List.count_cons_self] at hde
    have hdec : size_t_dec (deg.getD e 0) = B e + es.count e := by
      unfold size_t_dec
      rw [if_neg (by omega)]
      omega
    have hset : ∀ w, (deg.set e (size_t_dec (deg.getD e 0))).getD w 0 =
        if w = e then B e + es.count e else deg.getD w 0 := by
      intro w
      rw [getD_set_nat deg e w _ (by rw [hl]; exact he), hdec]
    have hdeg1 : ∀ w, w < n →
        (deg.set e (size_t_dec (deg.getD e 0))).getD w 0 = B w + es.count w := by
      intro w hw
      rw [hset w]
      by_cases hwe : w = e
      · rw [if_pos hwe, hwe]
      · rw [if_neg hwe, hdeg w hw, List.count_cons_of_ne hwe]
    have hnot : e ∉ queue := by
      intro hin
      have := (hq e he).1 hin
      omega
    rw [topo_edges]
    by_cases hz : (deg.set e (size_t_dec (deg.getD e 0))).getD e 0 = 0
    · rw [if_pos hz]
      have hBe : B e = 0 := by
        rw [hset e, if_pos rfl] at hz
        omega
      obtain ⟨h1, h2, h3, h4, extra, h5, h6⟩ := ih (deg.set e (size_t_dec (deg.getD e 0)))
        (queue ++ [e]) (by simpa using hl) hes1
        (List.nodup_append.2 ⟨hnd, List.nodup_singleton e, by
          intro a ha hb
          rw [List.mem_singleton] at hb
          exact hnot (hb ▸ ha)⟩)
        hdeg1 (by
          intro w hw
          by_cases hwe : w = e
          · subst hwe
            exact ⟨fun _ => hz, fun _ => List.mem_append_right _ (List.mem_singleton_self _)⟩
          · rw [hset w, if_neg hwe]
            simp only [List.mem_append, List.mem_singleton, hwe, or_false]
            exact hq w hw)
      refine ⟨h1, h2, h3, h4, e :: extra, by rw [h5]; simp, ?_⟩
      intro x hx
      rcases List.mem_cons.1 hx with rfl | hx
      · exact ⟨he, hBe⟩
      · exact h6 x hx
    · rw [if_neg hz]
      obtain ⟨h1, h2, h3, h4, extra, h5, h6⟩ := ih (deg.set e (size_t_dec (deg.getD e 0)))
        queue (by simpa using hl) hes1 hnd hdeg1 (by
          intro w hw
          by_cases hwe : w = e
          · subst hwe
            exact ⟨fun h => absurd h hnot, fun h => absurd h hz⟩
          · rw [hset w, if_neg hwe]
            exact hq w hw)
      exact ⟨h1, h2, h3, h4, extra, h5, h6⟩

/-- The queue loop of the topological sort returns: the vertices it writes
are different, every edge into a written vertex comes from a vertex written
before it, and every vertex left out has an edge from a vertex left out. -/
theorem topo_loop_spec (g : algokit_digraph K) (hwf : digraph_wf g) :
    ∀ (fuel head : Nat) (queue deg order U : List Nat), g.size + 1 ≤ fuel + head →
      deg.length = g.size → queue.Nodup → (∀ v ∈ queue, v < g.size) → head ≤ queue.length →
      order = queue.take head → U.Nodup →
      (∀ u, u ∈ U ↔ (u < g.size ∧ u ∉ queue.take head)) →
      (∀ w, w < g.size → deg.getD w 0 = digraph_edges_into g U w) →
      (∀ w, w < g.size → (w ∈ queue ↔ deg.getD w 0 = 0)) →
      (∀ pre w post, queue = pre ++ w :: post →
        ∀ u, w ∈ algokit_digraph_adj g u → u ∈ pre) →
      ∃ result, topo_loop g fuel head queue deg order = some result ∧ result.Nodup ∧
        (∀ v ∈ result, v < g.size) ∧
        (∀ pre w post, result = pre ++ w :: post →
          ∀ u, w ∈ algokit_digraph_adj g u → u ∈ pre) ∧
        ∀ w, w < g.size → w ∉ result →
          ∃ u, u < g.size ∧ u ∉ result ∧ w ∈ algokit_digraph_adj g u := by
  intro fuel
  induction fuel with
  | zero =>
    intro head queue deg order U hf _ hnd hlt hh _ _ _ _ _ _
    have := nodup_lt_length_le queue g.size hnd hlt
    omega
  | succ fuel ih =>
    intro head queue deg order U hf hl hnd hlt hh hord hU hUm hdeg hq hpos
    rw [topo_loop]
    by_cases hlt2 : head < queue.length
    · rw [if_pos hlt2]
      simp only []
      have hvq : queue.getD head 0 = queue.get ⟨head, hlt2⟩ := by
        simp [List.getD_eq_getElem?_getD, List.getElem?_eq_getElem hlt2]
      have hmem : queue.getD head 0 ∈ queue := by
        rw [hvq]; exact List.get_mem _ _ _
      have hvn : queue.getD head 0 < g.size := hlt _ hmem
      have hvU : queue.getD head 0 ∈ U :=
        (hUm _).2 ⟨hvn, nodup_get_not_mem_take queue hnd head hlt2⟩
      obtain ⟨h1, h2, h3, h4, extra, h5, h6⟩ := topo_edges_spec g.size
        (digraph_edges_into g (U.filter (fun u => u ≠ queue.getD head 0)))
        (algokit_digraph_adj g (queue.getD head 0)) deg queue hl
        (fun w hw => digraph_adj_lt g hwf _ w hw) hnd
        (by
          intro w hw
          rw [hdeg w hw, edges_into_remove g w (queue.getD head 0) U hU hvU]
          omega)
        hq
      have htake : (queue ++ extra).take (head + 1) =
          queue.take head ++ [queue.getD head 0] := by
        rw [List.take_append_of_le_length (by omega), List.take_succ,
          List.getElem?_eq_getElem hlt2, hvq]
        simp
      have hUm1 : ∀ u, u ∈ U.filter (fun u => u ≠ queue.getD head 0) ↔
          (u < g.size ∧ u ∉ (queue ++ extra).take (head + 1)) := by
        intro u
        rw [htake, List.mem_filter, hUm u]
        simp only [ne_eq, decide_not, Bool.not_eq_true', decide_eq_false_iff_not,
          List.mem_append, List.mem_singleton, not_or]
        tauto
      -- an appended vertex has all its incoming edges from vertices written already
      have hextra : ∀ x ∈ extra, ∀ u, x ∈ algokit_digraph_adj g u → u ∈ queue := by
        intro x hx u hu
        have hB := (h6 x hx).2
        rw [edges_into_eq_zero] at hB
        have hun : u < g.size := digraph_adj_src_lt g hwf u x hu
        by_contra hnq
        apply hB u _ hu
        rw [hUm1 u, htake]
        refine ⟨hun, ?_⟩
        intro hin
        rcases List.mem_append.1 hin with h | h
        · exact hnq (List.mem_of_mem_take h)
        · rw [List.mem_singleton] at h
          exact hnq (h ▸ hmem)
      obtain ⟨result, r1, r2, r3, r4, r5⟩ := ih (head + 1)
        (topo_edges (algokit_digraph_adj g (queue.getD head 0)) deg queue).2
        (topo_edges (algokit_digraph_adj g (queue.getD head 0)) deg queue).1
        (order ++ [queue.getD head 0])
        (U.filter (fun u => u ≠ queue.getD head 0)) (by omega) h1 h2
        (by
          intro v hvm
          rw [h5] at hvm
          rcases List.mem_append.1 hvm with h | h
          · exact hlt v h
          · exact (h6 v h).1)
        (by rw [h5, List.length_append]; omega)
        (by rw [h5, htake, hord])
        (hU.filter _)
        (by rw [h5]; exact hUm1)
        h3 h4
        (by
          rw [h5]
          intro pre w post hsplit u hu
          rcases List.append_eq_append_iff.1 hsplit with ⟨a, ha1, ha2⟩ | ⟨c, hc1, hc2⟩
          · rw [ha1]
            apply List.mem_append_left
            exact hextra w (by rw [ha2]; simp) u hu
          · rcases c with _ | ⟨c0, c⟩
            · simp only [List.append_nil, List.nil_append] at hc1 hc2
              rw [← hc1]
              exact hextra w (by rw [← hc2]; simp) u hu
            · simp only [List.cons_append, List.cons.injEq] at hc2
              obtain ⟨rfl, -⟩ := hc2
              exact hpos pre w c hc1 u hu)
      exact ⟨result, r1, r2, r3, r4, r5⟩
    · rw [if_neg hlt2]
      have hhead : head = queue.length := by omega
      rw [hhead, List.take_length] at hord hUm
      subst hord
      refine ⟨order, rfl, hnd, hlt, hpos, ?_⟩
      intro w hw hnot
      have hne : deg.getD w 0 ≠ 0 := fun h => hnot ((hq w hw).2 h)
      rw [hdeg w hw] at hne
      by_contra hcon
      apply hne
      rw [edges_into_eq_zero]
      intro u hu hwu
      exact hcon ⟨u, ((hUm u).1 hu).1, ((hUm u).1 hu).2, hwu⟩

end topo_loop_lemmas

/-! ## Topological sort: the result and directed cycles -/

section topo_result

variable {K : Type}

/-- The function returns; the order it writes lists different vertices, every
edge into a listed vertex comes from a vertex listed before it, and every
vertex left out has an edge from a vertex left out.  The result code is 0
exactly when all vertices are listed. -/
theorem topo_sort_spec (g : algokit_digraph K) (hwf : digraph_wf g) :
    ∃ order : List Nat,
      algokit_digraph_topological_sort true g =
        some (if order.length = g.size then 0 else 1, order) ∧
      order.Nodup ∧ (∀ v ∈ order, v < g.size) ∧
      (∀ pre w post, order = pre ++ w :: post →
        ∀ u, w ∈ algokit_digraph_adj g u → u ∈ pre) ∧
      ∀ w, w < g.size → w ∉ order →
        ∃ u, u < g.size ∧ u ∉ order ∧ w ∈ algokit_digraph_adj g u := by
  obtain ⟨d1, d2⟩ := in_degree_spec g hwf
  have hseed : ∀ w, w ∈ (List.range g.size).filter
      (fun i => (digraph_in_degree g).getD i 0 = 0) ↔
      (w < g.size ∧ (digraph_in_degree g).getD w 0 = 0) := by
    intro w
    simp [List.mem_filter]
  obtain ⟨result, r1, r2, r3, r4, r5⟩ := topo_loop_spec g hwf (g.size + 1) 0
    ((List.range g.size).filter (fun i => (digraph_in_degree g).getD i 0 = 0))
    (digraph_in_degree g) [] (List.range g.size) (by omega) d1
    ((List.nodup_range g.size).filter _) (fun v hv => ((hseed v).1 hv).1) (by omega)
    (by simp) (List.nodup_range g.size) (by intro u; simp) (fun w _ => d2 w)
    (fun w hw => ⟨fun h => ((hseed w).1 h).2, fun h => (hseed w).2 ⟨hw, h⟩⟩)
    (by
      intro pre w post hsplit u hu
      exfalso
      have hw : w ∈ (List.range g.size).filter
          (fun i => (digraph_in_degree g).getD i 0 = 0) := by
        rw [hsplit]; simp
      have hz := ((hseed w).1 hw).2
      rw [d2 w, edges_into_eq_zero] at hz
      exact hz u (List.mem_range.2 (digraph_adj_src_lt g hwf u w hu)) hu)
  refine ⟨result, ?_, r2, r3, r4, r5⟩
  unfold algokit_digraph_topological_sort
  simp only [Bool.true_eq_false, if_false]
  rw [r1]

/-- A duplicate-free list of vertices of full length lists every vertex. -/
theorem nodup_full (order : List Nat) (n : Nat) (hnd : order.Nodup)
    (hlt : ∀ v ∈ order, v < n) (hlen : order.length = n) : order.Perm (List.range n) := by
  have hsub : order.Subperm (List.range n) :=
    hnd.subperm (fun v hv => List.mem_range.2 (hlt v hv))
  exact hsub.perm_of_length_le (by simp [hlen])

/-- A duplicate-free list that leaves no vertex out has full length. -/
theorem nodup_all_length (order : List Nat) (n : Nat) (hnd : order.Nodup)
    (hlt : ∀ v ∈ order, v < n) (hall : ∀ w, w < n → w ∈ order) : order.length = n := by
  have h1 := nodup_lt_length_le order n hnd hlt
  have hsub : (List.range n).Subperm order :=
    (List.nodup_range n).subperm (fun v hv => hall v (List.mem_range.1 hv))
  have h2 := hsub.length_le
  simp only [List.length_range] at h2
  omega

/-- With predecessors listed first, the position in the list grows along
every edge between listed vertices. -/
theorem position_lt_of_edge (order : List Nat) (hnd : order.Nodup) (u w : Nat)
    (hw : w ∈ order)
    (hpos : ∀ pre post, order = pre ++ w :: post → u ∈ pre) :
    order.indexOf u < order.indexOf w := by
  obtain ⟨pre, post, hsplit⟩ := List.append_of_mem hw
  have hu := hpos pre post hsplit
  have hwn : w ∉ pre := by
    intro h
    rw [hsplit] at hnd
    have := (List.nodup_append.1 hnd).2.2 h (List.mem_cons_self _ _)
    exact this
  rw [hsplit, List.indexOf_append_of_mem hu, List.indexOf_append_of_not_mem hwn,
    List.indexOf_cons_self]
  have := List.indexOf_lt_length.2 hu
  omega

/-- An order that lists all vertices with predecessors first excludes a
directed cycle. -/
theorem topo_sound (g : algokit_digraph K) (hwf : digraph_wf g) (order : List Nat)
    (hnd : order.Nodup) (hall : ∀ w, w < g.size → w ∈ order)
    (hpos : ∀ pre w post, order = pre ++ w :: post →
      ∀ u, w ∈ algokit_digraph_adj g u → u ∈ pre) :
    (∀ u v, digraph_edge g u v → order.indexOf u < order.indexOf v) ∧ ¬ digraph_cyclic g := by
  have hedge : ∀ u v, digraph_edge g u v → order.indexOf u < order.indexOf v := by
    intro u v huv
    apply position_lt_of_edge order hnd u v (hall v (digraph_adj_lt g hwf u v huv))
    intro pre post hsplit
    exact hpos pre v post hsplit u huv
  refine ⟨hedge, ?_⟩
  rintro ⟨v, hv⟩
  have hpath : ∀ a b, Relation.TransGen (digraph_edge g) a b →
      order.indexOf a < order.indexOf b := by
    intro a b hab
    induction hab with
    | single h => exact hedge _ _ h
    | tail _ h ih => exact lt_trans ih (hedge _ _ h)
  exact lt_irrefl _ (hpath v v hv)

/-- Without a directed cycle no vertex is left out of the order. -/
theorem topo_complete (g : algokit_digraph K) (hac : ¬ digraph_cyclic g) (order : List Nat)
    (hleft : ∀ w, w < g.size → w ∉ order →
      ∃ u, u < g.size ∧ u ∉ order ∧ w ∈ algokit_digraph_adj g u) :
    ∀ w, w < g.size → w ∈ order := by
  by_contra hcon
  push_neg at hcon
  obtain ⟨w0, hw0, hw0n⟩ := hcon
  have htrans : IsTrans (Fin g.size)
      (fun a b => Relation.TransGen (digraph_edge g) a.val b.val) :=
    ⟨fun a b c hab hbc => Relation.TransGen.trans hab hbc⟩
  have hirr : IsIrrefl (Fin g.size)
      (fun a b => Relation.TransGen (digraph_edge g) a.val b.val) :=
    ⟨fun a h => hac ⟨a.val, h⟩⟩
  have hwf := @Finite.wellFounded_of_trans_of_irrefl (Fin g.size) _
    (fun a b => Relation.TransGen (digraph_edge g) a.val b.val) htrans hirr
  obtain ⟨m, hm, hmin⟩ := hwf.has_min {a : Fin g.size | a.val ∉ order} ⟨⟨w0, hw0⟩, hw0n⟩
  obtain ⟨u, hu, hun, hedge⟩ := hleft m.val m.isLt hm
  exact hmin ⟨u, hu⟩ hun (Relation.TransGen.single hedge)

end topo_result

/-! ## Topological sort: the properties of the function -/

section topo_claims

variable {K : Type}

/-- A numbering of the vertices that grows along every edge excludes a
directed cycle. -/
theorem digraph_acyclic_of_rank (g : algokit_digraph K) (hwf : digraph_wf g) (rank : Nat → Nat)
    (h : ∀ u, u < g.size → ∀ v ∈ algokit_digraph_adj g u, rank u < rank v) :
    ¬ digraph_cyclic g := by
  rintro ⟨v, hv⟩
  have hpath : ∀ a b, Relation.TransGen (digraph_edge g) a b → rank a < rank b := by
    intro a b hab
    induction hab with
    | single hab => exact h _ (digraph_adj_src_lt g hwf _ _ hab) _ hab
    | tail _ hbc ih => exact lt_trans ih (h _ (digraph_adj_src_lt g hwf _ _ hbc) _ hbc)
  exact lt_irrefl _ (hpath v v hv)

/-- C17: the topological order respects every edge.  For every directed
graph that satisfies the representation invariant and has no directed cycle,
`algokit_digraph_topological_sort` returns 0, the entries it writes to `order`
are a permutation of the vertex indices `0..n-1`, and for every edge `(u, v)`
the position of `u` in `order` is smaller than the position of `v`; parallel
edges are allowed. -/
theorem digraph_topological_order (g : algokit_digraph K) (hwf : digraph_wf g)
    (hac : ¬ digraph_cyclic g) :
    ∃ order : List Nat, algokit_digraph_topological_sort true g = some (0, order) ∧
      order.Perm (List.range g.size) ∧
      ∀ u v, digraph_edge g u v → order.indexOf u < order.indexOf v := by
  obtain ⟨order, h1, h2, h3, h4, h5⟩ := topo_sort_spec g hwf
  have hall := topo_complete g hac order h5
  have hlen := nodup_all_length order g.size h2 h3 hall
  rw [if_pos hlen] at h1
  exact ⟨order, h1, nodup_full order g.size h2 h3 hlen, (topo_sound g hwf order h2 hall h4).1⟩

theorem digraph_topological_order_witness :
    (digraph_wf digraph_test_graph ∧ ¬ digraph_cyclic digraph_test_graph ∧
      algokit_digraph_topological_sort true digraph_test_graph = some (0, [0, 3, 1, 2])) ∧
    ∃ order : List Nat,
      algokit_digraph_topological_sort true digraph_test_graph = some (0, order) ∧
      order.Perm (List.range digraph_test_graph.size) ∧
      ∀ u v, digraph_edge digraph_test_graph u v → order.indexOf u < order.indexOf v :=
  ⟨⟨by decide,
      digraph_acyclic_of_rank digraph_test_graph (by decide) (fun v => [0, 2, 3, 1].getD v 0)
        (by decide),
      by decide⟩,
    digraph_topological_order digraph_test_graph (by decide)
      (digraph_acyclic_of_rank digraph_test_graph (by decide) (fun v => [0, 2, 3, 1].getD v 0)
        (by decide))⟩

/-- C18: the topological sort fails exactly on cyclic graphs.  For every
directed graph that satisfies the representation invariant,
`algokit_digraph_topological_sort` returns; its result is 1, with fewer than
vertex-count entries written, if the graph contains a directed cycle (a
self-loop is one), and 0 if it does not. -/
theorem digraph_topological_sort_cyclic (g : algokit_digraph K) (hwf : digraph_wf g) :
    ∃ (rc : Int) (order : List Nat),
      algokit_digraph_topological_sort true g = some (rc, order) ∧
      (rc = 1 ↔ digraph_cyclic g) ∧ (rc = 0 ↔ ¬ digraph_cyclic g) ∧
      (rc = 1 → order.length < g.size) := by
  obtain ⟨order, h1, h2, h3, h4, h5⟩ := topo_sort_spec g hwf
  have hle := nodup_lt_length_le order g.size h2 h3
  by_cases hlen : order.length = g.size
  · rw [if_pos hlen] at h1
    have hall : ∀ w, w < g.size → w ∈ order := by
      intro w hw
      have : w ∈ order ↔ w ∈ List.range g.size :=
        List.Perm.mem_iff (nodup_full order g.size h2 h3 hlen)
      exact this.2 (List.mem_range.2 hw)
    have hac := (topo_sound g hwf order h2 hall h4).2
    exact ⟨0, order, h1, ⟨fun h => absurd h (by decide), fun h => absurd h hac⟩,
      ⟨fun _ => hac, fun _ => rfl⟩, fun h => absurd h (by decide)⟩
  · rw [if_neg hlen] at h1
    have hcyc : digraph_cyclic g := by
      by_contra hac
      exact hlen (nodup_all_length order g.size h2 h3 (topo_complete g hac order h5))
    exact ⟨1, order, h1, ⟨fun _ => hcyc, fun _ => rfl⟩,
      ⟨fun h => absurd h (by decide), fun h => absurd hcyc h⟩, fun _ => by omega⟩

theorem digraph_topological_sort_cyclic_witness :
    (digraph_wf digraph_test_cycle ∧
      algokit_digraph_topological_sort true digraph_test_cycle = some (1, [])) ∧
    ∃ (rc : Int) (order : List Nat),
      algokit_digraph_topological_sort true digraph_test_cycle = some (rc, order) ∧
      (rc = 1 ↔ digraph_cyclic digraph_test_cycle) ∧
      (rc = 0 ↔ ¬ digraph_cyclic digraph_test_cycle) ∧
      (rc = 1 → order.length < digraph_test_cycle.size) :=
  ⟨⟨by decide, by decide⟩, digraph_topological_sort_cyclic digraph_test_cycle (by decide)⟩

end topo_claims

/-! ## Cycle detection: the depth-first search with three states -/

section cycle_dfs_lemmas

variable {K : Type}

theorem count_zero_set (s : List Nat) (v x : Nat) (hv : v < s.length) (h0 : s.getD v 0 = 0)
    (hx : x ≠ 0) : (s.set v x).count 0 + 1 = s.count 0 := by
  induction s generalizing v with
  | nil => simp at hv
  | cons a s ih =>
    cases v with
    | zero =>
      simp only [List.getD_cons_zero] at h0
      subst h0
      simp only [List.set_cons_zero, List.count_cons_self]
      rw [List.count_cons_of_ne (Ne.symm hx)]
    | succ v =>
      simp only [List.getD_cons_succ] at h0
      have := ih v (by simpa using hv) h0
      simp only [List.set_cons_succ, List.count_cons]
      omega

theorem count_zero_mono :
    ∀ (s s1 : List Nat), s.length = s1.length →
      (∀ i, i < s.length → s1.getD i 0 = 0 → s.getD i 0 = 0) → s1.count 0 ≤ s.count 0 := by
  intro s
  induction s with
  | nil =>
    intro s1 hl _
    have : s1 = [] := List.length_eq_zero.1 hl.symm
    rw [this]
  | cons a s ih =>
    intro s1 hl h
    cases s1 with
    | nil => simp at hl
    | cons b s1 =>
      have h0 := h 0 (by simp)
      simp only [List.getD_cons_zero] at h0
      have hrest := ih s1 (by simpa using hl) (fun i hi hz => by
        have := h (i + 1) (by simpa using hi)
        simp only [List.getD_cons_succ] at this
        exact this hz)
      by_cases hb : b = 0
      · have ha := h0 hb
        subst hb
        subst ha
        rw [List.count_cons_self, List.count_cons_self]
        omega
      · rw [List.count_cons_of_ne (Ne.symm hb)]
        by_cases ha : a = 0
        · subst ha
          rw [List.count_cons_self]
          omega
        · rw [List.count_cons_of_ne (Ne.symm ha)]
          exact hrest

theorem dfs_extends_refl (n : Nat) (s : List Nat) : dfs_extends n s s :=
  fun _ _ => ⟨fun _ => rfl, fun h => Or.inl h⟩

theorem dfs_extends_trans (n : Nat) (s s1 s2 : List Nat) (h1 : dfs_extends n s s1)
    (h2 : dfs_extends n s1 s2) : dfs_extends n s s2 := by
  intro x hx
  obtain ⟨a1, a2⟩ := h1 x hx
  obtain ⟨b1, b2⟩ := h2 x hx
  constructor
  · intro hne
    rw [b1 (by rw [a1 hne]; exact hne), a1 hne]
  · intro hz
    rcases a2 hz with h | h
    · exact b2 h
    · right
      rw [b1 (by rw [h]; decide), h]

theorem dfs_extends_count (n : Nat) (s s1 : List Nat) (hl : s.length = n) (hl1 : s1.length = n)
    (h : dfs_extends n s s1) : s1.count 0 ≤ s.count 0 := by
  apply count_zero_mono s s1 (by rw [hl, hl1])
  intro i hi hz
  by_contra hne
  rw [(h i (by omega)).1 hne] at hz
  exact hne hz

theorem dfs_extends_gray (n : Nat) (s s1 : List Nat) (h : dfs_extends n s s1) (x : Nat)
    (hx : x < n) (hg : s1.getD x 0 = 1) : s.getD x 0 = 1 := by
  by_cases hz : s.getD x 0 = 0
  · rcases (h x hx).2 hz with h1 | h1 <;> omega
  · rw [← (h x hx).1 hz]; exact hg

/-- A vertex in state 1 with an edge from the vertex the search is at lies on a
directed cycle. -/
theorem gray_edge_cycle (g : algokit_digraph K) (s : List Nat) (v t : Nat)
    (hgr : dfs_gray_reach g s v) (ht : t < g.size) (hst : s.getD t 0 = 1)
    (hedge : t ∈ algokit_digraph_adj g v) : digraph_cyclic g :=
  ⟨t, Relation.TransGen.tail' (hgr t ht hst) hedge⟩

/-- The loop over the adjacency list of `v`, for a recursive call that meets
its specification: it returns; a result 1 means a directed cycle, and after a
result 0 every target of the list is in state 2. -/
theorem cycle_edges_spec (g : algokit_digraph K) (hwf : digraph_wf g)
    (dfs : Nat → List Nat → Option (Int × List Nat)) (fuel : Nat)
    (hdfs : ∀ t s, t < g.size → s.getD t 0 = 0 → dfs_ok g s → dfs_gray_reach g s t →
      s.count 0 < fuel →
      ∃ res, dfs t s = some res ∧ (res.1 = 0 ∨ res.1 = 1) ∧ (res.1 ≠ 0 → digraph_cyclic g) ∧
        (res.1 = 0 → dfs_ok g res.2 ∧ dfs_extends g.size s res.2 ∧ res.2.getD t 0 = 2))
    (v : Nat) :
    ∀ (es : List Nat) (s : List Nat), (∀ w ∈ es, w ∈ algokit_digraph_adj g v) → dfs_ok g s →
      s.getD v 0 = 1 → dfs_gray_reach g s v → s.count 0 < fuel →
      ∃ res, cycle_edges dfs es s = some res ∧ (res.1 = 0 ∨ res.1 = 1) ∧
        (res.1 ≠ 0 → digraph_cyclic g) ∧
        (res.1 = 0 → dfs_ok g res.2 ∧ dfs_extends g.size s res.2 ∧
          ∀ w ∈ es, res.2.getD w 0 = 2) := by
  intro es
  induction es with
  | nil =>
    intro s _ hok _ _ _
    exact ⟨(0, s), rfl, Or.inl rfl, fun h => absurd rfl h,
      fun _ => ⟨hok, dfs_extends_refl _ s, by simp⟩⟩
  | cons t es ih =>
    intro s hes hok hv hgr hcnt
    have hte : t ∈ algokit_digraph_adj g v := hes t (List.mem_cons_self _ _)
    have htn : t < g.size := digraph_adj_lt g hwf v t hte
    have hes1 : ∀ w ∈ es, w ∈ algokit_digraph_adj g v :=
      fun w hw => hes w (List.mem_cons_of_mem _ hw)
    rw [cycle_edges]
    by_cases h1 : s.getD t 0 = 1
    · rw [if_pos h1]
      exact ⟨(1, s), rfl, Or.inr rfl, fun _ => gray_edge_cycle g s v t hgr htn h1 hte,
        fun h => by simp at h⟩
    · rw [if_neg h1]
      by_cases h0 : s.getD t 0 = 0
      · rw [if_pos h0]
        have hgrt : dfs_gray_reach g s t :=
          fun x hx hxs => Relation.ReflTransGen.tail (hgr x hx hxs) hte
        obtain ⟨⟨rc, s1⟩, d1, d2, d3, d4⟩ := hdfs t s htn h0 hok hgrt hcnt
        rw [d1]
        simp only at d2 d3 d4 ⊢
        by_cases hrc : rc = 0
        · obtain ⟨k1, k2, k3⟩ := d4 hrc
          rw [if_neg (by simpa using hrc)]
          have hv1 : s1.getD v 0 = 1 := by
            have hvn : v < g.size := digraph_adj_src_lt g hwf v t hte
            rw [(k2 v hvn).1 (by rw [hv]; decide), hv]
          have hgr1 : dfs_gray_reach g s1 v :=
            fun x hx hxs => hgr x hx (dfs_extends_gray _ s s1 k2 x hx hxs)
          have hcnt1 : s1.count 0 < fuel :=
            lt_of_le_of_lt (dfs_extends_count _ s s1 hok.1 k1.1 k2) hcnt
          obtain ⟨res, e1, e2, e3, e4⟩ := ih s1 hes1 k1 hv1 hgr1 hcnt1
          refine ⟨res, e1, e2, e3, fun hz => ?_⟩
          obtain ⟨m1, m2, m3⟩ := e4 hz
          refine ⟨m1, dfs_extends_trans _ s s1 res.2 k2 m2, ?_⟩
          intro w hw
          rcases List.mem_cons.1 hw with rfl | hw
          · rw [(m2 w htn).1 (by rw [k3]; decide), k3]
          · exact m3 w hw
        · rw [if_pos (by simpa using hrc)]
          exact ⟨(1, s1), rfl, Or.inr rfl, fun _ => d3 hrc, fun h => by simp at h⟩
      · rw [if_neg h0]
        have h2 : s.getD t 0 = 2 := by
          have := hok.2.1 t htn
          omega
        obtain ⟨res, e1, e2, e3, e4⟩ := ih s hes1 hok hv hgr hcnt
        refine ⟨res, e1, e2, e3, fun hz => ?_⟩
        obtain ⟨m1, m2, m3⟩ := e4 hz
        refine ⟨m1, m2, ?_⟩
        intro w hw
        rcases List.mem_cons.1 hw with rfl | hw
        · rw [(m2 w htn).1 (by rw [h2]; decide), h2]
        · exact m3 w hw

end cycle_dfs_lemmas

/-! ## Cycle detection: the recursion and the loop over the vertices -/

section cycle_dfs_spec

variable {K : Type}

/-- A `state` array in which every vertex is in state 2 excludes a directed
cycle. -/
theorem all_black_acyclic (g : algokit_digraph K) (hwf : digraph_wf g) (s : List Nat)
    (hok : dfs_ok g s) (hall : ∀ x, x < g.size → s.getD x 0 = 2) : ¬ digraph_cyclic g := by
  obtain ⟨rank, hrank⟩ := hok.2.2
  rintro ⟨v, hv⟩
  have hpath : ∀ a b, Relation.TransGen (digraph_edge g) a b → rank b < rank a := by
    intro a b hab
    induction hab with
    | single hab =>
      have han := digraph_adj_src_lt g hwf _ _ hab
      exact (hrank _ han (hall _ han) _ hab).2
    | tail _ hbc ih =>
      have hbn := digraph_adj_src_lt g hwf _ _ hbc
      exact lt_trans (hrank _ hbn (hall _ hbn) _ hbc).2 ih
  exact lt_irrefl _ (hpath v v hv)

/-- The function `algokit_digraph_cycle_dfs`, called on a vertex in state 0 with more
recursion depth than vertices in state 0: it returns; a result 1 means a
directed cycle, and after a result 0 the vertex is in state 2, entries other
than 0 are unchanged, and the vertices in state 2 are closed under the
edges. -/
theorem cycle_dfs_spec (g : algokit_digraph K) (hwf : digraph_wf g) :
    ∀ (fuel v : Nat) (s : List Nat), v < g.size → s.getD v 0 = 0 → dfs_ok g s →
      dfs_gray_reach g s v → s.count 0 < fuel →
      ∃ res, algokit_digraph_cycle_dfs g fuel v s = some res ∧ (res.1 = 0 ∨ res.1 = 1) ∧
        (res.1 ≠ 0 → digraph_cyclic g) ∧
        (res.1 = 0 → dfs_ok g res.2 ∧ dfs_extends g.size s res.2 ∧ res.2.getD v 0 = 2) := by
  intro fuel
  induction fuel with
  | zero => intro v s _ _ _ _ h; omega
  | succ fuel ih =>
    intro v s hv h0 hok hgr hcnt
    obtain ⟨hlen, hval, rank, hrank⟩ := hok
    have hvl : v < s.length := by rw [hlen]; exact hv
    have hset1 : ∀ x, (s.set v 1).getD x 0 = if x = v then 1 else s.getD x 0 :=
      fun x => getD_set_nat s v x 1 hvl
    have hok1 : dfs_ok g (s.set v 1) := by
      refine ⟨by simpa using hlen, ?_, rank, ?_⟩
      · intro x hx
        rw [hset1 x]
        split_ifs
        · omega
        · exact hval x hx
      · intro u hu hu2 w hw
        rw [hset1 u] at hu2
        have huv : u ≠ v := by
          intro h
          rw [if_pos h] at hu2
          omega
        rw [if_neg huv] at hu2
        obtain ⟨c1, c2⟩ := hrank u hu hu2 w hw
        have hwv : w ≠ v := by
          intro h
          rw [h, h0] at c1
          omega
        rw [hset1 w, if_neg hwv]
        exact ⟨c1, c2⟩
    have hv1 : (s.set v 1).getD v 0 = 1 := by rw [hset1 v, if_pos rfl]
    have hgr1 : dfs_gray_reach g (s.set v 1) v := by
      intro x hx hxs
      rw [hset1 x] at hxs
      by_cases hxv : x = v
      · rw [hxv]
      · rw [if_neg hxv] at hxs
        exact hgr x hx hxs
    have hcnt1 : (s.set v 1).count 0 < fuel := by
      have := count_zero_set s v 1 hvl h0 (by decide)
      omega
    obtain ⟨⟨rc, s2⟩, e1, e2, e3, e4⟩ := cycle_edges_spec g hwf
      (algokit_digraph_cycle_dfs g fuel) fuel ih v (algokit_digraph_adj g v) (s.set v 1)
      (fun w hw => hw) hok1 hv1 hgr1 hcnt1
    rw [algokit_digraph_cycle_dfs, e1]
    simp only at e2 e3 e4 ⊢
    by_cases hrc : rc = 0
    · rw [if_neg (by simpa using hrc)]
      obtain ⟨⟨l2, val2, rank2, hrank2⟩, m2, m3⟩ := e4 hrc
      have hv2 : s2.getD v 0 = 1 := by
        rw [(m2 v hv).1 (by rw [hv1]; decide), hv1]
      have hvl2 : v < s2.length := by rw [l2]; exact hv
      have hset2 : ∀ x, (s2.set v 2).getD x 0 = if x = v then 2 else s2.getD x 0 :=
        fun x => getD_set_nat s2 v x 2 hvl2
      refine ⟨(0, s2.set v 2), rfl, Or.inl rfl, fun h => absurd rfl h, fun _ => ⟨⟨?_, ?_, ?_⟩, ?_, ?_⟩⟩
      · simpa using l2
      · intro x hx
        simp only
        rw [hset2 x]
        split_ifs
        · omega
        · exact val2 x hx
      · refine ⟨Function.update rank2 v (((algokit_digraph_adj g v).map rank2).sum + 1), ?_⟩
        intro u hu hu2 w hw
        simp only at hu2 ⊢
        have hwb : s2.getD w 0 = 2 := by
          by_cases huv : u = v
          · rw [huv] at hw
            exact m3 w hw
          · rw [hset2 u, if_neg huv] at hu2
            exact (hrank2 u hu hu2 w hw).1
        have hwv : w ≠ v := by
          intro h
          rw [h, hv2] at hwb
          omega
        rw [hset2 w, if_neg hwv, Function.update_noteq hwv]
        refine ⟨hwb, ?_⟩
        by_cases huv : u = v
        · rw [huv, Function.update_same]
          rw [huv] at hw
          have : rank2 w ≤ ((algokit_digraph_adj g v).map rank2).sum :=
            List.single_le_sum (fun _ _ => Nat.zero_le _) _ (List.mem_map_of_mem _ hw)
          omega
        · rw [hset2 u, if_neg huv] at hu2
          rw [Function.update_noteq huv]
          exact (hrank2 u hu hu2 w hw).2
      · intro x hx
        simp only
        rw [hset2 x]
        by_cases hxv : x = v
        · rw [if_pos hxv, hxv]
          exact ⟨fun h => absurd h0 h, fun _ => Or.inr rfl⟩
        · rw [if_neg hxv]
          have := m2 x hx
          rw [hset1 x, if_neg hxv] at this
          exact this
      · simp only
        rw [hset2 v, if_pos rfl]
    · rw [if_pos (by simpa using hrc)]
      exact ⟨(1, s2), rfl, Or.inr rfl, fun _ => e3 hrc, fun h => by simp at h⟩

/-- The loop of `algokit_digraph_has_cycle` over the vertices: it returns, with 1 if
the graph has a directed cycle and 0 if it has none. -/
theorem has_cycle_loop_spec (g : algokit_digraph K) (hwf : digraph_wf g) :
    ∀ (rest : List Nat) (s : List Nat), (∀ i ∈ rest, i < g.size) → dfs_ok g s →
      (∀ x, x < g.size → s.getD x 0 ≠ 1) →
      (∀ x, x < g.size → x ∉ rest → s.getD x 0 = 2) →
      ∃ out, has_cycle_loop g rest s = some out ∧
        ((out = 1 ∧ digraph_cyclic g) ∨ (out = 0 ∧ ¬ digraph_cyclic g)) := by
  intro rest
  induction rest with
  | nil =>
    intro s _ hok _ hall
    exact ⟨0, rfl, Or.inr ⟨rfl, all_black_acyclic g hwf s hok
      (fun x hx => hall x hx (by simp))⟩⟩
  | cons i rest ih =>
    intro s hrest hok hng hall
    have hi : i < g.size := hrest i (List.mem_cons_self _ _)
    have hrest1 : ∀ j ∈ rest, j < g.size := fun j hj => hrest j (List.mem_cons_of_mem _ hj)
    rw [has_cycle_loop]
    by_cases h0 : s.getD i 0 = 0
    · rw [if_pos h0]
      have hcnt : s.count 0 < g.size + 1 := by
        have := List.count_le_length 0 s
        rw [hok.1] at this
        omega
      obtain ⟨⟨rc, s1⟩, e1, e2, e3, e4⟩ := cycle_dfs_spec g hwf (g.size + 1) i s hi h0 hok
        (fun x hx hxs => absurd hxs (hng x hx)) hcnt
      rw [e1]
      simp only at e2 e3 e4 ⊢
      by_cases hrc : rc = 0
      · rw [if_neg (by simpa using hrc)]
        obtain ⟨m1, m2, m3⟩ := e4 hrc
        apply ih s1 hrest1 m1
        · intro x hx hx1
          exact hng x hx (dfs_extends_gray _ s s1 m2 x hx hx1)
        · intro x hx hxr
          by_cases hxi : x = i
          · rw [hxi]; exact m3
          · have := hall x hx (by simp [hxi, hxr])
            rw [(m2 x hx).1 (by rw [this]; decide), this]
      · rw [if_pos (by simpa using hrc)]
        exact ⟨1, rfl, Or.inl ⟨rfl, e3 hrc⟩⟩
    · rw [if_neg h0]
      apply ih s hrest1 hok hng
      intro x hx hxr
      by_cases hxi : x = i
      · rw [hxi]
        have h1 := hng i hi
        have h2 := hok.2.1 i hi
        omega
      · exact hall x hx (by simp [hxi, hxr])

end cycle_dfs_spec

/-! ## Cycle detection: the property of the function -/

section cycle_claims

variable {K : Type}

/-- C19: cycle detection is exact.  For every directed graph built by calls
of `add_vertex` and `add_edge` on a graph of `algokit_digraph_create`,
`algokit_digraph_has_cycle` returns 0 and writes 1 to `*out` if the graph
contains a directed cycle (a non-empty path from a vertex back to itself, a
self-loop included), and writes 0 if it contains none, wherever in the graph
the cycle is. -/
theorem digraph_has_cycle_exact (hash : K → Nat) (cmp : K → K → Int) (g : algokit_digraph K)
    (hbuilt : digraph_reachable hash cmp g) :
    ∃ out : Int, algokit_digraph_has_cycle true g = some (0, some out) ∧
      (out = 1 ↔ digraph_cyclic g) ∧ (out = 0 ↔ ¬ digraph_cyclic g) := by
  have hwf := digraph_reachable_wf hash cmp g hbuilt
  obtain ⟨out, h1, h2⟩ := has_cycle_loop_spec g hwf (List.range g.size)
    (List.replicate g.size 0) (fun i hi => List.mem_range.1 hi)
    ⟨by simp, fun x hx => by simp [List.getD_eq_getElem?_getD, List.getElem?_replicate, hx],
      fun _ => 0, fun u hu hu2 => by
        simp [List.getD_eq_getElem?_getD, List.getElem?_replicate, hu] at hu2⟩
    (fun x hx => by simp [List.getD_eq_getElem?_getD, List.getElem?_replicate, hx])
    (fun x hx hxr => absurd (List.mem_range.2 hx) hxr)
  refine ⟨out, ?_, ?_, ?_⟩
  · unfold algokit_digraph_has_cycle
    simp only [Bool.true_eq_false, if_false]
    rw [h1]
  · rcases h2 with ⟨rfl, hc⟩ | ⟨rfl, hc⟩
    · exact ⟨fun _ => hc, fun _ => rfl⟩
    · exact ⟨fun h => absurd h (by decide), fun h => absurd h hc⟩
  · rcases h2 with ⟨rfl, hc⟩ | ⟨rfl, hc⟩
    · exact ⟨fun h => absurd h (by decide), fun h => absurd hc h⟩
    · exact ⟨fun _ => hc, fun _ => rfl⟩

theorem digraph_has_cycle_exact_witness :
    (digraph_reachable int_hash int_cmp digraph_test_cycle ∧
      algokit_digraph_has_cycle true digraph_test_graph = some (0, some 0) ∧
      algokit_digraph_has_cycle true digraph_test_cycle = some (0, some 1)) ∧
    ∃ out : Int, algokit_digraph_has_cycle true digraph_test_cycle = some (0, some out) ∧
      (out = 1 ↔ digraph_cyclic digraph_test_cycle) ∧
      (out = 0 ↔ ¬ digraph_cyclic digraph_test_cycle) :=
  ⟨⟨⟨8, digraph_test_ops ++ [digraph_op.add_edge true 2 0],
        ⟨[], 0, 8, ⟨List.replicate 8 algokit_digraph_map_entry.empty, 8, 0⟩⟩, by decide,
        by decide⟩, by decide, by decide⟩,
    digraph_has_cycle_exact int_hash int_cmp digraph_test_cycle
      ⟨8, digraph_test_ops ++ [digraph_op.add_edge true 2 0],
        ⟨[], 0, 8, ⟨List.replicate 8 algokit_digraph_map_entry.empty, 8, 0⟩⟩, by decide,
        by decide⟩⟩

end cycle_claims

/-! ## Red-black tree: allocation failure and traversal callbacks -/

section rb_failure_lemmas

variable {K V C : Type} {cmp : K → K → Int}

/-- On a key that compares equal to no stored key the search path of
`insert_node` ends at a `NULL` link, where `*inserted` is set to `1` before the
node is allocated. -/
theorem insert_node_flag_absent (alloc_ok : Bool) (item : Item K V)
    (h : algokit_rbtree_node K V) (ha : ∀ x ∈ inorder h, cmp item.key x.key ≠ 0) :
    (algokit_rbtree_insert_node cmp alloc_ok h item).2 = true := by
  induction h with
  | null => rfl
  | node hi l r c ihl ihr =>
    simp only [inorder, List.mem_append, List.mem_cons] at ha
    simp only [algokit_rbtree_insert_node]
    split_ifs with h1 h2
    · exact ihl (fun x hx => ha x (Or.inl hx))
    · exact ihr (fun x hx => ha x (Or.inr (Or.inr hx)))
    · exfalso
      have := ha hi (Or.inr (Or.inl rfl))
      omega

/-- The traversal with a callback returns 0 and has applied the callback to
the pairs of the list model, in order. -/
theorem traverse_node_rc_eq (visit : Item K V → C → C) (h : algokit_rbtree_node K V)
    (order : Nat) (ctx : C) :
    algokit_rbtree_traverse_node_rc visit h order ctx =
      (0, (algokit_rbtree_traverse_node h order).foldl (fun c i => visit i c) ctx) := by
  induction h generalizing ctx with
  | null => rfl
  | node i l r c ihl ihr =>
    simp only [algokit_rbtree_traverse_node_rc, algokit_rbtree_traverse_node, ihl, ihr,
      ne_eq, not_true_eq_false, if_false, List.foldl_append]
    by_cases h0 : order = 0
    · subst h0; simp
    · by_cases h1 : order = 1
      · subst h1; simp
      · by_cases h2 : order = 2
        · subst h2; simp
        · simp [h0, h1, h2]

theorem traverse_node_preorder (h : algokit_rbtree_node K V) :
    algokit_rbtree_traverse_node h 0 = preorder h := by
  induction h with
  | null => rfl
  | node i l r c ihl ihr => simp [algokit_rbtree_traverse_node, preorder, ihl, ihr]

theorem traverse_node_postorder (h : algokit_rbtree_node K V) :
    algokit_rbtree_traverse_node h 2 = postorder h := by
  induction h with
  | null => rfl
  | node i l r c ihl ihr => simp [algokit_rbtree_traverse_node, postorder, ihl, ihr]

end rb_failure_lemmas

section rb_failure_claims

variable {K V C : Type} {cmp : K → K → Int}

/-- C29: the code at a failed node allocation.  For every valid tree and every
item whose key compares equal to no stored key, `algokit_rbtree_insert` with a
failing `malloc` leaves the tree in its pre-call state, but it returns `-1`
only when the tree is empty: on every non-empty tree it returns `0`, the code
of a successful insertion, because `insert_node` sets `*inserted = 1` before
the allocation and `insert` tests only the root pointer. -/
theorem rbtree_insert_alloc_failure_code (tree : algokit_rbtree K V)
    (hv : rbtree_valid cmp tree) (item : Item K V)
    (ha : ∀ x ∈ inorder tree.root, cmp item.key x.key ≠ 0) :
    algokit_rbtree_insert cmp false tree item =
      (if is_null tree.root then -1 else 0, tree) := by
  obtain ⟨root⟩ := tree
  obtain ⟨-, hs, hb⟩ := hv
  have h1 := @insert_node_alloc_fail K V cmp item root hs
  have h2 := @insert_node_flag_absent K V cmp false item root ha
  simp only [algokit_rbtree_insert]
  simp only at h1 h2 hb ⊢
  rw [h1, h2]
  cases root with
  | null => rfl
  | node i l r c =>
    simp only [algokit_rbtree_is_red] at hb
    subst hb
    rfl

theorem rbtree_insert_alloc_failure_code_witness :
    rbtree_valid int_cmp (algokit_rbtree_insert int_cmp true algokit_rbtree_create ⟨1, 10⟩).2 ∧
    (algokit_rbtree_insert int_cmp true (algokit_rbtree_create : algokit_rbtree Int Int)
      ⟨1, 10⟩).2 = ⟨node ⟨1, 10⟩ null null false⟩ ∧
    algokit_rbtree_insert int_cmp false (⟨node ⟨1, 10⟩ null null false⟩ : algokit_rbtree Int Int)
      ⟨2, 20⟩ = (0, ⟨node ⟨1, 10⟩ null null false⟩) :=
  ⟨by decide, by decide,
    rbtree_insert_alloc_failure_code (⟨node ⟨1, 10⟩ null null false⟩ : algokit_rbtree Int Int)
      (by decide) ⟨2, 20⟩ (by decide)⟩

/-- C30, counterexample: on the tree of the two pairs `(1, 10)` and `(2, 20)`
every callback is applied to both pairs by each of the three traversals, and
each traversal returns 0.  The callback type returns `void`, so no behaviour of
the callback stops the traversal after the first pair or makes it return a
nonzero value. -/
theorem rbtree_traverse_abort_impossible :
    rbtree_two_pairs = ⟨node ⟨2, 20⟩ (node ⟨1, 10⟩ null null true) null false⟩ ∧
    ∀ (visit : Item Int Int → List (Item Int Int) → List (Item Int Int))
      (ctx : List (Item Int Int)),
      algokit_rbtree_traverse_inorder_rc visit rbtree_two_pairs ctx =
        (0, visit ⟨2, 20⟩ (visit ⟨1, 10⟩ ctx)) ∧
      algokit_rbtree_traverse_preorder_rc visit rbtree_two_pairs ctx =
        (0, visit ⟨1, 10⟩ (visit ⟨2, 20⟩ ctx)) ∧
      algokit_rbtree_traverse_postorder_rc visit rbtree_two_pairs ctx =
        (0, visit ⟨2, 20⟩ (visit ⟨1, 10⟩ ctx)) := by
  have e : rbtree_two_pairs = ⟨node ⟨2, 20⟩ (node ⟨1, 10⟩ null null true) null false⟩ := by
    decide
  refine ⟨e, fun visit ctx => ?_⟩
  rw [e]
  exact ⟨rfl, rfl, rfl⟩

/-- C30, amended: for every tree, every callback and every context, each of
the three traversals returns 0 and has applied the callback to every stored
pair, once each, in in-order, pre-order and post-order respectively; the
callback cannot abort a traversal. -/
theorem rbtree_traverse_always_completes (visit : Item K V → C → C)
    (tree : algokit_rbtree K V) (ctx : C) :
    algokit_rbtree_traverse_inorder_rc visit tree ctx =
      (0, (inorder tree.root).foldl (fun c i => visit i c) ctx) ∧
    algokit_rbtree_traverse_preorder_rc visit tree ctx =
      (0, (preorder tree.root).foldl (fun c i => visit i c) ctx) ∧
    algokit_rbtree_traverse_postorder_rc visit tree ctx =
      (0, (postorder tree.root).foldl (fun c i => visit i c) ctx) := by
  simp only [algokit_rbtree_traverse_inorder_rc, algokit_rbtree_traverse_preorder_rc,
    algokit_rbtree_traverse_postorder_rc, traverse_node_rc_eq, traverse_node_inorder,
    traverse_node_preorder, traverse_node_postorder, and_self]

end rb_failure_claims

/-! ## Key map of the graphs: lookups find the stored keys -/

section graph_map_sound_lemmas

variable {K W : Type} {hash : K → Nat} {cmp : K → K → Int}

theorem map_slot_mem (l : List (algokit_digraph_map_entry K)) (idx : Nat) (k : K) (i : Nat)
    (h : l.getD idx algokit_digraph_map_entry.empty = algokit_digraph_map_entry.occupied k i) :
    l[idx]? = some (algokit_digraph_map_entry.occupied k i) := by
  rw [List.getD_eq_getElem?_getD] at h
  cases hg : l[idx]? with
  | none => rw [hg] at h; simp at h
  | some e => rw [hg] at h; simp only [Option.getD_some] at h; rw [h]

theorem map_slot_of_get (l : List (algokit_digraph_map_entry K)) (idx : Nat)
    (e : algokit_digraph_map_entry K) (h : l[idx]? = some e) :
    l.getD idx algokit_digraph_map_entry.empty = e := by
  rw [List.getD_eq_getElem?_getD, h]; rfl

theorem map_slot_set_ne (l : List (algokit_digraph_map_entry K)) (idx j : Nat)
    (e : algokit_digraph_map_entry K) (h : idx ≠ j) :
    (l.set j e).getD idx algokit_digraph_map_entry.empty =
      l.getD idx algokit_digraph_map_entry.empty := by
  simp only [List.getD_eq_getElem?_getD, List.getElem?_set_ne (Ne.symm h)]

theorem map_slot_set_eq (l : List (algokit_digraph_map_entry K)) (j : Nat)
    (e : algokit_digraph_map_entry K) (h : j < l.length) :
    (l.set j e).getD j algokit_digraph_map_entry.empty = e := by
  simp only [List.getD_eq_getElem?_getD, List.getElem?_set_self h, Option.getD_some]

/-- Keys that compare equal are probed for alike. -/
theorem map_find_congr (hc : HashCmp hash cmp) (map : algokit_digraph_map K) (a b : K)
    (hab : cmp a b = 0) :
    ∀ n idx, algokit_digraph_map_find cmp map a n idx =
      algokit_digraph_map_find cmp map b n idx := by
  intro n
  induction n with
  | zero => intro idx; rfl
  | succ n ih =>
    intro idx
    rw [algokit_digraph_map_find, algokit_digraph_map_find]
    cases hs : map.entries.getD idx algokit_digraph_map_entry.empty with
    | empty => rfl
    | occupied k j =>
      simp only
      by_cases h1 : cmp k a = 0
      · rw [if_pos h1, if_pos (hc.trans k a b h1 hab)]
      · rw [if_neg h1, if_neg (fun h2 => h1 (hc.trans k b a h2 (hc.symm a b hab))), ih]

/-- A probe that ends at a stored key is not changed by a write to an empty
slot. -/
theorem map_find_write (map : algokit_digraph_map K) (key : K) (j : Nat)
    (e : algokit_digraph_map_entry K) (s : Nat)
    (hj : map.entries.getD j algokit_digraph_map_entry.empty = algokit_digraph_map_entry.empty) :
    ∀ n idx i, algokit_digraph_map_find cmp map key n idx = some (some i) →
      algokit_digraph_map_find cmp ⟨map.entries.set j e, map.capacity, s⟩ key n idx =
        some (some i) := by
  intro n
  induction n with
  | zero => intro idx i h; simp [algokit_digraph_map_find] at h
  | succ n ih =>
    intro idx i h
    rw [algokit_digraph_map_find] at h ⊢
    by_cases hij : idx = j
    · subst hij; rw [hj] at h; simp at h
    · simp only [map_slot_set_ne _ _ _ _ hij]
      cases hs : map.entries.getD idx algokit_digraph_map_entry.empty with
      | empty => rw [hs] at h; simp at h
      | occupied k i0 =>
        rw [hs] at h
        simp only at h ⊢
        split_ifs at h ⊢ with hm
        · exact h
        · exact ih _ i h

/-- For a key that compares equal to no stored key the probe of `map_put` is
the search for a free slot. -/
theorem map_put_probe_absent (map : algokit_digraph_map K) (key : K)
    (habs : ∀ k i, algokit_digraph_map_entry.occupied k i ∈ map.entries → cmp k key ≠ 0) :
    ∀ n idx, algokit_digraph_map_put_probe cmp map key n idx =
      (algokit_digraph_map_free_slot map n idx).map some := by
  intro n
  induction n with
  | zero => intro idx; rfl
  | succ n ih =>
    intro idx
    rw [algokit_digraph_map_put_probe, algokit_digraph_map_free_slot]
    cases hs : map.entries.getD idx algokit_digraph_map_entry.empty with
    | empty => rfl
    | occupied k i0 =>
      simp only
      rw [if_neg (habs k i0 (List.getElem?_mem (map_slot_mem _ _ _ _ hs))), ih]

theorem map_free_slot_total (map : algokit_digraph_map K) :
    ∀ (n idx : Nat),
      (∃ i, i < n ∧ map.entries.getD ((idx + i) % map.capacity)
        algokit_digraph_map_entry.empty = algokit_digraph_map_entry.empty) →
      idx < map.capacity →
      ∃ j, algokit_digraph_map_free_slot map n idx = some j := by
  intro n
  induction n with
  | zero => rintro idx ⟨i, hi, -⟩; omega
  | succ n ih =>
    rintro idx ⟨i, hi, he⟩ hidx
    rw [algokit_digraph_map_free_slot]
    cases hs : map.entries.getD idx algokit_digraph_map_entry.empty with
    | empty => exact ⟨_, rfl⟩
    | occupied k j =>
      simp only
      apply ih
      · rcases i with _ | i
        · rw [Nat.add_zero, Nat.mod_eq_of_lt hidx, hs] at he
          simp at he
        · refine ⟨i, by omega, ?_⟩
          rw [Nat.mod_add_mod, show idx + 1 + i = idx + (i + 1) by omega]
          exact he
      · exact Nat.mod_lt _ (by omega)

/-- On a key map with an empty slot the search for a free slot returns. -/
theorem map_free_slot_ok (map : algokit_digraph_map K) (hl : map.entries.length = map.capacity)
    (hlt : map.entries.countP algokit_digraph_map_entry.is_occupied < map.capacity)
    (idx : Nat) (hidx : idx < map.capacity) :
    ∃ j, algokit_digraph_map_free_slot map map.capacity idx = some j ∧ j < map.capacity ∧
      map.entries.getD j algokit_digraph_map_entry.empty = algokit_digraph_map_entry.empty := by
  obtain ⟨j0, hj0, he⟩ := map_has_empty map hl hlt
  obtain ⟨j, hj⟩ := map_free_slot_total map map.capacity idx
    ⟨(j0 + map.capacity - idx) % map.capacity, Nat.mod_lt _ (by omega), by
      rw [probe_cover _ _ _ hidx hj0]; exact he⟩ hidx
  exact ⟨j, hj, map_free_slot_spec map (by omega) _ _ j hidx hj⟩

/-- After the write to the free slot that the probe for `key` has found, the
probe for `key` ends at that slot. -/
theorem map_free_slot_find (map : algokit_digraph_map K) (key : K) (index s : Nat)
    (hrefl : cmp key key = 0) (hl : map.entries.length = map.capacity)
    (hcap : 0 < map.capacity)
    (habs : ∀ k i, algokit_digraph_map_entry.occupied k i ∈ map.entries → cmp k key ≠ 0) :
    ∀ n idx j, idx < map.capacity → algokit_digraph_map_free_slot map n idx = some j →
      algokit_digraph_map_find cmp
        ⟨map.entries.set j (algokit_digraph_map_entry.occupied key index), map.capacity, s⟩
        key n idx = some (some index) := by
  intro n
  induction n with
  | zero => intro idx j _ h; simp [algokit_digraph_map_free_slot] at h
  | succ n ih =>
    intro idx j hidx h
    rw [algokit_digraph_map_free_slot] at h
    rw [algokit_digraph_map_find]
    cases hs : map.entries.getD idx algokit_digraph_map_entry.empty with
    | empty =>
      rw [hs] at h
      simp only [Option.some.injEq] at h
      subst h
      simp only [map_slot_set_eq _ _ _ (by rw [hl]; exact hidx), hrefl, if_true]
    | occupied k i0 =>
      rw [hs] at h
      simp only at h
      have hnext : (idx + 1) % map.capacity < map.capacity := Nat.mod_lt _ hcap
      have hje := (map_free_slot_spec map hcap _ _ j hnext h).2
      have hne : idx ≠ j := by
        intro e
        rw [e, hje] at hs
        simp at hs
      simp only [map_slot_set_ne _ _ _ _ hne, hs]
      rw [if_neg (habs k i0 (List.getElem?_mem (map_slot_mem _ _ _ _ hs)))]
      exact ih _ j hnext h

/-- A probe that ends at a stored key has met a slot whose key compares equal. -/
theorem map_find_hit (cmp : K → K → Int) (map : algokit_digraph_map K) (key : K) :
    ∀ (n idx index : Nat), algokit_digraph_map_find cmp map key n idx = some (some index) →
      ∃ k, algokit_digraph_map_entry.occupied k index ∈ map.entries ∧ cmp k key = 0 := by
  intro n
  induction n with
  | zero => intro idx index h; simp [algokit_digraph_map_find] at h
  | succ n ih =>
    intro idx index h
    rw [algokit_digraph_map_find] at h
    cases hs : map.entries.getD idx algokit_digraph_map_entry.empty with
    | empty => rw [hs] at h; simp at h
    | occupied k i0 =>
      rw [hs] at h
      simp only at h
      split_ifs at h with hm
      · simp only [Option.some.injEq] at h
        subst h
        exact ⟨k, List.getElem?_mem (map_slot_mem _ _ _ _ hs), hm⟩
      · exact ih _ index h

/-- A stored key was not probed for in vain: a lookup that ends at an empty
slot shows that no stored key compares equal. -/
theorem map_find_none_absent (hc : HashCmp hash cmp) (map : algokit_digraph_map K)
    (hs : digraph_map_sound hash cmp map) (key : K)
    (hf : algokit_digraph_map_find cmp map key map.capacity (hash key % map.capacity) =
      some none) :
    ∀ k i, algokit_digraph_map_entry.occupied k i ∈ map.entries → cmp k key ≠ 0 := by
  intro k i hm he
  have h1 := hs.1 k i hm
  rw [map_find_congr hc map k key he, hc.hash_eq k key he, hf] at h1
  simp at h1

/-- The write of a key that compares equal to no stored key into the free
slot its probe has found keeps the lookups sound. -/
theorem map_write_sound (hc : HashCmp hash cmp) (map : algokit_digraph_map K) (key : K)
    (index j s : Nat) (hl : map.entries.length = map.capacity) (hcap : 0 < map.capacity)
    (hs : digraph_map_sound hash cmp map)
    (habs : ∀ k i, algokit_digraph_map_entry.occupied k i ∈ map.entries → cmp k key ≠ 0)
    (hf : algokit_digraph_map_free_slot map map.capacity (hash key % map.capacity) = some j) :
    digraph_map_sound hash cmp
      ⟨map.entries.set j (algokit_digraph_map_entry.occupied key index), map.capacity, s⟩ ∧
    ∀ k i, algokit_digraph_map_entry.occupied k i ∈
        map.entries.set j (algokit_digraph_map_entry.occupied key index) ↔
      (algokit_digraph_map_entry.occupied k i = algokit_digraph_map_entry.occupied key index ∨
        algokit_digraph_map_entry.occupied k i ∈ map.entries) := by
  have hidx : hash key % map.capacity < map.capacity := Nat.mod_lt _ hcap
  obtain ⟨hjc, hje⟩ := map_free_slot_spec map hcap _ _ j hidx hf
  have hjl : j < map.entries.length := by rw [hl]; exact hjc
  have hmem : ∀ k i, algokit_digraph_map_entry.occupied k i ∈
        map.entries.set j (algokit_digraph_map_entry.occupied key index) ↔
      (algokit_digraph_map_entry.occupied k i = algokit_digraph_map_entry.occupied key index ∨
        algokit_digraph_map_entry.occupied k i ∈ map.entries) := by
    intro k i
    constructor
    · intro h
      rcases List.mem_or_eq_of_mem_set h with h1 | h1
      · exact Or.inr h1
      · exact Or.inl h1
    · rintro (h | h)
      · rw [h]; exact List.mem_set _ _ hjl _
      · obtain ⟨p, hp⟩ := List.mem_iff_getElem?.1 h
        have hpj : j ≠ p := by
          intro e
          rw [← e] at hp
          rw [map_slot_of_get _ _ _ hp] at hje
          simp at hje
        exact List.mem_iff_getElem?.2 ⟨p, by rw [List.getElem?_set_ne hpj]; exact hp⟩
  refine ⟨⟨?_, ?_⟩, hmem⟩
  · intro k i hm
    rcases (hmem k i).1 hm with h | h
    · simp only [algokit_digraph_map_entry.occupied.injEq] at h
      rw [h.1, h.2]
      exact map_free_slot_find map key index s (hc.refl key) hl hcap habs _ _ j hidx hf
    · exact map_find_write map k j _ s hje _ _ i (hs.1 k i h)
  · intro j1 j2 k1 i1 k2 i2 h1 h2 he
    simp only at h1 h2
    by_cases e1 : j = j1
    · by_cases e2 : j = j2
      · rw [← e1, ← e2]
      · exfalso
        rw [← e1, List.getElem?_set_self hjl] at h1
        rw [List.getElem?_set_ne e2] at h2
        simp only [Option.some.injEq, algokit_digraph_map_entry.occupied.injEq] at h1
        rw [← h1.1] at he
        exact habs k2 i2 (List.getElem?_mem h2) (hc.symm _ _ he)
    · by_cases e2 : j = j2
      · exfalso
        rw [← e2, List.getElem?_set_self hjl] at h2
        rw [List.getElem?_set_ne e1] at h1
        simp only [Option.some.injEq, algokit_digraph_map_entry.occupied.injEq] at h2
        rw [← h2.1] at he
        exact habs k1 i1 (List.getElem?_mem h1) he
      · rw [List.getElem?_set_ne e1] at h1
        rw [List.getElem?_set_ne e2] at h2
        exact hs.2 j1 j2 k1 i1 k2 i2 h1 h2 he

end graph_map_sound_lemmas

/-! ## Key map of the graphs: rebuilding and storing keep the lookups -/

section graph_map_rebuild

variable {K W : Type} {hash : K → Nat} {cmp : K → K → Int}

/-- The loop of `map_resize` returns, and the map it builds holds the old
pairs and finds each of them. -/
theorem map_resize_fold_sound (hc : HashCmp hash cmp) :
    ∀ (es : List (algokit_digraph_map_entry K)) (acc : algokit_digraph_map K),
      acc.entries.length = acc.capacity → 0 < acc.capacity →
      acc.size = acc.entries.countP algokit_digraph_map_entry.is_occupied →
      acc.size + es.countP algokit_digraph_map_entry.is_occupied < acc.capacity →
      digraph_map_sound hash cmp acc →
      es.Pairwise (fun e1 e2 => ∀ (k1 : K) (i1 : Nat) (k2 : K) (i2 : Nat),
        e1 = algokit_digraph_map_entry.occupied k1 i1 →
        e2 = algokit_digraph_map_entry.occupied k2 i2 → cmp k1 k2 ≠ 0) →
      (∀ (k1 : K) (i1 : Nat) (k2 : K) (i2 : Nat),
        algokit_digraph_map_entry.occupied k1 i1 ∈ acc.entries →
        algokit_digraph_map_entry.occupied k2 i2 ∈ es → cmp k1 k2 ≠ 0) →
      ∃ m, es.foldl (algokit_digraph_map_resize_step hash) (some acc) = some m ∧
        digraph_map_sound hash cmp m ∧
        ∀ (k : K) (i : Nat), algokit_digraph_map_entry.occupied k i ∈ m.entries ↔
          (algokit_digraph_map_entry.occupied k i ∈ acc.entries ∨
            algokit_digraph_map_entry.occupied k i ∈ es) := by
  intro es
  induction es with
  | nil =>
    intro acc _ _ _ _ hs _ _
    exact ⟨acc, rfl, hs, fun k i => by simp⟩
  | cons e es ih =>
    intro acc hl hcap hsz hroom hs hpw hdis
    rw [List.pairwise_cons] at hpw
    rw [List.foldl_cons]
    cases e with
    | empty =>
      obtain ⟨m, h1, h2, h3⟩ := ih acc hl hcap hsz
        (by simpa [algokit_digraph_map_entry.is_occupied] using hroom) hs hpw.2
        (fun k1 i1 k2 i2 h1 h2 => hdis k1 i1 k2 i2 h1 (List.mem_cons_of_mem _ h2))
      refine ⟨m, by simpa [algokit_digraph_map_resize_step] using h1, h2, fun k i => ?_⟩
      rw [h3 k i]
      simp
    | occupied k i =>
      have hcons : (algokit_digraph_map_entry.occupied k i :: es).countP
          algokit_digraph_map_entry.is_occupied =
          es.countP algokit_digraph_map_entry.is_occupied + 1 := by
        simp [algokit_digraph_map_entry.is_occupied]
      rw [hcons] at hroom
      obtain ⟨idx, hfs, hidx, hie⟩ := map_free_slot_ok acc hl (by rw [← hsz]; omega)
        (hash k % acc.capacity) (Nat.mod_lt _ hcap)
      have habs : ∀ k1 i1, algokit_digraph_map_entry.occupied k1 i1 ∈ acc.entries →
          cmp k1 k ≠ 0 := fun k1 i1 h1 => hdis k1 i1 k i h1 (List.mem_cons_self _ _)
      obtain ⟨hs1, hm1⟩ := map_write_sound hc acc k i idx (acc.size + 1) hl hcap hs habs hfs
      have hcnt := map_count_after_write acc.entries idx k i (by rw [hl]; exact hidx) hie
      obtain ⟨m, h1, h2, h3⟩ := ih
        ⟨acc.entries.set idx (algokit_digraph_map_entry.occupied k i), acc.capacity,
          acc.size + 1⟩ (by simpa using hl) hcap (by rw [hcnt, hsz]) (by simp only; omega) hs1
        hpw.2 (by
          intro k1 i1 k2 i2 h1 h2
          rcases (hm1 k1 i1).1 h1 with h | h
          · simp only [algokit_digraph_map_entry.occupied.injEq] at h
            rw [h.1]
            exact hpw.1 _ h2 k i k2 i2 rfl rfl
          · exact hdis k1 i1 k2 i2 h (List.mem_cons_of_mem _ h2))
      refine ⟨m, ?_, h2, fun k0 i0 => ?_⟩
      · simp only [algokit_digraph_map_resize_step, hfs]
        exact h1
      · rw [h3 k0 i0]
        simp only at hm1 ⊢
        rw [hm1 k0 i0, List.mem_cons]
        tauto

theorem map_replicate_sound (c : Nat) :
    digraph_map_sound hash cmp
      (⟨List.replicate c algokit_digraph_map_entry.empty, c, 0⟩ : algokit_digraph_map K) := by
  constructor
  · intro k idx h
    have := List.eq_of_mem_replicate h
    simp at this
  · intro j1 j2 k1 i1 k2 i2 h1 _ _
    have := List.eq_of_mem_replicate (List.getElem?_mem h1)
    simp at this

/-- The function `map_resize` with any outcome of its allocation: it returns; after a
success the map has the new capacity, the old pairs and sound lookups, after
a failure it is unchanged. -/
theorem map_resize_any (hc : HashCmp hash cmp) (b : Bool) (map : algokit_digraph_map K)
    (n new_capacity : Nat) (hok : digraph_map_ok map n) (hs : digraph_map_sound hash cmp map)
    (hnew : n * 10 < new_capacity * 7) :
    ∃ rc m, algokit_digraph_map_resize hash b map new_capacity = some (rc, m) ∧
      digraph_map_ok m n ∧ digraph_map_sound hash cmp m ∧
      (∀ (k : K) (i : Nat), algokit_digraph_map_entry.occupied k i ∈ m.entries ↔
        algokit_digraph_map_entry.occupied k i ∈ map.entries) ∧
      ((rc = 0 ∧ m.capacity = new_capacity) ∨ (rc = -1 ∧ m = map ∧ b = false)) := by
  cases b with
  | false =>
    exact ⟨-1, map, map_resize_fail hash map new_capacity, hok, hs, fun k i => Iff.rfl,
      Or.inr ⟨rfl, rfl, rfl⟩⟩
  | true =>
    obtain ⟨hl, hcap, hsz, hn, hlow⟩ := hok
    have hpw : map.entries.Pairwise (fun e1 e2 => ∀ (k1 : K) (i1 : Nat) (k2 : K) (i2 : Nat),
        e1 = algokit_digraph_map_entry.occupied k1 i1 →
        e2 = algokit_digraph_map_entry.occupied k2 i2 → cmp k1 k2 ≠ 0) := by
      rw [List.pairwise_iff_getElem]
      intro i j hi hj hij k1 i1 k2 i2 h1 h2 he
      have := hs.2 i j k1 i1 k2 i2 (by rw [List.getElem?_eq_getElem hi, h1])
        (by rw [List.getElem?_eq_getElem hj, h2]) he
      omega
    obtain ⟨m, hf, hsm, hmem⟩ := map_resize_fold_sound hc map.entries
      ⟨List.replicate new_capacity algokit_digraph_map_entry.empty, new_capacity, 0⟩
      (by simp) (by simp only; omega) (by
        simp only
        symm
        rw [List.countP_eq_zero]
        intro a ha
        rw [List.eq_of_mem_replicate ha]
        simp [algokit_digraph_map_entry.is_occupied])
      (by simp only; rw [← hsz]; omega) (map_replicate_sound new_capacity) hpw (by
        intro k1 i1 k2 i2 h1
        have := List.eq_of_mem_replicate h1
        simp at this)
    have hres : algokit_digraph_map_resize hash true map new_capacity = some (0, m) := by
      unfold algokit_digraph_map_resize
      simp only [Bool.true_eq_false, if_false]
      rw [← hl, List.take_length, hf]
    obtain ⟨-, r2, r3⟩ := map_resize_ok hash map n new_capacity 0 m ⟨hl, hcap, hsz, hn, hlow⟩
      hnew hres
    refine ⟨0, m, hres, r2, hsm, fun k i => ?_, Or.inl ⟨rfl, r3⟩⟩
    rw [hmem k i]
    constructor
    · rintro (h | h)
      · have := List.eq_of_mem_replicate h
        simp at this
      · exact h
    · exact fun h => Or.inr h

/-- The function `map_put` for a key that compares equal to no stored key, with any
outcome of the allocation of its resize: it returns; after the result 0 the
map holds the new pair besides the old ones and finds each, after a failure
it is unchanged. -/
theorem map_put_any (hc : HashCmp hash cmp) (c : Bool) (map : algokit_digraph_map K)
    (n : Nat) (key : K) (index : Nat) (hok : digraph_map_ok map n)
    (hs : digraph_map_sound hash cmp map)
    (habs : ∀ k i, algokit_digraph_map_entry.occupied k i ∈ map.entries → cmp k key ≠ 0) :
    ∃ rc m, algokit_digraph_map_put hash cmp c map key index = some (rc, m) ∧
      ((rc = 0 ∧ digraph_map_ok m (n + 1) ∧ digraph_map_sound hash cmp m ∧
          ∀ (k : K) (i : Nat), algokit_digraph_map_entry.occupied k i ∈ m.entries ↔
            (algokit_digraph_map_entry.occupied k i =
                algokit_digraph_map_entry.occupied key index ∨
              algokit_digraph_map_entry.occupied k i ∈ map.entries)) ∨
        (rc = -1 ∧ m = map ∧ c = false)) := by
  -- the probe and the write on a map that holds the old pairs
  have htail : ∀ (m0 : algokit_digraph_map K), digraph_map_ok m0 n →
      digraph_map_sound hash cmp m0 →
      (∀ (k : K) (i : Nat), algokit_digraph_map_entry.occupied k i ∈ m0.entries ↔
        algokit_digraph_map_entry.occupied k i ∈ map.entries) →
      ∃ m, (match algokit_digraph_map_put_probe cmp m0 key m0.capacity
            (hash key % m0.capacity) with
        | none => none
        | some none => some (1, m0)
        | some (some idx) =>
          some (0, (⟨m0.entries.set idx (algokit_digraph_map_entry.occupied key index),
            m0.capacity, m0.size + 1⟩ : algokit_digraph_map K))) = some ((0 : Int), m) ∧
        digraph_map_sound hash cmp m ∧
        ∀ (k : K) (i : Nat), algokit_digraph_map_entry.occupied k i ∈ m.entries ↔
          (algokit_digraph_map_entry.occupied k i =
              algokit_digraph_map_entry.occupied key index ∨
            algokit_digraph_map_entry.occupied k i ∈ map.entries) := by
    intro m0 hok0 hs0 hmem0
    obtain ⟨hl, hcap, hsz, hn, hlow⟩ := hok0
    have habs0 : ∀ k i, algokit_digraph_map_entry.occupied k i ∈ m0.entries → cmp k key ≠ 0 :=
      fun k i h => habs k i ((hmem0 k i).1 h)
    obtain ⟨j, hfs, hj, hje⟩ := map_free_slot_ok m0 hl (by rw [← hsz]; omega)
      (hash key % m0.capacity) (Nat.mod_lt _ hcap)
    obtain ⟨hs1, hm1⟩ := map_write_sound hc m0 key index j (m0.size + 1) hl hcap hs0 habs0 hfs
    refine ⟨_, ?_, hs1, fun k i => ?_⟩
    · rw [map_put_probe_absent m0 key habs0, hfs]
      rfl
    · simp only at hm1 ⊢
      rw [hm1 k i, hmem0 k i]
  have hok' := hok
  obtain ⟨hl, hcap, hsz, hn, hlow⟩ := hok
  by_cases hg : (map.size + 1) * 10 ≥ map.capacity * 7
  · obtain ⟨rc0, m0, hres, r1, r2, r3, r4⟩ := map_resize_any hc c map n (map.capacity * 2)
      hok' hs (by omega)
    rcases r4 with ⟨e0, -⟩ | ⟨e0, e1, e2⟩
    · obtain ⟨m, hm, hsm, hmem⟩ := htail m0 r1 r2 r3
      have hput : algokit_digraph_map_put hash cmp c map key index = some (0, m) := by
        unfold algokit_digraph_map_put
        simp only
        rw [if_pos hg, hres]
        simp only [e0, ne_eq, not_true_eq_false, if_false]
        exact hm
      exact ⟨0, m, hput, Or.inl ⟨rfl,
        (map_put_ok hash cmp c map n key index 0 m hok' hput).1 rfl, hsm, hmem⟩⟩
    · refine ⟨-1, map, ?_, Or.inr ⟨rfl, rfl, e2⟩⟩
      unfold algokit_digraph_map_put
      simp only
      rw [if_pos hg, hres, e0, e1]
      simp
  · obtain ⟨m, hm, hsm, hmem⟩ := htail map hok' hs (fun k i => Iff.rfl)
    have hput : algokit_digraph_map_put hash cmp c map key index = some (0, m) := by
      unfold algokit_digraph_map_put
      simp only
      rw [if_neg hg]
      simp only [ne_eq, not_true_eq_false, if_false]
      exact hm
    exact ⟨0, m, hput, Or.inl ⟨rfl,
      (map_put_ok hash cmp c map n key index 0 m hok' hput).1 rfl, hsm, hmem⟩⟩

/-- On a sound key map `map_get` finds a key that compares equal to a stored
key and reports every other key as absent. -/
theorem map_get_sound (hc : HashCmp hash cmp) (map : algokit_digraph_map K) (n : Nat)
    (hok : digraph_map_ok map n) (hs : digraph_map_sound hash cmp map) (key : K) :
    (∀ (k : K) (i : Nat), algokit_digraph_map_entry.occupied k i ∈ map.entries →
      cmp key k = 0 → algokit_digraph_map_get hash cmp map key = some (0, some i)) ∧
    ((∀ (k : K) (i : Nat), algokit_digraph_map_entry.occupied k i ∈ map.entries →
      cmp key k ≠ 0) → algokit_digraph_map_get hash cmp map key = some (1, none)) := by
  constructor
  · intro k i hm he
    have h1 := hs.1 k i hm
    rw [← map_find_congr hc map key k he, ← hc.hash_eq key k he] at h1
    unfold algokit_digraph_map_get
    rw [h1]
  · intro habs
    obtain ⟨rc, out, hget⟩ := map_get_total hash cmp map n hok key
    rcases map_get_codes hash cmp map key rc out hget with ⟨e1, start, e2⟩ | ⟨e1, e2⟩
    · exfalso
      rw [e1, e2] at hget
      unfold algokit_digraph_map_get at hget
      cases hf : algokit_digraph_map_find cmp map key map.capacity
          (hash key % map.capacity) with
      | none => rw [hf] at hget; simp at hget
      | some r =>
        rw [hf] at hget
        cases r with
        | none => simp at hget
        | some index =>
          obtain ⟨k, hk, hke⟩ := map_find_hit cmp map key _ _ index hf
          exact habs k index hk (hc.symm _ _ hke)
    · rw [e1, e2] at hget
      exact hget

end graph_map_rebuild

/-! ## Graphs: what `add_vertex` does -/

section graph_add_vertex_lemmas

variable {K W : Type} {hash : K → Nat} {cmp : K → K → Int}

theorem map_keys_same (map m : algokit_digraph_map K) (keys : List K)
    (hk : digraph_map_keys map keys)
    (hmem : ∀ (k : K) (i : Nat), algokit_digraph_map_entry.occupied k i ∈ m.entries ↔
      algokit_digraph_map_entry.occupied k i ∈ map.entries) :
    digraph_map_keys m keys :=
  ⟨fun i k h => (hmem k i).2 (hk.1 i k h), fun k idx h => hk.2 k idx ((hmem k idx).1 h)⟩

theorem map_keys_append (map m : algokit_digraph_map K) (keys : List K) (key : K)
    (hk : digraph_map_keys map keys)
    (hmem : ∀ (k : K) (i : Nat), algokit_digraph_map_entry.occupied k i ∈ m.entries ↔
      (algokit_digraph_map_entry.occupied k i =
          algokit_digraph_map_entry.occupied key keys.length ∨
        algokit_digraph_map_entry.occupied k i ∈ map.entries)) :
    digraph_map_keys m (keys ++ [key]) := by
  constructor
  · intro i k h
    rw [hmem k i]
    by_cases hi : i < keys.length
    · rw [List.getElem?_append_left hi] at h
      exact Or.inr (hk.1 i k h)
    · rw [List.getElem?_append_right (by omega)] at h
      have h0 : i - keys.length = 0 := by
        by_contra hne
        rw [List.getElem?_eq_none (by simp; omega)] at h
        simp at h
      rw [h0] at h
      simp only [List.getElem?_cons_zero, Option.some.injEq] at h
      left
      rw [h, show i = keys.length by omega]
  · intro k idx h
    rcases (hmem k idx).1 h with h1 | h1
    · simp only [algokit_digraph_map_entry.occupied.injEq] at h1
      rw [h1.1, h1.2, List.getElem?_append_right (le_refl _)]
      simp
    · have h2 := hk.2 k idx h1
      have hlt : idx < keys.length := by
        by_contra hge
        rw [List.getElem?_eq_none (by omega)] at h2
        simp at h2
      rw [List.getElem?_append_left hlt]
      exact h2

/-- The function `algokit_digraph_add_vertex` on a graph that satisfies the invariant, with
any outcome of its allocations: it returns and keeps the invariant; for a key
that compares equal to the key of a vertex the result is 1 and the graph is
unchanged; for any other key the result is 0 with the new vertex appended,
or -1 after a failed allocation with the vertices unchanged. -/
theorem digraph_add_vertex_spec (hc : HashCmp hash cmp) (a b c : Bool)
    (g : algokit_digraph K) (key : K) (hinv : digraph_inv hash cmp g) :
    ∃ rc g1, algokit_digraph_add_vertex hash cmp a b c g key = some (rc, g1) ∧
      digraph_inv hash cmp g1 ∧
      ((∃ (i : Nat) (k : K), (g.vertices.map (fun vx => vx.key))[i]? = some k ∧
          cmp key k = 0) → rc = 1 ∧ g1 = g) ∧
      ((∀ (i : Nat) (k : K), (g.vertices.map (fun vx => vx.key))[i]? = some k →
          cmp key k ≠ 0) →
        (rc = 0 ∧ g1.vertices = g.vertices ++ [⟨key, []⟩] ∧ g1.size = g.size + 1 ∧
          (g.size = g.capacity → g1.capacity = 2 * g.capacity)) ∨
        (rc = -1 ∧ g1.vertices = g.vertices ∧ g1.size = g.size ∧
          ¬ (a = true ∧ b = true ∧ c = true))) := by
  obtain ⟨hok, hs, hk⟩ := hinv
  have hok' := hok
  obtain ⟨hwf, hmap, hcap⟩ := hok
  have hlen : (g.vertices.map (fun vx => vx.key)).length = g.size := by
    rw [List.length_map]; exact hwf.1
  by_cases hdup : ∃ (i : Nat) (k : K), (g.vertices.map (fun vx => vx.key))[i]? = some k ∧
      cmp key k = 0
  · obtain ⟨i, k, hik, he⟩ := hdup
    have hget := (map_get_sound hc g.map g.size hmap hs key).1 k i (hk.1 i k hik) he
    refine ⟨1, g, ?_, ⟨hok', hs, hk⟩, fun _ => ⟨rfl, rfl⟩, fun hno => absurd he (hno i k hik)⟩
    unfold algokit_digraph_add_vertex
    rw [hget]
    simp
  · have hno : ∀ (k : K) (i : Nat), algokit_digraph_map_entry.occupied k i ∈ g.map.entries →
        cmp key k ≠ 0 := fun k i hm he => hdup ⟨i, k, hk.2 k i hm, he⟩
    have habs : ∀ (k : K) (i : Nat), algokit_digraph_map_entry.occupied k i ∈ g.map.entries →
        cmp k key ≠ 0 := fun k i hm he => hno k i hm (hc.symm _ _ he)
    have hget := (map_get_sound hc g.map g.size hmap hs key).2 hno
    -- the call of `map_put` and what follows it, on the graph `g1`
    have hput : ∀ (g1 : algokit_digraph K), g1.vertices = g.vertices → g1.size = g.size →
        digraph_map_ok g1.map g.size → digraph_map_sound hash cmp g1.map →
        (∀ (k : K) (i : Nat), algokit_digraph_map_entry.occupied k i ∈ g1.map.entries ↔
          algokit_digraph_map_entry.occupied k i ∈ g.map.entries) →
        ∃ rc g2,
          (match algokit_digraph_map_put hash cmp c g1.map key g1.size with
            | none => none
            | some (rc2, m) =>
              if rc2 ≠ 0 then some ((-1 : Int), (⟨g1.vertices, g1.size, g1.capacity, m⟩ :
                algokit_digraph K))
              else some (0, ⟨g1.vertices ++ [⟨key, []⟩], g1.size + 1, g1.capacity, m⟩)) =
            some (rc, g2) ∧ g2.capacity = g1.capacity ∧
          digraph_map_sound hash cmp g2.map ∧
          digraph_map_keys g2.map (g2.vertices.map (fun vx => vx.key)) ∧
          ((rc = 0 ∧ g2.vertices = g.vertices ++ [⟨key, []⟩] ∧ g2.size = g.size + 1) ∨
            (rc = -1 ∧ g2.vertices = g.vertices ∧ g2.size = g.size ∧ c = false)) := by
      intro g1 hv1 hs1 hok1 hsound1 hmem1
      obtain ⟨rc2, m, hp, hcase⟩ := map_put_any hc c g1.map g.size key g1.size hok1 hsound1
        (fun k i h => habs k i ((hmem1 k i).1 h))
      rw [hp]
      rcases hcase with ⟨e0, -, hsm, hmem⟩ | ⟨e0, e1, e2⟩
      · refine ⟨0, ⟨g1.vertices ++ [⟨key, []⟩], g1.size + 1, g1.capacity, m⟩, by rw [e0]; simp,
          rfl, hsm, ?_, Or.inl ⟨rfl, by rw [hv1], by rw [hs1]⟩⟩
        simp only [hv1, List.map_append, List.map_cons, List.map_nil]
        apply map_keys_append g.map m _ key hk
        intro k i
        rw [hmem k i, hmem1 k i, hlen, hs1]
      · refine ⟨-1, ⟨g1.vertices, g1.size, g1.capacity, m⟩, by rw [e0]; simp, rfl,
          by rw [e1]; exact hsound1, ?_,
          Or.inr ⟨rfl, hv1, hs1, e2⟩⟩
        simp only [hv1, e1]
        exact map_keys_same g.map g1.map _ hk hmem1
    by_cases hfull : g.size = g.capacity
    · cases a with
      | false =>
        refine ⟨-1, g, ?_, ⟨hok', hs, hk⟩, fun h => absurd h hdup,
          fun _ => Or.inr ⟨rfl, rfl, rfl, by simp⟩⟩
        unfold algokit_digraph_add_vertex
        rw [hget]
        simp [hfull]
      | true =>
        obtain ⟨rc1, m1, hres, r1, r2, r3, r4⟩ := map_resize_any hc b g.map g.size
          (g.capacity * 2) hmap hs (by omega)
        rcases r4 with ⟨e0, ecap⟩ | ⟨e0, e1, e2⟩
        · obtain ⟨rc, g2, hp, hc2, hs2, hk2, hcase⟩ := hput
            ⟨g.vertices, g.size, g.capacity * 2, m1⟩ rfl rfl r1 r2 r3
          have heq : algokit_digraph_add_vertex hash cmp true b c g key = some (rc, g2) := by
            unfold algokit_digraph_add_vertex
            rw [hget]
            simp only [one_ne_zero, if_false, hfull, if_true, Bool.true_eq_false, hres, e0,
              ne_eq, not_true_eq_false]
            rw [← hfull] at hp ⊢
            exact hp
          refine ⟨rc, g2, heq,
            ⟨digraph_add_vertex_ok hash cmp true b c g key rc g2 hok' heq, hs2, hk2⟩,
            fun h => absurd h hdup, fun _ => ?_⟩
          rcases hcase with ⟨c1, c2, c3⟩ | ⟨c1, c2, c3, c4⟩
          · exact Or.inl ⟨c1, c2, c3, fun _ => by rw [hc2]; simp only; omega⟩
          · exact Or.inr ⟨c1, c2, c3, by simp [c4]⟩
        · have heq : algokit_digraph_add_vertex hash cmp true b c g key =
              some (-1, ⟨g.vertices, g.size, g.capacity * 2, g.map⟩) := by
            unfold algokit_digraph_add_vertex
            rw [hget]
            simp only [one_ne_zero, if_false, hfull, if_true, Bool.true_eq_false, hres, e0, e1,
              ne_eq]
            simp
          refine ⟨-1, _, heq,
            ⟨digraph_add_vertex_ok hash cmp true b c g key _ _ hok' heq, hs, hk⟩,
            fun h => absurd h hdup, fun _ => Or.inr ⟨rfl, rfl, rfl, by simp [e2]⟩⟩
    · obtain ⟨rc, g2, hp, hc2, hs2, hk2, hcase⟩ := hput g rfl rfl hmap hs (fun k i => Iff.rfl)
      have heq : algokit_digraph_add_vertex hash cmp a b c g key = some (rc, g2) := by
        unfold algokit_digraph_add_vertex
        rw [hget]
        simp only [one_ne_zero, if_false, hfull, ne_eq, not_true_eq_false]
        exact hp
      refine ⟨rc, g2, heq,
        ⟨digraph_add_vertex_ok hash cmp a b c g key rc g2 hok' heq, hs2, hk2⟩,
        fun h => absurd h hdup, fun _ => ?_⟩
      rcases hcase with ⟨c1, c2, c3⟩ | ⟨c1, c2, c3, c4⟩
      · exact Or.inl ⟨c1, c2, c3, fun h => absurd h hfull⟩
      · exact Or.inr ⟨c1, c2, c3, by simp [c4]⟩

/-- The function `algokit_graph_add_vertex` on a graph that satisfies the invariant, with
any outcome of its allocations: it returns and keeps the invariant; for a key
that compares equal to the key of a vertex the result is 1 and the graph is
unchanged; for any other key the result is 0 with the new vertex appended,
or -1 after a failed allocation with the vertices unchanged. -/
theorem graph_add_vertex_spec (hc : HashCmp hash cmp) (a b c : Bool)
    (g : algokit_graph K W) (key : K) (hinv : graph_inv hash cmp g) :
    ∃ rc g1, algokit_graph_add_vertex hash cmp a b c g key = some (rc, g1) ∧
      graph_inv hash cmp g1 ∧
      ((∃ (i : Nat) (k : K), (g.vertices.map (fun vx => vx.key))[i]? = some k ∧
          cmp key k = 0) → rc = 1 ∧ g1 = g) ∧
      ((∀ (i : Nat) (k : K), (g.vertices.map (fun vx => vx.key))[i]? = some k →
          cmp key k ≠ 0) →
        (rc = 0 ∧ g1.vertices = g.vertices ++ [⟨key, []⟩] ∧ g1.size = g.size + 1 ∧
          (g.size = g.capacity → g1.capacity = 2 * g.capacity)) ∨
        (rc = -1 ∧ g1.vertices = g.vertices ∧ g1.size = g.size ∧
          ¬ (a = true ∧ b = true ∧ c = true))) := by
  obtain ⟨hok, hs, hk⟩ := hinv
  have hok' := hok
  obtain ⟨hwf, hmap, hcap⟩ := hok
  have hlen : (g.vertices.map (fun vx => vx.key)).length = g.size := by
    rw [List.length_map]; exact hwf.1
  by_cases hdup : ∃ (i : Nat) (k : K), (g.vertices.map (fun vx => vx.key))[i]? = some k ∧
      cmp key k = 0
  · obtain ⟨i, k, hik, he⟩ := hdup
    have hget : algokit_graph_map_get hash cmp g.map key = some (0, some i) :=
      (map_get_sound hc g.map g.size hmap hs key).1 k i (hk.1 i k hik) he
    refine ⟨1, g, ?_, ⟨hok', hs, hk⟩, fun _ => ⟨rfl, rfl⟩, fun hno => absurd he (hno i k hik)⟩
    unfold algokit_graph_add_vertex
    rw [hget]
    simp
  · have hno : ∀ (k : K) (i : Nat), algokit_digraph_map_entry.occupied k i ∈ g.map.entries →
        cmp key k ≠ 0 := fun k i hm he => hdup ⟨i, k, hk.2 k i hm, he⟩
    have habs : ∀ (k : K) (i : Nat), algokit_digraph_map_entry.occupied k i ∈ g.map.entries →
        cmp k key ≠ 0 := fun k i hm he => hno k i hm (hc.symm _ _ he)
    have hget : algokit_graph_map_get hash cmp g.map key = some (1, none) :=
      (map_get_sound hc g.map g.size hmap hs key).2 hno
    -- the call of `map_put` and what follows it, on the graph `g1`
    have hput : ∀ (g1 : algokit_graph K W), g1.vertices = g.vertices → g1.size = g.size →
        digraph_map_ok g1.map g.size → digraph_map_sound hash cmp g1.map →
        (∀ (k : K) (i : Nat), algokit_digraph_map_entry.occupied k i ∈ g1.map.entries ↔
          algokit_digraph_map_entry.occupied k i ∈ g.map.entries) →
        ∃ rc g2,
          (match algokit_digraph_map_put hash cmp c g1.map key g1.size with
            | none => none
            | some (rc2, m) =>
              if rc2 ≠ 0 then some ((-1 : Int), (⟨g1.vertices, g1.size, g1.capacity, m⟩ :
                algokit_graph K W))
              else some (0, ⟨g1.vertices ++ [⟨key, []⟩], g1.size + 1, g1.capacity, m⟩)) =
            some (rc, g2) ∧ g2.capacity = g1.capacity ∧
          digraph_map_sound hash cmp g2.map ∧
          digraph_map_keys g2.map (g2.vertices.map (fun vx => vx.key)) ∧
          ((rc = 0 ∧ g2.vertices = g.vertices ++ [⟨key, []⟩] ∧ g2.size = g.size + 1) ∨
            (rc = -1 ∧ g2.vertices = g.vertices ∧ g2.size = g.size ∧ c = false)) := by
      intro g1 hv1 hs1 hok1 hsound1 hmem1
      obtain ⟨rc2, m, hp, hcase⟩ := map_put_any hc c g1.map g.size key g1.size hok1 hsound1
        (fun k i h => habs k i ((hmem1 k i).1 h))
      rw [hp]
      rcases hcase with ⟨e0, -, hsm, hmem⟩ | ⟨e0, e1, e2⟩
      · refine ⟨0, ⟨g1.vertices ++ [⟨key, []⟩], g1.size + 1, g1.capacity, m⟩, by rw [e0]; simp,
          rfl, hsm, ?_, Or.inl ⟨rfl, by rw [hv1], by rw [hs1]⟩⟩
        simp only [hv1, List.map_append, List.map_cons, List.map_nil]
        apply map_keys_append g.map m _ key hk
        intro k i
        rw [hmem k i, hmem1 k i, hlen, hs1]
      · refine ⟨-1, ⟨g1.vertices, g1.size, g1.capacity, m⟩, by rw [e0]; simp, rfl,
          by rw [e1]; exact hsound1, ?_,
          Or.inr ⟨rfl, hv1, hs1, e2⟩⟩
        simp only [hv1, e1]
        exact map_keys_same g.map g1.map _ hk hmem1
    by_cases hfull : g.size = g.capacity
    · cases a with
      | false =>
        refine ⟨-1, g, ?_, ⟨hok', hs, hk⟩, fun h => absurd h hdup,
          fun _ => Or.inr ⟨rfl, rfl, rfl, by simp⟩⟩
        unfold algokit_graph_add_vertex
        rw [hget]
        simp [hfull]
      | true =>
        obtain ⟨rc1, m1, hres, r1, r2, r3, r4⟩ := map_resize_any hc b g.map g.size
          (g.capacity * 2) hmap hs (by omega)
        rcases r4 with ⟨e0, ecap⟩ | ⟨e0, e1, e2⟩
        · obtain ⟨rc, g2, hp, hc2, hs2, hk2, hcase⟩ := hput
            ⟨g.vertices, g.size, g.capacity * 2, m1⟩ rfl rfl r1 r2 r3
          have heq : algokit_graph_add_vertex hash cmp true b c g key = some (rc, g2) := by
            unfold algokit_graph_add_vertex
            rw [hget]
            simp only [one_ne_zero, if_false, hfull, if_true, Bool.true_eq_false, hres, e0,
              ne_eq, not_true_eq_false]
            rw [← hfull] at hp ⊢
            exact hp
          refine ⟨rc, g2, heq,
            ⟨graph_add_vertex_ok hash cmp true b c g key rc g2 hok' heq, hs2, hk2⟩,
            fun h => absurd h hdup, fun _ => ?_⟩
          rcases hcase with ⟨c1, c2, c3⟩ | ⟨c1, c2, c3, c4⟩
          · exact Or.inl ⟨c1, c2, c3, fun _ => by rw [hc2]; simp only; omega⟩
          · exact Or.inr ⟨c1, c2, c3, by simp [c4]⟩
        · have heq : algokit_graph_add_vertex hash cmp true b c g key =
              some (-1, ⟨g.vertices, g.size, g.capacity * 2, g.map⟩) := by
            unfold algokit_graph_add_vertex
            rw [hget]
            simp only [one_ne_zero, if_false, hfull, if_true, Bool.true_eq_false, hres, e0, e1,
              ne_eq]
            simp
          refine ⟨-1, _, heq,
            ⟨graph_add_vertex_ok hash cmp true b c g key _ _ hok' heq, hs, hk⟩,
            fun h => absurd h hdup, fun _ => Or.inr ⟨rfl, rfl, rfl, by simp [e2]⟩⟩
    · obtain ⟨rc, g2, hp, hc2, hs2, hk2, hcase⟩ := hput g rfl rfl hmap hs (fun k i => Iff.rfl)
      have heq : algokit_graph_add_vertex hash cmp a b c g key = some (rc, g2) := by
        unfold algokit_graph_add_vertex
        rw [hget]
        simp only [one_ne_zero, if_false, hfull, ne_eq, not_true_eq_false]
        exact hp
      refine ⟨rc, g2, heq,
        ⟨graph_add_vertex_ok hash cmp a b c g key rc g2 hok' heq, hs2, hk2⟩,
        fun h => absurd h hdup, fun _ => ?_⟩
      rcases hcase with ⟨c1, c2, c3⟩ | ⟨c1, c2, c3, c4⟩
      · exact Or.inl ⟨c1, c2, c3, fun h => absurd h hfull⟩
      · exact Or.inr ⟨c1, c2, c3, by simp [c4]⟩


end graph_add_vertex_lemmas

/-! ## Graphs: what `add_edge` does, and the invariant of the graphs that are built -/

section graph_add_edge_lemmas

variable {K W : Type} {hash : K → Nat} {cmp : K → K → Int}

theorem list_map_modify {α β : Type} (p : α → β) (f : α → α) (hf : ∀ x, p (f x) = p x)
    (l : List α) (i : Nat) : (l.modify f i).map p = l.map p := by
  apply List.ext_getElem?
  intro n
  simp only [List.getElem?_map, List.getElem?_modify]
  cases l[n]? with
  | none => rfl
  | some x =>
    simp only [Option.map_eq_map, Option.map_some']
    split_ifs
    · rw [hf]
    · rfl

/-- The function `algokit_digraph_add_edge`, when it returns: nothing but the vertex array
changes, the keys stay, and after the result 0 the index of `to_key` has been
put at the head of the adjacency list of the index of `from_key`. -/
theorem digraph_add_edge_spec (a : Bool) (g : algokit_digraph K) (from_key to_key : K)
    (rc : Int) (g1 : algokit_digraph K)
    (hr : algokit_digraph_add_edge hash cmp a g from_key to_key = some (rc, g1)) :
    g1.map = g.map ∧ g1.size = g.size ∧ g1.capacity = g.capacity ∧
    g1.vertices.map (fun vx => vx.key) = g.vertices.map (fun vx => vx.key) ∧
    (rc ≠ 0 → g1 = g) ∧
    (rc = 0 → ∃ f t, algokit_digraph_map_get hash cmp g.map from_key = some (0, some f) ∧
      algokit_digraph_map_get hash cmp g.map to_key = some (0, some t) ∧
      g1.vertices = g.vertices.modify (fun vx => ⟨vx.key, t :: vx.adj⟩) f) := by
  unfold algokit_digraph_add_edge at hr
  cases hget : algokit_digraph_map_get hash cmp g.map from_key with
  | none => rw [hget] at hr; simp at hr
  | some r0 =>
    obtain ⟨rc0, out0⟩ := r0
    rw [hget] at hr
    simp only at hr
    by_cases h0 : rc0 ≠ 0
    · rw [if_pos h0] at hr
      simp only [Option.some.injEq, Prod.mk.injEq] at hr
      rw [← hr.1, ← hr.2]
      exact ⟨rfl, rfl, rfl, rfl, fun _ => rfl, fun h => by simp at h⟩
    · rw [if_neg h0] at hr
      cases hget1 : algokit_digraph_map_get hash cmp g.map to_key with
      | none => rw [hget1] at hr; simp at hr
      | some r1 =>
        obtain ⟨rc1, out1⟩ := r1
        rw [hget1] at hr
        simp only at hr
        by_cases h1 : rc1 ≠ 0
        · rw [if_pos h1] at hr
          simp only [Option.some.injEq, Prod.mk.injEq] at hr
          rw [← hr.1, ← hr.2]
          exact ⟨rfl, rfl, rfl, rfl, fun _ => rfl, fun h => by simp at h⟩
        · rw [if_neg h1] at hr
          by_cases ha : a = false
          · rw [if_pos ha] at hr
            simp only [Option.some.injEq, Prod.mk.injEq] at hr
            rw [← hr.1, ← hr.2]
            exact ⟨rfl, rfl, rfl, rfl, fun _ => rfl, fun h => by simp at h⟩
          · rw [if_neg ha] at hr
            simp only [Option.some.injEq, Prod.mk.injEq] at hr
            rw [← hr.1, ← hr.2]
            refine ⟨rfl, rfl, rfl,
              list_map_modify (fun vx : algokit_digraph_vertex K => vx.key)
                (fun vx => ⟨vx.key, out1.getD 0 :: vx.adj⟩) (fun _ => rfl) _ _,
              fun h => absurd rfl h, fun _ => ?_⟩
            rcases map_get_codes hash cmp g.map from_key rc0 out0 hget with
              ⟨e1, f, e2⟩ | ⟨e1, -⟩
            · rcases map_get_codes hash cmp g.map to_key rc1 out1 hget1 with
                ⟨e3, t, e4⟩ | ⟨e3, -⟩
              · refine ⟨f, t, by rw [e1, e2], by rw [e3, e4], ?_⟩
                rw [e2, e4]
                rfl
              · exfalso; have := not_not.1 h1; omega
            · exfalso; have := not_not.1 h0; omega

/-- The function `algokit_graph_add_edge`, when it returns: nothing but the vertex array
changes, the keys stay, and after the result 0 an entry for each end has
been put at the head of the adjacency list of the other end, first on the
list of `u`, then on the list of `v`. -/
theorem graph_add_edge_spec (a : Bool) (g : algokit_graph K W) (u_key v_key : K) (weight : W)
    (rc : Int) (g1 : algokit_graph K W)
    (hr : algokit_graph_add_edge hash cmp a g u_key v_key weight = some (rc, g1)) :
    g1.map = g.map ∧ g1.size = g.size ∧ g1.capacity = g.capacity ∧
    g1.vertices.map (fun vx => vx.key) = g.vertices.map (fun vx => vx.key) ∧
    (rc ≠ 0 → g1 = g) ∧
    (rc = 0 → ∃ u v, algokit_digraph_map_get hash cmp g.map u_key = some (0, some u) ∧
      algokit_digraph_map_get hash cmp g.map v_key = some (0, some v) ∧
      g1.vertices = (g.vertices.modify (fun vx => ⟨vx.key, ⟨v, weight⟩ :: vx.adj⟩) u).modify
        (fun vx => ⟨vx.key, ⟨u, weight⟩ :: vx.adj⟩) v) := by
  unfold algokit_graph_add_edge algokit_graph_map_get at hr
  cases hget : algokit_digraph_map_get hash cmp g.map u_key with
  | none => rw [hget] at hr; simp at hr
  | some r0 =>
    obtain ⟨rc0, out0⟩ := r0
    rw [hget] at hr
    simp only at hr
    by_cases h0 : rc0 ≠ 0
    · rw [if_pos h0] at hr
      simp only [Option.some.injEq, Prod.mk.injEq] at hr
      rw [← hr.1, ← hr.2]
      exact ⟨rfl, rfl, rfl, rfl, fun _ => rfl, fun h => by simp at h⟩
    · rw [if_neg h0] at hr
      cases hget1 : algokit_digraph_map_get hash cmp g.map v_key with
      | none => rw [hget1] at hr; simp at hr
      | some r1 =>
        obtain ⟨rc1, out1⟩ := r1
        rw [hget1] at hr
        simp only at hr
        by_cases h1 : rc1 ≠ 0
        · rw [if_pos h1] at hr
          simp only [Option.some.injEq, Prod.mk.injEq] at hr
          rw [← hr.1, ← hr.2]
          exact ⟨rfl, rfl, rfl, rfl, fun _ => rfl, fun h => by simp at h⟩
        · rw [if_neg h1] at hr
          by_cases ha : a = false
          · rw [if_pos ha] at hr
            simp only [Option.some.injEq, Prod.mk.injEq] at hr
            rw [← hr.1, ← hr.2]
            exact ⟨rfl, rfl, rfl, rfl, fun _ => rfl, fun h => by simp at h⟩
          · rw [if_neg ha] at hr
            simp only [Option.some.injEq, Prod.mk.injEq] at hr
            rw [← hr.1, ← hr.2]
            refine ⟨rfl, rfl, rfl, ?_, fun h => absurd rfl h, fun _ => ?_⟩
            · simp only
              rw [list_map_modify (fun vx : algokit_graph_vertex K W => vx.key)
                  (fun vx => ⟨vx.key, ⟨out0.getD 0, weight⟩ :: vx.adj⟩) (fun _ => rfl),
                list_map_modify (fun vx : algokit_graph_vertex K W => vx.key)
                  (fun vx => ⟨vx.key, ⟨out1.getD 0, weight⟩ :: vx.adj⟩) (fun _ => rfl)]
            · rcases map_get_codes hash cmp g.map u_key rc0 out0 hget with
                ⟨e1, u, e2⟩ | ⟨e1, -⟩
              · rcases map_get_codes hash cmp g.map v_key rc1 out1 hget1 with
                  ⟨e3, v, e4⟩ | ⟨e3, -⟩
                · refine ⟨u, v, by rw [e1, e2], by rw [e3, e4], ?_⟩
                  rw [e2, e4]
                  rfl
                · exfalso; have := not_not.1 h1; omega
              · exfalso; have := not_not.1 h0; omega

theorem digraph_create_inv (capacity : Nat) (g : algokit_digraph K)
    (h : algokit_digraph_create true capacity = some g) : digraph_inv hash cmp g := by
  refine ⟨digraph_create_ok true capacity g h, ?_⟩
  have hg : g = ⟨[], 0, capacity,
      ⟨List.replicate capacity algokit_digraph_map_entry.empty, capacity, 0⟩⟩ := by
    unfold algokit_digraph_create at h
    split_ifs at h <;> simp only [Option.some.injEq] at h <;> exact h.symm
  rw [hg]
  refine ⟨map_replicate_sound capacity, ?_, ?_⟩
  · intro i k hk
    simp at hk
  · intro k idx hk
    have := List.eq_of_mem_replicate hk
    simp at this

theorem graph_create_inv (capacity : Nat) (g : algokit_graph K W)
    (h : algokit_graph_create true capacity = some g) : graph_inv hash cmp g := by
  refine ⟨graph_create_ok true capacity g h, ?_⟩
  have hg : g = ⟨[], 0, capacity,
      ⟨List.replicate capacity algokit_digraph_map_entry.empty, capacity, 0⟩⟩ := by
    unfold algokit_graph_create at h
    split_ifs at h <;> simp only [Option.some.injEq] at h <;> exact h.symm
  rw [hg]
  refine ⟨map_replicate_sound capacity, ?_, ?_⟩
  · intro i k hk
    simp at hk
  · intro k idx hk
    have := List.eq_of_mem_replicate hk
    simp at this

/-- A call that returns keeps the invariant of a directed graph. -/
theorem digraph_step_inv (hc : HashCmp hash cmp) (g g1 : algokit_digraph K)
    (op : digraph_op K) (hinv : digraph_inv hash cmp g)
    (hstep : digraph_step hash cmp g op = some g1) : digraph_inv hash cmp g1 := by
  cases op with
  | add_vertex a b c key =>
    simp only [digraph_step, Option.map_eq_some', Prod.exists, exists_eq_right] at hstep
    obtain ⟨rc, hav⟩ := hstep
    obtain ⟨rc', g', h1, h2, -⟩ := digraph_add_vertex_spec hc a b c g key hinv
    rw [hav] at h1
    simp only [Option.some.injEq, Prod.mk.injEq] at h1
    rw [h1.2]
    exact h2
  | add_edge a fk tk =>
    simp only [digraph_step, Option.map_eq_some', Prod.exists, exists_eq_right] at hstep
    obtain ⟨rc, hae⟩ := hstep
    obtain ⟨f1, f2, f3, f4, -⟩ := digraph_add_edge_spec a g fk tk rc g1 hae
    refine ⟨⟨digraph_add_edge_wf hash cmp a g fk tk rc g1 hinv.1.1 hae,
      by rw [f1, f2]; exact hinv.1.2.1, by rw [f3]; exact hinv.1.2.2⟩, ?_, ?_⟩
    · rw [f1]; exact hinv.2.1
    · rw [f1, f4]; exact hinv.2.2

/-- A call that returns keeps the invariant of an undirected graph. -/
theorem graph_step_inv (hc : HashCmp hash cmp) (g g1 : algokit_graph K W)
    (op : graph_op K W) (hinv : graph_inv hash cmp g)
    (hstep : graph_step hash cmp g op = some g1) : graph_inv hash cmp g1 := by
  cases op with
  | add_vertex a b c key =>
    simp only [graph_step, Option.map_eq_some', Prod.exists, exists_eq_right] at hstep
    obtain ⟨rc, hav⟩ := hstep
    obtain ⟨rc', g', h1, h2, -⟩ := graph_add_vertex_spec hc a b c g key hinv
    rw [hav] at h1
    simp only [Option.some.injEq, Prod.mk.injEq] at h1
    rw [h1.2]
    exact h2
  | add_edge a uk vk w =>
    simp only [graph_step, Option.map_eq_some', Prod.exists, exists_eq_right] at hstep
    obtain ⟨rc, hae⟩ := hstep
    obtain ⟨f1, f2, f3, f4, -⟩ := graph_add_edge_spec a g uk vk w rc g1 hae
    refine ⟨⟨graph_add_edge_wf hash cmp a g uk vk w rc g1 hinv.1.1 hae,
      by rw [f1, f2]; exact hinv.1.2.1, by rw [f3]; exact hinv.1.2.2⟩, ?_, ?_⟩
    · rw [f1]; exact hinv.2.1
    · rw [f1, f4]; exact hinv.2.2

theorem digraph_run_inv (hc : HashCmp hash cmp) (ops : List (digraph_op K)) :
    ∀ (g0 g : algokit_digraph K), digraph_inv hash cmp g0 →
      digraph_run hash cmp g0 ops = some g → digraph_inv hash cmp g := by
  induction ops with
  | nil =>
    intro g0 g h0 hrun
    simp only [digraph_run, Option.some.injEq] at hrun
    rw [← hrun]
    exact h0
  | cons op ops ih =>
    intro g0 g h0 hrun
    simp only [digraph_run] at hrun
    cases hstep : digraph_step hash cmp g0 op with
    | none => rw [hstep] at hrun; simp at hrun
    | some g1 =>
      rw [hstep] at hrun
      exact ih g1 g (digraph_step_inv hc g0 g1 op h0 hstep) hrun

theorem graph_run_inv (hc : HashCmp hash cmp) (ops : List (graph_op K W)) :
    ∀ (g0 g : algokit_graph K W), graph_inv hash cmp g0 →
      graph_run hash cmp g0 ops = some g → graph_inv hash cmp g := by
  induction ops with
  | nil =>
    intro g0 g h0 hrun
    simp only [graph_run, Option.some.injEq] at hrun
    rw [← hrun]
    exact h0
  | cons op ops ih =>
    intro g0 g h0 hrun
    simp only [graph_run] at hrun
    cases hstep : graph_step hash cmp g0 op with
    | none => rw [hstep] at hrun; simp at hrun
    | some g1 =>
      rw [hstep] at hrun
      exact ih g1 g (graph_step_inv hc g0 g1 op h0 hstep) hrun

/-- Every directed graph built by `add_vertex` and `add_edge` satisfies the
invariant: its key map finds the key of every vertex. -/
theorem digraph_reachable_inv (hc : HashCmp hash cmp) (g : algokit_digraph K)
    (hr : digraph_reachable hash cmp g) : digraph_inv hash cmp g := by
  obtain ⟨capacity, ops, g0, h0, hrun⟩ := hr
  exact digraph_run_inv hc ops g0 g (digraph_create_inv capacity g0 h0) hrun

theorem graph_reachable_inv (hc : HashCmp hash cmp) (g : algokit_graph K W)
    (hr : graph_reachable hash cmp g) : graph_inv hash cmp g := by
  obtain ⟨capacity, ops, g0, h0, hrun⟩ := hr
  exact graph_run_inv hc ops g0 g (graph_create_inv capacity g0 h0) hrun

end graph_add_edge_lemmas

/-! ## Graphs: the index of a new vertex -/

section graph_vertex_index_lemmas

variable {K W : Type} {hash : K → Nat} {cmp : K → K → Int}

theorem digraph_vertex_key_eq (g : algokit_digraph K) (hwf : digraph_wf g) (i : Nat) :
    algokit_digraph_vertex_key g i = (g.vertices.map (fun vx => vx.key))[i]? := by
  unfold algokit_digraph_vertex_key
  split_ifs with h
  · rw [List.getElem?_eq_none (by rw [List.length_map, hwf.1]; exact h)]
  · rw [List.get?_eq_getElem?, List.getElem?_map]

theorem graph_vertex_key_eq (g : algokit_graph K W) (hwf : graph_wf g) (i : Nat) :
    algokit_graph_vertex_key g i = (g.vertices.map (fun vx => vx.key))[i]? := by
  unfold algokit_graph_vertex_key
  split_ifs with h
  · rw [List.getElem?_eq_none (by rw [List.length_map, hwf.1]; exact h)]
  · rw [List.get?_eq_getElem?, List.getElem?_map]

/-- On a graph that satisfies the invariant `add_vertex` of a key that
compares equal to the key of a vertex returns 1 and changes nothing. -/
theorem digraph_add_vertex_dup (hc : HashCmp hash cmp) (a b c : Bool) (g : algokit_digraph K)
    (key : K) (hinv : digraph_inv hash cmp g)
    (hdup : ∃ (i : Nat) (k : K), algokit_digraph_vertex_key g i = some k ∧ cmp key k = 0) :
    algokit_digraph_add_vertex hash cmp a b c g key = some (1, g) := by
  obtain ⟨rc, g1, h1, -, h2, -⟩ := digraph_add_vertex_spec hc a b c g key hinv
  obtain ⟨i, k, hk, he⟩ := hdup
  rw [digraph_vertex_key_eq g hinv.1.1] at hk
  obtain ⟨e1, e2⟩ := h2 ⟨i, k, hk, he⟩
  rw [h1, e1, e2]

/-- On a graph that satisfies the invariant `add_vertex` of a key that
compares equal to no key of a vertex returns 0 when its allocations succeed;
the new vertex has the old vertex count as its index, the lookup of its key
gives that index, and the vertices below it are unchanged. -/
theorem digraph_add_vertex_new (hc : HashCmp hash cmp) (g : algokit_digraph K) (key : K)
    (hinv : digraph_inv hash cmp g)
    (hnew : ∀ (i : Nat) (k : K), algokit_digraph_vertex_key g i = some k → cmp key k ≠ 0) :
    ∃ g1, algokit_digraph_add_vertex hash cmp true true true g key = some (0, g1) ∧
      digraph_inv hash cmp g1 ∧
      g1.vertices = g.vertices ++ [⟨key, []⟩] ∧ g1.size = g.size + 1 ∧
      (g.size = g.capacity → g1.capacity = 2 * g.capacity) ∧
      algokit_digraph_vertex_key g1 g.size = some key ∧
      algokit_digraph_map_get hash cmp g1.map key = some (0, some g.size) ∧
      ∀ i, i < g.size → g1.vertices[i]? = g.vertices[i]? ∧
        algokit_digraph_vertex_key g1 i = algokit_digraph_vertex_key g i ∧
        algokit_digraph_adj g1 i = algokit_digraph_adj g i := by
  obtain ⟨rc, g1, h1, hinv1, -, h3⟩ := digraph_add_vertex_spec hc true true true g key hinv
  have hlen := hinv.1.1.1
  rcases h3 (fun i k hk => hnew i k (by rw [digraph_vertex_key_eq g hinv.1.1]; exact hk)) with
    ⟨e1, e2, e3, e4⟩ | ⟨-, -, -, e4⟩
  · rw [e1] at h1
    have hkey : algokit_digraph_vertex_key g1 g.size = some key := by
      rw [digraph_vertex_key_eq g1 hinv1.1.1, e2, List.map_append,
        List.getElem?_append_right (by rw [List.length_map, hlen])]
      simp [hlen]
    have hmem := hinv1.2.2.1 g.size key (by
      rw [← digraph_vertex_key_eq g1 hinv1.1.1]; exact hkey)
    refine ⟨g1, h1, hinv1, e2, e3, e4, hkey,
      (map_get_sound hc g1.map g1.size hinv1.1.2.1 hinv1.2.1 key).1 key g.size hmem
        (hc.refl key), fun i hi => ?_⟩
    have hg : g1.vertices[i]? = g.vertices[i]? := by
      rw [e2, List.getElem?_append_left (by rw [hlen]; exact hi)]
    refine ⟨hg, ?_, ?_⟩
    · unfold algokit_digraph_vertex_key
      rw [if_neg (by omega), if_neg (by omega), List.get?_eq_getElem?, List.get?_eq_getElem?,
        hg]
    · unfold algokit_digraph_adj
      rw [List.get?_eq_getElem?, List.get?_eq_getElem?, hg]
  · exact absurd ⟨rfl, rfl, rfl⟩ e4

theorem graph_add_vertex_dup (hc : HashCmp hash cmp) (a b c : Bool) (g : algokit_graph K W)
    (key : K) (hinv : graph_inv hash cmp g)
    (hdup : ∃ (i : Nat) (k : K), algokit_graph_vertex_key g i = some k ∧ cmp key k = 0) :
    algokit_graph_add_vertex hash cmp a b c g key = some (1, g) := by
  obtain ⟨rc, g1, h1, -, h2, -⟩ := graph_add_vertex_spec hc a b c g key hinv
  obtain ⟨i, k, hk, he⟩ := hdup
  rw [graph_vertex_key_eq g hinv.1.1] at hk
  obtain ⟨e1, e2⟩ := h2 ⟨i, k, hk, he⟩
  rw [h1, e1, e2]

theorem graph_add_vertex_new (hc : HashCmp hash cmp) (g : algokit_graph K W) (key : K)
    (hinv : graph_inv hash cmp g)
    (hnew : ∀ (i : Nat) (k : K), algokit_graph_vertex_key g i = some k → cmp key k ≠ 0) :
    ∃ g1, algokit_graph_add_vertex hash cmp true true true g key = some (0, g1) ∧
      graph_inv hash cmp g1 ∧
      g1.vertices = g.vertices ++ [⟨key, []⟩] ∧ g1.size = g.size + 1 ∧
      (g.size = g.capacity → g1.capacity = 2 * g.capacity) ∧
      algokit_graph_vertex_key g1 g.size = some key ∧
      algokit_graph_map_get hash cmp g1.map key = some (0, some g.size) ∧
      ∀ i, i < g.size → g1.vertices[i]? = g.vertices[i]? ∧
        algokit_graph_vertex_key g1 i = algokit_graph_vertex_key g i ∧
        algokit_graph_adj g1 i = algokit_graph_adj g i := by
  obtain ⟨rc, g1, h1, hinv1, -, h3⟩ := graph_add_vertex_spec hc true true true g key hinv
  have hlen := hinv.1.1.1
  rcases h3 (fun i k hk => hnew i k (by rw [graph_vertex_key_eq g hinv.1.1]; exact hk)) with
    ⟨e1, e2, e3, e4⟩ | ⟨-, -, -, e4⟩
  · rw [e1] at h1
    have hkey : algokit_graph_vertex_key g1 g.size = some key := by
      rw [graph_vertex_key_eq g1 hinv1.1.1, e2, List.map_append,
        List.getElem?_append_right (by rw [List.length_map, hlen])]
      simp [hlen]
    have hmem := hinv1.2.2.1 g.size key (by
      rw [← graph_vertex_key_eq g1 hinv1.1.1]; exact hkey)
    refine ⟨g1, h1, hinv1, e2, e3, e4, hkey,
      (map_get_sound hc g1.map g1.size hinv1.1.2.1 hinv1.2.1 key).1 key g.size hmem
        (hc.refl key), fun i hi => ?_⟩
    have hg : g1.vertices[i]? = g.vertices[i]? := by
      rw [e2, List.getElem?_append_left (by rw [hlen]; exact hi)]
    refine ⟨hg, ?_, ?_⟩
    · unfold algokit_graph_vertex_key
      rw [if_neg (by omega), if_neg (by omega), List.get?_eq_getElem?, List.get?_eq_getElem?,
        hg]
    · unfold algokit_graph_adj
      rw [List.get?_eq_getElem?, List.get?_eq_getElem?, hg]
  · exact absurd ⟨rfl, rfl, rfl⟩ e4

end graph_vertex_index_lemmas

/-! ## Graphs: vertex indices -/

section vertex_index_claims

variable {K W : Type} {hash : K → Nat} {cmp : K → K → Int}

/-- C27: vertex indices are assigned sequentially and never change.  For
every directed graph and every undirected graph built by calls of
`add_vertex` and `add_edge`, with a hash function and a comparator that
satisfy `HashCmp`: `add_vertex` of a key that compares equal to the key of a
vertex returns 1 and leaves the graph as it is, whatever the allocations
would do; `add_vertex` of a key that compares equal to no key of a vertex
returns 0 when its allocations succeed, raises the vertex count by one, makes
`vertex_key(old count)` that key and leaves every vertex below the old count
with its key and its adjacency list (for the undirected graph with the
weights), the capacity being doubled and the key map rebuilt when the vertex
array was full. -/
theorem graph_vertex_indices_stable (hc : HashCmp hash cmp) (a b c : Bool) (key : K)
    (dg : algokit_digraph K) (hd : digraph_reachable hash cmp dg)
    (ug : algokit_graph K W) (hu : graph_reachable hash cmp ug) :
    ((∃ (i : Nat) (k : K), algokit_digraph_vertex_key dg i = some k ∧ cmp key k = 0) →
      algokit_digraph_add_vertex hash cmp a b c dg key = some (1, dg)) ∧
    ((∀ (i : Nat) (k : K), algokit_digraph_vertex_key dg i = some k → cmp key k ≠ 0) →
      ∃ g1, algokit_digraph_add_vertex hash cmp true true true dg key = some (0, g1) ∧
        algokit_digraph_vertex_count g1 = algokit_digraph_vertex_count dg + 1 ∧
        algokit_digraph_vertex_key g1 (algokit_digraph_vertex_count dg) = some key ∧
        (dg.size = dg.capacity → g1.capacity = 2 * dg.capacity) ∧
        ∀ i, i < algokit_digraph_vertex_count dg →
          algokit_digraph_vertex_key g1 i = algokit_digraph_vertex_key dg i ∧
          algokit_digraph_adj g1 i = algokit_digraph_adj dg i) ∧
    ((∃ (i : Nat) (k : K), algokit_graph_vertex_key ug i = some k ∧ cmp key k = 0) →
      algokit_graph_add_vertex hash cmp a b c ug key = some (1, ug)) ∧
    ((∀ (i : Nat) (k : K), algokit_graph_vertex_key ug i = some k → cmp key k ≠ 0) →
      ∃ g1, algokit_graph_add_vertex hash cmp true true true ug key = some (0, g1) ∧
        algokit_graph_vertex_count g1 = algokit_graph_vertex_count ug + 1 ∧
        algokit_graph_vertex_key g1 (algokit_graph_vertex_count ug) = some key ∧
        (ug.size = ug.capacity → g1.capacity = 2 * ug.capacity) ∧
        ∀ i, i < algokit_graph_vertex_count ug →
          algokit_graph_vertex_key g1 i = algokit_graph_vertex_key ug i ∧
          g1.vertices[i]? = ug.vertices[i]?) := by
  have hdi := digraph_reachable_inv hc dg hd
  have hui := graph_reachable_inv hc ug hu
  refine ⟨digraph_add_vertex_dup hc a b c dg key hdi, fun hnew => ?_,
    graph_add_vertex_dup hc a b c ug key hui, fun hnew => ?_⟩
  · obtain ⟨g1, h1, -, -, h4, h5, h6, -, h8⟩ := digraph_add_vertex_new hc dg key hdi hnew
    exact ⟨g1, h1, h4, h6, h5, fun i hi => ⟨(h8 i hi).2.1, (h8 i hi).2.2⟩⟩
  · obtain ⟨g1, h1, -, -, h4, h5, h6, -, h8⟩ := graph_add_vertex_new hc ug key hui hnew
    exact ⟨g1, h1, h4, h6, h5, fun i hi => ⟨(h8 i hi).2.1, (h8 i hi).1⟩⟩

theorem graph_vertex_indices_stable_witness :
    (digraph_reachable int_hash int_cmp digraph_test_graph ∧
      graph_reachable int_hash int_cmp graph_test_graph ∧
      algokit_digraph_add_vertex int_hash int_cmp true true true digraph_test_graph 1 =
        some (1, digraph_test_graph) ∧
      (algokit_digraph_add_vertex int_hash int_cmp true true true digraph_test_graph 4).map
        (fun r => (r.1, r.2.vertices)) =
        some (0, [⟨0, [3, 1]⟩, ⟨1, [2]⟩, ⟨2, []⟩, ⟨3, []⟩, ⟨4, []⟩])) ∧
    ((∃ (i : Nat) (k : Int), algokit_digraph_vertex_key digraph_test_graph i = some k ∧
        int_cmp 4 k = 0) →
      algokit_digraph_add_vertex int_hash int_cmp true false true digraph_test_graph 4 =
        some (1, digraph_test_graph)) ∧
    ((∀ (i : Nat) (k : Int), algokit_digraph_vertex_key digraph_test_graph i = some k →
        int_cmp 4 k ≠ 0) →
      ∃ g1, algokit_digraph_add_vertex int_hash int_cmp true true true digraph_test_graph 4 =
          some (0, g1) ∧
        algokit_digraph_vertex_count g1 = algokit_digraph_vertex_count digraph_test_graph + 1 ∧
        algokit_digraph_vertex_key g1 (algokit_digraph_vertex_count digraph_test_graph) =
          some 4 ∧
        (digraph_test_graph.size = digraph_test_graph.capacity →
          g1.capacity = 2 * digraph_test_graph.capacity) ∧
        ∀ i, i < algokit_digraph_vertex_count digraph_test_graph →
          algokit_digraph_vertex_key g1 i = algokit_digraph_vertex_key digraph_test_graph i ∧
          algokit_digraph_adj g1 i = algokit_digraph_adj digraph_test_graph i) ∧
    ((∃ (i : Nat) (k : Int), algokit_graph_vertex_key graph_test_graph i = some k ∧
        int_cmp 4 k = 0) →
      algokit_graph_add_vertex int_hash int_cmp true false true graph_test_graph 4 =
        some (1, graph_test_graph)) ∧
    ((∀ (i : Nat) (k : Int), algokit_graph_vertex_key graph_test_graph i = some k →
        int_cmp 4 k ≠ 0) →
      ∃ g1, algokit_graph_add_vertex int_hash int_cmp true true true graph_test_graph 4 =
          some (0, g1) ∧
        algokit_graph_vertex_count g1 = algokit_graph_vertex_count graph_test_graph + 1 ∧
        algokit_graph_vertex_key g1 (algokit_graph_vertex_count graph_test_graph) = some 4 ∧
        (graph_test_graph.size = graph_test_graph.capacity →
          g1.capacity = 2 * graph_test_graph.capacity) ∧
        ∀ i, i < algokit_graph_vertex_count graph_test_graph →
          algokit_graph_vertex_key g1 i = algokit_graph_vertex_key graph_test_graph i ∧
          g1.vertices[i]? = graph_test_graph.vertices[i]?) :=
  ⟨⟨⟨8, digraph_test_ops, ⟨[], 0, 8, ⟨List.replicate 8 algokit_digraph_map_entry.empty, 8, 0⟩⟩,
        by decide, by decide⟩,
      ⟨8, graph_test_ops, ⟨[], 0, 8, ⟨List.replicate 8 algokit_digraph_map_entry.empty, 8, 0⟩⟩,
        by decide, by decide⟩, by decide, by decide⟩,
    graph_vertex_indices_stable int_hash_cmp true false true 4 digraph_test_graph
      ⟨8, digraph_test_ops, ⟨[], 0, 8, ⟨List.replicate 8 algokit_digraph_map_entry.empty, 8, 0⟩⟩,
        by decide, by decide⟩
      graph_test_graph
      ⟨8, graph_test_ops, ⟨[], 0, 8, ⟨List.replicate 8 algokit_digraph_map_entry.empty, 8, 0⟩⟩,
        by decide, by decide⟩⟩

/-- C28, counterexample: on the directed graph of the test, which has the four
vertices 0 to 3, `add_vertex` of the new key 4 returns 0, while the index
assigned to the new vertex is 4, the vertex count before the call; the same
holds for the undirected graph of the test.  The value returned is a result
code, not the index. -/
theorem graph_add_vertex_returns_code :
    ∃ (g1 : algokit_digraph Int) (u1 : algokit_graph Int Rat),
      algokit_digraph_vertex_count digraph_test_graph = 4 ∧
      algokit_digraph_add_vertex int_hash int_cmp true true true digraph_test_graph 4 =
        some (0, g1) ∧
      algokit_digraph_vertex_key g1 4 = some 4 ∧
      algokit_graph_vertex_count graph_test_graph = 4 ∧
      algokit_graph_add_vertex int_hash int_cmp true true true graph_test_graph 4 =
        some (0, u1) ∧
      algokit_graph_vertex_key u1 4 = some 4 ∧ (0 : Int) ≠ 4 := by
  refine ⟨⟨[⟨0, [3, 1]⟩, ⟨1, [2]⟩, ⟨2, []⟩, ⟨3, []⟩, ⟨4, []⟩], 5, 8,
      ⟨[algokit_digraph_map_entry.occupied 0 0, algokit_digraph_map_entry.occupied 1 1,
        algokit_digraph_map_entry.occupied 2 2, algokit_digraph_map_entry.occupied 3 3,
        algokit_digraph_map_entry.occupied 4 4, algokit_digraph_map_entry.empty,
        algokit_digraph_map_entry.empty, algokit_digraph_map_entry.empty], 8, 5⟩⟩,
    ⟨[⟨0, [⟨1, 2⟩]⟩, ⟨1, [⟨2, 1⟩, ⟨0, 2⟩]⟩, ⟨2, [⟨1, 1⟩]⟩, ⟨3, []⟩, ⟨4, []⟩], 5, 8,
      ⟨[algokit_digraph_map_entry.occupied 0 0, algokit_digraph_map_entry.occupied 1 1,
        algokit_digraph_map_entry.occupied 2 2, algokit_digraph_map_entry.occupied 3 3,
        algokit_digraph_map_entry.occupied 4 4, algokit_digraph_map_entry.empty,
        algokit_digraph_map_entry.empty, algokit_digraph_map_entry.empty], 8, 5⟩⟩,
    by decide, by decide, by decide, by decide, by decide, by decide, by decide⟩

/-- C28, amended: for every directed graph and every undirected graph built
by calls of `add_vertex` and `add_edge`, and every key that compares equal to
no key of a vertex, `add_vertex` with successful allocations returns the
result code 0; the index assigned to the new vertex is the vertex count before
the call: afterwards the lookup of the key in the key map gives that index,
and `vertex_key` of that index is the key. -/
theorem graph_add_vertex_assigns_count (hc : HashCmp hash cmp) (key : K)
    (dg : algokit_digraph K) (hd : digraph_reachable hash cmp dg)
    (ug : algokit_graph K W) (hu : graph_reachable hash cmp ug) :
    ((∀ (i : Nat) (k : K), algokit_digraph_vertex_key dg i = some k → cmp key k ≠ 0) →
      ∃ g1, algokit_digraph_add_vertex hash cmp true true true dg key = some (0, g1) ∧
        algokit_digraph_map_get hash cmp g1.map key =
          some (0, some (algokit_digraph_vertex_count dg)) ∧
        algokit_digraph_vertex_key g1 (algokit_digraph_vertex_count dg) = some key) ∧
    ((∀ (i : Nat) (k : K), algokit_graph_vertex_key ug i = some k → cmp key k ≠ 0) →
      ∃ g1, algokit_graph_add_vertex hash cmp true true true ug key = some (0, g1) ∧
        algokit_graph_map_get hash cmp g1.map key =
          some (0, some (algokit_graph_vertex_count ug)) ∧
        algokit_graph_vertex_key g1 (algokit_graph_vertex_count ug) = some key) := by
  constructor
  · intro hnew
    obtain ⟨g1, h1, -, -, -, -, h6, h7, -⟩ :=
      digraph_add_vertex_new hc dg key (digraph_reachable_inv hc dg hd) hnew
    exact ⟨g1, h1, h7, h6⟩
  · intro hnew
    obtain ⟨g1, h1, -, -, -, -, h6, h7, -⟩ :=
      graph_add_vertex_new hc ug key (graph_reachable_inv hc ug hu) hnew
    exact ⟨g1, h1, h7, h6⟩

theorem graph_add_vertex_assigns_count_witness :
    (digraph_reachable int_hash int_cmp digraph_test_graph ∧
      graph_reachable int_hash int_cmp graph_test_graph) ∧
    ((∀ (i : Nat) (k : Int), algokit_digraph_vertex_key digraph_test_graph i = some k →
        int_cmp 5 k ≠ 0) →
      ∃ g1, algokit_digraph_add_vertex int_hash int_cmp true true true digraph_test_graph 5 =
          some (0, g1) ∧
        algokit_digraph_map_get int_hash int_cmp g1.map 5 =
          some (0, some (algokit_digraph_vertex_count digraph_test_graph)) ∧
        algokit_digraph_vertex_key g1 (algokit_digraph_vertex_count digraph_test_graph) =
          some 5) ∧
    ((∀ (i : Nat) (k : Int), algokit_graph_vertex_key graph_test_graph i = some k →
        int_cmp 5 k ≠ 0) →
      ∃ g1, algokit_graph_add_vertex int_hash int_cmp true true true graph_test_graph 5 =
          some (0, g1) ∧
        algokit_graph_map_get int_hash int_cmp g1.map 5 =
          some (0, some (algokit_graph_vertex_count graph_test_graph)) ∧
        algokit_graph_vertex_key g1 (algokit_graph_vertex_count graph_test_graph) = some 5) :=
  ⟨⟨⟨8, digraph_test_ops, ⟨[], 0, 8, ⟨List.replicate 8 algokit_digraph_map_entry.empty, 8, 0⟩⟩,
        by decide, by decide⟩,
      ⟨8, graph_test_ops, ⟨[], 0, 8, ⟨List.replicate 8 algokit_digraph_map_entry.empty, 8, 0⟩⟩,
        by decide, by decide⟩⟩,
    graph_add_vertex_assigns_count int_hash_cmp 5 digraph_test_graph
      ⟨8, digraph_test_ops, ⟨[], 0, 8, ⟨List.replicate 8 algokit_digraph_map_entry.empty, 8, 0⟩⟩,
        by decide, by decide⟩
      graph_test_graph
      ⟨8, graph_test_ops, ⟨[], 0, 8, ⟨List.replicate 8 algokit_digraph_map_entry.empty, 8, 0⟩⟩,
        by decide, by decide⟩⟩

end vertex_index_claims

/-! ## Depth-first search: the recursion visits the reachable vertices -/

section dfs_lemmas

variable {K : Type}

theorem dfs_marked_room (n : Nat) (visited : List Bool) (order : List Nat) (t : Nat)
    (hm : dfs_marked n visited order) (ht : t < n) (hto : t ∉ order) : order.length < n := by
  have := nodup_lt_length_le (t :: order) n (List.nodup_cons.2 ⟨hto, hm.2.2.2⟩) (by
    intro v hv
    rcases List.mem_cons.1 hv with rfl | hv
    · exact ht
    · exact hm.2.2.1 v hv)
  simpa using this

theorem dfs_marked_push (n : Nat) (visited : List Bool) (order : List Nat) (t : Nat)
    (hm : dfs_marked n visited order) (ht : t < n) (hto : t ∉ order) :
    dfs_marked n (visited.set t true) (order ++ [t]) := by
  obtain ⟨h1, h2, h3, h4⟩ := hm
  refine ⟨by simpa using h1, fun x hx => ?_, fun x hx => ?_, ?_⟩
  · rw [getD_set_bool visited t x true (by rw [h1]; exact ht)]
    by_cases hxt : x = t
    · simp [hxt]
    · rw [if_neg hxt, h2 x hx]
      simp [hxt]
  · rcases List.mem_append.1 hx with hx | hx
    · exact h3 x hx
    · rw [List.mem_singleton.1 hx]; exact ht
  · rw [List.nodup_append]
    refine ⟨h4, List.nodup_singleton t, ?_⟩
    intro a ha hb
    rw [List.mem_singleton.1 hb] at ha
    exact hto ha

/-- The loop over an adjacency list, for a recursive call that meets its
specification: it returns; the vertices it has visited are reached from the
targets of the list, their own targets have all been visited, and so have
the targets of the list. -/
theorem dfs_edges_spec (n : Nat) (adj : Nat → List Nat) (key : Nat → Option K)
    (dfs : Nat → List Bool × List (Option K) → Option (List Bool × List (Option K)))
    (fuel : Nat)
    (hdfs : ∀ (t : Nat) (visited : List Bool) (order : List Nat), dfs_marked n visited order →
      t < n → t ∉ order → n ≤ order.length + fuel →
      ∃ (visited1 : List Bool) (order1 : List Nat),
        dfs t (visited, order.map key) = some (visited1, (order ++ order1).map key) ∧
        dfs_marked n visited1 (order ++ order1) ∧ order1.head? = some t ∧
        (∀ u ∈ order1, Relation.ReflTransGen (fun a b => b ∈ adj a) t u) ∧
        (∀ u ∈ order1, ∀ w ∈ adj u, w ∈ order ++ order1)) :
    ∀ (es : List Nat) (visited : List Bool) (order : List Nat), (∀ w ∈ es, w < n) →
      dfs_marked n visited order → n ≤ order.length + fuel →
      ∃ (visited1 : List Bool) (order1 : List Nat),
        dfs_edges dfs es (visited, order.map key) = some (visited1, (order ++ order1).map key) ∧
        dfs_marked n visited1 (order ++ order1) ∧
        (∀ u ∈ order1, ∃ t ∈ es, Relation.ReflTransGen (fun a b => b ∈ adj a) t u) ∧
        (∀ u ∈ order1, ∀ w ∈ adj u, w ∈ order ++ order1) ∧
        (∀ t ∈ es, t ∈ order ++ order1) := by
  intro es
  induction es with
  | nil =>
    intro visited order _ hm _
    exact ⟨visited, [], by simp [dfs_edges], by simpa using hm, by simp, by simp, by simp⟩
  | cons t es ih =>
    intro visited order hes hm hf
    have htn : t < n := hes t (List.mem_cons_self _ _)
    have hes1 : ∀ w ∈ es, w < n := fun w hw => hes w (List.mem_cons_of_mem _ hw)
    rw [dfs_edges]
    simp only
    by_cases hv : visited.getD t false = false
    · rw [if_pos hv]
      have hto : t ∉ order := by
        intro h
        rw [(hm.2.1 t htn).2 h] at hv
        simp at hv
      obtain ⟨v1, o1, d1, d2, d3, d4, d5⟩ := hdfs t visited order hm htn hto hf
      rw [d1]
      simp only
      obtain ⟨v2, o2, e1, e2, e3, e4, e5⟩ := ih v1 (order ++ o1) hes1 d2
        (by rw [List.length_append]; omega)
      refine ⟨v2, o1 ++ o2, by rw [← List.append_assoc]; exact e1,
        by rw [← List.append_assoc]; exact e2, ?_, ?_, ?_⟩
      · intro u hu
        rcases List.mem_append.1 hu with hu | hu
        · exact ⟨t, List.mem_cons_self _ _, d4 u hu⟩
        · obtain ⟨t', ht', hr⟩ := e3 u hu
          exact ⟨t', List.mem_cons_of_mem _ ht', hr⟩
      · intro u hu w hw
        rw [← List.append_assoc]
        rcases List.mem_append.1 hu with hu | hu
        · exact List.mem_append_left _ (d5 u hu w hw)
        · exact e4 u hu w hw
      · intro t' ht'
        rw [← List.append_assoc]
        rcases List.mem_cons.1 ht' with rfl | ht'
        · apply List.mem_append_left
          apply List.mem_append_right
          cases o1 with
          | nil => simp at d3
          | cons a o1 =>
            simp only [List.head?_cons, Option.some.injEq] at d3
            rw [d3]
            exact List.mem_cons_self _ _
        · exact e5 t' ht'
    · rw [if_neg hv]
      obtain ⟨v2, o2, e1, e2, e3, e4, e5⟩ := ih visited order hes1 hm hf
      refine ⟨v2, o2, e1, e2, ?_, e4, ?_⟩
      · intro u hu
        obtain ⟨t', ht', hr⟩ := e3 u hu
        exact ⟨t', List.mem_cons_of_mem _ ht', hr⟩
      · intro t' ht'
        rcases List.mem_cons.1 ht' with rfl | ht'
        · apply List.mem_append_left
          apply (hm.2.1 t' htn).1
          cases hb : visited.getD t' false with
          | true => rfl
          | false => exact absurd hb hv
        · exact e5 t' ht'

/-- The function `dfs_visit` from an unmarked vertex, with a depth bound that leaves
room for the unmarked vertices: it returns; it visits `v` first, every vertex
it visits is reached from `v`, and the targets of every vertex it has visited
have been visited. -/
theorem dfs_visit_spec (n : Nat) (adj : Nat → List Nat) (key : Nat → Option K)
    (hadj : ∀ u w, w ∈ adj u → w < n) :
    ∀ (fuel : Nat) (t : Nat) (visited : List Bool) (order : List Nat),
      dfs_marked n visited order → t < n → t ∉ order → n ≤ order.length + fuel →
      ∃ (visited1 : List Bool) (order1 : List Nat),
        dfs_visit adj key fuel t (visited, order.map key) =
          some (visited1, (order ++ order1).map key) ∧
        dfs_marked n visited1 (order ++ order1) ∧ order1.head? = some t ∧
        (∀ u ∈ order1, Relation.ReflTransGen (fun a b => b ∈ adj a) t u) ∧
        (∀ u ∈ order1, ∀ w ∈ adj u, w ∈ order ++ order1) := by
  intro fuel
  induction fuel with
  | zero =>
    intro t visited order hm ht hto hf
    have := dfs_marked_room n visited order t hm ht hto
    omega
  | succ fuel ih =>
    intro t visited order hm ht hto hf
    have hm1 := dfs_marked_push n visited order t hm ht hto
    obtain ⟨v2, o2, e1, e2, e3, e4, e5⟩ := dfs_edges_spec n adj key (dfs_visit adj key fuel)
      fuel ih (adj t) (visited.set t true) (order ++ [t]) (fun w hw => hadj t w hw) hm1
      (by rw [List.length_append, List.length_singleton]; omega)
    refine ⟨v2, t :: o2, ?_, ?_, rfl, ?_, ?_⟩
    · rw [dfs_visit]
      simp only
      rw [show order.map key ++ [key t] = (order ++ [t]).map key by simp, e1]
      simp
    · rw [show order ++ t :: o2 = order ++ [t] ++ o2 by simp]
      exact e2
    · intro u hu
      rcases List.mem_cons.1 hu with rfl | hu
      · exact Relation.ReflTransGen.refl
      · obtain ⟨t', ht', hr⟩ := e3 u hu
        exact Relation.ReflTransGen.head ht' hr
    · intro u hu w hw
      rw [show order ++ t :: o2 = order ++ [t] ++ o2 by simp]
      rcases List.mem_cons.1 hu with rfl | hu
      · exact e5 w hw
      · exact e4 u hu w hw

/-- The search from `start` over `n` unmarked vertices: it returns, and the
vertices it visits are those reached from `start`, each once, `start`
first. -/
theorem dfs_from_start (n : Nat) (adj : Nat → List Nat) (key : Nat → Option K)
    (hadj : ∀ u w, w ∈ adj u → w < n) (start : Nat) (hs : start < n) :
    ∃ (visited1 : List Bool) (order : List Nat),
      dfs_visit adj key (n + 1) start (List.replicate n false, []) =
        some (visited1, order.map key) ∧
      order.Nodup ∧ order.head? = some start ∧ (∀ v ∈ order, v < n) ∧
      ∀ v, v ∈ order ↔ Relation.ReflTransGen (fun a b => b ∈ adj a) start v := by
  have hm0 : dfs_marked n (List.replicate n false) [] := by
    refine ⟨by simp, fun x hx => ?_, by simp, List.nodup_nil⟩
    simp [List.getD_eq_getElem?_getD, List.getElem?_replicate, hx]
  obtain ⟨v1, o1, e1, e2, e3, e4, e5⟩ := dfs_visit_spec n adj key hadj (n + 1) start
    (List.replicate n false) [] hm0 hs (by simp) (by simp)
  simp only [List.nil_append, List.map_nil] at e1 e2 e5
  refine ⟨v1, o1, e1, e2.2.2.2, e3, e2.2.2.1, fun v => ⟨e4 v, fun hr => ?_⟩⟩
  induction hr with
  | refl =>
    cases o1 with
    | nil => simp at e3
    | cons a o1 =>
      simp only [List.head?_cons, Option.some.injEq] at e3
      rw [e3]
      exact List.mem_cons_self _ _
  | tail _ hbc ih => exact e5 _ ih _ hbc

end dfs_lemmas

/-! ## Depth-first search: the property of the two functions -/

section dfs_claims

variable {K W : Type}

/-- C21: depth-first search visits exactly the reachable set.  For a directed
graph `g` and an undirected graph `ug` built by `add_vertex` and `add_edge`
(cycles, self-loops and parallel edges included), and a start key each: the
lookup of the start key in the key map returns.  If it returns 0 with the
index `start` (the key is registered), then the recursive
`algokit_digraph_dfs` (`algokit_graph_dfs`) returns with the result 0, and the
keys it passes to `visit` are the keys of a list of vertices without
repetition that begins with `start` and holds exactly the vertices reachable
from `start` along the adjacency lists, each of which has a key.  If the
lookup returns another code, the function returns 1 and `visit` is never
called. -/
theorem graph_dfs_visits_reachable (hash : K → Nat) (cmp : K → K → Int)
    (g : algokit_digraph K) (ug : algokit_graph K W) (hg : digraph_reachable hash cmp g)
    (hug : graph_reachable hash cmp ug) (start_key ustart_key : K) :
    (∃ (rc : Int) (out : Option Nat),
      algokit_digraph_map_get hash cmp g.map start_key = some (rc, out) ∧
      (rc = 0 → ∃ (start : Nat) (order : List Nat), out = some start ∧
        algokit_digraph_dfs hash cmp true g start_key =
          some (0, order.map (algokit_digraph_vertex_key g)) ∧
        order.Nodup ∧ order.head? = some start ∧
        (∀ v, v ∈ order ↔ Relation.ReflTransGen (digraph_edge g) start v) ∧
        ∀ v ∈ order, ∃ k, algokit_digraph_vertex_key g v = some k) ∧
      (rc ≠ 0 → algokit_digraph_dfs hash cmp true g start_key = some (1, []))) ∧
    (∃ (urc : Int) (uout : Option Nat),
      algokit_graph_map_get hash cmp ug.map ustart_key = some (urc, uout) ∧
      (urc = 0 → ∃ (start : Nat) (order : List Nat), uout = some start ∧
        algokit_graph_dfs hash cmp true ug ustart_key =
          some (0, order.map (algokit_graph_vertex_key ug)) ∧
        order.Nodup ∧ order.head? = some start ∧
        (∀ v, v ∈ order ↔ Relation.ReflTransGen (graph_edge ug) start v) ∧
        ∀ v ∈ order, ∃ k, algokit_graph_vertex_key ug v = some k) ∧
      (urc ≠ 0 → algokit_graph_dfs hash cmp true ug ustart_key = some (1, []))) := by
  obtain ⟨hwf, hmap, -⟩ := digraph_reachable_ok hash cmp g hg
  obtain ⟨huwf, humap, -⟩ := graph_reachable_ok hash cmp ug hug
  obtain ⟨rc, out, hget⟩ := map_get_total hash cmp g.map g.size hmap start_key
  obtain ⟨urc, uout, huget0⟩ := map_get_total hash cmp ug.map ug.size humap ustart_key
  have huget : algokit_graph_map_get hash cmp ug.map ustart_key = some (urc, uout) := huget0
  refine ⟨⟨rc, out, hget, ?_, ?_⟩, ⟨urc, uout, huget, ?_, ?_⟩⟩
  · intro hrc
    subst hrc
    rcases map_get_codes hash cmp g.map start_key 0 out hget with ⟨-, start, rfl⟩ | ⟨h, -⟩
    · obtain ⟨k, hk⟩ := map_get_mem hash cmp g.map start_key 0 start hget
      have hs : start < g.size := index_below_lt _ k start (hwf.2.2 _ hk)
      obtain ⟨v1, order, o1, o2, o3, o4, o5⟩ := dfs_from_start g.size (algokit_digraph_adj g)
        (algokit_digraph_vertex_key g) (digraph_adj_lt g hwf) start hs
      refine ⟨start, order, rfl, ?_, o2, o3, o5, ?_⟩
      · unfold algokit_digraph_dfs
        rw [hget]
        simp only [ne_eq, not_true_eq_false, if_false, Bool.true_eq_false, Option.getD_some]
        rw [o1]
      · intro v hv
        exact digraph_vertex_key_some g hwf v (o4 v hv)
    · exact absurd h (by decide)
  · intro hrc
    unfold algokit_digraph_dfs
    rw [hget]
    simp only [hrc, ne_eq, not_false_eq_true, if_true]
  · intro hrc
    subst hrc
    rcases map_get_codes hash cmp ug.map ustart_key 0 uout huget0 with ⟨-, start, rfl⟩ | ⟨h, -⟩
    · obtain ⟨k, hk⟩ := map_get_mem hash cmp ug.map ustart_key 0 start huget0
      have hs : start < ug.size := index_below_lt _ k start (huwf.2.2 _ hk)
      obtain ⟨v1, order, o1, o2, o3, o4, o5⟩ := dfs_from_start ug.size (algokit_graph_adj ug)
        (algokit_graph_vertex_key ug) (graph_adj_lt ug huwf) start hs
      refine ⟨start, order, rfl, ?_, o2, o3, o5, ?_⟩
      · unfold algokit_graph_dfs
        rw [huget]
        simp only [ne_eq, not_true_eq_false, if_false, Bool.true_eq_false, Option.getD_some]
        rw [o1]
      · intro v hv
        exact graph_vertex_key_some ug huwf v (o4 v hv)
    · exact absurd h (by decide)
  · intro hrc
    unfold algokit_graph_dfs
    rw [huget]
    simp only [hrc, ne_eq, not_false_eq_true, if_true]

theorem graph_dfs_visits_reachable_witness :
    (digraph_reachable int_hash int_cmp digraph_test_cycle ∧
      graph_reachable int_hash int_cmp graph_test_graph ∧
      algokit_digraph_dfs int_hash int_cmp true digraph_test_cycle 1 =
        some (0, [some 1, some 2, some 0, some 3]) ∧
      algokit_graph_dfs int_hash int_cmp true graph_test_graph 2 =
        some (0, [some 2, some 1, some 0]) ∧
      algokit_graph_dfs int_hash int_cmp true graph_test_graph 7 = some (1, [])) ∧
    (∃ (rc : Int) (out : Option Nat),
      algokit_digraph_map_get int_hash int_cmp digraph_test_cycle.map 1 = some (rc, out) ∧
      (rc = 0 → ∃ (start : Nat) (order : List Nat), out = some start ∧
        algokit_digraph_dfs int_hash int_cmp true digraph_test_cycle 1 =
          some (0, order.map (algokit_digraph_vertex_key digraph_test_cycle)) ∧
        order.Nodup ∧ order.head? = some start ∧
        (∀ v, v ∈ order ↔ Relation.ReflTransGen (digraph_edge digraph_test_cycle) start v) ∧
        ∀ v ∈ order, ∃ k, algokit_digraph_vertex_key digraph_test_cycle v = some k) ∧
      (rc ≠ 0 →
        algokit_digraph_dfs int_hash int_cmp true digraph_test_cycle 1 = some (1, []))) ∧
    (∃ (urc : Int) (uout : Option Nat),
      algokit_graph_map_get int_hash int_cmp graph_test_graph.map 2 = some (urc, uout) ∧
      (urc = 0 → ∃ (start : Nat) (order : List Nat), uout = some start ∧
        algokit_graph_dfs int_hash int_cmp true graph_test_graph 2 =
          some (0, order.map (algokit_graph_vertex_key graph_test_graph)) ∧
        order.Nodup ∧ order.head? = some start ∧
        (∀ v, v ∈ order ↔ Relation.ReflTransGen (graph_edge graph_test_graph) start v) ∧
        ∀ v ∈ order, ∃ k, algokit_graph_vertex_key graph_test_graph v = some k) ∧
      (urc ≠ 0 →
        algokit_graph_dfs int_hash int_cmp true graph_test_graph 2 = some (1, []))) :=
  ⟨⟨⟨8, digraph_test_ops ++ [digraph_op.add_edge true 2 0],
        ⟨[], 0, 8, ⟨List.replicate 8 algokit_digraph_map_entry.empty, 8, 0⟩⟩, by decide,
        by decide⟩,
      ⟨8, graph_test_ops, ⟨[], 0, 8, ⟨List.replicate 8 algokit_digraph_map_entry.empty, 8, 0⟩⟩,
        by decide, by decide⟩, by decide, by decide, by decide⟩,
    graph_dfs_visits_reachable int_hash int_cmp digraph_test_cycle graph_test_graph
      ⟨8, digraph_test_ops ++ [digraph_op.add_edge true 2 0],
        ⟨[], 0, 8, ⟨List.replicate 8 algokit_digraph_map_entry.empty, 8, 0⟩⟩, by decide,
        by decide⟩
      ⟨8, graph_test_ops, ⟨[], 0, 8, ⟨List.replicate 8 algokit_digraph_map_entry.empty, 8, 0⟩⟩,
        by decide, by decide⟩ 1 2⟩

end dfs_claims

/-! ## Depth-first search: the order of the visits -/

section dfs_order_lemmas

variable {K : Type}

theorem digraph_adj_modify (vs : List (algokit_digraph_vertex K)) (s c : Nat)
    (m : algokit_digraph_map K) (f t v : Nat) :
    algokit_digraph_adj ⟨vs.modify (fun vx => ⟨vx.key, t :: vx.adj⟩) f, s, c, m⟩ v =
      if v = f ∧ f < vs.length then t :: algokit_digraph_adj ⟨vs, s, c, m⟩ v
      else algokit_digraph_adj ⟨vs, s, c, m⟩ v := by
  unfold algokit_digraph_adj
  simp only [List.get?_eq_getElem?, List.getElem?_modify]
  by_cases hv : v < vs.length
  · rw [List.getElem?_eq_getElem hv]
    by_cases hf : f = v
    · subst hf
      simp [hv]
    · have : ¬ (v = f ∧ f < vs.length) := fun h => hf h.1.symm
      simp [hf, this]
  · rw [List.getElem?_eq_none (by omega)]
    have : ¬ (v = f ∧ f < vs.length) := fun h => hv (by rw [h.1]; exact h.2)
    simp [this]

theorem digraph_vertex_key_congr (g g1 : algokit_digraph K) (hs : g1.size = g.size)
    (hk : g1.vertices.map (fun vx => vx.key) = g.vertices.map (fun vx => vx.key)) (v : Nat) :
    algokit_digraph_vertex_key g1 v = algokit_digraph_vertex_key g v := by
  unfold algokit_digraph_vertex_key
  rw [hs]
  split_ifs
  · rfl
  · rw [List.get?_eq_getElem?, List.get?_eq_getElem?, ← List.getElem?_map, ← List.getElem?_map,
      hk]

/-- Calls of `add_edge` from the key `s` to registered keys, in the order of
the list: each returns 0 and puts the index of its target at the head of the
adjacency list of `s`; nothing else changes. -/
theorem digraph_add_edges_run (hash : K → Nat) (cmp : K → K → Int) (s : K) (si : Nat)
    (m : algokit_digraph_map K)
    (hs : algokit_digraph_map_get hash cmp m s = some (0, some si)) :
    ∀ (targets : List K) (idxs : List Nat),
      List.Forall₂ (fun a i => algokit_digraph_map_get hash cmp m a = some (0, some i))
        targets idxs →
      ∀ (g0 : algokit_digraph K), g0.map = m → si < g0.vertices.length →
      ∃ g, digraph_run hash cmp g0 (targets.map (fun a => digraph_op.add_edge true s a)) =
          some g ∧
        g.map = g0.map ∧ g.size = g0.size ∧
        g.vertices.map (fun vx => vx.key) = g0.vertices.map (fun vx => vx.key) ∧
        algokit_digraph_adj g si = idxs.reverse ++ algokit_digraph_adj g0 si ∧
        ∀ v, v ≠ si → algokit_digraph_adj g v = algokit_digraph_adj g0 v := by
  intro targets idxs hall
  induction hall with
  | nil => intro g0 _ _; exact ⟨g0, rfl, rfl, rfl, rfl, by simp, fun _ _ => rfl⟩
  | @cons a i targets idxs ha hrest ih =>
    intro g0 hm hsi
    have hstep : digraph_step hash cmp g0 (digraph_op.add_edge true s a) =
        some ⟨g0.vertices.modify (fun vx => ⟨vx.key, i :: vx.adj⟩) si, g0.size, g0.capacity,
          g0.map⟩ := by
      simp [digraph_step, algokit_digraph_add_edge, hm, hs, ha]
    obtain ⟨g, r1, r2, r3, r4, r5, r6⟩ := ih
      ⟨g0.vertices.modify (fun vx => ⟨vx.key, i :: vx.adj⟩) si, g0.size, g0.capacity, g0.map⟩
      hm (by simpa using hsi)
    refine ⟨g, ?_, r2, r3, ?_, ?_, ?_⟩
    · simp only [List.map_cons, digraph_run, hstep]
      exact r1
    · rw [r4]
      exact list_map_modify (fun vx : algokit_digraph_vertex K => vx.key)
        (fun vx => ⟨vx.key, i :: vx.adj⟩) (fun _ => rfl) _ _
    · rw [r5, digraph_adj_modify, if_pos ⟨rfl, hsi⟩]
      simp
    · intro v hv
      rw [r6 v hv, digraph_adj_modify, if_neg (fun h => hv h.1)]

/-- The loop over an adjacency list of different unmarked vertices without
outgoing edges visits them in the order of the list. -/
theorem dfs_edges_leaves (adj : Nat → List Nat) (key : Nat → Option K) (fuel : Nat) :
    ∀ (es : List Nat) (visited : List Bool) (visits : List (Option K)), es.Nodup →
      (∀ e ∈ es, e < visited.length ∧ visited.getD e false = false ∧ adj e = []) →
      ∃ visited1, dfs_edges (dfs_visit adj key (fuel + 1)) es (visited, visits) =
        some (visited1, visits ++ es.map key) := by
  intro es
  induction es with
  | nil => intro visited visits _ _; exact ⟨visited, by simp [dfs_edges]⟩
  | cons e es ih =>
    intro visited visits hnd hall
    obtain ⟨h1, h2, h3⟩ := hall e (List.mem_cons_self _ _)
    rw [List.nodup_cons] at hnd
    obtain ⟨v1, hv1⟩ := ih (visited.set e true) (visits ++ [key e]) hnd.2 (by
      intro e' he'
      obtain ⟨k1, k2, k3⟩ := hall e' (List.mem_cons_of_mem _ he')
      refine ⟨by simpa using k1, ?_, k3⟩
      rw [getD_set_bool visited e e' true h1, if_neg (fun h : e' = e => hnd.1 (h ▸ he'))]
      exact k2)
    refine ⟨v1, ?_⟩
    rw [dfs_edges]
    simp only
    rw [if_pos h2, dfs_visit]
    simp only [h3, dfs_edges]
    rw [hv1]
    simp

end dfs_order_lemmas

section dfs_order_support

variable {K : Type}

theorem forall₂_exists_left {α β : Type} (R : α → β → Prop) (l1 : List α) (l2 : List β)
    (h : List.Forall₂ R l1 l2) : ∀ b ∈ l2, ∃ a ∈ l1, R a b := by
  induction h with
  | nil => intro b hb; simp at hb
  | @cons a b l1 l2 hab _ ih =>
    intro b' hb'
    rcases List.mem_cons.1 hb' with rfl | hb'
    · exact ⟨a, List.mem_cons_self _ _, hab⟩
    · obtain ⟨a', ha', hr⟩ := ih b' hb'
      exact ⟨a', List.mem_cons_of_mem _ ha', hr⟩

theorem digraph_run_append (hash : K → Nat) (cmp : K → K → Int) :
    ∀ (ops1 ops2 : List (digraph_op K)) (g0 g1 : algokit_digraph K),
      digraph_run hash cmp g0 ops1 = some g1 →
      digraph_run hash cmp g0 (ops1 ++ ops2) = digraph_run hash cmp g1 ops2 := by
  intro ops1
  induction ops1 with
  | nil =>
    intro ops2 g0 g1 h
    simp only [digraph_run, Option.some.injEq] at h
    rw [List.nil_append, h]
  | cons op ops ih =>
    intro ops2 g0 g1 h
    rw [List.cons_append, digraph_run]
    rw [digraph_run] at h
    cases hstep : digraph_step hash cmp g0 op with
    | none =>
      rw [hstep] at h
      simp at h
    | some g =>
      rw [hstep] at h
      simp only at h ⊢
      exact ih ops2 g g1 h

/-- On a graph in which the adjacency list of the vertex `si` of the key `s`
lists different vertices without outgoing edges, `algokit_digraph_dfs` from `s`
visits `si` and then the vertices of the list, in the order of the list. -/
theorem digraph_dfs_star (hash : K → Nat) (cmp : K → K → Int) (g : algokit_digraph K)
    (hwf : digraph_wf g) (s : K) (si : Nat)
    (hs : algokit_digraph_map_get hash cmp g.map s = some (0, some si)) (idxs : List Nat)
    (hnd : idxs.Nodup) (hadj : algokit_digraph_adj g si = idxs.reverse)
    (hleaf : ∀ i ∈ idxs, i ≠ si ∧ algokit_digraph_adj g i = []) :
    algokit_digraph_dfs hash cmp true g s =
      some (0, (si :: idxs.reverse).map (algokit_digraph_vertex_key g)) := by
  obtain ⟨k, hk⟩ := map_get_mem hash cmp g.map s 0 si hs
  have hsi : si < g.size := index_below_lt _ k si (hwf.2.2 _ hk)
  have hidx : ∀ i ∈ idxs, i < g.size := by
    intro i hi
    apply digraph_adj_lt g hwf si i
    rw [hadj]
    exact List.mem_reverse.2 hi
  obtain ⟨n, hn⟩ : ∃ n, g.size = n + 1 := ⟨g.size - 1, by omega⟩
  obtain ⟨v1, hv1⟩ := dfs_edges_leaves (algokit_digraph_adj g) (algokit_digraph_vertex_key g)
    n idxs.reverse ((List.replicate (n + 1) false).set si true)
    [algokit_digraph_vertex_key g si] (List.nodup_reverse.2 hnd) (by
      intro e he
      have he' := List.mem_reverse.1 he
      have hlt : e < n + 1 := by rw [← hn]; exact hidx e he'
      refine ⟨by simpa using hlt, ?_, (hleaf e he').2⟩
      rw [getD_set_bool _ si e true (by simp; omega), if_neg (hleaf e he').1]
      simp [List.getD_eq_getElem?_getD, List.getElem?_replicate, hlt])
  unfold algokit_digraph_dfs
  rw [hs]
  simp only [ne_eq, not_true_eq_false, if_false, Bool.true_eq_false, Option.getD_some]
  rw [dfs_visit, hadj, hn]
  simp only [List.nil_append]
  rw [hv1]
  simp

end dfs_order_support

section dfs_order_claims

variable {K : Type}

/-- C22: depth-first search follows the adjacency lists in reverse
edge-insertion order.  For a directed graph built by `add_vertex` and
`add_edge` in which no edge leaves the vertex of the key `s`, and registered
keys `a1, ..., ak` of pairwise different vertices other than that of `s`
without outgoing edges: the calls `add_edge(s, a1)`, ..., `add_edge(s, ak)`
return, each puts its target at the head of the adjacency list of `s`, which
then lists the vertices of `ak, ..., a1`, and `algokit_digraph_dfs` from `s`
returns 0 and passes to `visit` the keys of the vertices of
`s, ak, ..., a2, a1`, in exactly this order.  The same visit order results on
every graph built by `add_vertex` and `add_edge`, whatever other calls were
made in between, on which the adjacency list of `s` is `ak, ..., a1` and these
vertices have no outgoing edges. -/
theorem digraph_dfs_reverse_insertion_order (hash : K → Nat) (cmp : K → K → Int)
    (g0 : algokit_digraph K) (hg0 : digraph_reachable hash cmp g0) (s : K) (si : Nat)
    (targets : List K) (idxs : List Nat)
    (hs : algokit_digraph_map_get hash cmp g0.map s = some (0, some si))
    (htargets : List.Forall₂
      (fun a i => algokit_digraph_map_get hash cmp g0.map a = some (0, some i)) targets idxs)
    (hnd : idxs.Nodup) (h0 : algokit_digraph_adj g0 si = [])
    (hleaf : ∀ i ∈ idxs, i ≠ si ∧ algokit_digraph_adj g0 i = []) :
    ∃ g, digraph_run hash cmp g0 (targets.map (fun a => digraph_op.add_edge true s a)) =
        some g ∧
      algokit_digraph_adj g si = idxs.reverse ∧
      (∀ i ∈ idxs, algokit_digraph_adj g i = []) ∧
      algokit_digraph_dfs hash cmp true g s =
        some (0, (si :: idxs.reverse).map (algokit_digraph_vertex_key g)) ∧
      ∀ g1, digraph_reachable hash cmp g1 →
        algokit_digraph_map_get hash cmp g1.map s = some (0, some si) →
        algokit_digraph_adj g1 si = idxs.reverse →
        (∀ i ∈ idxs, algokit_digraph_adj g1 i = []) →
        algokit_digraph_dfs hash cmp true g1 s =
          some (0, (si :: idxs.reverse).map (algokit_digraph_vertex_key g1)) := by
  obtain ⟨hwf, -, -⟩ := digraph_reachable_ok hash cmp g0 hg0
  obtain ⟨k, hk⟩ := map_get_mem hash cmp g0.map s 0 si hs
  have hsi : si < g0.size := index_below_lt _ k si (hwf.2.2 _ hk)
  have hidx : ∀ i ∈ idxs, i < g0.size := by
    intro i hi
    obtain ⟨a, -, ha⟩ := forall₂_exists_left _ targets idxs htargets i hi
    obtain ⟨k', hk'⟩ := map_get_mem hash cmp g0.map a 0 i ha
    exact index_below_lt _ k' i (hwf.2.2 _ hk')
  obtain ⟨g, r1, r2, r3, r4, r5, r6⟩ := digraph_add_edges_run hash cmp s si g0.map hs targets
    idxs htargets g0 rfl (by rw [hwf.1]; exact hsi)
  rw [h0, List.append_nil] at r5
  have hleaf1 : ∀ i ∈ idxs, algokit_digraph_adj g i = [] := fun i hi => by
    rw [r6 i (hleaf i hi).1]; exact (hleaf i hi).2
  have hgr : digraph_reachable hash cmp g := by
    obtain ⟨capacity, ops, gc, hc, hrun⟩ := hg0
    exact ⟨capacity, ops ++ targets.map (fun a => digraph_op.add_edge true s a), gc, hc, by
      rw [digraph_run_append hash cmp ops _ gc g0 hrun]
      exact r1⟩
  obtain ⟨hwfg, -, -⟩ := digraph_reachable_ok hash cmp g hgr
  refine ⟨g, r1, r5, hleaf1, ?_, ?_⟩
  · exact digraph_dfs_star hash cmp g hwfg s si (by rw [r2]; exact hs) idxs hnd r5
      (fun i hi => ⟨(hleaf i hi).1, hleaf1 i hi⟩)
  · intro g1 hg1 hs1 hadj1 hleafs1
    obtain ⟨hwf1, -, -⟩ := digraph_reachable_ok hash cmp g1 hg1
    exact digraph_dfs_star hash cmp g1 hwf1 s si hs1 idxs hnd hadj1
      (fun i hi => ⟨(hleaf i hi).1, hleafs1 i hi⟩)

theorem digraph_dfs_reverse_insertion_order_witness :
    (digraph_reachable int_hash int_cmp digraph_test_vertices ∧
      algokit_digraph_dfs int_hash int_cmp true digraph_test_graph 0 =
        some (0, [some 0, some 3, some 1, some 2])) ∧
    ∃ g, digraph_run int_hash int_cmp digraph_test_vertices
        ([1, 3].map (fun a => digraph_op.add_edge true 0 a)) = some g ∧
      algokit_digraph_adj g 0 = [1, 3].reverse ∧
      (∀ i ∈ [1, 3], algokit_digraph_adj g i = []) ∧
      algokit_digraph_dfs int_hash int_cmp true g 0 =
        some (0, (0 :: [1, 3].reverse).map (algokit_digraph_vertex_key g)) ∧
      ∀ g1, digraph_reachable int_hash int_cmp g1 →
        algokit_digraph_map_get int_hash int_cmp g1.map 0 = some (0, some 0) →
        algokit_digraph_adj g1 0 = [1, 3].reverse →
        (∀ i ∈ [1, 3], algokit_digraph_adj g1 i = []) →
        algokit_digraph_dfs int_hash int_cmp true g1 0 =
          some (0, (0 :: [1, 3].reverse).map (algokit_digraph_vertex_key g1)) :=
  ⟨⟨⟨8, [digraph_op.add_vertex true true true 0, digraph_op.add_vertex true true true 1,
        digraph_op.add_vertex true true true 2, digraph_op.add_vertex true true true 3],
      ⟨[], 0, 8, ⟨List.replicate 8 algokit_digraph_map_entry.empty, 8, 0⟩⟩, by decide,
      by decide⟩, by decide⟩,
    digraph_dfs_reverse_insertion_order int_hash int_cmp digraph_test_vertices
      ⟨8, [digraph_op.add_vertex true true true 0, digraph_op.add_vertex true true true 1,
        digraph_op.add_vertex true true true 2, digraph_op.add_vertex true true true 3],
      ⟨[], 0, 8, ⟨List.replicate 8 algokit_digraph_map_entry.empty, 8, 0⟩⟩, by decide,
      by decide⟩ 0 0 [1, 3] [1, 3] (by decide)
      (List.Forall₂.cons (by decide) (List.Forall₂.cons (by decide) List.Forall₂.nil))
      (by decide) (by decide) (by decide)⟩

end dfs_order_claims

/-! ## Undirected graph: the adjacency lists are symmetric -/

section graph_symm_lemmas

variable {K W : Type}

theorem graph_adj_eq_edges (g : algokit_graph K W) (v : Nat) :
    algokit_graph_adj g v = (algokit_graph_edges g v).map (fun e => e.target) := by
  unfold algokit_graph_adj algokit_graph_edges
  cases g.vertices.get? v <;> rfl

theorem graph_edges_modify (vs : List (algokit_graph_vertex K W)) (s c : Nat)
    (m : algokit_graph_map K) (f : Nat) (e : algokit_graph_edge W) (v : Nat) :
    algokit_graph_edges ⟨vs.modify (fun vx => ⟨vx.key, e :: vx.adj⟩) f, s, c, m⟩ v =
      if v = f ∧ f < vs.length then e :: algokit_graph_edges ⟨vs, s, c, m⟩ v
      else algokit_graph_edges ⟨vs, s, c, m⟩ v := by
  unfold algokit_graph_edges
  simp only [List.get?_eq_getElem?, List.getElem?_modify]
  by_cases hv : v < vs.length
  · rw [List.getElem?_eq_getElem hv]
    by_cases hf : f = v
    · subst hf
      simp [hv]
    · have : ¬ (v = f ∧ f < vs.length) := fun h => hf h.1.symm
      simp [hf, this]
  · rw [List.getElem?_eq_none (by omega)]
    have : ¬ (v = f ∧ f < vs.length) := fun h => hv (by rw [h.1]; exact h.2)
    simp [this]

theorem graph_edges_append (vs : List (algokit_graph_vertex K W)) (s s1 c c1 : Nat)
    (m m1 : algokit_graph_map K) (key : K) (v : Nat) :
    algokit_graph_edges ⟨vs ++ [⟨key, []⟩], s1, c1, m1⟩ v = algokit_graph_edges ⟨vs, s, c, m⟩ v := by
  unfold algokit_graph_edges
  simp only [List.get?_eq_getElem?]
  by_cases hv : v < vs.length
  · rw [List.getElem?_append_left hv]
  · rw [List.getElem?_append_right (by omega), List.getElem?_eq_none (l := vs) (by omega)]
    by_cases h0 : v - vs.length = 0
    · rw [h0]; rfl
    · rw [List.getElem?_eq_none (by simp; omega)]

/-- The edges of the graph after `algokit_graph_add_edge` has returned 0 for the
vertices `u` and `v`: one entry more on the list of `u`, then one more on the
list of `v`. -/
theorem graph_edges_add_edge (vs : List (algokit_graph_vertex K W)) (s c : Nat)
    (m : algokit_graph_map K) (u v : Nat) (w : W) (hu : u < vs.length) (hv : v < vs.length)
    (x : Nat) :
    algokit_graph_edges ⟨(vs.modify (fun vx => ⟨vx.key, ⟨v, w⟩ :: vx.adj⟩) u).modify
        (fun vx => ⟨vx.key, ⟨u, w⟩ :: vx.adj⟩) v, s, c, m⟩ x =
      (if x = v then [(⟨u, w⟩ : algokit_graph_edge W)] else []) ++
        ((if x = u then [(⟨v, w⟩ : algokit_graph_edge W)] else []) ++
          algokit_graph_edges ⟨vs, s, c, m⟩ x) := by
  rw [graph_edges_modify, graph_edges_modify]
  simp only [List.length_modify, hu, hv, and_true]
  by_cases h1 : x = v
  · subst h1
    by_cases h2 : x = u
    · subst h2; simp
    · simp [h2]
  · by_cases h2 : x = u
    · subst h2
      have h3 : ¬ v = x := fun h => h1 h.symm
      simp [h1, h3]
    · simp [h1, h2]

/-- A call of `algokit_graph_add_vertex` that returns leaves the vertex array as it is or
appends the new vertex with an empty adjacency list. -/
theorem graph_add_vertex_vertices (hash : K → Nat) (cmp : K → K → Int) (a b c : Bool)
    (g : algokit_graph K W) (key : K) (rc : Int) (g1 : algokit_graph K W)
    (hr : algokit_graph_add_vertex hash cmp a b c g key = some (rc, g1)) :
    g1.vertices = g.vertices ∨ g1.vertices = g.vertices ++ [⟨key, []⟩] := by
  have htail : ∀ (rc1 : Int) (g2 : algokit_graph K W), g2.vertices = g.vertices →
      (if rc1 ≠ 0 then some ((-1 : Int), g2)
        else
          match algokit_digraph_map_put hash cmp c g2.map key g2.size with
          | none => none
          | some (rc2, m) =>
            if rc2 ≠ 0 then some (-1, ⟨g2.vertices, g2.size, g2.capacity, m⟩)
            else some (0, ⟨g2.vertices ++ [⟨key, []⟩], g2.size + 1, g2.capacity, m⟩)) =
        some (rc, g1) →
      g1.vertices = g.vertices ∨ g1.vertices = g.vertices ++ [⟨key, []⟩] := by
    intro rc1 g2 hv h
    split_ifs at h with h1
    · simp only [Option.some.injEq, Prod.mk.injEq] at h
      rw [← h.2]; exact Or.inl hv
    · cases hput : algokit_digraph_map_put hash cmp c g2.map key g2.size with
      | none => rw [hput] at h; simp at h
      | some r2 =>
        obtain ⟨rc2, m2⟩ := r2
        rw [hput] at h
        simp only at h
        split_ifs at h with h2
        · simp only [Option.some.injEq, Prod.mk.injEq] at h
          rw [← h.2]; exact Or.inl hv
        · simp only [Option.some.injEq, Prod.mk.injEq] at h
          rw [← h.2, ← hv]; exact Or.inr rfl
  unfold algokit_graph_add_vertex at hr
  cases hget : algokit_graph_map_get hash cmp g.map key with
  | none => rw [hget] at hr; simp at hr
  | some r0 =>
    obtain ⟨rc0, out0⟩ := r0
    rw [hget] at hr
    simp only at hr
    split_ifs at hr with h1 h2 h3
    · simp only [Option.some.injEq, Prod.mk.injEq] at hr
      rw [← hr.2]; exact Or.inl rfl
    · exact htail (-1) g rfl hr
    · cases hres : algokit_digraph_map_resize hash b g.map (g.capacity * 2) with
      | none => rw [hres] at hr; simp at hr
      | some r1 =>
        obtain ⟨rc1, m1⟩ := r1
        rw [hres] at hr
        exact htail rc1 ⟨g.vertices, g.size, g.capacity * 2, m1⟩ rfl hr
    · exact htail 0 g rfl hr

theorem graph_step_symm (hash : K → Nat) (cmp : K → K → Int)
    (g g1 : algokit_graph K W) (op : graph_op K W) (hwf : graph_wf g)
    (hsym : graph_symm g) (hstep : graph_step hash cmp g op = some g1) : graph_symm g1 := by
  cases op with
  | add_vertex a b c key =>
    simp only [graph_step, Option.map_eq_some', Prod.exists, exists_eq_right] at hstep
    obtain ⟨rc, hav⟩ := hstep
    have hv := graph_add_vertex_vertices hash cmp a b c g key rc g1 hav
    have hedges : ∀ x, algokit_graph_edges g1 x = algokit_graph_edges g x := by
      intro x
      obtain ⟨vs1, s1, c1, m1⟩ := g1
      obtain ⟨vs, s, c, m⟩ := g
      simp only at hv
      rcases hv with e | e
      · rw [e]; rfl
      · rw [e]; exact graph_edges_append vs s s1 c c1 m m1 key x
    intro u v w huv
    rw [hedges] at huv ⊢
    exact hsym u v w huv
  | add_edge a uk vk w =>
    simp only [graph_step, Option.map_eq_some', Prod.exists, exists_eq_right] at hstep
    obtain ⟨rc, hae⟩ := hstep
    obtain ⟨f1, f2, f3, f4, f5, f6⟩ := graph_add_edge_spec a g uk vk w rc g1 hae
    by_cases hrc : rc = 0
    · obtain ⟨u, v, hu, hv, hvs⟩ := f6 hrc
      obtain ⟨ku, hku⟩ := map_get_mem hash cmp g.map uk 0 u hu
      obtain ⟨kv, hkv⟩ := map_get_mem hash cmp g.map vk 0 v hv
      have hul : u < g.vertices.length := by
        rw [hwf.1]; exact index_below_lt _ ku u (hwf.2.2 _ hku)
      have hvl : v < g.vertices.length := by
        rw [hwf.1]; exact index_below_lt _ kv v (hwf.2.2 _ hkv)
      have hedges : ∀ x, algokit_graph_edges g1 x =
          (if x = v then [(⟨u, w⟩ : algokit_graph_edge W)] else []) ++
            ((if x = u then [(⟨v, w⟩ : algokit_graph_edge W)] else []) ++
              algokit_graph_edges g x) := by
        intro x
        obtain ⟨vs1, s1, c1, m1⟩ := g1
        obtain ⟨vs, s, c, m⟩ := g
        simp only at hvs hul hvl
        rw [hvs]
        exact graph_edges_add_edge vs s c m u v w hul hvl x
      intro a' b' w' hab
      rw [hedges] at hab ⊢
      simp only [List.mem_append] at hab ⊢
      rcases hab with hab | hab | hab
      · by_cases h1 : a' = v
        · rw [if_pos h1] at hab
          simp only [List.mem_singleton, algokit_graph_edge.mk.injEq] at hab
          right; left
          rw [if_pos hab.1, h1, hab.2]
          simp
        · rw [if_neg h1] at hab; simp at hab
      · by_cases h1 : a' = u
        · rw [if_pos h1] at hab
          simp only [List.mem_singleton, algokit_graph_edge.mk.injEq] at hab
          left
          rw [if_pos hab.1, h1, hab.2]
          simp
        · rw [if_neg h1] at hab; simp at hab
      · exact Or.inr (Or.inr (hsym a' b' w' hab))
    · rw [f5 hrc]; exact hsym

/-- Every undirected graph built by `add_vertex` and `add_edge` has symmetric
adjacency lists. -/
theorem graph_reachable_symm (hash : K → Nat) (cmp : K → K → Int)
    (g : algokit_graph K W) (hr : graph_reachable hash cmp g) : graph_symm g := by
  obtain ⟨capacity, ops, g0, h0, hrun⟩ := hr
  have hwf0 : graph_wf g0 := graph_create_wf true capacity g0 h0
  have hsym0 : graph_symm g0 := by
    have hg : g0 = ⟨[], 0, capacity,
        ⟨List.replicate capacity algokit_digraph_map_entry.empty, capacity, 0⟩⟩ := by
      unfold algokit_graph_create at h0
      split_ifs at h0 <;> simp only [Option.some.injEq] at h0 <;> exact h0.symm
    rw [hg]
    intro u v w h
    simp [algokit_graph_edges] at h
  clear h0
  induction ops generalizing g0 with
  | nil =>
    simp only [graph_run, Option.some.injEq] at hrun
    rw [← hrun]; exact hsym0
  | cons op ops ih =>
    simp only [graph_run] at hrun
    cases hstep : graph_step hash cmp g0 op with
    | none => rw [hstep] at hrun; simp at hrun
    | some g1 =>
      rw [hstep] at hrun
      have hwf1 : graph_wf g1 := by
        cases op with
        | add_vertex a b c key =>
          simp only [graph_step, Option.map_eq_some', Prod.exists, exists_eq_right] at hstep
          obtain ⟨rc, hav⟩ := hstep
          exact graph_add_vertex_wf hash cmp a b c g0 key rc g1 hwf0 hav
        | add_edge a uk vk w =>
          simp only [graph_step, Option.map_eq_some', Prod.exists, exists_eq_right] at hstep
          obtain ⟨rc, hae⟩ := hstep
          exact graph_add_edge_wf hash cmp a g0 uk vk w rc g1 hwf0 hae
      exact ih g1 hrun hwf1 (graph_step_symm hash cmp g0 g1 op hwf0 hsym0 hstep)

theorem graph_symm_adj (g : algokit_graph K W) (hsym : graph_symm g) (u v : Nat)
    (h : v ∈ algokit_graph_adj g u) : u ∈ algokit_graph_adj g v := by
  rw [graph_adj_eq_edges] at h ⊢
  obtain ⟨e, he, rfl⟩ := List.mem_map.1 h
  exact List.mem_map.2 ⟨⟨u, e.weight⟩, hsym u e.target e.weight he, rfl⟩

end graph_symm_lemmas

/-! ## Connected components: the loops -/

section components_lemmas

variable {K W : Type}

/-- The inner loop appends to the queue it is given; what it appends and the
marks it sets do not depend on the queue. -/
theorem bfs_edges_prefix :
    ∀ (es : List Nat) (visited : List Bool) (q : List Nat),
      bfs_edges es visited q = ((bfs_edges es visited []).1, q ++ (bfs_edges es visited []).2) := by
  intro es
  induction es with
  | nil => intro visited q; simp [bfs_edges]
  | cons e es ih =>
    intro visited q
    rw [bfs_edges, bfs_edges]
    by_cases h : visited.getD e false = false
    · rw [if_pos h, if_pos h, ih (visited.set e true) (q ++ [e]),
        ih (visited.set e true) ([] ++ [e])]
      simp
    · rw [if_neg h, if_neg h]
      exact ih visited q

/-- The inner loop on a stack: the targets that were not marked are marked and
pushed, each once; afterwards every target is marked. -/
theorem bfs_edges_marked (n : Nat) (es : List Nat) (visited : List Bool) (marked stack : List Nat)
    (hm : dfs_marked n visited marked) (hes : ∀ w ∈ es, w < n) :
    ∃ extra, (bfs_edges es visited stack).2 = stack ++ extra ∧
      dfs_marked n (bfs_edges es visited stack).1 (marked ++ extra) ∧
      (∀ x ∈ extra, x ∈ es) ∧ ∀ w ∈ es, w ∈ marked ++ extra := by
  obtain ⟨h1, h2, h3, h4⟩ := hm
  obtain ⟨k1, k2, k3, ⟨extra, k4, k5⟩, k6⟩ := bfs_edges_spec n es visited marked h1 hes h4 h2
  have e1 := bfs_edges_prefix es visited marked
  have e2 := bfs_edges_prefix es visited stack
  have hx : (bfs_edges es visited []).2 = extra := by
    have : (bfs_edges es visited marked).2 = marked ++ (bfs_edges es visited []).2 := by
      rw [e1]
    rw [k4] at this
    exact (List.append_cancel_left this).symm
  have hv : (bfs_edges es visited stack).1 = (bfs_edges es visited marked).1 := by
    rw [e1, e2]
  refine ⟨extra, by rw [e2, hx], ⟨by rw [hv]; exact k1, ?_, ?_, by rw [← k4]; exact k2⟩, k5, ?_⟩
  · intro x hx'
    rw [hv, ← k4]
    exact k3 x hx'
  · intro x hx'
    rcases List.mem_append.1 hx' with h | h
    · exact h3 x h
    · exact hes x (k5 x h)
  · intro w hw
    rw [← k4]
    exact k6 w hw

theorem list_take_last (l : List Nat) (h : l.length > 0) :
    l = l.take (l.length - 1) ++ [l.getD (l.length - 1) 0] := by
  rcases List.eq_nil_or_concat l with rfl | ⟨L, b, rfl⟩
  · simp at h
  · simp [List.getD_eq_getElem?_getD]

theorem getD_set_other (l : List Nat) (i j x : Nat) (h : j ≠ i) :
    (l.set i x).getD j 0 = l.getD j 0 := by
  simp only [List.getD_eq_getElem?_getD, List.getElem?_set_ne (Ne.symm h)]

/-- The stack loop returns; the vertices it has marked are reached from
`root`, have the component id `count`, and their targets are marked; the ids
of the vertices marked before are unchanged. -/
theorem components_stack_loop_spec (n : Nat) (adj : Nat → List Nat)
    (hadj : ∀ u w, w ∈ adj u → w < n) (root count : Nat) (marked0 ids0 : List Nat) :
    ∀ (fuel : Nat) (stack : List Nat) (visited : List Bool) (ids marked : List Nat),
      dfs_marked n visited marked → stack.length + n < fuel + marked.length →
      (∀ x ∈ marked0, x ∈ marked) → (∀ x ∈ stack, x ∈ marked ∧ x ∉ marked0) →
      (∀ x ∈ marked, x ∉ marked0 → Relation.ReflTransGen (fun a b => b ∈ adj a) root x) →
      (∀ x ∈ marked, x ∉ marked0 → x ∉ stack →
        ids.getD x 0 = count ∧ ∀ w ∈ adj x, w ∈ marked) →
      (∀ x ∈ marked0, ids.getD x 0 = ids0.getD x 0) → ids.length = ids0.length →
      n ≤ ids.length →
      ∃ (visited1 : List Bool) (ids1 marked1 : List Nat),
        components_stack_loop adj count fuel stack visited ids = some (visited1, ids1) ∧
        dfs_marked n visited1 marked1 ∧ (∀ x ∈ marked, x ∈ marked1) ∧
        (∀ x ∈ marked1, x ∉ marked0 →
          Relation.ReflTransGen (fun a b => b ∈ adj a) root x ∧ ids1.getD x 0 = count ∧
          ∀ w ∈ adj x, w ∈ marked1) ∧
        (∀ x ∈ marked0, ids1.getD x 0 = ids0.getD x 0) ∧ ids1.length = ids0.length := by
  intro fuel
  induction fuel with
  | zero =>
    intro stack visited ids marked hm hf h0 hst hre hdone hfr hl hn
    have hlen := nodup_lt_length_le marked n hm.2.2.2 hm.2.2.1
    omega
  | succ fuel ih =>
    intro stack visited ids marked hm hf h0 hst hre hdone hfr hl hn
    rw [components_stack_loop]
    by_cases hs : stack.length > 0
    · rw [if_pos hs]
      simp only
      have hsplit := list_take_last stack hs
      have hv_mem : stack.getD (stack.length - 1) 0 ∈ stack := by
        rw [hsplit]
        simp
      obtain ⟨hvm, hv0⟩ := hst _ hv_mem
      have hvn : stack.getD (stack.length - 1) 0 < n := hm.2.2.1 _ hvm
      obtain ⟨extra, b1, b2, b3, b4⟩ := bfs_edges_marked n (adj (stack.getD (stack.length - 1) 0))
        visited marked (stack.take (stack.length - 1)) hm (fun w hw => hadj _ w hw)
      have hdisj : ∀ x ∈ extra, x ∉ marked := by
        intro x hx hxm
        have := (List.nodup_append.1 b2.2.2.2).2.2
        exact this hxm hx
      obtain ⟨v1, i1, m1, r1, r2, r3, r4, r5, r6⟩ := ih
        (bfs_edges (adj (stack.getD (stack.length - 1) 0)) visited
          (stack.take (stack.length - 1))).2
        (bfs_edges (adj (stack.getD (stack.length - 1) 0)) visited
          (stack.take (stack.length - 1))).1
        (ids.set (stack.getD (stack.length - 1) 0) count) (marked ++ extra) b2
        (by
          rw [b1, List.length_append, List.length_append, List.length_take]
          have : min (stack.length - 1) stack.length = stack.length - 1 := by omega
          rw [this]
          omega)
        (fun x hx => List.mem_append_left _ (h0 x hx))
        (by
          intro x hx
          rw [b1] at hx
          rcases List.mem_append.1 hx with h | h
          · obtain ⟨k1, k2⟩ := hst x (List.mem_of_mem_take h)
            exact ⟨List.mem_append_left _ k1, k2⟩
          · exact ⟨List.mem_append_right _ h, fun hx0 => hdisj x h (h0 x hx0)⟩)
        (by
          intro x hx hx0
          rcases List.mem_append.1 hx with h | h
          · exact hre x h hx0
          · exact Relation.ReflTransGen.tail (hre _ hvm hv0) (b3 x h))
        (by
          intro x hx hx0 hxs
          rw [b1] at hxs
          by_cases hxv : x = stack.getD (stack.length - 1) 0
          · refine ⟨?_, fun w hw => ?_⟩
            · rw [hxv, getD_set_nat ids _ _ count (by omega), if_pos rfl]
            · rw [hxv] at hw
              exact b4 w hw
          · have hxm : x ∈ marked := by
              rcases List.mem_append.1 hx with h | h
              · exact h
              · exact absurd (List.mem_append_right _ h) hxs
            have hxst : x ∉ stack := by
              intro h
              rw [hsplit] at h
              rcases List.mem_append.1 h with h | h
              · exact hxs (List.mem_append_left _ h)
              · exact hxv (List.mem_singleton.1 h)
            obtain ⟨k1, k2⟩ := hdone x hxm hx0 hxst
            exact ⟨by rw [getD_set_other ids _ _ count hxv]; exact k1,
              fun w hw => List.mem_append_left _ (k2 w hw)⟩)
        (by
          intro x hx
          rw [getD_set_other ids _ _ count (fun h => hv0 (by rw [← h]; exact hx))]
          exact hfr x hx)
        (by simpa using hl) (by simpa using hn)
      exact ⟨v1, i1, m1, r1, r2, fun x hx => r3 x (List.mem_append_left _ hx), r4, r5, r6⟩
    · rw [if_neg hs]
      have hs0 : stack = [] := List.eq_nil_of_length_eq_zero (by omega)
      subst hs0
      exact ⟨visited, ids, marked, rfl, hm, fun x hx => hx,
        fun x hx hx0 => ⟨hre x hx hx0, hdone x hx hx0 (by simp)⟩, hfr, hl⟩

theorem closed_reach (adj : Nat → List Nat) (S : List Nat)
    (hcl : ∀ x ∈ S, ∀ w ∈ adj x, w ∈ S) (x y : Nat) (hx : x ∈ S)
    (h : Relation.ReflTransGen (fun a b => b ∈ adj a) x y) : y ∈ S := by
  induction h with
  | refl => exact hx
  | tail _ hbc ih => exact hcl _ ih _ hbc

theorem reach_symm (adj : Nat → List Nat) (hsym : ∀ u v, v ∈ adj u → u ∈ adj v) (x y : Nat)
    (h : Relation.ReflTransGen (fun a b => b ∈ adj a) x y) :
    Relation.ReflTransGen (fun a b => b ∈ adj a) y x := by
  induction h with
  | refl => exact Relation.ReflTransGen.refl
  | tail _ hbc ih => exact Relation.ReflTransGen.head (hsym _ _ hbc) ih

end components_lemmas

section components_outer

variable {K W : Type}

/-- The loop over the vertices returns, for successful stack allocations: the
component ids are below the count, two vertices have the same id exactly when
a path joins them, and the component `c` has the vertex `roots[c]` as its
lowest vertex, the roots ascending. -/
theorem components_loop_spec (g : algokit_graph K W) (hwf : graph_wf g)
    (hsym : ∀ u v, v ∈ algokit_graph_adj g u → u ∈ algokit_graph_adj g v) (ids0 : List Nat) :
    ∀ (remaining : List Nat) (count : Nat) (visited : List Bool) (ids marked roots : List Nat),
      remaining.Pairwise (fun a b => a < b) → (∀ i ∈ remaining, i < g.size) →
      dfs_marked g.size visited marked →
      (∀ j, j < g.size → j ∉ remaining → j ∈ marked) →
      (∀ x ∈ marked, ∀ w ∈ algokit_graph_adj g x, w ∈ marked) →
      (∀ x ∈ marked, ids.getD x 0 < count) →
      (∀ x ∈ marked, ∀ y ∈ marked, (ids.getD x 0 = ids.getD y 0 ↔
        Relation.ReflTransGen (fun a b => b ∈ algokit_graph_adj g a) x y)) →
      roots.length = count → roots.Pairwise (fun a b => a < b) →
      (∀ r ∈ roots, ∀ x ∈ remaining, r < x) →
      (∀ c, c < count → roots.getD c 0 ∈ marked ∧ ids.getD (roots.getD c 0) 0 = c ∧
        ∀ v ∈ marked, ids.getD v 0 = c → roots.getD c 0 ≤ v) →
      ids.length = ids0.length → g.size ≤ ids.length →
      ∃ (count1 : Nat) (ids1 roots1 : List Nat),
        components_loop g (fun _ => true) remaining count visited ids = some (count1, ids1) ∧
        ids1.length = ids0.length ∧
        (∀ x, x < g.size → ids1.getD x 0 < count1) ∧
        (∀ x y, x < g.size → y < g.size → (ids1.getD x 0 = ids1.getD y 0 ↔
          Relation.ReflTransGen (fun a b => b ∈ algokit_graph_adj g a) x y)) ∧
        roots1.length = count1 ∧ roots1.Pairwise (fun a b => a < b) ∧
        ∀ c, c < count1 → roots1.getD c 0 < g.size ∧ ids1.getD (roots1.getD c 0) 0 = c ∧
          ∀ v, v < g.size → ids1.getD v 0 = c → roots1.getD c 0 ≤ v := by
  intro remaining
  induction remaining with
  | nil =>
    intro count visited ids marked roots _ _ hm hall hcl hlt hiff hrl hrp _ hroot hl hn
    have hin : ∀ j, j < g.size → j ∈ marked := fun j hj => hall j hj (by simp)
    refine ⟨count, ids, roots, rfl, hl, fun x hx => hlt x (hin x hx),
      fun x y hx hy => hiff x (hin x hx) y (hin y hy), hrl, hrp, fun c hc => ?_⟩
    obtain ⟨k1, k2, k3⟩ := hroot c hc
    exact ⟨hm.2.2.1 _ k1, k2, fun v hv hvc => k3 v (hin v hv) hvc⟩
  | cons i rest ih =>
    intro count visited ids marked roots hpw hrem hm hall hcl hlt hiff hrl hrp hrr hroot hl hn
    rw [List.pairwise_cons] at hpw
    have hi : i < g.size := hrem i (List.mem_cons_self _ _)
    rw [components_loop]
    by_cases hv : visited.getD i false = false
    · rw [if_pos hv]
      simp only [Bool.true_eq_false, if_false]
      have hio : i ∉ marked := by
        intro h
        rw [(hm.2.1 i hi).2 h] at hv
        simp at hv
      have hm1 := dfs_marked_push g.size visited marked i hm hi hio
      obtain ⟨v1, i1, m1, r1, r2, r3, r4, r5, r6⟩ := components_stack_loop_spec g.size
        (algokit_graph_adj g) (graph_adj_lt g hwf) i count marked ids (g.size + 1) [i]
        (visited.set i true) ids (marked ++ [i]) hm1
        (by simp only [List.length_append, List.length_singleton]; omega)
        (fun x hx => List.mem_append_left _ hx)
        (by
          intro x hx
          rw [List.mem_singleton.1 hx]
          exact ⟨by simp, hio⟩)
        (by
          intro x hx hx0
          rcases List.mem_append.1 hx with h | h
          · exact absurd h hx0
          · rw [List.mem_singleton.1 h])
        (by
          intro x hx hx0 hxs
          rcases List.mem_append.1 hx with h | h
          · exact absurd h hx0
          · exact absurd h hxs)
        (fun _ _ => rfl) rfl hn
      rw [r1]
      simp only
      have hold : ∀ x ∈ marked, x ∈ m1 := fun x hx => r3 x (List.mem_append_left _ hx)
      have him : i ∈ m1 := r3 i (by simp)
      have hnew : ∀ x ∈ m1, x ∉ marked → i1.getD x 0 = count := fun x hx h0 => (r4 x hx h0).2.1
      obtain ⟨c1, ids1, roots1, e1, e2, e3, e4, e5, e6, e7⟩ := ih (count + 1) v1 i1 m1
        (roots ++ [i]) hpw.2 (fun x hx => hrem x (List.mem_cons_of_mem _ hx)) r2
        (by
          intro j hj hjr
          by_cases hji : j = i
          · rw [hji]; exact him
          · exact hold j (hall j hj (by
              intro h
              rcases List.mem_cons.1 h with h | h
              · exact hji h
              · exact hjr h)))
        (by
          intro x hx w hw
          by_cases hx0 : x ∈ marked
          · exact hold w (hcl x hx0 w hw)
          · exact (r4 x hx hx0).2.2 w hw)
        (by
          intro x hx
          by_cases hx0 : x ∈ marked
          · rw [r5 x hx0]
            exact Nat.lt_succ_of_lt (hlt x hx0)
          · rw [hnew x hx hx0]
            exact Nat.lt_succ_self _)
        (by
          intro x hx y hy
          by_cases hx0 : x ∈ marked
          · by_cases hy0 : y ∈ marked
            · rw [r5 x hx0, r5 y hy0]
              exact hiff x hx0 y hy0
            · rw [r5 x hx0, hnew y hy hy0]
              constructor
              · intro h
                have := hlt x hx0
                omega
              · intro h
                exact absurd (closed_reach (algokit_graph_adj g) marked hcl x y hx0 h) hy0
          · by_cases hy0 : y ∈ marked
            · rw [hnew x hx hx0, r5 y hy0]
              constructor
              · intro h
                have := hlt y hy0
                omega
              · intro h
                exact absurd (closed_reach (algokit_graph_adj g) marked hcl y x hy0
                  (reach_symm (algokit_graph_adj g) hsym x y h)) hx0
            · rw [hnew x hx hx0, hnew y hy hy0]
              exact ⟨fun _ => Relation.ReflTransGen.trans
                (reach_symm (algokit_graph_adj g) hsym i x (r4 x hx hx0).1) (r4 y hy hy0).1,
                fun _ => rfl⟩)
        (by simp [hrl])
        (by
          rw [List.pairwise_append]
          refine ⟨hrp, List.pairwise_singleton _ _, fun a ha b hb => ?_⟩
          rw [List.mem_singleton.1 hb]
          exact hrr a ha i (List.mem_cons_self _ _))
        (by
          intro r hr x hx
          rcases List.mem_append.1 hr with h | h
          · exact hrr r h x (List.mem_cons_of_mem _ hx)
          · rw [List.mem_singleton.1 h]
            exact hpw.1 x hx)
        (by
          intro c hc
          by_cases hcc : c < count
          · obtain ⟨k1, k2, k3⟩ := hroot c hcc
            have hget : (roots ++ [i]).getD c 0 = roots.getD c 0 := by
              simp only [List.getD_eq_getElem?_getD]
              rw [List.getElem?_append_left (by rw [hrl]; exact hcc)]
            rw [hget]
            refine ⟨hold _ k1, by rw [r5 _ k1]; exact k2, fun v hv hvc => ?_⟩
            by_cases hv0 : v ∈ marked
            · rw [r5 v hv0] at hvc
              exact k3 v hv0 hvc
            · rw [hnew v hv hv0] at hvc
              omega
          · have hce : c = count := by omega
            have hget : (roots ++ [i]).getD c 0 = i := by
              simp only [List.getD_eq_getElem?_getD]
              rw [List.getElem?_append_right (by rw [hrl]; omega), hce, hrl]
              simp
            rw [hget]
            refine ⟨him, by rw [hnew i him hio, hce], fun v hv hvc => ?_⟩
            have hv0 : v ∉ marked := by
              intro h
              rw [r5 v h] at hvc
              have := hlt v h
              omega
            have hvr : v ∈ i :: rest := by
              by_contra hnot
              exact hv0 (hall v (r2.2.2.1 v hv) hnot)
            rcases List.mem_cons.1 hvr with h | h
            · omega
            · exact Nat.le_of_lt (hpw.1 v h))
        (by rw [r6]; exact hl) (by rw [r6]; exact hn)
      exact ⟨c1, ids1, roots1, e1, e2, e3, e4, e5, e6, e7⟩
    · rw [if_neg hv]
      have him : i ∈ marked := by
        apply (hm.2.1 i hi).1
        cases hb : visited.getD i false with
        | true => rfl
        | false => exact absurd hb hv
      exact ih count visited ids marked roots hpw.2
        (fun x hx => hrem x (List.mem_cons_of_mem _ hx)) hm
        (by
          intro j hj hjr
          by_cases hji : j = i
          · rw [hji]; exact him
          · exact hall j hj (by
              intro h
              rcases List.mem_cons.1 h with h | h
              · exact hji h
              · exact hjr h))
        hcl hlt hiff hrl hrp (fun r hr x hx => hrr r hr x (List.mem_cons_of_mem _ hx)) hroot
        hl hn

end components_outer

/-! ## Connected components: the property of the function -/

section components_claims

variable {K W : Type}

/-- C23: `algokit_graph_connected_components` labels the components.  For
every undirected graph built by `add_vertex` and `add_edge` and every array
`component_ids` with room for the vertices, the function (its allocations
succeeding) returns a count and writes ids such that: two vertices have the
same id exactly when a path joins them; every id is below the count; and for
each `c` below the count the component with the id `c` has a lowest vertex
`roots[c]`, these lowest vertices ascending with `c`.  So the count is the
number of connected components, and the components are numbered 0, 1, 2, ...
in increasing order of their lowest vertex index. -/
theorem graph_connected_components_labels (hash : K → Nat) (cmp : K → K → Int)
    (g : algokit_graph K W) (hg : graph_reachable hash cmp g) (component_ids : List Nat)
    (hlen : g.size ≤ component_ids.length) :
    ∃ (count : Nat) (ids roots : List Nat),
      algokit_graph_connected_components true (fun _ => true) g component_ids =
        some (count, ids) ∧
      ids.length = component_ids.length ∧
      (∀ u v, u < g.size → v < g.size →
        (ids.getD u 0 = ids.getD v 0 ↔ Relation.ReflTransGen (graph_edge g) u v)) ∧
      (∀ v, v < g.size → ids.getD v 0 < count) ∧
      roots.length = count ∧ roots.Pairwise (fun a b => a < b) ∧
      ∀ c, c < count → roots.getD c 0 < g.size ∧ ids.getD (roots.getD c 0) 0 = c ∧
        ∀ v, v < g.size → ids.getD v 0 = c → roots.getD c 0 ≤ v := by
  have hwf := graph_reachable_wf hash cmp g hg
  have hsym := graph_reachable_symm hash cmp g hg
  obtain ⟨count, ids, roots, e1, e2, e3, e4, e5, e6, e7⟩ := components_loop_spec g hwf
    (graph_symm_adj g hsym) component_ids (List.range g.size) 0 (List.replicate g.size false)
    component_ids [] []
    (List.pairwise_lt_range g.size) (fun i hi => List.mem_range.1 hi)
    ⟨by simp, fun x hx => by
      simp [List.getD_eq_getElem?_getD, List.getElem?_replicate, hx], by simp, List.nodup_nil⟩
    (fun j hj hjr => absurd (List.mem_range.2 hj) hjr) (by simp) (by simp) (by simp) rfl
    List.Pairwise.nil (by simp) (by simp) rfl hlen
  refine ⟨count, ids, roots, ?_, e2, e4, e3, e5, e6, e7⟩
  unfold algokit_graph_connected_components
  simp only [Bool.true_eq_false, if_false]
  exact e1

theorem graph_connected_components_labels_witness :
    (graph_reachable int_hash int_cmp graph_test_graph ∧
      algokit_graph_connected_components true (fun _ => true) graph_test_graph [9, 9, 9, 9] =
        some (2, [0, 0, 0, 1])) ∧
    ∃ (count : Nat) (ids roots : List Nat),
      algokit_graph_connected_components true (fun _ => true) graph_test_graph [9, 9, 9, 9] =
        some (count, ids) ∧
      ids.length = [9, 9, 9, 9].length ∧
      (∀ u v, u < graph_test_graph.size → v < graph_test_graph.size →
        (ids.getD u 0 = ids.getD v 0 ↔
          Relation.ReflTransGen (graph_edge graph_test_graph) u v)) ∧
      (∀ v, v < graph_test_graph.size → ids.getD v 0 < count) ∧
      roots.length = count ∧ roots.Pairwise (fun a b => a < b) ∧
      ∀ c, c < count → roots.getD c 0 < graph_test_graph.size ∧
        ids.getD (roots.getD c 0) 0 = c ∧
        ∀ v, v < graph_test_graph.size → ids.getD v 0 = c → roots.getD c 0 ≤ v :=
  ⟨⟨⟨8, graph_test_ops, ⟨[], 0, 8, ⟨List.replicate 8 algokit_digraph_map_entry.empty, 8, 0⟩⟩,
      by decide, by decide⟩, by decide⟩,
    graph_connected_components_labels int_hash int_cmp graph_test_graph
      ⟨8, graph_test_ops, ⟨[], 0, 8, ⟨List.replicate 8 algokit_digraph_map_entry.empty, 8, 0⟩⟩,
        by decide, by decide⟩ [9, 9, 9, 9] (by decide)⟩

end components_claims

/-! ## Spanning forests: counting the classes of a relation -/

section class_count_lemmas

theorem class_count_exists (n : Nat) (R : Nat → Nat → Prop) : ∃ k, class_count n R k := by
  classical
  exact ⟨_, (Finset.range n).filter (fun v => ∀ u, u < v → ¬ R u v),
    fun v => by simp [Finset.mem_filter], rfl⟩

theorem class_count_unique (n : Nat) (R : Nat → Nat → Prop) (k k' : Nat)
    (h : class_count n R k) (h' : class_count n R k') : k = k' := by
  obtain ⟨r, hr, rfl⟩ := h
  obtain ⟨r', hr', rfl⟩ := h'
  have : r = r' := by
    ext v
    rw [hr v, hr' v]
  rw [this]

theorem class_count_congr (n : Nat) (R R' : Nat → Nat → Prop) (k : Nat)
    (hrel : ∀ x y, R x y ↔ R' x y) (h : class_count n R k) : class_count n R' k := by
  obtain ⟨r, hr, hk⟩ := h
  refine ⟨r, fun v => ?_, hk⟩
  rw [hr v]
  exact and_congr Iff.rfl (forall_congr' fun u => imp_congr Iff.rfl (not_congr (hrel u v)))

/-- A coarser relation has at most as many classes. -/
theorem class_count_mono (n : Nat) (R R' : Nat → Nat → Prop) (k k' : Nat)
    (hsub : ∀ x y, R x y → R' x y) (h : class_count n R k) (h' : class_count n R' k') :
    k' ≤ k := by
  obtain ⟨r, hr, rfl⟩ := h
  obtain ⟨r', hr', rfl⟩ := h'
  apply Finset.card_le_card
  intro v hv
  rw [hr v]
  obtain ⟨h1, h2⟩ := (hr' v).1 hv
  exact ⟨h1, fun u hu huv => h2 u hu (hsub u v huv)⟩

/-- The lowest number related to `p`. -/
theorem class_least (R : Nat → Nat → Prop) (hrefl : ∀ x, R x x)
    (htrans : ∀ x y z, R x y → R y z → R x z) (p : Nat) :
    ∃ m, m ≤ p ∧ R m p ∧ ∀ u, u < m → ¬ R u p ∧ ¬ R u m := by
  classical
  have hex : ∃ m, R m p := ⟨p, hrefl p⟩
  refine ⟨Nat.find hex, Nat.find_min' hex (hrefl p), Nat.find_spec hex, fun u hu => ?_⟩
  have h1 : ¬ R u p := Nat.find_min hex hu
  exact ⟨h1, fun h2 => h1 (htrans u _ p h2 (Nat.find_spec hex))⟩

/-- The identity has `n` classes below `n`. -/
theorem class_count_eq (n : Nat) (R : Nat → Nat → Prop) (hR : ∀ x y, R x y → x = y) :
    class_count n R n := by
  refine ⟨Finset.range n, fun v => ?_, Finset.card_range n⟩
  rw [Finset.mem_range]
  constructor
  · intro hv
    exact ⟨hv, fun u hu huv => by have := hR u v huv; omega⟩
  · exact fun h => h.1

/-- Joining two classes of an equivalence lowers the number of classes by
one. -/
theorem class_count_merge (n : Nat) (R : Nat → Nat → Prop) (hrefl : ∀ x, R x x)
    (hsymm : ∀ x y, R x y → R y x) (htrans : ∀ x y z, R x y → R y z → R x z)
    (p q : Nat) (hp : p < n) (hq : q < n) (hpq : ¬ R p q) (k : Nat)
    (h : class_count n R k) :
    ∃ k', class_count n (fun x y => R x y ∨ (R x p ∧ R q y) ∨ (R x q ∧ R p y)) k' ∧
      k' + 1 = k := by
  classical
  obtain ⟨r, hr, rfl⟩ := h
  obtain ⟨mp, hp1, hp2, hp3⟩ := class_least R hrefl htrans p
  obtain ⟨mq, hq1, hq2, hq3⟩ := class_least R hrefl htrans q
  have hne : mp ≠ mq := by
    intro e
    rw [e] at hp2
    exact hpq (htrans p mq q (hsymm _ _ hp2) hq2)
  -- the class whose lowest number is the greater one loses it as representative
  have key : ∀ (a b ma mb : Nat), a < n → b < n → ¬ R a b → ma ≤ a → R ma a →
      (∀ u, u < ma → ¬ R u a ∧ ¬ R u ma) → mb ≤ b → R mb b →
      (∀ u, u < mb → ¬ R u b ∧ ¬ R u mb) → ma < mb →
      ∃ k', class_count n (fun x y => R x y ∨ (R x a ∧ R b y) ∨ (R x b ∧ R a y)) k' ∧
        k' + 1 = r.card := by
    intro a b ma mb ha hb hab ha1 ha2 ha3 hb1 hb2 hb3 hlt
    have hmb : mb ∈ r := (hr mb).2 ⟨by omega, fun u hu => (hb3 u hu).2⟩
    refine ⟨(r.erase mb).card, ⟨r.erase mb, fun v => ?_, rfl⟩, Finset.card_erase_add_one hmb⟩
    rw [Finset.mem_erase, hr v]
    constructor
    · rintro ⟨hv1, hv2, hv3⟩
      refine ⟨hv2, fun u hu huv => ?_⟩
      rcases huv with h | ⟨h1, h2⟩ | ⟨h1, h2⟩
      · exact hv3 u hu h
      · -- `v` is related to `b`, so it is not below `mb`
        have hvb : R v b := hsymm _ _ h2
        have h1' : ¬ v < mb := fun hlt' => (hb3 v hlt').1 hvb
        have h2' : ¬ mb < v := fun hlt' => hv3 mb hlt' (htrans mb b v hb2 h2)
        exact hv1 (by omega)
      · -- `v` is related to `a` and `u` to `b`
        have hva : R v a := hsymm _ _ h2
        have h1' : ¬ v < ma := fun hlt' => (ha3 v hlt').1 hva
        have h2' : ¬ ma < v := fun hlt' => hv3 ma hlt' (htrans ma a v ha2 h2)
        have h3' : ¬ u < mb := fun hlt' => (hb3 u hlt').1 h1
        omega
    · rintro ⟨hv1, hv2⟩
      refine ⟨?_, hv1, fun u hu huv => hv2 u hu (Or.inl huv)⟩
      intro e
      rw [e] at hv2
      exact hv2 ma hlt (Or.inr (Or.inl ⟨ha2, hsymm _ _ hb2⟩))
  rcases Nat.lt_or_gt_of_ne hne with hlt | hlt
  · exact key p q mp mq hp hq hpq hp1 hp2 hp3 hq1 hq2 hq3 hlt
  · obtain ⟨k', h1, h2⟩ := key q p mq mp hq hp (fun h => hpq (hsymm _ _ h)) hq1 hq2 hq3 hp1
      hp2 hp3 hlt
    refine ⟨k', class_count_congr n _ _ k' (fun x y => ?_) h1, h2⟩
    tauto

/-- With at least one number, an equivalence has one class exactly when it
relates all numbers below `n`. -/
theorem class_count_one (n : Nat) (hn : 0 < n) (R : Nat → Nat → Prop) (hrefl : ∀ x, R x x)
    (hsymm : ∀ x y, R x y → R y x) (htrans : ∀ x y z, R x y → R y z → R x z) (k : Nat)
    (h : class_count n R k) : 1 ≤ k ∧ (k = 1 ↔ ∀ x y, x < n → y < n → R x y) := by
  obtain ⟨r, hr, rfl⟩ := h
  have h0 : 0 ∈ r := (hr 0).2 ⟨hn, fun u hu => by omega⟩
  refine ⟨Finset.card_pos.2 ⟨0, h0⟩, ?_, ?_⟩
  · intro h1
    obtain ⟨a, ha⟩ := Finset.card_eq_one.1 h1
    have ha0 : a = 0 := by
      rw [ha] at h0
      exact (Finset.mem_singleton.1 h0).symm
    have hall : ∀ x, x < n → R 0 x := by
      intro x hx
      obtain ⟨m, m1, m2, m3⟩ := class_least R hrefl htrans x
      have hm : m ∈ r := (hr m).2 ⟨by omega, fun u hu => (m3 u hu).2⟩
      rw [ha, Finset.mem_singleton, ha0] at hm
      rw [← hm]
      exact m2
    intro x y hx hy
    exact htrans x 0 y (hsymm _ _ (hall x hx)) (hall y hy)
  · intro hall
    have : r = {0} := by
      ext v
      rw [hr v, Finset.mem_singleton]
      constructor
      · rintro ⟨hv, h2⟩
        by_contra hne
        exact h2 0 (by omega) (hall 0 v hn hv)
      · rintro rfl
        exact ⟨hn, fun u hu => by omega⟩
    rw [this]
    rfl

end class_count_lemmas

/-! ## Spanning forests: the edges of a forest and the classes they leave -/

section forest_lemmas

theorem mst_conn_refl (L : List algokit_graph_mst_edge) (x : Nat) : mst_conn L x x :=
  Relation.EqvGen.refl x

theorem mst_conn_symm (L : List algokit_graph_mst_edge) (x y : Nat) (h : mst_conn L x y) :
    mst_conn L y x :=
  Relation.EqvGen.symm x y h

theorem mst_conn_trans (L : List algokit_graph_mst_edge) (x y z : Nat) (h1 : mst_conn L x y)
    (h2 : mst_conn L y z) : mst_conn L x z :=
  Relation.EqvGen.trans x y z h1 h2

theorem mst_conn_edge (L : List algokit_graph_mst_edge) (e : algokit_graph_mst_edge)
    (he : e ∈ L) : mst_conn L e.u e.v :=
  Relation.EqvGen.rel _ _ ⟨e, he, rfl, rfl⟩

/-- If the ends of every edge of `L` are joined by `L'`, whatever `L` joins is
joined by `L'`. -/
theorem mst_conn_sub (L L' : List algokit_graph_mst_edge)
    (h : ∀ e ∈ L, mst_conn L' e.u e.v) (x y : Nat) (hxy : mst_conn L x y) : mst_conn L' x y := by
  induction hxy with
  | rel a b hab =>
    obtain ⟨e, he, rfl, rfl⟩ := hab
    exact h e he
  | refl a => exact mst_conn_refl L' a
  | symm a b _ ih => exact mst_conn_symm L' a b ih
  | trans a b c _ _ ih1 ih2 => exact mst_conn_trans L' a b c ih1 ih2

theorem mst_conn_mono (L L' : List algokit_graph_mst_edge) (h : ∀ e ∈ L, e ∈ L') (x y : Nat)
    (hxy : mst_conn L x y) : mst_conn L' x y :=
  mst_conn_sub L L' (fun e he => mst_conn_edge L' e (h e he)) x y hxy

theorem mst_conn_cons (L : List algokit_graph_mst_edge) (e : algokit_graph_mst_edge)
    (x y : Nat) :
    mst_conn (e :: L) x y ↔
      (mst_conn L x y ∨ (mst_conn L x e.u ∧ mst_conn L e.v y) ∨
        (mst_conn L x e.v ∧ mst_conn L e.u y)) := by
  unfold mst_conn
  rw [← eqvgen_add_pair]
  apply eqvgen_congr
  intro a b
  simp only [List.mem_cons]
  constructor
  · rintro ⟨e', he' | he', h1, h2⟩
    · rw [he'] at h1 h2
      exact Or.inr ⟨h1.symm, h2.symm⟩
    · exact Or.inl ⟨e', he', h1, h2⟩
  · rintro (⟨e', he', h1, h2⟩ | ⟨h1, h2⟩)
    · exact ⟨e', Or.inr he', h1, h2⟩
    · exact ⟨e, Or.inl rfl, h1.symm, h2.symm⟩

theorem mst_conn_cons_of_conn (L : List algokit_graph_mst_edge) (e : algokit_graph_mst_edge)
    (he : mst_conn L e.u e.v) (x y : Nat) : mst_conn (e :: L) x y ↔ mst_conn L x y := by
  rw [mst_conn_cons]
  constructor
  · rintro (h | ⟨h1, h2⟩ | ⟨h1, h2⟩)
    · exact h
    · exact mst_conn_trans L x e.u y h1 (mst_conn_trans L e.u e.v y he h2)
    · exact mst_conn_trans L x e.v y h1
        (mst_conn_trans L e.v e.u y (mst_conn_symm L _ _ he) h2)
  · exact fun h => Or.inl h

theorem mst_conn_nil (x y : Nat) (h : mst_conn [] x y) : x = y := by
  induction h with
  | rel a b hab =>
    obtain ⟨e, he, -⟩ := hab
    simp at he
  | refl a => rfl
  | symm a b _ ih => exact ih.symm
  | trans a b c _ _ ih1 ih2 => exact ih1.trans ih2

/-- The edges of any list leave at least `n - length` classes, and exactly
that many only if they form a forest. -/
theorem edge_count_ge (n : Nat) :
    ∀ (L : List algokit_graph_mst_edge), (∀ e ∈ L, e.u < n ∧ e.v < n) →
      ∃ k, class_count n (mst_conn L) k ∧ n ≤ k + L.length ∧
        (k + L.length = n → edge_forest L) := by
  intro L
  induction L with
  | nil =>
    intro _
    exact ⟨n, class_count_eq n _ mst_conn_nil, by simp, fun _ => trivial⟩
  | cons e L ih =>
    intro hlt
    obtain ⟨k, h1, h2, h3⟩ := ih (fun e' he' => hlt e' (List.mem_cons_of_mem _ he'))
    by_cases hc : mst_conn L e.u e.v
    · refine ⟨k, class_count_congr n _ _ k
        (fun x y => (mst_conn_cons_of_conn L e hc x y).symm) h1, ?_, ?_⟩
      · simp only [List.length_cons]; omega
      · intro h
        simp only [List.length_cons] at h
        omega
    · obtain ⟨k', c1, c2⟩ := class_count_merge n (mst_conn L) (mst_conn_refl L)
        (mst_conn_symm L) (mst_conn_trans L) e.u e.v (hlt e (List.mem_cons_self _ _)).1
        (hlt e (List.mem_cons_self _ _)).2 hc k h1
      refine ⟨k', class_count_congr n _ _ k' (fun x y => (mst_conn_cons L e x y).symm) c1, ?_,
        ?_⟩
      · simp only [List.length_cons]; omega
      · intro h
        simp only [List.length_cons] at h
        exact ⟨hc, h3 (by omega)⟩

/-- The edges of a forest leave exactly `n - length` classes. -/
theorem edge_forest_count (n : Nat) :
    ∀ (L : List algokit_graph_mst_edge), edge_forest L → (∀ e ∈ L, e.u < n ∧ e.v < n) →
      ∃ k, class_count n (mst_conn L) k ∧ k + L.length = n := by
  intro L
  induction L with
  | nil =>
    intro _ _
    exact ⟨n, class_count_eq n _ mst_conn_nil, by simp⟩
  | cons e L ih =>
    intro hf hlt
    obtain ⟨k, h1, h2⟩ := ih hf.2 (fun e' he' => hlt e' (List.mem_cons_of_mem _ he'))
    obtain ⟨k', c1, c2⟩ := class_count_merge n (mst_conn L) (mst_conn_refl L)
      (mst_conn_symm L) (mst_conn_trans L) e.u e.v (hlt e (List.mem_cons_self _ _)).1
      (hlt e (List.mem_cons_self _ _)).2 hf.1 k h1
    exact ⟨k', class_count_congr n _ _ k' (fun x y => (mst_conn_cons L e x y).symm) c1, by
      simp only [List.length_cons]; omega⟩

/-- A part of a forest is a forest. -/
theorem edge_forest_filter (p : algokit_graph_mst_edge → Bool) :
    ∀ (L : List algokit_graph_mst_edge), edge_forest L → edge_forest (L.filter p) := by
  intro L
  induction L with
  | nil => intro _; trivial
  | cons e L ih =>
    intro hf
    rw [List.filter_cons]
    split_ifs
    · exact ⟨fun h => hf.1 (mst_conn_mono _ L (fun e' he' => (List.mem_filter.1 he').1) _ _ h),
        ih hf.2⟩
    · exact ih hf.2

/-- A list of `n - 1` edges that joins all `n` vertices is a forest. -/
theorem spanning_edge_forest (n : Nat) (hn : 0 < n) (T : List algokit_graph_mst_edge)
    (hlt : ∀ e ∈ T, e.u < n ∧ e.v < n) (hlen : T.length + 1 = n)
    (hall : ∀ x y, x < n → y < n → mst_conn T x y) : edge_forest T := by
  obtain ⟨k, h1, h2, h3⟩ := edge_count_ge n T hlt
  have hk : k = 1 := ((class_count_one n hn (mst_conn T) (mst_conn_refl T) (mst_conn_symm T)
    (mst_conn_trans T) k h1).2).2 hall
  exact h3 (by omega)

end forest_lemmas

/-! ## Kruskal: the edge array and the loop over the sorted edges -/

section kruskal_union_lemmas

variable {K : Type}

theorem getD_set_gen {α : Type} (l : List α) (i j : Nat) (x d : α) (hi : i < l.length) :
    (l.set i x).getD j d = if j = i then x else l.getD j d := by
  simp only [List.getD_eq_getElem?_getD]
  by_cases h : j = i
  · subst h
    simp [hi]
  · simp [h, List.getElem?_set_ne (Ne.symm h)]

/-- The edge array holds an entry for every adjacency entry that leads from a
vertex to one with a greater index, and nothing else. -/
theorem kruskal_edges_mem (g : algokit_graph K Rat) (e : algokit_graph_mst_edge) :
    e ∈ kruskal_edges g ↔
      (e.u < g.size ∧ e.u < e.v ∧ (⟨e.v, e.w⟩ : algokit_graph_edge Rat) ∈
        algokit_graph_edges g e.u) := by
  unfold kruskal_edges
  simp only [List.mem_flatMap, List.mem_range, List.mem_map, List.mem_filter,
    decide_eq_true_eq]
  constructor
  · rintro ⟨i, hi, x, ⟨hx1, hx2⟩, rfl⟩
    exact ⟨hi, hx2, hx1⟩
  · rintro ⟨h1, h2, h3⟩
    exact ⟨e.u, h1, ⟨e.v, e.w⟩, ⟨h3, h2⟩, rfl⟩

/-- The two list heads written for an accepted edge. -/
theorem mst_adj_push (adj : List (List Nat)) (n u v : Nat) (hl : adj.length = n) (hu : u < n)
    (hv : v < n) (a b : Nat) :
    b ∈ ((adj.set u (v :: adj.getD u [])).set v
        (u :: (adj.set u (v :: adj.getD u [])).getD v [])).getD a [] ↔
      (b ∈ adj.getD a [] ∨ (a = u ∧ b = v) ∨ (a = v ∧ b = u)) := by
  rw [getD_set_gen _ v a _ [] (by simp [hl, hv]), getD_set_gen adj u v _ [] (by rw [hl]; exact hu),
    getD_set_gen adj u a _ [] (by rw [hl]; exact hu)]
  by_cases h1 : a = v
  · subst h1
    by_cases h2 : a = u
    · subst h2
      simp only [if_true, List.mem_cons]
      tauto
    · simp only [if_true, h2, if_false, List.mem_cons]
      tauto
  · by_cases h2 : a = u
    · subst h2
      simp only [h1, if_false, if_true, List.mem_cons]
      tauto
    · simp only [h1, h2, if_false]
      tauto

/-- The loop over the sorted edges returns, for successful allocations.  The
edges it has accepted form a forest of edges of the array; the lists of
`mst_adj` hold these edges in both directions; and the ends of every edge of
the array are joined by the accepted edges that weigh no more than it. -/
theorem kruskal_union_loop_spec (n : Nat) :
    ∀ (rest : List algokit_graph_mst_edge) (uf : algokit_uf_wqupc) (mst_adj : List (List Nat))
      (acc done : List algokit_graph_mst_edge),
      (∀ e ∈ rest, e.u < n ∧ e.v < n) →
      (done ++ rest).Pairwise (fun a b => a.w ≤ b.w) →
      uf_wqupc_inv uf → uf.n = n →
      (∀ x y, x < n → y < n →
        (uf_wqupc_root_of uf x = uf_wqupc_root_of uf y ↔ mst_conn acc x y)) →
      mst_adj.length = n →
      (∀ a b, a < n → (b ∈ mst_adj.getD a [] ↔
        ∃ e ∈ acc, (e.u = a ∧ e.v = b) ∨ (e.u = b ∧ e.v = a))) →
      edge_forest acc → (∀ e ∈ acc, e ∈ done) → (∀ e ∈ acc, e.u < n ∧ e.v < n) →
      (∀ e ∈ done, mst_conn (acc.filter (fun a => decide (a.w ≤ e.w))) e.u e.v) →
      ∃ (mst_adj1 : List (List Nat)) (acc1 : List algokit_graph_mst_edge),
        kruskal_union_loop n true rest uf mst_adj acc.length =
          some (some (mst_adj1, acc1.length)) ∧
        mst_adj1.length = n ∧
        (∀ a b, a < n → (b ∈ mst_adj1.getD a [] ↔
          ∃ e ∈ acc1, (e.u = a ∧ e.v = b) ∨ (e.u = b ∧ e.v = a))) ∧
        edge_forest acc1 ∧ (∀ e ∈ acc1, e ∈ done ++ rest) ∧ (∀ e ∈ acc1, e.u < n ∧ e.v < n) ∧
        (∀ e ∈ done ++ rest, mst_conn (acc1.filter (fun a => decide (a.w ≤ e.w))) e.u e.v) := by
  intro rest
  induction rest with
  | nil =>
    intro uf mst_adj acc done _ _ _ _ _ hl hadj hf hsub hlt hdone
    exact ⟨mst_adj, acc, rfl, hl, hadj, hf, by simpa using hsub, hlt, by simpa using hdone⟩
  | cons e rest ih =>
    intro uf mst_adj acc done hrest hsort hinv hn hroot hl hadj hf hsub hlt hdone
    obtain ⟨heu, hev⟩ := hrest e (List.mem_cons_self _ _)
    have hrest1 : ∀ e' ∈ rest, e'.u < n ∧ e'.v < n :=
      fun e' he' => hrest e' (List.mem_cons_of_mem _ he')
    have hsort1 : (done ++ [e] ++ rest).Pairwise (fun a b => a.w ≤ b.w) := by
      rw [List.append_assoc]; exact hsort
    have hle : ∀ a ∈ done, ∀ b ∈ e :: rest, a.w ≤ b.w := (List.pairwise_append.1 hsort).2.2
    have hrle : ∀ b ∈ rest, e.w ≤ b.w :=
      (List.pairwise_cons.1 (List.pairwise_append.1 hsort).2.1).1
    -- an edge after the accepted ones weighs at least as much as each of them
    have hfull : ∀ (b : algokit_graph_mst_edge), b ∈ e :: rest →
        acc.filter (fun a => decide (a.w ≤ b.w)) = acc := by
      intro b hb
      rw [List.filter_eq_self]
      intro a ha
      exact decide_eq_true (hle a (hsub a ha) b hb)
    rw [kruskal_union_loop]
    by_cases hgo : acc.length + 1 < n
    · rw [if_pos hgo]
      obtain ⟨uf1, f1, f2, f3, f4⟩ := uf_find_spec uf hinv e.u (by rw [hn]; exact heu)
      obtain ⟨uf2, g1, g2, g3, g4⟩ := uf_find_spec uf1 f2 e.v (by rw [f3, hn]; exact hev)
      rw [f1]
      simp only
      rw [g1]
      simp only [Option.getD_some]
      have hroot2 : ∀ x, uf_wqupc_root_of uf2 x = uf_wqupc_root_of uf x :=
        fun x => by rw [g4, f4]
      have hn2 : uf2.n = n := by rw [g3, f3, hn]
      rw [f4 e.v]
      by_cases hne : uf_wqupc_root_of uf e.u ≠ uf_wqupc_root_of uf e.v
      · rw [if_pos hne]
        have hnc : ¬ mst_conn acc e.u e.v := fun h => hne ((hroot e.u e.v heu hev).2 h)
        obtain ⟨uf3, u1, u2, u3, a, b, hab, u4⟩ := uf_union_spec uf2 g2 e.u e.v
          (by rw [hn2]; exact heu) (by rw [hn2]; exact hev)
        rw [u1]
        simp only [Bool.true_eq_false, if_false]
        have hmem : ∀ e' ∈ acc, e' ∈ done ++ [e] :=
          fun e' he' => List.mem_append_left _ (hsub e' he')
        obtain ⟨adj1, acc1, r1, r2, r3, r4, r5, r6, r7⟩ := ih uf3
          ((mst_adj.set e.u (e.v :: mst_adj.getD e.u [])).set e.v
            (e.u :: (mst_adj.set e.u (e.v :: mst_adj.getD e.u [])).getD e.v []))
          (e :: acc) (done ++ [e]) hrest1 hsort1 u2 (by rw [u3, hn2])
          (by
            intro x y hx hy
            rw [mst_conn_cons, ← hroot x y hx hy, ← hroot x e.u hx heu, ← hroot e.v y hev hy,
              ← hroot x e.v hx hev, ← hroot e.u y heu hy, u4 x, u4 y, hroot2 x, hroot2 y]
            rw [hroot2 e.u, hroot2 e.v] at hab
            rcases hab with ⟨rfl, rfl⟩ | ⟨rfl, rfl⟩ <;> split_ifs <;> omega)
          (by simp [hl])
          (by
            intro a' b' ha'
            rw [mst_adj_push mst_adj n e.u e.v hl heu hev a' b', hadj a' b' ha']
            simp only [List.mem_cons, exists_eq_or_imp]
            constructor
            · rintro (h | ⟨h1, h2⟩ | ⟨h1, h2⟩)
              · exact Or.inr h
              · exact Or.inl (Or.inl ⟨h1.symm, h2.symm⟩)
              · exact Or.inl (Or.inr ⟨h2.symm, h1.symm⟩)
            · rintro ((⟨h1, h2⟩ | ⟨h1, h2⟩) | h)
              · exact Or.inr (Or.inl ⟨h1.symm, h2.symm⟩)
              · exact Or.inr (Or.inr ⟨h2.symm, h1.symm⟩)
              · exact Or.inl h)
          ⟨hnc, hf⟩
          (by
            intro e' he'
            rcases List.mem_cons.1 he' with rfl | he'
            · simp
            · exact hmem e' he')
          (by
            intro e' he'
            rcases List.mem_cons.1 he' with rfl | he'
            · exact ⟨heu, hev⟩
            · exact hlt e' he')
          (by
            intro e' he'
            rcases List.mem_append.1 he' with h | h
            · apply mst_conn_mono _ _ _ _ _ (hdone e' h)
              intro x hx
              rw [List.mem_filter] at hx ⊢
              exact ⟨List.mem_cons_of_mem _ hx.1, hx.2⟩
            · rw [List.mem_singleton.1 h]
              apply mst_conn_edge
              rw [List.mem_filter]
              exact ⟨List.mem_cons_self _ _, decide_eq_true (le_refl _)⟩)
        refine ⟨adj1, acc1, ?_, r2, r3, r4, ?_, r6, ?_⟩
        · rw [← r1]; rfl
        · intro x hx
          have := r5 x hx
          rw [List.append_assoc] at this
          exact this
        · intro x hx
          have := r7 x (by rw [List.append_assoc]; exact hx)
          exact this
      · rw [if_neg hne]
        have hc : mst_conn acc e.u e.v := (hroot e.u e.v heu hev).1 (not_not.1 hne)
        obtain ⟨adj1, acc1, r1, r2, r3, r4, r5, r6, r7⟩ := ih uf2 mst_adj acc (done ++ [e])
          hrest1 hsort1 g2 hn2
          (fun x y hx hy => by rw [hroot2 x, hroot2 y]; exact hroot x y hx hy)
          hl hadj hf (fun e' he' => List.mem_append_left _ (hsub e' he')) hlt
          (by
            intro e' he'
            rcases List.mem_append.1 he' with h | h
            · exact hdone e' h
            · rw [List.mem_singleton.1 h, hfull e (List.mem_cons_self _ _)]
              exact hc)
        refine ⟨adj1, acc1, r1, r2, r3, r4, ?_, r6, ?_⟩
        · intro x hx
          have := r5 x hx
          rw [List.append_assoc] at this
          exact this
        · intro x hx
          exact r7 x (by rw [List.append_assoc]; exact hx)
    · rw [if_neg hgo]
      -- the accepted edges join everything
      obtain ⟨k, c1, c2⟩ := edge_forest_count n acc hf hlt
      have hnpos : 0 < n := by omega
      obtain ⟨k1, k2⟩ := class_count_one n hnpos (mst_conn acc) (mst_conn_refl acc)
        (mst_conn_symm acc) (mst_conn_trans acc) k c1
      have hall := k2.1 (by omega)
      refine ⟨mst_adj, acc, rfl, hl, hadj, hf,
        fun e' he' => List.mem_append_left _ (hsub e' he'), hlt, ?_⟩
      intro e' he'
      rcases List.mem_append.1 he' with h | h
      · exact hdone e' h
      · rw [hfull e' h]
        exact hall e'.u e'.v (hrest e' h).1 (hrest e' h).2

end kruskal_union_lemmas

/-! ## Kruskal: the search that writes the parent array -/

section kruskal_bfs_lemmas

/-- The inner loop of the search does to `visited` and the queue what the
inner loop of the breadth-first search does, and it gives every target that
was not marked the parent `v`. -/
theorem kruskal_bfs_edges_spec (v : Nat) :
    ∀ (es : List Nat) (visited : List Bool) (parent queue : List Nat),
      (∀ w ∈ es, w < parent.length) →
      (kruskal_bfs_edges v es (visited, parent, queue)).1 = (bfs_edges es visited queue).1 ∧
      (kruskal_bfs_edges v es (visited, parent, queue)).2.2 = (bfs_edges es visited queue).2 ∧
      (kruskal_bfs_edges v es (visited, parent, queue)).2.1.length = parent.length ∧
      ∀ x, (kruskal_bfs_edges v es (visited, parent, queue)).2.1.getD x 0 =
        if x ∈ es ∧ visited.getD x false = false then v else parent.getD x 0 := by
  intro es
  induction es with
  | nil => intro visited parent queue _; simp [kruskal_bfs_edges, bfs_edges]
  | cons t es ih =>
    intro visited parent queue hlt
    have ht : t < parent.length := hlt t (List.mem_cons_self _ _)
    rw [kruskal_bfs_edges, bfs_edges]
    simp only
    by_cases hv : visited.getD t false = false
    · rw [if_pos hv, if_pos hv]
      obtain ⟨h1, h2, h3, h4⟩ := ih (visited.set t true) (parent.set t v) (queue ++ [t])
        (fun w hw => by simpa using hlt w (List.mem_cons_of_mem _ hw))
      refine ⟨h1, h2, by simpa using h3, fun x => ?_⟩
      rw [h4 x]
      by_cases hxt : x = t
      · subst hxt
        rw [getD_set_nat parent x x v ht, if_pos rfl,
          if_pos (show x ∈ x :: es ∧ visited.getD x false = false from
            ⟨List.mem_cons_self _ _, hv⟩)]
        split_ifs <;> rfl
      · have hvis : (visited.set t true).getD x false = visited.getD x false := by
          simp only [List.getD_eq_getElem?_getD, List.getElem?_set_ne (Ne.symm hxt)]
        rw [hvis, getD_set_other parent t x v hxt]
        simp [hxt]
    · rw [if_neg hv, if_neg hv]
      obtain ⟨h1, h2, h3, h4⟩ := ih visited parent queue
        (fun w hw => hlt w (List.mem_cons_of_mem _ hw))
      refine ⟨h1, h2, h3, fun x => ?_⟩
      rw [h4 x]
      by_cases hxt : x = t
      · subst hxt
        rw [if_neg (fun h => hv h.2), if_neg (fun h => hv h.2)]
      · simp [hxt]

theorem getD_append_lt (l1 l2 : List Nat) (j : Nat) (h : j < l1.length) :
    (l1 ++ l2).getD j 0 = l1.getD j 0 := by
  simp only [List.getD_eq_getElem?_getD, List.getElem?_append_left h]

theorem getD_mem_lt (l : List Nat) (j : Nat) (h : j < l.length) : l.getD j 0 ∈ l := by
  rw [List.getD_eq_getElem?_getD, List.getElem?_eq_getElem h]
  exact List.getElem_mem h

theorem mem_exists_getD (l : List Nat) (x : Nat) (h : x ∈ l) :
    ∃ j, j < l.length ∧ l.getD j 0 = x := by
  obtain ⟨j, hj, hx⟩ := List.mem_iff_getElem.1 h
  exact ⟨j, hj, by rw [List.getD_eq_getElem?_getD, List.getElem?_eq_getElem hj]; exact hx⟩

/-- The queue loop of the search from `root` returns.  The vertices it has
queued are reached from `root`, the targets of each are marked, and each but
`root` has as parent a vertex queued before it, on whose list it is; no other
entry of `parent` is changed. -/
theorem kruskal_bfs_loop_spec (n : Nat) (L : List (List Nat))
    (hadj : ∀ a w, w ∈ L.getD a [] → w < n) (root : Nat) (marked0 parent0 : List Nat) :
    ∀ (fuel head : Nat) (queue : List Nat) (visited : List Bool) (parent : List Nat),
      n + 1 ≤ fuel + head → dfs_marked n visited (marked0 ++ queue) → head ≤ queue.length →
      queue.head? = some root →
      (∀ x ∈ queue, Relation.ReflTransGen (fun a b => b ∈ L.getD a []) root x) →
      (∀ x ∈ queue.take head, ∀ w ∈ L.getD x [], w ∈ marked0 ++ queue) →
      parent.length = parent0.length → n ≤ parent.length →
      (∀ x, x ∉ queue.tail → parent.getD x 0 = parent0.getD x 0) →
      (∀ j, 0 < j → j < queue.length → ∃ j', j' < j ∧
        parent.getD (queue.getD j 0) 0 = queue.getD j' 0 ∧
        queue.getD j 0 ∈ L.getD (queue.getD j' 0) []) →
      ∃ (visited1 : List Bool) (parent1 queue1 : List Nat),
        kruskal_bfs_loop L fuel head (visited, parent, queue) = some (visited1, parent1) ∧
        dfs_marked n visited1 (marked0 ++ queue1) ∧ queue1.head? = some root ∧
        (∀ x ∈ queue1, Relation.ReflTransGen (fun a b => b ∈ L.getD a []) root x) ∧
        (∀ x ∈ queue1, ∀ w ∈ L.getD x [], w ∈ marked0 ++ queue1) ∧
        parent1.length = parent0.length ∧
        (∀ x, x ∉ queue1.tail → parent1.getD x 0 = parent0.getD x 0) ∧
        (∀ j, 0 < j → j < queue1.length → ∃ j', j' < j ∧
          parent1.getD (queue1.getD j 0) 0 = queue1.getD j' 0 ∧
          queue1.getD j 0 ∈ L.getD (queue1.getD j' 0) []) := by
  intro fuel
  induction fuel with
  | zero =>
    intro head queue visited parent hf hm hh _ _ _ _ _ _ _
    have h1 := nodup_lt_length_le (marked0 ++ queue) n hm.2.2.2 hm.2.2.1
    rw [List.length_append] at h1
    omega
  | succ fuel ih =>
    intro head queue visited parent hf hm hh hroot hreach hcl hpl hpn hfr hpar
    rw [kruskal_bfs_loop]
    simp only
    by_cases hlt : head < queue.length
    · rw [if_pos hlt]
      have hvq : queue.getD head 0 ∈ queue := getD_mem_lt queue head hlt
      have hvn : queue.getD head 0 < n := hm.2.2.1 _ (List.mem_append_right _ hvq)
      have hes : ∀ w ∈ L.getD (queue.getD head 0) [], w < n := fun w hw => hadj _ w hw
      obtain ⟨k1, k2, k3, k4⟩ := kruskal_bfs_edges_spec (queue.getD head 0)
        (L.getD (queue.getD head 0) []) visited parent queue
        (fun w hw => lt_of_lt_of_le (hes w hw) hpn)
      obtain ⟨extra, b1, b2, b3, b4⟩ := bfs_edges_marked n (L.getD (queue.getD head 0) [])
        visited (marked0 ++ queue) queue hm hes
      rw [List.append_assoc] at b2 b4
      have hst : kruskal_bfs_edges (queue.getD head 0) (L.getD (queue.getD head 0) [])
          (visited, parent, queue) =
          ((bfs_edges (L.getD (queue.getD head 0) []) visited queue).1,
            (kruskal_bfs_edges (queue.getD head 0) (L.getD (queue.getD head 0) [])
              (visited, parent, queue)).2.1, queue ++ extra) := by
        rw [← b1, ← k1, ← k2]
      rw [hst]
      have hqne : queue ≠ [] := by
        intro h
        rw [h] at hlt
        simp at hlt
      have hextra_new : ∀ x ∈ extra, visited.getD x false = false := by
        intro x hx
        have hxn : x < n := hes x (b3 x hx)
        have hnot : x ∉ marked0 ++ queue := by
          intro h
          have := (List.nodup_append.1
            (by rw [← List.append_assoc] at b2; exact b2.2.2.2)).2.2
          exact this h hx
        cases hb : visited.getD x false with
        | false => rfl
        | true => exact absurd ((hm.2.1 x hxn).1 hb) hnot
      have hpnew : ∀ x, (kruskal_bfs_edges (queue.getD head 0) (L.getD (queue.getD head 0) [])
          (visited, parent, queue)).2.1.getD x 0 =
          if x ∈ extra then queue.getD head 0 else parent.getD x 0 := by
        intro x
        rw [k4 x]
        by_cases hx : x ∈ extra
        · rw [if_pos hx, if_pos ⟨b3 x hx, hextra_new x hx⟩]
        · rw [if_neg hx, if_neg]
          rintro ⟨h1, h2⟩
          have hxn : x < n := hes x h1
          rcases List.mem_append.1 (b4 x h1) with h | h
          · rw [(hm.2.1 x hxn).2 (List.mem_append_left _ h)] at h2
            simp at h2
          · rcases List.mem_append.1 h with h | h
            · rw [(hm.2.1 x hxn).2 (List.mem_append_right _ h)] at h2
              simp at h2
            · exact hx h
      obtain ⟨v1, p1, q1, r1, r2, r3, r4, r5, r6, r7, r8⟩ := ih (head + 1) (queue ++ extra)
        (bfs_edges (L.getD (queue.getD head 0) []) visited queue).1
        (kruskal_bfs_edges (queue.getD head 0) (L.getD (queue.getD head 0) [])
          (visited, parent, queue)).2.1
        (by omega) b2 (by rw [List.length_append]; omega)
        (by
          cases queue with
          | nil => exact absurd rfl hqne
          | cons a q => simpa using hroot)
        (by
          intro x hx
          rcases List.mem_append.1 hx with h | h
          · exact hreach x h
          · exact Relation.ReflTransGen.tail (hreach _ hvq) (b3 x h))
        (by
          intro x hx w hw
          have htake : (queue ++ extra).take (head + 1) =
              queue.take head ++ [queue.getD head 0] := by
            rw [List.take_append_of_le_length (by omega), List.take_succ,
              List.getElem?_eq_getElem hlt]
            simp [List.getD_eq_getElem?_getD, List.getElem?_eq_getElem hlt]
          rw [htake] at hx
          rcases List.mem_append.1 hx with h | h
          · rcases List.mem_append.1 (hcl x h w hw) with h' | h'
            · exact List.mem_append_left _ h'
            · exact List.mem_append_right _ (List.mem_append_left _ h')
          · rw [List.mem_singleton.1 h] at hw
            exact b4 w hw)
        (by rw [k3]; exact hpl) (by rw [k3]; exact hpn)
        (by
          intro x hx
          have htail : (queue ++ extra).tail = queue.tail ++ extra := by
            cases queue with
            | nil => exact absurd rfl hqne
            | cons a q => rfl
          rw [htail] at hx
          rw [hpnew x, if_neg (fun h => hx (List.mem_append_right _ h))]
          exact hfr x (fun h => hx (List.mem_append_left _ h)))
        (by
          intro j hj0 hj
          by_cases hjq : j < queue.length
          · obtain ⟨j', hj', e1, e2⟩ := hpar j hj0 hjq
            refine ⟨j', hj', ?_, ?_⟩
            · rw [getD_append_lt queue extra j hjq, getD_append_lt queue extra j' (by omega),
                hpnew, if_neg, e1]
              intro h
              have hdis := (List.nodup_append.1 (List.nodup_append.1 b2.2.2.2).2.1).2.2
              exact hdis (getD_mem_lt queue j hjq) h
            · rw [getD_append_lt queue extra j hjq, getD_append_lt queue extra j' (by omega)]
              exact e2
          · have hmem : (queue ++ extra).getD j 0 ∈ extra := by
              have h1 := getD_mem_lt (queue ++ extra) j hj
              rcases List.mem_append.1 h1 with h | h
              · exfalso
                obtain ⟨i, hi, hie⟩ := mem_exists_getD queue _ h
                have hnd : (queue ++ extra).Nodup := (List.nodup_append.1 b2.2.2.2).2.1
                have h2 : (queue ++ extra).getD i 0 = (queue ++ extra).getD j 0 := by
                  rw [getD_append_lt queue extra i hi]; exact hie
                simp only [List.getD_eq_getElem?_getD,
                  List.getElem?_eq_getElem (show i < (queue ++ extra).length by
                    rw [List.length_append]; omega),
                  List.getElem?_eq_getElem hj, Option.getD_some] at h2
                have := (List.Nodup.getElem_inj_iff hnd).1 h2
                omega
              · exact h
            refine ⟨head, by omega, ?_, ?_⟩
            · rw [hpnew, if_pos hmem, getD_append_lt queue extra head hlt]
            · rw [getD_append_lt queue extra head hlt]
              exact b3 _ hmem)
      exact ⟨v1, p1, q1, r1, r2, r3, r4, r5, r6, r7, r8⟩
    · rw [if_neg hlt]
      have hall : queue.take head = queue := List.take_of_length_le (by omega)
      rw [hall] at hcl
      exact ⟨visited, parent, queue, rfl, hm, hroot, hreach, hcl, hpl, hfr, hpar⟩

end kruskal_bfs_lemmas

section kruskal_forest_lemmas

/-- Every queued vertex is linked to the first of the queue by parent links,
when each but the first has a parent queued before it. -/
theorem queue_chain (S : Nat → Prop) (parent queue : List Nat) (hS : ∀ x ∈ queue, S x)
    (hpar : ∀ j, 0 < j → j < queue.length → ∃ j', j' < j ∧
      parent.getD (queue.getD j 0) 0 = queue.getD j' 0) :
    ∀ j, j < queue.length →
      Relation.ReflTransGen (fun a b => S a ∧ parent.getD a 0 = b)
        (queue.getD j 0) (queue.getD 0 0) := by
  intro j
  induction j using Nat.strong_induction_on with
  | _ j ih =>
    intro hj
    by_cases h0 : j = 0
    · rw [h0]
    · obtain ⟨j', hj', e⟩ := hpar j (by omega) hj
      exact Relation.ReflTransGen.head ⟨hS _ (getD_mem_lt queue j hj), e⟩ (ih j' hj' (by omega))

/-- The loop over the vertices of the last part of `algokit_graph_mst_kruskal` returns,
for successful queue allocations.  Afterwards a vertex has the parent
`SIZE_MAX` exactly when no lower vertex is joined to it by the lists; any other
parent is a vertex on whose list it is; and the parent links lead from every
vertex to a vertex with the parent `SIZE_MAX` that is joined to it. -/
theorem kruskal_forest_loop_spec (n : Nat) (L : List (List Nat)) (hn : n ≤ SIZE_MAX)
    (hadj : ∀ a w, w ∈ L.getD a [] → w < n)
    (hsym : ∀ u v, v ∈ L.getD u [] → u ∈ L.getD v []) (parent0 : List Nat) :
    ∀ (remaining : List Nat) (visited : List Bool) (parent marked : List Nat),
      remaining.Pairwise (fun a b => a < b) → (∀ i ∈ remaining, i < n) →
      dfs_marked n visited marked →
      (∀ j, j < n → j ∉ remaining → j ∈ marked) →
      (∀ x ∈ marked, ∀ w ∈ L.getD x [], w ∈ marked) →
      parent.length = parent0.length → n ≤ parent.length →
      (∀ x, x < n → x ∉ marked → parent.getD x 0 = SIZE_MAX) →
      (∀ x ∈ marked,
        (parent.getD x 0 = SIZE_MAX ↔
          ∀ u, u < x → ¬ Relation.ReflTransGen (fun a b => b ∈ L.getD a []) u x) ∧
        (parent.getD x 0 ≠ SIZE_MAX → parent.getD x 0 ∈ marked ∧ x ∈ L.getD (parent.getD x 0) []) ∧
        ∃ r, Relation.ReflTransGen (fun a b => a ∈ marked ∧ parent.getD a 0 = b) x r ∧
          parent.getD r 0 = SIZE_MAX ∧
          Relation.ReflTransGen (fun a b => b ∈ L.getD a []) r x) →
      ∃ parent1, kruskal_forest_loop n L true remaining visited parent = some (0, parent1) ∧
        parent1.length = parent0.length ∧
        ∀ x, x < n →
          (parent1.getD x 0 = SIZE_MAX ↔
            ∀ u, u < x → ¬ Relation.ReflTransGen (fun a b => b ∈ L.getD a []) u x) ∧
          (parent1.getD x 0 ≠ SIZE_MAX →
            parent1.getD x 0 < n ∧ x ∈ L.getD (parent1.getD x 0) []) ∧
          ∃ r, Relation.ReflTransGen (fun a b => a < n ∧ parent1.getD a 0 = b) x r ∧
            parent1.getD r 0 = SIZE_MAX ∧
            Relation.ReflTransGen (fun a b => b ∈ L.getD a []) r x := by
  intro remaining
  induction remaining with
  | nil =>
    intro visited parent marked _ _ hm hall _ hpl _ _ hG
    refine ⟨parent, rfl, hpl, fun x hx => ?_⟩
    obtain ⟨g1, g2, r, g3, g4, g5⟩ := hG x (hall x hx (by simp))
    refine ⟨g1, fun h => ⟨hm.2.2.1 _ (g2 h).1, (g2 h).2⟩, r, ?_, g4, g5⟩
    exact Relation.ReflTransGen.mono (fun a b hab => ⟨hm.2.2.1 _ hab.1, hab.2⟩) g3
  | cons i rest ih =>
    intro visited parent marked hpw hrem hm hall hcl hpl hpn hun hG
    rw [List.pairwise_cons] at hpw
    have hi : i < n := hrem i (List.mem_cons_self _ _)
    rw [kruskal_forest_loop]
    by_cases hv : visited.getD i false = false
    · rw [if_pos hv]
      simp only [Bool.true_eq_false, if_false]
      have hio : i ∉ marked := by
        intro h
        rw [(hm.2.1 i hi).2 h] at hv
        simp at hv
      have hm1 := dfs_marked_push n visited marked i hm hi hio
      obtain ⟨v1, p1, q1, r1, r2, r3, r4, r5, r6, r7, r8⟩ := kruskal_bfs_loop_spec n L hadj i
        marked parent (n + 1) 0 [i] (visited.set i true) parent (by omega) hm1 (by simp) rfl
        (fun x hx => by
          rw [List.mem_singleton.1 hx])
        (by simp) rfl hpn (fun _ _ => rfl)
        (fun j h0 hj => by
          simp at hj
          omega)
      rw [r1]
      simp only
      obtain ⟨t, rfl⟩ : ∃ t, q1 = i :: t := by
        cases q1 with
        | nil => simp at r3
        | cons a t =>
          simp only [List.head?_cons, Option.some.injEq] at r3
          exact ⟨t, by rw [r3]⟩
      have hnd : (marked ++ i :: t).Nodup := r2.2.2.2
      have hdis : ∀ x, x ∈ marked → x ∉ i :: t := fun x h1 h2 =>
        (List.nodup_append.1 hnd).2.2 h1 h2
      have hit : i ∉ t := (List.nodup_cons.1 (List.nodup_append.1 hnd).2.1).1
      have hlow : ∀ u, u < i → u ∈ marked := fun u hu =>
        hall u (by omega) (by
          intro h
          rcases List.mem_cons.1 h with h | h
          · omega
          · have := hpw.1 u h
            omega)
      have hpi : p1.getD i 0 = SIZE_MAX := by
        rw [r7 i (by simpa using hit)]
        exact hun i hi hio
      have hchain := queue_chain (fun a => a ∈ marked ++ i :: t) p1 (i :: t)
        (fun x hx => List.mem_append_right _ hx)
        (fun j h0 hj => by
          obtain ⟨j', hj', e1, _⟩ := r8 j h0 hj
          exact ⟨j', hj', e1⟩)
      apply ih v1 p1 (marked ++ i :: t) hpw.2 (fun j hj => hrem j (List.mem_cons_of_mem _ hj)) r2
      · intro j hj hjr
        by_cases hji : j = i
        · rw [hji]
          simp
        · exact List.mem_append_left _ (hall j hj (by simp [hji, hjr]))
      · intro x hx w hw
        rcases List.mem_append.1 hx with h | h
        · exact List.mem_append_left _ (hcl x h w hw)
        · exact r5 x h w hw
      · rw [r6]
        exact hpl
      · rw [r6]
        exact hpn
      · intro x hx hxm
        rw [r7 x (fun h => hxm (List.mem_append_right _ (List.mem_cons_of_mem _ h)))]
        exact hun x hx (fun h => hxm (List.mem_append_left _ h))
      · intro x hx
        rcases List.mem_append.1 hx with h | h
        · have hpx : ∀ y, y ∈ marked → p1.getD y 0 = parent.getD y 0 := fun y hy =>
            r7 y (fun h' => hdis y hy (List.mem_cons_of_mem _ h'))
          obtain ⟨g1, g2, r, g3, g4, g5⟩ := hG x h
          rw [hpx x h]
          refine ⟨g1, fun h' => ⟨List.mem_append_left _ (g2 h').1, (g2 h').2⟩, r, ?_, ?_, g5⟩
          · exact Relation.ReflTransGen.mono
              (fun a b hab => ⟨List.mem_append_left _ hab.1, by rw [hpx a hab.1]; exact hab.2⟩) g3
          · have hr : r ∈ marked := closed_reach (fun a => L.getD a []) marked hcl x r h
              (reach_symm (fun a => L.getD a []) hsym r x g5)
            rw [hpx r hr]
            exact g4
        · obtain ⟨j, hj, hjx⟩ := mem_exists_getD (i :: t) x h
          have hreach := r4 x h
          by_cases h0 : j = 0
          · have hxi : x = i := by
              rw [← hjx, h0]
              rfl
            rw [hxi]
            refine ⟨⟨fun _ u hu hr => hio (closed_reach (fun a => L.getD a []) marked hcl u i
              (hlow u hu) hr), fun _ => hpi⟩, fun h' => absurd hpi h', i,
              Relation.ReflTransGen.refl, hpi, Relation.ReflTransGen.refl⟩
          · obtain ⟨j', hj', e1, e2⟩ := r8 j (by omega) hj
            rw [hjx] at e1 e2
            have hpm : (i :: t).getD j' 0 ∈ i :: t := getD_mem_lt (i :: t) j' (by omega)
            have hplt : (i :: t).getD j' 0 < n := r2.2.2.1 _ (List.mem_append_right _ hpm)
            have hne : p1.getD x 0 ≠ SIZE_MAX := by
              rw [e1]
              omega
            have hxi : x ≠ i := by
              intro hxi
              have hnd2 : (i :: t).Nodup := (List.nodup_append.1 hnd).2.1
              have h2 : (i :: t).getD j 0 = (i :: t).getD 0 0 := by
                rw [hjx, hxi]
                rfl
              simp only [List.getD_eq_getElem?_getD, List.getElem?_eq_getElem hj,
                List.getElem?_eq_getElem (show 0 < (i :: t).length by simp),
                Option.getD_some] at h2
              have := (List.Nodup.getElem_inj_iff hnd2).1 h2
              exact h0 this
            have hxn : x < n := r2.2.2.1 _ (List.mem_append_right _ h)
            have hix : i < x := by
              have hxm : x ∉ marked := fun h' => hdis x h' h
              by_contra hle
              have hxr : x ∉ i :: rest := by
                intro h'
                rcases List.mem_cons.1 h' with h' | h'
                · exact hxi h'
                · have := hpw.1 x h'
                  omega
              exact hxm (hall x hxn hxr)
            refine ⟨⟨fun h' => absurd h' hne, fun h' => absurd hreach (h' i hix)⟩,
              fun _ => ⟨by rw [e1]; exact List.mem_append_right _ hpm, by rw [e1]; exact e2⟩,
              i, ?_, hpi, hreach⟩
            have := hchain j hj
            rw [hjx] at this
            exact this
    · rw [if_neg hv]
      have him : i ∈ marked := by
        cases hb : visited.getD i false with
        | false => exact absurd hb hv
        | true => exact (hm.2.1 i hi).1 hb
      apply ih visited parent marked hpw.2 (fun j hj => hrem j (List.mem_cons_of_mem _ hj)) hm
        ?_ hcl hpl hpn hun hG
      intro j hj hjr
      by_cases hji : j = i
      · rw [hji]
        exact him
      · exact hall j hj (by simp [hji, hjr])

end kruskal_forest_lemmas

/-! ## Kruskal: the whole function -/

section kruskal_run_lemmas

variable {K : Type}

theorem mst_parent_init_spec (n : Nat) (parent : List Nat) (h : n ≤ parent.length) :
    (mst_parent_init n parent).length = parent.length ∧
      ∀ x, (mst_parent_init n parent).getD x 0 =
        if x < n then SIZE_MAX else parent.getD x 0 := by
  unfold mst_parent_init
  induction n with
  | zero => simp
  | succ n ih =>
    obtain ⟨h1, h2⟩ := ih (by omega)
    rw [List.range_succ, List.foldl_append]
    simp only [List.foldl_cons, List.foldl_nil]
    refine ⟨by rw [List.length_set, h1], fun x => ?_⟩
    rw [getD_set_nat _ n x SIZE_MAX (by rw [h1]; omega), h2 x]
    by_cases hx : x = n
    · subst hx
      simp
    · rw [if_neg hx]
      by_cases hx2 : x < n
      · rw [if_pos hx2, if_pos (by omega)]
      · rw [if_neg hx2, if_neg (by omega)]

theorem edge_cmp_le (a b : algokit_graph_mst_edge) (h : algokit_graph_edge_cmp a b ≤ 0) :
    a.w ≤ b.w := by
  unfold algokit_graph_edge_cmp at h
  by_contra hc
  have h1 : a.w > b.w := lt_of_not_le hc
  rw [if_pos h1, if_neg (not_lt.2 (le_of_lt h1))] at h
  omega

/-- The edges of the array join what the adjacency lists join. -/
theorem kruskal_edges_conn (g : algokit_graph K Rat) (hwf : graph_wf g) (hsym : graph_symm g)
    (x y : Nat) :
    mst_conn (kruskal_edges g) x y ↔ Relation.ReflTransGen (graph_edge g) x y := by
  constructor
  · intro h
    induction h with
    | rel a b hab =>
      obtain ⟨e, he, rfl, rfl⟩ := hab
      have h3 := ((kruskal_edges_mem g e).1 he).2.2
      apply Relation.ReflTransGen.single
      unfold graph_edge
      rw [graph_adj_eq_edges]
      exact List.mem_map.2 ⟨_, h3, rfl⟩
    | refl a => exact Relation.ReflTransGen.refl
    | symm a b _ ih => exact reach_symm (algokit_graph_adj g) (graph_symm_adj g hsym) a b ih
    | trans a b c _ _ ih1 ih2 => exact Relation.ReflTransGen.trans ih1 ih2
  · intro h
    induction h with
    | refl => exact mst_conn_refl _ _
    | @tail b c _ hbc ih =>
      refine mst_conn_trans _ _ _ _ ih ?_
      have hc : c ∈ algokit_graph_adj g b := hbc
      have hc2 := hc
      rw [graph_adj_eq_edges] at hc2
      obtain ⟨ed, hed, hedc⟩ := List.mem_map.1 hc2
      have hcn : c < g.size := graph_adj_lt g hwf b c hc
      have hbn : b < g.size := graph_adj_lt g hwf c b (graph_symm_adj g hsym b c hc)
      have hed2 : (⟨c, ed.weight⟩ : algokit_graph_edge Rat) ∈ algokit_graph_edges g b := by
        rw [← hedc]
        exact hed
      rcases Nat.lt_trichotomy b c with hlt | heq | hgt
      · exact mst_conn_edge _ ⟨b, c, ed.weight⟩ ((kruskal_edges_mem g _).2 ⟨hbn, hlt, hed2⟩)
      · rw [heq]
        exact mst_conn_refl _ _
      · exact mst_conn_symm _ _ _ (mst_conn_edge _ ⟨c, b, ed.weight⟩
          ((kruskal_edges_mem g _).2 ⟨hcn, hgt, hsym b c ed.weight hed2⟩))

/-- The lists of `mst_adj` join what the accepted edges join. -/
theorem mst_adj_conn (n : Nat) (L : List (List Nat)) (acc : List algokit_graph_mst_edge)
    (hL : L.length = n)
    (hiff : ∀ a b, a < n → (b ∈ L.getD a [] ↔
      ∃ e ∈ acc, (e.u = a ∧ e.v = b) ∨ (e.u = b ∧ e.v = a)))
    (hlt : ∀ e ∈ acc, e.u < n ∧ e.v < n) :
    (∀ a w, w ∈ L.getD a [] → w < n) ∧ (∀ u v, v ∈ L.getD u [] → u ∈ L.getD v []) ∧
    (∀ x y, mst_conn acc x y → Relation.ReflTransGen (fun a b => b ∈ L.getD a []) x y) ∧
    (∀ x y, Relation.ReflTransGen (fun a b => b ∈ L.getD a []) x y → mst_conn acc x y) := by
  have han : ∀ a w, w ∈ L.getD a [] → a < n := by
    intro a w hw
    by_contra hc
    rw [List.getD_eq_getElem?_getD, List.getElem?_eq_none (by omega)] at hw
    simp at hw
  have hadj : ∀ a w, w ∈ L.getD a [] → w < n := by
    intro a w hw
    obtain ⟨e, he, h | h⟩ := (hiff a w (han a w hw)).1 hw
    · rw [← h.2]
      exact (hlt e he).2
    · rw [← h.1]
      exact (hlt e he).1
  have hsym : ∀ u v, v ∈ L.getD u [] → u ∈ L.getD v [] := by
    intro u v hv
    obtain ⟨e, he, h⟩ := (hiff u v (han u v hv)).1 hv
    exact (hiff v u (hadj u v hv)).2 ⟨e, he, h.symm⟩
  refine ⟨hadj, hsym, ?_, ?_⟩
  · intro x y h
    induction h with
    | rel a b hab =>
      obtain ⟨e, he, rfl, rfl⟩ := hab
      exact Relation.ReflTransGen.single ((hiff e.u e.v (hlt e he).1).2 ⟨e, he, Or.inl ⟨rfl, rfl⟩⟩)
    | refl a => exact Relation.ReflTransGen.refl
    | symm a b _ ih => exact reach_symm (fun a => L.getD a []) hsym a b ih
    | trans a b c _ _ ih1 ih2 => exact Relation.ReflTransGen.trans ih1 ih2
  · intro x y h
    induction h with
    | refl => exact mst_conn_refl _ _
    | @tail b c _ hbc ih =>
      refine mst_conn_trans _ _ _ _ ih ?_
      obtain ⟨e, he, h | h⟩ := (hiff b c (han b c hbc)).1 hbc
      · rw [← h.1, ← h.2]
        exact mst_conn_edge _ e he
      · rw [← h.1, ← h.2]
        exact mst_conn_symm _ _ _ (mst_conn_edge _ e he)

/-- The function `algokit_graph_mst_kruskal` returns, for successful allocations and a
sorting function that keeps the promise of `qsort`.  The edges it accepts form
a forest of edges of the array that joins the ends of every edge of the array
by accepted edges weighing no more; the result code is 1 exactly when fewer
than `size - 1` edges are accepted; and the array `parent` is that of the
searches of this forest. -/
theorem kruskal_run_spec (qsort : List algokit_graph_mst_edge → List algokit_graph_mst_edge)
    (hq : qsort_sorts qsort) (g : algokit_graph K Rat) (hwf : graph_wf g)
    (hmax : g.size ≤ SIZE_MAX) (parent : List Nat)
    (hlen : g.size ≤ parent.length) :
    ∃ (L : List (List Nat)) (acc : List algokit_graph_mst_edge) (parent1 : List Nat),
      algokit_graph_mst_kruskal qsort true true true true g parent =
        some (if g.size > 0 ∧ acc.length + 1 < g.size then 1 else 0, parent1) ∧
      L.length = g.size ∧
      (∀ a b, a < g.size → (b ∈ L.getD a [] ↔
        ∃ e ∈ acc, (e.u = a ∧ e.v = b) ∨ (e.u = b ∧ e.v = a))) ∧
      edge_forest acc ∧ (∀ e ∈ acc, e ∈ kruskal_edges g) ∧
      (∀ e ∈ acc, e.u < g.size ∧ e.v < g.size) ∧
      (∀ e ∈ kruskal_edges g, mst_conn (acc.filter (fun a => decide (a.w ≤ e.w))) e.u e.v) ∧
      parent1.length = parent.length ∧
      ∀ x, x < g.size →
        (parent1.getD x 0 = SIZE_MAX ↔
          ∀ u, u < x → ¬ Relation.ReflTransGen (fun a b => b ∈ L.getD a []) u x) ∧
        (parent1.getD x 0 ≠ SIZE_MAX →
          parent1.getD x 0 < g.size ∧ x ∈ L.getD (parent1.getD x 0) []) ∧
        ∃ r, Relation.ReflTransGen (fun a b => a < g.size ∧ parent1.getD a 0 = b) x r ∧
          parent1.getD r 0 = SIZE_MAX ∧
          Relation.ReflTransGen (fun a b => b ∈ L.getD a []) r x := by
  obtain ⟨hperm, hsorted⟩ := hq (kruskal_edges g)
  have hmem : ∀ e, e ∈ qsort (kruskal_edges g) ↔ e ∈ kruskal_edges g := fun e => hperm.mem_iff
  have hbound : ∀ e ∈ kruskal_edges g, e.u < g.size ∧ e.v < g.size := by
    intro e he
    obtain ⟨h1, _, h3⟩ := (kruskal_edges_mem g e).1 he
    refine ⟨h1, graph_adj_lt g hwf e.u e.v ?_⟩
    rw [graph_adj_eq_edges]
    exact List.mem_map.2 ⟨_, h3, rfl⟩
  obtain ⟨u1, u2, u3⟩ := uf_create_inv true g.size ⟨g.size, List.range g.size,
    List.replicate g.size 1⟩ (by simp [algokit_uf_wqupc_create])
  obtain ⟨L, acc, k1, k2, k3, k4, k5, k6, k7⟩ := kruskal_union_loop_spec g.size
    (qsort (kruskal_edges g)) ⟨g.size, List.range g.size, List.replicate g.size 1⟩
    (List.replicate g.size []) [] []
    (fun e he => hbound e ((hmem e).1 he))
    (by
      rw [List.nil_append]
      exact hsorted.imp (fun h => edge_cmp_le _ _ h))
    u1 u2
    (fun x y _ _ => by
      rw [u3 x, u3 y]
      exact ⟨fun h => by rw [h]; exact mst_conn_refl _ _, fun h => mst_conn_nil x y h⟩)
    (by simp)
    (fun a b ha => by
      simp [List.getD_eq_getElem?_getD, List.getElem?_replicate, ha])
    trivial (by simp) (by simp) (by simp)
  rw [List.nil_append] at k5 k7
  obtain ⟨a1, a2, a3, a4⟩ := mst_adj_conn g.size L acc k2 k3 k6
  obtain ⟨i1, i2⟩ := mst_parent_init_spec g.size parent hlen
  obtain ⟨parent1, f1, f2, f3⟩ := kruskal_forest_loop_spec g.size L hmax a1 a2
    (mst_parent_init g.size parent) (List.range g.size) (List.replicate g.size false)
    (mst_parent_init g.size parent) []
    (List.pairwise_lt_range g.size) (fun i hi => List.mem_range.1 hi)
    ⟨by simp, fun x hx => by
      simp [List.getD_eq_getElem?_getD, List.getElem?_replicate, hx], by simp, List.nodup_nil⟩
    (fun j hj hjr => absurd (List.mem_range.2 hj) hjr) (by simp) rfl (by rw [i1]; exact hlen)
    (fun x hx _ => by rw [i2 x, if_pos hx]) (by simp)
  refine ⟨L, acc, parent1, ?_, k2, k3, k4, fun e he => (hmem e).1 (k5 e he), k6,
    fun e he => k7 e ((hmem e).2 he), by rw [f2, i1], f3⟩
  unfold algokit_graph_mst_kruskal
  simp only [Bool.true_eq_false, if_false, algokit_uf_wqupc_create]
  simp only [List.length_nil] at k1
  rw [k1]
  simp only
  rw [f1]
  simp

end kruskal_run_lemmas

/-! ## Kruskal: the property of the function -/

section kruskal_claims

variable {K : Type}

/-- Insertion sort by weight keeps the promise of `qsort`. -/
theorem mst_edge_sort_sorts : qsort_sorts mst_edge_sort := by
  intro l
  refine ⟨List.perm_insertionSort _ l, ?_⟩
  haveI : IsTotal algokit_graph_mst_edge (fun a b => a.w ≤ b.w) :=
    ⟨fun a b => le_total a.w b.w⟩
  haveI : IsTrans algokit_graph_mst_edge (fun a b => a.w ≤ b.w) :=
    ⟨fun _ _ _ h1 h2 => le_trans h1 h2⟩
  have h := List.sorted_insertionSort (fun a b : algokit_graph_mst_edge => a.w ≤ b.w) l
  refine List.Pairwise.imp ?_ h
  intro a b hab
  unfold algokit_graph_edge_cmp
  rw [if_neg (not_lt.2 hab)]
  split_ifs <;> omega

/-- The accepted edges join what the adjacency lists of the graph join. -/
theorem kruskal_acc_conn (g : algokit_graph K Rat) (hwf : graph_wf g) (hsym : graph_symm g)
    (acc : List algokit_graph_mst_edge) (hsub : ∀ e ∈ acc, e ∈ kruskal_edges g)
    (hall : ∀ e ∈ kruskal_edges g, mst_conn (acc.filter (fun a => decide (a.w ≤ e.w))) e.u e.v)
    (x y : Nat) : mst_conn acc x y ↔ Relation.ReflTransGen (graph_edge g) x y := by
  rw [← kruskal_edges_conn g hwf hsym x y]
  constructor
  · exact mst_conn_mono acc _ hsub x y
  · exact mst_conn_sub _ acc (fun e he => mst_conn_mono _ acc
      (fun e' he' => (List.mem_filter.1 he').1) _ _ (hall e he)) x y

/-- C25: the result of Kruskal.  For every undirected graph built by
`add_vertex` and `add_edge` with at least one vertex (and at most `SIZE_MAX`
of them, as a `size_t` count), weights modelled exactly, every sorting
function that keeps the promise of `qsort` and every array `parent` with room
for the vertices, `algokit_graph_mst_kruskal` (its allocations succeeding) returns 0 if
the graph is connected and 1 if it is not, and in both cases `parent` encodes
a spanning forest: a vertex has the sentinel `SIZE_MAX` exactly when it is the
lowest vertex of its connected component, every other vertex has a parent that
is a vertex adjacent to it in the graph, and the parent links lead from every
vertex to a vertex with the sentinel in its component, the root of the
component. -/
theorem graph_mst_kruskal_spanning_forest (hash : K → Nat) (cmp : K → K → Int)
    (qsort : List algokit_graph_mst_edge → List algokit_graph_mst_edge)
    (hq : qsort_sorts qsort) (g : algokit_graph K Rat) (hg : graph_reachable hash cmp g)
    (hpos : 0 < g.size) (hmax : g.size ≤ SIZE_MAX) (parent : List Nat)
    (hlen : g.size ≤ parent.length) :
    ∃ (rc : Int) (parent1 : List Nat),
      algokit_graph_mst_kruskal qsort true true true true g parent = some (rc, parent1) ∧
      parent1.length = parent.length ∧
      ((∀ u v, u < g.size → v < g.size → Relation.ReflTransGen (graph_edge g) u v) → rc = 0) ∧
      (¬ (∀ u v, u < g.size → v < g.size → Relation.ReflTransGen (graph_edge g) u v) →
        rc = 1) ∧
      ∀ v, v < g.size →
        (parent1.getD v 0 = SIZE_MAX ↔
          ∀ u, u < v → ¬ Relation.ReflTransGen (graph_edge g) u v) ∧
        (parent1.getD v 0 ≠ SIZE_MAX →
          parent1.getD v 0 < g.size ∧ graph_edge g (parent1.getD v 0) v) ∧
        ∃ r, Relation.ReflTransGen (fun a b => a < g.size ∧ parent1.getD a 0 = b) v r ∧
          parent1.getD r 0 = SIZE_MAX ∧ Relation.ReflTransGen (graph_edge g) r v := by
  have hwf := graph_reachable_wf hash cmp g hg
  have hsym := graph_reachable_symm hash cmp g hg
  obtain ⟨L, acc, parent1, e1, e2, e3, e4, e5, e6, e7, e8, e9⟩ :=
    kruskal_run_spec qsort hq g hwf hmax parent hlen
  obtain ⟨a1, a2, a3, a4⟩ := mst_adj_conn g.size L acc e2 e3 e6
  have hconn := kruskal_acc_conn g hwf hsym acc e5 e7
  have hE : ∀ x y, Relation.ReflTransGen (fun a b => b ∈ L.getD a []) x y ↔
      Relation.ReflTransGen (graph_edge g) x y := fun x y =>
    ⟨fun h => (hconn x y).1 (a4 x y h), fun h => a3 x y ((hconn x y).2 h)⟩
  obtain ⟨k, c1, c2⟩ := edge_forest_count g.size acc e4 e6
  obtain ⟨c3, c4⟩ := class_count_one g.size hpos (mst_conn acc) (mst_conn_refl acc)
    (mst_conn_symm acc) (mst_conn_trans acc) k c1
  refine ⟨_, parent1, e1, e8, ?_, ?_, fun v hv => ?_⟩
  · intro hall
    have hk : k = 1 := c4.2 (fun x y hx hy => (hconn x y).2 (hall x y hx hy))
    rw [if_neg (by omega)]
  · intro hnot
    have hk : k ≠ 1 := fun h => hnot (fun x y hx hy => (hconn x y).1 (c4.1 h x y hx hy))
    rw [if_pos ⟨hpos, by omega⟩]
  · obtain ⟨f1, f2, r, f3, f4, f5⟩ := e9 v hv
    refine ⟨?_, ?_, r, f3, f4, (hE r v).1 f5⟩
    · rw [f1]
      exact ⟨fun h u hu hr => h u hu ((hE u v).2 hr), fun h u hu hr => h u hu ((hE u v).1 hr)⟩
    · intro hne
      obtain ⟨p1, p2⟩ := f2 hne
      refine ⟨p1, ?_⟩
      obtain ⟨e, he, h | h⟩ := (e3 _ v p1).1 p2
      · have h3 := ((kruskal_edges_mem g e).1 (e5 e he)).2.2
        rw [h.1, h.2] at h3
        unfold graph_edge
        rw [graph_adj_eq_edges]
        exact List.mem_map.2 ⟨_, h3, rfl⟩
      · have h3 := ((kruskal_edges_mem g e).1 (e5 e he)).2.2
        rw [h.1, h.2] at h3
        have h4 := hsym _ _ _ h3
        unfold graph_edge
        rw [graph_adj_eq_edges]
        exact List.mem_map.2 ⟨_, h4, rfl⟩

theorem graph_mst_kruskal_spanning_forest_witness :
    (qsort_sorts mst_edge_sort ∧ graph_reachable int_hash int_cmp graph_test_graph ∧
      0 < graph_test_graph.size ∧ graph_test_graph.size ≤ SIZE_MAX ∧
      graph_test_graph.size ≤ [7, 7, 7, 7].length ∧
      algokit_graph_mst_kruskal mst_edge_sort true true true true graph_test_graph [7, 7, 7, 7] =
        some (1, [SIZE_MAX, 0, 1, SIZE_MAX])) ∧
    ∃ (rc : Int) (parent1 : List Nat),
      algokit_graph_mst_kruskal mst_edge_sort true true true true graph_test_graph [7, 7, 7, 7] =
        some (rc, parent1) ∧
      parent1.length = [7, 7, 7, 7].length ∧
      ((∀ u v, u < graph_test_graph.size → v < graph_test_graph.size →
        Relation.ReflTransGen (graph_edge graph_test_graph) u v) → rc = 0) ∧
      (¬ (∀ u v, u < graph_test_graph.size → v < graph_test_graph.size →
        Relation.ReflTransGen (graph_edge graph_test_graph) u v) → rc = 1) ∧
      ∀ v, v < graph_test_graph.size →
        (parent1.getD v 0 = SIZE_MAX ↔
          ∀ u, u < v → ¬ Relation.ReflTransGen (graph_edge graph_test_graph) u v) ∧
        (parent1.getD v 0 ≠ SIZE_MAX →
          parent1.getD v 0 < graph_test_graph.size ∧
            graph_edge graph_test_graph (parent1.getD v 0) v) ∧
        ∃ r, Relation.ReflTransGen
            (fun a b => a < graph_test_graph.size ∧ parent1.getD a 0 = b) v r ∧
          parent1.getD r 0 = SIZE_MAX ∧
          Relation.ReflTransGen (graph_edge graph_test_graph) r v :=
  ⟨⟨mst_edge_sort_sorts,
      ⟨8, graph_test_ops, ⟨[], 0, 8, ⟨List.replicate 8 algokit_digraph_map_entry.empty, 8, 0⟩⟩,
        by decide, by decide⟩, by decide, by decide, by decide, by decide!⟩,
    graph_mst_kruskal_spanning_forest int_hash int_cmp mst_edge_sort mst_edge_sort_sorts
      graph_test_graph
      ⟨8, graph_test_ops, ⟨[], 0, 8, ⟨List.replicate 8 algokit_digraph_map_entry.empty, 8, 0⟩⟩,
        by decide, by decide⟩ (by decide) (by decide) [7, 7, 7, 7] (by decide)⟩

end kruskal_claims

/-! ## Prim: the scan and the loop over an adjacency list -/

section prim_step_lemmas

/-- The scan returns the start state, or a vertex outside the tree with the
least key of those outside, that key being below the start value. -/
theorem prim_scan_spec (in_mst : List Bool) (key : List Rat) :
    ∀ (vs : List Nat) (m : Rat) (u : Nat),
      (prim_scan in_mst key vs (m, u)).1 ≤ m ∧
      (∀ v ∈ vs, in_mst.getD v false = false →
        (prim_scan in_mst key vs (m, u)).1 ≤ key.getD v 0) ∧
      (prim_scan in_mst key vs (m, u) = (m, u) ∨
        ((prim_scan in_mst key vs (m, u)).2 ∈ vs ∧
          in_mst.getD (prim_scan in_mst key vs (m, u)).2 false = false ∧
          key.getD (prim_scan in_mst key vs (m, u)).2 0 = (prim_scan in_mst key vs (m, u)).1 ∧
          (prim_scan in_mst key vs (m, u)).1 < m)) := by
  intro vs
  induction vs with
  | nil =>
    intro m u
    simp [prim_scan]
  | cons v rest ih =>
    intro m u
    rw [prim_scan]
    simp only
    by_cases hc : in_mst.getD v false = false ∧ key.getD v 0 < m
    · rw [if_pos hc]
      obtain ⟨h1, h2, h3⟩ := ih (key.getD v 0) v
      refine ⟨le_trans h1 (le_of_lt hc.2), ?_, ?_⟩
      · intro v' hv' hin
        rcases List.mem_cons.1 hv' with h | h
        · rw [h]
          exact h1
        · exact h2 v' h hin
      · right
        rcases h3 with h | ⟨k1, k2, k3, k4⟩
        · rw [h]
          exact ⟨List.mem_cons_self _ _, hc.1, rfl, hc.2⟩
        · exact ⟨List.mem_cons_of_mem _ k1, k2, k3, lt_trans k4 hc.2⟩
    · rw [if_neg hc]
      obtain ⟨h1, h2, h3⟩ := ih m u
      refine ⟨h1, ?_, ?_⟩
      · intro v' hv' hin
        rcases List.mem_cons.1 hv' with h | h
        · rw [h] at hin ⊢
          have : m ≤ key.getD v 0 := not_lt.1 (fun hlt => hc ⟨hin, hlt⟩)
          exact le_trans h1 this
        · exact h2 v' h hin
      · rcases h3 with h | ⟨k1, k2, k3, k4⟩
        · exact Or.inl h
        · exact Or.inr ⟨List.mem_cons_of_mem _ k1, k2, k3, k4⟩

/-- The loop over the adjacency list of `u` lowers no key; the key of a target
outside the tree is afterwards at most the weight of each entry for it; and an
entry of `key` and `parent` is either unchanged, or belongs to a vertex outside
the tree that has got `u` as parent and the weight of an entry for it, below
the key before, as key. -/
theorem prim_edges_spec (in_mst : List Bool) (u : Nat) :
    ∀ (es : List (algokit_graph_edge Rat)) (key : List Rat) (parent : List Nat),
      (∀ e ∈ es, e.target < key.length ∧ e.target < parent.length) →
      (prim_edges in_mst u es (key, parent)).1.length = key.length ∧
      (prim_edges in_mst u es (key, parent)).2.length = parent.length ∧
      ∀ x, (prim_edges in_mst u es (key, parent)).1.getD x 0 ≤ key.getD x 0 ∧
        (∀ e ∈ es, e.target = x → in_mst.getD x false = false →
          (prim_edges in_mst u es (key, parent)).1.getD x 0 ≤ e.weight) ∧
        (((prim_edges in_mst u es (key, parent)).1.getD x 0 = key.getD x 0 ∧
            (prim_edges in_mst u es (key, parent)).2.getD x 0 = parent.getD x 0) ∨
          (in_mst.getD x false = false ∧
            (prim_edges in_mst u es (key, parent)).2.getD x 0 = u ∧
            (prim_edges in_mst u es (key, parent)).1.getD x 0 < key.getD x 0 ∧
            ∃ e ∈ es, e.target = x ∧
              e.weight = (prim_edges in_mst u es (key, parent)).1.getD x 0)) := by
  intro es
  induction es with
  | nil =>
    intro key parent _
    simp [prim_edges]
  | cons e es ih =>
    intro key parent hlt
    obtain ⟨ht1, ht2⟩ := hlt e (List.mem_cons_self _ _)
    rw [prim_edges]
    simp only
    by_cases hc : in_mst.getD e.target false = false ∧ e.weight < key.getD e.target 0
    · rw [if_pos hc]
      obtain ⟨h1, h2, h3⟩ := ih (key.set e.target e.weight) (parent.set e.target u)
        (fun e' he' => by
          simpa using hlt e' (List.mem_cons_of_mem _ he'))
      refine ⟨by simpa using h1, by simpa using h2, fun x => ?_⟩
      obtain ⟨a1, a2, a3⟩ := h3 x
      rw [getD_set_gen key e.target x e.weight 0 ht1] at a1 a3
      rw [getD_set_nat parent e.target x u ht2] at a3
      by_cases hx : x = e.target
      · rw [if_pos hx] at a1 a3
        rw [if_pos hx] at a3
        have hk : e.weight < key.getD x 0 := by
          rw [hx]
          exact hc.2
        refine ⟨le_trans a1 (le_of_lt hk), ?_, ?_⟩
        · intro e' he' htx hin
          rcases List.mem_cons.1 he' with h | h
          · rw [h]
            exact a1
          · exact a2 e' h htx hin
        · right
          rcases a3 with ⟨b1, b2⟩ | ⟨b1, b2, b3, e', he', b4, b5⟩
          · refine ⟨by rw [hx]; exact hc.1, b2, by rw [b1]; exact hk, e,
              List.mem_cons_self _ _, hx.symm, b1.symm⟩
          · exact ⟨b1, b2, lt_trans b3 hk, e', List.mem_cons_of_mem _ he', b4, b5⟩
      · rw [if_neg hx] at a1 a3
        rw [if_neg hx] at a3
        refine ⟨a1, ?_, ?_⟩
        · intro e' he' htx hin
          rcases List.mem_cons.1 he' with h | h
          · rw [h] at htx
            exact absurd htx.symm hx
          · exact a2 e' h htx hin
        · rcases a3 with h | ⟨b1, b2, b3, e', he', b4, b5⟩
          · exact Or.inl h
          · exact Or.inr ⟨b1, b2, b3, e', List.mem_cons_of_mem _ he', b4, b5⟩
    · rw [if_neg hc]
      obtain ⟨h1, h2, h3⟩ := ih key parent (fun e' he' => hlt e' (List.mem_cons_of_mem _ he'))
      refine ⟨h1, h2, fun x => ?_⟩
      obtain ⟨a1, a2, a3⟩ := h3 x
      refine ⟨a1, ?_, ?_⟩
      · intro e' he' htx hin
        rcases List.mem_cons.1 he' with h | h
        · subst h
          subst htx
          have : key.getD e'.target 0 ≤ e'.weight := not_lt.1 (fun hlt' => hc ⟨hin, hlt'⟩)
          exact le_trans a1 this
        · exact a2 e' h htx hin
      · rcases a3 with h | ⟨b1, b2, b3, e', he', b4, b5⟩
        · exact Or.inl h
        · exact Or.inr ⟨b1, b2, b3, e', List.mem_cons_of_mem _ he', b4, b5⟩

end prim_step_lemmas

/-! ## Prim: one round -/

section prim_round_lemmas

variable {K : Type}

/-- A chain of edges between a vertex inside a set and one outside has an
edge that leaves the set. -/
theorem mst_conn_crossing (L : List algokit_graph_mst_edge) (S : Nat → Prop) (a b : Nat)
    (h : mst_conn L a b) :
    (S a ↔ S b) ∨ ∃ e ∈ L, (S e.u ∧ ¬ S e.v) ∨ (¬ S e.u ∧ S e.v) := by
  classical
  induction h with
  | rel x y hxy =>
    obtain ⟨e, he, rfl, rfl⟩ := hxy
    by_cases h1 : S e.u <;> by_cases h2 : S e.v
    · exact Or.inl ⟨fun _ => h2, fun _ => h1⟩
    · exact Or.inr ⟨e, he, Or.inl ⟨h1, h2⟩⟩
    · exact Or.inr ⟨e, he, Or.inr ⟨h1, h2⟩⟩
    · exact Or.inl ⟨fun h => absurd h h1, fun h => absurd h h2⟩
  | refl x => exact Or.inl Iff.rfl
  | symm x y _ ih =>
    rcases ih with h | h
    · exact Or.inl h.symm
    · exact Or.inr h
  | trans x y z _ _ ih1 ih2 =>
    rcases ih1 with h1 | h1
    · rcases ih2 with h2 | h2
      · exact Or.inl (h1.trans h2)
      · exact Or.inr h2
    · exact Or.inr h1

theorem graph_edges_lt (g : algokit_graph K Rat) (hwf : graph_wf g) (u : Nat)
    (e : algokit_graph_edge Rat) (he : e ∈ algokit_graph_edges g u) :
    u < g.size ∧ e.target < g.size := by
  have h1 : e.target ∈ algokit_graph_adj g u := by
    rw [graph_adj_eq_edges]
    exact List.mem_map.2 ⟨e, he, rfl⟩
  refine ⟨?_, graph_adj_lt g hwf u _ h1⟩
  unfold algokit_graph_edges at he
  cases hv : g.vertices.get? u with
  | none =>
    rw [hv] at he
    simp at he
  | some vx =>
    rw [← hwf.1]
    exact (List.get?_eq_some.1 hv).1

theorem graph_weights_below_edges (g : algokit_graph K Rat) (hw : graph_weights_below g) (u : Nat)
    (e : algokit_graph_edge Rat) (he : e ∈ algokit_graph_edges g u) : e.weight < DBL_MAX := by
  unfold algokit_graph_edges at he
  cases hv : g.vertices.get? u with
  | none =>
    rw [hv] at he
    simp at he
  | some vx =>
    rw [hv] at he
    exact hw vx (List.get?_mem hv) e he

/-- An adjacency entry has its ends joined by the edge array, among the
entries that weigh no more than it. -/
theorem kruskal_edges_entry (g : algokit_graph K Rat) (hwf : graph_wf g) (hsym : graph_symm g)
    (p u : Nat) (w t : Rat) (he : (⟨u, w⟩ : algokit_graph_edge Rat) ∈ algokit_graph_edges g p)
    (hwt : w ≤ t) :
    mst_conn ((kruskal_edges g).filter (fun e => decide (e.w ≤ t))) p u := by
  obtain ⟨hp, hu⟩ := graph_edges_lt g hwf p _ he
  rcases Nat.lt_trichotomy p u with hlt | heq | hgt
  · exact mst_conn_edge _ ⟨p, u, w⟩ (List.mem_filter.2
      ⟨(kruskal_edges_mem g _).2 ⟨hp, hlt, he⟩, decide_eq_true hwt⟩)
  · rw [heq]
    exact mst_conn_refl _ _
  · exact mst_conn_symm _ _ _ (mst_conn_edge _ ⟨u, p, w⟩ (List.mem_filter.2
      ⟨(kruskal_edges_mem g _).2 ⟨hu, hgt, hsym p u w he⟩, decide_eq_true hwt⟩))

/-- The loop over the adjacency list of the vertex `u` that was taken
re-establishes the two facts about the keys of the vertices outside the tree,
and changes no parent of a vertex of the tree. -/
theorem prim_relax_keys (g : algokit_graph K Rat) (hwf : graph_wf g) (S : List Nat) (u : Nat)
    (in_mst1 : List Bool) (key : List Rat) (parent : List Nat)
    (hm : dfs_marked g.size in_mst1 (S ++ [u])) (hkl : key.length = g.size)
    (hpl : g.size ≤ parent.length)
    (hk1 : ∀ v, v < g.size → v ∉ S → ∀ y ∈ S, ∀ w : Rat,
      (⟨v, w⟩ : algokit_graph_edge Rat) ∈ algokit_graph_edges g y → key.getD v 0 ≤ w)
    (hk2 : ∀ v, v < g.size → v ∉ S → v ≠ u → key.getD v 0 < DBL_MAX →
      parent.getD v 0 ∈ S ∧
        (⟨v, key.getD v 0⟩ : algokit_graph_edge Rat) ∈ algokit_graph_edges g (parent.getD v 0)) :
    (prim_edges in_mst1 u (algokit_graph_edges g u) (key, parent)).1.length = g.size ∧
    (prim_edges in_mst1 u (algokit_graph_edges g u) (key, parent)).2.length = parent.length ∧
    (∀ x ∈ S ++ [u],
      (prim_edges in_mst1 u (algokit_graph_edges g u) (key, parent)).2.getD x 0 =
        parent.getD x 0) ∧
    (∀ v, v < g.size → v ∉ S ++ [u] → ∀ y ∈ S ++ [u], ∀ w : Rat,
      (⟨v, w⟩ : algokit_graph_edge Rat) ∈ algokit_graph_edges g y →
        (prim_edges in_mst1 u (algokit_graph_edges g u) (key, parent)).1.getD v 0 ≤ w) ∧
    (∀ v, v < g.size → v ∉ S ++ [u] →
      (prim_edges in_mst1 u (algokit_graph_edges g u) (key, parent)).1.getD v 0 < DBL_MAX →
      (prim_edges in_mst1 u (algokit_graph_edges g u) (key, parent)).2.getD v 0 ∈ S ++ [u] ∧
        (⟨v, (prim_edges in_mst1 u (algokit_graph_edges g u) (key, parent)).1.getD v 0⟩ :
          algokit_graph_edge Rat) ∈ algokit_graph_edges g
            ((prim_edges in_mst1 u (algokit_graph_edges g u) (key, parent)).2.getD v 0)) := by
  obtain ⟨r1, r2, r3⟩ := prim_edges_spec in_mst1 u (algokit_graph_edges g u) key parent
    (fun e he => by
      have := (graph_edges_lt g hwf u e he).2
      omega)
  have hout : ∀ v, v < g.size → v ∉ S ++ [u] → in_mst1.getD v false = false := by
    intro v hv hvs
    cases hb : in_mst1.getD v false with
    | false => rfl
    | true => exact absurd ((hm.2.1 v hv).1 hb) hvs
  have hin : ∀ v ∈ S ++ [u], in_mst1.getD v false = true := fun v hv =>
    (hm.2.1 v (hm.2.2.1 v hv)).2 hv
  refine ⟨by rw [r1, hkl], r2, ?_, ?_, ?_⟩
  · intro x hx
    rcases (r3 x).2.2 with h | h
    · exact h.2
    · rw [hin x hx] at h
      simp at h
  · intro v hv hvs y hy w hew
    have hvS : v ∉ S := fun h => hvs (List.mem_append_left _ h)
    rcases List.mem_append.1 hy with h | h
    · exact le_trans (r3 v).1 (hk1 v hv hvS y h w hew)
    · rw [List.mem_singleton.1 h] at hew
      exact (r3 v).2.1 ⟨v, w⟩ hew rfl (hout v hv hvs)
  · intro v hv hvs hlt
    have hvS : v ∉ S := fun h => hvs (List.mem_append_left _ h)
    have hvu : v ≠ u := fun h => hvs (List.mem_append_right _ (by rw [h]; simp))
    rcases (r3 v).2.2 with ⟨b1, b2⟩ | ⟨_, b2, _, e, he, b4, b5⟩
    · rw [b1, b2]
      rw [b1] at hlt
      obtain ⟨c1, c2⟩ := hk2 v hv hvS hvu hlt
      exact ⟨List.mem_append_left _ c1, c2⟩
    · rw [b2]
      refine ⟨List.mem_append_right _ (by simp), ?_⟩
      rw [← b5, ← b4]
      exact he

end prim_round_lemmas

/-! ## Prim: the main loop -/

section prim_loop_lemmas

variable {K : Type}

theorem getD_append_last (l : List Nat) (u : Nat) : (l ++ [u]).getD l.length 0 = u := by
  simp [List.getD_eq_getElem?_getD]

/-- A round of the main loop that takes the vertex `u`, outside the tree and
with the least key of the vertices outside, that key below `DBL_MAX`, keeps the
invariant. -/
theorem prim_round_inv (g : algokit_graph K Rat) (hwf : graph_wf g) (hsym : graph_symm g)
    (S : List Nat) (P : List algokit_graph_mst_edge) (in_mst : List Bool) (key : List Rat)
    (parent : List Nat) (hinv : prim_inv g S P in_mst key parent) (u : Nat) (hu : u < g.size)
    (huS : u ∉ S) (hku : key.getD u 0 < DBL_MAX)
    (hmin : ∀ v, v < g.size → v ∉ S → key.getD u 0 ≤ key.getD v 0) :
    prim_inv g (S ++ [u]) (⟨parent.getD u 0, u, key.getD u 0⟩ :: P) (in_mst.set u true)
      (prim_edges (in_mst.set u true) u (algokit_graph_edges g u) (key, parent)).1
      (prim_edges (in_mst.set u true) u (algokit_graph_edges g u) (key, parent)).2 := by
  obtain ⟨hm, hkl, hpl, hS, t1, t2, t3, t4, t5, t6, k1, k2⟩ := hinv
  obtain ⟨hpS, hpe⟩ := k2 u hu huS hku
  have hm1 := dfs_marked_push g.size in_mst S u hm hu huS
  obtain ⟨q1, q2, q3, q4, q5⟩ := prim_relax_keys g hwf S u (in_mst.set u true) key parent hm1
    hkl hpl k1 (fun v hv hvS _ => k2 v hv hvS)
  have hne : S ≠ [] := by
    intro h
    rw [h] at hS
    simp at hS
  have hPv : ∀ e ∈ P, e.v ∈ S := by
    intro e he
    have h1 : e.v ∈ P.map (fun e => e.v) := List.mem_map.2 ⟨e, he, rfl⟩
    rw [t1] at h1
    exact List.mem_of_mem_tail (List.mem_reverse.1 h1)
  have hedge : mst_conn (⟨parent.getD u 0, u, key.getD u 0⟩ :: P) (parent.getD u 0) u :=
    mst_conn_edge _ ⟨parent.getD u 0, u, key.getD u 0⟩ (List.mem_cons_self _ _)
  have hmono : ∀ x y, mst_conn P x y →
      mst_conn (⟨parent.getD u 0, u, key.getD u 0⟩ :: P) x y := fun x y h =>
    mst_conn_mono P _ (fun e he => List.mem_cons_of_mem _ he) x y h
  have htop : ∀ a ∈ S ++ [u],
      mst_conn (⟨parent.getD u 0, u, key.getD u 0⟩ :: P) a (parent.getD u 0) := by
    intro a ha
    rcases List.mem_append.1 ha with h | h
    · exact hmono _ _ (t3 a h _ hpS)
    · rw [List.mem_singleton.1 h]
      exact mst_conn_symm _ _ _ hedge
  refine ⟨hm1, q1, by rw [q2]; exact hpl, by simp, ?_, ?_, ?_, ?_, ?_, ?_, q4, q5⟩
  · rw [List.tail_append_of_ne_nil hne, List.reverse_append, List.map_cons, t1]
    rfl
  · intro e he
    rcases List.mem_cons.1 he with h | h
    · rw [h]
      exact ⟨List.mem_append_left _ hpS, hpe, q3 u (by simp)⟩
    · obtain ⟨c1, c2, c3⟩ := t2 e h
      exact ⟨List.mem_append_left _ c1, c2, by
        rw [q3 e.v (List.mem_append_left _ (hPv e h))]
        exact c3⟩
  · intro a ha b hb
    exact mst_conn_trans _ _ _ _ (htop a ha) (mst_conn_symm _ _ _ (htop b hb))
  · have hfm : ∀ (t : Rat) x y, mst_conn (P.filter (fun e => decide (e.w ≤ t))) x y →
        mst_conn ((⟨parent.getD u 0, u, key.getD u 0⟩ :: P).filter
          (fun e => decide (e.w ≤ t))) x y := fun t x y h =>
      mst_conn_mono _ _ (fun e he => List.mem_filter.2
        ⟨List.mem_cons_of_mem _ (List.mem_filter.1 he).1, (List.mem_filter.1 he).2⟩) x y h
    have hH : ∀ (t : Rat), ∀ b ∈ S,
        mst_conn ((kruskal_edges g).filter (fun e => decide (e.w ≤ t))) u b →
        mst_conn ((⟨parent.getD u 0, u, key.getD u 0⟩ :: P).filter
          (fun e => decide (e.w ≤ t))) u b := by
      intro t b hb hG
      have hkt : key.getD u 0 ≤ t := by
        rcases mst_conn_crossing _ (fun x => x ∈ S) u b hG with h | ⟨e, he, h⟩
        · exact absurd (h.2 hb) huS
        · obtain ⟨he1, he2⟩ := List.mem_filter.1 he
          have hwt : e.w ≤ t := of_decide_eq_true he2
          obtain ⟨m1, _, m3⟩ := (kruskal_edges_mem g e).1 he1
          have m4 := (graph_edges_lt g hwf e.u _ m3).2
          rcases h with ⟨h1, h2⟩ | ⟨h1, h2⟩
          · exact le_trans (hmin e.v m4 h2) (le_trans (k1 e.v m4 h2 e.u h1 e.w m3) hwt)
          · exact le_trans (hmin e.u m1 h1)
              (le_trans (k1 e.u m1 h1 e.v h2 e.w (hsym _ _ _ m3)) hwt)
      have hin : mst_conn ((⟨parent.getD u 0, u, key.getD u 0⟩ :: P).filter
          (fun e => decide (e.w ≤ t))) (parent.getD u 0) u :=
        mst_conn_edge _ ⟨parent.getD u 0, u, key.getD u 0⟩ (List.mem_filter.2
          ⟨List.mem_cons_self _ _, decide_eq_true hkt⟩)
      have hGp := kruskal_edges_entry g hwf hsym (parent.getD u 0) u (key.getD u 0) t hpe hkt
      have hold := t4 (parent.getD u 0) hpS b hb t (mst_conn_trans _ _ _ _ hGp hG)
      exact mst_conn_trans _ _ _ _ (mst_conn_symm _ _ _ hin) (hfm t _ _ hold)
    intro a ha b hb t hG
    rcases List.mem_append.1 ha with h1 | h1
    · rcases List.mem_append.1 hb with h2 | h2
      · exact hfm t a b (t4 a h1 b h2 t hG)
      · rw [List.mem_singleton.1 h2] at hG ⊢
        exact mst_conn_symm _ _ _ (hH t a h1 (mst_conn_symm _ _ _ hG))
    · rw [List.mem_singleton.1 h1] at hG ⊢
      rcases List.mem_append.1 hb with h2 | h2
      · exact hH t b h2 hG
      · rw [List.mem_singleton.1 h2]
        exact mst_conn_refl _ _
  · rw [getD_append_lt S [u] 0 hS, q3 _ (List.mem_append_left _ (getD_mem_lt S 0 hS))]
    exact t5
  · intro j hj0 hj
    by_cases hjS : j < S.length
    · obtain ⟨j', hj', e1, e2⟩ := t6 j hj0 hjS
      refine ⟨j', hj', ?_, ?_⟩
      · rw [getD_append_lt S [u] j hjS, getD_append_lt S [u] j' (by omega),
          q3 _ (List.mem_append_left _ (getD_mem_lt S j hjS))]
        exact e1
      · rw [getD_append_lt S [u] j hjS, getD_append_lt S [u] j' (by omega)]
        exact e2
    · have hjl : j = S.length := by
        rw [List.length_append, List.length_singleton] at hj
        omega
      obtain ⟨j', hj', hjp⟩ := mem_exists_getD S _ hpS
      refine ⟨j', by omega, ?_, ?_⟩
      · rw [hjl, getD_append_last, getD_append_lt S [u] j' hj', q3 u (by simp), hjp]
      · rw [hjl, getD_append_last, getD_append_lt S [u] j' hj', hjp]
        unfold graph_edge
        rw [graph_adj_eq_edges]
        exact List.mem_map.2 ⟨_, hpe, rfl⟩

/-- The main loop returns.  It ends with 0 when the tree has taken every
vertex, and with 1 when it has not and no adjacency entry leads out of the
tree; the invariant holds at the end. -/
theorem prim_loop_spec (g : algokit_graph K Rat) (hwf : graph_wf g) (hsym : graph_symm g)
    (hw : graph_weights_below g) (hmax : g.size ≤ SIZE_MAX) :
    ∀ (rounds : Nat) (S : List Nat) (P : List algokit_graph_mst_edge) (in_mst : List Bool)
      (key : List Rat) (parent : List Nat),
      prim_inv g S P in_mst key parent → rounds + S.length = g.size →
      ∃ (S1 : List Nat) (P1 : List algokit_graph_mst_edge) (in1 : List Bool) (key1 : List Rat)
        (parent1 : List Nat) (rc : Int),
        prim_loop g rounds in_mst key parent = (rc, parent1) ∧
        parent1.length = parent.length ∧ prim_inv g S1 P1 in1 key1 parent1 ∧
        S1.getD 0 0 = S.getD 0 0 ∧
        ((rc = 0 ∧ S1.length = g.size) ∨
          (rc = 1 ∧ S1.length < g.size ∧ ∀ y ∈ S1, ∀ v ∈ algokit_graph_adj g y, v ∈ S1)) := by
  intro rounds
  induction rounds with
  | zero =>
    intro S P in_mst key parent hinv hr
    exact ⟨S, P, in_mst, key, parent, 0, rfl, rfl, hinv, rfl, Or.inl ⟨rfl, by omega⟩⟩
  | succ rounds ih =>
    intro S P in_mst key parent hinv hr
    have hinv0 := hinv
    obtain ⟨hm, hkl, hpl, hS, t1, t2, t3, t4, t5, t6, k1, k2⟩ := hinv
    rw [prim_loop]
    simp only
    obtain ⟨s1, s2, s3⟩ := prim_scan_spec in_mst key (List.range g.size) DBL_MAX SIZE_MAX
    have hout : ∀ v, v < g.size → (in_mst.getD v false = false ↔ v ∉ S) := by
      intro v hv
      constructor
      · intro h hvS
        rw [(hm.2.1 v hv).2 hvS] at h
        simp at h
      · intro h
        cases hb : in_mst.getD v false with
        | false => rfl
        | true => exact absurd ((hm.2.1 v hv).1 hb) h
    by_cases hf : (prim_scan in_mst key (List.range g.size) (DBL_MAX, SIZE_MAX)).2 = SIZE_MAX
    · rw [if_pos hf]
      have hnone : prim_scan in_mst key (List.range g.size) (DBL_MAX, SIZE_MAX) =
          (DBL_MAX, SIZE_MAX) := by
        rcases s3 with h | ⟨h1, _⟩
        · exact h
        · rw [hf] at h1
          have := List.mem_range.1 h1
          omega
      rw [hnone] at s2
      refine ⟨S, P, in_mst, key, parent, 1, rfl, rfl, hinv0, rfl, Or.inr ⟨rfl, by omega, ?_⟩⟩
      intro y hy v hv
      by_contra hvS
      have hvn : v < g.size := graph_adj_lt g hwf y v hv
      rw [graph_adj_eq_edges] at hv
      obtain ⟨e, he, hev⟩ := List.mem_map.1 hv
      have h1 := k1 v hvn hvS y hy e.weight (by rw [← hev]; exact he)
      have h2 := s2 v (List.mem_range.2 hvn) ((hout v hvn).2 hvS)
      have h3 := graph_weights_below_edges g hw y e he
      exact absurd (lt_of_le_of_lt (le_trans h2 h1) h3) (lt_irrefl _)
    · rw [if_neg hf]
      rcases s3 with h | ⟨h1, h2, h3, h4⟩
      · rw [h] at hf
        exact absurd rfl hf
      · have hu := List.mem_range.1 h1
        have huS := (hout _ hu).1 h2
        have hmin : ∀ v, v < g.size → v ∉ S →
            key.getD (prim_scan in_mst key (List.range g.size) (DBL_MAX, SIZE_MAX)).2 0 ≤
              key.getD v 0 := by
          intro v hv hvS
          rw [h3]
          exact s2 v (List.mem_range.2 hv) ((hout v hv).2 hvS)
        have hnew := prim_round_inv g hwf hsym S P in_mst key parent hinv0 _ hu huS
          (by rw [h3]; exact h4) hmin
        obtain ⟨S1, P1, in1, key1, parent1, rc, e1, e2, e3, e4, e5⟩ := ih _ _ _ _ _ hnew
          (by rw [List.length_append, List.length_singleton]; omega)
        refine ⟨S1, P1, in1, key1, parent1, rc, e1, ?_, e3, ?_, e5⟩
        · rw [e2]
          exact (prim_edges_spec _ _ _ key parent (fun e he => by
            have := (graph_edges_lt g hwf _ e he).2
            omega)).2.1
        · rw [e4]
          exact getD_append_lt S _ 0 hS

end prim_loop_lemmas

/-! ## Prim: the whole function -/

section prim_run_lemmas

variable {K : Type}

theorem DBL_MAX_pos : (0 : Rat) < DBL_MAX := by
  unfold DBL_MAX
  norm_num

/-- A list of `n` different numbers below `n` holds every number below `n`. -/
theorem nodup_full_mem (l : List Nat) (n : Nat) (hnd : l.Nodup) (hlt : ∀ v ∈ l, v < n)
    (hlen : l.length = n) : ∀ v, v < n → v ∈ l := by
  have h1 : l.toFinset ⊆ Finset.range n := by
    intro v hv
    rw [List.mem_toFinset] at hv
    exact Finset.mem_range.2 (hlt v hv)
  have h2 : l.toFinset = Finset.range n :=
    Finset.eq_of_subset_of_card_le h1
      (by rw [List.toFinset_card_of_nodup hnd, Finset.card_range, hlen])
  intro v hv
  have : v ∈ l.toFinset := by
    rw [h2]
    exact Finset.mem_range.2 hv
  exact List.mem_toFinset.1 this

/-- A list that holds every number below `n` has at least `n` entries. -/
theorem full_length_ge (l : List Nat) (n : Nat) (h : ∀ v, v < n → v ∈ l) : n ≤ l.length := by
  have h1 : Finset.range n ⊆ l.toFinset := by
    intro v hv
    exact List.mem_toFinset.2 (h v (Finset.mem_range.1 hv))
  have h2 := Finset.card_le_card h1
  rw [Finset.card_range] at h2
  exact le_trans h2 (List.toFinset_card_le l)

/-- Every vertex of the tree is reached from the first one along adjacency
entries. -/
theorem prim_inv_reach (g : algokit_graph K Rat) (S : List Nat)
    (P : List algokit_graph_mst_edge) (in_mst : List Bool) (key : List Rat) (parent : List Nat)
    (hinv : prim_inv g S P in_mst key parent) :
    ∀ v ∈ S, Relation.ReflTransGen (graph_edge g) (S.getD 0 0) v := by
  obtain ⟨hm, hkl, hpl, hS, t1, t2, t3, t4, t5, t6, k1, k2⟩ := hinv
  have hpos : ∀ j, j < S.length →
      Relation.ReflTransGen (graph_edge g) (S.getD 0 0) (S.getD j 0) := by
    intro j
    induction j using Nat.strong_induction_on with
    | _ j ih =>
      intro hj
      by_cases h0 : j = 0
      · rw [h0]
      · obtain ⟨j', hj', _, e2⟩ := t6 j (by omega) hj
        exact Relation.ReflTransGen.tail (ih j' hj' (by omega)) e2
  intro v hv
  obtain ⟨j, hj, hjv⟩ := mem_exists_getD S v hv
  rw [← hjv]
  exact hpos j hj

/-- The main loop of `algokit_graph_mst_prim` from the start state returns; the
invariant holds at the end for a tree whose first vertex is `start`, and the
result is 0 when the tree has taken every vertex, 1 when it has not and no
adjacency entry leads out of it. -/
theorem prim_run_spec (g : algokit_graph K Rat) (hwf : graph_wf g) (hsym : graph_symm g)
    (hw : graph_weights_below g) (hmax : g.size ≤ SIZE_MAX) (start : Nat) (hs : start < g.size)
    (parent : List Nat) (hlen : g.size ≤ parent.length) :
    ∃ (S1 : List Nat) (P1 : List algokit_graph_mst_edge) (in1 : List Bool) (key1 : List Rat)
      (parent1 : List Nat) (rc : Int),
      prim_loop g g.size (List.replicate g.size false)
        ((List.replicate g.size DBL_MAX).set start 0) (mst_parent_init g.size parent) =
        (rc, parent1) ∧
      parent1.length = parent.length ∧ prim_inv g S1 P1 in1 key1 parent1 ∧
      S1.getD 0 0 = start ∧
      ((rc = 0 ∧ S1.length = g.size) ∨
        (rc = 1 ∧ S1.length < g.size ∧ ∀ y ∈ S1, ∀ v ∈ algokit_graph_adj g y, v ∈ S1)) := by
  obtain ⟨i1, i2⟩ := mst_parent_init_spec g.size parent hlen
  obtain ⟨m, hm⟩ : ∃ m, g.size = m + 1 := ⟨g.size - 1, by omega⟩
  have hkey : ∀ v, ((List.replicate g.size DBL_MAX).set start 0).getD v 0 =
      if v = start then 0 else if v < g.size then DBL_MAX else 0 := by
    intro v
    rw [getD_set_gen _ start v 0 0 (by simpa using hs)]
    by_cases hv : v = start
    · rw [if_pos hv, if_pos hv]
    · rw [if_neg hv, if_neg hv]
      by_cases hvn : v < g.size
      · simp [List.getD_eq_getElem?_getD, List.getElem?_replicate, hvn]
      · simp [List.getD_eq_getElem?_getD, List.getElem?_replicate, hvn]
  have hin0 : ∀ v, (List.replicate g.size false).getD v false = false := by
    intro v
    by_cases hvn : v < g.size
    · simp [List.getD_eq_getElem?_getD, List.getElem?_replicate, hvn]
    · simp [List.getD_eq_getElem?_getD, List.getElem?_replicate, hvn]
  have hm0 : dfs_marked g.size (List.replicate g.size false) [] :=
    ⟨by simp, fun x _ => by rw [hin0 x]; simp, by simp, List.nodup_nil⟩
  obtain ⟨s1, s2, s3⟩ := prim_scan_spec (List.replicate g.size false)
    ((List.replicate g.size DBL_MAX).set start 0) (List.range g.size) DBL_MAX SIZE_MAX
  have hfound : (prim_scan (List.replicate g.size false)
      ((List.replicate g.size DBL_MAX).set start 0) (List.range g.size) (DBL_MAX, SIZE_MAX)).2 =
      start := by
    have h0 := s2 start (List.mem_range.2 hs) (hin0 start)
    rw [hkey start, if_pos rfl] at h0
    rcases s3 with h | ⟨h1, _, h3, h4⟩
    · rw [h] at h0
      exact absurd (lt_of_lt_of_le DBL_MAX_pos h0) (lt_irrefl _)
    · by_contra hne
      rw [hkey _, if_neg hne, if_pos (List.mem_range.1 h1)] at h3
      rw [← h3] at h4
      exact absurd h4 (lt_irrefl _)
  have hstep : prim_loop g g.size (List.replicate g.size false)
      ((List.replicate g.size DBL_MAX).set start 0) (mst_parent_init g.size parent) =
      prim_loop g m ((List.replicate g.size false).set start true)
        (prim_edges ((List.replicate g.size false).set start true) start
          (algokit_graph_edges g start)
          ((List.replicate g.size DBL_MAX).set start 0, mst_parent_init g.size parent)).1
        (prim_edges ((List.replicate g.size false).set start true) start
          (algokit_graph_edges g start)
          ((List.replicate g.size DBL_MAX).set start 0, mst_parent_init g.size parent)).2 := by
    have h1 : prim_loop g g.size (List.replicate g.size false)
        ((List.replicate g.size DBL_MAX).set start 0) (mst_parent_init g.size parent) =
        prim_loop g (m + 1) (List.replicate g.size false)
          ((List.replicate g.size DBL_MAX).set start 0) (mst_parent_init g.size parent) :=
      congrArg (fun r => prim_loop g r (List.replicate g.size false)
        ((List.replicate g.size DBL_MAX).set start 0) (mst_parent_init g.size parent)) hm
    rw [h1, prim_loop]
    simp only
    rw [hfound, if_neg (by omega)]
  have hm1 := dfs_marked_push g.size (List.replicate g.size false) [] start hm0 hs (by simp)
  obtain ⟨q1, q2, q3, q4, q5⟩ := prim_relax_keys g hwf [] start
    ((List.replicate g.size false).set start true)
    ((List.replicate g.size DBL_MAX).set start 0) (mst_parent_init g.size parent) hm1
    (by simp) (by rw [i1]; exact hlen) (fun v _ _ y hy => by simp at hy)
    (fun v hv _ hvs hlt => by
      rw [hkey v, if_neg hvs, if_pos hv] at hlt
      exact absurd hlt (lt_irrefl _))
  rw [List.nil_append] at hm1 q3 q4 q5
  have hinv : prim_inv g [start] [] ((List.replicate g.size false).set start true)
      (prim_edges ((List.replicate g.size false).set start true) start
        (algokit_graph_edges g start)
        ((List.replicate g.size DBL_MAX).set start 0, mst_parent_init g.size parent)).1
      (prim_edges ((List.replicate g.size false).set start true) start
        (algokit_graph_edges g start)
        ((List.replicate g.size DBL_MAX).set start 0, mst_parent_init g.size parent)).2 := by
    refine ⟨hm1, q1, by rw [q2, i1]; exact hlen, by simp, rfl, by simp, ?_, ?_, ?_, ?_, q4, q5⟩
    · intro a ha b hb
      rw [List.mem_singleton.1 ha, List.mem_singleton.1 hb]
      exact mst_conn_refl _ _
    · intro a ha b hb t _
      rw [List.mem_singleton.1 ha, List.mem_singleton.1 hb]
      exact mst_conn_refl _ _
    · have : [start].getD 0 0 = start := rfl
      rw [this, q3 start (by simp), i2 start, if_pos hs]
    · intro j hj0 hj
      simp at hj
      omega
  obtain ⟨S1, P1, in1, key1, parent1, rc, e1, e2, e3, e4, e5⟩ :=
    prim_loop_spec g hwf hsym hw hmax m [start] [] _ _ _ hinv (by simp [hm])
  refine ⟨S1, P1, in1, key1, parent1, rc, by rw [hstep]; exact e1, by rw [e2, q2, i1], e3,
    by rw [e4]; rfl, e5⟩

end prim_run_lemmas

/-! ## Prim: the property of the function -/

section prim_claims

variable {K : Type}

/-- C24: the result of Prim.  For every undirected graph built by `add_vertex`
and `add_edge` whose weights are below `DBL_MAX` (weights modelled exactly;
at most `SIZE_MAX` vertices, as a `size_t` count), every start key whose
lookup returns 0 with the index `start`, and every array `parent` with room
for the vertices, `algokit_graph_mst_prim` (its allocations succeeding) returns 0 or 1,
and 0 if and only if every vertex is reachable from `start`.  When it returns
0, `parent[start]` is the sentinel `SIZE_MAX`, and for every other vertex `v`
the entry `parent[v]` is a vertex adjacent to `v`, and the parent links lead
from `v` to `start`: the array encodes a spanning tree rooted at `start`. -/
theorem graph_mst_prim_spanning_tree (hash : K → Nat) (cmp : K → K → Int)
    (g : algokit_graph K Rat) (hg : graph_reachable hash cmp g) (hw : graph_weights_below g)
    (hmax : g.size ≤ SIZE_MAX) (start_key : K) (start : Nat)
    (hs : algokit_graph_map_get hash cmp g.map start_key = some (0, some start))
    (parent : List Nat) (hlen : g.size ≤ parent.length) :
    ∃ (rc : Int) (parent1 : List Nat),
      algokit_graph_mst_prim hash cmp true g start_key parent = some (rc, parent1) ∧
      parent1.length = parent.length ∧ (rc = 0 ∨ rc = 1) ∧
      (rc = 0 ↔ ∀ v, v < g.size → Relation.ReflTransGen (graph_edge g) start v) ∧
      (rc = 0 → parent1.getD start 0 = SIZE_MAX ∧
        ∀ v, v < g.size → v ≠ start →
          parent1.getD v 0 < g.size ∧ graph_edge g (parent1.getD v 0) v ∧
          Relation.ReflTransGen (fun a b => a < g.size ∧ parent1.getD a 0 = b) v start) := by
  have hwf := graph_reachable_wf hash cmp g hg
  have hsym := graph_reachable_symm hash cmp g hg
  have hs0 : algokit_digraph_map_get hash cmp g.map start_key = some (0, some start) := hs
  obtain ⟨k, hk⟩ := map_get_mem hash cmp g.map start_key 0 start hs0
  have hsn : start < g.size := index_below_lt _ k start (hwf.2.2 _ hk)
  obtain ⟨S1, P1, in1, key1, parent1, rc, e1, e2, e3, e4, e5⟩ :=
    prim_run_spec g hwf hsym hw hmax start hsn parent hlen
  have hreach := prim_inv_reach g S1 P1 in1 key1 parent1 e3
  rw [e4] at hreach
  obtain ⟨hm, hkl, hpl, hS, t1, t2, t3, t4, t5, t6, k1, k2⟩ := e3
  have hstart : start ∈ S1 := by
    rw [← e4]
    exact getD_mem_lt S1 0 hS
  have hrun : algokit_graph_mst_prim hash cmp true g start_key parent = some (rc, parent1) := by
    unfold algokit_graph_mst_prim
    rw [hs]
    simp only [ne_eq, not_true_eq_false, if_false, Bool.true_eq_false, Option.getD_some]
    rw [e1]
  have hiff : rc = 0 ↔ ∀ v, v < g.size → Relation.ReflTransGen (graph_edge g) start v := by
    rcases e5 with ⟨h1, h2⟩ | ⟨h1, h2, h3⟩
    · exact ⟨fun _ v hv => hreach v (nodup_full_mem S1 g.size hm.2.2.2 hm.2.2.1 h2 v hv),
        fun _ => h1⟩
    · constructor
      · intro h
        rw [h1] at h
        exact absurd h (by decide)
      · intro hall
        have hfull : ∀ v, v < g.size → v ∈ S1 := fun v hv =>
          closed_reach (algokit_graph_adj g) S1 h3 start v hstart (hall v hv)
        have := full_length_ge S1 g.size hfull
        omega
  refine ⟨rc, parent1, hrun, e2, ?_, hiff, ?_⟩
  · rcases e5 with ⟨h1, _⟩ | ⟨h1, _⟩
    · exact Or.inl h1
    · exact Or.inr h1
  · intro hrc
    rcases e5 with ⟨_, h2⟩ | ⟨h1, _⟩
    · refine ⟨by rw [← e4]; exact t5, fun v hv hvs => ?_⟩
      have hvS := nodup_full_mem S1 g.size hm.2.2.2 hm.2.2.1 h2 v hv
      obtain ⟨j, hj, hjv⟩ := mem_exists_getD S1 v hvS
      have hj0 : 0 < j := by
        rcases Nat.eq_zero_or_pos j with h | h
        · rw [h, e4] at hjv
          exact absurd hjv.symm hvs
        · exact h
      obtain ⟨j', hj', c1, c2⟩ := t6 j hj0 hj
      rw [hjv] at c1 c2
      refine ⟨?_, by rw [c1]; exact c2, ?_⟩
      · rw [c1]
        exact hm.2.2.1 _ (getD_mem_lt S1 j' (by omega))
      · have hchain := queue_chain (fun a => a < g.size) parent1 S1 hm.2.2.1
          (fun i hi0 hi => by
            obtain ⟨i', hi', d1, _⟩ := t6 i hi0 hi
            exact ⟨i', hi', d1⟩) j hj
        rw [hjv, e4] at hchain
        exact hchain
    · rw [h1] at hrc
      exact absurd hrc (by decide)

theorem graph_mst_prim_spanning_tree_witness :
    (graph_reachable int_hash int_cmp graph_test_graph ∧ graph_weights_below graph_test_graph ∧
      graph_test_graph.size ≤ SIZE_MAX ∧
      algokit_graph_map_get int_hash int_cmp graph_test_graph.map 0 = some (0, some 0) ∧
      graph_test_graph.size ≤ [7, 7, 7, 7].length ∧
      algokit_graph_mst_prim int_hash int_cmp true graph_test_graph 0 [7, 7, 7, 7] =
        some (1, [SIZE_MAX, 0, 1, SIZE_MAX])) ∧
    ∃ (rc : Int) (parent1 : List Nat),
      algokit_graph_mst_prim int_hash int_cmp true graph_test_graph 0 [7, 7, 7, 7] =
        some (rc, parent1) ∧
      parent1.length = [7, 7, 7, 7].length ∧ (rc = 0 ∨ rc = 1) ∧
      (rc = 0 ↔ ∀ v, v < graph_test_graph.size →
        Relation.ReflTransGen (graph_edge graph_test_graph) 0 v) ∧
      (rc = 0 → parent1.getD 0 0 = SIZE_MAX ∧
        ∀ v, v < graph_test_graph.size → v ≠ 0 →
          parent1.getD v 0 < graph_test_graph.size ∧
          graph_edge graph_test_graph (parent1.getD v 0) v ∧
          Relation.ReflTransGen
            (fun a b => a < graph_test_graph.size ∧ parent1.getD a 0 = b) v 0) :=
  ⟨⟨⟨8, graph_test_ops, ⟨[], 0, 8, ⟨List.replicate 8 algokit_digraph_map_entry.empty, 8, 0⟩⟩,
        by decide, by decide⟩, by decide!, by decide, by decide, by decide, by decide!⟩,
    graph_mst_prim_spanning_tree int_hash int_cmp graph_test_graph
      ⟨8, graph_test_ops, ⟨[], 0, 8, ⟨List.replicate 8 algokit_digraph_map_entry.empty, 8, 0⟩⟩,
        by decide, by decide⟩ (by decide!) (by decide) 0 0 (by decide) [7, 7, 7, 7]
      (by decide)⟩

end prim_claims

/-! ## Minimum spanning trees: the counting argument -/

section mst_counting

variable {K : Type}

theorem exists_max_mem (l : List Rat) (h : l ≠ []) : ∃ m ∈ l, ∀ x ∈ l, x ≤ m := by
  induction l with
  | nil => exact absurd rfl h
  | cons a l ih =>
    by_cases hl : l = []
    · subst hl
      exact ⟨a, by simp, fun x hx => by
        rw [List.mem_singleton.1 hx]⟩
    · obtain ⟨m, hm, hmax⟩ := ih hl
      rcases le_total a m with h1 | h1
      · refine ⟨m, List.mem_cons_of_mem _ hm, fun x hx => ?_⟩
        rcases List.mem_cons.1 hx with h2 | h2
        · rw [h2]
          exact h1
        · exact hmax x h2
      · refine ⟨a, List.mem_cons_self _ _, fun x hx => ?_⟩
        rcases List.mem_cons.1 hx with h2 | h2
        · rw [h2]
        · exact le_trans (hmax x h2) h1

/-- Of two lists of numbers of the same length, the one that has for every
bound at least as many entries up to the bound has the smaller sum. -/
theorem sum_le_of_count_le :
    ∀ (n : Nat) (A B : List Rat), A.length = n → B.length = n →
      (∀ t : Rat, B.countP (fun x => decide (x ≤ t)) ≤ A.countP (fun x => decide (x ≤ t))) →
      A.sum ≤ B.sum := by
  intro n
  induction n with
  | zero =>
    intro A B hA hB _
    rw [List.length_eq_zero.1 hA, List.length_eq_zero.1 hB]
  | succ n ih =>
    intro A B hA hB hcount
    have hAne : A ≠ [] := by
      intro h
      rw [h] at hA
      simp at hA
    have hBne : B ≠ [] := by
      intro h
      rw [h] at hB
      simp at hB
    obtain ⟨a, ha, hamax⟩ := exists_max_mem A hAne
    obtain ⟨b, hb, hbmax⟩ := exists_max_mem B hBne
    have hpA := List.perm_cons_erase ha
    have hpB := List.perm_cons_erase hb
    have hcA : ∀ t : Rat, A.countP (fun x => decide (x ≤ t)) =
        (A.erase a).countP (fun x => decide (x ≤ t)) + if a ≤ t then 1 else 0 := by
      intro t
      rw [hpA.countP_eq, List.countP_cons]
      simp
    have hcB : ∀ t : Rat, B.countP (fun x => decide (x ≤ t)) =
        (B.erase b).countP (fun x => decide (x ≤ t)) + if b ≤ t then 1 else 0 := by
      intro t
      rw [hpB.countP_eq, List.countP_cons]
      simp
    have hallB : B.countP (fun x => decide (x ≤ b)) = n + 1 := by
      rw [← hB]
      exact List.countP_eq_length.2 (fun x hx => decide_eq_true (hbmax x hx))
    have hab : a ≤ b := by
      have h1 := hcount b
      rw [hallB] at h1
      have h2 : A.countP (fun x => decide (x ≤ b)) = A.length :=
        le_antisymm (List.countP_le_length _) (by rw [hA]; exact h1)
      exact of_decide_eq_true ((List.countP_eq_length.1 h2) a ha)
    have hlA : (A.erase a).length = n := by
      rw [List.length_erase_of_mem ha, hA]
      rfl
    have hlB : (B.erase b).length = n := by
      rw [List.length_erase_of_mem hb, hB]
      rfl
    have hrec := ih (A.erase a) (B.erase b) hlA hlB (by
      intro t
      have h1 := hcount t
      rw [hcA t, hcB t] at h1
      by_cases hbt : b ≤ t
      · rw [if_pos hbt, if_pos (le_trans hab hbt)] at h1
        omega
      · rw [if_neg hbt] at h1
        by_cases hat : a ≤ t
        · have h2 : (A.erase a).countP (fun x => decide (x ≤ t)) = (A.erase a).length :=
            List.countP_eq_length.2 (fun x hx =>
              decide_eq_true (le_trans (hamax x (List.mem_of_mem_erase hx)) hat))
          rw [h2, hlA, ← hlB]
          exact List.countP_le_length _
        · rw [if_neg hat] at h1
          omega)
    have hsA : A.sum = a + (A.erase a).sum := by
      rw [hpA.sum_eq, List.sum_cons]
    have hsB : B.sum = b + (B.erase b).sum := by
      rw [hpB.sum_eq, List.sum_cons]
    rw [hsA, hsB]
    exact add_le_add hab hrec

/-- A forest has no edge twice. -/
theorem edge_forest_nodup :
    ∀ (L : List algokit_graph_mst_edge), edge_forest L → L.Nodup := by
  intro L
  induction L with
  | nil => intro _; exact List.nodup_nil
  | cons e L ih =>
    intro hf
    exact List.nodup_cons.2 ⟨fun h => hf.1 (mst_conn_edge L e h), ih hf.2⟩

/-- An adjacency entry has its ends joined by whatever joins the ends of the
entries of the edge array. -/
theorem rank_entry (g : algokit_graph K Rat) (hwf : graph_wf g) (hsym : graph_symm g)
    (A : List algokit_graph_mst_edge)
    (hrank : ∀ e ∈ kruskal_edges g, mst_conn (A.filter (fun a => decide (a.w ≤ e.w))) e.u e.v)
    (u v : Nat) (w : Rat) (he : (⟨v, w⟩ : algokit_graph_edge Rat) ∈ algokit_graph_edges g u) :
    mst_conn (A.filter (fun a => decide (a.w ≤ w))) u v := by
  obtain ⟨hu, hv⟩ := graph_edges_lt g hwf u _ he
  rcases Nat.lt_trichotomy u v with hlt | heq | hgt
  · exact hrank ⟨u, v, w⟩ ((kruskal_edges_mem g _).2 ⟨hu, hlt, he⟩)
  · rw [heq]
    exact mst_conn_refl _ _
  · exact mst_conn_symm _ _ _ (hrank ⟨v, u, w⟩
      ((kruskal_edges_mem g _).2 ⟨hv, hgt, hsym u v w he⟩))

/-- A forest of `size - 1` edges that joins the ends of every entry of the
edge array by edges weighing no more weighs no more than any spanning tree. -/
theorem rank_optimal (g : algokit_graph K Rat) (hwf : graph_wf g) (hsym : graph_symm g)
    (A : List algokit_graph_mst_edge) (hlt : ∀ e ∈ A, e.u < g.size ∧ e.v < g.size)
    (hlen : A.length + 1 = g.size) (hf : edge_forest A)
    (hrank : ∀ e ∈ kruskal_edges g, mst_conn (A.filter (fun a => decide (a.w ≤ e.w))) e.u e.v)
    (T : List algokit_graph_mst_edge) (hT : graph_spanning_tree g T) :
    mst_weight A ≤ mst_weight T := by
  obtain ⟨hT1, hT2, hT3⟩ := hT
  have hTlt : ∀ e ∈ T, e.u < g.size ∧ e.v < g.size := fun e he =>
    graph_edges_lt g hwf e.u _ (hT1 e he)
  have hTf : edge_forest T := spanning_edge_forest g.size (by omega) T hTlt hT2 hT3
  unfold mst_weight
  apply sum_le_of_count_le A.length _ _ (by simp) (by simp; omega)
  intro t
  rw [List.countP_map, List.countP_map, List.countP_eq_length_filter,
    List.countP_eq_length_filter]
  have hfe : ∀ L : List algokit_graph_mst_edge,
      L.filter ((fun x => decide (x ≤ t)) ∘ fun e => e.w) =
        L.filter (fun e => decide (e.w ≤ t)) := fun L => rfl
  rw [hfe, hfe]
  obtain ⟨kT, c1, c2⟩ := edge_forest_count g.size _ (edge_forest_filter _ T hTf)
    (fun e he => hTlt e (List.mem_filter.1 he).1)
  obtain ⟨kA, d1, d2⟩ := edge_forest_count g.size _ (edge_forest_filter _ A hf)
    (fun e he => hlt e (List.mem_filter.1 he).1)
  have hmono := class_count_mono g.size _ _ kT kA
    (fun x y h => mst_conn_sub (T.filter (fun e => decide (e.w ≤ t)))
      (A.filter (fun e => decide (e.w ≤ t)))
      (fun e he => by
        obtain ⟨he1, he2⟩ := List.mem_filter.1 he
        have hwt : e.w ≤ t := of_decide_eq_true he2
        refine mst_conn_mono _ _ (fun a ha => ?_) _ _
          (rank_entry g hwf hsym A hrank e.u e.v e.w (hT1 e he1))
        obtain ⟨ha1, ha2⟩ := List.mem_filter.1 ha
        exact List.mem_filter.2 ⟨ha1, decide_eq_true (le_trans (of_decide_eq_true ha2) hwt)⟩)
      x y h) c1 d1
  omega

end mst_counting

/-! ## Minimum spanning trees: the trees of the two arrays -/

section mst_tree_lemmas

variable {K : Type}

theorem nodup_getD_inj (l : List Nat) (hnd : l.Nodup) (i j : Nat) (hi : i < l.length)
    (hj : j < l.length) (h : l.getD i 0 = l.getD j 0) : i = j := by
  rw [List.getD_eq_getElem?_getD, List.getD_eq_getElem?_getD, List.getElem?_eq_getElem hi,
    List.getElem?_eq_getElem hj] at h
  simp only [Option.getD_some] at h
  exact (List.Nodup.getElem_inj_iff hnd).1 h

/-- In a graph without parallel edges the weight of an adjacency entry for
another vertex is the weight of the edge between the two. -/
theorem graph_weight_eq (g : algokit_graph K Rat) (hs : graph_simple g) (u v : Nat) (w : Rat)
    (huv : u ≠ v) (h : (⟨v, w⟩ : algokit_graph_edge Rat) ∈ algokit_graph_edges g u) :
    graph_weight g u v = w := by
  have hu : u < g.vertices.length := by
    by_contra hcon
    unfold algokit_graph_edges at h
    rw [List.get?_eq_none.2 (by omega)] at h
    simp at h
  have hnd := hs u (List.mem_range.2 hu)
  unfold graph_weight
  cases hf : (algokit_graph_edges g u).find? (fun e => decide (e.target = v)) with
  | none =>
    have := List.find?_eq_none.1 hf ⟨v, w⟩ h
    simp at this
  | some e =>
    have h1 : e ∈ algokit_graph_edges g u := List.mem_of_find?_eq_some hf
    have h2 : e.target = v := by
      have := List.find?_some hf
      simpa using this
    have h3 := List.inj_on_of_nodup_map hnd
      (List.mem_filter.2 ⟨h1, decide_eq_true (by rw [h2]; exact fun e => huv e.symm)⟩)
      (List.mem_filter.2 ⟨h, decide_eq_true (fun e => huv e.symm)⟩) h2
    rw [h3]

theorem mst_weight_perm (A B : List algokit_graph_mst_edge) (h : A.Perm B) :
    mst_weight A = mst_weight B := by
  unfold mst_weight
  exact (h.map _).sum_eq

theorem mst_weight_norm (A : List algokit_graph_mst_edge) :
    mst_weight (A.map mst_edge_norm) = mst_weight A := by
  unfold mst_weight
  rw [List.map_map]
  congr 1
  apply List.map_congr_left
  intro e _
  simp only [Function.comp, mst_edge_norm]
  split_ifs <;> rfl

/-- At the end of a run of Prim that has taken every vertex, the edges that
`parent` encodes are the tree edges. -/
theorem prim_parent_edges (g : algokit_graph K Rat) (hsimple : graph_simple g)
    (hmax : g.size ≤ SIZE_MAX) (S : List Nat) (P : List algokit_graph_mst_edge)
    (in_mst : List Bool) (key : List Rat) (parent : List Nat)
    (hinv : prim_inv g S P in_mst key parent) (hfull : S.length = g.size) :
    (mst_parent_edges g parent).Perm P := by
  obtain ⟨hm, hkl, hpl, hS, t1, t2, t3, t4, t5, t6, k1, k2⟩ := hinv
  have hPv : ∀ e ∈ P, e.v ∈ S := by
    intro e he
    have h1 : e.v ∈ P.map (fun e => e.v) := List.mem_map.2 ⟨e, he, rfl⟩
    rw [t1] at h1
    exact List.mem_of_mem_tail (List.mem_reverse.1 h1)
  have hPne : ∀ e ∈ P, e.u ≠ e.v := by
    intro e he heq
    have h1 : e.v ∈ P.map (fun e => e.v) := List.mem_map.2 ⟨e, he, rfl⟩
    rw [t1] at h1
    have h2 : e.v ∈ S.tail := List.mem_reverse.1 h1
    obtain ⟨j, hj, hjv⟩ := mem_exists_getD S e.v (List.mem_of_mem_tail h2)
    have hj0 : 0 < j := by
      rcases Nat.eq_zero_or_pos j with h | h
      · exfalso
        rw [h] at hjv
        cases S with
        | nil => simp at hS
        | cons a l =>
          have hnd := List.nodup_cons.1 hm.2.2.2
          have ha : a = e.v := hjv
          rw [List.tail_cons, ← ha] at h2
          exact hnd.1 h2
      · exact h
    obtain ⟨j', hj', c1, -⟩ := t6 j hj0 hj
    rw [hjv, (t2 e he).2.2, heq, ← hjv] at c1
    have := nodup_getD_inj S hm.2.2.2 j j' hj (by omega) c1
    omega
  have hP : P = (S.tail.reverse).map
      (fun v => (⟨parent.getD v 0, v, graph_weight g (parent.getD v 0) v⟩ :
        algokit_graph_mst_edge)) := by
    rw [← t1, List.map_map]
    conv_lhs => rw [← List.map_id P]
    apply List.map_congr_left
    intro e he
    obtain ⟨c1, c2, c3⟩ := t2 e he
    simp only [Function.comp, id]
    rw [c3, graph_weight_eq g hsimple e.u e.v e.w (hPne e he) c2]
  have hall := nodup_full_mem S g.size hm.2.2.2 hm.2.2.1 hfull
  obtain ⟨s0, S', rfl⟩ : ∃ s0 S', S = s0 :: S' := by
    cases S with
    | nil => simp at hS
    | cons a l => exact ⟨a, l, rfl⟩
  have hnd := List.nodup_cons.1 hm.2.2.2
  have h0 : (s0 :: S').getD 0 0 = s0 := rfl
  rw [h0] at t5
  unfold mst_parent_edges
  rw [hP]
  apply List.Perm.map
  rw [List.tail_cons]
  apply (List.perm_ext_iff_of_nodup ((List.nodup_range g.size).filter _)
    (List.nodup_reverse.2 hnd.2)).2
  intro v
  simp only [List.mem_filter, List.mem_range, decide_eq_true_eq, List.mem_reverse]
  constructor
  · rintro ⟨hv, hne⟩
    rcases List.mem_cons.1 (hall v hv) with h | h
    · rw [h] at hne
      exact absurd t5 hne
    · exact h
  · intro hv
    have hvS : v ∈ s0 :: S' := List.mem_cons_of_mem _ hv
    refine ⟨hm.2.2.1 v hvS, ?_⟩
    obtain ⟨j, hj, hjv⟩ := mem_exists_getD (s0 :: S') v hvS
    have hj0 : 0 < j := by
      rcases Nat.eq_zero_or_pos j with h | h
      · rw [h, h0] at hjv
        rw [← hjv] at hv
        exact absurd hv hnd.1
      · exact h
    obtain ⟨j', hj', c1, _⟩ := t6 j hj0 hj
    rw [hjv] at c1
    rw [c1]
    have := hm.2.2.1 _ (getD_mem_lt (s0 :: S') j' (by omega))
    omega

/-- The rank property of the tree edges of Prim: the ends of every entry of
the edge array are joined by tree edges weighing no more. -/
theorem prim_rank (g : algokit_graph K Rat) (hwf : graph_wf g) (S : List Nat)
    (P : List algokit_graph_mst_edge) (in_mst : List Bool) (key : List Rat) (parent : List Nat)
    (hinv : prim_inv g S P in_mst key parent) (hfull : S.length = g.size) :
    (∀ e ∈ P, e.u < g.size ∧ e.v < g.size) ∧ P.length + 1 = g.size ∧
    (∀ x y, x < g.size → y < g.size → mst_conn P x y) ∧
    (∀ e ∈ P, (⟨e.v, e.w⟩ : algokit_graph_edge Rat) ∈ algokit_graph_edges g e.u) ∧
    ∀ e ∈ kruskal_edges g, mst_conn (P.filter (fun a => decide (a.w ≤ e.w))) e.u e.v := by
  obtain ⟨hm, hkl, hpl, hS, t1, t2, t3, t4, t5, t6, k1, k2⟩ := hinv
  have hall := nodup_full_mem S g.size hm.2.2.2 hm.2.2.1 hfull
  refine ⟨fun e he => graph_edges_lt g hwf e.u _ (t2 e he).2.1, ?_,
    fun x y hx hy => t3 x (hall x hx) y (hall y hy), fun e he => (t2 e he).2.1, ?_⟩
  · have h1 : (P.map (fun e => e.v)).length = S.tail.reverse.length := by rw [t1]
    simp only [List.length_map, List.length_reverse, List.length_tail] at h1
    omega
  · intro e he
    obtain ⟨h1, _, h3⟩ := (kruskal_edges_mem g e).1 he
    have h4 := (graph_edges_lt g hwf e.u _ h3).2
    exact t4 e.u (hall _ h1) e.v (hall _ h4) e.w
      (mst_conn_edge _ e (List.mem_filter.2 ⟨he, decide_eq_true (le_refl _)⟩))

end mst_tree_lemmas

section kruskal_tree_lemmas

variable {K : Type}

theorem range_filter_nonzero (n : Nat) (p : Nat → Bool) (h0 : p 0 = false)
    (hp : ∀ x, x < n → x ≠ 0 → p x = true) : ((List.range n).filter p).length + 1 = n ∨ n = 0 := by
  cases n with
  | zero => exact Or.inr rfl
  | succ m =>
    left
    rw [List.range_succ_eq_map, List.filter_cons_of_neg (by simp [h0]),
      List.filter_eq_self.2 (fun x hx => by
        obtain ⟨y, hy, rfl⟩ := List.mem_map.1 hx
        exact hp (y + 1) (by have := List.mem_range.1 hy; omega) (by omega))]
    simp

/-- On a connected graph without parallel edges, the edges that the array
`parent` of Kruskal encodes are, ends in ascending order, the accepted edges,
and they form a spanning tree. -/
theorem kruskal_parent_edges (g : algokit_graph K Rat) (hwf : graph_wf g)
    (hsym : graph_symm g) (hsimple : graph_simple g) (hmax : g.size ≤ SIZE_MAX)
    (hpos : 0 < g.size)
    (hconn : ∀ u v, u < g.size → v < g.size → Relation.ReflTransGen (graph_edge g) u v)
    (L : List (List Nat)) (acc : List algokit_graph_mst_edge) (parent1 : List Nat)
    (e2 : L.length = g.size)
    (e3 : ∀ a b, a < g.size → (b ∈ L.getD a [] ↔
      ∃ e ∈ acc, (e.u = a ∧ e.v = b) ∨ (e.u = b ∧ e.v = a)))
    (e4 : edge_forest acc) (e5 : ∀ e ∈ acc, e ∈ kruskal_edges g)
    (e6 : ∀ e ∈ acc, e.u < g.size ∧ e.v < g.size)
    (e7 : ∀ e ∈ kruskal_edges g,
      mst_conn (acc.filter (fun a => decide (a.w ≤ e.w))) e.u e.v)
    (e9 : ∀ x, x < g.size →
      (parent1.getD x 0 = SIZE_MAX ↔
        ∀ u, u < x → ¬ Relation.ReflTransGen (fun a b => b ∈ L.getD a []) u x) ∧
      (parent1.getD x 0 ≠ SIZE_MAX →
        parent1.getD x 0 < g.size ∧ x ∈ L.getD (parent1.getD x 0) []) ∧
      ∃ r, Relation.ReflTransGen (fun a b => a < g.size ∧ parent1.getD a 0 = b) x r ∧
        parent1.getD r 0 = SIZE_MAX ∧
        Relation.ReflTransGen (fun a b => b ∈ L.getD a []) r x) :
    acc.length + 1 = g.size ∧
    acc.Perm ((mst_parent_edges g parent1).map mst_edge_norm) ∧
    graph_spanning_tree g (mst_parent_edges g parent1) := by
  obtain ⟨a1, a2, a3, a4⟩ := mst_adj_conn g.size L acc e2 e3 e6
  have hc := kruskal_acc_conn g hwf hsym acc e5 e7
  have hconnL : ∀ x y, x < g.size → y < g.size →
      Relation.ReflTransGen (fun a b => b ∈ L.getD a []) x y := fun x y hx hy =>
    a3 x y ((hc x y).2 (hconn x y hx hy))
  -- the number of accepted edges
  obtain ⟨k, c1, c2⟩ := edge_forest_count g.size acc e4 e6
  obtain ⟨c3, c4⟩ := class_count_one g.size hpos (mst_conn acc) (mst_conn_refl acc)
    (mst_conn_symm acc) (mst_conn_trans acc) k c1
  have hk : k = 1 := c4.2 (fun x y hx hy => (hc x y).2 (hconn x y hx hy))
  have hlen : acc.length + 1 = g.size := by omega
  -- the roots
  have hroot0 : parent1.getD 0 0 = SIZE_MAX := (e9 0 hpos).1.2 (fun u hu => by omega)
  have hnonroot : ∀ x, x < g.size → x ≠ 0 → parent1.getD x 0 ≠ SIZE_MAX := by
    intro x hx hx0 h
    exact (e9 x hx).1.1 h 0 (by omega) (hconnL 0 x hpos hx)
  -- every encoded edge is an accepted edge
  have hedge : ∀ x, x < g.size → parent1.getD x 0 ≠ SIZE_MAX →
      (⟨x, graph_weight g (parent1.getD x 0) x⟩ : algokit_graph_edge Rat) ∈
        algokit_graph_edges g (parent1.getD x 0) ∧
      mst_edge_norm ⟨parent1.getD x 0, x, graph_weight g (parent1.getD x 0) x⟩ ∈ acc := by
    intro x hx hne
    obtain ⟨p1, p2⟩ := (e9 x hx).2.1 hne
    obtain ⟨e, he, h | h⟩ := (e3 _ x p1).1 p2
    · obtain ⟨_, m2, m3⟩ := (kruskal_edges_mem g e).1 (e5 e he)
      rw [h.1, h.2] at m3 m2
      have hw := graph_weight_eq g hsimple _ _ _ (by omega) m3
      rw [hw]
      refine ⟨m3, ?_⟩
      unfold mst_edge_norm
      rw [if_pos m2]
      have : e = ⟨parent1.getD x 0, x, e.w⟩ := by
        cases e
        simp only at h
        simp [h.1, h.2]
      rw [← this]
      exact he
    · obtain ⟨_, m2, m3⟩ := (kruskal_edges_mem g e).1 (e5 e he)
      have m4 := hsym _ _ _ m3
      rw [h.1, h.2] at m4 m2
      have hw := graph_weight_eq g hsimple _ _ _ (by omega) m4
      rw [hw]
      refine ⟨m4, ?_⟩
      unfold mst_edge_norm
      rw [if_neg (by simp only; omega)]
      have : e = ⟨x, parent1.getD x 0, e.w⟩ := by
        cases e
        simp only at h
        simp [h.1, h.2]
      rw [← this]
      exact he
  have hmemE : ∀ e, e ∈ mst_parent_edges g parent1 ↔
      ∃ x, x < g.size ∧ parent1.getD x 0 ≠ SIZE_MAX ∧
        e = ⟨parent1.getD x 0, x, graph_weight g (parent1.getD x 0) x⟩ := by
    intro e
    unfold mst_parent_edges
    simp only [List.mem_map, List.mem_filter, List.mem_range, decide_eq_true_eq]
    constructor
    · rintro ⟨x, ⟨h1, h2⟩, rfl⟩
      exact ⟨x, h1, h2, rfl⟩
    · rintro ⟨x, h1, h2, rfl⟩
      exact ⟨x, ⟨h1, h2⟩, rfl⟩
  have hElen : (mst_parent_edges g parent1).length + 1 = g.size := by
    unfold mst_parent_edges
    rw [List.length_map]
    rcases range_filter_nonzero g.size (fun v => decide (parent1.getD v 0 ≠ SIZE_MAX))
      (decide_eq_false (fun h => h hroot0))
      (fun x hx hx0 => decide_eq_true (hnonroot x hx hx0)) with h | h
    · exact h
    · omega
  -- the encoded edges join every vertex to the vertex 0
  have hchain : ∀ x r,
      Relation.ReflTransGen (fun a b => a < g.size ∧ parent1.getD a 0 = b) x r →
      r < g.size → mst_conn (mst_parent_edges g parent1) x r := by
    intro x r h
    induction h using Relation.ReflTransGen.head_induction_on with
    | refl => intro _; exact mst_conn_refl _ _
    | head hab hbr ih =>
      rename_i a b
      intro hr
      obtain ⟨ha, hpa⟩ := hab
      by_cases hne : parent1.getD a 0 = SIZE_MAX
      · exfalso
        rw [hne] at hpa
        rw [← hpa] at hbr
        rcases Relation.ReflTransGen.cases_head hbr with h | ⟨c, h, _⟩
        · omega
        · have := h.1
          omega
      · refine mst_conn_trans _ _ _ _ ?_ (ih hr)
        rw [← hpa]
        exact mst_conn_symm _ _ _ (mst_conn_edge _
          ⟨parent1.getD a 0, a, graph_weight g (parent1.getD a 0) a⟩
          ((hmemE _).2 ⟨a, ha, hne, rfl⟩))
  have hto0 : ∀ x, x < g.size → mst_conn (mst_parent_edges g parent1) x 0 := by
    intro x hx
    obtain ⟨r, r1, r2, r3⟩ := (e9 x hx).2.2
    have hr : r < g.size := by
      rcases Relation.ReflTransGen.cases_head r3 with h | ⟨c, h, _⟩
      · rw [h]
        exact hx
      · by_contra hc'
        rw [List.getD_eq_getElem?_getD, List.getElem?_eq_none (by omega)] at h
        simp at h
    have hr0 : r = 0 := by
      by_contra h
      exact hnonroot r hr h r2
    rw [← hr0]
    exact hchain x r r1 hr
  have hspan : ∀ x y, x < g.size → y < g.size → mst_conn (mst_parent_edges g parent1) x y :=
    fun x y hx hy => mst_conn_trans _ _ _ _ (hto0 x hx) (mst_conn_symm _ _ _ (hto0 y hy))
  have hsubE : ∀ e ∈ (mst_parent_edges g parent1).map mst_edge_norm, e ∈ acc := by
    intro e he
    obtain ⟨e0, he0, rfl⟩ := List.mem_map.1 he
    obtain ⟨x, hx, hne, rfl⟩ := (hmemE e0).1 he0
    exact (hedge x hx hne).2
  have hspan' : ∀ x y, x < g.size → y < g.size →
      mst_conn ((mst_parent_edges g parent1).map mst_edge_norm) x y := by
    intro x y hx hy
    refine mst_conn_sub _ _ (fun e he => ?_) x y (hspan x y hx hy)
    have hin : mst_edge_norm e ∈ (mst_parent_edges g parent1).map mst_edge_norm :=
      List.mem_map.2 ⟨e, he, rfl⟩
    have := mst_conn_edge _ _ hin
    unfold mst_edge_norm at this
    split_ifs at this with h
    · exact this
    · exact mst_conn_symm _ _ _ this
  have haccsub : ∀ a ∈ acc, a ∈ (mst_parent_edges g parent1).map mst_edge_norm := by
    intro a ha
    by_contra hna
    have hsub2 : ∀ e ∈ (mst_parent_edges g parent1).map mst_edge_norm, e ∈ acc.erase a := by
      intro e he
      exact (List.mem_erase_of_ne (fun h : e = a => hna (by rw [← h]; exact he))).2 (hsubE e he)
    obtain ⟨k', d1, d2, _⟩ := edge_count_ge g.size (acc.erase a)
      (fun e he => e6 e (List.mem_of_mem_erase he))
    obtain ⟨_, d4⟩ := class_count_one g.size hpos (mst_conn (acc.erase a)) (mst_conn_refl _)
      (mst_conn_symm _) (mst_conn_trans _) k' d1
    have hk' : k' = 1 := d4.2 (fun x y hx hy =>
      mst_conn_mono _ _ hsub2 x y (hspan' x y hx hy))
    rw [List.length_erase_of_mem ha] at d2
    have hpos' : 0 < acc.length := List.length_pos_of_mem ha
    omega
  refine ⟨hlen, ?_, ?_, hElen, hspan⟩
  · exact ((edge_forest_nodup acc e4).subperm haccsub).perm_of_length_le
      (by rw [List.length_map]; omega)
  · intro e he
    obtain ⟨x, hx, hne, rfl⟩ := (hmemE e).1 he
    exact (hedge x hx hne).1

end kruskal_tree_lemmas

/-! ## Minimum spanning trees: Prim and Kruskal agree on the minimum -/

section mst_claims

variable {K : Type}

theorem graph_heavy_reachable : graph_reachable int_hash int_cmp graph_heavy :=
  ⟨8, graph_heavy_ops, ⟨[], 0, 8, ⟨List.replicate 8 algokit_digraph_map_entry.empty, 8, 0⟩⟩,
    by decide, by decide!⟩

theorem graph_mst_example_reachable : graph_reachable int_hash int_cmp graph_mst_example :=
  ⟨8, graph_mst_ops, ⟨[], 0, 8, ⟨List.replicate 8 algokit_digraph_map_entry.empty, 8, 0⟩⟩,
    by decide, by decide!⟩

theorem graph_loop_reachable : graph_reachable int_hash int_cmp graph_loop :=
  ⟨8, graph_loop_ops, ⟨[], 0, 8, ⟨List.replicate 8 algokit_digraph_map_entry.empty, 8, 0⟩⟩,
    by decide, by decide!⟩

/-- A graph is connected when every vertex is reached from the vertex 0. -/
theorem graph_connected_of_reach (hash : K → Nat) (cmp : K → K → Int) (g : algokit_graph K Rat)
    (hg : graph_reachable hash cmp g)
    (h : ∀ v, v < g.size → Relation.ReflTransGen (graph_edge g) 0 v) :
    ∀ u v, u < g.size → v < g.size → Relation.ReflTransGen (graph_edge g) u v := by
  intro u v hu hv
  have hsym := graph_reachable_symm hash cmp g hg
  exact Relation.ReflTransGen.trans
    (reach_symm (algokit_graph_adj g) (graph_symm_adj g hsym) 0 u (h u hu)) (h v hv)

theorem graph_heavy_connected : ∀ u v, u < graph_heavy.size → v < graph_heavy.size →
    Relation.ReflTransGen (graph_edge graph_heavy) u v := by
  apply graph_connected_of_reach int_hash int_cmp graph_heavy graph_heavy_reachable
  intro v hv
  have hv2 : v < 2 := hv
  have h01 : graph_edge graph_heavy 0 1 := by
    unfold graph_edge
    decide
  interval_cases v
  · exact Relation.ReflTransGen.refl
  · exact Relation.ReflTransGen.single h01

theorem graph_loop_connected : ∀ u v, u < graph_loop.size → v < graph_loop.size →
    Relation.ReflTransGen (graph_edge graph_loop) u v := by
  apply graph_connected_of_reach int_hash int_cmp graph_loop graph_loop_reachable
  intro v hv
  have hv2 : v < 2 := hv
  have h01 : graph_edge graph_loop 0 1 := by
    unfold graph_edge
    decide
  interval_cases v
  · exact Relation.ReflTransGen.refl
  · exact Relation.ReflTransGen.single h01

theorem graph_mst_example_connected : ∀ u v, u < graph_mst_example.size →
    v < graph_mst_example.size → Relation.ReflTransGen (graph_edge graph_mst_example) u v := by
  apply graph_connected_of_reach int_hash int_cmp graph_mst_example graph_mst_example_reachable
  intro v hv
  have hv2 : v < 4 := hv
  have h01 : graph_edge graph_mst_example 0 1 := by
    unfold graph_edge
    decide
  have h02 : graph_edge graph_mst_example 0 2 := by
    unfold graph_edge
    decide
  have h23 : graph_edge graph_mst_example 2 3 := by
    unfold graph_edge
    decide
  interval_cases v
  · exact Relation.ReflTransGen.refl
  · exact Relation.ReflTransGen.single h01
  · exact Relation.ReflTransGen.single h02
  · exact Relation.ReflTransGen.tail (Relation.ReflTransGen.single h02) h23

/-- C26, counterexample: on the connected graph without parallel edges that
has two vertices and one edge of the weight `DBL_MAX` between them, Prim
returns 1 and leaves both entries of `parent` at the sentinel, so that the
array encodes no edge and the weight 0, while Kruskal returns 0 with the edge,
of the weight `DBL_MAX`. -/
theorem graph_mst_prim_misses_heavy_edge :
    graph_reachable int_hash int_cmp graph_heavy ∧ graph_simple graph_heavy ∧
    (∀ u v, u < graph_heavy.size → v < graph_heavy.size →
      Relation.ReflTransGen (graph_edge graph_heavy) u v) ∧
    algokit_graph_mst_prim int_hash int_cmp true graph_heavy 0 [7, 7] =
      some (1, [SIZE_MAX, SIZE_MAX]) ∧
    algokit_graph_mst_kruskal mst_edge_sort true true true true graph_heavy [7, 7] =
      some (0, [SIZE_MAX, 0]) ∧
    mst_weight (mst_parent_edges graph_heavy [SIZE_MAX, SIZE_MAX]) = 0 ∧
    mst_weight (mst_parent_edges graph_heavy [SIZE_MAX, 0]) = DBL_MAX ∧
    ¬ graph_spanning_tree graph_heavy (mst_parent_edges graph_heavy [SIZE_MAX, SIZE_MAX]) := by
  refine ⟨graph_heavy_reachable, by decide, graph_heavy_connected, by decide!, by decide!,
    by decide!, by decide!, ?_⟩
  intro h
  have h1 := h.2.1
  revert h1
  decide!

/-- C26, amended with the bound on the weights: Prim and Kruskal agree on the minimum
weight.  For every connected undirected graph built by `add_vertex` and
`add_edge` without parallel edges (no two entries for the same other vertex on
a list; self-loops are admitted) whose weights are below `DBL_MAX` (weights
modelled exactly), every registered start key, and every sorting function that
keeps the promise of `qsort`, both `algokit_graph_mst_prim` and
`algokit_graph_mst_kruskal` return 0, the edges that their arrays `parent` encode form
spanning trees of the graph, the two trees have the same total weight, and no
spanning tree of the graph has a smaller total weight. -/
theorem graph_mst_prim_kruskal_minimum (hash : K → Nat) (cmp : K → K → Int)
    (qsort : List algokit_graph_mst_edge → List algokit_graph_mst_edge)
    (hq : qsort_sorts qsort) (g : algokit_graph K Rat) (hg : graph_reachable hash cmp g)
    (hw : graph_weights_below g) (hsimple : graph_simple g) (hmax : g.size ≤ SIZE_MAX)
    (hconn : ∀ u v, u < g.size → v < g.size → Relation.ReflTransGen (graph_edge g) u v)
    (start_key : K) (start : Nat)
    (hs : algokit_graph_map_get hash cmp g.map start_key = some (0, some start))
    (parent parent' : List Nat) (hlen : g.size ≤ parent.length)
    (hlen' : g.size ≤ parent'.length) :
    ∃ (pp pk : List Nat),
      algokit_graph_mst_prim hash cmp true g start_key parent = some (0, pp) ∧
      algokit_graph_mst_kruskal qsort true true true true g parent' = some (0, pk) ∧
      graph_spanning_tree g (mst_parent_edges g pp) ∧
      graph_spanning_tree g (mst_parent_edges g pk) ∧
      mst_weight (mst_parent_edges g pp) = mst_weight (mst_parent_edges g pk) ∧
      ∀ T, graph_spanning_tree g T → mst_weight (mst_parent_edges g pp) ≤ mst_weight T := by
  have hwf := graph_reachable_wf hash cmp g hg
  have hsym := graph_reachable_symm hash cmp g hg
  have hs0 : algokit_digraph_map_get hash cmp g.map start_key = some (0, some start) := hs
  obtain ⟨k, hk⟩ := map_get_mem hash cmp g.map start_key 0 start hs0
  have hsn : start < g.size := index_below_lt _ k start (hwf.2.2 _ hk)
  have hpos : 0 < g.size := by omega
  -- Prim
  obtain ⟨S1, P1, in1, key1, pp, rc, e1, e2, e3, e4, e5⟩ :=
    prim_run_spec g hwf hsym hw hmax start hsn parent hlen
  have hfull : rc = 0 ∧ S1.length = g.size := by
    rcases e5 with h | ⟨_, h2, h3⟩
    · exact h
    · exfalso
      have hstart : start ∈ S1 := by
        rw [← e4]
        exact getD_mem_lt S1 0 e3.2.2.2.1
      have hall : ∀ v, v < g.size → v ∈ S1 := fun v hv =>
        closed_reach (algokit_graph_adj g) S1 h3 start v hstart (hconn start v hsn hv)
      have := full_length_ge S1 g.size hall
      omega
  have hperm := prim_parent_edges g hsimple hmax S1 P1 in1 key1 pp e3 hfull.2
  obtain ⟨r1, r2, r3, r4, r5⟩ := prim_rank g hwf S1 P1 in1 key1 pp e3 hfull.2
  have hPf : edge_forest P1 := spanning_edge_forest g.size hpos P1 r1 r2 r3
  have hprim : algokit_graph_mst_prim hash cmp true g start_key parent = some (0, pp) := by
    unfold algokit_graph_mst_prim
    rw [hs]
    simp only [ne_eq, not_true_eq_false, if_false, Bool.true_eq_false, Option.getD_some]
    rw [e1, hfull.1]
  have hPopt : ∀ T, graph_spanning_tree g T → mst_weight (mst_parent_edges g pp) ≤ mst_weight T :=
    fun T hT => by
      rw [mst_weight_perm _ _ hperm]
      exact rank_optimal g hwf hsym P1 r1 r2 hPf r5 T hT
  have hPtree : graph_spanning_tree g (mst_parent_edges g pp) :=
    ⟨fun e he => r4 e (hperm.mem_iff.1 he), by rw [hperm.length_eq]; exact r2,
      fun x y hx hy => mst_conn_mono P1 _ (fun e he => hperm.mem_iff.2 he) x y (r3 x y hx hy)⟩
  -- Kruskal
  obtain ⟨L, acc, pk, f1, f2, f3, f4, f5, f6, f7, f8, f9⟩ :=
    kruskal_run_spec qsort hq g hwf hmax parent' hlen'
  obtain ⟨g1, g2, g3⟩ := kruskal_parent_edges g hwf hsym hsimple hmax hpos hconn L acc pk f2 f3
    f4 f5 f6 f7 f9
  have hkruskal : algokit_graph_mst_kruskal qsort true true true true g parent' =
      some (0, pk) := by
    rw [f1, if_neg (by omega)]
  have hKopt : ∀ T, graph_spanning_tree g T → mst_weight (mst_parent_edges g pk) ≤ mst_weight T :=
    fun T hT => by
      rw [← mst_weight_norm, ← mst_weight_perm _ _ g2]
      exact rank_optimal g hwf hsym acc f6 g1 f4 f7 T hT
  exact ⟨pp, pk, hprim, hkruskal, hPtree, g3,
    le_antisymm (hPopt _ g3) (hKopt _ hPtree), hPopt⟩

/-- C26, witness: the graph of the example, where both functions give the tree
0-1, 1-2, 2-3 of the weight 3.5; the conditions also hold of the graph with
the edge 0-1 and a self-loop at the vertex 0, where both give the edge 0-1. -/
theorem graph_mst_prim_kruskal_minimum_witness :
    (graph_reachable int_hash int_cmp graph_loop ∧ graph_weights_below graph_loop ∧
      graph_simple graph_loop ∧
      (∀ u v, u < graph_loop.size → v < graph_loop.size →
        Relation.ReflTransGen (graph_edge graph_loop) u v) ∧
      algokit_graph_mst_prim int_hash int_cmp true graph_loop 0 [7, 7] =
        some (0, [SIZE_MAX, 0]) ∧
      algokit_graph_mst_kruskal mst_edge_sort true true true true graph_loop [7, 7] =
        some (0, [SIZE_MAX, 0]) ∧
      mst_weight (mst_parent_edges graph_loop [SIZE_MAX, 0]) = 1) ∧
    (qsort_sorts mst_edge_sort ∧ graph_reachable int_hash int_cmp graph_mst_example ∧
      graph_weights_below graph_mst_example ∧ graph_simple graph_mst_example ∧
      graph_mst_example.size ≤ SIZE_MAX ∧
      (∀ u v, u < graph_mst_example.size → v < graph_mst_example.size →
        Relation.ReflTransGen (graph_edge graph_mst_example) u v) ∧
      algokit_graph_map_get int_hash int_cmp graph_mst_example.map 0 = some (0, some 0) ∧
      algokit_graph_mst_prim int_hash int_cmp true graph_mst_example 0 [7, 7, 7, 7] =
        some (0, [SIZE_MAX, 0, 1, 2]) ∧
      algokit_graph_mst_kruskal mst_edge_sort true true true true graph_mst_example [7, 7, 7, 7] =
        some (0, [SIZE_MAX, 0, 1, 2]) ∧
      mst_parent_edges graph_mst_example [SIZE_MAX, 0, 1, 2] =
        [⟨0, 1, 2⟩, ⟨1, 2, 1⟩, ⟨2, 3, 1 / 2⟩] ∧
      mst_weight (mst_parent_edges graph_mst_example [SIZE_MAX, 0, 1, 2]) = 7 / 2) ∧
    ∃ (pp pk : List Nat),
      algokit_graph_mst_prim int_hash int_cmp true graph_mst_example 0 [7, 7, 7, 7] =
        some (0, pp) ∧
      algokit_graph_mst_kruskal mst_edge_sort true true true true graph_mst_example [7, 7, 7, 7] =
        some (0, pk) ∧
      graph_spanning_tree graph_mst_example (mst_parent_edges graph_mst_example pp) ∧
      graph_spanning_tree graph_mst_example (mst_parent_edges graph_mst_example pk) ∧
      mst_weight (mst_parent_edges graph_mst_example pp) =
        mst_weight (mst_parent_edges graph_mst_example pk) ∧
      ∀ T, graph_spanning_tree graph_mst_example T →
        mst_weight (mst_parent_edges graph_mst_example pp) ≤ mst_weight T :=
  ⟨⟨graph_loop_reachable, by decide!, by decide, graph_loop_connected, by decide!, by decide!,
      by decide!⟩,
    ⟨mst_edge_sort_sorts, graph_mst_example_reachable, by decide!, by decide, by decide,
      graph_mst_example_connected, by decide, by decide!, by decide!, by decide!, by decide!⟩,
    graph_mst_prim_kruskal_minimum int_hash int_cmp mst_edge_sort mst_edge_sort_sorts
      graph_mst_example graph_mst_example_reachable (by decide!) (by decide) (by decide)
      graph_mst_example_connected 0 0 (by decide) [7, 7, 7, 7] [7, 7, 7, 7] (by decide)
      (by decide)⟩

end mst_claims

/-! ## Linear-probing hash table: the capacity is never 0 -/

section hash_lp_capacity_pos
variable {K V : Type} {hash : K → Nat} {cmp : K → K → Int}

theorem put_tail_capacity (t : algokit_hash_lp K V) (x : Item K V) (rc : Int)
    (t' : algokit_hash_lp K V) (hr : hash_lp_put_tail hash cmp t x = some (rc, t')) :
    t'.capacity = t.capacity := by
  unfold hash_lp_put_tail at hr
  cases hp : algokit_hash_lp_put_probe cmp t x.key t.capacity
      (algokit_hash_lp_index hash t x.key) none with
  | none =>
    rw [hp] at hr
    simp at hr
  | some r =>
    rw [hp] at hr
    cases r with
    | none =>
      simp only [Option.some.injEq, Prod.mk.injEq] at hr
      rw [← hr.2]
    | some idx =>
      simp only [Option.some.injEq, Prod.mk.injEq] at hr
      rw [← hr.2]

/-- The loop of `resize` keeps the capacity above 0 when every call of `put`
in it does. -/
theorem resize_fold_capacity_pos
    (putf : algokit_hash_lp K V → Item K V → Option (Int × algokit_hash_lp K V))
    (hput : ∀ t x rc t', 0 < t.capacity → putf t x = some (rc, t') → 0 < t'.capacity) :
    ∀ (es : List (algokit_hash_lp_entry K V)) (acc t' : algokit_hash_lp K V),
      0 < acc.capacity →
      es.foldl (algokit_hash_lp_resize_step putf) (some acc) = some t' → 0 < t'.capacity := by
  have hnone : ∀ es : List (algokit_hash_lp_entry K V),
      es.foldl (algokit_hash_lp_resize_step putf) none = none := by
    intro es
    induction es with
    | nil => rfl
    | cons e es ih =>
      rw [List.foldl_cons]
      exact ih
  intro es
  induction es with
  | nil =>
    intro acc t' hacc hr
    simp only [List.foldl_nil, Option.some.injEq] at hr
    rw [← hr]
    exact hacc
  | cons e es ih =>
    intro acc t' hacc hr
    rw [List.foldl_cons] at hr
    cases e with
    | empty => exact ih acc t' hacc hr
    | tombstone => exact ih acc t' hacc hr
    | occupied it =>
      simp only [algokit_hash_lp_resize_step] at hr
      cases hp : putf acc it with
      | none =>
        rw [hp] at hr
        simp only at hr
        rw [hnone es] at hr
        exact absurd hr (by simp)
      | some res =>
        rw [hp] at hr
        exact ih res.2 t' (hput acc it res.1 res.2 hacc hp) hr

theorem resize_capacity_pos
    (putf : algokit_hash_lp K V → Item K V → Option (Int × algokit_hash_lp K V))
    (hput : ∀ t x rc t', 0 < t.capacity → putf t x = some (rc, t') → 0 < t'.capacity)
    (alloc_ok : Bool) (t : algokit_hash_lp K V) (c : Nat) (hc : 0 < c) (ht : 0 < t.capacity)
    (rc : Int) (t' : algokit_hash_lp K V)
    (hr : algokit_hash_lp_resize_with putf alloc_ok t c = some (rc, t')) : 0 < t'.capacity := by
  unfold algokit_hash_lp_resize_with at hr
  split_ifs at hr with h
  · simp only [Option.some.injEq, Prod.mk.injEq] at hr
    rw [← hr.2]
    exact ht
  · cases hf : (t.entries.take t.capacity).foldl (algokit_hash_lp_resize_step putf)
        (some ⟨List.replicate c algokit_hash_lp_entry.empty, c, 0⟩) with
    | none =>
      rw [hf] at hr
      simp at hr
    | some t1 =>
      rw [hf] at hr
      simp only [Option.some.injEq, Prod.mk.injEq] at hr
      rw [← hr.2]
      exact resize_fold_capacity_pos putf hput _ _ t1 hc hf

/-- A call of `put` that returns leaves a capacity above 0, whatever the hash
function and the comparator are. -/
theorem put_fuel_capacity_pos (alloc_ok : Bool) :
    ∀ (d : Nat) (t : algokit_hash_lp K V) (x : Item K V) (rc : Int) (t' : algokit_hash_lp K V),
      0 < t.capacity → algokit_hash_lp_put_fuel hash cmp alloc_ok d t x = some (rc, t') →
      0 < t'.capacity := by
  intro d
  induction d with
  | zero =>
    intro t x rc t' _ hr
    simp [algokit_hash_lp_put_fuel] at hr
  | succ d ih =>
    intro t x rc t' ht hr
    rw [put_fuel_succ] at hr
    by_cases hchk : (t.size + 1) * 10 ≥ t.capacity * 7
    · rw [if_pos hchk] at hr
      cases hres : algokit_hash_lp_resize_with (algokit_hash_lp_put_fuel hash cmp alloc_ok d)
          alloc_ok t (t.capacity * 2) with
      | none =>
        rw [hres] at hr
        simp at hr
      | some res =>
        obtain ⟨rc1, t1⟩ := res
        rw [hres] at hr
        simp only at hr
        have h1 := resize_capacity_pos _ ih alloc_ok t (t.capacity * 2) (by omega) ht rc1 t1 hres
        split_ifs at hr with h
        · simp only [Option.some.injEq, Prod.mk.injEq] at hr
          rw [← hr.2]
          exact h1
        · rw [put_tail_capacity t1 x rc t' hr]
          exact h1
    · rw [if_neg hchk] at hr
      simp only at hr
      rw [if_neg (by simp)] at hr
      rw [put_tail_capacity t x rc t' hr]
      exact ht

theorem delete_capacity_pos (alloc_ok : Bool) (t : algokit_hash_lp K V) (key : K) (rc : Int)
    (out : Option (Item K V)) (t' : algokit_hash_lp K V) (ht : 0 < t.capacity)
    (hr : algokit_hash_lp_delete hash cmp alloc_ok t key = some (rc, out, t')) :
    0 < t'.capacity := by
  unfold algokit_hash_lp_delete at hr
  cases hf : algokit_hash_lp_find cmp t key t.capacity (algokit_hash_lp_index hash t key) with
  | none =>
    rw [hf] at hr
    simp at hr
  | some r =>
    rw [hf] at hr
    cases r with
    | none =>
      simp only [Option.some.injEq, Prod.mk.injEq] at hr
      rw [← hr.2.2]
      exact ht
    | some p =>
      obtain ⟨idx, it⟩ := p
      simp only at hr
      split_ifs at hr with h
      · cases hres : algokit_hash_lp_resize_with (algokit_hash_lp_put_fuel hash cmp alloc_ok 3)
            alloc_ok ⟨t.entries.set idx algokit_hash_lp_entry.tombstone, t.capacity, t.size - 1⟩
            (t.capacity / 2) with
        | none =>
          rw [hres] at hr
          simp at hr
        | some res =>
          rw [hres] at hr
          simp only [Option.some.injEq, Prod.mk.injEq] at hr
          rw [← hr.2.2]
          have hp := @put_fuel_capacity_pos K V hash cmp alloc_ok 3
          have hc2 : 0 < t.capacity / 2 := by
            have := h.1
            simp only at this
            omega
          exact resize_capacity_pos _ hp alloc_ok
            ⟨t.entries.set idx algokit_hash_lp_entry.tombstone, t.capacity, t.size - 1⟩
            (t.capacity / 2) hc2 ht res.1 res.2 hres
      · simp only [Option.some.injEq, Prod.mk.injEq] at hr
        rw [← hr.2.2]
        exact ht

theorem run_capacity_pos (ops : List (hash_lp_op K V)) :
    ∀ (t t' : algokit_hash_lp K V), 0 < t.capacity → hash_lp_run hash cmp t ops = some t' →
      0 < t'.capacity := by
  induction ops with
  | nil =>
    intro t t' ht hr
    simp only [hash_lp_run, Option.some.injEq] at hr
    rw [← hr]
    exact ht
  | cons op ops ih =>
    intro t t' ht hr
    simp only [hash_lp_run] at hr
    cases hs : hash_lp_step hash cmp t op with
    | none =>
      rw [hs] at hr
      simp at hr
    | some t1 =>
      rw [hs] at hr
      refine ih t1 t' ?_ hr
      cases op with
      | put a x =>
        simp only [hash_lp_step, Option.map_eq_some'] at hs
        obtain ⟨res, h1, h2⟩ := hs
        rw [← h2]
        exact put_fuel_capacity_pos a 4 t x res.1 res.2 ht h1
      | delete a k =>
        simp only [hash_lp_step, Option.map_eq_some'] at hs
        obtain ⟨res, h1, h2⟩ := hs
        rw [← h2]
        exact delete_capacity_pos a t k res.1 res.2.1 res.2.2 ht h1

theorem get_fresh (capacity : Nat) (hc : 0 < capacity) (key : K) :
    algokit_hash_lp_get hash cmp
      (⟨List.replicate capacity algokit_hash_lp_entry.empty, capacity, 0⟩ : algokit_hash_lp K V)
      key = some (1, none) := by
  obtain ⟨n, rfl⟩ : ∃ n, capacity = n + 1 := ⟨capacity - 1, by omega⟩
  have hslot : ∀ j, algokit_hash_lp_slot
      (⟨List.replicate (n + 1) algokit_hash_lp_entry.empty, n + 1, 0⟩ : algokit_hash_lp K V) j =
      algokit_hash_lp_entry.empty := by
    intro j
    unfold algokit_hash_lp_slot
    by_cases hj : j < n + 1
    · simp [List.getD_eq_getElem?_getD, List.getElem?_replicate, hj]
    · simp [List.getD_eq_getElem?_getD, List.getElem?_replicate, hj]
  unfold algokit_hash_lp_get algokit_hash_lp_get_fuel
  simp only
  rw [algokit_hash_lp_find, hslot]

/-- A `put` on the table of `algokit_hash_lp_create` stores the item. -/
theorem put_fresh (hh : HashCmp hash cmp) (capacity : Nat) (hc : 0 < capacity)
    (item : Item K V) :
    ∃ t1, algokit_hash_lp_put hash cmp true
        (⟨List.replicate capacity algokit_hash_lp_entry.empty, capacity, 0⟩ :
          algokit_hash_lp K V) item = some (0, t1) ∧
      hash_lp_inv hash cmp t1 ∧ hash_lp_stored t1 item ∧ t1.size = 1 := by
  have hcr : algokit_hash_lp_create true capacity =
      some (⟨List.replicate capacity algokit_hash_lp_entry.empty, capacity, 0⟩ :
        algokit_hash_lp K V) := by
    unfold algokit_hash_lp_create
    rw [if_neg (by simp; omega)]
  have i0 : hash_lp_inv hash cmp
      (⟨List.replicate capacity algokit_hash_lp_entry.empty, capacity, 0⟩ :
        algokit_hash_lp K V) := create_inv true capacity _ hcr
  obtain ⟨o1, o2⟩ := @occupied_fresh K V capacity
  have hnone : ∀ y, ¬ hash_lp_stored
      (⟨List.replicate capacity algokit_hash_lp_entry.empty, capacity, 0⟩ :
        algokit_hash_lp K V) y := by
    rintro y ⟨j, hj⟩
    unfold algokit_hash_lp_slot at hj
    by_cases hjc : j < capacity
    · simp [List.getD_eq_getElem?_getD, List.getElem?_replicate, hjc] at hj
    · simp [List.getD_eq_getElem?_getD, List.getElem?_replicate, hjc] at hj
  unfold algokit_hash_lp_put
  by_cases hlow : (0 + 1) * 10 < capacity * 7
  · obtain ⟨rc, t', p1, p2, p3, p4, p5, p6⟩ := put_fuel_clean hh true 3 _ i0 o2 o1.symm hlow item
    rcases p5 with ⟨h1, h2⟩ | ⟨h1, h2⟩
    · subst h1
      exact ⟨t', p1, p2.1, p2.2.2.2.2.1 rfl, by rw [h2]⟩
    · obtain ⟨y, hy, -⟩ := p2.2.2.2.2.2 h1
      exact absurd hy (hnone y)
  · obtain ⟨t1, r1, r2, r3, r4, r5, r6, r7⟩ := resize_total hh true 2 _ i0 o1.symm (capacity * 2)
      (by simp only; omega)
    rw [put_fuel_succ, if_pos (by simp only; omega), r1]
    simp only [ne_eq, not_true_eq_false, if_false]
    obtain ⟨j, hj, hje⟩ := clean_has_empty t1 r2.1 r3 (by rw [← r4, r6, r5]; simp only; omega)
    obtain ⟨res, hres⟩ := put_tail_total t1 r2 j hj hje item
    obtain ⟨rc, t'⟩ := res
    obtain ⟨s1, s2, s3, s4⟩ := put_tail_sized t1 r2 r4 item rc t' hres
    have hpost := put_tail_post2 hh true t1 r2 item rc t' hres
    rcases s3 with ⟨h1, h2⟩ | ⟨h1, h2⟩
    · subst h1
      exact ⟨t', hres, hpost.1, hpost.2.2.2.2.1 rfl, by rw [h2, r6]⟩
    · obtain ⟨y, hy, -⟩ := hpost.2.2.2.2.2 h1
      exact absurd ((r7 y).1 hy) (hnone y)

end hash_lp_capacity_pos

/-! ## Linear-probing hash table: the capacity given to `create` -/

section hash_lp_capacity_claims
variable {K V : Type} {hash : K → Nat} {cmp : K → K → Int}

/-- C31, counterexample: `algokit_hash_lp_create` called with the capacity 0
(and a successful allocation behind it) returns `NULL`, not a table with a
default capacity. -/
theorem hash_lp_create_zero_is_null :
    algokit_hash_lp_create true 0 = (none : Option (algokit_hash_lp Int Int)) := by
  decide

/-- C31, amended: a capacity of 0 is rejected, and a capacity above 0 is taken
as it is.  `algokit_hash_lp_create` with the capacity 0 returns `NULL` whatever
the allocator does; with a capacity above 0 and successful allocations it
returns an empty table with exactly that many slots, all empty, on which `get`
of every key returns 1, and on which a `put` returns 0, makes the size 1 and
is followed by a `get` of the key that returns the item. -/
theorem hash_lp_create_keeps_capacity (hh : HashCmp hash cmp) (capacity : Nat)
    (hpos : 0 < capacity) (item : Item K V) :
    (∀ alloc_ok, algokit_hash_lp_create alloc_ok 0 = (none : Option (algokit_hash_lp K V))) ∧
    ∃ t0 : algokit_hash_lp K V, algokit_hash_lp_create true capacity = some t0 ∧
      t0.capacity = capacity ∧ t0.size = 0 ∧
      (∀ j, algokit_hash_lp_slot t0 j = algokit_hash_lp_entry.empty) ∧
      (∀ key, algokit_hash_lp_get hash cmp t0 key = some (1, none)) ∧
      ∃ t1, algokit_hash_lp_put hash cmp true t0 item = some (0, t1) ∧ t1.size = 1 ∧
        algokit_hash_lp_get hash cmp t1 item.key = some (0, some item) := by
  refine ⟨fun alloc_ok => by simp [algokit_hash_lp_create],
    ⟨List.replicate capacity algokit_hash_lp_entry.empty, capacity, 0⟩, ?_, rfl, rfl, ?_,
    fun key => get_fresh capacity hpos key, ?_⟩
  · unfold algokit_hash_lp_create
    rw [if_neg (by simp; omega)]
  · intro j
    unfold algokit_hash_lp_slot
    by_cases hj : j < capacity
    · simp [List.getD_eq_getElem?_getD, List.getElem?_replicate, hj]
    · simp [List.getD_eq_getElem?_getD, List.getElem?_replicate, hj]
  · obtain ⟨t1, p1, p2, p3, p4⟩ := put_fresh hh capacity hpos item
    exact ⟨t1, p1, p4, get_of_stored t1 p2 item p3⟩

theorem hash_lp_create_keeps_capacity_witness :
    (0 < 1 ∧
      algokit_hash_lp_put int_hash int_cmp true
        (⟨[algokit_hash_lp_entry.empty], 1, 0⟩ : algokit_hash_lp Int Int) ⟨5, 50⟩ =
        some (0, ⟨[algokit_hash_lp_entry.empty, algokit_hash_lp_entry.occupied ⟨5, 50⟩], 2, 1⟩)) ∧
    (∀ alloc_ok, algokit_hash_lp_create alloc_ok 0 =
      (none : Option (algokit_hash_lp Int Int))) ∧
    ∃ t0 : algokit_hash_lp Int Int, algokit_hash_lp_create true 1 = some t0 ∧
      t0.capacity = 1 ∧ t0.size = 0 ∧
      (∀ j, algokit_hash_lp_slot t0 j = algokit_hash_lp_entry.empty) ∧
      (∀ key, algokit_hash_lp_get int_hash int_cmp t0 key = some (1, none)) ∧
      ∃ t1, algokit_hash_lp_put int_hash int_cmp true t0 ⟨5, 50⟩ = some (0, t1) ∧ t1.size = 1 ∧
        algokit_hash_lp_get int_hash int_cmp t1 (⟨5, 50⟩ : Item Int Int).key =
          some (0, some ⟨5, 50⟩) :=
  ⟨⟨by decide, by decide⟩, hash_lp_create_keeps_capacity int_hash_cmp 1 (by decide) ⟨5, 50⟩⟩

/-- C40: the slot index computation never divides by zero.
`algokit_hash_lp_create` returns `NULL` for the capacity 0, and every table
that calls of `put` and `delete` produce from a table of `create` (grow and
shrink rebuilds included, for any hash function and comparator) has a
capacity of at least 1, so that `hash(key) % capacity` is defined and is an
index below the capacity; the capacities `capacity * 2` and, above 8,
`capacity / 2` that a rebuild of such a table starts from are at least 1
too. -/
theorem hash_lp_index_capacity_positive (hash : K → Nat) (cmp : K → K → Int)
    (t : algokit_hash_lp K V) (hreach : hash_lp_reachable hash cmp t) :
    (∀ alloc_ok, algokit_hash_lp_create alloc_ok 0 = (none : Option (algokit_hash_lp K V))) ∧
    1 ≤ t.capacity ∧ (∀ key, algokit_hash_lp_index hash t key < t.capacity) ∧
    1 ≤ t.capacity * 2 ∧ (t.capacity > 8 → 1 ≤ t.capacity / 2) := by
  obtain ⟨capacity, ops, t0, hc, hrun⟩ := hreach
  have h0 : 0 < t0.capacity := (@create_inv K V hash cmp true capacity t0 hc).2.1
  have ht := run_capacity_pos ops t0 t h0 hrun
  refine ⟨fun alloc_ok => by simp [algokit_hash_lp_create], ht, fun key => ?_, by omega,
    fun h => by omega⟩
  unfold algokit_hash_lp_index
  exact Nat.mod_lt _ ht

theorem hash_lp_index_capacity_positive_witness :
    (hash_lp_reachable int_hash int_cmp hash_lp_witness_t1 ∧
      hash_lp_witness_t1.capacity = 8 ∧
      algokit_hash_lp_index int_hash hash_lp_witness_t1 17 = 1) ∧
    (∀ alloc_ok, algokit_hash_lp_create alloc_ok 0 =
      (none : Option (algokit_hash_lp Int Int))) ∧
    1 ≤ hash_lp_witness_t1.capacity ∧
    (∀ key, algokit_hash_lp_index int_hash hash_lp_witness_t1 key <
      hash_lp_witness_t1.capacity) ∧
    1 ≤ hash_lp_witness_t1.capacity * 2 ∧
    (hash_lp_witness_t1.capacity > 8 → 1 ≤ hash_lp_witness_t1.capacity / 2) :=
  ⟨⟨⟨8, hash_lp_witness_before, hash_lp_table8, by decide, by decide⟩, by decide, by decide⟩,
    hash_lp_index_capacity_positive int_hash int_cmp hash_lp_witness_t1
      ⟨8, hash_lp_witness_before, hash_lp_table8, by decide, by decide⟩⟩

end hash_lp_capacity_claims

/-! ## Linear-probing hash table: the rebuild has no nested resize -/

section hash_lp_rebuild_flat
variable {K V : Type} {hash : K → Nat} {cmp : K → K → Int}

/-- Below the grow threshold `put` is its probe and write. -/
theorem put_fuel_eq_tail (alloc_ok : Bool) (d : Nat) (t : algokit_hash_lp K V) (x : Item K V)
    (hlow : (t.size + 1) * 10 < t.capacity * 7) :
    algokit_hash_lp_put_fuel hash cmp alloc_ok (d + 1) t x = hash_lp_put_tail hash cmp t x := by
  rw [put_fuel_succ, if_neg (by omega)]
  simp

/-- In the loop of `resize` every call of `put` is below the grow threshold:
the loop does what it does with the probe and write of `put` alone. -/
theorem resize_fold_tail_eq (hh : HashCmp hash cmp) (alloc_ok : Bool) (d : Nat) :
    ∀ (es : List (algokit_hash_lp_entry K V)) (acc : algokit_hash_lp K V),
      hash_lp_inv hash cmp acc → hash_lp_clean acc → acc.size = hash_lp_occupied acc →
      es.Pairwise (fun e1 e2 => ∀ x y, e1 = algokit_hash_lp_entry.occupied x →
        e2 = algokit_hash_lp_entry.occupied y → cmp x.key y.key ≠ 0) →
      (∀ x, hash_lp_stored acc x → ∀ y, algokit_hash_lp_entry.occupied y ∈ es →
        cmp x.key y.key ≠ 0) →
      (acc.size + es.countP algokit_hash_lp_entry.is_occupied) * 10 < acc.capacity * 7 →
      es.foldl (algokit_hash_lp_resize_step
          (algokit_hash_lp_put_fuel hash cmp alloc_ok (d + 1))) (some acc) =
        es.foldl (algokit_hash_lp_resize_step (hash_lp_put_tail hash cmp)) (some acc) := by
  intro es
  induction es with
  | nil =>
    intro acc _ _ _ _ _ _
    rfl
  | cons e es ih =>
    intro acc hinv hcl hsz hpw hnew hlow
    rw [List.pairwise_cons] at hpw
    simp only [List.foldl_cons]
    cases e with
    | empty =>
      simp only [algokit_hash_lp_resize_step]
      exact ih acc hinv hcl hsz hpw.2
        (fun x hx y hy => hnew x hx y (List.mem_cons_of_mem _ hy))
        (by simpa [algokit_hash_lp_entry.is_occupied] using hlow)
    | tombstone =>
      simp only [algokit_hash_lp_resize_step]
      exact ih acc hinv hcl hsz hpw.2
        (fun x hx y hy => hnew x hx y (List.mem_cons_of_mem _ hy))
        (by simpa [algokit_hash_lp_entry.is_occupied] using hlow)
    | occupied x =>
      have hcnt : (algokit_hash_lp_entry.occupied x :: es).countP
          algokit_hash_lp_entry.is_occupied =
          es.countP algokit_hash_lp_entry.is_occupied + 1 := by
        simp [algokit_hash_lp_entry.is_occupied]
      rw [hcnt] at hlow
      obtain ⟨rc, acc', hput, ⟨p1, p2, p3, p4, p5, p6⟩, q1, q2, q3, q4⟩ :=
        put_fuel_clean hh alloc_ok d acc hinv hcl hsz (by omega) x
      have htail : hash_lp_put_tail hash cmp acc x = some (rc, acc') := by
        rw [← put_fuel_eq_tail alloc_ok d acc x (by omega)]
        exact hput
      have hrc : rc = 0 ∧ acc'.size = acc.size + 1 := by
        rcases q3 with h | ⟨h, -⟩
        · exact h
        · exfalso
          obtain ⟨y, hy, hye⟩ := p6 h
          exact hnew y hy x (List.mem_cons_self _ _) hye
      simp only [algokit_hash_lp_resize_step, hput, htail]
      exact ih acc' p1 q4 q2 hpw.2 (by
        intro z hz y hy
        rcases p3 z hz with rfl | hz'
        · exact hpw.1 _ hy z y rfl rfl
        · exact hnew z hz' y (List.mem_cons_of_mem _ hy)) (by rw [q1, hrc.2]; omega)

/-- The function `resize`, called with a capacity that keeps the stored pairs
below the grow threshold, gives the result of the rebuild in which `put` never
resizes. -/
theorem resize_tail_eq (hh : HashCmp hash cmp) (d : Nat) (t : algokit_hash_lp K V)
    (hinv : hash_lp_inv hash cmp t) (hsz : t.size = hash_lp_occupied t) (new_capacity : Nat)
    (hlow : t.size * 10 < new_capacity * 7) :
    algokit_hash_lp_resize_with (algokit_hash_lp_put_fuel hash cmp true (d + 1)) true t
        new_capacity =
      algokit_hash_lp_resize_with (hash_lp_put_tail hash cmp) true t new_capacity := by
  have hnc : 0 < new_capacity := by omega
  obtain ⟨f1, f2⟩ := @inv_fresh K V hash cmp new_capacity hnc
  obtain ⟨g1, g2⟩ := @occupied_fresh K V new_capacity
  have hfold := resize_fold_tail_eq hh true d t.entries
    ⟨List.replicate new_capacity algokit_hash_lp_entry.empty, new_capacity, 0⟩ f1 g2
    (by rw [g1]) (inv_pairwise hh t hinv) (fun x hx => absurd hx (f2 x)) (by
      simp only [Nat.zero_add]
      unfold hash_lp_occupied at hsz
      rw [← hsz]
      exact hlow)
  unfold algokit_hash_lp_resize_with
  simp only [Bool.true_eq_false, if_false]
  rw [← hinv.1, List.take_length, hfold]

theorem occupied_of_stored_iff_size (t t' : algokit_hash_lp K V)
    (h1 : t.size = hash_lp_occupied t) (h2 : t'.size = hash_lp_occupied t')
    (h3 : t'.size = t.size) : hash_lp_occupied t' = hash_lp_occupied t := by
  omega

end hash_lp_rebuild_flat

/-! ## Linear-probing hash table: what a resize does -/

section hash_lp_resize_claims
variable {K V : Type} {hash : K → Nat} {cmp : K → K → Int}

/-- C37: a resize rebuilds the table without tombstones and without losing
pairs.  For every table that calls of `put` and `delete` produce from a table
of `create` (hash function and comparator with the usual laws, allocations
succeeding): when `put` meets its grow test, its call of `resize` returns 0
with the capacity doubled, and `put` goes on with the rebuilt table; when
`delete` has written its tombstone and meets its shrink test, its call of
`resize` returns 0 with the capacity halved, and `delete` returns the rebuilt
table.  In both cases the rebuilt array has as many slots as the new capacity
and no tombstone, stores exactly the pairs that were stored before the
rebuild, as many of them, `size` is their number, and the rebuild is the one
in which every `put` is a probe and a write: none of them resizes. -/
theorem hash_lp_resize_rebuilds (hh : HashCmp hash cmp) (t : algokit_hash_lp K V)
    (hreach : hash_lp_reachable hash cmp t) :
    (∀ item : Item K V, (t.size + 1) * 10 ≥ t.capacity * 7 →
      ∃ t1, algokit_hash_lp_resize_with (algokit_hash_lp_put_fuel hash cmp true 3) true t
          (t.capacity * 2) = some (0, t1) ∧
        algokit_hash_lp_resize_with (hash_lp_put_tail hash cmp) true t (t.capacity * 2) =
          some (0, t1) ∧
        algokit_hash_lp_put hash cmp true t item = hash_lp_put_tail hash cmp t1 item ∧
        t1.capacity = t.capacity * 2 ∧ t1.entries.length = t1.capacity ∧ hash_lp_clean t1 ∧
        (∀ it, hash_lp_stored t1 it ↔ hash_lp_stored t it) ∧
        hash_lp_occupied t1 = hash_lp_occupied t ∧ t1.size = hash_lp_occupied t1) ∧
    (∀ (key : K) (idx : Nat) (found : Item K V),
      algokit_hash_lp_find cmp t key t.capacity (algokit_hash_lp_index hash t key) =
        some (some (idx, found)) →
      t.capacity > 8 → (t.size - 1) * 10 ≤ t.capacity * 2 →
      ∃ t2, algokit_hash_lp_resize_with (algokit_hash_lp_put_fuel hash cmp true 3) true
          ⟨t.entries.set idx algokit_hash_lp_entry.tombstone, t.capacity, t.size - 1⟩
          (t.capacity / 2) = some (0, t2) ∧
        algokit_hash_lp_resize_with (hash_lp_put_tail hash cmp) true
          ⟨t.entries.set idx algokit_hash_lp_entry.tombstone, t.capacity, t.size - 1⟩
          (t.capacity / 2) = some (0, t2) ∧
        algokit_hash_lp_delete hash cmp true t key = some (0, some found, t2) ∧
        t2.capacity = t.capacity / 2 ∧ t2.entries.length = t2.capacity ∧ hash_lp_clean t2 ∧
        (∀ it, hash_lp_stored t2 it ↔ hash_lp_stored
          ⟨t.entries.set idx algokit_hash_lp_entry.tombstone, t.capacity, t.size - 1⟩ it) ∧
        hash_lp_occupied t2 + 1 = hash_lp_occupied t ∧ t2.size = hash_lp_occupied t2) := by
  obtain ⟨hinv, hs1, hs2⟩ := reachable_inv hh t hreach
  constructor
  · intro item hgrow
    obtain ⟨t1, r1, r2, r3, r4, r5, r6, r7⟩ :=
      resize_total hh true 2 t hinv hs1 (t.capacity * 2) (by omega)
    have heq := resize_tail_eq hh 2 t hinv hs1 (t.capacity * 2) (by omega)
    refine ⟨t1, r1, by rw [← heq]; exact r1, ?_, r5, r2.1, r3, r7, by omega, r4⟩
    unfold algokit_hash_lp_put
    rw [put_fuel_succ, if_pos hgrow, r1]
    simp
  · intro key idx found hf hcap hshrink
    obtain ⟨hslot, -⟩ := find_some_spec t key _ _ idx found hf
    have hinv1 := delete_tombstone_inv hh t hinv key idx found hf
    have hocc := occupied_after_tombstone t idx (t.size - 1) found hslot
    have hz1 : (⟨t.entries.set idx algokit_hash_lp_entry.tombstone, t.capacity,
        t.size - 1⟩ : algokit_hash_lp K V).size = hash_lp_occupied
        (⟨t.entries.set idx algokit_hash_lp_entry.tombstone, t.capacity, t.size - 1⟩ :
          algokit_hash_lp K V) := by
      simp only
      omega
    obtain ⟨t2, r1, r2, r3, r4, r5, r6, r7⟩ :=
      resize_total hh true 2 _ hinv1 hz1 (t.capacity / 2) (by simp only; omega)
    have heq := resize_tail_eq hh 2 _ hinv1 hz1 (t.capacity / 2) (by simp only; omega)
    refine ⟨t2, r1, by rw [← heq]; exact r1, ?_, r5, r2.1, r3, r7, ?_, r4⟩
    · unfold algokit_hash_lp_delete
      rw [hf]
      simp only
      rw [if_pos ⟨hcap, hshrink⟩, r1]
    · simp only at r6
      omega

theorem hash_lp_resize_rebuilds_witness :
    (hash_lp_reachable int_hash int_cmp hash_lp_grow_t1 ∧
      (hash_lp_grow_t1.size + 1) * 10 ≥ hash_lp_grow_t1.capacity * 7 ∧
      algokit_hash_lp_put int_hash int_cmp true hash_lp_grow_t1 ⟨6, 60⟩ =
        some (0, hash_lp_grow_t2) ∧
      hash_lp_run int_hash int_cmp hash_lp_table9
        [hash_lp_op.put true ⟨1, 10⟩, hash_lp_op.delete true 1] =
        some ⟨List.replicate 4 algokit_hash_lp_entry.empty, 4, 0⟩) ∧
    (∀ item : Item Int Int, (hash_lp_grow_t1.size + 1) * 10 ≥ hash_lp_grow_t1.capacity * 7 →
      ∃ t1, algokit_hash_lp_resize_with (algokit_hash_lp_put_fuel int_hash int_cmp true 3) true
          hash_lp_grow_t1 (hash_lp_grow_t1.capacity * 2) = some (0, t1) ∧
        algokit_hash_lp_resize_with (hash_lp_put_tail int_hash int_cmp) true hash_lp_grow_t1
          (hash_lp_grow_t1.capacity * 2) = some (0, t1) ∧
        algokit_hash_lp_put int_hash int_cmp true hash_lp_grow_t1 item =
          hash_lp_put_tail int_hash int_cmp t1 item ∧
        t1.capacity = hash_lp_grow_t1.capacity * 2 ∧ t1.entries.length = t1.capacity ∧
        hash_lp_clean t1 ∧
        (∀ it, hash_lp_stored t1 it ↔ hash_lp_stored hash_lp_grow_t1 it) ∧
        hash_lp_occupied t1 = hash_lp_occupied hash_lp_grow_t1 ∧
        t1.size = hash_lp_occupied t1) ∧
    (∀ (key : Int) (idx : Nat) (found : Item Int Int),
      algokit_hash_lp_find int_cmp hash_lp_grow_t1 key hash_lp_grow_t1.capacity
          (algokit_hash_lp_index int_hash hash_lp_grow_t1 key) = some (some (idx, found)) →
      hash_lp_grow_t1.capacity > 8 →
      (hash_lp_grow_t1.size - 1) * 10 ≤ hash_lp_grow_t1.capacity * 2 →
      ∃ t2, algokit_hash_lp_resize_with (algokit_hash_lp_put_fuel int_hash int_cmp true 3) true
          ⟨hash_lp_grow_t1.entries.set idx algokit_hash_lp_entry.tombstone,
            hash_lp_grow_t1.capacity, hash_lp_grow_t1.size - 1⟩
          (hash_lp_grow_t1.capacity / 2) = some (0, t2) ∧
        algokit_hash_lp_resize_with (hash_lp_put_tail int_hash int_cmp) true
          ⟨hash_lp_grow_t1.entries.set idx algokit_hash_lp_entry.tombstone,
            hash_lp_grow_t1.capacity, hash_lp_grow_t1.size - 1⟩
          (hash_lp_grow_t1.capacity / 2) = some (0, t2) ∧
        algokit_hash_lp_delete int_hash int_cmp true hash_lp_grow_t1 key =
          some (0, some found, t2) ∧
        t2.capacity = hash_lp_grow_t1.capacity / 2 ∧ t2.entries.length = t2.capacity ∧
        hash_lp_clean t2 ∧
        (∀ it, hash_lp_stored t2 it ↔ hash_lp_stored
          ⟨hash_lp_grow_t1.entries.set idx algokit_hash_lp_entry.tombstone,
            hash_lp_grow_t1.capacity, hash_lp_grow_t1.size - 1⟩ it) ∧
        hash_lp_occupied t2 + 1 = hash_lp_occupied hash_lp_grow_t1 ∧
        t2.size = hash_lp_occupied t2) :=
  ⟨⟨⟨8, hash_lp_grow_before, hash_lp_table8, by decide, by decide⟩, by decide, by decide,
      by decide⟩,
    hash_lp_resize_rebuilds int_hash_cmp hash_lp_grow_t1
      ⟨8, hash_lp_grow_before, hash_lp_table8, by decide, by decide⟩⟩

end hash_lp_resize_claims

/-! ## Weighted quick-union: what the root loop writes -/

section uf_wqupc_halving

/-- An element that the links lead back to, and from which they lead to a
root, is that root. -/
theorem periodic_is_root (f : Nat → Nat) (p j : Nat) (hper : f^[j + 1] p = p)
    (hroot : ∃ k, f (f^[k] p) = f^[k] p) : f p = p := by
  obtain ⟨k, hk⟩ := hroot
  have h1 : f^[(j + 1) * k] p = p := by
    rw [Function.iterate_mul]
    exact Function.iterate_fixed hper k
  have h2 : f^[(j + 1) * k] p = f^[k] p :=
    links_stay f p _ hk k rfl _ (by nlinarith)
  rw [h1] at h2
  rw [h2]
  exact hk

/-- The links from the grandparent of `q`, after `q` has been linked to it,
lead only to elements that the links led to from `q` before. -/
theorem chain_update (f : Nat → Nat) (q : Nat) :
    ∀ j, ∃ m, (Function.update f q (f (f q)))^[j] (f (f q)) = f^[m] q := by
  intro j
  induction j with
  | zero => exact ⟨2, rfl⟩
  | succ j ih =>
    obtain ⟨m, hm⟩ := ih
    rw [Function.iterate_succ_apply', hm]
    by_cases hq : f^[m] q = q
    · rw [hq, Function.update_same]
      exact ⟨2, rfl⟩
    · rw [Function.update_noteq hq]
      exact ⟨m + 1, by rw [Function.iterate_succ_apply']⟩

/-- The root loop from `q` writes only entries of elements that the links lead
to from `q`. -/
theorem root_loop_frame :
    ∀ (fuel : Nat) (uf : algokit_uf_wqupc) (q r : Nat) (uf1 : algokit_uf_wqupc),
      algokit_uf_wqupc_root fuel uf q = some (r, uf1) →
      ∀ x, (∀ j, (uf_entry uf.parent)^[j] q ≠ x) →
        uf_entry uf1.parent x = uf_entry uf.parent x := by
  intro fuel
  induction fuel with
  | zero =>
    intro uf q r uf1 h
    simp [algokit_uf_wqupc_root] at h
  | succ fuel ih =>
    intro uf q r uf1 h x hx
    rw [algokit_uf_wqupc_root] at h
    by_cases hroot : q ≠ uf_entry uf.parent q
    · rw [if_pos hroot] at h
      simp only [] at h
      have hql : q < uf.parent.length := by
        by_contra hc
        exact hroot (uf_entry_outside uf.parent q (by omega)).symm
      have hf1 := uf_entry_set uf.parent q (uf_entry uf.parent (uf_entry uf.parent q)) hql
      have hxq : x ≠ q := fun e => hx 0 e.symm
      have h2 := ih _ _ r uf1 h x (by
        intro j
        simp only [hf1, Function.update_same]
        obtain ⟨m, hm⟩ := chain_update (uf_entry uf.parent) q j
        rw [hm]
        exact hx m)
      rw [h2]
      simp only [hf1]
      rw [Function.update_noteq hxq]
    · rw [if_neg hroot] at h
      simp only [Option.some.injEq, Prod.mk.injEq] at h
      rw [← h.2]

/-- The root loop from `p` leaves `p` linked to its former grandparent. -/
theorem root_call_grandparent (uf : algokit_uf_wqupc) (hinv : uf_wqupc_inv uf) (p : Nat)
    (hp : p < uf.n) (r : Nat) (uf1 : algokit_uf_wqupc)
    (h : algokit_uf_wqupc_root uf.n uf p = some (r, uf1)) :
    uf_entry uf1.parent p = uf_entry uf.parent (uf_entry uf.parent p) := by
  obtain ⟨hlen, hrange, hreach⟩ := hinv
  obtain ⟨m, hm⟩ : ∃ m, uf.n = m + 1 := ⟨uf.n - 1, by omega⟩
  rw [hm, algokit_uf_wqupc_root] at h
  by_cases hroot : p ≠ uf_entry uf.parent p
  · rw [if_pos hroot] at h
    simp only [] at h
    have hne : uf_entry uf.parent p ≠ p := fun e => hroot e.symm
    have hpl : p < uf.parent.length := by rw [hlen]; exact hp
    have hf1 := uf_entry_set uf.parent p (uf_entry uf.parent (uf_entry uf.parent p)) hpl
    have hframe := root_loop_frame m _ _ r uf1 h p (by
      intro j hj
      simp only [hf1, Function.update_same] at hj
      -- the updated links lead from `p` back to `p`
      have hper : (Function.update (uf_entry uf.parent) p
          (uf_entry uf.parent (uf_entry uf.parent p)))^[j + 1] p = p := by
        rw [Function.iterate_succ_apply, Function.update_same]
        exact hj
      obtain ⟨k, hk⟩ := hreach p
      have hrk : (uf_entry uf.parent)^[k] p ≠ p := by
        intro e
        rw [e] at hk
        exact hne hk
      obtain ⟨i, -, hi⟩ := links_halve (uf_entry uf.parent) p hne k p _ hk rfl
      have h1 := periodic_is_root _ p j hper ⟨i, by
        rw [hi, Function.update_noteq hrk]
        exact hk⟩
      rw [Function.update_same] at h1
      have h2 := periodic_is_root (uf_entry uf.parent) p 1 (by
        rw [Function.iterate_succ_apply, Function.iterate_succ_apply, Function.iterate_zero,
          id_eq]
        exact h1) (hreach p)
      exact hne h2)
    rw [hframe]
    simp only [hf1]
    rw [Function.update_same]
  · rw [if_neg hroot] at h
    simp only [Option.some.injEq, Prod.mk.injEq] at h
    have hpr : uf_entry uf.parent p = p := by
      by_contra hc
      exact hroot (fun e => hc e.symm)
    rw [← h.2, hpr, hpr]

end uf_wqupc_halving

/-! ## Weighted quick-union: path halving and the parent chains -/

section uf_wqupc_path_claims

/-- C34: `find` halves the path.  For every reachable state and every element
`p` (an index below `n`), `algokit_uf_wqupc_find(p)` returns 0 and writes the
root that `p` had before the call, which the parent links of the state before
the call lead to from `p`; it changes `n`, the `size` array and the root of
no element, and leaves `parent[p]` equal to the former grandparent of `p`.
When that grandparent was not a root, `parent[p]` is not the root of `p`
after the call. -/
theorem uf_wqupc_find_halves_path (uf : algokit_uf_wqupc) (hreach : uf_wqupc_reachable uf)
    (p : Nat) (hp : p < uf.n) :
    ∃ uf1, algokit_uf_wqupc_find uf p = some (0, some (uf_wqupc_root_of uf p), uf1) ∧
      uf_entry uf.parent (uf_wqupc_root_of uf p) = uf_wqupc_root_of uf p ∧
      (∃ k, k < uf.n ∧ (uf_entry uf.parent)^[k] p = uf_wqupc_root_of uf p) ∧
      uf1.n = uf.n ∧ uf1.size = uf.size ∧
      (∀ x, uf_wqupc_root_of uf1 x = uf_wqupc_root_of uf x) ∧
      uf_entry uf1.parent p = uf_entry uf.parent (uf_entry uf.parent p) ∧
      (uf_entry uf.parent (uf_entry uf.parent (uf_entry uf.parent p)) ≠
          uf_entry uf.parent (uf_entry uf.parent p) →
        uf_entry uf1.parent p ≠ uf_wqupc_root_of uf1 p) := by
  have hinv := uf_reachable_inv uf hreach
  obtain ⟨uf1, h1, h2, h3, h4, h5⟩ := root_call uf hinv p hp
  have hg := root_call_grandparent uf hinv p hp _ uf1 h1
  obtain ⟨k, hk, hkr⟩ := links_depth_lt _ uf.n hinv.2.1 p hp (hinv.2.2 p)
  refine ⟨uf1, ?_, root_of_is_root uf hinv p, ⟨k, hk, (root_of_eq uf hinv p _ k hkr rfl).symm⟩,
    h3, h4, h5, hg, fun hne heq => ?_⟩
  · unfold algokit_uf_wqupc_find
    rw [if_neg (by omega), h1]
  · apply hne
    have hr := root_of_is_root uf hinv p
    rw [← h5 p, ← heq, hg] at hr
    exact hr

/-- C34, witness: on eight elements after the unions (0,1), (2,3), (0,2), (4,5),
(6,7), (4,6), (0,4) the call `find(7)` returns the root 0 and leaves
`parent[7] = 4`. -/
theorem uf_wqupc_find_halves_path_witness :
    uf_wqupc_reachable uf_wqupc_chain ∧ 7 < uf_wqupc_chain.n ∧
    algokit_uf_wqupc_find uf_wqupc_chain 7 =
      some (0, some 0, ⟨8, [0, 0, 0, 2, 0, 4, 4, 4], [8, 1, 2, 1, 4, 1, 2, 1]⟩) ∧
    ∃ uf1, algokit_uf_wqupc_find uf_wqupc_chain 7 =
        some (0, some (uf_wqupc_root_of uf_wqupc_chain 7), uf1) ∧
      uf_entry uf_wqupc_chain.parent (uf_wqupc_root_of uf_wqupc_chain 7) =
        uf_wqupc_root_of uf_wqupc_chain 7 ∧
      (∃ k, k < uf_wqupc_chain.n ∧
        (uf_entry uf_wqupc_chain.parent)^[k] 7 = uf_wqupc_root_of uf_wqupc_chain 7) ∧
      uf1.n = uf_wqupc_chain.n ∧ uf1.size = uf_wqupc_chain.size ∧
      (∀ x, uf_wqupc_root_of uf1 x = uf_wqupc_root_of uf_wqupc_chain x) ∧
      uf_entry uf1.parent 7 =
        uf_entry uf_wqupc_chain.parent (uf_entry uf_wqupc_chain.parent 7) ∧
      (uf_entry uf_wqupc_chain.parent (uf_entry uf_wqupc_chain.parent
          (uf_entry uf_wqupc_chain.parent 7)) ≠
          uf_entry uf_wqupc_chain.parent (uf_entry uf_wqupc_chain.parent 7) →
        uf_entry uf1.parent 7 ≠ uf_wqupc_root_of uf1 7) :=
  ⟨⟨8, uf_wqupc_chain_unions, uf_wqupc_eight, by decide, by decide⟩, by decide, by decide,
    uf_wqupc_find_halves_path uf_wqupc_chain
      ⟨8, uf_wqupc_chain_unions, uf_wqupc_eight, by decide, by decide⟩ 7 (by decide)⟩

/-- C36: the parent chains end at a root.  In every state reachable from
`algokit_uf_wqupc_create(n)` by `union`, `find` and `connected` calls, the
`parent` array has `n` entries, every entry is below `n`, and the parent links
from any element reach an element that is its own parent in fewer than `n`
steps; the root loop from any element returns within `n` rounds, and so does
every further sequence of calls.  A call with an index that is not below `n`
returns -1 and changes nothing. -/
theorem uf_wqupc_chains_end_at_root (uf : algokit_uf_wqupc) (hreach : uf_wqupc_reachable uf) :
    uf.parent.length = uf.n ∧
    (∀ p, p < uf.n → uf_entry uf.parent p < uf.n) ∧
    (∀ p, p < uf.n → ∃ k, k < uf.n ∧
      uf_entry uf.parent ((uf_entry uf.parent)^[k] p) = (uf_entry uf.parent)^[k] p) ∧
    (∀ p, p < uf.n → ∃ r uf1, algokit_uf_wqupc_root uf.n uf p = some (r, uf1) ∧
      uf_entry uf.parent r = r ∧ r < uf.n) ∧
    (∀ ops, ∃ uf1, uf_wqupc_run uf ops = some uf1) ∧
    (∀ p, uf.n ≤ p → algokit_uf_wqupc_find uf p = some (-1, none, uf)) ∧
    (∀ p q, uf.n ≤ p ∨ uf.n ≤ q →
      algokit_uf_wqupc_union uf p q = some (-1, uf) ∧
      algokit_uf_wqupc_connected uf p q = some (-1, none, uf)) := by
  have hinv := uf_reachable_inv uf hreach
  refine ⟨hinv.1, hinv.2.1, fun p hp => links_depth_lt _ uf.n hinv.2.1 p hp (hinv.2.2 p),
    fun p hp => ?_, fun ops => ?_, fun p hp => ?_, fun p q hpq => ⟨?_, ?_⟩⟩
  · obtain ⟨uf1, h1, -⟩ := root_call uf hinv p hp
    exact ⟨_, uf1, h1, root_of_is_root uf hinv p, root_of_lt uf hinv p hp⟩
  · obtain ⟨n, done, uf0, hc, hrun⟩ := hreach
    obtain ⟨i0, n0, r0⟩ := uf_create_inv true n uf0 hc
    obtain ⟨uf2, h1, h2, h3, h4⟩ := uf_run_spec done [] uf0 i0 (by
      intro x y _ _
      rw [r0, r0]
      constructor
      · rintro rfl; exact Relation.EqvGen.refl _
      · exact eqvgen_no_union _ x y)
    rw [hrun] at h1
    simp only [Option.some.injEq] at h1
    subst h1
    rw [← h3] at h4
    obtain ⟨uf1, g1, -⟩ := uf_run_spec ops ([] ++ done) uf hinv h4
    exact ⟨uf1, g1⟩
  · unfold algokit_uf_wqupc_find
    rw [if_pos hp]
  · unfold algokit_uf_wqupc_union
    rw [if_pos hpq]
  · unfold algokit_uf_wqupc_connected
    rw [if_pos hpq]

/-- C36, witness: the state after the `union` calls of the test. -/
theorem uf_wqupc_chains_end_at_root_witness :
    uf_wqupc_reachable uf_wqupc_after_test ∧
    algokit_uf_wqupc_find uf_wqupc_after_test 8 = some (-1, none, uf_wqupc_after_test) ∧
    uf_wqupc_after_test.parent.length = uf_wqupc_after_test.n ∧
    (∀ p, p < uf_wqupc_after_test.n → uf_entry uf_wqupc_after_test.parent p <
      uf_wqupc_after_test.n) ∧
    (∀ p, p < uf_wqupc_after_test.n → ∃ k, k < uf_wqupc_after_test.n ∧
      uf_entry uf_wqupc_after_test.parent ((uf_entry uf_wqupc_after_test.parent)^[k] p) =
        (uf_entry uf_wqupc_after_test.parent)^[k] p) ∧
    (∀ p, p < uf_wqupc_after_test.n → ∃ r uf1,
      algokit_uf_wqupc_root uf_wqupc_after_test.n uf_wqupc_after_test p = some (r, uf1) ∧
      uf_entry uf_wqupc_after_test.parent r = r ∧ r < uf_wqupc_after_test.n) ∧
    (∀ ops, ∃ uf1, uf_wqupc_run uf_wqupc_after_test ops = some uf1) ∧
    (∀ p, uf_wqupc_after_test.n ≤ p →
      algokit_uf_wqupc_find uf_wqupc_after_test p = some (-1, none, uf_wqupc_after_test)) ∧
    (∀ p q, uf_wqupc_after_test.n ≤ p ∨ uf_wqupc_after_test.n ≤ q →
      algokit_uf_wqupc_union uf_wqupc_after_test p q = some (-1, uf_wqupc_after_test) ∧
      algokit_uf_wqupc_connected uf_wqupc_after_test p q =
        some (-1, none, uf_wqupc_after_test)) :=
  ⟨⟨8, uf_wqupc_test_unions, uf_wqupc_eight, by decide, by decide⟩, by decide,
    uf_wqupc_chains_end_at_root uf_wqupc_after_test
      ⟨8, uf_wqupc_test_unions, uf_wqupc_eight, by decide, by decide⟩⟩

end uf_wqupc_path_claims

/-! ## Weighted quick-union: the size array counts the trees -/

section uf_wqupc_size_lemmas

/-- An element is its own parent exactly when it is its own root. -/
theorem uf_root_iff (uf : algokit_uf_wqupc) (hinv : uf_wqupc_inv uf) (r : Nat) :
    uf_entry uf.parent r = r ↔ uf_wqupc_root_of uf r = r := by
  constructor
  · intro h
    exact root_of_eq uf hinv r r 0 h rfl
  · intro h
    have h1 := root_of_is_root uf hinv r
    rw [h] at h1
    exact h1

theorem tree_count_congr (uf uf1 : algokit_uf_wqupc) (hn : uf1.n = uf.n)
    (h : ∀ x, uf_wqupc_root_of uf1 x = uf_wqupc_root_of uf x) (r : Nat) :
    uf_wqupc_tree_count uf1 r = uf_wqupc_tree_count uf r := by
  unfold uf_wqupc_tree_count
  rw [hn]
  simp only [h]

/-- A state with the same roots and the same `size` array keeps the size
invariant. -/
theorem sized_congr (uf uf1 : algokit_uf_wqupc) (hinv : uf_wqupc_inv uf)
    (hinv1 : uf_wqupc_inv uf1) (hn : uf1.n = uf.n) (hs : uf1.size = uf.size)
    (h : ∀ x, uf_wqupc_root_of uf1 x = uf_wqupc_root_of uf x) (hsz : uf_wqupc_sized uf) :
    uf_wqupc_sized uf1 := by
  refine ⟨by rw [hs, hn]; exact hsz.1, fun r hr hroot => ?_⟩
  rw [hs, tree_count_congr uf uf1 hn h r]
  refine hsz.2 r (by rw [← hn]; exact hr) ?_
  rw [uf_root_iff uf hinv, ← h r, ← uf_root_iff uf1 hinv1]
  exact hroot

theorem countP_merge (l : List Nat) (h : Nat → Nat) (a b : Nat) (hab : a ≠ b) :
    l.countP (fun x => decide ((if h x = a then b else h x) = b)) =
      l.countP (fun x => decide (h x = a)) + l.countP (fun x => decide (h x = b)) := by
  induction l with
  | nil => rfl
  | cons x l ih =>
    rw [List.countP_cons, List.countP_cons, List.countP_cons, ih]
    by_cases hxa : h x = a
    · have hab1 : ¬ a = b := hab
      rw [hxa]
      simp only [if_true, decide_True, hab1, decide_False, Bool.false_eq_true, if_false]
      omega
    · by_cases hxb : h x = b
      · have hba : ¬ b = a := fun e => hab e.symm
        rw [hxb]
        simp only [hba, if_false, decide_True, if_true, decide_False, Bool.false_eq_true]
        omega
      · simp only [hxa, hxb, if_false, decide_False, Bool.false_eq_true]
        omega

theorem countP_other (l : List Nat) (h : Nat → Nat) (a b r : Nat) (hra : r ≠ a) (hrb : r ≠ b) :
    l.countP (fun x => decide ((if h x = a then b else h x) = r)) =
      l.countP (fun x => decide (h x = r)) := by
  induction l with
  | nil => rfl
  | cons x l ih =>
    rw [List.countP_cons, List.countP_cons, ih]
    by_cases hxa : h x = a
    · have h1 : ¬ a = r := fun e => hra e.symm
      have h2 : ¬ b = r := fun e => hrb e.symm
      rw [hxa]
      simp only [if_true, h1, h2, decide_False]
    · simp only [hxa, if_false]

/-- Linking the root `a` under the root `b` with the sum of the two sizes
recorded at `b`, as `union` does, keeps the size invariant; the tree of `b`
then has the elements of both trees. -/
theorem link_sized (uf : algokit_uf_wqupc) (hinv : uf_wqupc_inv uf) (hsz : uf_wqupc_sized uf)
    (a b : Nat) (ha : uf_entry uf.parent a = a) (hb : uf_entry uf.parent b = b) (hab : a ≠ b)
    (han : a < uf.n) (hbn : b < uf.n) :
    uf_wqupc_sized ⟨uf.n, uf.parent.set a b,
      uf.size.set b (uf_entry uf.size b + uf_entry uf.size a)⟩ ∧
    uf_wqupc_tree_count ⟨uf.n, uf.parent.set a b,
      uf.size.set b (uf_entry uf.size b + uf_entry uf.size a)⟩ b =
        uf_wqupc_tree_count uf a + uf_wqupc_tree_count uf b ∧
    uf_entry (uf.size.set b (uf_entry uf.size b + uf_entry uf.size a)) b =
      uf_entry uf.size b + uf_entry uf.size a ∧
    (∀ r, r ≠ b → uf_entry (uf.size.set b (uf_entry uf.size b + uf_entry uf.size a)) r =
      uf_entry uf.size r) ∧
    uf_entry (uf.parent.set a b) a = b ∧
    (∀ r, r ≠ a → uf_entry (uf.parent.set a b) r = uf_entry uf.parent r) := by
  obtain ⟨l1, l2⟩ := link_spec uf hinv a b
    (uf.size.set b (uf_entry uf.size b + uf_entry uf.size a)) ha hb hab han hbn
  have hf1 := uf_entry_set uf.parent a b (by rw [hinv.1]; exact han)
  have hs1 := uf_entry_set uf.size b (uf_entry uf.size b + uf_entry uf.size a)
    (by rw [hsz.1]; exact hbn)
  have hcount : ∀ r, uf_wqupc_tree_count ⟨uf.n, uf.parent.set a b,
      uf.size.set b (uf_entry uf.size b + uf_entry uf.size a)⟩ r =
      (List.range uf.n).countP
        (fun x => decide ((if uf_wqupc_root_of uf x = a then b else uf_wqupc_root_of uf x) = r)) := by
    intro r
    unfold uf_wqupc_tree_count
    simp only [l2]
  have hcb : uf_wqupc_tree_count ⟨uf.n, uf.parent.set a b,
      uf.size.set b (uf_entry uf.size b + uf_entry uf.size a)⟩ b =
        uf_wqupc_tree_count uf a + uf_wqupc_tree_count uf b := by
    rw [hcount b, countP_merge _ _ a b hab]
    rfl
  refine ⟨⟨by simpa using hsz.1, fun r hr hroot => ?_⟩, hcb, by rw [hs1, Function.update_same],
    fun r hr => by rw [hs1, Function.update_noteq hr], by rw [hf1, Function.update_same],
    fun r hr => by rw [hf1, Function.update_noteq hr]⟩
  simp only [hf1, hs1] at hroot ⊢
  by_cases hra : r = a
  · subst hra
    rw [Function.update_same] at hroot
    exact absurd hroot.symm hab
  · rw [Function.update_noteq hra] at hroot
    by_cases hrb : r = b
    · subst hrb
      rw [Function.update_same, hcb, hsz.2 r hbn hb, hsz.2 a han ha]
      omega
    · rw [Function.update_noteq hrb, hcount r, countP_other _ _ a b r hra hrb]
      exact hsz.2 r hr hroot

/-- The structure of `create` satisfies the size invariant. -/
theorem uf_create_sized (n : Nat) (uf : algokit_uf_wqupc)
    (hc : algokit_uf_wqupc_create true n = some uf) : uf_wqupc_sized uf := by
  obtain ⟨hinv, hn, hr⟩ := uf_create_inv true n uf hc
  unfold algokit_uf_wqupc_create at hc
  simp only [Bool.true_eq_false, if_false, Option.some.injEq] at hc
  subst hc
  refine ⟨by simp, fun r hr1 _ => ?_⟩
  have h1 : uf_entry (List.replicate n 1) r = 1 := by
    simp only [uf_entry, List.getD_eq_getElem?_getD]
    rw [List.getElem?_replicate]
    simp [hr1]
  simp only [h1]
  unfold uf_wqupc_tree_count
  simp only [hr]
  have h2 : ∀ m, r < m → (List.range m).countP (fun x => decide (x = r)) = 1 := by
    intro m
    induction m with
    | zero => intro h; omega
    | succ m ih =>
      intro h
      rw [List.range_succ, List.countP_append]
      by_cases hm : r < m
      · rw [ih hm]
        have : m ≠ r := by omega
        simp [this]
      · have hmr : m = r := by omega
        have h0 : (List.range m).countP (fun x => decide (x = r)) = 0 := by
          rw [List.countP_eq_zero]
          intro x hx
          have := List.mem_range.mp hx
          simp
          omega
        rw [h0]
        simp [hmr]
  exact (h2 n hr1).symm

/-- The two root calls of `union` and `connected`: the state after them has
the roots and the `size` array of the state before. -/
theorem root_calls (uf : algokit_uf_wqupc) (hinv : uf_wqupc_inv uf) (p q : Nat) (hp : p < uf.n)
    (hq : q < uf.n) :
    ∃ uf1 uf2, algokit_uf_wqupc_root uf.n uf p = some (uf_wqupc_root_of uf p, uf1) ∧
      algokit_uf_wqupc_root uf1.n uf1 q = some (uf_wqupc_root_of uf q, uf2) ∧
      uf_wqupc_inv uf2 ∧ uf2.n = uf.n ∧ uf2.size = uf.size ∧
      (∀ x, uf_wqupc_root_of uf2 x = uf_wqupc_root_of uf x) ∧
      (∀ r, uf_entry uf2.parent r = r ↔ uf_entry uf.parent r = r) := by
  obtain ⟨uf1, h1, h2, h3, h4, h5⟩ := root_call uf hinv p hp
  obtain ⟨uf2, g1, g2, g3, g4, g5⟩ := root_call uf1 h2 q (by rw [h3]; exact hq)
  have hroots : ∀ x, uf_wqupc_root_of uf2 x = uf_wqupc_root_of uf x :=
    fun x => by rw [g5, h5]
  refine ⟨uf1, uf2, h1, by rw [g1, h5], g2, by rw [g3, h3], by rw [g4, h4], hroots, fun r => ?_⟩
  rw [uf_root_iff uf2 g2, uf_root_iff uf hinv, hroots]

/-- One call keeps the invariants of the `parent` and the `size` array. -/
theorem uf_step_sized (uf : algokit_uf_wqupc) (hinv : uf_wqupc_inv uf) (hsz : uf_wqupc_sized uf)
    (op : uf_wqupc_op) (uf1 : algokit_uf_wqupc) (h : uf_wqupc_step uf op = some uf1) :
    uf_wqupc_inv uf1 ∧ uf_wqupc_sized uf1 := by
  cases op with
  | find p =>
    simp only [uf_wqupc_step, algokit_uf_wqupc_find] at h
    by_cases hp : p ≥ uf.n
    · rw [if_pos hp] at h
      simp only [Option.map_some', Option.some.injEq] at h
      subst h
      exact ⟨hinv, hsz⟩
    · rw [if_neg hp] at h
      obtain ⟨u1, h1, h2, h3, h4, h5⟩ := root_call uf hinv p (by omega)
      rw [h1] at h
      simp only [Option.map_some', Option.some.injEq] at h
      subst h
      exact ⟨h2, sized_congr uf u1 hinv h2 h3 h4 h5 hsz⟩
  | connected p q =>
    simp only [uf_wqupc_step, algokit_uf_wqupc_connected] at h
    by_cases hpq : p ≥ uf.n ∨ q ≥ uf.n
    · rw [if_pos hpq] at h
      simp only [Option.map_some', Option.some.injEq] at h
      subst h
      exact ⟨hinv, hsz⟩
    · rw [if_neg hpq] at h
      obtain ⟨u1, u2, h1, h2, h3, h4, h5, h6, -⟩ := root_calls uf hinv p q (by omega) (by omega)
      rw [h1] at h
      simp only [h2, Option.map_some', Option.some.injEq] at h
      subst h
      exact ⟨h3, sized_congr uf u2 hinv h3 h4 h5 h6 hsz⟩
  | union p q =>
    simp only [uf_wqupc_step, algokit_uf_wqupc_union] at h
    by_cases hpq : p ≥ uf.n ∨ q ≥ uf.n
    · rw [if_pos hpq] at h
      simp only [Option.map_some', Option.some.injEq] at h
      subst h
      exact ⟨hinv, hsz⟩
    · rw [if_neg hpq] at h
      obtain ⟨u1, u2, h1, h2, h3, h4, h5, h6, h7⟩ := root_calls uf hinv p q (by omega) (by omega)
      have hsz2 := sized_congr uf u2 hinv h3 h4 h5 h6 hsz
      have hrp : uf_entry u2.parent (uf_wqupc_root_of uf p) = uf_wqupc_root_of uf p :=
        (h7 _).mpr (root_of_is_root uf hinv p)
      have hrq : uf_entry u2.parent (uf_wqupc_root_of uf q) = uf_wqupc_root_of uf q :=
        (h7 _).mpr (root_of_is_root uf hinv q)
      have hrpn : uf_wqupc_root_of uf p < u2.n := by
        rw [h4]; exact root_of_lt uf hinv p (by omega)
      have hrqn : uf_wqupc_root_of uf q < u2.n := by
        rw [h4]; exact root_of_lt uf hinv q (by omega)
      rw [h1] at h
      simp only [h2] at h
      by_cases heq : uf_wqupc_root_of uf p = uf_wqupc_root_of uf q
      · rw [if_pos heq] at h
        simp only [Option.map_some', Option.some.injEq] at h
        subst h
        exact ⟨h3, hsz2⟩
      · rw [if_neg heq] at h
        by_cases hlt : uf_entry u2.size (uf_wqupc_root_of uf p) <
            uf_entry u2.size (uf_wqupc_root_of uf q)
        · rw [if_pos hlt] at h
          simp only [Option.map_some', Option.some.injEq] at h
          subst h
          exact ⟨(link_spec u2 h3 _ _ _ hrp hrq heq hrpn hrqn).1,
            (link_sized u2 h3 hsz2 _ _ hrp hrq heq hrpn hrqn).1⟩
        · rw [if_neg hlt] at h
          simp only [Option.map_some', Option.some.injEq] at h
          subst h
          exact ⟨(link_spec u2 h3 _ _ _ hrq hrp (Ne.symm heq) hrqn hrpn).1,
            (link_sized u2 h3 hsz2 _ _ hrq hrp (Ne.symm heq) hrqn hrpn).1⟩

theorem uf_run_sized : ∀ (ops : List uf_wqupc_op) (uf uf1 : algokit_uf_wqupc),
    uf_wqupc_inv uf → uf_wqupc_sized uf → uf_wqupc_run uf ops = some uf1 →
    uf_wqupc_sized uf1 := by
  intro ops
  induction ops with
  | nil =>
    intro uf uf1 _ hsz h
    simp only [uf_wqupc_run, Option.some.injEq] at h
    subst h
    exact hsz
  | cons op ops ih =>
    intro uf uf1 hinv hsz h
    simp only [uf_wqupc_run] at h
    cases hs : uf_wqupc_step uf op with
    | none => simp [hs] at h
    | some u =>
      simp only [hs] at h
      obtain ⟨i1, s1⟩ := uf_step_sized uf hinv hsz op u hs
      exact ih u uf1 i1 s1 h

/-- Every reachable state satisfies the size invariant. -/
theorem uf_reachable_sized (uf : algokit_uf_wqupc) (hr : uf_wqupc_reachable uf) :
    uf_wqupc_sized uf := by
  obtain ⟨n, ops, uf0, hc, hrun⟩ := hr
  exact uf_run_sized ops uf0 uf (uf_create_inv true n uf0 hc).1 (uf_create_sized n uf0 hc) hrun

end uf_wqupc_size_lemmas

/-! ## Weighted quick-union: union by size -/

section uf_wqupc_weight_claims

/-- C35: `union` is weighted by size.  For every reachable state and indices
`p`, `q` below `n` with roots `rp` and `rq`, `algokit_uf_wqupc_union(p, q)`
returns 0, and the `size` entry of each of the two roots is the number of
elements of its tree.  When `rp = rq` the call changes no `size` entry, no
root and which elements are their own parent.  Otherwise the root of the tree
with fewer elements gets the other root as its parent (the root of `q` that
of `p` when the trees have equally many elements), every other element is
its own parent exactly when it was before, the `size` entry of the surviving
root becomes the sum of the two sizes, which is the number of elements of the
merged tree, and no other `size` entry changes. -/
theorem uf_wqupc_union_weighted (uf : algokit_uf_wqupc) (hreach : uf_wqupc_reachable uf)
    (p q : Nat) (hp : p < uf.n) (hq : q < uf.n) :
    ∃ uf3, algokit_uf_wqupc_union uf p q = some (0, uf3) ∧ uf3.n = uf.n ∧
      uf_wqupc_sized uf3 ∧
      uf_entry uf.size (uf_wqupc_root_of uf p) =
        uf_wqupc_tree_count uf (uf_wqupc_root_of uf p) ∧
      uf_entry uf.size (uf_wqupc_root_of uf q) =
        uf_wqupc_tree_count uf (uf_wqupc_root_of uf q) ∧
      (uf_wqupc_root_of uf p = uf_wqupc_root_of uf q →
        uf3.size = uf.size ∧
        (∀ r, uf_entry uf3.parent r = r ↔ uf_entry uf.parent r = r) ∧
        ∀ x, uf_wqupc_root_of uf3 x = uf_wqupc_root_of uf x) ∧
      (uf_wqupc_root_of uf p ≠ uf_wqupc_root_of uf q →
        uf_wqupc_tree_count uf (uf_wqupc_root_of uf p) <
          uf_wqupc_tree_count uf (uf_wqupc_root_of uf q) →
        uf_entry uf3.parent (uf_wqupc_root_of uf p) = uf_wqupc_root_of uf q ∧
        (∀ r, r ≠ uf_wqupc_root_of uf p →
          (uf_entry uf3.parent r = r ↔ uf_entry uf.parent r = r)) ∧
        uf_entry uf3.size (uf_wqupc_root_of uf q) =
          uf_entry uf.size (uf_wqupc_root_of uf p) + uf_entry uf.size (uf_wqupc_root_of uf q) ∧
        uf_entry uf3.size (uf_wqupc_root_of uf q) =
          uf_wqupc_tree_count uf3 (uf_wqupc_root_of uf q) ∧
        uf_wqupc_tree_count uf3 (uf_wqupc_root_of uf q) =
          uf_wqupc_tree_count uf (uf_wqupc_root_of uf p) +
            uf_wqupc_tree_count uf (uf_wqupc_root_of uf q) ∧
        (∀ r, r ≠ uf_wqupc_root_of uf q → uf_entry uf3.size r = uf_entry uf.size r) ∧
        ∀ x, uf_wqupc_root_of uf3 x =
          if uf_wqupc_root_of uf x = uf_wqupc_root_of uf p then uf_wqupc_root_of uf q
          else uf_wqupc_root_of uf x) ∧
      (uf_wqupc_root_of uf p ≠ uf_wqupc_root_of uf q →
        uf_wqupc_tree_count uf (uf_wqupc_root_of uf q) ≤
          uf_wqupc_tree_count uf (uf_wqupc_root_of uf p) →
        uf_entry uf3.parent (uf_wqupc_root_of uf q) = uf_wqupc_root_of uf p ∧
        (∀ r, r ≠ uf_wqupc_root_of uf q →
          (uf_entry uf3.parent r = r ↔ uf_entry uf.parent r = r)) ∧
        uf_entry uf3.size (uf_wqupc_root_of uf p) =
          uf_entry uf.size (uf_wqupc_root_of uf p) + uf_entry uf.size (uf_wqupc_root_of uf q) ∧
        uf_entry uf3.size (uf_wqupc_root_of uf p) =
          uf_wqupc_tree_count uf3 (uf_wqupc_root_of uf p) ∧
        uf_wqupc_tree_count uf3 (uf_wqupc_root_of uf p) =
          uf_wqupc_tree_count uf (uf_wqupc_root_of uf p) +
            uf_wqupc_tree_count uf (uf_wqupc_root_of uf q) ∧
        (∀ r, r ≠ uf_wqupc_root_of uf p → uf_entry uf3.size r = uf_entry uf.size r) ∧
        ∀ x, uf_wqupc_root_of uf3 x =
          if uf_wqupc_root_of uf x = uf_wqupc_root_of uf q then uf_wqupc_root_of uf p
          else uf_wqupc_root_of uf x) := by
  have hinv := uf_reachable_inv uf hreach
  have hsz := uf_reachable_sized uf hreach
  obtain ⟨u1, u2, h1, h2, h3, h4, h5, h6, h7⟩ := root_calls uf hinv p q hp hq
  have hsz2 := sized_congr uf u2 hinv h3 h4 h5 h6 hsz
  have hrp0 := root_of_is_root uf hinv p
  have hrq0 := root_of_is_root uf hinv q
  have hrp : uf_entry u2.parent (uf_wqupc_root_of uf p) = uf_wqupc_root_of uf p :=
    (h7 _).mpr hrp0
  have hrq : uf_entry u2.parent (uf_wqupc_root_of uf q) = uf_wqupc_root_of uf q :=
    (h7 _).mpr hrq0
  have hrpn0 := root_of_lt uf hinv p hp
  have hrqn0 := root_of_lt uf hinv q hq
  have hrpn : uf_wqupc_root_of uf p < u2.n := by rw [h4]; exact hrpn0
  have hrqn : uf_wqupc_root_of uf q < u2.n := by rw [h4]; exact hrqn0
  have hcp := hsz.2 _ hrpn0 hrp0
  have hcq := hsz.2 _ hrqn0 hrq0
  have htc : ∀ r, uf_wqupc_tree_count u2 r = uf_wqupc_tree_count uf r :=
    tree_count_congr uf u2 h4 h6
  unfold algokit_uf_wqupc_union
  rw [if_neg (by omega), h1]
  simp only [h2]
  by_cases heq : uf_wqupc_root_of uf p = uf_wqupc_root_of uf q
  · rw [if_pos heq]
    exact ⟨u2, rfl, h4, hsz2, hcp, hcq, fun _ => ⟨h5, h7, h6⟩, fun hne => absurd heq hne,
      fun hne => absurd heq hne⟩
  · rw [if_neg heq]
    by_cases hlt : uf_entry u2.size (uf_wqupc_root_of uf p) <
        uf_entry u2.size (uf_wqupc_root_of uf q)
    · rw [if_pos hlt]
      obtain ⟨-, l2⟩ := link_spec u2 h3 _ _
        (u2.size.set (uf_wqupc_root_of uf q) (uf_entry u2.size (uf_wqupc_root_of uf q) +
          uf_entry u2.size (uf_wqupc_root_of uf p))) hrp hrq heq hrpn hrqn
      obtain ⟨s1, s2, s3, s4, s5, s6⟩ := link_sized u2 h3 hsz2 _ _ hrp hrq heq hrpn hrqn
      refine ⟨_, rfl, h4, s1, hcp, hcq, fun he => absurd he heq, fun _ _ => ?_, fun _ hle => ?_⟩
      · refine ⟨s5, fun r hr => by rw [s6 r hr]; exact h7 r, ?_, ?_, ?_, ?_, ?_⟩
        · rw [s3, h5]; omega
        · rw [s3, s2, htc, htc, ← hcp, ← hcq, h5]; omega
        · rw [s2, htc, htc]
        · intro r hr
          rw [s4 r hr, h5]
        · intro x
          rw [l2 x, h6 x]
      · rw [h5, hcp, hcq] at hlt
        omega
    · rw [if_neg hlt]
      obtain ⟨-, l2⟩ := link_spec u2 h3 _ _
        (u2.size.set (uf_wqupc_root_of uf p) (uf_entry u2.size (uf_wqupc_root_of uf p) +
          uf_entry u2.size (uf_wqupc_root_of uf q))) hrq hrp (Ne.symm heq) hrqn hrpn
      obtain ⟨s1, s2, s3, s4, s5, s6⟩ := link_sized u2 h3 hsz2 _ _ hrq hrp (Ne.symm heq) hrqn hrpn
      refine ⟨_, rfl, h4, s1, hcp, hcq, fun he => absurd he heq, fun _ hl => ?_, fun _ _ => ?_⟩
      · rw [h5, hcp, hcq] at hlt
        omega
      · refine ⟨s5, fun r hr => by rw [s6 r hr]; exact h7 r, ?_, ?_, ?_, ?_, ?_⟩
        · rw [s3, h5]
        · rw [s3, s2, htc, htc, ← hcp, ← hcq, h5]; omega
        · rw [s2, htc, htc]; omega
        · intro r hr
          rw [s4 r hr, h5]
        · intro x
          rw [l2 x, h6 x]

/-- C35, witness: after the `union` calls of the test the trees of 2 and 5 have
three elements each, and `union(2, 5)` puts the root 3 of 5 under the root 0
of 2 with the size 6; `union(6, 5)` puts the single element 6 under the root
3 with the size 4. -/
theorem uf_wqupc_union_weighted_witness :
    uf_wqupc_reachable uf_wqupc_after_test ∧ 2 < uf_wqupc_after_test.n ∧
    5 < uf_wqupc_after_test.n ∧
    algokit_uf_wqupc_union uf_wqupc_after_test 2 5 =
      some (0, ⟨8, [0, 0, 0, 0, 3, 3, 6, 7], [6, 1, 1, 3, 1, 1, 1, 1]⟩) ∧
    algokit_uf_wqupc_union uf_wqupc_after_test 6 5 =
      some (0, ⟨8, [0, 0, 0, 3, 3, 3, 3, 7], [3, 1, 1, 4, 1, 1, 1, 1]⟩) ∧
    uf_wqupc_root_of uf_wqupc_after_test 2 ≠ uf_wqupc_root_of uf_wqupc_after_test 5 ∧
    uf_wqupc_tree_count uf_wqupc_after_test (uf_wqupc_root_of uf_wqupc_after_test 5) ≤
      uf_wqupc_tree_count uf_wqupc_after_test (uf_wqupc_root_of uf_wqupc_after_test 2) ∧
    ∃ uf3, algokit_uf_wqupc_union uf_wqupc_after_test 2 5 = some (0, uf3) ∧
      uf3.n = uf_wqupc_after_test.n ∧ uf_wqupc_sized uf3 :=
  ⟨⟨8, uf_wqupc_test_unions, uf_wqupc_eight, by decide, by decide⟩, by decide, by decide,
    by decide, by decide, by decide, by decide,
    (uf_wqupc_union_weighted uf_wqupc_after_test
      ⟨8, uf_wqupc_test_unions, uf_wqupc_eight, by decide, by decide⟩ 2 5 (by decide)
      (by decide)).imp (fun _ h => ⟨h.1, h.2.1, h.2.2.1⟩)⟩

end uf_wqupc_weight_claims

/-! ## Red-black tree: the height of a well-shaped tree -/

section rbtree_height_lemmas

variable {K V : Type}

/-- The search with its step count returns what the search returns. -/
theorem search_node_steps_fst (cmp : K → K → Int) (key : K) (t : algokit_rbtree_node K V) :
    (algokit_rbtree_search_node_steps cmp t key).1 = algokit_rbtree_search_node cmp t key := by
  induction t with
  | null => rfl
  | node i l r c ihl ihr =>
    simp only [algokit_rbtree_search_node_steps, algokit_rbtree_search_node]
    split_ifs
    · exact ihl
    · exact ihr
    · rfl

/-- A search visits at most the nodes of one path down the tree. -/
theorem search_node_steps_le (cmp : K → K → Int) (key : K) (t : algokit_rbtree_node K V) :
    (algokit_rbtree_search_node_steps cmp t key).2 ≤ rbtree_height t := by
  induction t with
  | null => exact le_refl _
  | node i l r c ihl ihr =>
    simp only [algokit_rbtree_search_node_steps, rbtree_height]
    split_ifs
    · have := le_max_left (rbtree_height l) (rbtree_height r)
      simp only []
      omega
    · have := le_max_right (rbtree_height l) (rbtree_height r)
      simp only []
      omega
    · simp only []
      omega

/-- In a well-shaped subtree the longest path has at most twice the black
height many nodes, and one more below a red root. -/
theorem llrb_shape_height (t : algokit_rbtree_node K V) (hs : llrb_shape t) :
    rbtree_height t ≤ 2 * black_height t + (if algokit_rbtree_is_red t then 1 else 0) := by
  induction t with
  | null => simp [rbtree_height]
  | node i l r c ihl ihr =>
    simp only [llrb_shape] at hs
    obtain ⟨hr, hcl, hb, hl, hrs⟩ := hs
    have h1 := ihl hl
    have h2 := ihr hrs
    rw [hr] at h2
    simp only [Bool.false_eq_true, if_false, add_zero] at h2
    simp only [rbtree_height, black_height, algokit_rbtree_is_red]
    cases c with
    | true =>
      rw [hcl rfl] at h1
      simp only [Bool.false_eq_true, if_false, add_zero] at h1
      simp only [if_true, add_zero]
      have := max_le h1 (by rw [hb]; exact h2 : rbtree_height r ≤ 2 * black_height l)
      omega
    | false =>
      simp only [Bool.false_eq_true, if_false, add_zero]
      have h3 : rbtree_height l ≤ 2 * black_height l + 1 := by
        split_ifs at h1 <;> omega
      have := max_le h3 (by rw [hb]; omega : rbtree_height r ≤ 2 * black_height l + 1)
      omega

/-- A well-shaped subtree of black height `b` has at least `2 ^ b - 1` nodes. -/
theorem llrb_shape_count (t : algokit_rbtree_node K V) (hs : llrb_shape t) :
    2 ^ black_height t ≤ count t + 1 := by
  induction t with
  | null => simp
  | node i l r c ihl ihr =>
    simp only [llrb_shape] at hs
    obtain ⟨-, -, hb, hl, hrs⟩ := hs
    have h1 := ihl hl
    have h2 := ihr hrs
    rw [← hb] at h2
    simp only [black_height, count]
    cases c with
    | true =>
      simp only [if_true, add_zero]
      omega
    | false =>
      simp only [Bool.false_eq_true, if_false, pow_succ]
      omega

end rbtree_height_lemmas

/-! ## Red-black tree: the height bound -/

section rbtree_height_claims

variable {K V : Type} {cmp : K → K → Int}

/-- C38: the red-black tree is height-balanced.  For a comparator that is a
total order on the keys and every tree produced from the empty tree by calls
of `algokit_rbtree_insert` and `algokit_rbtree_remove`, with `n` the number of
its pairs (the nodes of the tree, which the in-order traversal visits once
each): the longest path from the root down to a `NULL` link has at most
`2 * log2 (n + 1)` nodes, with the logarithm rounded down, and a call of
`algokit_rbtree_search` returns after at most that many comparisons. -/
theorem rbtree_height_logarithmic (hc : CmpOrder cmp) (tree : algokit_rbtree K V)
    (hr : rbtree_reachable cmp tree) :
    (algokit_rbtree_traverse_inorder tree).length = count tree.root ∧
    2 ^ black_height tree.root ≤ count tree.root + 1 ∧
    rbtree_height tree.root ≤ 2 * black_height tree.root ∧
    rbtree_height tree.root ≤ 2 * Nat.log 2 (count tree.root + 1) ∧
    ∀ key, (algokit_rbtree_search_node_steps cmp tree.root key).1 =
        algokit_rbtree_search_node cmp tree.root key ∧
      (algokit_rbtree_search_node_steps cmp tree.root key).2 ≤ rbtree_height tree.root ∧
      (algokit_rbtree_search_node_steps cmp tree.root key).2 ≤
        2 * Nat.log 2 (count tree.root + 1) := by
  obtain ⟨-, hs, hb⟩ := rbtree_reachable_valid hc tree hr
  have h1 := llrb_shape_height tree.root hs
  rw [hb] at h1
  simp only [Bool.false_eq_true, if_false, add_zero] at h1
  have h2 := llrb_shape_count tree.root hs
  have h3 : black_height tree.root ≤ Nat.log 2 (count tree.root + 1) :=
    (Nat.pow_le_iff_le_log (by decide) (by omega)).mp h2
  have hlen : ∀ t : algokit_rbtree_node K V, (inorder t).length = count t := by
    intro t
    induction t with
    | null => rfl
    | node i l r c ihl ihr =>
      simp only [inorder, List.length_append, List.length_cons, count, ihl, ihr]
      omega
  refine ⟨by unfold algokit_rbtree_traverse_inorder; rw [traverse_node_inorder, hlen], h2, h1,
    by omega, fun key => ⟨search_node_steps_fst cmp key tree.root, ?_, ?_⟩⟩
  · exact search_node_steps_le cmp key tree.root
  · have := search_node_steps_le cmp key tree.root
    omega

/-- C38, witness: the tree with the keys 1 to 7 has three nodes on its longest
path, and the search for 1 makes three comparisons. -/
theorem rbtree_height_logarithmic_witness :
    CmpOrder int_cmp ∧ rbtree_reachable int_cmp rbtree_seven ∧
    count rbtree_seven.root = 7 ∧ rbtree_height rbtree_seven.root = 3 ∧
    algokit_rbtree_search_node_steps int_cmp rbtree_seven.root 1 = (some ⟨1, 10⟩, 3) ∧
    rbtree_height rbtree_seven.root ≤ 2 * Nat.log 2 (count rbtree_seven.root + 1) :=
  ⟨int_cmp_order,
    rbtree_reachable.insert true _ _ (rbtree_reachable.insert true _ _
      (rbtree_reachable.insert true _ _ (rbtree_reachable.insert true _ _
        (rbtree_reachable.insert true _ _ (rbtree_reachable.insert true _ _
          (rbtree_reachable.insert true _ _ rbtree_reachable.create)))))),
    by decide, by decide, by decide,
    (rbtree_height_logarithmic int_cmp_order rbtree_seven
      (rbtree_reachable.insert true _ _ (rbtree_reachable.insert true _ _
        (rbtree_reachable.insert true _ _ (rbtree_reachable.insert true _ _
          (rbtree_reachable.insert true _ _ (rbtree_reachable.insert true _ _
            (rbtree_reachable.insert true _ _ rbtree_reachable.create)))))))).2.2.2.1⟩

end rbtree_height_claims

/-! ## Topological sort: the queue is written in order -/

section topo_queue

variable {K : Type}

/-- The inner loop of the topological sort appends targets of the list to the
queue and takes nothing out of it. -/
theorem topo_edges_appends : ∀ (es deg queue : List Nat),
    ∃ extra, (topo_edges es deg queue).2 = queue ++ extra ∧ ∀ x ∈ extra, x ∈ es := by
  intro es
  induction es with
  | nil =>
    intro deg queue
    exact ⟨[], by simp [topo_edges], by simp⟩
  | cons e es ih =>
    intro deg queue
    simp only [topo_edges]
    split_ifs
    · obtain ⟨extra, h1, h2⟩ := ih (deg.set e (size_t_dec (deg.getD e 0))) (queue ++ [e])
      refine ⟨e :: extra, by rw [h1]; simp, fun x hx => ?_⟩
      rcases List.mem_cons.1 hx with h | h
      · rw [h]; exact List.mem_cons_self _ _
      · exact List.mem_cons_of_mem _ (h2 x h)
    · obtain ⟨extra, h1, h2⟩ := ih (deg.set e (size_t_dec (deg.getD e 0))) queue
      exact ⟨extra, h1, fun x hx => List.mem_cons_of_mem _ (h2 x hx)⟩

/-- The queue loop of the topological sort writes the queue in its order: the
entries the queue had at the start, then targets of edges. -/
theorem topo_loop_queue_first (g : algokit_digraph K) :
    ∀ (fuel head : Nat) (queue deg order result : List Nat), head ≤ queue.length →
      order = queue.take head → topo_loop g fuel head queue deg order = some result →
      ∃ extra, result = queue ++ extra ∧ ∀ x ∈ extra, ∃ v, x ∈ algokit_digraph_adj g v := by
  intro fuel
  induction fuel with
  | zero =>
    intro head queue deg order result _ _ h
    simp [topo_loop] at h
  | succ fuel ih =>
    intro head queue deg order result hh ho h
    simp only [topo_loop] at h
    by_cases hlt : head < queue.length
    · rw [if_pos hlt] at h
      obtain ⟨extra1, e1, e2⟩ := topo_edges_appends
        (algokit_digraph_adj g (queue.getD head 0)) deg queue
      obtain ⟨extra2, f1, f2⟩ := ih (head + 1) _ _ _ result
        (by rw [e1, List.length_append]; omega)
        (by
          rw [e1, ho, List.take_append_of_le_length (by omega), List.take_succ]
          congr 1
          rw [List.getD_eq_getElem?_getD, List.getElem?_eq_getElem hlt]
          rfl) h
      refine ⟨extra1 ++ extra2, by rw [f1, e1, List.append_assoc], fun x hx => ?_⟩
      rcases List.mem_append.1 hx with hx1 | hx2
      · exact ⟨_, e2 x hx1⟩
      · exact f2 x hx2
    · rw [if_neg hlt] at h
      simp only [Option.some.injEq] at h
      refine ⟨[], ?_, by simp⟩
      rw [← h, ho, List.take_of_length_le (by omega), List.append_nil]

end topo_queue

/-! ## Topological sort: ties -/

section topo_tie_claims

variable {K : Type}

/-- C33: ties of the topological sort go by ascending index.  For every
directed graph that satisfies the representation invariant,
`algokit_digraph_topological_sort` returns, and the entries it writes to
`order` begin with the vertices that have no edge into them, in ascending
index order; every entry after them has an edge into it.  For a graph without
edges the result is 0 and `order` is `0, 1, ..., n-1`. -/
theorem digraph_topological_ties_ascending (g : algokit_digraph K) (hwf : digraph_wf g) :
    ∃ (rc : Int) (rest : List Nat),
      algokit_digraph_topological_sort true g =
        some (rc, (List.range g.size).filter
          (fun w => decide (digraph_edges_into g (List.range g.size) w = 0)) ++ rest) ∧
      ((List.range g.size).filter
        (fun w => decide (digraph_edges_into g (List.range g.size) w = 0))).Pairwise
          (fun a b => a < b) ∧
      (∀ w, w ∈ (List.range g.size).filter
          (fun w => decide (digraph_edges_into g (List.range g.size) w = 0)) ↔
        (w < g.size ∧ ∀ u, w ∉ algokit_digraph_adj g u)) ∧
      (∀ w ∈ rest, w < g.size ∧ digraph_edges_into g (List.range g.size) w ≠ 0 ∧
        ∃ u, u < g.size ∧ w ∈ algokit_digraph_adj g u) ∧
      ((∀ u, algokit_digraph_adj g u = []) →
        algokit_digraph_topological_sort true g = some (0, List.range g.size)) := by
  obtain ⟨order, h1, -, h3, -, -⟩ := topo_sort_spec g hwf
  obtain ⟨-, d2⟩ := in_degree_spec g hwf
  have hseed : (List.range g.size).filter (fun i => decide ((digraph_in_degree g).getD i 0 = 0)) =
      (List.range g.size).filter
        (fun w => decide (digraph_edges_into g (List.range g.size) w = 0)) := by
    apply List.filter_congr
    intro x _
    rw [d2 x]
  have hloop : topo_loop g (g.size + 1) 0
      ((List.range g.size).filter (fun i => decide ((digraph_in_degree g).getD i 0 = 0)))
      (digraph_in_degree g) [] = some order := by
    have h := h1
    unfold algokit_digraph_topological_sort at h
    simp only [Bool.true_eq_false, if_false] at h
    cases hl : topo_loop g (g.size + 1) 0
        ((List.range g.size).filter (fun i => decide ((digraph_in_degree g).getD i 0 = 0)))
        (digraph_in_degree g) [] with
    | none => rw [hl] at h; simp at h
    | some o =>
      rw [hl] at h
      simp only [Option.some.injEq, Prod.mk.injEq] at h
      rw [h.2]
  obtain ⟨extra, e1, e2⟩ := topo_loop_queue_first g (g.size + 1) 0 _ _ [] order (Nat.zero_le _)
    (by simp) hloop
  rw [hseed] at e1
  have hmem : ∀ w, w ∈ (List.range g.size).filter
      (fun w => decide (digraph_edges_into g (List.range g.size) w = 0)) ↔
      (w < g.size ∧ ∀ u, w ∉ algokit_digraph_adj g u) := by
    intro w
    rw [List.mem_filter, List.mem_range, decide_eq_true_iff, edges_into_eq_zero]
    constructor
    · rintro ⟨hw, hz⟩
      refine ⟨hw, fun u hu => ?_⟩
      exact hz u (List.mem_range.2 (digraph_adj_src_lt g hwf u w hu)) hu
    · rintro ⟨hw, hz⟩
      exact ⟨hw, fun u _ => hz u⟩
  have hrest : ∀ w ∈ extra, w < g.size ∧ digraph_edges_into g (List.range g.size) w ≠ 0 ∧
      ∃ u, u < g.size ∧ w ∈ algokit_digraph_adj g u := by
    intro w hw
    obtain ⟨v, hv⟩ := e2 w hw
    have hvl := digraph_adj_src_lt g hwf v w hv
    refine ⟨h3 w (by rw [e1]; exact List.mem_append_right _ hw), fun hz => ?_, v, hvl, hv⟩
    rw [edges_into_eq_zero] at hz
    exact hz v (List.mem_range.2 hvl) hv
  refine ⟨_, extra, by rw [← e1]; exact h1,
    List.Pairwise.sublist (List.filter_sublist _) (List.pairwise_lt_range g.size), hmem, hrest,
    fun hfree => ?_⟩
  have hall : (List.range g.size).filter
      (fun w => decide (digraph_edges_into g (List.range g.size) w = 0)) =
      List.range g.size := by
    rw [List.filter_eq_self]
    intro w _
    rw [decide_eq_true_iff, edges_into_eq_zero]
    intro u _
    rw [hfree u]
    exact List.not_mem_nil _
  have hnil : extra = [] := by
    cases extra with
    | nil => rfl
    | cons x xs =>
      obtain ⟨-, -, u, -, hu⟩ := hrest x (List.mem_cons_self _ _)
      rw [hfree u] at hu
      exact absurd hu (List.not_mem_nil _)
  rw [h1, e1, hall, hnil, List.append_nil, if_pos (List.length_range g.size)]

/-- C33, witness: in the graph with the edges 3 -> 1 and 2 -> 1 the order is
0, 2, 3, 1. -/
theorem digraph_topological_ties_ascending_witness :
    digraph_wf digraph_ties_graph ∧
    algokit_digraph_topological_sort true digraph_ties_graph = some (0, [0, 2, 3, 1]) ∧
    (List.range digraph_ties_graph.size).filter
      (fun w => decide (digraph_edges_into digraph_ties_graph
        (List.range digraph_ties_graph.size) w = 0)) = [0, 2, 3] ∧
    ∃ (rc : Int) (rest : List Nat),
      algokit_digraph_topological_sort true digraph_ties_graph =
        some (rc, (List.range digraph_ties_graph.size).filter
          (fun w => decide (digraph_edges_into digraph_ties_graph
            (List.range digraph_ties_graph.size) w = 0)) ++ rest) ∧
      ((List.range digraph_ties_graph.size).filter
        (fun w => decide (digraph_edges_into digraph_ties_graph
          (List.range digraph_ties_graph.size) w = 0))).Pairwise (fun a b => a < b) ∧
      (∀ w, w ∈ (List.range digraph_ties_graph.size).filter
          (fun w => decide (digraph_edges_into digraph_ties_graph
            (List.range digraph_ties_graph.size) w = 0)) ↔
        (w < digraph_ties_graph.size ∧ ∀ u, w ∉ algokit_digraph_adj digraph_ties_graph u)) ∧
      (∀ w ∈ rest, w < digraph_ties_graph.size ∧
        digraph_edges_into digraph_ties_graph (List.range digraph_ties_graph.size) w ≠ 0 ∧
        ∃ u, u < digraph_ties_graph.size ∧ w ∈ algokit_digraph_adj digraph_ties_graph u) ∧
      ((∀ u, algokit_digraph_adj digraph_ties_graph u = []) →
        algokit_digraph_topological_sort true digraph_ties_graph =
          some (0, List.range digraph_ties_graph.size)) :=
  ⟨by decide, by decide, by decide,
    digraph_topological_ties_ascending digraph_ties_graph (by decide)⟩

end topo_tie_claims

/-! ## Undirected graph: the adjacency lists are symmetric with their counts -/

section graph_count_lemmas

variable {K W : Type} {hash : K → Nat} {cmp : K → K → Int}

theorem count_if_singleton [DecidableEq W] (c : Prop) [Decidable c]
    (e x : algokit_graph_edge W) :
    (if c then [e] else []).count x = if c ∧ e = x then 1 else 0 := by
  by_cases hc : c
  · by_cases he : e = x
    · simp [hc, he]
    · rw [if_pos hc, if_neg (fun h => he h.2)]
      exact List.count_eq_zero.2 (by
        intro h
        exact he (List.mem_singleton.1 h).symm)
  · simp [hc]

/-- The change that a successful `add_edge` makes to the adjacency lists keeps
the counts of mirrored entries equal. -/
theorem graph_edges_add_count [DecidableEq W] (e e1 : Nat → List (algokit_graph_edge W))
    (u v : Nat) (w : W)
    (h1 : ∀ x, e1 x = (if x = v then [(⟨u, w⟩ : algokit_graph_edge W)] else []) ++
      ((if x = u then [(⟨v, w⟩ : algokit_graph_edge W)] else []) ++ e x))
    (hsym : ∀ a b (w1 : W), (e a).count ⟨b, w1⟩ = (e b).count ⟨a, w1⟩) :
    ∀ a b (w1 : W), (e1 a).count ⟨b, w1⟩ = (e1 b).count ⟨a, w1⟩ := by
  intro a b w1
  rw [h1 a, h1 b]
  simp only [List.count_append, count_if_singleton, algokit_graph_edge.mk.injEq]
  rw [hsym a b w1]
  have e1 : (if a = v ∧ u = b ∧ w = w1 then 1 else 0) =
      (if b = u ∧ v = a ∧ w = w1 then 1 else 0) := by
    apply if_congr _ rfl rfl
    constructor
    · rintro ⟨h1, h2, h3⟩; exact ⟨h2.symm, h1.symm, h3⟩
    · rintro ⟨h1, h2, h3⟩; exact ⟨h2.symm, h1.symm, h3⟩
  have e2 : (if a = u ∧ v = b ∧ w = w1 then 1 else 0) =
      (if b = v ∧ u = a ∧ w = w1 then 1 else 0) := by
    apply if_congr _ rfl rfl
    constructor
    · rintro ⟨h1, h2, h3⟩; exact ⟨h2.symm, h1.symm, h3⟩
    · rintro ⟨h1, h2, h3⟩; exact ⟨h2.symm, h1.symm, h3⟩
  rw [e1, e2]
  omega

/-- A call of `add_edge` that returns 0 has found both keys at indices of
vertices and put one entry at the head of each of the two lists. -/
theorem graph_add_edge_edges (a : Bool) (g : algokit_graph K W) (hwf : graph_wf g)
    (uk vk : K) (w : W) (g1 : algokit_graph K W)
    (hae : algokit_graph_add_edge hash cmp a g uk vk w = some (0, g1)) :
    ∃ u v, u < g.size ∧ v < g.size ∧
      algokit_graph_map_get hash cmp g.map uk = some (0, some u) ∧
      algokit_graph_map_get hash cmp g.map vk = some (0, some v) ∧
      ∀ x, algokit_graph_edges g1 x =
        (if x = v then [(⟨u, w⟩ : algokit_graph_edge W)] else []) ++
          ((if x = u then [(⟨v, w⟩ : algokit_graph_edge W)] else []) ++
            algokit_graph_edges g x) := by
  obtain ⟨-, -, -, -, -, f6⟩ := graph_add_edge_spec a g uk vk w 0 g1 hae
  obtain ⟨u, v, hu, hv, hvs⟩ := f6 rfl
  obtain ⟨ku, hku⟩ := map_get_mem hash cmp g.map uk 0 u hu
  obtain ⟨kv, hkv⟩ := map_get_mem hash cmp g.map vk 0 v hv
  have hul : u < g.size := index_below_lt _ ku u (hwf.2.2 _ hku)
  have hvl : v < g.size := index_below_lt _ kv v (hwf.2.2 _ hkv)
  refine ⟨u, v, hul, hvl, hu, hv, fun x => ?_⟩
  have hl := hwf.1
  obtain ⟨vs1, s1, c1, m1⟩ := g1
  obtain ⟨vs, s, c, m⟩ := g
  simp only at hvs hul hvl hl
  rw [hvs]
  exact graph_edges_add_edge vs s c m u v w (by rw [hl]; exact hul) (by rw [hl]; exact hvl) x

theorem graph_step_symm_count [DecidableEq W] (g g1 : algokit_graph K W) (op : graph_op K W)
    (hwf : graph_wf g)
    (hsym : ∀ a b (w1 : W), (algokit_graph_edges g a).count ⟨b, w1⟩ =
      (algokit_graph_edges g b).count ⟨a, w1⟩)
    (hstep : graph_step hash cmp g op = some g1) :
    ∀ a b (w1 : W), (algokit_graph_edges g1 a).count ⟨b, w1⟩ =
      (algokit_graph_edges g1 b).count ⟨a, w1⟩ := by
  cases op with
  | add_vertex a b c key =>
    simp only [graph_step, Option.map_eq_some', Prod.exists, exists_eq_right] at hstep
    obtain ⟨rc, hav⟩ := hstep
    have hv := graph_add_vertex_vertices hash cmp a b c g key rc g1 hav
    have hedges : ∀ x, algokit_graph_edges g1 x = algokit_graph_edges g x := by
      intro x
      obtain ⟨vs1, s1, c1, m1⟩ := g1
      obtain ⟨vs, s, c, m⟩ := g
      simp only at hv
      rcases hv with e | e
      · rw [e]; rfl
      · rw [e]; exact graph_edges_append vs s s1 c c1 m m1 key x
    intro u v w
    rw [hedges, hedges]
    exact hsym u v w
  | add_edge a uk vk w =>
    simp only [graph_step, Option.map_eq_some', Prod.exists, exists_eq_right] at hstep
    obtain ⟨rc, hae⟩ := hstep
    by_cases hrc : rc = 0
    · subst hrc
      obtain ⟨u, v, -, -, -, -, hedges⟩ := graph_add_edge_edges a g hwf uk vk w g1 hae
      exact graph_edges_add_count _ _ u v w hedges hsym
    · rw [(graph_add_edge_spec a g uk vk w rc g1 hae).2.2.2.2.1 hrc]
      exact hsym

/-- Every undirected graph built by `add_vertex` and `add_edge` has as many
entries for `v` with a weight on the list of `u` as entries for `u` with that
weight on the list of `v`. -/
theorem graph_reachable_symm_count [DecidableEq W] (hc : HashCmp hash cmp)
    (g : algokit_graph K W) (hr : graph_reachable hash cmp g) :
    ∀ a b (w1 : W), (algokit_graph_edges g a).count ⟨b, w1⟩ =
      (algokit_graph_edges g b).count ⟨a, w1⟩ := by
  obtain ⟨capacity, ops, g0, h0, hrun⟩ := hr
  have hinv0 : graph_inv hash cmp g0 := graph_create_inv capacity g0 h0
  have hsym0 : ∀ a b (w1 : W), (algokit_graph_edges g0 a).count ⟨b, w1⟩ =
      (algokit_graph_edges g0 b).count ⟨a, w1⟩ := by
    have hg : g0 = ⟨[], 0, capacity,
        ⟨List.replicate capacity algokit_digraph_map_entry.empty, capacity, 0⟩⟩ := by
      unfold algokit_graph_create at h0
      split_ifs at h0 <;> simp only [Option.some.injEq] at h0 <;> exact h0.symm
    rw [hg]
    intro u v w
    simp [algokit_graph_edges]
  clear h0
  induction ops generalizing g0 with
  | nil =>
    simp only [graph_run, Option.some.injEq] at hrun
    rw [← hrun]; exact hsym0
  | cons op ops ih =>
    simp only [graph_run] at hrun
    cases hstep : graph_step hash cmp g0 op with
    | none => rw [hstep] at hrun; simp at hrun
    | some g1 =>
      rw [hstep] at hrun
      exact ih g1 hrun (graph_step_inv hc g0 g1 op hinv0 hstep)
        (graph_step_symm_count g0 g1 op hinv0.1.1 hsym0 hstep)

/-- On a graph that satisfies the invariant a lookup of a key that compares
equal to the key of no vertex returns 1. -/
theorem graph_map_get_absent (hc : HashCmp hash cmp) (g : algokit_graph K W)
    (hinv : graph_inv hash cmp g) (key : K)
    (hnew : ∀ (i : Nat) (k : K), algokit_graph_vertex_key g i = some k → cmp key k ≠ 0) :
    algokit_digraph_map_get hash cmp g.map key = some (1, none) := by
  refine (map_get_sound hc g.map g.size hinv.1.2.1 hinv.2.1 key).2 (fun k i hm => ?_)
  refine hnew i k ?_
  rw [graph_vertex_key_eq g hinv.1.1]
  exact hinv.2.2.2 k i hm

/-- A call of `add_edge` with a key that compares equal to the key of no vertex
returns 1 and leaves the graph as it is. -/
theorem graph_add_edge_absent (hc : HashCmp hash cmp) (a : Bool) (g : algokit_graph K W)
    (hinv : graph_inv hash cmp g) (uk vk : K) (w : W)
    (hnew : (∀ (i : Nat) (k : K), algokit_graph_vertex_key g i = some k → cmp uk k ≠ 0) ∨
      (∀ (i : Nat) (k : K), algokit_graph_vertex_key g i = some k → cmp vk k ≠ 0)) :
    algokit_graph_add_edge hash cmp a g uk vk w = some (1, g) := by
  unfold algokit_graph_add_edge algokit_graph_map_get
  rcases hnew with h | h
  · rw [graph_map_get_absent hc g hinv uk h]
    simp
  · obtain ⟨rc, out, hget⟩ := map_get_total hash cmp g.map g.size hinv.1.2.1 uk
    rw [hget, graph_map_get_absent hc g hinv vk h]
    simp only
    by_cases hrc : rc ≠ 0
    · rw [if_pos hrc]
    · rw [if_neg hrc, if_pos (by decide)]

/-- Every call of `add_edge` on a graph that satisfies the invariant returns. -/
theorem graph_add_edge_total (a : Bool) (g : algokit_graph K W)
    (hinv : graph_inv hash cmp g) (uk vk : K) (w : W) :
    ∃ rc g1, algokit_graph_add_edge hash cmp a g uk vk w = some (rc, g1) := by
  unfold algokit_graph_add_edge algokit_graph_map_get
  obtain ⟨rc, out, hget⟩ := map_get_total hash cmp g.map g.size hinv.1.2.1 uk
  obtain ⟨rc1, out1, hget1⟩ := map_get_total hash cmp g.map g.size hinv.1.2.1 vk
  rw [hget]
  simp only [hget1]
  split_ifs <;> exact ⟨_, _, rfl⟩

end graph_count_lemmas

/-! ## Undirected graph: mirrored adjacency entries -/

section graph_symmetry_claims

variable {K W : Type} {hash : K → Nat} {cmp : K → K → Int}

/-- C39: the adjacency lists of an undirected graph are symmetric.  For every
graph built by calls of `algokit_graph_add_vertex` and `algokit_graph_add_edge`
and all `u`, `v` and weights `w`, the list of `u` has as many entries with
`to = v` and the weight `w` as the list of `v` has entries with `to = u` and
the weight `w`.  Every call of `add_edge` returns.  A call that returns 0 has
found the two keys at indices `u` and `v` of vertices and has put the entry
`(v, w)` at the head of the list of `u` and then the entry `(u, w)` at the
head of the list of `v` (both on the one list when `u = v`), and has changed
no other list.  A call with a key that compares equal to the key of no vertex
returns 1 and leaves the graph as it is. -/
theorem graph_adjacency_symmetric [DecidableEq W] (hc : HashCmp hash cmp)
    (g : algokit_graph K W) (hr : graph_reachable hash cmp g) :
    (∀ u v (w : W), (algokit_graph_edges g u).count ⟨v, w⟩ =
      (algokit_graph_edges g v).count ⟨u, w⟩) ∧
    (∀ (a : Bool) (uk vk : K) (w : W),
      ∃ rc g1, algokit_graph_add_edge hash cmp a g uk vk w = some (rc, g1)) ∧
    (∀ (a : Bool) (uk vk : K) (w : W) (g1 : algokit_graph K W),
      algokit_graph_add_edge hash cmp a g uk vk w = some (0, g1) →
      ∃ u v, u < g.size ∧ v < g.size ∧
        algokit_graph_map_get hash cmp g.map uk = some (0, some u) ∧
        algokit_graph_map_get hash cmp g.map vk = some (0, some v) ∧
        (∀ x, algokit_graph_edges g1 x =
          (if x = v then [(⟨u, w⟩ : algokit_graph_edge W)] else []) ++
            ((if x = u then [(⟨v, w⟩ : algokit_graph_edge W)] else []) ++
              algokit_graph_edges g x)) ∧
        (algokit_graph_edges g1 u).count ⟨v, w⟩ =
          (algokit_graph_edges g u).count ⟨v, w⟩ + (if u = v then 2 else 1) ∧
        (algokit_graph_edges g1 v).count ⟨u, w⟩ =
          (algokit_graph_edges g v).count ⟨u, w⟩ + (if u = v then 2 else 1)) ∧
    (∀ (a : Bool) (uk vk : K) (w : W),
      ((∀ (i : Nat) (k : K), algokit_graph_vertex_key g i = some k → cmp uk k ≠ 0) ∨
        (∀ (i : Nat) (k : K), algokit_graph_vertex_key g i = some k → cmp vk k ≠ 0)) →
      algokit_graph_add_edge hash cmp a g uk vk w = some (1, g)) := by
  have hinv := graph_reachable_inv hc g hr
  refine ⟨graph_reachable_symm_count hc g hr,
    fun a uk vk w => graph_add_edge_total a g hinv uk vk w, fun a uk vk w g1 hae => ?_,
    fun a uk vk w hnew => graph_add_edge_absent hc a g hinv uk vk w hnew⟩
  obtain ⟨u, v, hu, hv, h1, h2, hedges⟩ := graph_add_edge_edges a g hinv.1.1 uk vk w g1 hae
  refine ⟨u, v, hu, hv, h1, h2, hedges, ?_, ?_⟩
  · rw [hedges u]
    simp only [List.count_append, count_if_singleton, algokit_graph_edge.mk.injEq]
    by_cases huv : u = v
    · subst huv
      simp
      omega
    · have hvu : ¬ v = u := fun h => huv h.symm
      simp [huv, hvu]
      omega
  · rw [hedges v]
    simp only [List.count_append, count_if_singleton, algokit_graph_edge.mk.injEq]
    by_cases huv : u = v
    · subst huv
      simp
      omega
    · have hvu : ¬ v = u := fun h => huv h.symm
      simp [huv, hvu]
      omega

/-- C39, witness: in the graph of the test, `add_edge(3, 3, 5)` puts two entries
on the list of the vertex 3, and `add_edge(0, 9, 5)` returns 1. -/
theorem graph_adjacency_symmetric_witness :
    HashCmp int_hash int_cmp ∧ graph_reachable int_hash int_cmp graph_test_graph ∧
    (algokit_graph_add_edge int_hash int_cmp true graph_test_graph 3 3 5).map
      (fun res => (res.1, algokit_graph_edges res.2 3)) = some (0, [⟨3, 5⟩, ⟨3, 5⟩]) ∧
    algokit_graph_add_edge int_hash int_cmp true graph_test_graph 0 9 5 =
      some (1, graph_test_graph) ∧
    ∀ u v (w : Rat), (algokit_graph_edges graph_test_graph u).count ⟨v, w⟩ =
      (algokit_graph_edges graph_test_graph v).count ⟨u, w⟩ :=
  ⟨int_hash_cmp,
    ⟨8, graph_test_ops, ⟨[], 0, 8, ⟨List.replicate 8 algokit_digraph_map_entry.empty, 8, 0⟩⟩,
      by decide, by decide!⟩,
    by decide!, by decide!,
    (graph_adjacency_symmetric int_hash_cmp graph_test_graph
      ⟨8, graph_test_ops, ⟨[], 0, 8, ⟨List.replicate 8 algokit_digraph_map_entry.empty, 8, 0⟩⟩,
        by decide, by decide!⟩).1⟩

end graph_symmetry_claims

/-! ## Quicksort: array accesses and swaps -/

section sort_quick_access

variable {K V : Type}

theorem sort_item_at_some (items : List (Item K V)) (i : Int) (h0 : 0 ≤ i)
    (h1 : i < items.length) : ∃ x, sort_item_at items i = some x := by
  unfold sort_item_at
  rw [if_neg (by omega)]
  cases h : items[i.toNat]? with
  | none =>
    have := List.getElem?_eq_none_iff.1 h
    omega
  | some x => exact ⟨x, rfl⟩

theorem sort_item_at_bounds (items : List (Item K V)) (i : Int) (x : Item K V)
    (h : sort_item_at items i = some x) : 0 ≤ i ∧ i < items.length := by
  unfold sort_item_at at h
  split_ifs at h with h0
  have := (List.getElem?_eq_some.1 h).1
  omega

theorem sort_item_at_mem (items : List (Item K V)) (i : Int) (x : Item K V)
    (h : sort_item_at items i = some x) : x ∈ items := by
  unfold sort_item_at at h
  split_ifs at h with h0
  exact List.getElem?_mem h

theorem perm_cons_set {α : Type} : ∀ (xs : List α) (j : Nat) (b x : α), xs[j]? = some b →
    (b :: xs.set j x).Perm (x :: xs) := by
  intro xs
  induction xs with
  | nil => intro j b x h; simp at h
  | cons y ys ih =>
    intro j b x h
    cases j with
    | zero =>
      simp only [List.getElem?_cons_zero, Option.some.injEq] at h
      subst h
      simp only [List.set_cons_zero]
      exact List.Perm.swap _ _ _
    | succ j =>
      simp only [List.getElem?_cons_succ] at h
      simp only [List.set_cons_succ]
      exact (List.Perm.swap _ _ _).trans (((ih j b x h).cons y).trans (List.Perm.swap _ _ _))

/-- Exchanging two entries of a list gives a permutation of it. -/
theorem perm_set_set {α : Type} : ∀ (l : List α) (i j : Nat) (a b : α), l[i]? = some a →
    l[j]? = some b → ((l.set i b).set j a).Perm l := by
  intro l
  induction l with
  | nil => intro i j a b h; simp at h
  | cons x xs ih =>
    intro i j a b hi hj
    cases i with
    | zero =>
      simp only [List.getElem?_cons_zero, Option.some.injEq] at hi
      subst hi
      cases j with
      | zero =>
        simp only [List.getElem?_cons_zero, Option.some.injEq] at hj
        subst hj
        simp
      | succ j =>
        simp only [List.getElem?_cons_succ] at hj
        simp only [List.set_cons_zero, List.set_cons_succ]
        exact perm_cons_set xs j b x hj
    | succ i =>
      simp only [List.getElem?_cons_succ] at hi
      cases j with
      | zero =>
        simp only [List.getElem?_cons_zero, Option.some.injEq] at hj
        subst hj
        simp only [List.set_cons_succ, List.set_cons_zero]
        exact perm_cons_set xs i a x hi
      | succ j =>
        simp only [List.getElem?_cons_succ] at hj
        simp only [List.set_cons_succ]
        exact (ih i j a b hi hj).cons x

/-- The swap of two entries inside the array returns; the array afterwards is a
permutation with the two entries exchanged. -/
theorem sort_swap_spec (items : List (Item K V)) (i j : Int) (a b : Item K V)
    (hi : sort_item_at items i = some a) (hj : sort_item_at items j = some b) :
    ∃ r, algokit_sort_swap items i j = some r ∧ r.Perm items ∧
      ∀ k, sort_item_at r k =
        if k = j then some a else if k = i then some b else sort_item_at items k := by
  obtain ⟨hi0, hi1⟩ := sort_item_at_bounds items i a hi
  obtain ⟨hj0, hj1⟩ := sort_item_at_bounds items j b hj
  refine ⟨(items.set i.toNat b).set j.toNat a, by simp only [algokit_sort_swap, hi, hj], ?_,
    fun k => ?_⟩
  · unfold sort_item_at at hi hj
    rw [if_neg (by omega)] at hi hj
    exact perm_set_set items _ _ a b hi hj
  · unfold sort_item_at
    by_cases hk : k < 0
    · rw [if_pos hk, if_neg (by omega), if_neg (by omega), if_pos hk]
    · rw [if_neg hk, if_neg hk]
      by_cases hkj : k = j
      · subst hkj
        rw [if_pos rfl, List.getElem?_set_self (by rw [List.length_set]; omega)]
      · rw [if_neg hkj, List.getElem?_set_ne (by omega)]
        by_cases hki : k = i
        · subst hki
          rw [if_pos rfl, List.getElem?_set_self (by omega)]
        · rw [if_neg hki, List.getElem?_set_ne (by omega)]

end sort_quick_access

/-! ## Quicksort: the two scans of the partition -/

section sort_quick_scans

variable {K V : Type}

/-- The upward scan from `i` with an entry at `k ≥ i` that does not compare
less than the pivot: it stops at or before `k`, at an entry that does not
compare less than the pivot, having passed entries that compare less. -/
theorem quick_scan_up_spec (cmp : K → K → Int) (items : List (Item K V)) (pivot : Item K V) :
    ∀ (fuel : Nat) (i k : Int) (x : Item K V), 0 ≤ i → i ≤ k →
      sort_item_at items k = some x → ¬ algokit_sort_cmp cmp x pivot < 0 → k - i + 1 ≤ fuel →
      ∃ i1, quick_scan_up cmp items pivot fuel i = some i1 ∧ i ≤ i1 ∧ i1 ≤ k ∧
        (∀ t y, i ≤ t → t < i1 → sort_item_at items t = some y →
          algokit_sort_cmp cmp y pivot < 0) ∧
        ∃ y, sort_item_at items i1 = some y ∧ ¬ algokit_sort_cmp cmp y pivot < 0 := by
  intro fuel
  induction fuel with
  | zero =>
    intro i k x _ hik _ _ hf
    simp only [Nat.cast_zero] at hf
    omega
  | succ fuel ih =>
    intro i k x h0 hik hk hx hf
    obtain ⟨-, hk1⟩ := sort_item_at_bounds items k x hk
    obtain ⟨y, hy⟩ := sort_item_at_some items i h0 (by omega)
    simp only [quick_scan_up, hy]
    by_cases hlt : algokit_sort_cmp cmp y pivot < 0
    · rw [if_pos hlt]
      have hne : i ≠ k := by
        intro e
        rw [e, hk] at hy
        simp only [Option.some.injEq] at hy
        rw [hy] at hx
        exact hx hlt
      obtain ⟨i1, e1, e2, e3, e4, e5⟩ := ih (i + 1) k x (by omega) (by omega) hk hx (by
        push_cast at hf; omega)
      refine ⟨i1, e1, by omega, e3, fun t z ht1 ht2 hz => ?_, e5⟩
      by_cases hti : t = i
      · rw [hti, hy] at hz
        simp only [Option.some.injEq] at hz
        rw [← hz]; exact hlt
      · exact e4 t z (by omega) ht2 hz
    · rw [if_neg hlt]
      exact ⟨i, rfl, le_refl _, hik, fun t z ht1 ht2 _ => by omega, y, hy, hlt⟩

/-- The downward scan from `j` with an entry at `k ≤ j` that does not compare
greater than the pivot. -/
theorem quick_scan_down_spec (cmp : K → K → Int) (items : List (Item K V)) (pivot : Item K V) :
    ∀ (fuel : Nat) (j k : Int) (x : Item K V), j < items.length → k ≤ j →
      sort_item_at items k = some x → ¬ algokit_sort_cmp cmp x pivot > 0 → j - k + 1 ≤ fuel →
      ∃ j1, quick_scan_down cmp items pivot fuel j = some j1 ∧ j1 ≤ j ∧ k ≤ j1 ∧
        (∀ t y, j1 < t → t ≤ j → sort_item_at items t = some y →
          algokit_sort_cmp cmp y pivot > 0) ∧
        ∃ y, sort_item_at items j1 = some y ∧ ¬ algokit_sort_cmp cmp y pivot > 0 := by
  intro fuel
  induction fuel with
  | zero =>
    intro j k x _ hkj _ _ hf
    simp only [Nat.cast_zero] at hf
    omega
  | succ fuel ih =>
    intro j k x hj1 hkj hk hx hf
    obtain ⟨hk0, -⟩ := sort_item_at_bounds items k x hk
    obtain ⟨y, hy⟩ := sort_item_at_some items j (by omega) hj1
    simp only [quick_scan_down, hy]
    by_cases hgt : algokit_sort_cmp cmp y pivot > 0
    · rw [if_pos hgt]
      have hne : j ≠ k := by
        intro e
        rw [e, hk] at hy
        simp only [Option.some.injEq] at hy
        rw [hy] at hx
        exact hx hgt
      obtain ⟨j1, e1, e2, e3, e4, e5⟩ := ih (j - 1) k x (by omega) (by omega) hk hx (by
        push_cast at hf; omega)
      refine ⟨j1, e1, by omega, e3, fun t z ht1 ht2 hz => ?_, e5⟩
      by_cases htj : t = j
      · rw [htj, hy] at hz
        simp only [Option.some.injEq] at hz
        rw [← hz]; exact hgt
      · exact e4 t z ht1 (by omega) hz
    · rw [if_neg hgt]
      exact ⟨j, rfl, le_refl _, hkj, fun t z ht1 ht2 _ => by omega, y, hy, hgt⟩

end sort_quick_scans

/-! ## Quicksort: the partition -/

section sort_quick_partition

variable {K V : Type}

theorem sort_range_moved_refl (items : List (Item K V)) (low high : Int) :
    sort_range_moved items items low high :=
  ⟨List.Perm.refl _, fun _ _ => rfl, fun k x h1 h2 h => ⟨k, h1, h2, h⟩⟩

theorem sort_range_moved_trans (a b c : List (Item K V)) (low high : Int)
    (h1 : sort_range_moved a b low high) (h2 : sort_range_moved b c low high) :
    sort_range_moved a c low high := by
  refine ⟨h2.1.trans h1.1, fun k hk => by rw [h2.2.1 k hk, h1.2.1 k hk], fun k x hk1 hk2 hx => ?_⟩
  obtain ⟨k1, e1, e2, e3⟩ := h2.2.2 k x hk1 hk2 hx
  exact h1.2.2 k1 x e1 e2 e3

/-- Moving entries within a range moves them within every range around it. -/
theorem sort_range_moved_mono (a b : List (Item K V)) (low high low1 high1 : Int)
    (h : sort_range_moved a b low1 high1) (hl : low ≤ low1) (hh : high1 ≤ high) :
    sort_range_moved a b low high := by
  refine ⟨h.1, fun k hk => h.2.1 k (by omega), fun k x hk1 hk2 hx => ?_⟩
  by_cases hin : low1 ≤ k ∧ k ≤ high1
  · obtain ⟨k1, e1, e2, e3⟩ := h.2.2 k x hin.1 hin.2 hx
    exact ⟨k1, by omega, by omega, e3⟩
  · rw [h.2.1 k (by omega)] at hx
    exact ⟨k, hk1, hk2, hx⟩

/-- The outer loop of the partition.  With the entries before `i` not greater
than the pivot, the entries after `j` not less, an entry not less than the
pivot from `i` on and an entry not greater up to `j`, the loop returns an
index `p` with `low ≤ p < high`; the entries up to `p` are not greater than
the pivot and the entries after `p` are not less. -/
theorem quick_partition_loop_spec (cmp : K → K → Int) (pivot : Item K V) (low high : Int) :
    ∀ (fuel : Nat) (items : List (Item K V)) (i j : Int), 0 ≤ low → high < items.length →
      low ≤ i → j ≤ high → high - i + 1 ≤ fuel →
      (∀ k x, low ≤ k → k < i → sort_item_at items k = some x →
        algokit_sort_cmp cmp x pivot ≤ 0) →
      (∀ k x, j < k → k ≤ high → sort_item_at items k = some x →
        0 ≤ algokit_sort_cmp cmp x pivot) →
      (∃ k x, i ≤ k ∧ k ≤ high ∧ sort_item_at items k = some x ∧
        0 ≤ algokit_sort_cmp cmp x pivot ∧ (k < high ∨ j < high)) →
      (∃ k x, low ≤ k ∧ k ≤ j ∧ sort_item_at items k = some x ∧
        algokit_sort_cmp cmp x pivot ≤ 0) →
      ∃ p r, quick_partition_loop cmp pivot fuel items i j = some (p, r) ∧
        sort_range_moved items r low high ∧ low ≤ p ∧ p < high ∧
        (∀ k x, low ≤ k → k ≤ p → sort_item_at r k = some x →
          algokit_sort_cmp cmp x pivot ≤ 0) ∧
        (∀ k x, p < k → k ≤ high → sort_item_at r k = some x →
          0 ≤ algokit_sort_cmp cmp x pivot) := by
  intro fuel
  induction fuel with
  | zero =>
    intro items i j _ _ _ _ hf _ _ h4 _
    obtain ⟨k, x, hk1, hk2, -⟩ := h4
    simp only [Nat.cast_zero] at hf
    omega
  | succ fuel ih =>
    intro items i j hlow hhigh hi hj hf h2 h3 h4 h5
    obtain ⟨k4, x4, a1, a2, a3, a4, a5⟩ := h4
    obtain ⟨k5, x5, b1, b2, b3, b4⟩ := h5
    obtain ⟨i1, u1, u2, u3, u4, yi, u5, u6⟩ := quick_scan_up_spec cmp items pivot
      (items.length + 1) i k4 x4 (by omega) a1 a3 (by omega) (by push_cast; omega)
    obtain ⟨j1, d1, d2, d3, d4, yj, d5, d6⟩ := quick_scan_down_spec cmp items pivot
      (items.length + 1) j k5 x5 (by omega) b2 b3 (by omega) (by push_cast; omega)
    simp only [quick_partition_loop, u1, d1]
    by_cases hcross : i1 ≥ j1
    · rw [if_pos hcross]
      refine ⟨j1, items, rfl, sort_range_moved_refl items low high, by omega, ?_, ?_, ?_⟩
      · rcases a5 with h | h <;> omega
      · intro k x hk1 hk2 hx
        by_cases hki : k < i
        · exact h2 k x hk1 hki hx
        · by_cases hki1 : k < i1
          · have := u4 k x (by omega) hki1 hx
            omega
          · have hkj : k = j1 := by omega
            rw [hkj, d5] at hx
            simp only [Option.some.injEq] at hx
            rw [← hx]
            omega
      · intro k x hk1 hk2 hx
        by_cases hkj : j < k
        · exact h3 k x hkj hk2 hx
        · have := d4 k x hk1 (by omega) hx
          omega
    · rw [if_neg hcross]
      obtain ⟨r1, s1, s2, s3⟩ := sort_swap_spec items i1 j1 yi yj u5 d5
      have hlen : r1.length = items.length := s2.length_eq
      have hmoved : sort_range_moved items r1 low high := by
        refine ⟨s2, fun k hk => ?_, fun k x hk1 hk2 hx => ?_⟩
        · rw [s3 k, if_neg (by omega), if_neg (by omega)]
        · rw [s3 k] at hx
          by_cases hkj : k = j1
          · rw [if_pos hkj] at hx
            exact ⟨i1, by omega, by omega, by rw [u5, hx]⟩
          · rw [if_neg hkj] at hx
            by_cases hki : k = i1
            · rw [if_pos hki] at hx
              exact ⟨j1, by omega, by omega, by rw [d5, hx]⟩
            · rw [if_neg hki] at hx
              exact ⟨k, hk1, hk2, hx⟩
      simp only [s1]
      obtain ⟨p, r, e1, e2, e3, e4, e5, e6⟩ := ih r1 (i1 + 1) (j1 - 1) hlow
        (by rw [hlen]; exact hhigh) (by omega) (by omega) (by push_cast at hf; omega)
        (by
          intro k x hk1 hk2 hx
          rw [s3 k, if_neg (by omega)] at hx
          by_cases hki : k = i1
          · rw [if_pos hki] at hx
            simp only [Option.some.injEq] at hx
            rw [← hx]
            omega
          · rw [if_neg hki] at hx
            by_cases hki0 : k < i
            · exact h2 k x hk1 hki0 hx
            · have := u4 k x (by omega) (by omega) hx
              omega)
        (by
          intro k x hk1 hk2 hx
          rw [s3 k] at hx
          by_cases hkj : k = j1
          · rw [if_pos hkj] at hx
            simp only [Option.some.injEq] at hx
            rw [← hx]
            omega
          · rw [if_neg hkj, if_neg (by omega)] at hx
            by_cases hkj0 : j < k
            · exact h3 k x hkj0 hk2 hx
            · have := d4 k x (by omega) (by omega) hx
              omega)
        ⟨j1, yi, by omega, by omega, by rw [s3 j1, if_pos rfl], by omega, Or.inr (by omega)⟩
        ⟨i1, yj, by omega, by omega, by rw [s3 i1, if_neg (by omega), if_pos rfl], by omega⟩
      exact ⟨p, r, e1, sort_range_moved_trans items r1 r low high hmoved e2, e3, e4, e5, e6⟩

/-- The function `algokit_quick_partition` on a range of at least two entries
inside the array: it returns an index `p` with `low ≤ p < high`, moves
entries within the range only, and leaves the entries up to `p` not greater
than the pivot and the entries after `p` not less. -/
theorem quick_partition_spec {cmp : K → K → Int} (hc : CmpOrder cmp) (items : List (Item K V))
    (low high : Int) (hlow : 0 ≤ low) (hhigh : high < items.length) (hlt : low < high) :
    ∃ p r pivot, algokit_quick_partition cmp items low high = some (p, r) ∧
      sort_range_moved items r low high ∧ low ≤ p ∧ p < high ∧
      (∀ k x, low ≤ k → k ≤ p → sort_item_at r k = some x →
        algokit_sort_cmp cmp x pivot ≤ 0) ∧
      (∀ k x, p < k → k ≤ high → sort_item_at r k = some x →
        0 ≤ algokit_sort_cmp cmp x pivot) := by
  obtain ⟨pivot, hp⟩ := sort_item_at_some items (low + (high - low) / 2) (by omega) (by omega)
  have hself : algokit_sort_cmp cmp pivot pivot = 0 := hc.self_eq pivot.key
  obtain ⟨p, r, e1, e2, e3, e4, e5, e6⟩ := quick_partition_loop_spec cmp pivot low high
    (items.length + 1) items low high hlow hhigh (le_refl _) (le_refl _)
    (by push_cast; omega) (fun k x h1 h2 _ => by omega) (fun k x h1 h2 _ => by omega)
    ⟨low + (high - low) / 2, pivot, by omega, by omega, hp, by omega, Or.inl (by omega)⟩
    ⟨low + (high - low) / 2, pivot, by omega, by omega, hp, by omega⟩
  refine ⟨p, r, pivot, ?_, e2, e3, e4, e5, e6⟩
  simp only [algokit_quick_partition, hp, e1]

end sort_quick_partition

/-! ## Quicksort: the recursion -/

section sort_quick_recursion

variable {K V : Type}

/-- The function `algokit_quick_sort` on a range inside the array returns
within the recursion depth `high - low + 2`; it moves entries within the range
only and leaves the range in non-decreasing order. -/
theorem quick_sort_spec {cmp : K → K → Int} (hc : CmpOrder cmp) :
    ∀ (fuel : Nat) (items : List (Item K V)) (low high : Int), 0 ≤ low →
      high < items.length → 1 ≤ fuel → high - low + 2 ≤ fuel →
      ∃ r, algokit_quick_sort cmp fuel items low high = some r ∧
        sort_range_moved items r low high ∧ sort_range_sorted cmp r low high := by
  intro fuel
  induction fuel with
  | zero => intro items low high _ _ h1; omega
  | succ fuel ih =>
    intro items low high hlow hhigh _ hf
    simp only [algokit_quick_sort]
    by_cases hge : low ≥ high
    · rw [if_pos hge]
      exact ⟨items, rfl, sort_range_moved_refl items low high,
        fun a b x y h1 h2 h3 _ _ => by omega⟩
    · rw [if_neg hge]
      obtain ⟨p, r1, pivot, e1, e2, e3, e4, e5, e6⟩ := quick_partition_spec hc items low high
        hlow hhigh (by omega)
      have hlen1 : r1.length = items.length := e2.1.length_eq
      simp only [e1]
      push_cast at hf
      obtain ⟨r2, f1, f2, f3⟩ := ih r1 low p hlow (by rw [hlen1]; omega) (by omega) (by omega)
      have hlen2 : r2.length = r1.length := f2.1.length_eq
      simp only [f1]
      obtain ⟨r3, g1, g2, g3⟩ := ih r2 (p + 1) high (by omega) (by rw [hlen2, hlen1]; omega)
        (by omega) (by omega)
      refine ⟨r3, g1, ?_, ?_⟩
      · exact sort_range_moved_trans items r1 r3 low high e2
          (sort_range_moved_trans r1 r2 r3 low high
            (sort_range_moved_mono r1 r2 low high low p f2 (le_refl _) (by omega))
            (sort_range_moved_mono r2 r3 low high (p + 1) high g2 (by omega) (le_refl _)))
      · intro a b x y ha hab hb hx hy
        by_cases hbp : b ≤ p
        · rw [g2.2.1 a (Or.inl (by omega))] at hx
          rw [g2.2.1 b (Or.inl (by omega))] at hy
          exact f3 a b x y ha hab hbp hx hy
        · by_cases hap : p < a
          · exact g3 a b x y (by omega) hab hb hx hy
          · rw [g2.2.1 a (Or.inl (by omega))] at hx
            obtain ⟨k1, k11, k12, k13⟩ := f2.2.2 a x ha (by omega) hx
            have hxp := e5 k1 x k11 k12 k13
            obtain ⟨k2, k21, k22, k23⟩ := g2.2.2 b y (by omega) hb hy
            rw [f2.2.1 k2 (Or.inr (by omega))] at k23
            have hyp := e6 k2 y (by omega) k22 k23
            have hpy : algokit_sort_cmp cmp pivot y ≤ 0 := by
              have h1 := (hc.antisymm y.key pivot.key).not
              unfold algokit_sort_cmp at hyp ⊢
              have h2 := h1.1 (by omega)
              omega
            exact hc.le_trans x.key pivot.key y.key hxp hpy

/-- The function `algokit_sort_quick` returns 0 with a permutation of the array
whose keys are in non-decreasing order. -/
theorem sort_quick_spec {cmp : K → K → Int} (hc : CmpOrder cmp) (items : List (Item K V)) :
    ∃ r, algokit_sort_quick cmp items = some (0, r) ∧ r.Perm items ∧
      r.Pairwise (fun a b => cmp a.key b.key ≤ 0) := by
  unfold algokit_sort_quick
  by_cases hn : items.length < 2
  · rw [if_pos hn]
    refine ⟨items, rfl, List.Perm.refl _, ?_⟩
    match items, hn with
    | [], _ => exact List.Pairwise.nil
    | [x], _ => exact List.pairwise_singleton _ _
    | _ :: _ :: _, h => exact absurd h (by simp)
  · rw [if_neg hn]
    obtain ⟨r, e1, e2, e3⟩ := quick_sort_spec hc (items.length + 1) items 0
      ((items.length : Int) - 1) (le_refl _) (by omega) (by omega) (by push_cast; omega)
    refine ⟨r, by rw [e1]; rfl, e2.1, ?_⟩
    rw [List.pairwise_iff_getElem]
    intro i j hi hj hij
    have hlen : r.length = items.length := e2.1.length_eq
    have hat : ∀ (t : Nat) (ht : t < r.length), sort_item_at r (t : Int) = some (r.get ⟨t, ht⟩) := by
      intro t ht
      unfold sort_item_at
      rw [if_neg (by omega), Int.toNat_ofNat, List.getElem?_eq_getElem ht]
      rfl
    exact e3 i j _ _ (by omega) (by omega) (by omega) (hat i hi) (hat j hj)

end sort_quick_recursion

/-! ## Quicksort: the result -/

section sort_quick_claims

variable {K V : Type} {cmp : K → K → Int}

/-- C32: `algokit_sort_quick` sorts.  For every array of items and every
comparator that is a total preorder on the keys (the sign of `cmp a b` is the
opposite of the sign of `cmp b a`, and `cmp a b ≤ 0` is transitive), the call
returns 0 within the bounds on its loops and its recursion and without a read
or write at an index outside the array, either of which would make the result
`none`; the array afterwards is a permutation of the array before, and no
entry compares greater than a later one. -/
theorem sort_quick_sorts (hc : CmpOrder cmp) (items : List (Item K V)) :
    ∃ r, algokit_sort_quick cmp items = some (0, r) ∧ r.Perm items ∧
      r.length = items.length ∧ r.Pairwise (fun a b => cmp a.key b.key ≤ 0) := by
  obtain ⟨r, h1, h2, h3⟩ := sort_quick_spec hc items
  exact ⟨r, h1, h2, h2.length_eq, h3⟩

/-- C32, witness: the keys 5, 1, 4, 2, 3 of the test become 1, 2, 3, 4, 5. -/
theorem sort_quick_sorts_witness :
    CmpOrder int_cmp ∧
    algokit_sort_quick int_cmp sort_test_items =
      some (0, [⟨1, ()⟩, ⟨2, ()⟩, ⟨3, ()⟩, ⟨4, ()⟩, ⟨5, ()⟩]) ∧
    ∃ r, algokit_sort_quick int_cmp sort_test_items = some (0, r) ∧ r.Perm sort_test_items ∧
      r.length = sort_test_items.length ∧
      r.Pairwise (fun a b => int_cmp a.key b.key ≤ 0) :=
  ⟨int_cmp_order, by decide, sort_quick_sorts int_cmp_order sort_test_items⟩

end sort_quick_claims
